import Mathlib

/-!
# Beast `basic_inflate_stream` : a shallow embedding of `inflate.cpp`

The development embeds `include/beast/detail/zlib/impl/inflate.cpp`:
`reset`, `resetKeep`, `fixedTables`, `updatewindow`, the bit-reader macros,
the mode state machine of `write` and the fast decoder `inflate_fast`.

Conventions of the embedding.

* Bytes and all `unsigned` quantities are natural numbers.  Subtractions that the
  code guards itself (`DROPBITS` after `NEEDBITS`, `length -= copy` after the
  clamps) are plain; subtractions of `unsigned` values that the code does not
  guard locally are `usub`, the 32-bit wrap-around difference.
* `next_in` is the list of the `avail_in` bytes readable at the input cursor, so
  `avail_in` is its length; `in_null` records a null `next_in` pointer.
* `next_out` is the list of bytes that lie in the caller's buffer before the
  output cursor (writing appends to it); `avail_out` is the free space after the
  cursor and `out_null` records a null `next_out` pointer.
* `std::malloc` is a parameter `alloc`: `none` is a failed allocation, `some w`
  the (arbitrary) initial content of the block.
* `inflate_table` is a parameter `tb`; the fixed tables are `lenfix`/`distfix`.
* `for (;;)` loops whose length no argument bounds take a fuel argument; running
  out of fuel is `none`.
-/

namespace Beast

/-! ## Data model -/

/-- Huffman decoding table entry `code` : operation byte, code bits, value. -/
structure code where
  op : Nat
  bits : Nat
  val : Nat
deriving DecidableEq, Repr, Inhabited

/-- Modelled from the spec: the `inflate_mode` enumeration is declared in a header
outside the source; the states are those of spec section 4.4, in that order. -/
inductive Mode
  | HEAD | TYPE | TYPEDO | STORED | COPY_ | COPY | TABLE | LENLENS | CODELENS
  | LEN_ | LEN | LENEXT | DIST | DISTEXT | MATCH | LIT | CHECK | DONE | BAD | MEM | SYNC
deriving DecidableEq, Repr, Inhabited

/-- Position of a mode in the enumeration, used by the comparisons `mode < BAD`
and `mode < CHECK` at the leave-point. -/
def Mode.rank : Mode → Nat
  | .HEAD => 0 | .TYPE => 1 | .TYPEDO => 2 | .STORED => 3 | .COPY_ => 4 | .COPY => 5
  | .TABLE => 6 | .LENLENS => 7 | .CODELENS => 8 | .LEN_ => 9 | .LEN => 10
  | .LENEXT => 11 | .DIST => 12 | .DISTEXT => 13 | .MATCH => 14 | .LIT => 15
  | .CHECK => 16 | .DONE => 17 | .BAD => 18 | .MEM => 19 | .SYNC => 20

/-- Kind of table requested from `inflate_table`. -/
inductive codetype
  | CODES | LENS | DISTS
deriving DecidableEq, Repr

/-- Where a table pointer (`lencode`, `distcode`) points: into the stream's own
`codes` storage at an offset, or at one of the two fixed tables. -/
inductive codeptr
  | codes (off : Nat)
  | lenfix
  | distfix
deriving DecidableEq, Repr, Inhabited

/-- Status codes returned by `write`. -/
def Z_OK : Int := 0
/-- Status: end of the deflate stream reached. -/
def Z_STREAM_END : Int := 1
/-- Status: invalid arguments or state. -/
def Z_STREAM_ERROR : Int := -2
/-- Status: malformed deflate data. -/
def Z_DATA_ERROR : Int := -3
/-- Status: window allocation failed. -/
def Z_MEM_ERROR : Int := -4
/-- Status: no progress possible. -/
def Z_BUF_ERROR : Int := -5

/-- Flush code `NO_FLUSH`. -/
def Z_NO_FLUSH : Int := 0
/-- Flush code `SYNC_FLUSH`. -/
def Z_SYNC_FLUSH : Int := 2
/-- Flush code `FULL_FLUSH`. -/
def Z_FULL_FLUSH : Int := 3
/-- Flush code `FINISH`. -/
def Z_FINISH : Int := 4
/-- Flush code `BLOCK`. -/
def Z_BLOCK : Int := 5
/-- Flush code `TREES`. -/
def Z_TREES : Int := 6

/-- The stream: the caller's descriptor (`next_in` .. `data_type`) together with
the inflater's private state. -/
structure inflate_stream where
  in_null : Bool
  next_in : List Nat
  out_null : Bool
  next_out : List Nat
  avail_out : Nat
  total_in : Nat
  total_out : Nat
  msg : Option String
  data_type : Nat
  mode : Mode
  last : Nat
  dmax : Nat
  total : Nat
  wbits : Nat
  wsize : Nat
  whave : Nat
  wnext : Nat
  window : Option (List Nat)
  hold : Nat
  bits : Nat
  length : Nat
  offset : Nat
  extra : Nat
  lencode : codeptr
  distcode : codeptr
  lenbits : Nat
  distbits : Nat
  ncode : Nat
  nlen : Nat
  ndist : Nat
  have_ : Nat
  next : Nat
  lens : List Nat
  codes : List code
  sane : Nat
  back : Int
  was : Nat
deriving DecidableEq, Repr

/-- The `avail_in` field: number of bytes readable at `next_in`. -/
def inflate_stream.avail_in (s : inflate_stream) : Nat := s.next_in.length

/-- Difference of two `unsigned` values, with 32-bit wrap-around. -/
def usub (a b : Nat) : Nat := (a + 4294967296 - b % 4294967296) % 4294967296

/-- The type of the table builder `inflate_table(type, lens, codes, &table, &bits, work)`:
from the kind, the `codes` code lengths and the requested root bits it gives the
return code, the entries written at `*table` and the root bits actually used. -/
abbrev table_builder := codetype → List Nat → Nat → Int × List code × Nat

/-- The type of `std::malloc` restricted to the window allocation. -/
abbrev allocator := Nat → Option (List Nat)

/-! ## Fixed tables -/

/-- Reverse the low `n` bits of `x`. -/
def bitrev : Nat → Nat → Nat
  | 0, _ => 0
  | n + 1, x => (x % 2) * 2 ^ n + bitrev n (x / 2)

/-- Extra bits of length symbol `257 + i` (RFC 1951, 3.2.5): none for the first eight
symbols and for the last one (length 258), then one more every four symbols. -/
def lext (i : Nat) : Nat := if i = 28 then 0 else (i - 4) / 4

/-- Base match length of length symbol `257 + i`: 3 .. 10, then four bases for each
number of extra bits, and 258 for the last symbol. -/
def lbase (i : Nat) : Nat :=
  if i < 4 then 3 + i else if i = 28 then 258 else 3 + (4 + i % 4) * 2 ^ lext i

/-- Extra bits of distance symbol `i`: none for the first four symbols, then one more
every two symbols. -/
def dext (i : Nat) : Nat := (i - 2) / 2

/-- Base distance of distance symbol `i`: 1 .. 4, then two bases for each number of
extra bits. -/
def dbase (i : Nat) : Nat := if i < 2 then 1 + i else 1 + (2 + i % 2) * 2 ^ dext i

/-- Table entry of literal/length symbol `sym` coded on `n` bits: literal,
end-of-block (`op = 96`), length base (`op = 16 + extra`) or invalid (`op = 64`). -/
def lensym (n sym : Nat) : code :=
  if sym < 256 then ⟨0, n, sym⟩
  else if sym = 256 then ⟨96, n, 0⟩
  else if sym < 286 then ⟨16 + lext (sym - 257), n, lbase (sym - 257)⟩
  else ⟨64, n, 0⟩

/-- Table entry of distance symbol `sym` coded on `n` bits. -/
def distsym (n sym : Nat) : code :=
  if sym < 30 then ⟨16 + dext sym, n, dbase sym⟩ else ⟨64, n, 0⟩

/-- Entry `i` of the fixed literal/length table: the fixed code of RFC 1951, 3.2.6
read most-significant bit first from the bit-reversed index. -/
def lenfix_entry (i : Nat) : code :=
  let c7 := bitrev 7 (i % 128)
  let c8 := bitrev 8 (i % 256)
  let c9 := bitrev 9 (i % 512)
  if c7 < 24 then lensym 7 (256 + c7)
  else if 48 ≤ c8 ∧ c8 < 192 then lensym 8 (c8 - 48)
  else if 192 ≤ c8 ∧ c8 < 200 then lensym 8 (280 + (c8 - 192))
  else lensym 9 (144 + (c9 - 400))

/-- Modelled from the spec: `get_fixed_tables` is defined outside the source; this
is its literal/length table, 512 entries indexed by 9 bits (spec section 4.3). -/
def lenfix : List code := (List.range 512).map lenfix_entry

/-- Modelled from the spec: the fixed distance table of `get_fixed_tables`, 32
entries indexed by 5 bits (spec section 4.3). -/
def distfix : List code := (List.range 32).map (fun i => distsym 5 (bitrev 5 i))

/-- The entry `p[i]` of the table that `p` points to, `codes` being the stream's own
table storage. -/
def code_at (codes : List code) (p : codeptr) (i : Nat) : code :=
  match p with
  | .codes off => codes.getD (off + i) default
  | .lenfix => lenfix.getD i default
  | .distfix => distfix.getD i default

/-- The entry `p[i]` of the table that `p` points to. -/
def inflate_stream.tab (s : inflate_stream) (p : codeptr) (i : Nat) : code :=
  code_at s.codes p i

/-! ## reset, resetKeep, fixedTables -/

/-- The function `resetKeep`. -/
def resetKeep (s : inflate_stream) : inflate_stream :=
  { s with
    total_in := 0, total_out := 0, total := 0,
    msg := none,
    mode := .HEAD,
    last := 0,
    dmax := 32768,
    hold := 0,
    bits := 0,
    lencode := .codes 0, distcode := .codes 0, next := 0,
    sane := 1,
    back := -1 }

/-- The function `reset(windowBits)`; `none` is the thrown `domain_error`. -/
def reset (windowBits : Nat) (s : inflate_stream) : Option inflate_stream :=
  if windowBits < 8 ∨ windowBits > 15 then none
  else
    let s1 := if s.window.isSome ∧ s.wbits ≠ windowBits then { s with window := none } else s
    some (resetKeep { s1 with wbits := windowBits, wsize := 0, whave := 0, wnext := 0 })

/-- The function `fixedTables`. -/
def fixedTables (s : inflate_stream) : inflate_stream :=
  { s with lencode := .lenfix, lenbits := 9, distcode := .distfix, distbits := 5 }

/-- An object before its constructor ran: every field zero or null. -/
def zero_stream : inflate_stream :=
  { in_null := true, next_in := [], out_null := true, next_out := [], avail_out := 0,
    total_in := 0, total_out := 0, msg := none, data_type := 0, mode := .HEAD, last := 0,
    dmax := 0, total := 0, wbits := 0, wsize := 0, whave := 0, wnext := 0, window := none,
    hold := 0, bits := 0, length := 0, offset := 0, extra := 0, lencode := .codes 0,
    distcode := .codes 0, lenbits := 0, distbits := 0, ncode := 0, nlen := 0, ndist := 0,
    have_ := 0, next := 0, lens := List.replicate 320 0, codes := List.replicate 1444 default, sane := 0, back := 0,
    was := 0 }

/-- A freshly constructed and reset inflater with window bits `wbits`
(`fresh 15` is what the constructor builds). -/
def fresh (wbits : Nat) : inflate_stream :=
  (reset wbits zero_stream).getD zero_stream

/-- The caller hands the inflater an input buffer and an empty output buffer of
capacity `cap`. -/
def inflate_stream.feed (s : inflate_stream) (input : List Nat) (cap : Nat) : inflate_stream :=
  { s with in_null := false, next_in := input, out_null := false, next_out := [],
           avail_out := cap }

/-! ## updatewindow -/

/-- The last `n` elements of a list (`end - n .. end`). -/
def lastn (n : Nat) (l : List Nat) : List Nat := l.drop (l.length - n)

/-- The call `memcpy(w + pos, src, src.length)` on the window `w`. -/
def memcpy_at (w : List Nat) (pos : Nat) (src : List Nat) : List Nat :=
  w.take pos ++ src ++ w.drop (pos + src.length)

/-- The function `updatewindow(end, copy)`, `end_` being the bytes before `end`.
Returns the new state and the return value (1 when the allocation failed). -/
def updatewindow (alloc : allocator) (s : inflate_stream) (end_ : List Nat) (copy : Nat) :
    inflate_stream × Nat :=
  -- if it hasn't been done already, allocate space for the window
  match (match s.window with
         | some w => some w
         | none => alloc (2 ^ s.wbits)) with
  | none => (s, 1)
  | some w =>
    -- if window not in use yet, initialize
    let s1 : inflate_stream :=
      if s.wsize = 0 then { s with window := some w, wsize := 2 ^ s.wbits, wnext := 0, whave := 0 }
      else { s with window := some w }
    -- copy wsize or less output bytes into the circular window
    if copy ≥ s1.wsize then
      ({ s1 with window := some (memcpy_at w 0 (lastn s1.wsize end_)), wnext := 0,
                 whave := s1.wsize }, 0)
    else
      let dist := min (s1.wsize - s1.wnext) copy
      let w1 := memcpy_at w s1.wnext ((lastn copy end_).take dist)
      let copy1 := copy - dist
      if copy1 ≠ 0 then
        ({ s1 with window := some (memcpy_at w1 0 (lastn copy1 end_)), wnext := copy1,
                   whave := s1.wsize }, 0)
      else
        let wnext1 := s1.wnext + dist
        let wnext2 := if wnext1 = s1.wsize then 0 else wnext1
        ({ s1 with window := some w1, wnext := wnext2,
                   whave := if s1.whave < s1.wsize then s1.whave + dist else s1.whave }, 0)

/-! ## Bit reader -/

/-- The loop `while (need) PULLBYTE();` on the accumulator `hold`, `bits` and the
input: bytes are pulled while `need hold bits` holds and input remains. -/
def pull_while (need : Nat → Nat → Bool) : Nat → Nat → List Nat → Nat × Nat × List Nat
  | hold, bits, [] => (hold, bits, [])
  | hold, bits, b :: rest =>
    if need hold bits then pull_while need (hold + b * 2 ^ bits) (bits + 8) rest
    else (hold, bits, b :: rest)

/-- Run a `PULLBYTE` loop on the stream.  When `need` still holds of the result the
input ran out and the code has jumped to `inf_leave`. -/
def inflate_stream.pull (s : inflate_stream) (need : Nat → Nat → Bool) : inflate_stream :=
  let r := pull_while need s.hold s.bits s.next_in
  { s with hold := r.1, bits := r.2.1, next_in := r.2.2 }

/-- The macro `NEEDBITS(n)`; the jump to `inf_leave` was taken iff `bits < n` afterwards. -/
def NEEDBITS (n : Nat) (s : inflate_stream) : inflate_stream :=
  s.pull (fun _ bits => decide (bits < n))

/-- The macro `BITS(n)`. -/
def BITS (n : Nat) (s : inflate_stream) : Nat := s.hold % 2 ^ n

/-- The macro `DROPBITS(n)`. -/
def DROPBITS (n : Nat) (s : inflate_stream) : inflate_stream :=
  { s with hold := s.hold / 2 ^ n, bits := s.bits - n }

/-- The macro `BYTEBITS()`. -/
def BYTEBITS (s : inflate_stream) : inflate_stream :=
  { s with hold := s.hold / 2 ^ (s.bits % 8), bits := s.bits - s.bits % 8 }

/-- The macro `INITBITS()`. -/
def INITBITS (s : inflate_stream) : inflate_stream :=
  { s with hold := 0, bits := 0 }

/-- How a pass through `switch (strm->mode)` ends: `break` (next pass of `for (;;)`),
`goto inf_leave`, or a direct `return`.  The local `ret` is carried along. -/
inductive outcome
  | cont (s : inflate_stream) (ret : Int)
  | leave (s : inflate_stream) (ret : Int)
  | done (s : inflate_stream) (ret : Int)
deriving DecidableEq, Repr

/-- The permutation `order` of the code-length code lengths. -/
def order : List Nat := [16, 17, 18, 0, 8, 7, 9, 6, 10, 5, 11, 4, 12, 3, 13, 2, 14, 1, 15]

/-- Store `src` into the `codes` array at offset `pos`.  The array of the source has
a fixed size that covers every offset in use; a list shorter than `pos` is first
extended with empty entries, so that the stored entries always start at `pos`. -/
def store_codes (codes : List code) (pos : Nat) (src : List code) : List code :=
  codes.take pos ++ List.replicate (pos - codes.length) default ++ src ++
    codes.drop (pos + src.length)

/-! ## Stored blocks -/

/-- The cases `COPY_` (falls into `COPY`) and `COPY`. -/
def case_COPY (s0 : inflate_stream) (ret : Int) : outcome :=
  let s := { s0 with mode := .COPY }
  if s.length ≠ 0 then
    let copy := min (min s.length s.avail_in) s.avail_out
    if copy = 0 then .leave s ret
    else
      .cont { s with next_out := s.next_out ++ s.next_in.take copy,
                     next_in := s.next_in.drop copy,
                     avail_out := s.avail_out - copy,
                     length := s.length - copy } ret
  else .cont { s with mode := .TYPE } ret

/-- The case `STORED`, falling into `COPY_` when the length header is valid. -/
def case_STORED (flush : Int) (s0 : inflate_stream) (ret : Int) : outcome :=
  let s := NEEDBITS 32 (BYTEBITS s0)
  if s.bits < 32 then .leave s ret
  else if s.hold % 65536 ≠ (s.hold / 65536) ^^^ 65535 then
    .cont { s with msg := some "invalid stored block lengths", mode := .BAD } ret
  else
    let s1 := { INITBITS { s with length := s.hold % 65536 } with mode := .COPY_ }
    if flush = Z_TREES then .leave s1 ret
    else case_COPY s1 ret

/-! ## Block header -/

/-- The case `TYPEDO`. -/
def case_TYPEDO (flush : Int) (s0 : inflate_stream) (ret : Int) : outcome :=
  if s0.last ≠ 0 then .cont { BYTEBITS s0 with mode := .CHECK } ret
  else
    let s := NEEDBITS 3 s0
    if s.bits < 3 then .leave s ret
    else
      let s1 := DROPBITS 1 { s with last := BITS 1 s }
      match BITS 2 s1 with
      | 0 => .cont (DROPBITS 2 { s1 with mode := .STORED }) ret
      | 1 =>
        let s2 := { fixedTables s1 with mode := .LEN_ }
        if flush = Z_TREES then .leave (DROPBITS 2 s2) ret
        else .cont (DROPBITS 2 s2) ret
      | 2 => .cont (DROPBITS 2 { s1 with mode := .TABLE }) ret
      | _ => .cont (DROPBITS 2 { s1 with msg := some "invalid block type", mode := .BAD }) ret

/-- The case `TYPE`, falling into `TYPEDO`. -/
def case_TYPE (flush : Int) (s : inflate_stream) (ret : Int) : outcome :=
  if flush = Z_BLOCK ∨ flush = Z_TREES then .leave s ret
  else case_TYPEDO flush s ret

/-! ## Literals and matches: the slow decoder -/

/-- The case `LIT`. -/
def case_LIT (s : inflate_stream) (ret : Int) : outcome :=
  if s.avail_out = 0 then .leave s ret
  else
    .cont { s with next_out := s.next_out ++ [s.length % 256],
                   avail_out := s.avail_out - 1,
                   mode := .LEN } ret

/-- Number of passes of `do ... while (--copy)` entered with `copy`. -/
def dowhile_count (copy : Nat) : Nat := if copy = 0 then 4294967296 else copy

/-- The `n` bytes `w[idx], w[idx + 1], ...` read from the window. -/
def wread (w : List Nat) (idx n : Nat) : List Nat :=
  (List.range n).map (fun i => w.getD (idx + i) 0)

/-- Copy `n` bytes one at a time from `dist` bytes behind the output cursor to the
cursor (source and destination may overlap). -/
def out_copy (dist : Nat) : Nat → List Nat → List Nat
  | 0, out => out
  | n + 1, out => out_copy dist n (out ++ [out.getD (out.length - dist) 0])

/-- The window index of `from` in the case `MATCH`, for a source `copy` bytes back in
the window: `wsize - (copy - wnext)` when the source wraps, else `wnext - copy`. -/
def match_from (s : inflate_stream) (copy : Nat) : Nat :=
  if copy > s.wnext then usub s.wsize (copy - s.wnext) else s.wnext - copy

/-- The number of bytes one pass of the case `MATCH` takes from the window: the run up
to the end of the window or up to `wnext`, clamped by `length` and `avail_out`. -/
def match_wcount (s : inflate_stream) (copy : Nat) : Nat :=
  min (min (if copy > s.wnext then copy - s.wnext else copy) s.length) s.avail_out

/-- The end of the case `MATCH`: the counters are decreased by `copy`, the bytes are
written, and the mode goes back to `LEN` when the match is complete. -/
def match_emit (s : inflate_stream) (copy : Nat) (next_out : List Nat) : inflate_stream :=
  let s1 := { s with avail_out := s.avail_out - copy, length := s.length - copy,
                     next_out := next_out }
  if s1.length = 0 then { s1 with mode := .LEN } else s1

/-- The case `MATCH`; `out` is the value of `avail_out` when `write` was entered. -/
def case_MATCH (out : Nat) (s : inflate_stream) (ret : Int) : outcome :=
  if s.avail_out = 0 then .leave s ret
  else
    let copy := usub out s.avail_out
    if s.offset > copy then
      -- copy from window
      let copy := s.offset - copy
      if copy > s.whave ∧ s.sane ≠ 0 then
        .cont { s with msg := some "invalid distance too far back", mode := .BAD } ret
      else
        let n := match_wcount s copy
        .cont (match_emit s n
          (s.next_out ++ wread (s.window.getD []) (match_from s copy) (dowhile_count n))) ret
    else
      -- copy from output
      let n := min s.length s.avail_out
      .cont (match_emit s n (out_copy s.offset (dowhile_count n) s.next_out)) ret

/-- The case `DISTEXT`, falling into `MATCH`. -/
def case_DISTEXT (out : Nat) (s0 : inflate_stream) (ret : Int) : outcome :=
  if s0.extra ≠ 0 then
    let s := NEEDBITS s0.extra s0
    if s.bits < s0.extra then .leave s ret
    else
      let s1 := DROPBITS s.extra { s with offset := s.offset + BITS s.extra s }
      case_MATCH out { s1 with back := s1.back + s1.extra, mode := .MATCH } ret
  else case_MATCH out { s0 with mode := .MATCH } ret

/-- The first-level lookup loop
`for (;;) { here = table[BITS(tbits)]; if (here.bits <= bits) break; PULLBYTE(); }`. -/
def lookup1 (s : inflate_stream) (p : codeptr) (tbits : Nat) : inflate_stream :=
  s.pull (fun hold bits => decide (bits < (s.tab p (hold % 2 ^ tbits)).bits))

/-- The entry `here = table[BITS(tbits)]` of a first-level lookup. -/
def here1 (s : inflate_stream) (p : codeptr) (tbits : Nat) : code :=
  s.tab p (BITS tbits s)

/-- The second-level lookup loop below the first-level entry `last`,
`for (;;) { here = table[last.val + (BITS(last.bits + last.op) >> last.bits)];
if (last.bits + here.bits <= bits) break; PULLBYTE(); }`. -/
def lookup2 (s : inflate_stream) (p : codeptr) (last : code) : inflate_stream :=
  s.pull (fun hold bits =>
    decide (bits < last.bits +
      (s.tab p (last.val + hold % 2 ^ (last.bits + last.op) / 2 ^ last.bits)).bits))

/-- The entry `here` of a second-level lookup below `last`. -/
def here2 (s : inflate_stream) (p : codeptr) (last : code) : code :=
  s.tab p (last.val + BITS (last.bits + last.op) s / 2 ^ last.bits)

/-- The statements of a second-level lookup after its loop:
`DROPBITS(last.bits); strm->back += last.bits;`. -/
def drop_last (last : code) (s : inflate_stream) : inflate_stream :=
  let s1 := DROPBITS last.bits s
  { s1 with back := s1.back + last.bits }

/-- The case `DIST` from `DROPBITS(here.bits)` on, falling into `DISTEXT`. -/
def dist_go (out : Nat) (s : inflate_stream) (here : code) (ret : Int) : outcome :=
  let s1 := DROPBITS here.bits s
  let s2 := { s1 with back := s1.back + here.bits }
  if here.op &&& 64 ≠ 0 then
    .cont { s2 with msg := some "invalid distance code", mode := .BAD } ret
  else
    case_DISTEXT out { s2 with offset := here.val, extra := here.op &&& 15,
                               mode := .DISTEXT } ret

/-- The case `DIST`. -/
def case_DIST (out : Nat) (s0 : inflate_stream) (ret : Int) : outcome :=
  let s := lookup1 s0 s0.distcode s0.distbits
  let here := here1 s s0.distcode s0.distbits
  if s.bits < here.bits then .leave s ret
  else if here.op &&& 240 = 0 then
    let last := here
    let s1 := lookup2 s s0.distcode last
    let here := here2 s1 s0.distcode last
    if s1.bits < last.bits + here.bits then .leave s1 ret
    else dist_go out (drop_last last s1) here ret
  else dist_go out s here ret

/-- The case `LENEXT`, falling into `DIST`. -/
def case_LENEXT (out : Nat) (s0 : inflate_stream) (ret : Int) : outcome :=
  if s0.extra ≠ 0 then
    let s := NEEDBITS s0.extra s0
    if s.bits < s0.extra then .leave s ret
    else
      let s1 := DROPBITS s.extra { s with length := s.length + BITS s.extra s }
      let s2 := { s1 with back := s1.back + s1.extra }
      case_DIST out { s2 with was := s2.length, mode := .DIST } ret
  else case_DIST out { s0 with was := s0.length, mode := .DIST } ret

/-- The case `LEN` from `DROPBITS(here.bits)` on, falling into `LENEXT` for a length
code. -/
def len_go (out : Nat) (s : inflate_stream) (here : code) (ret : Int) : outcome :=
  let s1 := DROPBITS here.bits s
  let s2 := { s1 with back := s1.back + here.bits, length := here.val }
  if here.op = 0 then .cont { s2 with mode := .LIT } ret
  else if here.op &&& 32 ≠ 0 then .cont { s2 with back := -1, mode := .TYPE } ret
  else if here.op &&& 64 ≠ 0 then
    .cont { s2 with msg := some "invalid literal/length code", mode := .BAD } ret
  else case_LENEXT out { s2 with extra := here.op &&& 15, mode := .LENEXT } ret

/-- The slow branch of the case `LEN` (taken when `avail_in < 6` or
`avail_out < 258`). -/
def case_LEN_slow (out : Nat) (s0 : inflate_stream) (ret : Int) : outcome :=
  let s := lookup1 { s0 with back := 0 } s0.lencode s0.lenbits
  let here := here1 s s0.lencode s0.lenbits
  if s.bits < here.bits then .leave s ret
  else if here.op ≠ 0 ∧ here.op &&& 240 = 0 then
    let last := here
    let s1 := lookup2 s s0.lencode last
    let here := here2 s1 s0.lencode last
    if s1.bits < last.bits + here.bits then .leave s1 ret
    else len_go out (drop_last last s1) here ret
  else len_go out s here ret

/-! ## The fast decoder `inflate_fast` -/

/-- Local variables of `inflate_fast` that change in the loop: `cin` is the number
of input bytes read since entry (`in` relative to its entry value), `out` the bytes
before the output cursor, `hold` and `bits` the local bit accumulator. -/
structure fast_locals where
  cin : Nat
  out : List Nat
  hold : Nat
  bits : Nat
deriving DecidableEq, Repr

/-- How a pass of the `do ... while` loop of `inflate_fast` ends: at the loop test,
or by `break` with the mode (and message) it set. -/
inductive fast_end
  | test (l : fast_locals)
  | brk (l : fast_locals) (mode : Mode) (msg : Option String)
deriving DecidableEq, Repr

/-- The statement pair `hold += (unsigned long)(PUP(in)) << bits; bits += 8;`.  A read past
the end of the input buffer `inp` yields 0 in the model. -/
def fast_locals.pull (inp : List Nat) (l : fast_locals) : fast_locals :=
  { l with hold := l.hold + inp.getD l.cin 0 * 2 ^ l.bits, bits := l.bits + 8, cin := l.cin + 1 }

/-- The refill `if (bits < 15) { two pulls }`. -/
def fast_locals.refill (inp : List Nat) (l : fast_locals) : fast_locals :=
  if l.bits < 15 then (l.pull inp).pull inp else l

/-- The statement pair `hold >>= op; bits -= op;`. -/
def fast_locals.drop (op : Nat) (l : fast_locals) : fast_locals :=
  { l with hold := l.hold / 2 ^ op, bits := usub l.bits op }

/-- The statement `if (bits < op) { one pull }`. -/
def fast_locals.need1 (inp : List Nat) (op : Nat) (l : fast_locals) : fast_locals :=
  if l.bits < op then l.pull inp else l

/-- The statement `if (bits < op) { one pull; if (bits < op) { one pull } }`. -/
def fast_locals.need2 (inp : List Nat) (op : Nat) (l : fast_locals) : fast_locals :=
  if l.bits < op then (l.pull inp).need1 inp op else l

/-- The length of a match in `inflate_fast`: the base `len` plus `op` extra bits, and
the locals after those bits are dropped (`op` is zero for a base without extra bits). -/
def fast_len_extra (inp : List Nat) (len op : Nat) (l : fast_locals) : Nat × fast_locals :=
  if op ≠ 0 then
    (len + (l.need1 inp op).hold % 2 ^ op, (l.need1 inp op).drop op)
  else (len, l)

/-- Number of bytes moved by `do { three copies; len -= 3; } while (len > 2);` and its
one- or two-byte tail, entered with `len`. -/
def fast_direct_count (len : Nat) : Nat := if 3 ≤ len then len else len + 4294967296

/-- The match copy of `inflate_fast` when the distance reaches into the window
(`op` bytes back in the window, `0 < op`): the three window layouts, then the
remainder from the output. -/
def fast_window_copy (window : List Nat) (wsize wnext : Nat) (out : List Nat)
    (op len dist : Nat) : List Nat :=
  if wnext = 0 then
    -- very common case
    let from_ := usub wsize op
    if op < len then out_copy dist (len - op) (out ++ wread window from_ op)
    else out ++ wread window from_ len
  else if wnext < op then
    -- wrap around window
    let from_ := usub (wsize + wnext) op
    let op := op - wnext
    if op < len then
      let len := len - op
      let out := out ++ wread window from_ op
      if wnext < len then out_copy dist (len - wnext) (out ++ wread window 0 wnext)
      else out ++ wread window 0 len
    else out ++ wread window from_ len
  else
    -- contiguous in window
    let from_ := wnext - op
    if op < len then out_copy dist (len - op) (out ++ wread window from_ op)
    else out ++ wread window from_ len

/-- The code at label `dodist` of `inflate_fast`, with the decoded match length `len`;
`beg` is the number of bytes `out - beg` stood at on entry of `inflate_fast` and
`out0` the length of the output on entry.  `none`: out of fuel. -/
def fast_dodist (s : inflate_stream) (inp : List Nat) (beg out0 : Nat) (len : Nat) :
    Nat → code → fast_locals → Option fast_end
  | 0, _, _ => none
  | fuel + 1, here, l =>
    let l := l.drop here.bits
    let op := here.op
    if op &&& 16 ≠ 0 then
      -- distance base
      let dist := here.val
      let op := op &&& 15
      let l := l.need2 inp op
      let dist := dist + l.hold % 2 ^ op
      let l := l.drop op
      -- max distance in output
      let op := beg + (l.out.length - out0)
      if dist > op then
        -- see if copy from window
        let op := dist - op
        if op > s.whave ∧ s.sane ≠ 0 then
          some (.brk l .BAD (some "invalid distance too far back"))
        else
          some (.test { l with out := fast_window_copy (s.window.getD []) s.wsize s.wnext
                                        l.out op len dist })
      else
        -- copy direct from output
        some (.test { l with out := out_copy dist (fast_direct_count len) l.out })
    else if op &&& 64 = 0 then
      -- 2nd level distance code
      fast_dodist s inp beg out0 len fuel (s.tab s.distcode (here.val + l.hold % 2 ^ op)) l
    else some (.brk l .BAD (some "invalid distance code"))

/-- The code at label `dolen` of `inflate_fast`.  `none`: out of fuel. -/
def fast_dolen (s : inflate_stream) (inp : List Nat) (beg out0 : Nat) :
    Nat → code → fast_locals → Option fast_end
  | 0, _, _ => none
  | fuel + 1, here, l =>
    let l := l.drop here.bits
    let op := here.op
    if op = 0 then
      -- literal
      some (.test { l with out := l.out ++ [here.val % 256] })
    else if op &&& 16 ≠ 0 then
      -- length base
      let r := fast_len_extra inp here.val (op &&& 15) l
      let l := r.2.refill inp
      fast_dodist s inp beg out0 r.1 (fuel + 1) (s.tab s.distcode (l.hold % 2 ^ s.distbits)) l
    else if op &&& 64 = 0 then
      -- 2nd level length code
      fast_dolen s inp beg out0 fuel (s.tab s.lencode (here.val + l.hold % 2 ^ op)) l
    else if op &&& 32 ≠ 0 then
      -- end-of-block
      some (.brk l .TYPE s.msg)
    else some (.brk l .BAD (some "invalid literal/length code"))

/-- The loop `do ... while (in < last && out < end)` of `inflate_fast`; `inp` is the
input buffer on entry and `last`, `end_` are the two limits counted from the entry
cursors.  `none`: out of fuel. -/
def fast_loop (s : inflate_stream) (inp : List Nat) (beg out0 last end_ : Nat) :
    Nat → fast_locals → Option fast_end
  | 0, _ => none
  | fuel + 1, l =>
    let l := l.refill inp
    match fast_dolen s inp beg out0 (fuel + 1) (s.tab s.lencode (l.hold % 2 ^ s.lenbits)) l with
    | none => none
    | some (.brk l m msg) => some (.brk l m msg)
    | some (.test l) =>
      if l.cin < last ∧ l.out.length - out0 < end_ then fast_loop s inp beg out0 last end_ fuel l
      else some (.test l)

/-- The input cursor after `in -= len`, as the list of bytes readable at it: `cin`
bytes were read and `len` are given back.  Giving back more than was read moves the
cursor before the buffer; the bytes there are not part of the model and read 0. -/
def fast_unread (inp : List Nat) (cin len : Nat) : List Nat :=
  if len ≤ cin then inp.drop (cin - len) else List.replicate (len - cin) 0 ++ inp

/-- The function `inflate_fast(strm, start)`.  `none`: out of fuel. -/
def inflate_fast (fuel : Nat) (s : inflate_stream) (start : Nat) : Option inflate_stream :=
  -- copy state to local variables
  let last := usub s.avail_in 5
  let beg := usub start s.avail_out
  let end_ := usub s.avail_out 257
  let out0 := s.next_out.length
  match fast_loop s s.next_in beg out0 last end_ fuel ⟨0, s.next_out, s.hold, s.bits⟩ with
  | none => none
  | some r =>
    let l := match r with
      | .test l => l
      | .brk l _ _ => l
    let s1 : inflate_stream := match r with
      | .test _ => s
      | .brk _ m msg => { s with mode := m, msg := msg }
    -- return unused bytes (on entry, bits < 8, so in won't go too far back)
    let len := l.bits / 8
    let bits := l.bits - len * 8
    let hold := l.hold % 2 ^ bits
    -- update state and return
    let wr := l.out.length - out0
    some { s1 with next_in := fast_unread s.next_in l.cin len,
                   next_out := l.out,
                   avail_out := if wr < end_ then 257 + (end_ - wr) else usub 257 (wr - end_),
                   hold := hold,
                   bits := bits }

/-! ## Dispatch to the fast decoder, dynamic block headers -/

/-- The cases `LEN_` (falls into `LEN`) and `LEN`.  `none`: `inflate_fast` ran out of
fuel. -/
def case_LEN (fuel : Nat) (out : Nat) (s0 : inflate_stream) (ret : Int) : Option outcome :=
  let s := { s0 with mode := .LEN }
  if s.avail_in ≥ 6 ∧ s.avail_out ≥ 258 then
    match inflate_fast fuel s out with
    | none => none
    | some s1 => some (.cont (if s1.mode = .TYPE then { s1 with back := -1 } else s1) ret)
  else some (case_LEN_slow out s ret)

/-- Result of one pass of an inner `while` loop: go on, `goto inf_leave`, or `break`. -/
inductive loop_end
  | go | leave | brk
deriving DecidableEq, Repr

/-- The loop `while (copy--) lens[have++] = len;` on the array `lens`. -/
def fill_lens (len : Nat) : Nat → Nat → List Nat → List Nat
  | 0, _, lens => lens
  | copy + 1, have_, lens => fill_lens len copy (have_ + 1) (lens.set have_ len)

/-- Number of extra bits read after the repeat codes 16, 17 and 18. -/
def rep_extra (val : Nat) : Nat := if val = 16 then 2 else if val = 17 then 3 else 7

/-- Smallest repeat count of the repeat codes: 3 for 16 and 17, 11 for 18. -/
def rep_base (val : Nat) : Nat := if val = 16 ∨ val = 17 then 3 else 11

/-- The length a repeat code stores: the previous length for 16, zero for 17 and 18. -/
def rep_len (val : Nat) (s : inflate_stream) : Nat :=
  if val = 16 then s.lens.getD (s.have_ - 1) 0 else 0

/-- The body of `while (have < nlen + ndist)` in the case `CODELENS`: decode one
code-length symbol and store the lengths it stands for. -/
def codelens_body (s0 : inflate_stream) : inflate_stream × loop_end :=
  let s := lookup1 s0 s0.lencode s0.lenbits
  let here := here1 s s0.lencode s0.lenbits
  if s.bits < here.bits then (s, .leave)
  else if here.val < 16 then
    let s1 := DROPBITS here.bits s
    ({ s1 with lens := s1.lens.set s1.have_ here.val, have_ := s1.have_ + 1 }, .go)
  else
    let n := rep_extra here.val
    let s1 := NEEDBITS (here.bits + n) s
    if s1.bits < here.bits + n then (s1, .leave)
    else
      let s2 := DROPBITS here.bits s1
      if here.val = 16 ∧ s2.have_ = 0 then
        ({ s2 with msg := some "invalid bit length repeat", mode := .BAD }, .brk)
      else
        let copy := rep_base here.val + BITS n s2
        let s3 := DROPBITS n s2
        if s3.have_ + copy > s3.nlen + s3.ndist then
          ({ s3 with msg := some "invalid bit length repeat", mode := .BAD }, .brk)
        else
          ({ s3 with lens := fill_lens (rep_len here.val s2) copy s3.have_ s3.lens,
                     have_ := s3.have_ + copy }, .go)

/-- The loop `while (have < nlen + ndist)` of the case `CODELENS`; every pass that goes
on increases `have`, so `nlen + ndist - have` passes are enough. -/
def codelens_loop : Nat → inflate_stream → inflate_stream × loop_end
  | 0, s => (s, .go)
  | k + 1, s =>
    if s.have_ < s.nlen + s.ndist then
      match codelens_body s with
      | (s1, .go) => codelens_loop k s1
      | r => r
    else (s, .go)

/-- The case `CODELENS`, falling into `LEN_` once both tables are built. -/
def case_CODELENS (tb : table_builder) (fuel : Nat) (flush : Int) (out : Nat)
    (s0 : inflate_stream) (ret : Int) : Option outcome :=
  match codelens_loop (s0.nlen + s0.ndist - s0.have_) s0 with
  | (s, .leave) => some (.leave s ret)
  | (s, _) =>
    -- handle error breaks in while
    if s.mode = .BAD then some (.cont s ret)
    -- check for end-of-block code (better have one)
    else if s.lens.getD 256 0 = 0 then
      some (.cont { s with msg := some "invalid code -- missing end-of-block", mode := .BAD } ret)
    else
      -- build code tables
      let r := tb .LENS (s.lens.take s.nlen) 9
      let s1 := { s with codes := store_codes s.codes 0 r.2.1, next := r.2.1.length,
                         lencode := .codes 0, lenbits := r.2.2 }
      if r.1 ≠ 0 then
        some (.cont { s1 with msg := some "invalid literal/lengths set", mode := .BAD } r.1)
      else
        let r2 := tb .DISTS ((s1.lens.drop s1.nlen).take s1.ndist) 6
        let s2 := { s1 with codes := store_codes s1.codes s1.next r2.2.1,
                            distcode := .codes s1.next,
                            next := s1.next + r2.2.1.length, distbits := r2.2.2 }
        if r2.1 ≠ 0 then
          some (.cont { s2 with msg := some "invalid distances set", mode := .BAD } r2.1)
        else
          let s3 := { s2 with mode := .LEN_ }
          if flush = Z_TREES then some (.leave s3 r2.1)
          else case_LEN fuel out s3 r2.1

/-- The loop `while (have < ncode)` of the case `LENLENS`, run for at most `k` passes;
the flag is false when `NEEDBITS(3)` jumped to `inf_leave`. -/
def lenlens_read : Nat → inflate_stream → inflate_stream × Bool
  | 0, s => (s, true)
  | k + 1, s =>
    if s.have_ < s.ncode then
      let s1 := NEEDBITS 3 s
      if s1.bits < 3 then (s1, false)
      else
        lenlens_read k (DROPBITS 3 { s1 with lens := s1.lens.set (order.getD s1.have_ 0) (BITS 3 s1),
                                             have_ := s1.have_ + 1 })
    else (s, true)

/-- The loop `while (have < 19) lens[order[have++]] = 0;` run for at most `k` passes. -/
def lenlens_zero : Nat → inflate_stream → inflate_stream
  | 0, s => s
  | k + 1, s =>
    if s.have_ < 19 then
      lenlens_zero k { s with lens := s.lens.set (order.getD s.have_ 0) 0, have_ := s.have_ + 1 }
    else s

/-- The case `LENLENS`, falling into `CODELENS`. -/
def case_LENLENS (tb : table_builder) (fuel : Nat) (flush : Int) (out : Nat)
    (s0 : inflate_stream) (ret : Int) : Option outcome :=
  match lenlens_read (s0.ncode - s0.have_) s0 with
  | (s, false) => some (.leave s ret)
  | (s, true) =>
    let s1 := lenlens_zero (19 - s.have_) s
    let r := tb .CODES (s1.lens.take 19) 7
    let s2 := { s1 with codes := store_codes s1.codes 0 r.2.1, next := r.2.1.length,
                        lencode := .codes 0, lenbits := r.2.2 }
    if r.1 ≠ 0 then
      some (.cont { s2 with msg := some "invalid code lengths set", mode := .BAD } r.1)
    else case_CODELENS tb fuel flush out { s2 with have_ := 0, mode := .CODELENS } r.1

/-- The case `TABLE`, falling into `LENLENS`. -/
def case_TABLE (tb : table_builder) (fuel : Nat) (flush : Int) (out : Nat)
    (s0 : inflate_stream) (ret : Int) : Option outcome :=
  let s := NEEDBITS 14 s0
  if s.bits < 14 then some (.leave s ret)
  else
    let s1 := DROPBITS 5 { s with nlen := BITS 5 s + 257 }
    let s2 := DROPBITS 5 { s1 with ndist := BITS 5 s1 + 1 }
    let s3 := DROPBITS 4 { s2 with ncode := BITS 4 s2 + 4 }
    if s3.nlen > 286 ∨ s3.ndist > 30 then
      some (.cont { s3 with msg := some "too many length or distance symbols", mode := .BAD } ret)
    else case_LENLENS tb fuel flush out { s3 with have_ := 0, mode := .LENLENS } ret

/-! ## write -/

/-- One pass through `switch (strm->mode)` inside `for (;;)`.  `none`: out of fuel
in `inflate_fast`. -/
def step (tb : table_builder) (fuel : Nat) (flush : Int) (out : Nat)
    (s : inflate_stream) (ret : Int) : Option outcome :=
  match s.mode with
  | .HEAD => some (.cont { s with mode := .TYPEDO } ret)
  | .TYPE => some (case_TYPE flush s ret)
  | .TYPEDO => some (case_TYPEDO flush s ret)
  | .STORED => some (case_STORED flush s ret)
  | .COPY_ => some (case_COPY s ret)
  | .COPY => some (case_COPY s ret)
  | .TABLE => case_TABLE tb fuel flush out s ret
  | .LENLENS => case_LENLENS tb fuel flush out s ret
  | .CODELENS => case_CODELENS tb fuel flush out s ret
  | .LEN_ => case_LEN fuel out s ret
  | .LEN => case_LEN fuel out s ret
  | .LENEXT => some (case_LENEXT out s ret)
  | .DIST => some (case_DIST out s ret)
  | .DISTEXT => some (case_DISTEXT out s ret)
  | .MATCH => some (case_MATCH out s ret)
  | .LIT => some (case_LIT s ret)
  | .CHECK => some (.leave { s with mode := .DONE } Z_STREAM_END)
  | .DONE => some (.leave s Z_STREAM_END)
  | .BAD => some (.leave s Z_DATA_ERROR)
  | .MEM => some (.done s Z_MEM_ERROR)
  | .SYNC => some (.done s Z_STREAM_ERROR)

/-- The test that guards the call of `updatewindow` at `inf_leave`. -/
def leave_folds (flush : Int) (out : Nat) (s : inflate_stream) : Prop :=
  s.wsize ≠ 0 ∨ (out ≠ s.avail_out ∧ s.mode.rank < Mode.BAD.rank ∧
    (s.mode.rank < Mode.CHECK.rank ∨ flush ≠ Z_FINISH))

instance (flush : Int) (out : Nat) (s : inflate_stream) : Decidable (leave_folds flush out s) := by
  unfold leave_folds; infer_instance

/-- The guarded call `updatewindow(strm->next_out, out - strm->avail_out)` at `inf_leave`:
the state afterwards and the value returned (0 when the call is not made). -/
def leave_update (alloc : allocator) (flush : Int) (out : Nat) (s : inflate_stream) :
    inflate_stream × Nat :=
  if leave_folds flush out s then updatewindow alloc s s.next_out (usub out s.avail_out)
  else (s, 0)

/-- The value stored in `data_type` at `inf_leave`. -/
def leave_data_type (s : inflate_stream) : Nat :=
  s.bits + (if s.last ≠ 0 then 64 else 0) + (if s.mode = .TYPE then 128 else 0) +
    (if s.mode = .LEN_ ∨ s.mode = .COPY_ then 256 else 0)

/-- The value returned at `inf_leave`: `ret`, turned into `Z_BUF_ERROR` when it is `Z_OK`
and nothing was consumed or produced (`in_ = 0`, `out = 0`) or `flush` is `Z_FINISH`. -/
def leave_ret (flush : Int) (in_ out : Nat) (ret : Int) : Int :=
  if ((in_ = 0 ∧ out = 0) ∨ flush = Z_FINISH) ∧ ret = Z_OK then Z_BUF_ERROR else ret

/-- The code at label `inf_leave`; `in_` and `out` are the values of `avail_in` and
`avail_out` when `write` was entered. -/
def inf_leave (alloc : allocator) (flush : Int) (in_ out : Nat) (s : inflate_stream)
    (ret : Int) : Int × inflate_stream :=
  let upd := leave_update alloc flush out s
  if upd.2 ≠ 0 then (Z_MEM_ERROR, { upd.1 with mode := .MEM })
  else
    let s := upd.1
    let in_ := usub in_ s.avail_in
    let out := usub out s.avail_out
    (leave_ret flush in_ out ret,
     { s with total_in := s.total_in + in_,
              total_out := s.total_out + out,
              total := s.total + out,
              data_type := leave_data_type s })

/-- The loop `for (;;) switch (strm->mode)` of `write` followed by the code it leaves
to.  `none`: out of fuel. -/
def run (tb : table_builder) (alloc : allocator) (flush : Int) (in_ out : Nat) :
    Nat → inflate_stream → Int → Option (Int × inflate_stream)
  | 0, _, _ => none
  | fuel + 1, s, ret =>
    match step tb (fuel + 1) flush out s ret with
    | none => none
    | some (.cont s1 ret1) => run tb alloc flush in_ out fuel s1 ret1
    | some (.leave s1 ret1) => some (inf_leave alloc flush in_ out s1 ret1)
    | some (.done s1 ret1) => some (ret1, s1)

/-- The function `write(strm, flush)`: the return code and the stream afterwards.
`none`: out of fuel. -/
def write (tb : table_builder) (alloc : allocator) (fuel : Nat) (s : inflate_stream)
    (flush : Int) : Option (Int × inflate_stream) :=
  if s.out_null ∨ (s.in_null ∧ s.avail_in ≠ 0) then some (Z_STREAM_ERROR, s)
  else
    let s1 := if s.mode = .TYPE then { s with mode := .TYPEDO } else s
    run tb alloc flush s1.avail_in s1.avail_out fuel s1 Z_OK

/-! ## Outcomes of a pass, fixed fields -/

/-- The state an outcome carries. -/
def outcome.st : outcome → inflate_stream
  | .cont s _ => s
  | .leave s _ => s
  | .done s _ => s

/-- The value of `ret` an outcome carries. -/
def outcome.rc : outcome → Int
  | .cont _ r => r
  | .leave _ r => r
  | .done _ r => r

/-- Whether the pass ended by `break`. -/
def outcome.is_cont : outcome → Bool
  | .cont _ _ => true
  | _ => false

/-- Whether the pass ended by a direct `return`. -/
def outcome.is_done : outcome → Bool
  | .done _ _ => true
  | _ => false

/-- The fields no pass through the `switch` of `write` assigns. -/
structure fixed_part where
  in_null : Bool
  out_null : Bool
  total_in : Nat
  total_out : Nat
  total : Nat
  data_type : Nat
  dmax : Nat
  wbits : Nat
  wsize : Nat
  whave : Nat
  wnext : Nat
  window : Option (List Nat)
  sane : Nat

/-- Projection of a stream on the fields the loop of `write` leaves alone. -/
def inflate_stream.fixed (s : inflate_stream) : fixed_part :=
  ⟨s.in_null, s.out_null, s.total_in, s.total_out, s.total, s.data_type, s.dmax, s.wbits,
   s.wsize, s.whave, s.wnext, s.window, s.sane⟩

/-- What every pass through the `switch` guarantees, whatever the input: it does not
`return` (except in the modes `MEM` and `SYNC`, treated apart), it leaves the fixed
fields alone, it never enters `MEM` or `SYNC`, and `ret` is only changed to 0 or on
the way into `BAD`. -/
def basic (s : inflate_stream) (ret : Int) (o : outcome) : Prop :=
  o.is_done = false ∧ o.st.fixed = s.fixed ∧
  (o.st.mode = s.mode ∨ o.st.mode.rank ≤ 18) ∧
  (o.rc = ret ∨ o.rc = 0 ∨ (o.is_cont = true ∧ o.st.mode = .BAD))


/-! ## Callers -/

/-- The buffers a caller presents before a call of `write`. -/
structure buffers where
  in_null : Bool
  next_in : List Nat
  out_null : Bool
  next_out : List Nat
  avail_out : Nat
deriving DecidableEq, Repr

/-- The stream after the caller has set the buffer fields of the descriptor. -/
def inflate_stream.present (s : inflate_stream) (b : buffers) : inflate_stream :=
  { s with in_null := b.in_null, next_in := b.next_in, out_null := b.out_null,
           next_out := b.next_out, avail_out := b.avail_out }

/-- One call of `write` as the caller sees it: the stream it passed, the status
returned and the stream afterwards. -/
structure call_record where
  before : inflate_stream
  ret : Int
  after : inflate_stream
deriving DecidableEq, Repr

/-- A sequence of calls of `write` on one stream; before each call the caller presents
buffers of its choice and picks the flush value.  `none`: some call ran out of fuel. -/
def session (tb : table_builder) (alloc : allocator) (fuel : Nat) :
    inflate_stream → List (buffers × Int) → Option (List call_record)
  | _, [] => some []
  | s, (b, flush) :: rest =>
    match write tb alloc fuel (s.present b) flush with
    | none => none
    | some (r, s1) =>
      match session tb alloc fuel s1 rest with
      | none => none
      | some tr => some (⟨s.present b, r, s1⟩ :: tr)

/-- The stream at the end of a session that started from `s`. -/
def final_stream (s : inflate_stream) : List call_record → inflate_stream
  | [] => s
  | c :: tr => final_stream c.after tr

/-- Number of input bytes the calls consumed: the sum of `avail_in` before minus after. -/
def consumed (tr : List call_record) : Nat :=
  (tr.map (fun c => c.before.avail_in - c.after.avail_in)).sum

/-- Number of output bytes the calls produced: the sum of `avail_out` before minus after. -/
def produced (tr : List call_record) : Nat :=
  (tr.map (fun c => c.before.avail_out - c.after.avail_out)).sum

/-- A call that did not move a cursor backwards, on buffers whose sizes fit `unsigned`. -/
def call_record.forward (c : call_record) : Prop :=
  c.after.avail_in ≤ c.before.avail_in ∧ c.before.avail_in < 4294967296 ∧
  c.after.avail_out ≤ c.before.avail_out ∧ c.before.avail_out < 4294967296

instance (c : call_record) : Decidable c.forward := by
  unfold call_record.forward; infer_instance

/-- A table builder that rejects every set of code lengths; enough for streams of stored
and fixed blocks. -/
def no_tables : table_builder := fun _ _ bits => (1, [], bits)

/-- An allocator that never fails and hands out zeroed memory. -/
def zero_alloc : allocator := fun n => some (List.replicate n 0)

/-- An allocator that always fails. -/
def no_alloc : allocator := fun _ => none

/-- The stored-block header of a payload of `n` bytes: final-block bit and type 0, then
`LEN` and `NLEN` least significant byte first. -/
def stored_header (n : Nat) : List Nat :=
  [1, n % 256, n / 256, (n ^^^ 65535) % 256, (n ^^^ 65535) / 256]

/-- The session used as witness: the stream of "abcabc" fed in two pieces. -/
def two_calls : List (buffers × Int) :=
  [(⟨false, [75, 76, 74], false, [], 4⟩, Z_NO_FLUSH),
   (⟨false, [6, 34, 0], false, [], 4⟩, Z_NO_FLUSH)]

/-! ## Well-formed tables, the invariant of the state machine -/

/-- A list of bytes: every element is below 256. -/
def bytes (l : List Nat) : Prop := ∀ b ∈ l, b < 256

/-- The number a byte string spells, least significant byte first. -/
def bytes_val : List Nat → Nat
  | [] => 0
  | b :: r => b + 256 * bytes_val r

/-- The bits not yet consumed by the stream, as one number: the accumulator followed
by the unread input. -/
def inflate_stream.sval (s : inflate_stream) : Nat := s.hold + 2 ^ s.bits * bytes_val s.next_in

/-- The number of bits not yet consumed. -/
def inflate_stream.slen (s : inflate_stream) : Nat := s.bits + 8 * s.next_in.length

/-- A terminal entry of a literal/length table: a literal, a length base with at most
five extra bits whose lengths stay within 3 .. 258, or an end-of-block or invalid
marker. -/
def len_term (e : code) : Bool :=
  e.op == 0 ||
  (decide (16 ≤ e.op) && decide (e.op ≤ 21) && decide (3 ≤ e.val) &&
    decide (e.val + 2 ^ (e.op - 16) ≤ 259)) ||
  (decide (e.op < 256) && e.op &&& 16 == 0 && e.op &&& 64 != 0)

/-- A terminal entry of a distance table: a distance base with at most thirteen extra
bits whose distances stay within 1 .. 32768, or an invalid marker. -/
def dist_term (e : code) : Bool :=
  (decide (16 ≤ e.op) && decide (e.op ≤ 29) && decide (1 ≤ e.val) &&
    decide (e.val + 2 ^ (e.op - 16) ≤ 32769)) ||
  (decide (e.op < 256) && e.op &&& 16 == 0 && e.op &&& 64 != 0)

/-- A terminal entry of a code-length table: a symbol 0 .. 18. -/
def codes_term (e : code) : Bool := decide (e.val ≤ 18)

/-- An entry that links to a second-level table of `op` index bits. -/
def is_link (op : Nat) : Bool := decide (1 ≤ op) && decide (op ≤ 15)

/-- The entry at index `i` of the table of `span` index bits at `base` is replicated at
every index that has the same low `bits` bits. -/
def stride_ok (T : Nat → code) (base span i : Nat) : Bool :=
  (List.range (2 ^ (span - (T (base + i)).bits))).all (fun k =>
    T (base + (i % 2 ^ (T (base + i)).bits + k * 2 ^ (T (base + i)).bits)) == T (base + i))

/-- A well-formed terminal entry at index `i` of the table of `span` index bits at
`base`. -/
def term_ok (term : code → Bool) (T : Nat → code) (base span i : Nat) : Bool :=
  term (T (base + i)) && decide (1 ≤ (T (base + i)).bits) &&
    decide ((T (base + i)).bits ≤ span) && stride_ok T base span i

/-- A well-formed two-level decoding table of `root` first-level index bits. -/
def wf_table (term : code → Bool) (T : Nat → code) (root : Nat) : Bool :=
  decide (1 ≤ root) && decide (root ≤ 15) && (List.range (2 ^ root)).all (fun i =>
    if is_link (T i).op then
      (T i).bits == root && decide (root + (T i).op ≤ 15) &&
      (List.range (2 ^ (T i).op)).all (fun j =>
        !is_link (T ((T i).val + j)).op && term_ok term T (T i).val (T i).op j)
    else term_ok term T 0 root i)

/-- The literal/length table of the stream is well formed. -/
def wf_len (s : inflate_stream) : Prop := wf_table len_term (s.tab s.lencode) s.lenbits = true

/-- The distance table of the stream is well formed. -/
def wf_dist (s : inflate_stream) : Prop := wf_table dist_term (s.tab s.distcode) s.distbits = true

/-- The code-length table of the stream (kept in `lencode` while the code lengths are
read) is well formed. -/
def wf_codes (s : inflate_stream) : Prop :=
  ∀ i, i < 2 ^ s.lenbits → term_ok codes_term (s.tab s.lencode) 0 s.lenbits i = true

/-- The first-level lookup loop would pull a byte: the entry under the accumulator is
longer than the bits held. -/
def wants1 (s : inflate_stream) (p : codeptr) (tbits : Nat) : Prop :=
  s.bits < (here1 s p tbits).bits

/-- The second-level lookup loop below `last` would pull a byte. -/
def wants2 (s : inflate_stream) (p : codeptr) (last : code) : Prop :=
  s.bits < last.bits + (here2 s p last).bits

/-- The case of the current mode would pull a byte before anything else: the bits held
do not yet cover what it reads first. -/
def wants_more (s : inflate_stream) : Prop :=
  match s.mode with
  | .TYPE | .TYPEDO => s.last = 0 ∧ s.bits < 3
  | .STORED => s.bits - s.bits % 8 < 32
  | .TABLE => s.bits < 14
  | .LENLENS => s.have_ < s.ncode ∧ s.bits < 3
  | .CODELENS => s.have_ < s.nlen + s.ndist ∧
      (wants1 s s.lencode s.lenbits ∨
        (16 ≤ (here1 s s.lencode s.lenbits).val ∧
          s.bits < (here1 s s.lencode s.lenbits).bits +
            rep_extra (here1 s s.lencode s.lenbits).val))
  | .LEN_ | .LEN => wants1 s s.lencode s.lenbits ∨
      ((here1 s s.lencode s.lenbits).op ≠ 0 ∧ (here1 s s.lencode s.lenbits).op &&& 240 = 0 ∧
        wants2 s s.lencode (here1 s s.lencode s.lenbits))
  | .LENEXT | .DISTEXT => s.bits < s.extra
  | .DIST => wants1 s s.distcode s.distbits ∨
      ((here1 s s.distcode s.distbits).op &&& 240 = 0 ∧
        wants2 s s.distcode (here1 s s.distcode s.distbits))
  | .CHECK | .DONE | .BAD | .MEM | .SYNC => True
  | _ => False

/-- What the registers hold in each mode. -/
def mode_inv (s : inflate_stream) : Prop :=
  match s.mode with
  | .COPY_ | .COPY => s.bits = 0
  | .CODELENS => wf_codes s
  | .LEN_ | .LEN | .LIT => wf_len s ∧ wf_dist s
  | .LENEXT => (wf_len s ∧ wf_dist s) ∧ 3 ≤ s.length ∧ s.extra ≤ 5 ∧
      s.length + 2 ^ s.extra ≤ 259
  | .DIST => (wf_len s ∧ wf_dist s) ∧ 3 ≤ s.length ∧ s.length ≤ 258
  | .DISTEXT => (wf_len s ∧ wf_dist s) ∧ (3 ≤ s.length ∧ s.length ≤ 258) ∧ s.extra ≤ 13 ∧
      1 ≤ s.offset ∧ s.offset + 2 ^ s.extra ≤ 32769
  | .MATCH => (wf_len s ∧ wf_dist s) ∧ (1 ≤ s.length ∧ s.length ≤ 258) ∧
      1 ≤ s.offset ∧ s.offset ≤ 32768
  | _ => True

/-- The invariant of the state machine between two passes of the `switch`. -/
structure Inv (s : inflate_stream) : Prop where
  sane : s.sane = 1
  dmax : s.dmax = 32768
  inb : bytes s.next_in
  hold : s.hold < 2 ^ s.bits
  slack : s.bits < 8 ∨ wants_more s
  regs : mode_inv s

/-- The tables `inflate_table` delivers when it reports success are well formed and lie
within the entries it wrote. -/
def links_inside (T : Nat → code) (root n : Nat) : Prop :=
  ∀ i, i < 2 ^ root → is_link (T i).op = true → (T i).val + 2 ^ (T i).op ≤ n

/-- The hypothesis on the table builder: when `inflate_table` reports success, the table
it wrote is well formed and its links stay within the entries written. -/
def wf_builder (tb : table_builder) : Prop :=
  ∀ lens bits,
    ((tb .CODES lens bits).1 = 0 →
      2 ^ (tb .CODES lens bits).2.2 ≤ (tb .CODES lens bits).2.1.length ∧
      ∀ i, i < 2 ^ (tb .CODES lens bits).2.2 →
        term_ok codes_term (fun i => (tb .CODES lens bits).2.1.getD i default) 0
          (tb .CODES lens bits).2.2 i = true) ∧
    ((tb .LENS lens bits).1 = 0 →
      2 ^ (tb .LENS lens bits).2.2 ≤ (tb .LENS lens bits).2.1.length ∧
      wf_table len_term (fun i => (tb .LENS lens bits).2.1.getD i default)
        (tb .LENS lens bits).2.2 = true ∧
      links_inside (fun i => (tb .LENS lens bits).2.1.getD i default)
        (tb .LENS lens bits).2.2 (tb .LENS lens bits).2.1.length) ∧
    ((tb .DISTS lens bits).1 = 0 →
      2 ^ (tb .DISTS lens bits).2.2 ≤ (tb .DISTS lens bits).2.1.length ∧
      wf_table dist_term (fun i => (tb .DISTS lens bits).2.1.getD i default)
        (tb .DISTS lens bits).2.2 = true ∧
      links_inside (fun i => (tb .DISTS lens bits).2.1.getD i default)
        (tb .DISTS lens bits).2.2 (tb .DISTS lens bits).2.1.length)

/-- The stream `t` is the stream `s` after `k` bytes were pulled into the accumulator. -/
def pulled (s t : inflate_stream) (k : Nat) : Prop :=
  k ≤ s.next_in.length ∧ t.hold = s.hold + 2 ^ s.bits * bytes_val (s.next_in.take k) ∧
  t.bits = s.bits + 8 * k ∧ t.next_in = s.next_in.drop k

/-- Modes in which the invariant says nothing about the registers. -/
def plain_mode : Mode → Bool
  | .HEAD | .TYPE | .TYPEDO | .STORED | .TABLE | .LENLENS | .CHECK | .DONE | .BAD | .MEM
  | .SYNC => true
  | _ => false

/-- Modes whose case ends the stream or reports an error: no constraint on the bits
held. -/
def final_mode : Mode → Bool
  | .CHECK | .DONE | .BAD | .MEM | .SYNC => true
  | _ => false

/-- The entry at index `i` of the table of `span` index bits at `base` depends only on
the low `bits` bits of the index. -/
def stable (T : Nat → code) (base span i : Nat) : Prop :=
  ∀ j, j < 2 ^ span → j % 2 ^ (T (base + i)).bits = i % 2 ^ (T (base + i)).bits →
    T (base + j) = T (base + i)

/-- Modes whose case never pulls a byte first. -/
def quiet_mode : Mode → Bool
  | .HEAD | .COPY_ | .COPY | .MATCH | .LIT => true
  | _ => false

/-- The bytes a pass wrote: it appended `W` to the output and took the room from
`avail_out`. -/
def emits (s t : inflate_stream) : Prop :=
  ∃ W, t.next_out = s.next_out ++ W ∧ t.avail_out + W.length = s.avail_out

/-- The output counters of a call of `write` entered with `avail_out = out` and with
`b0` bytes before the output cursor. -/
def acct (out b0 : Nat) (s : inflate_stream) : Prop :=
  b0 ≤ s.next_out.length ∧ s.avail_out + (s.next_out.length - b0) = out ∧ out < 4294967296

/-- What one pass of the fast loop did to the output: a match or literal appended between
`lo` and `hi` bytes, a `break` appended nothing. -/
def fast_grew (lo hi : Nat) (l : fast_locals) : fast_end → Prop
  | .test l1 => ∃ W, l1.out = l.out ++ W ∧ lo ≤ W.length ∧ W.length ≤ hi
  | .brk l1 _ _ => l1.out = l.out

/-- The local variables a pass of the fast loop ended with. -/
def fast_end.locals : fast_end → fast_locals
  | .test l => l
  | .brk l _ _ => l

/-- The content of a circular window of valid length `whave` whose next write position
is `wnext`, oldest byte first. -/
def lin (w : List Nat) (wnext whave : Nat) : List Nat :=
  lastn whave (w.drop wnext ++ w.take wnext)

/-- The window of the stream, oldest byte first. -/
def inflate_stream.win (s : inflate_stream) : List Nat :=
  lin (s.window.getD []) s.wnext s.whave

/-- The window is allocated and in use: it has `wsize = 2 ^ wbits` bytes, `wnext` is an
index into it, and as long as it is not full the valid bytes are the first `whave`. -/
def win_shape (s : inflate_stream) : Prop :=
  s.wsize = 2 ^ s.wbits ∧ (∃ w, s.window = some w ∧ w.length = s.wsize) ∧
  s.wnext < s.wsize ∧ s.whave ≤ s.wsize ∧ (s.whave < s.wsize → s.wnext = s.whave)

/-- The passes of the loop `for (;;) switch (mode)` of one call of `write`, entered with
the state `s` and the local `ret`: the loop ends its last pass with the outcome `o`, a
`goto inf_leave` or a `return`. -/
inductive passes (tb : table_builder) (flush : Int) (out : Nat) :
    inflate_stream → Int → outcome → Prop
  | last {fuel : Nat} {s : inflate_stream} {ret : Int} {o : outcome} :
      step tb fuel flush out s ret = some o → o.is_cont = false → passes tb flush out s ret o
  | next {fuel : Nat} {s : inflate_stream} {ret : Int} {s1 : inflate_stream} {r1 : Int}
      {o : outcome} :
      step tb fuel flush out s ret = some (.cont s1 r1) → passes tb flush out s1 r1 o →
      passes tb flush out s ret o

/-- What `run` returns for the outcome of the last pass. -/
def finish (alloc : allocator) (flush : Int) (in_ out : Nat) : outcome → Int × inflate_stream
  | .cont s r => (r, s)
  | .leave s r => inf_leave alloc flush in_ out s r
  | .done s r => (r, s)

/-- The state with which `write` enters its loop: the mode `TYPE` is first turned into
`TYPEDO` (skip check). -/
def entry (p : inflate_stream) : inflate_stream :=
  if p.mode = .TYPE then { p with mode := .TYPEDO } else p

/-- The states at the start of the passes of the loop `for (;;) switch (mode)` entered
with the state `s` and the local `ret`. -/
inductive visits (tb : table_builder) (flush : Int) (out : Nat) :
    inflate_stream → Int → inflate_stream → Prop
  | here (s : inflate_stream) (ret : Int) : visits tb flush out s ret s
  | next {fuel : Nat} {s : inflate_stream} {ret : Int} {s1 : inflate_stream} {r1 : Int}
      {s2 : inflate_stream} :
      step tb fuel flush out s ret = some (.cont s1 r1) → visits tb flush out s1 r1 s2 →
      visits tb flush out s ret s2

/-- The output bytes of a sequence of calls, in order: each call contributes what it
appended to the buffer it was given. -/
def history (tr : List call_record) : List Nat :=
  (tr.map (fun c => c.after.next_out.drop c.before.next_out.length)).flatten

/-- The window agrees with the output `H` produced since the reset: once in use it holds
the last `min H.length wsize` bytes of `H`; it is not yet in use only while nothing was
produced, or when the stream ended or failed first. -/
def win_ok (s : inflate_stream) (H : List Nat) : Prop :=
  (win_shape s ∧ s.win = lastn s.whave H ∧ s.whave = min H.length s.wsize) ∨
  (s.wsize = 0 ∧ s.whave = 0 ∧ (H = [] ∨ final_mode s.mode = true))

/-- What holds of the stream between two calls of `write`, `H` being the output produced
since the reset. -/
structure between (s : inflate_stream) (H : List Nat) : Prop where
  inv : Inv s
  win : win_ok s H
  wlen : ∀ w, s.window = some w → w.length = 2 ^ s.wbits

/-- The counter `total_out` agrees with the output `H` produced since the reset, unless
a window allocation failed (mode `MEM`), in which case the window was never in use. -/
def tot_ok (s : inflate_stream) (H : List Nat) : Prop :=
  (s.mode = .MEM → s.wsize = 0) ∧ (s.mode ≠ .MEM → s.total_out = H.length)

/-- What holds of a stream on which the caller is about to present buffers, `H` being
the output produced since the reset. -/
def ready (s : inflate_stream) (H : List Nat) : Prop :=
  (∀ b : buffers, bytes b.next_in → between (s.present b) H) ∧ tot_ok s H

/-- The linearisation of the window as the specification words it: the `whave` bytes
`window[(wnext + i) mod wsize]` for `i = 0 .. whave - 1`. -/
def spec_linear (s : inflate_stream) : List Nat :=
  (List.range s.whave).map (fun i => (s.window.getD []).getD ((s.wnext + i) % s.wsize) 0)

/-- A session of one call: the fixed-Huffman stream of the one literal "a". -/
def one_literal : List (buffers × Int) :=
  [(⟨false, [75, 4, 0], false, [], 4⟩, Z_NO_FLUSH)]

instance (l : List Nat) : Decidable (bytes l) := by
  unfold bytes; infer_instance

/-- The state reached after `k` passes of the loop of `write` that end by `break`. -/
def nth_pass (tb : table_builder) (fuel : Nat) (flush : Int) (out : Nat) :
    Nat → inflate_stream → Int → Option inflate_stream
  | 0, s, _ => some s
  | k + 1, s, ret =>
    match step tb fuel flush out s ret with
    | some (.cont s1 r1) => nth_pass tb fuel flush out k s1 r1
    | _ => none

/-- A pass of the switch either writes nothing, or reaches the code of the case `MATCH`
in a state `m` that has the output cursor of the state `s` the pass began with. -/
def to_match (out : Nat) (s : inflate_stream) (ret : Int) (o : outcome) : Prop :=
  o.st.next_out = s.next_out ∨
  ∃ m, Inv m ∧ m.mode = .MATCH ∧ m.next_out = s.next_out ∧ m.avail_out = s.avail_out ∧
    m.fixed = s.fixed ∧ o = case_MATCH out m ret

/-- The buffers of the call used as witness: the stream of "abcabc" and room for six
bytes, so that the slow decoder runs. -/
def abc_buffers : buffers := ⟨false, [75, 76, 74, 6, 34, 0], false, [], 6⟩

/-! ## The decoder as a machine on the bit stream -/

/-- The mode of the decoder together with the registers that are live in it: the
length of a stored block or match, the distance, the number of extra bits. -/
inductive amode
  | HEAD | TYPE | TYPEDO | STORED
  | COPY_ (length : Nat) | COPY (length : Nat)
  | TABLE | LENLENS | CODELENS | LEN_ | LEN
  | LENEXT (length extra : Nat) | DIST (length : Nat)
  | DISTEXT (length offset extra : Nat) | MATCH (length offset : Nat) | LIT (length : Nat)
  | CHECK | DONE | BAD | MEM | SYNC
deriving DecidableEq, Repr

/-- The state of the decoder seen apart from buffers and window: the unread bits `N`
(least significant first, `L` of them), everything written so far `H`, the mode with its
live registers, and the tables under construction or in use. -/
structure astate where
  mode : amode
  last : Nat
  N : Nat
  L : Nat
  H : List Nat
  lencode : codeptr
  distcode : codeptr
  lenbits : Nat
  distbits : Nat
  ncode : Nat
  nlen : Nat
  ndist : Nat
  have_ : Nat
  next : Nat
  lens : List Nat
  codes : List code
  msg : Option String
deriving DecidableEq, Repr

/-- The mode of a stream with the registers live in it. -/
def amode_of (s : inflate_stream) : amode :=
  match s.mode with
  | .HEAD => .HEAD | .TYPE => .TYPE | .TYPEDO => .TYPEDO | .STORED => .STORED
  | .COPY_ => .COPY_ s.length | .COPY => .COPY s.length
  | .TABLE => .TABLE | .LENLENS => .LENLENS | .CODELENS => .CODELENS
  | .LEN_ => .LEN_ | .LEN => .LEN
  | .LENEXT => .LENEXT s.length s.extra | .DIST => .DIST s.length
  | .DISTEXT => .DISTEXT s.length s.offset s.extra | .MATCH => .MATCH s.length s.offset
  | .LIT => .LIT s.length
  | .CHECK => .CHECK | .DONE => .DONE | .BAD => .BAD | .MEM => .MEM | .SYNC => .SYNC

/-- The decoder state of a stream: its unread bits are the accumulator, then the input
at `next_in`, then the input `X` the caller has not presented yet; its output is `H`. -/
def alpha (X : List Nat) (H : List Nat) (s : inflate_stream) : astate :=
  { mode := amode_of s, last := s.last,
    N := s.sval + 2 ^ s.slen * bytes_val X, L := s.slen + 8 * X.length, H := H,
    lencode := s.lencode, distcode := s.distcode, lenbits := s.lenbits,
    distbits := s.distbits, ncode := s.ncode, nlen := s.nlen, ndist := s.ndist,
    have_ := s.have_, next := s.next, lens := s.lens, codes := s.codes, msg := s.msg }

/-- Decode one symbol of a two-level table from the bit stream `N` of `L` bits: the
terminal entry and the number of bits of its code; `none` when the bits do not suffice. -/
def adecode (T : Nat → code) (root : Nat) (link : code → Bool) (N L : Nat) :
    Option (code × Nat) :=
  if L < (T (N % 2 ^ root)).bits then none
  else if link (T (N % 2 ^ root)) then
    if L < (T (N % 2 ^ root)).bits +
        (T ((T (N % 2 ^ root)).val +
          N % 2 ^ ((T (N % 2 ^ root)).bits + (T (N % 2 ^ root)).op) /
            2 ^ (T (N % 2 ^ root)).bits)).bits then none
    else some (T ((T (N % 2 ^ root)).val +
          N % 2 ^ ((T (N % 2 ^ root)).bits + (T (N % 2 ^ root)).op) /
            2 ^ (T (N % 2 ^ root)).bits),
        (T (N % 2 ^ root)).bits +
        (T ((T (N % 2 ^ root)).val +
          N % 2 ^ ((T (N % 2 ^ root)).bits + (T (N % 2 ^ root)).op) /
            2 ^ (T (N % 2 ^ root)).bits)).bits)
  else some (T (N % 2 ^ root), (T (N % 2 ^ root)).bits)

/-- The test of the literal/length decoder for a link to a second-level table. -/
def len_link (e : code) : Bool := decide (e.op ≠ 0 ∧ e.op &&& 240 = 0)

/-- The test of the distance decoder for a link to a second-level table. -/
def dist_link (e : code) : Bool := decide (e.op &&& 240 = 0)

/-- The array `lens` after `while (have < 19) lens[order[have++]] = 0;`. -/
def zero_lens : Nat → Nat → List Nat → List Nat
  | 0, _, lens => lens
  | k + 1, have_, lens =>
    if have_ < 19 then zero_lens k (have_ + 1) (lens.set (order.getD have_ 0) 0) else lens

/-- The value of `have` after `while (have < 19) lens[order[have++]] = 0;`. -/
def zero_have : Nat → Nat → Nat
  | 0, have_ => have_
  | k + 1, have_ => if have_ < 19 then zero_have k (have_ + 1) else have_

/-- The decoder consumes `n` bits. -/
def astate.drop (a : astate) (n : Nat) : astate :=
  { a with N := a.N / 2 ^ n, L := a.L - n }

/-- The decoder fails with a message. -/
def astate.bad (a : astate) (m : String) : astate :=
  { a with msg := some m, mode := .BAD }

/-- The block header: the `last` bit and the two type bits. -/
def astep_TYPEDO (a : astate) : Option astate :=
  if a.last ≠ 0 then some { a.drop (a.L % 8) with mode := .CHECK }
  else if a.L < 3 then none
  else
    match a.N / 2 % 4 with
    | 0 => some { a.drop 3 with last := a.N % 2, mode := .STORED }
    | 1 => some { a.drop 3 with last := a.N % 2, lencode := .lenfix, lenbits := 9,
                                distcode := .distfix, distbits := 5, mode := .LEN_ }
    | 2 => some { a.drop 3 with last := a.N % 2, mode := .TABLE }
    | _ => some { a.drop 3 with last := a.N % 2, msg := some "invalid block type",
                                mode := .BAD }

/-- The header of a stored block: first skip to a byte boundary, then read `LEN` and
`NLEN`. -/
def astep_STORED (a : astate) : Option astate :=
  if a.L % 8 ≠ 0 then some (a.drop (a.L % 8))
  else if a.L < 32 then none
  else if a.N % 65536 ≠ (a.N / 65536 % 65536) ^^^ 65535 then
    some (a.bad "invalid stored block lengths")
  else some { a.drop 32 with mode := .COPY_ (a.N % 65536) }

/-- One byte of a stored block. -/
def astep_COPY (a : astate) (n : Nat) : Option astate :=
  if n = 0 then some { a with mode := .TYPE }
  else if a.L < 8 then none
  else some { a.drop 8 with H := a.H ++ [a.N % 256], mode := .COPY (n - 1) }

/-- The header of a dynamic block: the three counts. -/
def astep_TABLE (a : astate) : Option astate :=
  if a.L < 14 then none
  else if a.N % 32 + 257 > 286 ∨ a.N / 32 % 32 + 1 > 30 then
    some { a.drop 14 with nlen := a.N % 32 + 257, ndist := a.N / 32 % 32 + 1,
                          ncode := a.N / 1024 % 16 + 4,
                          msg := some "too many length or distance symbols", mode := .BAD }
  else
    some { a.drop 14 with nlen := a.N % 32 + 257, ndist := a.N / 32 % 32 + 1,
                          ncode := a.N / 1024 % 16 + 4, have_ := 0, mode := .LENLENS }

/-- One code length of the code-length code, or, when all are read, the table of the
code-length code. -/
def astep_LENLENS (tb : table_builder) (a : astate) : Option astate :=
  if a.have_ < a.ncode then
    if a.L < 3 then none
    else some { a.drop 3 with lens := a.lens.set (order.getD a.have_ 0) (a.N % 8),
                              have_ := a.have_ + 1 }
  else
    let lens1 := zero_lens (19 - a.have_) a.have_ a.lens
    let r := tb .CODES (lens1.take 19) 7
    if r.1 ≠ 0 then
      some { a with lens := lens1, have_ := zero_have (19 - a.have_) a.have_,
                    codes := store_codes a.codes 0 r.2.1, next := r.2.1.length,
                    lencode := .codes 0, lenbits := r.2.2,
                    msg := some "invalid code lengths set", mode := .BAD }
    else
      some { a with lens := lens1, have_ := 0,
                    codes := store_codes a.codes 0 r.2.1, next := r.2.1.length,
                    lencode := .codes 0, lenbits := r.2.2, mode := .CODELENS }

/-- One symbol of the code lengths of a dynamic block. -/
def astep_codelen (a : astate) : Option astate :=
  if a.L < (code_at a.codes a.lencode (a.N % 2 ^ a.lenbits)).bits then none
  else if (code_at a.codes a.lencode (a.N % 2 ^ a.lenbits)).val < 16 then
    some { a.drop (code_at a.codes a.lencode (a.N % 2 ^ a.lenbits)).bits with
      lens := a.lens.set a.have_ (code_at a.codes a.lencode (a.N % 2 ^ a.lenbits)).val,
      have_ := a.have_ + 1 }
  else if a.L < (code_at a.codes a.lencode (a.N % 2 ^ a.lenbits)).bits +
      rep_extra (code_at a.codes a.lencode (a.N % 2 ^ a.lenbits)).val then none
  else if (code_at a.codes a.lencode (a.N % 2 ^ a.lenbits)).val = 16 ∧ a.have_ = 0 then
    some ((a.drop (code_at a.codes a.lencode (a.N % 2 ^ a.lenbits)).bits).bad
      "invalid bit length repeat")
  else if a.have_ + (rep_base (code_at a.codes a.lencode (a.N % 2 ^ a.lenbits)).val +
      a.N / 2 ^ (code_at a.codes a.lencode (a.N % 2 ^ a.lenbits)).bits %
        2 ^ rep_extra (code_at a.codes a.lencode (a.N % 2 ^ a.lenbits)).val) >
      a.nlen + a.ndist then
    some (((a.drop (code_at a.codes a.lencode (a.N % 2 ^ a.lenbits)).bits).drop
      (rep_extra (code_at a.codes a.lencode (a.N % 2 ^ a.lenbits)).val)).bad
      "invalid bit length repeat")
  else
    some { (a.drop (code_at a.codes a.lencode (a.N % 2 ^ a.lenbits)).bits).drop
        (rep_extra (code_at a.codes a.lencode (a.N % 2 ^ a.lenbits)).val) with
      lens := fill_lens
        (if (code_at a.codes a.lencode (a.N % 2 ^ a.lenbits)).val = 16
          then a.lens.getD (a.have_ - 1) 0 else 0)
        (rep_base (code_at a.codes a.lencode (a.N % 2 ^ a.lenbits)).val +
          a.N / 2 ^ (code_at a.codes a.lencode (a.N % 2 ^ a.lenbits)).bits %
            2 ^ rep_extra (code_at a.codes a.lencode (a.N % 2 ^ a.lenbits)).val)
        a.have_ a.lens,
      have_ := a.have_ + (rep_base (code_at a.codes a.lencode (a.N % 2 ^ a.lenbits)).val +
        a.N / 2 ^ (code_at a.codes a.lencode (a.N % 2 ^ a.lenbits)).bits %
          2 ^ rep_extra (code_at a.codes a.lencode (a.N % 2 ^ a.lenbits)).val) }

/-- The two decoding tables of a dynamic block, once all code lengths are read. -/
def astep_tables (tb : table_builder) (a : astate) : Option astate :=
  if a.lens.getD 256 0 = 0 then some (a.bad "invalid code -- missing end-of-block")
  else if (tb .LENS (a.lens.take a.nlen) 9).1 ≠ 0 then
    some { a with codes := store_codes a.codes 0 (tb .LENS (a.lens.take a.nlen) 9).2.1,
                  next := (tb .LENS (a.lens.take a.nlen) 9).2.1.length,
                  lencode := .codes 0, lenbits := (tb .LENS (a.lens.take a.nlen) 9).2.2,
                  msg := some "invalid literal/lengths set", mode := .BAD }
  else if (tb .DISTS ((a.lens.drop a.nlen).take a.ndist) 6).1 ≠ 0 then
    some { a with
      codes := store_codes (store_codes a.codes 0 (tb .LENS (a.lens.take a.nlen) 9).2.1)
        (tb .LENS (a.lens.take a.nlen) 9).2.1.length
        (tb .DISTS ((a.lens.drop a.nlen).take a.ndist) 6).2.1,
      next := (tb .LENS (a.lens.take a.nlen) 9).2.1.length +
        (tb .DISTS ((a.lens.drop a.nlen).take a.ndist) 6).2.1.length,
      lencode := .codes 0, lenbits := (tb .LENS (a.lens.take a.nlen) 9).2.2,
      distcode := .codes (tb .LENS (a.lens.take a.nlen) 9).2.1.length,
      distbits := (tb .DISTS ((a.lens.drop a.nlen).take a.ndist) 6).2.2,
      msg := some "invalid distances set", mode := .BAD }
  else
    some { a with
      codes := store_codes (store_codes a.codes 0 (tb .LENS (a.lens.take a.nlen) 9).2.1)
        (tb .LENS (a.lens.take a.nlen) 9).2.1.length
        (tb .DISTS ((a.lens.drop a.nlen).take a.ndist) 6).2.1,
      next := (tb .LENS (a.lens.take a.nlen) 9).2.1.length +
        (tb .DISTS ((a.lens.drop a.nlen).take a.ndist) 6).2.1.length,
      lencode := .codes 0, lenbits := (tb .LENS (a.lens.take a.nlen) 9).2.2,
      distcode := .codes (tb .LENS (a.lens.take a.nlen) 9).2.1.length,
      distbits := (tb .DISTS ((a.lens.drop a.nlen).take a.ndist) 6).2.2,
      mode := .LEN_ }

/-- One literal/length symbol. -/
def astep_LEN (a : astate) : Option astate :=
  match adecode (code_at a.codes a.lencode) a.lenbits len_link a.N a.L with
  | none => none
  | some (here, c) =>
    if here.op = 0 then some { a.drop c with mode := .LIT here.val }
    else if here.op &&& 32 ≠ 0 then some { a.drop c with mode := .TYPE }
    else if here.op &&& 64 ≠ 0 then some ((a.drop c).bad "invalid literal/length code")
    else some { a.drop c with mode := .LENEXT here.val (here.op &&& 15) }

/-- One distance symbol. -/
def astep_DIST (a : astate) (len : Nat) : Option astate :=
  match adecode (code_at a.codes a.distcode) a.distbits dist_link a.N a.L with
  | none => none
  | some (here, c) =>
    if here.op &&& 64 ≠ 0 then some ((a.drop c).bad "invalid distance code")
    else some { a.drop c with mode := .DISTEXT len here.val (here.op &&& 15) }

/-- One byte of a match, or the failure of a match that reaches before the output. -/
def astep_MATCH (a : astate) (len off : Nat) : Option astate :=
  if off > a.H.length then some (a.bad "invalid distance too far back")
  else if len - 1 = 0 then
    some { a with H := a.H ++ [a.H.getD (a.H.length - off) 0], mode := .LEN }
  else some { a with H := a.H ++ [a.H.getD (a.H.length - off) 0], mode := .MATCH (len - 1) off }

/-- One step of the decoder; `none` when the unread bits do not suffice for it or the
decoder has ended. -/
def astep (tb : table_builder) (a : astate) : Option astate :=
  match a.mode with
  | .HEAD => some { a with mode := .TYPEDO }
  | .TYPE => some { a with mode := .TYPEDO }
  | .TYPEDO => astep_TYPEDO a
  | .STORED => astep_STORED a
  | .COPY_ n => some { a with mode := .COPY n }
  | .COPY n => astep_COPY a n
  | .TABLE => astep_TABLE a
  | .LENLENS => astep_LENLENS tb a
  | .CODELENS => if a.have_ < a.nlen + a.ndist then astep_codelen a else astep_tables tb a
  | .LEN_ => some { a with mode := .LEN }
  | .LEN => astep_LEN a
  | .LENEXT len e =>
    if a.L < e then none else some { a.drop e with mode := .DIST (len + a.N % 2 ^ e) }
  | .DIST len => astep_DIST a len
  | .DISTEXT len off e =>
    if a.L < e then none else some { a.drop e with mode := .MATCH len (off + a.N % 2 ^ e) }
  | .MATCH len off => astep_MATCH a len off
  | .LIT len => some { a with H := a.H ++ [len % 256], mode := .LEN }
  | .CHECK => some { a with mode := .DONE }
  | .DONE => none
  | .BAD => none
  | .MEM => none
  | .SYNC => none

/-- The state after `k` steps of the decoder, when it can take them. -/
def asteps (tb : table_builder) : Nat → astate → Option astate
  | 0, a => some a
  | k + 1, a =>
    match astep tb a with
    | none => none
    | some a1 => asteps tb k a1

/-- The unread bits of a stream followed by the input `X` not yet presented. -/
def inflate_stream.sN (s : inflate_stream) (X : List Nat) : Nat :=
  s.sval + 2 ^ s.slen * bytes_val X

/-- The number of unread bits of a stream and of the input `X` not yet presented. -/
def inflate_stream.sL (s : inflate_stream) (X : List Nat) : Nat :=
  s.slen + 8 * X.length

/-- The pass from `s` to `t` is a run of steps of the decoder; `E` is the number of bytes
that were in the output buffer when `write` was called and `Hp` the output of the calls
before. -/
def refines (tb : table_builder) (X : List Nat) (E : Nat) (Hp : List Nat)
    (s t : inflate_stream) : Prop :=
  ∃ k, asteps tb k (alpha X (Hp ++ s.next_out.drop E) s) =
    some (alpha X (Hp ++ t.next_out.drop E) t)

/-- The stream `t` is the stream `s` after `n` bits were dropped from the accumulator. -/
def dropped (s t : inflate_stream) (n : Nat) : Prop :=
  n ≤ s.bits ∧ t.hold = s.hold / 2 ^ n ∧ t.bits = s.bits - n ∧ t.next_in = s.next_in

/-- The index in the window of the byte `c` places before the write position. -/
def back_idx (n wnext c : Nat) : Nat := if c > wnext then n - (c - wnext) else wnext - c

/-- The window of a stream holds the end of the output `Hp` of the calls before: `whave`
bytes of it, all of it up to 32768 bytes. -/
def wctx (Hp : List Nat) (s : inflate_stream) : Prop :=
  s.whave = min Hp.length 32768 ∧ s.wsize ≤ 32768 ∧
  (s.whave = 0 ∨ (win_shape s ∧ s.win = lastn s.whave Hp))

/-- The modes in which the decoder stands between two symbols of a block, or has failed. -/
def boundary : amode → Bool
  | .LEN | .TYPE | .BAD => true
  | _ => false

/-- A run of one or more steps of the decoder in which no state strictly between the
first and the last stands between two symbols. -/
inductive aseg (tb : table_builder) : astate → astate → Prop
  | one {a b : astate} : astep tb a = some b → aseg tb a b
  | cons {a c b : astate} : astep tb a = some c → boundary c.mode = false → aseg tb c b →
      aseg tb a b

/-- The decoder state of a stream in a call that began with `E` bytes in the output buffer,
after calls that produced `Hp`. -/
def alpha_at (X : List Nat) (E : Nat) (Hp : List Nat) (s : inflate_stream) : astate :=
  alpha X (Hp ++ s.next_out.drop E) s

/-- The number of unread bits with which a pass of the slow decoder that starts in the
mode of `s` cannot stall. -/
def need_bits (s : inflate_stream) : Nat :=
  match s.mode with
  | .LEN_ | .LEN => 48
  | .LENEXT => 33
  | .DIST => 28
  | .DISTEXT => 13
  | _ => 0

/-- What a pass of the slow decoder does, seen from the decoder: it follows the steps of
the decoder within one symbol; it stalls only without room for output or short of bits;
it stops between symbols, at a literal to write, or inside a match. -/
structure chain_ok (tb : table_builder) (X : List Nat) (E : Nat) (Hp : List Nat)
    (s : inflate_stream) (o : outcome) : Prop where
  seg : alpha_at X E Hp o.st = alpha_at X E Hp s ∨
    aseg tb (alpha_at X E Hp s) (alpha_at X E Hp o.st)
  go : o.is_cont = true → aseg tb (alpha_at X E Hp s) (alpha_at X E Hp o.st)
  stuck : o.is_cont = false → s.avail_out = 0 ∨ s.slen < need_bits s
  modes : o.is_cont = true → o.st.mode = .LEN ∨ o.st.mode = .TYPE ∨ o.st.mode = .BAD ∨
    o.st.mode = .LIT ∨ o.st.mode = .MATCH
  room : o.st.mode = .MATCH →
    s.avail_out + o.st.length ≤ o.st.avail_out + (if s.mode = .MATCH then s.length else 258)

/-- The stream `t` has the output, the window and the registers of the decoder that the
stream `s` has. -/
structure kept (t s : inflate_stream) : Prop where
  out : t.next_out = s.next_out
  avail : t.avail_out = s.avail_out
  fixed : t.fixed = s.fixed
  last : t.last = s.last
  lencode : t.lencode = s.lencode
  distcode : t.distcode = s.distcode
  lenbits : t.lenbits = s.lenbits
  distbits : t.distbits = s.distbits
  ncode : t.ncode = s.ncode
  nlen : t.nlen = s.nlen
  ndist : t.ndist = s.ndist
  have_ : t.have_ = s.have_
  next : t.next = s.next
  lens : t.lens = s.lens
  codes : t.codes = s.codes

/-- The stream `t` is the stream `s` after `n` of its unread bits were consumed. -/
def taken (s t : inflate_stream) (n : Nat) : Prop :=
  n ≤ s.slen ∧ ∀ X, t.sN X = s.sN X / 2 ^ n ∧ t.sL X = s.sL X - n

/-- The number of bits the fast decoder has consumed when its locals are `l`; it was
entered with `bits0` bits in the accumulator. -/
def cbits (bits0 : Nat) (l : fast_locals) : Nat := bits0 + 8 * l.cin - l.bits

/-- The locals of the fast decoder against the unread bits `V0` it was entered with: the
accumulator holds the next `bits` unread bits, and the input cursor is inside the input. -/
structure fast_inv (V0 bits0 : Nat) (inp : List Nat) (l : fast_locals) : Prop where
  cin : l.cin ≤ inp.length
  le : l.bits ≤ bits0 + 8 * l.cin
  small : l.bits < 32
  hold : l.hold = V0 / 2 ^ cbits bits0 l % 2 ^ l.bits

/-- The decoder state `a0` after `c` more bits were consumed, with output `H`, mode `m`
and message `msg`. -/
def Ast (a0 : astate) (c : Nat) (H : List Nat) (m : amode) (msg : Option String) : astate :=
  { a0.drop c with H := H, mode := m, msg := msg }

/-- The state in which `inflate_fast` is called from the case `LEN` of a call of `write`
that was entered with `avail_out = out` and `E` bytes in the output buffer, after calls
that produced `Hp`. -/
structure fast_ctx (out E : Nat) (Hp : List Nat) (s : inflate_stream) : Prop where
  inv : Inv s
  mode : s.mode = .LEN
  acc : acct out E s
  win : wctx Hp s

/-- The invariant of the locals of the fast decoder called on the stream `s`. -/
def fI (X : List Nat) (s : inflate_stream) (l : fast_locals) : Prop :=
  fast_inv (s.sN X) s.bits s.next_in l

/-- The decoder state that belongs to the locals `l` of the fast decoder called on `s`. -/
def fA (X : List Nat) (E : Nat) (Hp : List Nat) (s : inflate_stream) (l : fast_locals)
    (m : amode) (msg : Option String) : astate :=
  Ast (alpha_at X E Hp s) (cbits s.bits l) (Hp ++ l.out.drop E) m msg

/-- The unread bits the fast decoder can reach: those in its accumulator and those of the
input buffer. -/
def lbits (s : inflate_stream) (l : fast_locals) : Nat :=
  l.bits + 8 * (s.next_in.length - l.cin)

/-- The mode of the decoder after a `break` of the fast decoder. -/
def bmode (m : Mode) : amode := if m = .TYPE then .TYPE else .BAD

/-- What a part of a pass of the loop of the fast decoder, begun with the locals `l` and
the decoder in the state `start`, did: it kept the invariant, consumed bits, and either
wrote a literal or a match and brought the decoder to the next symbol, or wrote nothing
and brought the decoder to the end of the block or to a failure. -/
def fast_ok (tb : table_builder) (X : List Nat) (E : Nat) (Hp : List Nat) (s : inflate_stream)
    (start : astate) (l : fast_locals) : fast_end → Prop
  | .test l1 => fI X s l1 ∧ cbits s.bits l ≤ cbits s.bits l1 ∧
      (∃ W, l1.out = l.out ++ W ∧ 1 ≤ W.length ∧ W.length ≤ 258) ∧
      aseg tb start (fA X E Hp s l1 .LEN s.msg)
  | .brk l1 m msg => fI X s l1 ∧ cbits s.bits l ≤ cbits s.bits l1 ∧ l1.out = l.out ∧
      ((m = .TYPE ∧ msg = s.msg) ∨ m = .BAD) ∧
      aseg tb start (fA X E Hp s l1 (bmode m) msg)

/-- What the decoder reads at a literal/length symbol, and the least number of bits the
fast decoder has consumed after it. -/
def first_code (X : List Nat) (s : inflate_stream) (l : fast_locals) (r : fast_end) : Prop :=
  ∃ e cl, adecode (s.tab s.lencode) s.lenbits len_link (s.sN X / 2 ^ cbits s.bits l)
    (s.sL X - cbits s.bits l) = some (e, cl) ∧ cbits s.bits l + cl ≤ cbits s.bits r.locals

/-- A run of the decoder over whole symbols of a block, each begun with at least 48 bits
of input at hand (beyond the `x8` bits the caller has not presented) and room for 258
bytes below the capacity `cap` of the output. -/
inductive symrun (tb : table_builder) (x8 cap : Nat) : astate → astate → Prop
  | done (a : astate) : symrun tb x8 cap a a
  | sym {a b c : astate} : a.mode = .LEN → 48 + x8 ≤ a.L → a.H.length + 258 ≤ cap →
      aseg tb a b → boundary b.mode = true → symrun tb x8 cap b c → symrun tb x8 cap a c

/-- The decoder state at the end of the loop of the fast decoder. -/
def fA_end (X : List Nat) (E : Nat) (Hp : List Nat) (s : inflate_stream) : fast_end → astate
  | .test l => fA X E Hp s l .LEN s.msg
  | .brk l m msg => fA X E Hp s l (bmode m) msg

/-- One pass of the slow decoder of a block: the slow branch of the case `LEN` and the
cases `LENEXT`, `DIST`, `DISTEXT`, `MATCH` and `LIT` of the switch of `write`. -/
def slow_step (out : Nat) (s : inflate_stream) (ret : Int) : outcome :=
  match s.mode with
  | .LEN => case_LEN_slow out s ret
  | .LENEXT => case_LENEXT out s ret
  | .DIST => case_DIST out s ret
  | .DISTEXT => case_DISTEXT out s ret
  | .MATCH => case_MATCH out s ret
  | .LIT => case_LIT s ret
  | _ => .leave s ret

/-- The state and `ret` after `k` passes of the slow decoder that all end by `break`. -/
def slow_run (out : Nat) : Nat → inflate_stream → Int → Option (inflate_stream × Int)
  | 0, s, ret => some (s, ret)
  | k + 1, s, ret =>
    match slow_step out s ret with
    | .cont s1 r1 => slow_run out k s1 r1
    | _ => none

/-- The mode of a decoder mode with live registers. -/
def amode.base : amode → Mode
  | .HEAD => .HEAD | .TYPE => .TYPE | .TYPEDO => .TYPEDO | .STORED => .STORED
  | .COPY_ _ => .COPY_ | .COPY _ => .COPY
  | .TABLE => .TABLE | .LENLENS => .LENLENS | .CODELENS => .CODELENS
  | .LEN_ => .LEN_ | .LEN => .LEN
  | .LENEXT _ _ => .LENEXT | .DIST _ => .DIST
  | .DISTEXT _ _ _ => .DISTEXT | .MATCH _ _ => .MATCH
  | .LIT _ => .LIT
  | .CHECK => .CHECK | .DONE => .DONE | .BAD => .BAD | .MEM => .MEM | .SYNC => .SYNC

/-- A stream at the start of a symbol of a fixed-Huffman block, as `write` hands it to the
fast decoder: the bits of "abcabc" after the block header, and room for 258 bytes. -/
def fast_state : inflate_stream :=
  { fixedTables ((fresh 15).feed [76, 74, 6, 34, 0, 0] 258) with
    mode := .LEN
    last := 1
    hold := 9
    bits := 5 }

/-- What holds of the stream at a pass inside a call of `write` that was entered with
`avail_out = out` and `E` bytes in the output buffer, after calls that produced `Hp`. -/
structure dctx (out E : Nat) (Hp : List Nat) (s : inflate_stream) : Prop where
  inv : Inv s
  acc : acct out E s
  win : wctx Hp s

/-- A stream whose window is in use: the state after the two calls that decode "abcabc". -/
def used_stream : inflate_stream :=
  final_stream (fresh 15) ((session no_tables zero_alloc 20 (fresh 15) two_calls).getD [])

/-- A flush value that `write` does not test for: not `Z_FINISH`, `Z_BLOCK` or `Z_TREES`. -/
def plain_flush (f : Int) : Prop := f ≠ Z_FINISH ∧ f ≠ Z_BLOCK ∧ f ≠ Z_TREES

/-- A call whose window allocation fails after one byte was written: a stored block of two
bytes, room for one, `Z_FINISH`. -/
def short_room : inflate_stream :=
  (fresh 15).present ⟨false, [1, 2, 0, 253, 255, 97, 98], false, [], 1⟩

/-- The window read oldest byte first, as the specification words it: the `whave` bytes
that start at index `(wnext - whave) mod wsize` and wrap around at `wsize`. -/
def window_read (s : inflate_stream) : List Nat :=
  (List.range s.whave).map
    (fun i => (s.window.getD []).getD ((s.wnext + s.wsize - s.whave + i) % s.wsize) 0)

/-- The state of the window before its first use. -/
def window_unused (s : inflate_stream) : Prop :=
  s.wsize = 0 ∧ s.whave = 0 ∧ s.wnext = 0 ∧ ∀ w, s.window = some w → w.length = 2 ^ s.wbits

/-- A call with `Z_BLOCK` on a stored block of one byte that is not the last block; room
for ten bytes. -/
def block_call : inflate_stream :=
  (fresh 15).present ⟨false, [0, 1, 0, 254, 255, 97, 1, 0, 0, 255, 255], false, [], 10⟩

/-- The modes in which `write` decodes the header of a block. -/
def header_mode : Mode → Bool
  | .HEAD | .TYPEDO | .STORED | .TABLE | .LENLENS | .CODELENS => true
  | _ => false

/-- The modes in which a pass can end that did not begin in a block header: inside the data
of a block, between two blocks, or after the last block. -/
def inner_mode : Mode → Bool
  | .TYPE | .COPY | .LEN | .LENEXT | .DIST | .DISTEXT | .MATCH | .LIT | .CHECK | .DONE
  | .BAD | .MEM | .SYNC => true
  | _ => false

/-- The two decoding tables of a dynamic block were built without error from the code
lengths in `lens` and are the tables in use. -/
def tables_built (tb : table_builder) (t : inflate_stream) : Prop :=
  t.lens.getD 256 0 ≠ 0 ∧
  (tb .LENS (t.lens.take t.nlen) 9).1 = 0 ∧
  (tb .DISTS ((t.lens.drop t.nlen).take t.ndist) 6).1 = 0 ∧
  t.lencode = .codes 0 ∧ t.lenbits = (tb .LENS (t.lens.take t.nlen) 9).2.2 ∧
  t.distcode = .codes (tb .LENS (t.lens.take t.nlen) 9).2.1.length ∧
  t.distbits = (tb .DISTS ((t.lens.drop t.nlen).take t.ndist) 6).2.2

/-- What a pass with `Z_TREES` that begins in a block header does: it writes nothing, does
not `return`, goes on only in a header mode or to a mode outside the headers, and in a
dynamic header it ends in `LEN_` only with both tables built. -/
structure hdr_ok (tb : table_builder) (v : inflate_stream) (o : outcome) : Prop where
  out : o.st.next_out = v.next_out
  avail : o.st.avail_out = v.avail_out
  nd : o.is_done = false
  go : o.is_cont = true → header_mode o.st.mode = true ∨ inner_mode o.st.mode = true
  dyn : (v.mode = .TABLE ∨ v.mode = .LENLENS ∨ v.mode = .CODELENS) →
    o.st.mode ≠ .COPY_ ∧ (o.st.mode = .LEN_ → tables_built tb o.st)

/-- A call with `Z_TREES` on the header of a fixed-Huffman block. -/
def trees_call : inflate_stream :=
  (fresh 15).present ⟨false, [75, 76, 74, 6, 34, 0], false, [], 10⟩

/-- The calls of a trace read the input `I` in order: every call is given the input the
call before left unread, followed by more of `I` or by nothing. -/
def feeds : List Nat → List call_record → Bool
  | _, [] => true
  | I, c :: tr =>
    c.before.next_in.isPrefixOf I &&
      feeds (c.after.next_in ++ I.drop c.before.next_in.length) tr

/-- The part of the input `I` that the calls of a trace have not consumed. -/
def unread : List Nat → List call_record → List Nat
  | I, [] => I
  | I, c :: tr => unread (c.after.next_in ++ I.drop c.before.next_in.length) tr

/-- The state of the decoder in a stream between two calls; `I` is the input not consumed
yet and `H` the output so far. -/
def decoder_state (s : inflate_stream) (I H : List Nat) : astate :=
  alpha I H { s with next_in := [] }

/-- A fixed-Huffman stream of 262 bytes whose last match reaches 257 bytes back: the
literal "a", a match of length 258 at distance 1, a match of length 3 at distance 257. -/
def far_stream : List Nat := [75, 28, 5, 192, 0, 0, 0]

/-- The stream `far_stream` given in one call with room for 1000 bytes. -/
def far_whole : List (buffers × Int) :=
  [(⟨false, far_stream, false, [], 1000⟩, Z_NO_FLUSH)]

/-- The stream `far_stream` given with room for 259 bytes, then the byte left unread with
room for 1000 more. -/
def far_pieces : List (buffers × Int) :=
  [(⟨false, far_stream, false, [], 259⟩, Z_NO_FLUSH),
   (⟨false, [0], false, [], 1000⟩, Z_NO_FLUSH)]

/-- The stream of "abcabc" given one byte at a time with room for one byte of output; the
last call gives again the byte the call before left unread. -/
def bytewise : List (buffers × Int) :=
  [75, 76, 74, 6, 34, 0, 0].map (fun x => (⟨false, [x], false, [], 1⟩, Z_NO_FLUSH))

/-- The stream of "abcabc" given in one call with room for six bytes. -/
def abc_whole : List (buffers × Int) := [(abc_buffers, Z_NO_FLUSH)]

/-- A stored block with the byte "a", not the last one, followed by a block header of the
invalid type 3. -/
def bad_stream : List Nat := [0, 1, 0, 254, 255, 97, 7]

/-- The stream `bad_stream` given in one call. -/
def bad_whole : List (buffers × Int) :=
  [(⟨false, bad_stream, false, [], 10⟩, Z_NO_FLUSH)]

/-- The stream `bad_stream` given in two pieces. -/
def bad_pieces : List (buffers × Int) :=
  [(⟨false, [0, 1, 0], false, [], 10⟩, Z_NO_FLUSH),
   (⟨false, [254, 255, 97, 7], false, [], 1⟩, Z_NO_FLUSH)]

/-- The status the last call of a trace returned. -/
def last_ret (tr : List call_record) : Int := (tr.getLast?.map (fun c => c.ret)).getD Z_OK

/-! ## The deflate format (RFC 1951) -/

/-- A string of bits is a pair: its value, first bit least significant, and its number
of bits.  This is the string `x` followed by the string `y`. -/
def bcat (x y : Nat × Nat) : Nat × Nat := (x.1 + 2 ^ x.2 * y.1, x.2 + y.2)

/-- RFC 1951, 3.2.2, step 1: the number of codes of length `b`; lengths of zero do not
count. -/
def bl_count (lens : List Nat) (b : Nat) : Nat := if b = 0 then 0 else lens.count b

/-- RFC 1951, 3.2.2, step 2: the smallest code of each code length. -/
def next_code (lens : List Nat) : Nat → Nat
  | 0 => 0
  | b + 1 => 2 * (next_code lens b + bl_count lens b)

/-- RFC 1951, 3.2.2, step 3: the code of the symbol `sym` in the Huffman code given by
the code lengths `lens`: codes of one length are consecutive in the order of the
symbols. -/
def huff_code (lens : List Nat) (sym : Nat) : Nat :=
  next_code lens (lens.getD sym 0) + (lens.take sym).count (lens.getD sym 0)

/-- The bits of the symbol `sym` in the stream: Huffman codes are packed starting with
the most significant bit of the code (RFC 1951, 3.1.1). -/
def huff (lens : List Nat) (sym : Nat) : Nat × Nat :=
  (bitrev (lens.getD sym 0) (huff_code lens sym), lens.getD sym 0)

/-- RFC 1951, 3.2.6: the code lengths of the fixed literal/length code. -/
def fixed_ll : List Nat :=
  List.replicate 144 8 ++ List.replicate 112 9 ++ List.replicate 24 7 ++ List.replicate 8 8

/-- RFC 1951, 3.2.6: distance codes 0 .. 31 are represented by codes of five bits. -/
def fixed_dl : List Nat := List.replicate 32 5

/-- A symbol of compressed data (RFC 1951, 3.2.5): a literal byte, or a pair of a length
and a backward distance; the length is given by its symbol `257 + ls` and the value `le`
of the extra bits, the distance by its symbol `ds` and the value `de` of the extra
bits. -/
inductive token
  | lit (b : Nat)
  | ref (ls le ds de : Nat)
deriving DecidableEq, Repr

/-- The bits of a token under the literal/length code `ll` and the distance code `dl`;
extra bits follow their symbol. -/
def enc_token (ll dl : List Nat) : token → Nat × Nat
  | .lit b => huff ll b
  | .ref ls le ds de =>
    bcat (huff ll (257 + ls)) (bcat (le, lext ls) (bcat (huff dl ds) (de, dext ds)))

/-- The bits of a sequence of tokens. -/
def enc_tokens (ll dl : List Nat) : List token → Nat × Nat
  | [] => (0, 0)
  | t :: ts => bcat (enc_token ll dl t) (enc_tokens ll dl ts)

/-- The output `H` after a copy of `n` bytes from `dist` bytes back; the bytes copied may
overlap the bytes they are copied to (RFC 1951, 3.2.3). -/
def lz_copy (dist : Nat) : Nat → List Nat → List Nat
  | 0, H => H
  | n + 1, H => lz_copy dist n (H ++ [H.getD (H.length - dist) 0])

/-- The output `H` after a token. -/
def token.out (H : List Nat) : token → List Nat
  | .lit b => H ++ [b]
  | .ref ls le ds de => lz_copy (dbase ds + de) (lbase ls + le) H

/-- The output `H` after a sequence of tokens. -/
def tokens_out : List token → List Nat → List Nat
  | [], H => H
  | t :: ts, H => tokens_out ts (t.out H)

/-- A token the format allows after the output `H` under the codes `ll` and `dl`: a byte
that has a code; a length 3 .. 258 and a distance 1 .. 32768 whose symbols have codes,
with extra bits in range and a distance that does not reach before the output. -/
def ok_token (ll dl : List Nat) (H : List Nat) : token → Bool
  | .lit b => decide (b < 256) && decide (ll.getD b 0 ≠ 0)
  | .ref ls le ds de =>
    decide (ls < 29) && decide (le < 2 ^ lext ls) && decide (lbase ls + le ≤ 258) &&
    decide (ll.getD (257 + ls) 0 ≠ 0) &&
    decide (ds < 30) && decide (de < 2 ^ dext ds) && decide (dl.getD ds 0 ≠ 0) &&
    decide (dbase ds + de ≤ H.length)

/-- Every token of the sequence is allowed where it stands. -/
def ok_tokens (ll dl : List Nat) : List token → List Nat → Bool
  | [], _ => true
  | t :: ts, H => ok_token ll dl H t && ok_tokens ll dl ts (t.out H)

/-- RFC 1951, 3.2.7: the number of extra bits after the code length symbols 16, 17
and 18. -/
def run_extra (sym : Nat) : Nat := if sym = 16 then 2 else if sym = 17 then 3 else 7

/-- RFC 1951, 3.2.7: the shortest run of the code length symbols 16, 17 (3) and 18
(11). -/
def run_base (sym : Nat) : Nat := if sym = 18 then 11 else 3

/-- The code lengths `acc` after an item of the run-length coded sequence of code
lengths (RFC 1951, 3.2.7): 0 .. 15 is a code length, 16 repeats the length before it,
17 and 18 repeat the length zero. -/
def run_out (acc : List Nat) (it : Nat × Nat) : List Nat :=
  if it.1 < 16 then acc ++ [it.1]
  else if it.1 = 16 then acc ++ List.replicate (3 + it.2) (acc.getD (acc.length - 1) 0)
  else acc ++ List.replicate (run_base it.1 + it.2) 0

/-- The code lengths after a sequence of items. -/
def runs_out : List (Nat × Nat) → List Nat → List Nat
  | [], acc => acc
  | it :: r, acc => runs_out r (run_out acc it)

/-- An item the format allows after the code lengths `acc`: a symbol 0 .. 18 that has a
code in the code length code `cl`, with extra bits in range, and no repeat of a length
before the first length. -/
def ok_run (cl : List Nat) (acc : List Nat) (it : Nat × Nat) : Bool :=
  decide (it.1 ≤ 18) && decide (cl.getD it.1 0 ≠ 0) &&
  (decide (it.1 < 16) && decide (it.2 = 0) ||
    decide (16 ≤ it.1) && decide (it.2 < 2 ^ run_extra it.1) &&
      (decide (it.1 ≠ 16) || decide (acc ≠ [])))

/-- Every item of the sequence is allowed where it stands. -/
def ok_runs (cl : List Nat) : List (Nat × Nat) → List Nat → Bool
  | [], _ => true
  | it :: r, acc => ok_run cl acc it && ok_runs cl r (run_out acc it)

/-- The bits of an item: its Huffman code, then its extra bits. -/
def enc_run (cl : List Nat) (it : Nat × Nat) : Nat × Nat :=
  if it.1 < 16 then huff cl it.1 else bcat (huff cl it.1) (it.2, run_extra it.1)

/-- The bits of a sequence of items. -/
def enc_runs (cl : List Nat) : List (Nat × Nat) → Nat × Nat
  | [] => (0, 0)
  | it :: r => bcat (enc_run cl it) (enc_runs cl r)

/-- The bits of `k` code lengths of the code length code from the `i`-th on, three bits
each, in the order 16, 17, 18, 0, 8, 7, 9, 6, 10, 5, 11, 4, 12, 3, 13, 2, 14, 1, 15 of
RFC 1951, 3.2.7. -/
def enc_cl (cl : List Nat) : Nat → Nat → Nat × Nat
  | 0, _ => (0, 0)
  | k + 1, i => bcat (cl.getD (order.getD i 0) 0, 3) (enc_cl cl k (i + 1))

/-- A block of a deflate stream with the choices its encoder made.  A stored block: the
value `fill` of the bits up to the byte boundary, and the bytes.  A block with the fixed
codes: its tokens.  A block with dynamic codes: the number `ncode` of code lengths of the
code length code that are sent, the 19 code lengths `cl` of that code, the run-length
coded code lengths `runs` of the two other codes, the numbers `nlen` and `ndist` of
literal/length and distance code lengths, and its tokens. -/
inductive block
  | stored (fill : Nat) (data : List Nat)
  | fixed (ts : List token)
  | dynamic (ncode : Nat) (cl : List Nat) (runs : List (Nat × Nat)) (nlen ndist : Nat)
      (ts : List token)
deriving DecidableEq, Repr

/-- The code lengths of the literal/length code of a block with dynamic codes. -/
def dyn_ll (runs : List (Nat × Nat)) (nlen : Nat) : List Nat := (runs_out runs []).take nlen

/-- The code lengths of the distance code of a block with dynamic codes. -/
def dyn_dl (runs : List (Nat × Nat)) (nlen : Nat) : List Nat := (runs_out runs []).drop nlen

/-- The number of bits from the bit position `p` to the next byte boundary. -/
def to_boundary (p : Nat) : Nat := (8 - p % 8) % 8

/-- The bits of a block that begins at the bit position `p` of the stream (RFC 1951,
3.2.3 .. 3.2.7); `fin` is 1 for the last block and 0 otherwise.  The header: the bit
`fin`, two bits of block type.  Stored: the bits to the byte boundary, `LEN`, its
complement `NLEN`, the bytes.  Fixed: the tokens and the end-of-block symbol 256.
Dynamic: `HLIT`, `HDIST`, `HCLEN`, the code lengths of the code length code, the
run-length coded code lengths, the tokens and the end-of-block symbol. -/
def enc_block (p fin : Nat) : block → Nat × Nat
  | .stored fill data =>
    bcat (fin, 3) (bcat (fill % 2 ^ to_boundary (p + 3), to_boundary (p + 3))
      (bcat (data.length + 65536 * (data.length ^^^ 65535), 32)
        (bytes_val data, 8 * data.length)))
  | .fixed ts =>
    bcat (fin + 2, 3) (bcat (enc_tokens fixed_ll fixed_dl ts) (huff fixed_ll 256))
  | .dynamic ncode cl runs nlen ndist ts =>
    bcat (fin + 4, 3) (bcat ((nlen - 257) + 32 * (ndist - 1) + 1024 * (ncode - 4), 14)
      (bcat (enc_cl cl ncode 0) (bcat (enc_runs cl runs)
        (bcat (enc_tokens (dyn_ll runs nlen) (dyn_dl runs nlen) ts)
          (huff (dyn_ll runs nlen) 256)))))

/-- The output `H` after a block. -/
def block.out (H : List Nat) : block → List Nat
  | .stored _ data => H ++ data
  | .fixed ts => tokens_out ts H
  | .dynamic _ _ _ _ _ ts => tokens_out ts H

/-- A block the format allows after the output `H`.  Stored: fewer than 65536 bytes.
Fixed: tokens allowed under the fixed codes.  Dynamic: 257 .. 286 literal/length code
lengths, 1 .. 30 distance code lengths, 4 .. 19 code lengths of the code length code,
each below 8 and those not sent zero; the items are allowed and give exactly
`nlen + ndist` code lengths; the end-of-block symbol has a code; the tokens are allowed
under the two codes. -/
def ok_block (H : List Nat) : block → Bool
  | .stored _ data => decide (data.length < 65536) && decide (bytes data)
  | .fixed ts => ok_tokens fixed_ll fixed_dl ts H
  | .dynamic ncode cl runs nlen ndist ts =>
    decide (257 ≤ nlen) && decide (nlen ≤ 286) && decide (1 ≤ ndist) && decide (ndist ≤ 30) &&
    decide (4 ≤ ncode) && decide (ncode ≤ 19) && decide (cl.length = 19) &&
    cl.all (fun x => decide (x < 8)) &&
    (List.range 19).all (fun i => decide (i < ncode) || decide (cl.getD (order.getD i 0) 0 = 0)) &&
    ok_runs cl runs [] && decide ((runs_out runs []).length = nlen + ndist) &&
    decide ((dyn_ll runs nlen).getD 256 0 ≠ 0) &&
    ok_tokens (dyn_ll runs nlen) (dyn_dl runs nlen) ts H

/-- The bits of a sequence of blocks that begins at the bit position `p`; the last block
is the one flagged final. -/
def encode : Nat → List block → Nat × Nat
  | _, [] => (0, 0)
  | p, [b] => enc_block p 1 b
  | p, b :: b2 :: bs =>
    bcat (enc_block p 0 b) (encode (p + (enc_block p 0 b).2) (b2 :: bs))

/-- The output `H` after a sequence of blocks. -/
def blocks_out : List block → List Nat → List Nat
  | [], H => H
  | b :: bs, H => blocks_out bs (b.out H)

/-- Every block of the sequence is allowed where it stands. -/
def ok_blocks : List block → List Nat → Bool
  | [], _ => true
  | b :: bs, H => ok_block H b && ok_blocks bs (b.out H)

/-- The byte string `C` is a deflate stream of the blocks `bs`: there is at least one
block, every block is allowed, and the bits of `C`, least significant bit of each byte
first, begin with the bits of the blocks. -/
def deflated (bs : List block) (C : List Nat) : Prop :=
  bs ≠ [] ∧ ok_blocks bs [] = true ∧ bytes C ∧ (encode 0 bs).2 ≤ 8 * C.length ∧
  bytes_val C % 2 ^ (encode 0 bs).2 = (encode 0 bs).1

instance (bs : List block) (C : List Nat) : Decidable (deflated bs C) := by
  unfold deflated; infer_instance

/-- The table `T` of `root` index bits decodes the literal/length code of the code
lengths `ll`: on bits that begin with the code of a symbol that has one, the lookup of
the decoder ends at the entry of that symbol and uses the bits of the code. -/
def decodes_len (T : Nat → code) (root : Nat) (ll : List Nat) : Prop :=
  ∀ sym, sym < 286 → ll.getD sym 0 ≠ 0 → ∀ N L, ll.getD sym 0 ≤ L →
    N % 2 ^ ll.getD sym 0 = (huff ll sym).1 →
    ∃ e, adecode T root len_link N L = some (e, ll.getD sym 0) ∧
      e.op = (lensym 0 sym).op ∧ e.val = (lensym 0 sym).val

/-- The table `T` of `root` index bits decodes the distance code of the code lengths
`dl`. -/
def decodes_dist (T : Nat → code) (root : Nat) (dl : List Nat) : Prop :=
  ∀ sym, sym < 30 → dl.getD sym 0 ≠ 0 → ∀ N L, dl.getD sym 0 ≤ L →
    N % 2 ^ dl.getD sym 0 = (huff dl sym).1 →
    ∃ e, adecode T root dist_link N L = some (e, dl.getD sym 0) ∧
      e.op = (distsym 0 sym).op ∧ e.val = (distsym 0 sym).val

/-- The table `T` of `root` index bits decodes the code length code of the code lengths
`cl`: the entry under bits that begin with the code of a symbol has the length of the
code and the symbol as its value. -/
def decodes_codes (T : Nat → code) (root : Nat) (cl : List Nat) : Prop :=
  ∀ sym, sym < 19 → cl.getD sym 0 ≠ 0 → ∀ N,
    N % 2 ^ cl.getD sym 0 = (huff cl sym).1 →
    (T (N % 2 ^ root)).bits = cl.getD sym 0 ∧ (T (N % 2 ^ root)).val = sym

/-- The table builder delivers the three decoding tables of a block: for a block with
dynamic codes it reports success on the code lengths of the block, and each table
decodes the canonical Huffman code of its code lengths.  Nothing is asked for the other
blocks, which need no table built. -/
def conforms (tb : table_builder) : block → Prop
  | .dynamic _ cl runs nlen _ _ =>
    ((tb .CODES cl 7).1 = 0 ∧
      decodes_codes (fun i => (tb .CODES cl 7).2.1.getD i default) (tb .CODES cl 7).2.2 cl) ∧
    ((tb .LENS (dyn_ll runs nlen) 9).1 = 0 ∧
      decodes_len (fun i => (tb .LENS (dyn_ll runs nlen) 9).2.1.getD i default)
        (tb .LENS (dyn_ll runs nlen) 9).2.2 (dyn_ll runs nlen)) ∧
    ((tb .DISTS (dyn_dl runs nlen) 6).1 = 0 ∧
      decodes_dist (fun i => (tb .DISTS (dyn_dl runs nlen) 6).2.1.getD i default)
        (tb .DISTS (dyn_dl runs nlen) 6).2.2 (dyn_dl runs nlen))
  | _ => True

/-- The stream of "abcabc": one block with the fixed codes, three literals and a match of
length 3 at distance 3. -/
def abc_blocks : List block := [.fixed [.lit 97, .lit 98, .lit 99, .ref 0 0 2 0]]

/-- The blocks of `far_stream`: the literal "a", a match of length 258 at distance 1, a
match of length 3 at distance 257. -/
def far_blocks : List block := [.fixed [.lit 97, .ref 28 0 0 0, .ref 0 0 16 0]]

/-- The bits `N`, of which `L` are there, begin with the bit string `x`. -/
def starts (N L : Nat) (x : Nat × Nat) : Prop := x.2 ≤ L ∧ N % 2 ^ x.2 = x.1

/-- The decoder gets from the state `a` to the state `b` in some number of steps. -/
def reaches (tb : table_builder) (a b : astate) : Prop := ∃ k, asteps tb k a = some b

/-- A stream in the mode `STORED` with the whole header of a stored block of one byte at
hand. -/
def stored_state : inflate_stream :=
  { (fresh 15).feed [1, 0, 254, 255, 97] 10 with mode := .STORED }

/-- A stream inside the match of "abcabc": the three literals are written, and a match
of length 3 at distance 3 is to be copied; room for 255 more bytes. -/
def match_state : inflate_stream :=
  { fast_state with mode := .MATCH, length := 3, offset := 3, next_out := [97, 98, 99],
                    avail_out := 255 }

/-- The value `inflate_fast` stores in `avail_in` on return,
`in < last ? 5 + (last - in) : 5 - (in - last)`; `pos` is the input cursor `in` counted from
the value of `next_in` on entry and `avail_in` the value on entry. -/
def fast_avail_in (avail_in pos : Nat) : Nat :=
  let last := usub avail_in 5
  if pos < last then 5 + (last - pos) else usub 5 (pos - last)

/-- The stream with which the case `TABLE` falls into the case `LENLENS`; `none` when it
jumps to `inf_leave` or fails first. -/
def table_fall (s0 : inflate_stream) : Option inflate_stream :=
  let s := NEEDBITS 14 s0
  if s.bits < 14 then none
  else
    let s1 := DROPBITS 5 { s with nlen := BITS 5 s + 257 }
    let s2 := DROPBITS 5 { s1 with ndist := BITS 5 s1 + 1 }
    let s3 := DROPBITS 4 { s2 with ncode := BITS 4 s2 + 4 }
    if s3.nlen > 286 ∨ s3.ndist > 30 then none
    else some { s3 with have_ := 0, mode := .LENLENS }

/-- The stream with which the case `LENLENS` falls into the case `CODELENS`; `none` when
it jumps to `inf_leave` or fails first. -/
def lenlens_fall (tb : table_builder) (s0 : inflate_stream) : Option inflate_stream :=
  match lenlens_read (s0.ncode - s0.have_) s0 with
  | (_, false) => none
  | (s, true) =>
    let s1 := lenlens_zero (19 - s.have_) s
    let r := tb .CODES (s1.lens.take 19) 7
    let s2 := { s1 with codes := store_codes s1.codes 0 r.2.1, next := r.2.1.length,
                        lencode := .codes 0, lenbits := r.2.2 }
    if r.1 ≠ 0 then none
    else some { s2 with have_ := 0, mode := .CODELENS }

/-- The stream with which the case `CODELENS` reaches the label `LEN_` (where it jumps to
`inf_leave` with `Z_TREES` and else falls into the case `LEN`); `none` when it jumps to
`inf_leave` or fails first. -/
def codelens_fall (tb : table_builder) (s0 : inflate_stream) : Option inflate_stream :=
  match codelens_loop (s0.nlen + s0.ndist - s0.have_) s0 with
  | (_, .leave) => none
  | (s, _) =>
    if s.mode = .BAD then none
    else if s.lens.getD 256 0 = 0 then none
    else
      let r := tb .LENS (s.lens.take s.nlen) 9
      let s1 := { s with codes := store_codes s.codes 0 r.2.1, next := r.2.1.length,
                         lencode := .codes 0, lenbits := r.2.2 }
      if r.1 ≠ 0 then none
      else
        let r2 := tb .DISTS ((s1.lens.drop s1.nlen).take s1.ndist) 6
        let s2 := { s1 with codes := store_codes s1.codes s1.next r2.2.1,
                            distcode := .codes s1.next,
                            next := s1.next + r2.2.1.length, distbits := r2.2.2 }
        if r2.1 ≠ 0 then none
        else some { s2 with mode := .LEN_ }

/-- The stream with which the pass of the switch that begins in the state `v` reaches the
code of the cases `LEN_` and `LEN`: `v` itself in these two modes, and the stream a dynamic
block header ends with when the pass begins in `TABLE`, `LENLENS` or `CODELENS`. -/
def len_entry (tb : table_builder) (v : inflate_stream) : Option inflate_stream :=
  match v.mode with
  | .LEN_ | .LEN => some v
  | .CODELENS => codelens_fall tb v
  | .LENLENS => (lenlens_fall tb v).bind (codelens_fall tb)
  | .TABLE => ((table_fall v).bind (lenlens_fall tb)).bind (codelens_fall tb)
  | _ => none

/-- The stream with which the pass of the switch that begins in the state `v` calls
`inflate_fast`, when it does: the pass reaches the case `LEN` (with `Z_TREES` a pass that
began in a block header has left before) with 6 bytes of input and room for 258 bytes. -/
def fast_arg (tb : table_builder) (flush : Int) (v : inflate_stream) : Option inflate_stream :=
  match len_entry tb v with
  | none => none
  | some s0 =>
    if (v.mode = .TABLE ∨ v.mode = .LENLENS ∨ v.mode = .CODELENS) ∧ flush = Z_TREES then none
    else if ({ s0 with mode := .LEN } : inflate_stream).avail_in ≥ 6 ∧
        ({ s0 with mode := .LEN } : inflate_stream).avail_out ≥ 258 then
      some { s0 with mode := .LEN }
    else none

/-- The stream of twelve literals 200 in one fixed-Huffman block: the codes have nine
bits, so that the sixth code begins at a byte boundary. -/
def nine_stream : List Nat := [59, 113, 226, 196, 137, 19, 39, 78, 156, 56, 113, 226, 196, 9, 0]

/-- The first seven bytes of `nine_stream` in one call. -/
def nine_first : List (buffers × Int) :=
  [(⟨false, nine_stream.take 7, false, [], 300⟩, Z_NO_FLUSH)]

/-- The buffers of the call after `nine_first`: the other eight bytes of `nine_stream`. -/
def nine_rest : buffers := ⟨false, nine_stream.drop 7, false, [], 300⟩

/-- The ranges of the three counts of a dynamic block header. -/
def counts_ok (s : inflate_stream) : Prop :=
  (257 ≤ s.nlen ∧ s.nlen ≤ 286) ∧ (1 ≤ s.ndist ∧ s.ndist ≤ 30) ∧ (4 ≤ s.ncode ∧ s.ncode ≤ 19)

/-- The two modes in which the code lengths of a dynamic block are read. -/
def lens_mode : Mode → Bool
  | .LENLENS | .CODELENS => true
  | _ => false

/-- What holds of the accumulator and of the header counts between two passes of the
`switch`: at most 32 bits are held; while the code lengths are read the counts are in
range, and the code-length table has at most 15 index bits. -/
def regs_ok (s : inflate_stream) : Prop :=
  s.bits ≤ 32 ∧ (lens_mode s.mode = true → counts_ok s) ∧ (s.mode = .CODELENS → s.lenbits ≤ 15)

/-- The hypothesis on the table builder that the code-length table it delivers has at
most 15 index bits, hence codes of at most 15 bits. -/
def short_codes (tb : table_builder) : Prop :=
  ∀ lens bits, (tb .CODES lens bits).1 = 0 → (tb .CODES lens bits).2.2 ≤ 15

/-- The macro `PULLBYTE()`; `none` when it jumps to `inf_leave`. -/
def PULLBYTE (s : inflate_stream) : Option inflate_stream :=
  match s.next_in with
  | [] => none
  | b :: rest => some { s with hold := s.hold + b * 2 ^ s.bits, bits := s.bits + 8, next_in := rest }

/-- A stream outside the block header that holds at most 32 bits. -/
def quiet (s : inflate_stream) : Prop := s.bits ≤ 32 ∧ lens_mode s.mode = false

/-- Every entry of the first level of the table behind `lencode` has at most 15 code
bits. -/
def codes_short (s : inflate_stream) : Prop :=
  ∀ i, i < 2 ^ s.lenbits → (s.tab s.lencode i).bits ≤ 15

/-- The stream after the case `TABLE` has read the three counts of the header. -/
def table_read (s0 : inflate_stream) : inflate_stream :=
  let s := NEEDBITS 14 s0
  let s1 := DROPBITS 5 { s with nlen := BITS 5 s + 257 }
  let s2 := DROPBITS 5 { s1 with ndist := BITS 5 s1 + 1 }
  DROPBITS 4 { s2 with ncode := BITS 4 s2 + 4 }

/-- The start of a dynamic block whose header announces 288 literal/length codes. -/
def long_header : buffers := ⟨false, [253, 0, 0], false, [], 10⟩

/-- A call on a stored block whose length header is invalid, with one more byte of input
behind the header. -/
def bad_stored : List (buffers × Int) :=
  [(⟨false, [1, 0, 0, 0, 0, 7], false, [], 10⟩, Z_NO_FLUSH)]

/-- The state of the loop that reads the code lengths of the code-length code, for a header
whose 3-bit fields are the bits `V` (of `L` bits in all, counted from the first field):
`have` fields have been read, the `i`-th of them into `lens[order[i]]`, and the unread bits
(those at hand followed by the input `X` not yet presented) are `V` without `3 * have`
bits. -/
def read_so_far (V L : Nat) (X : List Nat) (s : inflate_stream) : Prop :=
  s.have_ ≤ s.ncode ∧ s.ncode ≤ 19 ∧ 19 ≤ s.lens.length ∧
  s.sN X = V / 2 ^ (3 * s.have_) ∧ s.sL X + 3 * s.have_ = L ∧
  ∀ i, i < s.have_ → s.lens.getD (order.getD i 0) 0 = V / 2 ^ (3 * i) % 8

/-- A stream in the mode `LENLENS` with four code lengths to read, the fields 1, 2, 3, 4. -/
def lenlens_state : inflate_stream :=
  { (fresh 15).feed [209, 8] 10 with mode := .LENLENS, ncode := 4, nlen := 257, ndist := 1 }

/-- The entry of the code-length table under the unread bits: those at hand followed by the
input `X` not yet presented. -/
def cl_code (s : inflate_stream) (X : List Nat) : code :=
  s.tab s.lencode (s.sN X % 2 ^ s.lenbits)

/-- The repeat count the unread bits spell behind the code of a repeat symbol: the base of
the symbol plus its extra bits. -/
def cl_copy (s : inflate_stream) (X : List Nat) : Nat :=
  rep_base (cl_code s X).val +
    s.sN X / 2 ^ (cl_code s X).bits % 2 ^ rep_extra (cl_code s X).val

/-- The code lengths that the code-length symbols spelt by the bit stream `N` expand to
(RFC 1951, 3.2.7), continuing the lengths `acc` up to `total` lengths: each symbol is
decoded with the table `T` of `root` index bits, a symbol below 16 is a length, and a
symbol from 16 on is followed by its extra bits and stands for a run. -/
def cl_expand (T : Nat → code) (root total : Nat) : Nat → Nat → List Nat → List Nat
  | 0, _, acc => acc
  | fuel + 1, N, acc =>
    if acc.length < total then
      if (T (N % 2 ^ root)).val < 16 then
        cl_expand T root total fuel (N / 2 ^ (T (N % 2 ^ root)).bits)
          (run_out acc ((T (N % 2 ^ root)).val, 0))
      else
        cl_expand T root total fuel
          (N / 2 ^ (T (N % 2 ^ root)).bits / 2 ^ rep_extra (T (N % 2 ^ root)).val)
          (run_out acc ((T (N % 2 ^ root)).val,
            N / 2 ^ (T (N % 2 ^ root)).bits % 2 ^ rep_extra (T (N % 2 ^ root)).val))
    else acc

/-- The state of the loop of the case `CODELENS` on a header whose code lengths expand to
`F`: `have` lengths are stored, none above 15, and the unread bits (those at hand followed
by the input `X` not yet presented) expand them to `F`. -/
def expanding (F : List Nat) (X : List Nat) (s : inflate_stream) : Prop :=
  s.have_ ≤ s.nlen + s.ndist ∧ s.nlen + s.ndist ≤ s.lens.length ∧
  (∀ x ∈ s.lens.take s.have_, x ≤ 15) ∧
  cl_expand (s.tab s.lencode) s.lenbits (s.nlen + s.ndist) (s.nlen + s.ndist - s.have_)
    (s.sN X) (s.lens.take s.have_) = F

/-- A stream in the mode `CODELENS` with a code-length table of two index bits (the code
`0` for the length 5, `10` for the symbol 16 and `11` for the symbol 17), five lengths to
read, and the bits of the symbol 5 followed by the symbol 16 with the extra bits 1. -/
def cl_state : inflate_stream :=
  { (fresh 15).feed [10] 10 with
    mode := .CODELENS, nlen := 4, ndist := 1, lenbits := 2, lencode := .codes 0,
    codes := [⟨0, 1, 5⟩, ⟨0, 2, 16⟩, ⟨0, 1, 5⟩, ⟨0, 2, 17⟩] }

/-- The end of the case `CODELENS`, from `/* build code tables */` on: the two calls of
`inflate_table` and the fall into `LEN_`. -/
def build_tables (tb : table_builder) (fuel : Nat) (flush : Int) (out : Nat)
    (s : inflate_stream) : Option outcome :=
  let r := tb .LENS (s.lens.take s.nlen) 9
  let s1 := { s with codes := store_codes s.codes 0 r.2.1, next := r.2.1.length,
                     lencode := .codes 0, lenbits := r.2.2 }
  if r.1 ≠ 0 then
    some (.cont { s1 with msg := some "invalid literal/lengths set", mode := .BAD } r.1)
  else
    let r2 := tb .DISTS ((s1.lens.drop s1.nlen).take s1.ndist) 6
    let s2 := { s1 with codes := store_codes s1.codes s1.next r2.2.1,
                        distcode := .codes s1.next,
                        next := s1.next + r2.2.1.length, distbits := r2.2.2 }
    if r2.1 ≠ 0 then
      some (.cont { s2 with msg := some "invalid distances set", mode := .BAD } r2.1)
    else
      let s3 := { s2 with mode := .LEN_ }
      if flush = Z_TREES then some (.leave s3 r2.1)
      else case_LEN fuel out s3 r2.1

/-- A stream in the mode `CODELENS` as `cl_state`, with the bits of the symbol 16 first. -/
def cl_repeat_first : inflate_stream := { cl_state with next_in := [1] }

/-- What a part of a pass of the loop of the fast decoder did to the input cursor and the
accumulator: it read between 0 and `n` bytes, at most `m` when `c` holds, and left at most
31 bits. -/
def fast_read (n m : Nat) (c : Prop) (l : fast_locals) (r : fast_end) : Prop :=
  r.locals.bits ≤ 31 ∧ l.cin ≤ r.locals.cin ∧ r.locals.cin ≤ l.cin + n ∧
  (c → r.locals.cin ≤ l.cin + m)

/-- The passes of the loop of `inflate_fast` entered with the locals `l`: the locals at the
top of each pass and the way the pass ended, in order.  A pass that ran out of fuel is not
listed. -/
def fast_passes (s : inflate_stream) (inp : List Nat) (beg out0 last end_ : Nat) :
    Nat → fast_locals → List (fast_locals × fast_end)
  | 0, _ => []
  | fuel + 1, l =>
    match fast_dolen s inp beg out0 (fuel + 1)
        (s.tab s.lencode ((l.refill inp).hold % 2 ^ s.lenbits)) (l.refill inp) with
    | none => []
    | some (.brk l1 m msg) => [(l, .brk l1 m msg)]
    | some (.test l1) =>
      (l, .test l1) ::
        (if l1.cin < last ∧ l1.out.length - out0 < end_ then
          fast_passes s inp beg out0 last end_ fuel l1
        else [])

/-- The passes of the loop of `inflate_fast(strm, start)`. -/
def fast_trace (fuel : Nat) (s : inflate_stream) (start : Nat) : List (fast_locals × fast_end) :=
  fast_passes s s.next_in (usub start s.avail_out) s.next_out.length (usub s.avail_in 5)
    (usub s.avail_out 257) fuel ⟨0, s.next_out, s.hold, s.bits⟩

/-- The ranges `(from, count)` of window indices that the match copy of `inflate_fast`
reads, in order, for a source `op` bytes back in the window and a match of `len` bytes. -/
def fast_window_reads (wsize wnext op len : Nat) : List (Nat × Nat) :=
  if wnext = 0 then
    let from_ := usub wsize op
    if op < len then [(from_, op)] else [(from_, len)]
  else if wnext < op then
    let from_ := usub (wsize + wnext) op
    let op := op - wnext
    if op < len then
      let len := len - op
      if wnext < len then [(from_, op), (0, wnext)] else [(from_, op), (0, len)]
    else [(from_, len)]
  else
    let from_ := wnext - op
    if op < len then [(from_, op)] else [(from_, len)]

/-- A pass of the loop of the fast decoder stays within the buffers of the stream `s` that
the decoder was entered with: at its top at least 6 bytes of input are unread and there is
room for 258 bytes of output, and the pass reads at most 6 bytes and appends at most 258. -/
def fast_within (s : inflate_stream) (p : fast_locals × fast_end) : Prop :=
  p.1.cin + 6 ≤ s.avail_in ∧ p.1.cin ≤ p.2.locals.cin ∧ p.2.locals.cin ≤ p.1.cin + 6 ∧
  ∃ W0 W, p.1.out = s.next_out ++ W0 ∧ W0.length + 258 ≤ s.avail_out ∧
    p.2.locals.out = p.1.out ++ W ∧ W.length ≤ 258

/-- The messages that the cases `LEN` to `MATCH` and `inflate_fast` set on the way into
`BAD`. -/
def data_msg (m : Option String) : Prop :=
  m = some "invalid literal/length code" ∨ m = some "invalid distance code" ∨
  m = some "invalid distance too far back"

/-- The messages set on the way into `BAD` after the code lengths of a dynamic block were
read and found to hold an end-of-block code: those of the two table builds and of the
data. -/
def build_msg (m : Option String) : Prop :=
  m = some "invalid literal/lengths set" ∨ m = some "invalid distances set" ∨ data_msg m

/-- The messages set on the way into `BAD` from the case `LENLENS` on. -/
def codes_msg (m : Option String) : Prop :=
  m = some "invalid code lengths set" ∨ m = some "invalid bit length repeat" ∨
  m = some "invalid code -- missing end-of-block" ∨ build_msg m

/-- The mode `BAD` in the outcome `o` of a pass from `s` was either there before, with the
same message, or came with one of the messages `M`. -/
def bad_by (M : Option String → Prop) (s : inflate_stream) (o : outcome) : Prop :=
  (o.st.mode = s.mode ∧ o.st.msg = s.msg) ∨ o.st.mode ≠ .BAD ∨ M o.st.msg

/-- The stream of "abcabc" given in one call with `Z_FINISH`. -/
def abc_finish : List (buffers × Int) := [(abc_buffers, Z_FINISH)]

/-- A stream at the leave point of a call that was entered with room for 8 bytes and has
written "ab": the window is not in use yet. -/
def leave_state : inflate_stream :=
  { (fresh 15).feed [] 6 with next_out := [97, 98], mode := .LEN }

/-- The array `lens` has its 320 entries, and the counts of the dynamic header are such
that the loops of `LENLENS` and `CODELENS` stay inside it: `ncode <= 19` and
`nlen + ndist <= 316`. -/
def lens_fit (s : inflate_stream) : Prop :=
  s.lens.length = 320 ∧ s.ncode ≤ 19 ∧ s.nlen + s.ndist ≤ 316

/-- The start of a dynamic block: the block header and the counts `nlen = 257`,
`ndist = 1`, `ncode = 4`, then seven more bits. -/
def dyn_start : List (buffers × Int) := [(⟨false, [5, 0, 0], false, [], 10⟩, Z_NO_FLUSH)]

/-- Place of a mode in the order in which a pass that consumes no bit of input and writes no
byte of output can only move down: the modes of a block in the order of the state machine,
then `TYPE` and `TYPEDO` (reached again at the end of a block), then the final modes. -/
def Mode.phase : Mode → Nat
  | .HEAD => 19 | .STORED => 18 | .COPY_ => 17 | .COPY => 16 | .TABLE => 15 | .LENLENS => 14
  | .CODELENS => 13 | .LEN_ => 12 | .LEN => 11 | .LENEXT => 10 | .DIST => 9 | .DISTEXT => 8
  | .MATCH => 7 | .LIT => 6 | .TYPE => 5 | .TYPEDO => 4 | .CHECK => 3 | .DONE => 2 | .BAD => 1
  | .MEM => 0 | .SYNC => 0

/-- The measure that decreases at every pass of the loop of `write` that ends by `break`: the
unread bits and the room in the output buffer first, the phase of the mode second. -/
def inflate_stream.measure (s : inflate_stream) : Nat :=
  20 * (s.slen + s.avail_out) + s.mode.phase

/-- What a pass that began in `s` and ended with the outcome `o` did to the counters: it gave
back no input and no room, and when it ended by `break` it consumed a bit, wrote a byte or
moved down in the phases; it then also took a byte of input, wrote a byte, moved to a later
mode or ended the block by moving to `TYPE`. -/
def down (s : inflate_stream) (o : outcome) : Prop :=
  o.st.slen ≤ s.slen ∧ o.st.next_in.length ≤ s.next_in.length ∧ o.st.avail_out ≤ s.avail_out ∧
  (o.is_cont = true →
    (o.st.slen < s.slen ∨ o.st.avail_out < s.avail_out ∨ o.st.mode.phase < s.mode.phase) ∧
    (o.st.next_in.length < s.next_in.length ∨ o.st.avail_out < s.avail_out ∨
      s.mode.rank < o.st.mode.rank ∨ o.st.mode = .TYPE))

/-- What the case `LEN` needs to call the fast decoder in a call of `write` entered with
`avail_out = out` and `E` bytes in the output buffer: the invariant of the state machine, the
output counters, and a window that is either unused or in its circular shape. -/
def fast_ready (out E : Nat) (s : inflate_stream) : Prop :=
  Inv s ∧ acct out E s ∧ (win_shape s ∨ (s.wsize = 0 ∧ s.whave = 0)) ∧ s.wbits ≤ 15

/-- The buffers of the call used as witness: a stored block of the one byte "a" followed by
the first byte of the next block, and room for ten bytes. -/
def stored_one : buffers := ⟨false, bad_stream, false, [], 10⟩

/-! ## Theorems: what every pass through the switch preserves -/

theorem reset_fields {w : Nat} {s0 s : inflate_stream} (h : reset w s0 = some s) :
    s.mode = .HEAD ∧ s.last = 0 ∧ s.hold = 0 ∧ s.bits = 0 ∧ s.wsize = 0 ∧ s.whave = 0 ∧
    s.wnext = 0 ∧ s.msg = none ∧ s.total_in = 0 ∧ s.total_out = 0 ∧ s.total = 0 ∧
    s.sane = 1 ∧ s.dmax = 32768 ∧ s.wbits = w ∧ 8 ≤ w ∧ w ≤ 15 := by
  unfold reset at h
  split_ifs at h with hw <;> dsimp only at h <;> cases h <;>
  exact ⟨rfl, rfl, rfl, rfl, rfl, rfl, rfl, rfl, rfl, rfl, rfl, rfl, rfl, rfl, by omega, by omega⟩

theorem pull_while_stop {need : Nat → Nat → Bool} {h b : Nat} (l : List Nat)
    (hn : need h b = false) : pull_while need h b l = (h, b, l) := by
  cases l <;> simp [pull_while, hn]

theorem pull_while_go {need : Nat → Nat → Bool} {h b : Nat} (x : Nat) (l : List Nat)
    (hn : need h b = true) :
    pull_while need h b (x :: l) = pull_while need (h + x * 2 ^ b) (b + 8) l := by
  simp [pull_while, hn]

theorem NEEDBITS_of_le {n : Nat} {s : inflate_stream} (h : n ≤ s.bits) : NEEDBITS n s = s := by
  unfold NEEDBITS inflate_stream.pull
  rw [pull_while_stop _ (by simpa using h)]

theorem NEEDBITS_cons {n : Nat} {s : inflate_stream} {x : Nat} {r : List Nat}
    (h : s.bits < n) (hi : s.next_in = x :: r) :
    NEEDBITS n s = NEEDBITS n { s with hold := s.hold + x * 2 ^ s.bits, bits := s.bits + 8,
                                       next_in := r } := by
  unfold NEEDBITS inflate_stream.pull
  rw [hi, pull_while_go _ _ (by simpa using h)]

theorem basic_of_eq {s t : inflate_stream} {ret : Int} {o : outcome}
    (h : basic t ret o) (hf : t.fixed = s.fixed)
    (hm : t.mode = s.mode ∨ t.mode.rank ≤ 18) : basic s ret o := by
  obtain ⟨h1, h2, h3, h4⟩ := h
  refine ⟨h1, h2.trans hf, ?_, h4⟩
  rcases h3 with h3 | h3
  · rw [h3]; exact hm
  · right; exact h3

theorem basic_COPY (s : inflate_stream) (ret : Int) : basic s ret (case_COPY s ret) := by
  unfold case_COPY
  dsimp only
  split_ifs <;> exact ⟨rfl, rfl, Or.inr (Nat.le_of_ble_eq_true rfl), Or.inl rfl⟩

theorem basic_STORED (flush : Int) (s : inflate_stream) (ret : Int) :
    basic s ret (case_STORED flush s ret) := by
  unfold case_STORED
  dsimp only
  split_ifs
  · exact ⟨rfl, rfl, Or.inl rfl, Or.inl rfl⟩
  · exact ⟨rfl, rfl, Or.inr (Nat.le_of_ble_eq_true rfl), Or.inl rfl⟩
  · exact ⟨rfl, rfl, Or.inr (Nat.le_of_ble_eq_true rfl), Or.inl rfl⟩
  · exact basic_of_eq (basic_COPY _ _) rfl (Or.inr (Nat.le_of_ble_eq_true rfl))

theorem basic_TYPEDO (flush : Int) (s : inflate_stream) (ret : Int) :
    basic s ret (case_TYPEDO flush s ret) := by
  unfold case_TYPEDO
  dsimp only
  split_ifs <;> try split
  all_goals first
  | exact ⟨rfl, rfl, Or.inl rfl, Or.inl rfl⟩
  | exact ⟨rfl, rfl, Or.inr (Nat.le_of_ble_eq_true rfl), Or.inl rfl⟩

theorem basic_TYPE (flush : Int) (s : inflate_stream) (ret : Int) :
    basic s ret (case_TYPE flush s ret) := by
  unfold case_TYPE
  split_ifs
  · exact ⟨rfl, rfl, Or.inl rfl, Or.inl rfl⟩
  · exact basic_TYPEDO _ _ _

theorem basic_LIT (s : inflate_stream) (ret : Int) : basic s ret (case_LIT s ret) := by
  unfold case_LIT
  split_ifs
  · exact ⟨rfl, rfl, Or.inl rfl, Or.inl rfl⟩
  · exact ⟨rfl, rfl, Or.inr (Nat.le_of_ble_eq_true rfl), Or.inl rfl⟩

theorem basic_MATCH (out : Nat) (s : inflate_stream) (ret : Int) :
    basic s ret (case_MATCH out s ret) := by
  unfold case_MATCH match_emit
  dsimp only
  split_ifs <;>
  first
  | exact ⟨rfl, rfl, Or.inl rfl, Or.inl rfl⟩
  | exact ⟨rfl, rfl, Or.inr (Nat.le_of_ble_eq_true rfl), Or.inl rfl⟩

theorem basic_DISTEXT (out : Nat) (s : inflate_stream) (ret : Int) :
    basic s ret (case_DISTEXT out s ret) := by
  unfold case_DISTEXT
  dsimp only
  split_ifs
  · exact ⟨rfl, rfl, Or.inl rfl, Or.inl rfl⟩
  · exact basic_of_eq (basic_MATCH _ _ _) rfl (Or.inr (Nat.le_of_ble_eq_true rfl))
  · exact basic_of_eq (basic_MATCH _ _ _) rfl (Or.inr (Nat.le_of_ble_eq_true rfl))

theorem basic_dist_go (out : Nat) (s : inflate_stream) (here : code) (ret : Int) :
    basic s ret (dist_go out s here ret) := by
  unfold dist_go
  dsimp only
  split_ifs
  · exact ⟨rfl, rfl, Or.inr (Nat.le_of_ble_eq_true rfl), Or.inl rfl⟩
  · exact basic_of_eq (basic_DISTEXT _ _ _) rfl (Or.inr (Nat.le_of_ble_eq_true rfl))

theorem basic_DIST (out : Nat) (s : inflate_stream) (ret : Int) :
    basic s ret (case_DIST out s ret) := by
  unfold case_DIST
  dsimp only
  split_ifs
  · exact ⟨rfl, rfl, Or.inl rfl, Or.inl rfl⟩
  · exact ⟨rfl, rfl, Or.inl rfl, Or.inl rfl⟩
  · exact basic_of_eq (basic_dist_go _ _ _ _) rfl (Or.inl rfl)
  · exact basic_of_eq (basic_dist_go _ _ _ _) rfl (Or.inl rfl)

theorem basic_LENEXT (out : Nat) (s : inflate_stream) (ret : Int) :
    basic s ret (case_LENEXT out s ret) := by
  unfold case_LENEXT
  dsimp only
  split_ifs
  · exact ⟨rfl, rfl, Or.inl rfl, Or.inl rfl⟩
  · exact basic_of_eq (basic_DIST _ _ _) rfl (Or.inr (Nat.le_of_ble_eq_true rfl))
  · exact basic_of_eq (basic_DIST _ _ _) rfl (Or.inr (Nat.le_of_ble_eq_true rfl))

theorem basic_len_go (out : Nat) (s : inflate_stream) (here : code) (ret : Int) :
    basic s ret (len_go out s here ret) := by
  unfold len_go
  dsimp only
  split_ifs
  · exact ⟨rfl, rfl, Or.inr (Nat.le_of_ble_eq_true rfl), Or.inl rfl⟩
  · exact ⟨rfl, rfl, Or.inr (Nat.le_of_ble_eq_true rfl), Or.inl rfl⟩
  · exact ⟨rfl, rfl, Or.inr (Nat.le_of_ble_eq_true rfl), Or.inl rfl⟩
  · exact basic_of_eq (basic_LENEXT _ _ _) rfl (Or.inr (Nat.le_of_ble_eq_true rfl))

theorem basic_LEN_slow (out : Nat) (s : inflate_stream) (ret : Int) :
    basic s ret (case_LEN_slow out s ret) := by
  unfold case_LEN_slow
  dsimp only
  split_ifs
  · exact ⟨rfl, rfl, Or.inl rfl, Or.inl rfl⟩
  · exact ⟨rfl, rfl, Or.inl rfl, Or.inl rfl⟩
  · exact basic_of_eq (basic_len_go _ _ _ _) rfl (Or.inl rfl)
  · exact basic_of_eq (basic_len_go _ _ _ _) rfl (Or.inl rfl)

theorem fast_dodist_brk (s : inflate_stream) (inp : List Nat) (beg out0 len : Nat) :
    ∀ (fuel : Nat) (here : code) (l l1 : fast_locals) (m : Mode) (msg : Option String),
      fast_dodist s inp beg out0 len fuel here l = some (.brk l1 m msg) → m = .BAD := by
  intro fuel
  induction fuel with
  | zero => intro here l l1 m msg h; simp [fast_dodist] at h
  | succ n ih =>
    intro here l l1 m msg h
    unfold fast_dodist at h
    dsimp only at h
    split_ifs at h <;> first | exact ih _ _ _ _ _ h | (cases h <;> rfl)

theorem fast_dolen_brk (s : inflate_stream) (inp : List Nat) (beg out0 : Nat) :
    ∀ (fuel : Nat) (here : code) (l l1 : fast_locals) (m : Mode) (msg : Option String),
      fast_dolen s inp beg out0 fuel here l = some (.brk l1 m msg) → m = .TYPE ∨ m = .BAD := by
  intro fuel
  induction fuel with
  | zero => intro here l l1 m msg h; simp [fast_dolen] at h
  | succ n ih =>
    intro here l l1 m msg h
    unfold fast_dolen at h
    dsimp only at h
    split_ifs at h <;>
    first
    | exact ih _ _ _ _ _ h
    | exact Or.inr (fast_dodist_brk _ _ _ _ _ _ _ _ _ _ _ h)
    | (cases h <;> first | exact Or.inl rfl | exact Or.inr rfl)

theorem fast_loop_brk (s : inflate_stream) (inp : List Nat) (beg out0 last end_ : Nat) :
    ∀ (fuel : Nat) (l l1 : fast_locals) (m : Mode) (msg : Option String),
      fast_loop s inp beg out0 last end_ fuel l = some (.brk l1 m msg) → m = .TYPE ∨ m = .BAD := by
  intro fuel
  induction fuel with
  | zero => intro l l1 m msg h; simp [fast_loop] at h
  | succ n ih =>
    intro l l1 m msg h
    unfold fast_loop at h
    dsimp only at h
    split at h
    · cases h
    · rename_i l2 m2 msg2 hd
      injection h with h; injection h with _ h _
      subst h
      exact fast_dolen_brk _ _ _ _ _ _ _ _ _ _ hd
    · split_ifs at h
      · exact ih _ _ _ _ h
      · injection h with h; cases h

theorem fast_fixed {fuel : Nat} {s s1 : inflate_stream} {start : Nat}
    (h : inflate_fast fuel s start = some s1) :
    s1.fixed = s.fixed ∧ (s1.mode = s.mode ∨ s1.mode = .TYPE ∨ s1.mode = .BAD) := by
  unfold inflate_fast at h
  dsimp only at h
  split at h
  · cases h
  · rename_i r hr
    cases h
    cases r with
    | test l => exact ⟨rfl, Or.inl rfl⟩
    | brk l m msg => exact ⟨rfl, Or.inr (fast_loop_brk _ _ _ _ _ _ _ _ _ _ _ hr)⟩

theorem basic_LEN {fuel out : Nat} {s : inflate_stream} {ret : Int} {o : outcome}
    (h : case_LEN fuel out s ret = some o) : basic s ret o := by
  unfold case_LEN at h
  dsimp only at h
  split_ifs at h
  · split at h
    · cases h
    · rename_i s1 hf
      cases h
      obtain ⟨h1, h2⟩ := fast_fixed hf
      have hm : s1.mode.rank ≤ 18 := by
        rcases h2 with h2 | h2 | h2 <;> rw [h2] <;> exact Nat.le_of_ble_eq_true rfl
      split_ifs
      · exact ⟨rfl, h1, Or.inr hm, Or.inl rfl⟩
      · exact ⟨rfl, h1, Or.inr hm, Or.inl rfl⟩
  · cases h
    exact basic_of_eq (basic_LEN_slow _ _ _) rfl (Or.inr (Nat.le_of_ble_eq_true rfl))

theorem codelens_body_fixed (s : inflate_stream) :
    (codelens_body s).1.fixed = s.fixed ∧
    ((codelens_body s).1.mode = s.mode ∨ (codelens_body s).1.mode = .BAD) := by
  unfold codelens_body
  dsimp only
  split_ifs <;>
  first
  | exact ⟨rfl, Or.inl rfl⟩
  | exact ⟨rfl, Or.inr rfl⟩

theorem codelens_loop_fixed (k : Nat) :
    ∀ s : inflate_stream, (codelens_loop k s).1.fixed = s.fixed ∧
      ((codelens_loop k s).1.mode = s.mode ∨ (codelens_loop k s).1.mode = .BAD) := by
  induction k with
  | zero => intro s; exact ⟨rfl, Or.inl rfl⟩
  | succ n ih =>
    intro s
    unfold codelens_loop
    split_ifs
    · have hb := codelens_body_fixed s
      split
      · rename_i s1 heq
        rw [heq] at hb
        obtain ⟨h1, h2⟩ := ih s1
        refine ⟨h1.trans hb.1, ?_⟩
        rcases h2 with h2 | h2
        · rw [h2]; exact hb.2
        · exact Or.inr h2
      · exact hb
    · exact ⟨rfl, Or.inl rfl⟩

theorem basic_CODELENS {tb : table_builder} {fuel : Nat} {flush : Int} {out : Nat}
    {s : inflate_stream} {ret : Int} {o : outcome}
    (h : case_CODELENS tb fuel flush out s ret = some o) : basic s ret o := by
  unfold case_CODELENS at h
  obtain ⟨hf, hm⟩ := codelens_loop_fixed (s.nlen + s.ndist - s.have_) s
  have hm2 : (codelens_loop (s.nlen + s.ndist - s.have_) s).1.mode = s.mode ∨
      (codelens_loop (s.nlen + s.ndist - s.have_) s).1.mode.rank ≤ 18 := by
    rcases hm with hm | hm
    · exact Or.inl hm
    · right; rw [hm]; exact Nat.le_of_ble_eq_true rfl
  rcases hcl : codelens_loop (s.nlen + s.ndist - s.have_) s with ⟨s1, e⟩
  rw [hcl] at hf hm2 h
  have key : (if s1.mode = Mode.BAD then some (outcome.cont s1 ret)
      else if s1.lens.getD 256 0 = 0 then
        some (outcome.cont { s1 with msg := some "invalid code -- missing end-of-block",
                                     mode := .BAD } ret)
      else
        let r := tb .LENS (s1.lens.take s1.nlen) 9
        let s2 := { s1 with codes := store_codes s1.codes 0 r.2.1, next := r.2.1.length,
                            lencode := .codes 0, lenbits := r.2.2 }
        if r.1 ≠ 0 then
          some (.cont { s2 with msg := some "invalid literal/lengths set", mode := .BAD } r.1)
        else
          let r2 := tb .DISTS ((s2.lens.drop s2.nlen).take s2.ndist) 6
          let s3 := { s2 with codes := store_codes s2.codes s2.next r2.2.1,
                              distcode := .codes s2.next,
                              next := s2.next + r2.2.1.length, distbits := r2.2.2 }
          if r2.1 ≠ 0 then
            some (.cont { s3 with msg := some "invalid distances set", mode := .BAD } r2.1)
          else
            let s4 := { s3 with mode := .LEN_ }
            if flush = Z_TREES then some (.leave s4 r2.1)
            else case_LEN fuel out s4 r2.1) = some o → basic s ret o := by
    intro h
    dsimp only at h
    split_ifs at h with h1 h2 h3 h4 h5
    · cases h; exact ⟨rfl, hf, hm2, Or.inl rfl⟩
    · cases h; exact ⟨rfl, hf, Or.inr (Nat.le_of_ble_eq_true rfl), Or.inl rfl⟩
    · cases h; exact ⟨rfl, hf, Or.inr (Nat.le_of_ble_eq_true rfl), Or.inr (Or.inr ⟨rfl, rfl⟩)⟩
    · cases h; exact ⟨rfl, hf, Or.inr (Nat.le_of_ble_eq_true rfl), Or.inr (Or.inr ⟨rfl, rfl⟩)⟩
    · cases h
      exact ⟨rfl, hf, Or.inr (Nat.le_of_ble_eq_true rfl), Or.inr (Or.inl (not_not.mp h4))⟩
    · obtain ⟨b1, b2, b3, b4⟩ := basic_LEN h
      refine ⟨b1, b2.trans hf, ?_, ?_⟩
      · rcases b3 with b3 | b3
        · right; rw [b3]; exact Nat.le_of_ble_eq_true rfl
        · exact Or.inr b3
      · rcases b4 with b4 | b4 | b4
        · right; left; rw [b4]; exact not_not.mp h4
        · exact Or.inr (Or.inl b4)
        · exact Or.inr (Or.inr b4)
  cases e
  · exact key h
  · cases h; exact ⟨rfl, hf, hm2, Or.inl rfl⟩
  · exact key h

theorem lenlens_read_fixed (k : Nat) :
    ∀ s : inflate_stream, (lenlens_read k s).1.fixed = s.fixed ∧
      (lenlens_read k s).1.mode = s.mode := by
  induction k with
  | zero => intro s; exact ⟨rfl, rfl⟩
  | succ n ih =>
    intro s
    unfold lenlens_read
    dsimp only
    split_ifs
    · exact ⟨rfl, rfl⟩
    · obtain ⟨h1, h2⟩ := ih (DROPBITS 3
        { NEEDBITS 3 s with
          lens := (NEEDBITS 3 s).lens.set (order.getD (NEEDBITS 3 s).have_ 0) (BITS 3 (NEEDBITS 3 s)),
          have_ := (NEEDBITS 3 s).have_ + 1 })
      exact ⟨h1, h2⟩
    · exact ⟨rfl, rfl⟩

theorem lenlens_zero_fixed (k : Nat) :
    ∀ s : inflate_stream, (lenlens_zero k s).fixed = s.fixed ∧
      (lenlens_zero k s).mode = s.mode := by
  induction k with
  | zero => intro s; exact ⟨rfl, rfl⟩
  | succ n ih =>
    intro s
    unfold lenlens_zero
    split_ifs
    · obtain ⟨h1, h2⟩ := ih { s with lens := s.lens.set (order.getD s.have_ 0) 0,
                                     have_ := s.have_ + 1 }
      exact ⟨h1, h2⟩
    · exact ⟨rfl, rfl⟩

theorem basic_LENLENS {tb : table_builder} {fuel : Nat} {flush : Int} {out : Nat}
    {s : inflate_stream} {ret : Int} {o : outcome}
    (h : case_LENLENS tb fuel flush out s ret = some o) : basic s ret o := by
  unfold case_LENLENS at h
  obtain ⟨hf, hm⟩ := lenlens_read_fixed (s.ncode - s.have_) s
  rcases hr : lenlens_read (s.ncode - s.have_) s with ⟨s1, b⟩
  rw [hr] at hf hm h
  cases b
  · cases h
    exact ⟨rfl, hf, Or.inl hm, Or.inl rfl⟩
  · obtain ⟨hf2, -⟩ := lenlens_zero_fixed (19 - s1.have_) s1
    dsimp only at h
    split_ifs at h with h1
    · cases h
      exact ⟨rfl, hf2.trans hf, Or.inr (Nat.le_of_ble_eq_true rfl), Or.inr (Or.inr ⟨rfl, rfl⟩)⟩
    · obtain ⟨b1, b2, b3, b4⟩ := basic_CODELENS h
      refine ⟨b1, b2.trans (hf2.trans hf), ?_, ?_⟩
      · rcases b3 with b3 | b3
        · right; rw [b3]; exact Nat.le_of_ble_eq_true rfl
        · exact Or.inr b3
      · rcases b4 with b4 | b4 | b4
        · right; left; rw [b4]; exact not_not.mp h1
        · exact Or.inr (Or.inl b4)
        · exact Or.inr (Or.inr b4)

theorem basic_TABLE {tb : table_builder} {fuel : Nat} {flush : Int} {out : Nat}
    {s : inflate_stream} {ret : Int} {o : outcome}
    (h : case_TABLE tb fuel flush out s ret = some o) : basic s ret o := by
  unfold case_TABLE at h
  dsimp only at h
  split_ifs at h
  · cases h; exact ⟨rfl, rfl, Or.inl rfl, Or.inl rfl⟩
  · cases h; exact ⟨rfl, rfl, Or.inr (Nat.le_of_ble_eq_true rfl), Or.inl rfl⟩
  · exact basic_of_eq (basic_LENLENS h) rfl (Or.inr (Nat.le_of_ble_eq_true rfl))

/-- Every pass through the `switch` in one of the modes `HEAD` .. `LIT` has the
`basic` properties. -/
theorem basic_step {tb : table_builder} {fuel : Nat} {flush : Int} {out : Nat}
    {s : inflate_stream} {ret : Int} {o : outcome}
    (h : step tb fuel flush out s ret = some o) (hm : s.mode.rank ≤ 15) : basic s ret o := by
  unfold step at h
  split at h
  · cases h; exact ⟨rfl, rfl, Or.inr (Nat.le_of_ble_eq_true rfl), Or.inl rfl⟩
  · cases h; exact basic_TYPE _ _ _
  · cases h; exact basic_TYPEDO _ _ _
  · cases h; exact basic_STORED _ _ _
  · cases h; exact basic_COPY _ _
  · cases h; exact basic_COPY _ _
  · exact basic_TABLE h
  · exact basic_LENLENS h
  · exact basic_CODELENS h
  · exact basic_LEN h
  · exact basic_LEN h
  · cases h; exact basic_LENEXT _ _ _
  · cases h; exact basic_DIST _ _ _
  · cases h; exact basic_DISTEXT _ _ _
  · cases h; exact basic_MATCH _ _ _
  · cases h; exact basic_LIT _ _
  all_goals (rename_i hmode; rw [hmode] at hm; exact absurd hm (by decide))

theorem usub_self (a : Nat) : usub a a = 0 := by
  unfold usub
  have h := Nat.mod_add_div a 4294967296
  have h2 : a + 4294967296 - a % 4294967296 = 4294967296 * (a / 4294967296 + 1) := by omega
  rw [h2]
  exact Nat.mul_mod_right _ _

theorem usub_of_le {a b : Nat} (h : b ≤ a) (ha : a < 4294967296) : usub a b = a - b := by
  unfold usub
  rw [Nat.mod_eq_of_lt (by omega : b < 4294967296)]
  have : a + 4294967296 - b = (a - b) + 4294967296 := by omega
  rw [this, Nat.add_mod_right, Nat.mod_eq_of_lt (by omega)]

/-- What `run` returns from a state in one of the modes `HEAD` .. `BAD`: the code at
`inf_leave` applied to a state with the same fixed fields, in a mode other than `MEM`
and `SYNC`, and a `ret` that is `Z_OK`, `Z_STREAM_END` or `Z_DATA_ERROR`. -/
theorem run_result (tb : table_builder) (alloc : allocator) (flush : Int) (in_ out : Nat) :
    ∀ (fuel : Nat) (s : inflate_stream) (ret : Int) (r : Int) (s2 : inflate_stream),
      run tb alloc flush in_ out fuel s ret = some (r, s2) → s.mode.rank ≤ 18 →
      (ret = 0 ∨ s.mode = .BAD) →
      ∃ s1 r1, s1.fixed = s.fixed ∧ s1.mode.rank ≤ 18 ∧
        (r1 = Z_OK ∨ r1 = Z_STREAM_END ∨ r1 = Z_DATA_ERROR) ∧
        (r, s2) = inf_leave alloc flush in_ out s1 r1 := by
  intro fuel
  induction fuel with
  | zero => intro s ret r s2 h; simp [run] at h
  | succ n ih =>
    intro s ret r s2 h hm hr
    unfold run at h
    by_cases h15 : s.mode.rank ≤ 15
    · rcases hs : step tb (n + 1) flush out s ret with _ | o
      · rw [hs] at h; cases h
      · rw [hs] at h
        obtain ⟨b1, b2, b3, b4⟩ := basic_step hs h15
        have hrk : o.st.mode.rank ≤ 18 := by
          rcases b3 with b3 | b3
          · rw [b3]; exact hm
          · exact b3
        have hr0 : ret = 0 := by
          rcases hr with hr | hr
          · exact hr
          · rw [hr] at h15; exact absurd h15 (by decide)
        cases o with
        | cont s1 r1 =>
          dsimp only at h
          obtain ⟨s3, r3, c1, c2, c3, c4⟩ := ih s1 r1 r s2 h hrk (by
            rcases b4 with b4 | b4 | b4
            · left; exact b4.trans hr0
            · left; exact b4
            · right; exact b4.2)
          exact ⟨s3, r3, c1.trans b2, c2, c3, c4⟩
        | leave s1 r1 =>
          dsimp only at h
          refine ⟨s1, r1, b2, hrk, Or.inl ?_, ?_⟩
          · rcases b4 with b4 | b4 | b4
            · exact b4.trans hr0
            · exact b4
            · exact Bool.noConfusion b4.1
          · injection h with h; exact h.symm
        | done s1 r1 => exact Bool.noConfusion b1
    · have hmode : s.mode = .CHECK ∨ s.mode = .DONE ∨ s.mode = .BAD := by
        revert hm h15
        cases s.mode <;> simp [Mode.rank]
      rcases hmode with hmode | hmode | hmode
      · unfold step at h; rw [hmode] at h; dsimp only at h
        injection h with h
        exact ⟨{ s with mode := .DONE }, Z_STREAM_END, rfl, Nat.le_of_ble_eq_true rfl,
          Or.inr (Or.inl rfl), h.symm⟩
      · unfold step at h; rw [hmode] at h; dsimp only at h
        injection h with h
        exact ⟨_, _, rfl, hm, Or.inr (Or.inl rfl), h.symm⟩
      · unfold step at h; rw [hmode] at h; dsimp only at h
        injection h with h
        exact ⟨_, _, rfl, hm, Or.inr (Or.inr rfl), h.symm⟩

theorem run_MEM (tb : table_builder) (alloc : allocator) (flush : Int) (in_ out : Nat)
    (fuel : Nat) (s : inflate_stream) (ret : Int) (h : s.mode = .MEM) :
    run tb alloc flush in_ out (fuel + 1) s ret = some (Z_MEM_ERROR, s) := by
  unfold run step; rw [h]

theorem run_SYNC (tb : table_builder) (alloc : allocator) (flush : Int) (in_ out : Nat)
    (fuel : Nat) (s : inflate_stream) (ret : Int) (h : s.mode = .SYNC) :
    run tb alloc flush in_ out (fuel + 1) s ret = some (Z_STREAM_ERROR, s) := by
  unfold run step; rw [h]

theorem updatewindow_frame (alloc : allocator) (s : inflate_stream) (e : List Nat) (c : Nat) :
    (updatewindow alloc s e c).1.next_in = s.next_in ∧
    (updatewindow alloc s e c).1.avail_out = s.avail_out ∧
    (updatewindow alloc s e c).1.next_out = s.next_out ∧
    (updatewindow alloc s e c).1.total_in = s.total_in ∧
    (updatewindow alloc s e c).1.total_out = s.total_out ∧
    (updatewindow alloc s e c).1.total = s.total ∧
    (updatewindow alloc s e c).1.mode = s.mode ∧
    (updatewindow alloc s e c).1.msg = s.msg := by
  unfold updatewindow
  split
  · exact ⟨rfl, rfl, rfl, rfl, rfl, rfl, rfl, rfl⟩
  · dsimp only
    split_ifs <;> exact ⟨rfl, rfl, rfl, rfl, rfl, rfl, rfl, rfl⟩

theorem leave_update_frame (alloc : allocator) (flush : Int) (out : Nat) (s : inflate_stream) :
    (leave_update alloc flush out s).1.next_in = s.next_in ∧
    (leave_update alloc flush out s).1.avail_out = s.avail_out ∧
    (leave_update alloc flush out s).1.next_out = s.next_out ∧
    (leave_update alloc flush out s).1.total_in = s.total_in ∧
    (leave_update alloc flush out s).1.total_out = s.total_out ∧
    (leave_update alloc flush out s).1.total = s.total ∧
    (leave_update alloc flush out s).1.mode = s.mode ∧
    (leave_update alloc flush out s).1.msg = s.msg := by
  unfold leave_update
  split_ifs
  · exact updatewindow_frame _ _ _ _
  · exact ⟨rfl, rfl, rfl, rfl, rfl, rfl, rfl, rfl⟩

/-- The counters after the code at `inf_leave`, unless it returns `Z_MEM_ERROR`. -/
theorem inf_leave_totals (alloc : allocator) (flush : Int) (in_ out : Nat) (s : inflate_stream)
    (ret : Int)
    (h : (inf_leave alloc flush in_ out s ret).1 ≠ Z_MEM_ERROR) :
    (inf_leave alloc flush in_ out s ret).2.total_in =
      s.total_in + usub in_ (inf_leave alloc flush in_ out s ret).2.avail_in ∧
    (inf_leave alloc flush in_ out s ret).2.total_out =
      s.total_out + usub out (inf_leave alloc flush in_ out s ret).2.avail_out ∧
    (inf_leave alloc flush in_ out s ret).2.total =
      s.total + usub out (inf_leave alloc flush in_ out s ret).2.avail_out := by
  unfold inf_leave at h ⊢
  dsimp only at h ⊢
  obtain ⟨u1, u2, -, u4, u5, u6, -, -⟩ := leave_update_frame alloc flush out s
  split_ifs at h ⊢ with h1
  · exact absurd rfl h
  · simp only [inflate_stream.avail_in, u1, u2, u4, u5, u6, and_self]

/-- The four ways a call of `write` ends: the argument check fails; the mode is `MEM`;
the mode is `SYNC`; or the loop leaves through `inf_leave` from a state with the same
fixed fields. -/
theorem write_result {tb : table_builder} {alloc : allocator} {fuel : Nat} {s : inflate_stream}
    {flush : Int} {r : Int} {s2 : inflate_stream}
    (h : write tb alloc fuel s flush = some (r, s2)) :
    ((s.out_null = true ∨ (s.in_null = true ∧ s.avail_in ≠ 0)) ∧ r = Z_STREAM_ERROR ∧ s2 = s) ∨
    (¬(s.out_null = true ∨ (s.in_null = true ∧ s.avail_in ≠ 0)) ∧
      ((s.mode = .MEM ∧ r = Z_MEM_ERROR ∧ s2 = s) ∨
       (s.mode = .SYNC ∧ r = Z_STREAM_ERROR ∧ s2 = s) ∨
       (s.mode.rank ≤ 18 ∧ ∃ s1 r1, s1.fixed = s.fixed ∧ s1.mode.rank ≤ 18 ∧
          (r1 = Z_OK ∨ r1 = Z_STREAM_END ∨ r1 = Z_DATA_ERROR) ∧
          (r, s2) = inf_leave alloc flush s.avail_in s.avail_out s1 r1))) := by
  unfold write at h
  dsimp only at h
  split_ifs at h with h1 hT
  · left; cases h; exact ⟨h1, rfl, rfl⟩
  · right
    refine ⟨h1, Or.inr (Or.inr ⟨by rw [hT]; decide, ?_⟩)⟩
    obtain ⟨s1, r1, c1, c2, c3, c4⟩ := run_result _ _ _ _ _ _ _ _ _ _ h
      (Nat.le_of_ble_eq_true rfl) (Or.inl rfl)
    exact ⟨s1, r1, c1, c2, c3, c4⟩
  · right
    refine ⟨h1, ?_⟩
    cases fuel with
    | zero => simp [run] at h
    | succ n =>
      by_cases hM : s.mode = .MEM
      · left
        rw [run_MEM _ _ _ _ _ _ _ _ hM] at h
        cases h; exact ⟨hM, rfl, rfl⟩
      · by_cases hS : s.mode = .SYNC
        · right; left
          rw [run_SYNC _ _ _ _ _ _ _ _ hS] at h
          cases h; exact ⟨hS, rfl, rfl⟩
        · right; right
          have hrk : s.mode.rank ≤ 18 := by
            revert hM hS; cases s.mode <;> simp [Mode.rank]
          obtain ⟨s1, r1, c1, c2, c3, c4⟩ := run_result _ _ _ _ _ _ _ _ _ _ h hrk (Or.inl rfl)
          exact ⟨hrk, s1, r1, c1, c2, c3, c4⟩

/-- One call of `write` that does not return `Z_MEM_ERROR` adds to the three counters the
32-bit differences of `avail_in` and of `avail_out` across the call. -/
theorem write_totals (tb : table_builder) (alloc : allocator) (fuel : Nat) (s : inflate_stream)
    (flush : Int) (r : Int) (s2 : inflate_stream)
    (h : write tb alloc fuel s flush = some (r, s2)) (hr : r ≠ Z_MEM_ERROR) :
    s2.total_in = s.total_in + usub s.avail_in s2.avail_in ∧
    s2.total_out = s.total_out + usub s.avail_out s2.avail_out ∧
    s2.total = s.total + usub s.avail_out s2.avail_out := by
  rcases write_result h with ⟨-, -, rfl⟩ | ⟨-, ⟨-, -, rfl⟩ | ⟨-, -, rfl⟩ | ⟨-, s1, r1, c1, -, -, c4⟩⟩
  · simp [usub_self]
  · simp [usub_self]
  · simp [usub_self]
  · have e1 : r = (inf_leave alloc flush s.avail_in s.avail_out s1 r1).1 := congrArg Prod.fst c4
    have e2 : s2 = (inf_leave alloc flush s.avail_in s.avail_out s1 r1).2 := congrArg Prod.snd c4
    have ht := inf_leave_totals alloc flush s.avail_in s.avail_out s1 r1 (e1 ▸ hr)
    rw [← e2] at ht
    have f1 : s1.total_in = s.total_in := congrArg fixed_part.total_in c1
    have f2 : s1.total_out = s.total_out := congrArg fixed_part.total_out c1
    have f3 : s1.total = s.total := congrArg fixed_part.total c1
    rw [f1, f2, f3] at ht
    exact ht


/-! ## Stored blocks (C3) -/

theorem updatewindow_ok (alloc : allocator) (s : inflate_stream) (e : List Nat) (c : Nat)
    (h : s.window.isSome = true ∨ (alloc (2 ^ s.wbits)).isSome = true) :
    (updatewindow alloc s e c).2 = 0 := by
  unfold updatewindow
  split
  · rename_i heq
    exfalso
    split at heq
    · cases heq
    · rename_i hw
      rcases h with h | h
      · rw [hw] at h; cases h
      · rw [heq] at h; cases h
  · dsimp only
    split_ifs <;> rfl

theorem xor_65535_lt {n : Nat} (h : n < 65536) : n ^^^ 65535 < 65536 :=
  Nat.xor_lt_two_pow (n := 16) h (by decide)

theorem xor_65535_twice (n : Nat) : (n ^^^ 65535) ^^^ 65535 = n := by
  rw [Nat.xor_assoc, Nat.xor_self, Nat.xor_zero]

theorem stored_hold (n : Nat) (_h : n < 65536) :
    (n % 256 + n / 256 * 2 ^ 8 + (n ^^^ 65535) % 256 * 2 ^ 16 + (n ^^^ 65535) / 256 * 2 ^ 24)
      = n + (n ^^^ 65535) * 65536 := by
  have := Nat.mod_add_div n 256
  have := Nat.mod_add_div (n ^^^ 65535) 256
  omega

theorem NEEDBITS_one {n : Nat} {s : inflate_stream} {x : Nat} {r : List Nat}
    (h : s.bits < n) (h8 : n ≤ s.bits + 8) (hi : s.next_in = x :: r) :
    NEEDBITS n s = { s with hold := s.hold + x * 2 ^ s.bits, bits := s.bits + 8,
                            next_in := r } := by
  rw [NEEDBITS_cons h hi, NEEDBITS_of_le h8]

theorem NEEDBITS_four {s : inflate_stream} {a b c d : Nat} {r : List Nat}
    (hh : s.hold = 0) (hb : s.bits = 0) (hi : s.next_in = a :: b :: c :: d :: r) :
    NEEDBITS 32 s = { s with hold := a + b * 2 ^ 8 + c * 2 ^ 16 + d * 2 ^ 24, bits := 32,
                             next_in := r } := by
  rw [NEEDBITS_cons (x := a) (r := b :: c :: d :: r) (by omega) hi,
      NEEDBITS_cons (x := b) (r := c :: d :: r) (by simp [hb]) rfl,
      NEEDBITS_cons (x := c) (r := d :: r) (by simp [hb]) rfl,
      NEEDBITS_cons (x := d) (r := r) (by simp [hb]) rfl,
      NEEDBITS_of_le (by simp [hb])]
  simp only [hh, hb]
  norm_num

theorem run_cont {tb : table_builder} {alloc : allocator} {flush : Int} {in_ out n : Nat}
    {s s1 : inflate_stream} {ret r1 : Int}
    (h : step tb (n + 1) flush out s ret = some (.cont s1 r1)) :
    run tb alloc flush in_ out (n + 1) s ret = run tb alloc flush in_ out n s1 r1 := by
  rw [run, h]

theorem run_leave {tb : table_builder} {alloc : allocator} {flush : Int} {in_ out n : Nat}
    {s s1 : inflate_stream} {ret r1 : Int}
    (h : step tb (n + 1) flush out s ret = some (.leave s1 r1)) :
    run tb alloc flush in_ out (n + 1) s ret = some (inf_leave alloc flush in_ out s1 r1) := by
  rw [run, h]

theorem typedo_stored (flush : Int) (s : inflate_stream) (ret : Int) (rest : List Nat)
    (hl : s.last = 0) (hh : s.hold = 0) (hb : s.bits = 0) (hi : s.next_in = 1 :: rest) :
    case_TYPEDO flush s ret =
      .cont { s with last := 1, hold := 0, bits := 5, next_in := rest, mode := .STORED } ret := by
  have hN := NEEDBITS_one (n := 3) (by omega) (by omega) hi
  simp [case_TYPEDO, hl, hN, hh, hb, BITS, DROPBITS]

theorem stored_copy (s : inflate_stream) (ret : Int) (P : List Nat)
    (hh : s.hold = 0) (hb : s.bits = 5) (hn : P.length ≤ 65535) (hcap : P.length ≤ s.avail_out)
    (hi : s.next_in = (stored_header P.length).tail ++ P) :
    case_STORED Z_NO_FLUSH s ret =
      .cont { s with hold := 0, bits := 0, next_in := [], next_out := s.next_out ++ P,
                     avail_out := s.avail_out - P.length, length := 0,
                     mode := if P.length = 0 then .TYPE else .COPY } ret := by
  have hx := xor_65535_lt (Nat.lt_succ_of_le hn)
  have e1 : (P.length + (P.length ^^^ 65535) * 65536) % 65536 = P.length := by omega
  have e2 : (P.length + (P.length ^^^ 65535) * 65536) / 65536 = P.length ^^^ 65535 := by omega
  have e3 := stored_hold _ (Nat.lt_succ_of_le hn)
  have hB : BYTEBITS s = { s with hold := 0, bits := 0 } := by
    simp [BYTEBITS, hh, hb]
  have hN : NEEDBITS 32 (BYTEBITS s) =
      { s with hold := P.length + (P.length ^^^ 65535) * 65536, bits := 32, next_in := P } := by
    rw [hB, NEEDBITS_four (a := P.length % 256) (b := P.length / 256)
      (c := (P.length ^^^ 65535) % 256) (d := (P.length ^^^ 65535) / 256) (r := P) rfl rfl
      (by simp [hi, stored_header]), e3]
  unfold case_STORED
  dsimp only
  rw [hN]
  dsimp only
  rw [if_neg (by omega), e1, e2, xor_65535_twice, if_neg (by simp), if_neg (by decide)]
  unfold case_COPY INITBITS
  dsimp only
  by_cases hP : P.length = 0
  · have hP2 : P = [] := List.length_eq_zero.mp hP
    rw [if_neg (by simp [hP]), if_pos hP]
    simp [hP2]
  · rw [if_pos hP, if_neg hP]
    have hmin : min (min P.length P.length) s.avail_out = P.length := by simp [hcap]
    simp only [inflate_stream.avail_in, hmin]
    rw [if_neg hP]
    simp

theorem leave_update_ok (alloc : allocator) (flush : Int) (out : Nat) (s : inflate_stream)
    (h : s.window.isSome = true ∨ (alloc (2 ^ s.wbits)).isSome = true) :
    (leave_update alloc flush out s).2 = 0 := by
  unfold leave_update
  split_ifs
  · exact updatewindow_ok _ _ _ _ h
  · rfl

/-- The result of the code at `inf_leave` when the window update does not fail: the
status is `leave_ret`, and mode, message and buffers are those of the state it was
reached with. -/
theorem inf_leave_ok (alloc : allocator) (flush : Int) (in_ out : Nat) (s : inflate_stream)
    (ret : Int) (h : (leave_update alloc flush out s).2 = 0) :
    (inf_leave alloc flush in_ out s ret).1 =
      leave_ret flush (usub in_ s.avail_in) (usub out s.avail_out) ret ∧
    (inf_leave alloc flush in_ out s ret).2.mode = s.mode ∧
    (inf_leave alloc flush in_ out s ret).2.msg = s.msg ∧
    (inf_leave alloc flush in_ out s ret).2.next_in = s.next_in ∧
    (inf_leave alloc flush in_ out s ret).2.next_out = s.next_out ∧
    (inf_leave alloc flush in_ out s ret).2.avail_out = s.avail_out := by
  obtain ⟨u1, u2, u3, -, -, -, u7, u8⟩ := leave_update_frame alloc flush out s
  unfold inf_leave
  dsimp only
  rw [if_neg (by rw [h]; decide)]
  dsimp only
  refine ⟨?_, u7, u8, u1, u3, u2⟩
  simp only [inflate_stream.avail_in, u1, u2]

/-- C3: a freshly reset inflater that is given, in one call with `Z_NO_FLUSH`, a final
stored block holding the payload `P` (at most 65535 bytes) and room for it, writes
exactly `P`, consumes the whole input and returns `Z_STREAM_END` in mode `DONE`,
provided the window can be allocated. -/
theorem stored_roundtrip (tb : table_builder) (alloc : allocator) (k w : Nat)
    (t s : inflate_stream) (P o wnd : List Nat) (cap : Nat)
    (hreset : reset w t = some s) (hn : P.length ≤ 65535) (hcap : P.length ≤ cap)
    (halloc : alloc (2 ^ w) = some wnd) :
    ∃ s2, write tb alloc (k + 6) (s.present ⟨false, stored_header P.length ++ P, false, o, cap⟩)
        Z_NO_FLUSH = some (Z_STREAM_END, s2) ∧
      s2.mode = .DONE ∧ s2.next_out = o ++ P ∧ s2.next_in = [] ∧
      s2.avail_out = cap - P.length := by
  obtain ⟨hm, hl, hh, hb, -, -, -, -, -, -, -, -, -, hwb, -, -⟩ := reset_fields hreset
  let s0 : inflate_stream := s.present ⟨false, stored_header P.length ++ P, false, o, cap⟩
  let s1 : inflate_stream := { s0 with mode := .TYPEDO }
  let s2 : inflate_stream :=
    { s1 with last := 1, hold := 0, bits := 5, next_in := (stored_header P.length).tail ++ P,
              mode := .STORED }
  let s3 : inflate_stream :=
    { s2 with hold := 0, bits := 0, next_in := [], next_out := s2.next_out ++ P,
              avail_out := s2.avail_out - P.length, length := 0,
              mode := if P.length = 0 then .TYPE else .COPY }
  let s4 : inflate_stream := { s3 with mode := .TYPE }
  let s5 : inflate_stream := { BYTEBITS s4 with mode := .CHECK }
  let sD : inflate_stream := { s5 with mode := .DONE }
  have g1 : ∀ f, step tb f Z_NO_FLUSH cap s0 Z_OK = some (.cont s1 Z_OK) := by
    intro f; unfold step; rw [show s0.mode = .HEAD from hm]
  have g2 : ∀ f, step tb f Z_NO_FLUSH cap s1 Z_OK = some (.cont s2 Z_OK) := by
    intro f
    exact congrArg some (typedo_stored Z_NO_FLUSH s1 Z_OK ((stored_header P.length).tail ++ P)
      hl hh hb rfl)
  have g3 : ∀ f, step tb f Z_NO_FLUSH cap s2 Z_OK = some (.cont s3 Z_OK) := by
    intro f
    exact congrArg some (stored_copy s2 Z_OK P rfl rfl hn hcap rfl)
  have g4 : ∀ f, P.length ≠ 0 → step tb f Z_NO_FLUSH cap s3 Z_OK = some (.cont s4 Z_OK) := by
    intro f hP
    have e : s3.mode = .COPY := if_neg hP
    unfold step
    rw [e]
    show some (case_COPY s3 Z_OK) = _
    unfold case_COPY
    dsimp only
    rw [if_neg (by simp [s3])]
  have g5 : ∀ f, step tb f Z_NO_FLUSH cap s4 Z_OK = some (.cont s5 Z_OK) := by
    intro f
    show some (case_TYPE Z_NO_FLUSH s4 Z_OK) = _
    unfold case_TYPE case_TYPEDO
    rw [if_neg (by decide), if_pos (by simp [s4, s3, s2])]
  have g6 : ∀ f, step tb f Z_NO_FLUSH cap s5 Z_OK = some (.leave sD Z_STREAM_END) := by
    intro f; rfl
  have e34 : P.length = 0 → s3 = s4 := by
    intro hP
    simp only [s4, s3, hP, if_true]
  have key : write tb alloc (k + 6) s0 Z_NO_FLUSH =
      some (inf_leave alloc Z_NO_FLUSH s0.avail_in cap sD Z_STREAM_END) := by
    unfold write
    rw [if_neg (by simp [s0, inflate_stream.present])]
    dsimp only
    rw [if_neg (by rw [show s0.mode = .HEAD from hm]; decide)]
    rw [show s0.avail_out = cap from rfl, run_cont (g1 _), run_cont (g2 _), run_cont (g3 _)]
    by_cases hP : P.length = 0
    · rw [e34 hP, run_cont (g5 _), run_leave (g6 _)]
    · rw [run_cont (g4 _ hP), run_cont (g5 _), run_leave (g6 _)]
  have hok := leave_update_ok alloc Z_NO_FLUSH cap sD
    (Or.inr (by rw [show sD.wbits = w from hwb, halloc]; rfl))
  obtain ⟨i1, i2, -, i4, i5, i6⟩ := inf_leave_ok alloc Z_NO_FLUSH s0.avail_in cap sD
    Z_STREAM_END hok
  refine ⟨(inf_leave alloc Z_NO_FLUSH s0.avail_in cap sD Z_STREAM_END).2, ?_, i2, i5, i4, i6⟩
  have : (inf_leave alloc Z_NO_FLUSH s0.avail_in cap sD Z_STREAM_END).1 = Z_STREAM_END := by
    rw [i1]; unfold leave_ret; rw [if_neg (by simp [Z_STREAM_END, Z_OK])]
  exact key.trans (congrArg some (Prod.ext this rfl))

/-- Witness for `stored_roundtrip`: header `01 05 00 fa ff` and the payload "hello". -/
theorem stored_roundtrip_witness :
    ∃ s2, write no_tables zero_alloc 6
        ((fresh 15).present ⟨false, [1, 5, 0, 250, 255, 104, 101, 108, 108, 111], false, [], 5⟩)
        Z_NO_FLUSH = some (Z_STREAM_END, s2) ∧
      s2.mode = .DONE ∧ s2.next_out = [104, 101, 108, 108, 111] ∧ s2.next_in = [] ∧
      s2.avail_out = 0 :=
  stored_roundtrip no_tables zero_alloc 0 15 zero_stream (fresh 15) [104, 101, 108, 108, 111] []
    (List.replicate (2 ^ 15) 0) 5 rfl (by decide) (by decide) rfl


/-! ## Argument check (C9), invalid block type (C10) -/

theorem inf_leave_ret (alloc : allocator) (flush : Int) (in_ out : Nat) (s : inflate_stream)
    (ret : Int) :
    (inf_leave alloc flush in_ out s ret).1 = Z_MEM_ERROR ∨
    (inf_leave alloc flush in_ out s ret).1 = Z_BUF_ERROR ∨
    (inf_leave alloc flush in_ out s ret).1 = ret := by
  unfold inf_leave leave_ret
  dsimp only
  split_ifs
  · exact Or.inl rfl
  · exact Or.inr (Or.inl rfl)
  · exact Or.inr (Or.inr rfl)

/-- C9: `write` returns `Z_STREAM_ERROR` and leaves the stream as it was when `next_out`
is null or `next_in` is null with `avail_in` not zero; and from a mode other than `SYNC`
it returns `Z_STREAM_ERROR` in that case only. -/
theorem write_stream_error_iff (tb : table_builder) (alloc : allocator) (fuel : Nat)
    (s : inflate_stream) (flush : Int) :
    ((s.out_null = true ∨ (s.in_null = true ∧ s.avail_in ≠ 0)) →
      write tb alloc fuel s flush = some (Z_STREAM_ERROR, s)) ∧
    (∀ s2, s.mode ≠ .SYNC → write tb alloc fuel s flush = some (Z_STREAM_ERROR, s2) →
      (s.out_null = true ∨ (s.in_null = true ∧ s.avail_in ≠ 0))) := by
  constructor
  · intro h
    unfold write
    rw [if_pos h]
  · intro s2 hS h
    rcases write_result h with ⟨h1, -, -⟩ | ⟨-, ⟨-, h2, -⟩ | ⟨h2, -, -⟩ | ⟨-, s1, r1, -, -, c3, c4⟩⟩
    · exact h1
    · exact absurd h2 (by decide)
    · exact absurd h2 hS
    · exfalso
      have e1 : Z_STREAM_ERROR = (inf_leave alloc flush s.avail_in s.avail_out s1 r1).1 :=
        congrArg Prod.fst c4
      rcases inf_leave_ret alloc flush s.avail_in s.avail_out s1 r1 with h3 | h3 | h3
      · rw [h3] at e1; exact absurd e1 (by decide)
      · rw [h3] at e1; exact absurd e1 (by decide)
      · rw [h3] at e1
        rcases c3 with c3 | c3 | c3 <;> rw [c3] at e1 <;> exact absurd e1 (by decide)

/-- Witness for `write_stream_error_iff`: a fresh inflater that was never given buffers. -/
theorem write_stream_error_iff_witness :
    write no_tables no_alloc 0 (fresh 15) Z_NO_FLUSH = some (Z_STREAM_ERROR, fresh 15) :=
  (write_stream_error_iff no_tables no_alloc 0 (fresh 15) Z_NO_FLUSH).1 (Or.inl rfl)

/-- C10: on a freshly reset inflater, whatever the flush value, an input whose first byte
`b` has block type 3 in bits 1 and 2 makes `write` return `Z_DATA_ERROR` in that call,
with `msg = "invalid block type"`, mode `BAD`, exactly that one byte consumed, no output
written and no output space used. -/
theorem invalid_block_type (tb : table_builder) (alloc : allocator) (k : Nat) (flush : Int)
    (w : Nat) (t s : inflate_stream) (b : Nat) (rest o : List Nat) (cap : Nat)
    (hreset : reset w t = some s) (hb : b / 2 % 4 = 3) :
    ∃ s1, write tb alloc (k + 3) (s.present ⟨false, b :: rest, false, o, cap⟩) flush
        = some (Z_DATA_ERROR, s1) ∧
      s1.msg = some "invalid block type" ∧ s1.mode = .BAD ∧ s1.next_in = rest ∧
      s1.next_out = o ∧ s1.avail_out = cap := by
  obtain ⟨hm, hl, hh, hbits, hws, -⟩ := reset_fields hreset
  have h1 : ∀ t : inflate_stream, t.bits = 0 → t.hold = 0 → t.next_in = b :: rest →
      NEEDBITS 3 t = { t with hold := b, bits := 8, next_in := rest } := by
    intro t h1 h2 h3
    rw [NEEDBITS_cons (x := b) (r := rest) (by simp [h1]) h3, NEEDBITS_of_le (by simp)]
    simp [h1, h2]
  simp [write, run, step, hm, case_TYPEDO, hl, h1, hh, hbits, inflate_stream.present,
    BITS, DROPBITS, hb, inf_leave, leave_update, leave_folds, leave_ret, hws, Z_DATA_ERROR, Z_OK,
    Mode.rank]

/-- Witness for `invalid_block_type`: the input `0x06 0x00`. -/
theorem invalid_block_type_witness :
    ∃ s1, write no_tables zero_alloc 3 ((fresh 15).present ⟨false, [6, 0], false, [], 8⟩)
        Z_NO_FLUSH = some (Z_DATA_ERROR, s1) ∧
      s1.msg = some "invalid block type" ∧ s1.mode = .BAD ∧ s1.next_in = [0] ∧
      s1.next_out = [] ∧ s1.avail_out = 8 :=
  invalid_block_type no_tables zero_alloc 0 Z_NO_FLUSH 15 zero_stream (fresh 15) 6 [0] [] 8
    rfl (by decide)


/-! ## Byte accounting (C5) -/

theorem session_totals_aux (tb : table_builder) (alloc : allocator) (fuel : Nat) :
    ∀ (calls : List (buffers × Int)) (s : inflate_stream) (tr : List call_record),
      session tb alloc fuel s calls = some tr →
      (∀ c ∈ tr, c.ret ≠ Z_MEM_ERROR ∧ c.forward) →
      (final_stream s tr).total_in = s.total_in + consumed tr ∧
      (final_stream s tr).total_out = s.total_out + produced tr ∧
      (final_stream s tr).total = s.total + produced tr := by
  intro calls
  induction calls with
  | nil =>
    intro s tr h _
    simp only [session, Option.some.injEq] at h
    subst h
    simp [final_stream, consumed, produced]
  | cons bf rest ih =>
    intro s tr h hall
    obtain ⟨b, flush⟩ := bf
    unfold session at h
    rcases hw : write tb alloc fuel (s.present b) flush with _ | ⟨r, s1⟩
    · rw [hw] at h; cases h
    · rw [hw] at h
      dsimp only at h
      rcases hs : session tb alloc fuel s1 rest with _ | tr1
      · rw [hs] at h; cases h
      · rw [hs] at h
        injection h with h
        subst h
        have hc := hall ⟨s.present b, r, s1⟩ (List.mem_cons_self _ _)
        obtain ⟨hr, f1, f2, f3, f4⟩ := hc
        dsimp only at hr f1 f2 f3 f4
        obtain ⟨t1, t2, t3⟩ := write_totals tb alloc fuel (s.present b) flush r s1 hw hr
        rw [usub_of_le f1 f2] at t1
        rw [usub_of_le f3 f4] at t2 t3
        obtain ⟨i1, i2, i3⟩ := ih s1 tr1 hs (fun c hc => hall c (List.mem_cons_of_mem _ hc))
        have e1 : (s.present b).total_in = s.total_in := rfl
        have e2 : (s.present b).total_out = s.total_out := rfl
        have e3 : (s.present b).total = s.total := rfl
        simp only [final_stream, consumed, produced, List.map_cons, List.sum_cons]
        simp only [consumed, produced] at i1 i2 i3
        rw [i1, i2, i3, t1, t2, t3, e1, e2, e3]
        omega

/-- C5 (amended): in a session of calls of `write` on a freshly reset stream, none of
which returns `Z_MEM_ERROR` or moves a cursor backwards, `total_in` is the number of
input bytes the calls consumed, `total_out` the number of output bytes they produced,
and `total_out = total`. -/
theorem session_totals (tb : table_builder) (alloc : allocator) (fuel : Nat) (w : Nat)
    (t s : inflate_stream) (calls : List (buffers × Int)) (tr : List call_record)
    (hreset : reset w t = some s)
    (hs : session tb alloc fuel s calls = some tr)
    (hall : ∀ c ∈ tr, c.ret ≠ Z_MEM_ERROR ∧ c.forward) :
    (final_stream s tr).total_in = consumed tr ∧
    (final_stream s tr).total_out = produced tr ∧
    (final_stream s tr).total_out = (final_stream s tr).total := by
  obtain ⟨-, -, -, -, -, -, -, -, z1, z2, z3, -⟩ := reset_fields hreset
  obtain ⟨a1, a2, a3⟩ := session_totals_aux tb alloc fuel calls s tr hs hall
  rw [z1, Nat.zero_add] at a1
  rw [z2, Nat.zero_add] at a2
  rw [z3, Nat.zero_add] at a3
  exact ⟨a1, a2, a2.trans a3.symm⟩

theorem eq_some_getD {α : Type} {x : Option α} (d : α) (h : x.isSome = true) :
    x = some (x.getD d) := by
  cases x with
  | none => cases h
  | some a => rfl

set_option maxRecDepth 100000 in
/-- Witness for `session_totals`: the six bytes of the two-piece session are counted. -/
theorem session_totals_witness :
    (final_stream (fresh 15)
      ((session no_tables zero_alloc 20 (fresh 15) two_calls).getD [])).total_in = 6 ∧
    (final_stream (fresh 15)
      ((session no_tables zero_alloc 20 (fresh 15) two_calls).getD [])).total_out = 6 := by
  have h := session_totals no_tables zero_alloc 20 15 zero_stream (fresh 15) two_calls
    ((session no_tables zero_alloc 20 (fresh 15) two_calls).getD []) rfl
    (eq_some_getD _ (by decide!)) (by decide!)
  rw [h.1, h.2.1]
  decide

set_option maxRecDepth 100000 in
/-- C5 (counterexample): the window allocation fails in a call that consumed 3 bytes and
produced 1; `write` returns `Z_MEM_ERROR` and both counters are still 0. -/
theorem totals_lost_on_mem_error :
    (write no_tables no_alloc 20 ((fresh 15).present ⟨false, [75, 4, 0], false, [], 10⟩)
        Z_NO_FLUSH).map
      (fun p => (p.1, 3 - p.2.avail_in, p.2.total_in, 10 - p.2.avail_out, p.2.total_out))
      = some (Z_MEM_ERROR, 3, 0, 1, 0) := by
  decide

/-! ## The invariant of the state machine is kept by every pass -/

theorem bytes_val_append (a b : List Nat) :
    bytes_val (a ++ b) = bytes_val a + 2 ^ (8 * a.length) * bytes_val b := by
  induction a with
  | nil => simp [bytes_val]
  | cons x r ih =>
    have : 2 ^ (8 * (r.length + 1)) = 256 * 2 ^ (8 * r.length) := by
      rw [Nat.mul_add, pow_add]; norm_num; ring
    show x + 256 * bytes_val (r ++ b) = x + 256 * bytes_val r + 2 ^ (8 * (r.length + 1)) * bytes_val b
    rw [ih, this]; ring

theorem bytes_val_lt {l : List Nat} (h : bytes l) : bytes_val l < 2 ^ (8 * l.length) := by
  induction l with
  | nil => simp [bytes_val]
  | cons x r ih =>
    have hx : x < 256 := h x (List.mem_cons_self _ _)
    have hr := ih (fun b hb => h b (List.mem_cons_of_mem _ hb))
    simp only [bytes_val, List.length_cons]
    have : 2 ^ (8 * (r.length + 1)) = 256 * 2 ^ (8 * r.length) := by
      rw [Nat.mul_add, pow_add]; norm_num; ring
    rw [this]; nlinarith

/-- Full description of a `PULLBYTE` loop: it pulls some number `k` of bytes, the test
held before each of them, and it stops at the end of the input or when the test fails. -/
theorem pull_while_spec (need : Nat → Nat → Bool) (I : List Nat) (h b : Nat) :
    ∃ k, k ≤ I.length ∧
      pull_while need h b I = (h + 2 ^ b * bytes_val (I.take k), b + 8 * k, I.drop k) ∧
      (k = I.length ∨ need (h + 2 ^ b * bytes_val (I.take k)) (b + 8 * k) = false) ∧
      ∀ j, j < k → need (h + 2 ^ b * bytes_val (I.take j)) (b + 8 * j) = true := by
  induction I generalizing h b with
  | nil => exact ⟨0, le_refl _, by simp [pull_while, bytes_val], Or.inl rfl, fun j hj => absurd hj (by omega)⟩
  | cons x r ih =>
    by_cases hn : need h b = true
    · obtain ⟨k, hk, e, hstop, hall⟩ := ih (h + x * 2 ^ b) (b + 8)
      refine ⟨k + 1, by simp; omega, ?_, ?_, ?_⟩
      · rw [pull_while, if_pos hn, e]
        simp only [List.take_succ_cons, List.drop_succ_cons, bytes_val]
        have : 2 ^ (b + 8) = 2 ^ b * 256 := by rw [pow_add]; norm_num
        rw [this]; refine Prod.ext ?_ (Prod.ext ?_ rfl)
        · simp only; ring
        · simp only; ring
      · rcases hstop with h1 | h1
        · left; simp [h1]
        · right
          simp only [List.take_succ_cons, bytes_val]
          have e1 : h + 2 ^ b * (x + 256 * bytes_val (List.take k r)) =
              h + x * 2 ^ b + 2 ^ (b + 8) * bytes_val (List.take k r) := by
            rw [pow_add]; ring
          have e2 : b + 8 * (k + 1) = b + 8 + 8 * k := by ring
          rw [e1, e2]; exact h1
      · intro j hj
        cases j with
        | zero => simpa [bytes_val] using hn
        | succ j =>
          simp only [List.take_succ_cons, bytes_val]
          have e1 : h + 2 ^ b * (x + 256 * bytes_val (List.take j r)) =
              h + x * 2 ^ b + 2 ^ (b + 8) * bytes_val (List.take j r) := by
            rw [pow_add]; ring
          have e2 : b + 8 * (j + 1) = b + 8 + 8 * j := by ring
          rw [e1, e2]; exact hall j (by omega)
    · refine ⟨0, by simp, ?_, Or.inr ?_, fun j hj => absurd hj (by omega)⟩
      · rw [pull_while, if_neg hn]; simp [bytes_val]
      · simpa [bytes_val] using hn

theorem stride_lookup {T : Nat → code} {base span i : Nat} (h : stride_ok T base span i = true)
    (hb : (T (base + i)).bits ≤ span) {j : Nat} (hj : j < 2 ^ span)
    (hji : j % 2 ^ (T (base + i)).bits = i % 2 ^ (T (base + i)).bits) :
    T (base + j) = T (base + i) := by
  unfold stride_ok at h
  rw [List.all_eq_true] at h
  have hk : j / 2 ^ (T (base + i)).bits < 2 ^ (span - (T (base + i)).bits) := by
    rw [Nat.div_lt_iff_lt_mul (Nat.two_pow_pos _)]
    rw [← pow_add, Nat.sub_add_cancel hb]; exact hj
  have := h _ (List.mem_range.mpr hk)
  rw [← hji, Nat.mod_add_div'] at this
  exact eq_of_beq this

theorem term_ok_iff {term : code → Bool} {T : Nat → code} {base span i : Nat} :
    term_ok term T base span i = true ↔
      term (T (base + i)) = true ∧ 1 ≤ (T (base + i)).bits ∧ (T (base + i)).bits ≤ span ∧
      stride_ok T base span i = true := by
  simp only [term_ok, Bool.and_eq_true, decide_eq_true_eq, and_assoc]

theorem wf_table_iff {term : code → Bool} {T : Nat → code} {root : Nat} :
    wf_table term T root = true ↔
      (1 ≤ root ∧ root ≤ 15) ∧ ∀ i, i < 2 ^ root →
        (is_link (T i).op = true → (T i).bits = root ∧ root + (T i).op ≤ 15 ∧
          ∀ j, j < 2 ^ (T i).op → is_link (T ((T i).val + j)).op = false ∧
            term_ok term T (T i).val (T i).op j = true) ∧
        (is_link (T i).op = false → term_ok term T 0 root i = true) := by
  simp only [wf_table, Bool.and_eq_true, decide_eq_true_eq, List.all_eq_true, List.mem_range]
  constructor
  · rintro ⟨h1, h2⟩
    refine ⟨h1, fun i hi => ?_⟩
    have := h2 i hi
    constructor
    · intro hl
      rw [if_pos hl] at this
      simp only [Bool.and_eq_true, decide_eq_true_eq, List.all_eq_true, List.mem_range,
        beq_iff_eq, Bool.not_eq_true'] at this
      exact ⟨this.1.1, this.1.2, this.2⟩
    · intro hl
      rw [if_neg (by simp [hl])] at this
      exact this
  · rintro ⟨h1, h2⟩
    refine ⟨h1, fun i hi => ?_⟩
    by_cases hl : is_link (T i).op = true
    · rw [if_pos hl]
      obtain ⟨a, b, c⟩ := (h2 i hi).1 hl
      simp only [Bool.and_eq_true, decide_eq_true_eq, List.all_eq_true, List.mem_range,
        beq_iff_eq, Bool.not_eq_true']
      exact ⟨⟨a, b⟩, c⟩
    · rw [if_neg hl]
      exact (h2 i hi).2 (by simpa using hl)

set_option maxRecDepth 100000 in
theorem op_facts : ∀ op, op < 256 →
    ((16 ≤ op ∧ op ≤ 31) → op &&& 240 = 16 ∧ op &&& 32 = 0 ∧ op &&& 64 = 0 ∧
      op &&& 15 = op - 16 ∧ op &&& 16 = 16) ∧
    (op &&& 64 ≠ 0 → op &&& 240 ≠ 0) ∧
    (op ≤ 15 → op &&& 240 = 0 ∧ op &&& 16 = 0 ∧ op &&& 64 = 0 ∧ op &&& 32 = 0) := by
  decide

theorem pull_spec (s : inflate_stream) (need : Nat → Nat → Bool) :
    ∃ k, pulled s (s.pull need) k ∧
      (k = s.next_in.length ∨ need (s.pull need).hold (s.pull need).bits = false) ∧
      ∀ j, j < k →
        need (s.hold + 2 ^ s.bits * bytes_val (s.next_in.take j)) (s.bits + 8 * j) = true := by
  obtain ⟨k, hk, e, hstop, hall⟩ := pull_while_spec need s.next_in s.hold s.bits
  refine ⟨k, ⟨hk, ?_, ?_, ?_⟩, ?_, hall⟩
  · show (pull_while need s.hold s.bits s.next_in).1 = _
    rw [e]
  · show (pull_while need s.hold s.bits s.next_in).2.1 = _
    rw [e]
  · show (pull_while need s.hold s.bits s.next_in).2.2 = _
    rw [e]
  · show _ ∨ need (pull_while need s.hold s.bits s.next_in).1
      (pull_while need s.hold s.bits s.next_in).2.1 = false
    rw [e]; exact hstop

theorem bytes_take {l : List Nat} (h : bytes l) (k : Nat) : bytes (l.take k) :=
  fun b hb => h b (List.mem_of_mem_take hb)

theorem bytes_drop {l : List Nat} (h : bytes l) (k : Nat) : bytes (l.drop k) :=
  fun b hb => h b (List.mem_of_mem_drop hb)

theorem pulled_hold {s t : inflate_stream} {k : Nat} (h : pulled s t k)
    (hI : bytes s.next_in) (hh : s.hold < 2 ^ s.bits) : t.hold < 2 ^ t.bits := by
  obtain ⟨hk, e1, e2, _⟩ := h
  rw [e1, e2, pow_add]
  have := bytes_val_lt (bytes_take hI k)
  rw [List.length_take, min_eq_left hk] at this
  have h2 : 2 ^ s.bits * (bytes_val (List.take k s.next_in) + 1) ≤ 2 ^ s.bits * 2 ^ (8 * k) :=
    Nat.mul_le_mul_left _ this
  rw [Nat.mul_add, Nat.mul_one] at h2
  omega

theorem pulled_bytes {s t : inflate_stream} {k : Nat} (h : pulled s t k)
    (hI : bytes s.next_in) : bytes t.next_in := by
  rw [h.2.2.2]; exact bytes_drop hI k

theorem pulled_mod {s t : inflate_stream} {k : Nat} (h : pulled s t k) {n : Nat}
    (hn : n ≤ s.bits) : t.hold % 2 ^ n = s.hold % 2 ^ n := by
  rw [h.2.1]
  obtain ⟨d, hd⟩ := Nat.exists_eq_add_of_le hn
  rw [hd, pow_add, Nat.mul_assoc, Nat.add_mul_mod_self_left]

theorem pulled_sval {s t : inflate_stream} {k : Nat} (h : pulled s t k) : t.sval = s.sval := by
  obtain ⟨hk, e1, e2, e3⟩ := h
  unfold inflate_stream.sval
  rw [e1, e2, e3]
  conv_rhs => rw [← List.take_append_drop k s.next_in, bytes_val_append]
  rw [List.length_take, min_eq_left hk, pow_add]; ring

theorem pulled_slen {s t : inflate_stream} {k : Nat} (h : pulled s t k) : t.slen = s.slen := by
  obtain ⟨hk, e1, e2, e3⟩ := h
  unfold inflate_stream.slen
  rw [e2, e3, List.length_drop]; omega

/-- What `NEEDBITS(n)` does. -/
theorem NEEDBITS_spec (n : Nat) (s : inflate_stream) :
    ∃ k, pulled s (NEEDBITS n s) k ∧ ((NEEDBITS n s).bits < n → (NEEDBITS n s).next_in = []) ∧
      ((NEEDBITS n s).bits = s.bits ∨ (NEEDBITS n s).bits < n + 8) := by
  obtain ⟨k, hp, hstop, hall⟩ := pull_spec s (fun _ bits => decide (bits < n))
  refine ⟨k, hp, ?_, ?_⟩
  · intro hlt
    rcases hstop with h1 | h1
    · have := hp.2.2.2
      show (s.pull _).next_in = []
      rw [this, h1]; simp
    · exfalso
      have : ¬ ((NEEDBITS n s).bits < n) := by simpa using h1
      exact this hlt
  · cases k with
    | zero => left; have := hp.2.2.1; simpa using this
    | succ k =>
      right
      have := hall k (by omega)
      have h1 : s.bits + 8 * k < n := by simpa using this
      have := hp.2.2.1
      show (s.pull _).bits < n + 8
      rw [this]; omega

theorem div_pow_lt {h b n : Nat} (hh : h < 2 ^ b) : h / 2 ^ n < 2 ^ (b - n) := by
  by_cases hn : n ≤ b
  · rw [Nat.div_lt_iff_lt_mul (Nat.two_pow_pos _), ← pow_add, Nat.sub_add_cancel hn]; exact hh
  · have : b - n = 0 := by omega
    rw [this]
    have : h < 2 ^ n := lt_of_lt_of_le hh (Nat.pow_le_pow_right (by norm_num) (by omega))
    rw [Nat.div_eq_of_lt this]; norm_num

theorem mode_inv_plain {t : inflate_stream} (h : plain_mode t.mode = true) : mode_inv t := by
  unfold mode_inv
  cases hm : t.mode <;> rw [hm] at h <;> trivial

theorem wants_final {t : inflate_stream} (h : final_mode t.mode = true) : wants_more t := by
  unfold wants_more
  cases hm : t.mode <;> rw [hm] at h <;> trivial

theorem lenfix_getD (i : Nat) :
    lenfix.getD i default = if i < 512 then lenfix_entry i else default := by
  unfold lenfix
  by_cases h : i < 512
  · rw [if_pos h, List.getD_eq_getElem _ _ (by simpa using h)]; simp
  · rw [if_neg h, List.getD_eq_default _ _ (by simpa using h)]

theorem distfix_getD (i : Nat) :
    distfix.getD i default = if i < 32 then distsym 5 (bitrev 5 i) else default := by
  unfold distfix
  by_cases h : i < 32
  · rw [if_pos h, List.getD_eq_getElem _ _ (by simpa using h)]; simp
  · rw [if_neg h, List.getD_eq_default _ _ (by simpa using h)]

theorem wf_lenfix : wf_table len_term (fun i => lenfix.getD i default) 9 = true := by
  have : (fun i => lenfix.getD i default) = fun i => if i < 512 then lenfix_entry i else default :=
    funext lenfix_getD
  rw [this]; decide!

theorem wf_distfix : wf_table dist_term (fun i => distfix.getD i default) 5 = true := by
  have : (fun i => distfix.getD i default) =
      fun i => if i < 32 then distsym 5 (bitrev 5 i) else default := funext distfix_getD
  rw [this]; decide!

theorem plain_of_eq {t : inflate_stream} {m : Mode} (hm : t.mode = m)
    (hp : plain_mode m = true) : mode_inv t :=
  mode_inv_plain (by rw [hm]; exact hp)

theorem wants_TYPEDO {t : inflate_stream} (hm : t.mode = .TYPEDO ∨ t.mode = .TYPE)
    (h : t.last = 0 ∧ t.bits < 3) : wants_more t := by
  unfold wants_more
  rcases hm with hm | hm <;> rw [hm] <;> exact h

theorem inv_TYPEDO (flush : Int) (s : inflate_stream) (ret : Int) (h : Inv s)
    (hm : s.mode = .TYPEDO ∨ s.mode = .TYPE) : Inv (case_TYPEDO flush s ret).st := by
  have hb : s.bits < 8 := by
    rcases h.slack with h1 | h1
    · exact h1
    · unfold wants_more at h1
      rcases hm with hm | hm <;> rw [hm] at h1 <;> have := h1.2 <;> omega
  unfold case_TYPEDO
  by_cases h1 : s.last ≠ 0
  · rw [if_pos h1]
    exact ⟨h.sane, h.dmax, h.inb, div_pow_lt h.hold, Or.inr (wants_final rfl), mode_inv_plain rfl⟩
  · rw [if_neg h1]
    obtain ⟨k, hp, hstop, hmin⟩ := NEEDBITS_spec 3 s
    have hh := pulled_hold hp h.inb h.hold
    have hI := pulled_bytes hp h.inb
    dsimp only
    by_cases h2 : (NEEDBITS 3 s).bits < 3
    · rw [if_pos h2]
      refine ⟨h.sane, h.dmax, hI, hh, Or.inr (wants_TYPEDO hm ⟨not_not.mp h1, h2⟩), ?_⟩
      rcases hm with hm | hm
      · exact plain_of_eq hm rfl
      · exact plain_of_eq hm rfl
    · rw [if_neg h2]
      have hb3 : (NEEDBITS 3 s).bits - 1 - 2 < 8 := by omega
      have hh3 : (NEEDBITS 3 s).hold / 2 ^ 1 / 2 ^ 2 < 2 ^ ((NEEDBITS 3 s).bits - 1 - 2) :=
        div_pow_lt (div_pow_lt hh)
      split
      · exact ⟨h.sane, h.dmax, hI, hh3, Or.inl hb3, mode_inv_plain rfl⟩
      · split_ifs
        · exact ⟨h.sane, h.dmax, hI, hh3, Or.inl hb3, ⟨wf_lenfix, wf_distfix⟩⟩
        · exact ⟨h.sane, h.dmax, hI, hh3, Or.inl hb3, ⟨wf_lenfix, wf_distfix⟩⟩
      · exact ⟨h.sane, h.dmax, hI, hh3, Or.inl hb3, mode_inv_plain rfl⟩
      · exact ⟨h.sane, h.dmax, hI, hh3, Or.inl hb3, mode_inv_plain rfl⟩

theorem wf_first {term : code → Bool} {T : Nat → code} {root : Nat}
    (h : wf_table term T root = true) {i : Nat} (hi : i < 2 ^ root) :
    1 ≤ (T i).bits ∧ (T i).bits ≤ root ∧ stable T 0 root i := by
  obtain ⟨⟨h0, h1⟩, h2⟩ := wf_table_iff.mp h
  obtain ⟨ha, hb⟩ := h2 i hi
  by_cases hl : is_link (T i).op = true
  · obtain ⟨e, _, _⟩ := ha hl
    refine ⟨by omega, by omega, ?_⟩
    intro j hj hji
    simp only [Nat.zero_add] at hji ⊢
    rw [e, Nat.mod_eq_of_lt hj, Nat.mod_eq_of_lt hi] at hji
    rw [hji]
  · have := term_ok_iff.mp (hb (by simpa using hl))
    simp only [Nat.zero_add] at this
    refine ⟨this.2.1, this.2.2.1, ?_⟩
    intro j hj hji
    exact stride_lookup this.2.2.2 (by simpa using this.2.2.1) hj hji

theorem wf_second {term : code → Bool} {T : Nat → code} {root : Nat}
    (h : wf_table term T root = true) {i : Nat} (hi : i < 2 ^ root)
    (hl : is_link (T i).op = true) {j : Nat} (hj : j < 2 ^ (T i).op) :
    (T i).bits = root ∧ root + (T i).op ≤ 15 ∧
    is_link (T ((T i).val + j)).op = false ∧ term (T ((T i).val + j)) = true ∧
    1 ≤ (T ((T i).val + j)).bits ∧ (T ((T i).val + j)).bits ≤ (T i).op ∧
    stable T (T i).val (T i).op j := by
  obtain ⟨⟨h0, h1⟩, h2⟩ := wf_table_iff.mp h
  obtain ⟨e, hr, hs⟩ := (h2 i hi).1 hl
  obtain ⟨hn, ht⟩ := hs j hj
  have := term_ok_iff.mp ht
  exact ⟨e, hr, hn, this.1, this.2.1, this.2.2.1,
    fun j' hj' hji => stride_lookup this.2.2.2 this.2.2.1 hj' hji⟩

theorem wf_term {term : code → Bool} {T : Nat → code} {root : Nat}
    (h : wf_table term T root = true) {i : Nat} (hi : i < 2 ^ root)
    (hl : is_link (T i).op = false) : term (T i) = true := by
  obtain ⟨_, h2⟩ := wf_table_iff.mp h
  have := term_ok_iff.mp ((h2 i hi).2 hl)
  simpa using this.1

theorem take_val_split (I : List Nat) {j k : Nat} (hjk : j ≤ k) (hk : k ≤ I.length) :
    ∃ R, bytes_val (I.take k) = bytes_val (I.take j) + 2 ^ (8 * j) * R := by
  refine ⟨bytes_val ((I.take k).drop j), ?_⟩
  have : I.take k = I.take j ++ (I.take k).drop j := by
    conv_lhs => rw [← List.take_append_drop j (I.take k)]
    rw [List.take_take, min_eq_left hjk]
  conv_lhs => rw [this]
  rw [bytes_val_append, List.length_take, min_eq_left (le_trans hjk hk)]

theorem mod_pow_of_le (a : Nat) {n m : Nat} (h : n ≤ m) : a % 2 ^ m % 2 ^ n = a % 2 ^ n :=
  Nat.mod_mod_of_dvd a (pow_dvd_pow 2 h)

theorem add_mul_pow_mod (a x : Nat) {n b : Nat} (h : n ≤ b) :
    (a + 2 ^ b * x) % 2 ^ n = a % 2 ^ n := by
  obtain ⟨d, hd⟩ := Nat.exists_eq_add_of_le h
  rw [hd, pow_add, Nat.mul_assoc, Nat.add_mul_mod_self_left]

/-- What the first-level lookup loop does on a table whose entries are stable. -/
theorem lookup1_spec (s : inflate_stream) (p : codeptr) (tbits : Nat)
    (hst : ∀ i, i < 2 ^ tbits → (s.tab p i).bits ≤ tbits ∧ stable (s.tab p) 0 tbits i) :
    ∃ k, pulled s (lookup1 s p tbits) k ∧
      ((lookup1 s p tbits).bits < (here1 (lookup1 s p tbits) p tbits).bits →
        (lookup1 s p tbits).next_in = []) ∧
      (k = 0 ∨ (lookup1 s p tbits).bits < (here1 (lookup1 s p tbits) p tbits).bits + 8) := by
  obtain ⟨k, hp, hstop, hall⟩ :=
    pull_spec s (fun hold bits => decide (bits < (s.tab p (hold % 2 ^ tbits)).bits))
  have hp : pulled s (lookup1 s p tbits) k := hp
  have hstop : k = s.next_in.length ∨ decide ((lookup1 s p tbits).bits <
      (here1 (lookup1 s p tbits) p tbits).bits) = false := hstop
  have hhere : here1 (lookup1 s p tbits) p tbits =
      s.tab p ((lookup1 s p tbits).hold % 2 ^ tbits) := rfl
  refine ⟨k, hp, ?_, ?_⟩
  · intro hlt
    rcases hstop with h1 | h1
    · rw [hp.2.2.2, h1]; simp
    · exact absurd hlt (by simpa using h1)
  · cases k with
    | zero => left; rfl
    | succ k =>
      right
      by_contra hcon
      have hn := hall k (by omega)
      simp only [decide_eq_true_eq] at hn
      obtain ⟨R, hR⟩ := take_val_split s.next_in (Nat.le_succ k) hp.1
      have e1 : (lookup1 s p tbits).hold =
          s.hold + 2 ^ s.bits * bytes_val (s.next_in.take k) + 2 ^ (s.bits + 8 * k) * R := by
        rw [hp.2.1, hR, pow_add]; ring
      have e2 : (lookup1 s p tbits).bits = s.bits + 8 * k + 8 := by rw [hp.2.2.1]; ring
      have hi : (lookup1 s p tbits).hold % 2 ^ tbits < 2 ^ tbits := Nat.mod_lt _ (Nat.two_pow_pos _)
      obtain ⟨hle, hs⟩ := hst _ hi
      rw [← hhere] at hle
      have hb : (here1 (lookup1 s p tbits) p tbits).bits ≤ s.bits + 8 * k := by
        rw [e2] at hcon; omega
      have key := hs ((s.hold + 2 ^ s.bits * bytes_val (s.next_in.take k)) % 2 ^ tbits)
        (Nat.mod_lt _ (Nat.two_pow_pos _)) (by
          simp only [Nat.zero_add]
          rw [← hhere, mod_pow_of_le _ hle, mod_pow_of_le _ hle, e1]
          exact (add_mul_pow_mod _ _ hb).symm)
      simp only [Nat.zero_add] at key
      rw [key, ← hhere] at hn
      exact absurd hn (not_lt.mpr hb)

/-- What the second-level lookup loop does below a link `last` whose sub-table entries
are stable. -/
theorem lookup2_spec (s : inflate_stream) (p : codeptr) (last : code)
    (hst : ∀ j, j < 2 ^ last.op → (s.tab p (last.val + j)).bits ≤ last.op ∧
      stable (s.tab p) last.val last.op j) :
    ∃ k, pulled s (lookup2 s p last) k ∧
      ((lookup2 s p last).bits < last.bits + (here2 (lookup2 s p last) p last).bits →
        (lookup2 s p last).next_in = []) ∧
      (k = 0 ∨ (lookup2 s p last).bits < last.bits + (here2 (lookup2 s p last) p last).bits + 8) := by
  obtain ⟨k, hp, hstop, hall⟩ :=
    pull_spec s (fun hold bits => decide (bits < last.bits +
      (s.tab p (last.val + hold % 2 ^ (last.bits + last.op) / 2 ^ last.bits)).bits))
  have hp : pulled s (lookup2 s p last) k := hp
  have hstop : k = s.next_in.length ∨ decide ((lookup2 s p last).bits <
      last.bits + (here2 (lookup2 s p last) p last).bits) = false := hstop
  have hhere : here2 (lookup2 s p last) p last =
      s.tab p (last.val + (lookup2 s p last).hold % 2 ^ (last.bits + last.op) / 2 ^ last.bits) :=
    rfl
  refine ⟨k, hp, ?_, ?_⟩
  · intro hlt
    rcases hstop with h1 | h1
    · rw [hp.2.2.2, h1]; simp
    · exact absurd hlt (by simpa using h1)
  · cases k with
    | zero => left; rfl
    | succ k =>
      right
      by_contra hcon
      have hn := hall k (by omega)
      simp only [decide_eq_true_eq] at hn
      obtain ⟨R, hR⟩ := take_val_split s.next_in (Nat.le_succ k) hp.1
      have e1 : (lookup2 s p last).hold =
          s.hold + 2 ^ s.bits * bytes_val (s.next_in.take k) + 2 ^ (s.bits + 8 * k) * R := by
        rw [hp.2.1, hR, pow_add]; ring
      have e2 : (lookup2 s p last).bits = s.bits + 8 * k + 8 := by rw [hp.2.2.1]; ring
      have hdiv : ∀ a : Nat, a % 2 ^ (last.bits + last.op) / 2 ^ last.bits =
          a / 2 ^ last.bits % 2 ^ last.op := by
        intro a; rw [pow_add, Nat.mod_mul_right_div_self]
      have hi : (lookup2 s p last).hold % 2 ^ (last.bits + last.op) / 2 ^ last.bits < 2 ^ last.op := by
        rw [hdiv]; exact Nat.mod_lt _ (Nat.two_pow_pos _)
      obtain ⟨hle, hs⟩ := hst _ hi
      rw [← hhere] at hle
      have hb : last.bits + (here2 (lookup2 s p last) p last).bits ≤ s.bits + 8 * k := by
        rw [e2] at hcon; omega
      have key := hs ((s.hold + 2 ^ s.bits * bytes_val (s.next_in.take k)) %
          2 ^ (last.bits + last.op) / 2 ^ last.bits)
        (by rw [hdiv]; exact Nat.mod_lt _ (Nat.two_pow_pos _)) (by
          rw [← hhere, hdiv, hdiv, mod_pow_of_le _ hle, mod_pow_of_le _ hle, e1]
          have : ∀ a : Nat, a / 2 ^ last.bits % 2 ^ (here2 (lookup2 s p last) p last).bits =
              a % 2 ^ (last.bits + (here2 (lookup2 s p last) p last).bits) / 2 ^ last.bits := by
            intro a; rw [pow_add, Nat.mod_mul_right_div_self]
          rw [this, this, add_mul_pow_mod _ _ hb])
      rw [key, ← hhere] at hn
      exact absurd hn (not_lt.mpr hb)

theorem mi_MATCH {t : inflate_stream} (hm : t.mode = .MATCH)
    (h : (wf_len t ∧ wf_dist t) ∧ (1 ≤ t.length ∧ t.length ≤ 258) ∧
      1 ≤ t.offset ∧ t.offset ≤ 32768) : mode_inv t := by
  unfold mode_inv; rw [hm]; exact h

theorem mi_DISTEXT {t : inflate_stream} (hm : t.mode = .DISTEXT)
    (h : (wf_len t ∧ wf_dist t) ∧ (3 ≤ t.length ∧ t.length ≤ 258) ∧ t.extra ≤ 13 ∧
      1 ≤ t.offset ∧ t.offset + 2 ^ t.extra ≤ 32769) : mode_inv t := by
  unfold mode_inv; rw [hm]; exact h

theorem mi_DIST {t : inflate_stream} (hm : t.mode = .DIST)
    (h : (wf_len t ∧ wf_dist t) ∧ 3 ≤ t.length ∧ t.length ≤ 258) : mode_inv t := by
  unfold mode_inv; rw [hm]; exact h

theorem mi_LENEXT {t : inflate_stream} (hm : t.mode = .LENEXT)
    (h : (wf_len t ∧ wf_dist t) ∧ 3 ≤ t.length ∧ t.extra ≤ 5 ∧
      t.length + 2 ^ t.extra ≤ 259) : mode_inv t := by
  unfold mode_inv; rw [hm]; exact h

theorem mi_LEN {t : inflate_stream} (hm : t.mode = .LEN_ ∨ t.mode = .LEN ∨ t.mode = .LIT)
    (h : wf_len t ∧ wf_dist t) : mode_inv t := by
  unfold mode_inv; rcases hm with hm | hm | hm <;> rw [hm] <;> exact h

theorem mi_COPY {t : inflate_stream} (hm : t.mode = .COPY_ ∨ t.mode = .COPY)
    (h : t.bits = 0) : mode_inv t := by
  unfold mode_inv; rcases hm with hm | hm <;> rw [hm] <;> exact h

theorem mi_CODELENS {t : inflate_stream} (hm : t.mode = .CODELENS)
    (h : wf_codes t) : mode_inv t := by
  unfold mode_inv; rw [hm]; exact h

theorem me_MATCH {t : inflate_stream} (h : mode_inv t) (hm : t.mode = .MATCH) :
    (wf_len t ∧ wf_dist t) ∧ (1 ≤ t.length ∧ t.length ≤ 258) ∧
      1 ≤ t.offset ∧ t.offset ≤ 32768 := by
  unfold mode_inv at h; rw [hm] at h; exact h

theorem me_DISTEXT {t : inflate_stream} (h : mode_inv t) (hm : t.mode = .DISTEXT) :
    (wf_len t ∧ wf_dist t) ∧ (3 ≤ t.length ∧ t.length ≤ 258) ∧ t.extra ≤ 13 ∧
      1 ≤ t.offset ∧ t.offset + 2 ^ t.extra ≤ 32769 := by
  unfold mode_inv at h; rw [hm] at h; exact h

theorem me_DIST {t : inflate_stream} (h : mode_inv t) (hm : t.mode = .DIST) :
    (wf_len t ∧ wf_dist t) ∧ 3 ≤ t.length ∧ t.length ≤ 258 := by
  unfold mode_inv at h; rw [hm] at h; exact h

theorem me_LENEXT {t : inflate_stream} (h : mode_inv t) (hm : t.mode = .LENEXT) :
    (wf_len t ∧ wf_dist t) ∧ 3 ≤ t.length ∧ t.extra ≤ 5 ∧ t.length + 2 ^ t.extra ≤ 259 := by
  unfold mode_inv at h; rw [hm] at h; exact h

theorem me_LEN {t : inflate_stream} (h : mode_inv t)
    (hm : t.mode = .LEN_ ∨ t.mode = .LEN ∨ t.mode = .LIT) : wf_len t ∧ wf_dist t := by
  unfold mode_inv at h; rcases hm with hm | hm | hm <;> rw [hm] at h <;> exact h

theorem me_COPY {t : inflate_stream} (h : mode_inv t) (hm : t.mode = .COPY_ ∨ t.mode = .COPY) :
    t.bits = 0 := by
  unfold mode_inv at h; rcases hm with hm | hm <;> rw [hm] at h <;> exact h

theorem me_CODELENS {t : inflate_stream} (h : mode_inv t) (hm : t.mode = .CODELENS) :
    wf_codes t := by
  unfold mode_inv at h; rw [hm] at h; exact h

theorem wm_EXT {t : inflate_stream} (hm : t.mode = .LENEXT ∨ t.mode = .DISTEXT)
    (h : t.bits < t.extra) : wants_more t := by
  unfold wants_more; rcases hm with hm | hm <;> rw [hm] <;> exact h

theorem we_EXT {t : inflate_stream} (h : t.bits < 8 ∨ wants_more t)
    (hm : t.mode = .LENEXT ∨ t.mode = .DISTEXT) : t.bits < 8 ∨ t.bits < t.extra := by
  rcases h with h | h
  · exact Or.inl h
  · unfold wants_more at h; rcases hm with hm | hm <;> rw [hm] at h <;> exact Or.inr h

theorem we_quiet {t : inflate_stream} (h : t.bits < 8 ∨ wants_more t)
    (hm : quiet_mode t.mode = true) : t.bits < 8 := by
  rcases h with h | h
  · exact h
  · unfold wants_more at h
    cases hmm : t.mode <;> rw [hmm] at h hm <;> first | exact h.elim | cases hm

theorem inv_MATCH (out : Nat) (s : inflate_stream) (ret : Int) (h : Inv s)
    (hm : s.mode = .MATCH) : Inv (case_MATCH out s ret).st := by
  have hb : s.bits < 8 := we_quiet h.slack (by rw [hm]; rfl)
  obtain ⟨hw, hl, ho⟩ := me_MATCH h.regs hm
  have key : ∀ n nout, Inv (match_emit s n nout) := by
    intro n nout
    unfold match_emit
    dsimp only
    by_cases h0 : s.length - n = 0
    · rw [if_pos h0]
      exact ⟨h.sane, h.dmax, h.inb, h.hold, Or.inl hb, mi_LEN (Or.inr (Or.inl rfl)) hw⟩
    · rw [if_neg h0]
      exact ⟨h.sane, h.dmax, h.inb, h.hold, Or.inl hb,
        mi_MATCH hm ⟨hw, ⟨(by omega : 1 ≤ s.length - n), (by omega : s.length - n ≤ 258)⟩, ho⟩⟩
  unfold case_MATCH
  dsimp only
  split_ifs
  · exact h
  · exact ⟨h.sane, h.dmax, h.inb, h.hold, Or.inr (wants_final rfl), mode_inv_plain rfl⟩
  · exact key _ _
  · exact key _ _

theorem pow_mod_lt (a n : Nat) : a % 2 ^ n < 2 ^ n := Nat.mod_lt _ (Nat.two_pow_pos _)

theorem inv_DISTEXT (out : Nat) (s : inflate_stream) (ret : Int) (h : Inv s)
    (hm : s.mode = .DISTEXT) : Inv (case_DISTEXT out s ret).st := by
  obtain ⟨hw, hl, he, ho1, ho2⟩ := me_DISTEXT h.regs hm
  have hsl := we_EXT h.slack (Or.inr hm)
  unfold case_DISTEXT
  by_cases h0 : s.extra ≠ 0
  · rw [if_pos h0]
    obtain ⟨k, hp, hstop, hmin⟩ := NEEDBITS_spec s.extra s
    have hh := pulled_hold hp h.inb h.hold
    have hI := pulled_bytes hp h.inb
    dsimp only
    by_cases h2 : (NEEDBITS s.extra s).bits < s.extra
    · rw [if_pos h2]
      exact ⟨h.sane, h.dmax, hI, hh, Or.inr (wm_EXT (Or.inr hm) h2),
        mi_DISTEXT hm ⟨hw, hl, he, ho1, ho2⟩⟩
    · rw [if_neg h2]
      apply inv_MATCH _ _ _ _ rfl
      have := pow_mod_lt (NEEDBITS s.extra s).hold s.extra
      exact ⟨h.sane, h.dmax, hI, div_pow_lt hh,
        Or.inl (by omega : (NEEDBITS s.extra s).bits - s.extra < 8),
        mi_MATCH rfl ⟨hw, ⟨(by omega : 1 ≤ s.length), hl.2⟩,
          (by omega : 1 ≤ s.offset + (NEEDBITS s.extra s).hold % 2 ^ s.extra),
          (by omega : s.offset + (NEEDBITS s.extra s).hold % 2 ^ s.extra ≤ 32768)⟩⟩
  · rw [if_neg h0]
    apply inv_MATCH _ _ _ _ rfl
    have h0 : s.extra = 0 := not_not.mp h0
    rw [h0] at ho2
    exact ⟨h.sane, h.dmax, h.inb, h.hold, Or.inl (by omega : s.bits < 8),
      mi_MATCH rfl ⟨hw, ⟨(by omega : 1 ≤ s.length), hl.2⟩, ho1, (by omega : s.offset ≤ 32768)⟩⟩

theorem pulled_zero {s t : inflate_stream} (h : pulled s t 0) :
    t.hold = s.hold ∧ t.bits = s.bits := by
  obtain ⟨_, e1, e2, _⟩ := h
  simp [bytes_val] at e1 e2
  exact ⟨e1, e2⟩

theorem pulled_bits_le {s t : inflate_stream} {k : Nat} (h : pulled s t k) : s.bits ≤ t.bits := by
  rw [h.2.2.1]; omega

theorem link_test {op : Nat} (h : is_link op = true) : op ≠ 0 ∧ op &&& 240 = 0 := by
  simp only [is_link, Bool.and_eq_true, decide_eq_true_eq] at h
  exact ⟨by omega, ((op_facts op (by omega)).2.2 h.2).1⟩

theorem dist_term_test {e : code} (h : dist_term e = true) : e.op &&& 240 ≠ 0 := by
  simp only [dist_term, Bool.or_eq_true, Bool.and_eq_true, decide_eq_true_eq, beq_iff_eq,
    bne_iff_ne] at h
  rcases h with h | h
  · rw [((op_facts e.op (by omega)).1 ⟨h.1.1.1, by omega⟩).1]; decide
  · exact (op_facts e.op h.1.1).2.1 h.2

theorem len_term_test {e : code} (h : len_term e = true) : ¬ (e.op ≠ 0 ∧ e.op &&& 240 = 0) := by
  simp only [len_term, Bool.or_eq_true, Bool.and_eq_true, decide_eq_true_eq, beq_iff_eq,
    bne_iff_ne] at h
  rintro ⟨h1, h2⟩
  rcases h with (h | h) | h
  · exact h1 h
  · rw [((op_facts e.op (by omega)).1 ⟨h.1.1.1, by omega⟩).1] at h2; exact absurd h2 (by decide)
  · exact (op_facts e.op h.1.1).2.1 h.2 h2

/-- A distance base: what `dist_term` says of an entry that is not an invalid marker. -/
theorem dist_base {e : code} (h : dist_term e = true) (h64 : e.op &&& 64 = 0) :
    e.op &&& 15 ≤ 13 ∧ 1 ≤ e.val ∧ e.val + 2 ^ (e.op &&& 15) ≤ 32769 ∧ e.op &&& 16 = 16 ∧
    e.op &&& 15 = e.op - 16 := by
  simp only [dist_term, Bool.or_eq_true, Bool.and_eq_true, decide_eq_true_eq, beq_iff_eq,
    bne_iff_ne] at h
  rcases h with h | h
  · have := (op_facts e.op (by omega)).1 ⟨h.1.1.1, by omega⟩
    rw [this.2.2.2.1]
    exact ⟨by omega, h.1.2, h.2, this.2.2.2.2, rfl⟩
  · exact absurd h64 h.2

/-- A length base: what `len_term` says of an entry that is neither a literal nor a
marker. -/
theorem len_base {e : code} (h : len_term e = true) (h0 : e.op ≠ 0)
    (h64 : e.op &&& 64 = 0) :
    e.op &&& 15 ≤ 5 ∧ 3 ≤ e.val ∧ e.val + 2 ^ (e.op &&& 15) ≤ 259 ∧ e.op &&& 16 = 16 ∧
    e.op &&& 15 = e.op - 16 := by
  simp only [len_term, Bool.or_eq_true, Bool.and_eq_true, decide_eq_true_eq, beq_iff_eq,
    bne_iff_ne] at h
  rcases h with (h | h) | h
  · exact absurd h h0
  · have := (op_facts e.op (by omega)).1 ⟨h.1.1.1, by omega⟩
    rw [this.2.2.2.1]
    exact ⟨by omega, h.1.2, h.2, this.2.2.2.2, rfl⟩
  · exact absurd h64 h.2

theorem inv_dist_go (out : Nat) (s : inflate_stream) (here : code) (ret : Int)
    (hs : s.sane = 1) (hd : s.dmax = 32768) (hI : bytes s.next_in) (hh : s.hold < 2 ^ s.bits)
    (hb : s.bits - here.bits < 8) (hw : wf_len s ∧ wf_dist s)
    (hl : 3 ≤ s.length ∧ s.length ≤ 258) (hterm : dist_term here = true) :
    Inv (dist_go out s here ret).st := by
  unfold dist_go
  dsimp only
  by_cases h64 : here.op &&& 64 ≠ 0
  · rw [if_pos h64]
    exact ⟨hs, hd, hI, div_pow_lt hh, Or.inr (wants_final rfl), mode_inv_plain rfl⟩
  · rw [if_neg h64]
    obtain ⟨h1, h2, h3, _⟩ := dist_base hterm (not_not.mp h64)
    apply inv_DISTEXT _ _ _ _ rfl
    exact ⟨hs, hd, hI, div_pow_lt hh, Or.inl hb, mi_DISTEXT rfl ⟨hw, hl, h1, h2, h3⟩⟩

theorem wm_DIST {t : inflate_stream} (hm : t.mode = .DIST)
    (h : wants1 t t.distcode t.distbits ∨
      ((here1 t t.distcode t.distbits).op &&& 240 = 0 ∧
        wants2 t t.distcode (here1 t t.distcode t.distbits))) : wants_more t := by
  unfold wants_more; rw [hm]; exact h

theorem we_DIST {t : inflate_stream} (h : t.bits < 8 ∨ wants_more t) (hm : t.mode = .DIST) :
    t.bits < 8 ∨ wants1 t t.distcode t.distbits ∨
      ((here1 t t.distcode t.distbits).op &&& 240 = 0 ∧
        wants2 t t.distcode (here1 t t.distcode t.distbits)) := by
  rcases h with h | h
  · exact Or.inl h
  · unfold wants_more at h; rw [hm] at h; exact Or.inr h

/-- The two lookup loops on a well-formed table: when they complete, fewer than eight
bits stay in the accumulator beyond the code they found. -/
theorem decode_slack (s : inflate_stream) (p : codeptr) (root : Nat) (term : code → Bool)
    (hwf : wf_table term (s.tab p) root = true)
    (hsl : s.bits < 8 ∨ wants1 s p root ∨
      (is_link (here1 s p root).op = true ∧ wants2 s p (here1 s p root))) :
    (∃ k, pulled s (lookup1 s p root) k) ∧
    ((lookup1 s p root).bits < (here1 (lookup1 s p root) p root).bits →
      (lookup1 s p root).next_in = []) ∧
    (¬ (lookup1 s p root).bits < (here1 (lookup1 s p root) p root).bits →
      (is_link (here1 (lookup1 s p root) p root).op = false →
        term (here1 (lookup1 s p root) p root) = true ∧
        (lookup1 s p root).bits - (here1 (lookup1 s p root) p root).bits < 8) ∧
      (is_link (here1 (lookup1 s p root) p root).op = true →
        (∃ k, pulled (lookup1 s p root) (lookup2 (lookup1 s p root) p
            (here1 (lookup1 s p root) p root)) k) ∧
        here1 (lookup2 (lookup1 s p root) p (here1 (lookup1 s p root) p root)) p root =
          here1 (lookup1 s p root) p root ∧
        ((lookup2 (lookup1 s p root) p (here1 (lookup1 s p root) p root)).bits <
            (here1 (lookup1 s p root) p root).bits +
              (here2 (lookup2 (lookup1 s p root) p (here1 (lookup1 s p root) p root)) p
                (here1 (lookup1 s p root) p root)).bits →
          (lookup2 (lookup1 s p root) p (here1 (lookup1 s p root) p root)).next_in = []) ∧
        (¬ (lookup2 (lookup1 s p root) p (here1 (lookup1 s p root) p root)).bits <
            (here1 (lookup1 s p root) p root).bits +
              (here2 (lookup2 (lookup1 s p root) p (here1 (lookup1 s p root) p root)) p
                (here1 (lookup1 s p root) p root)).bits →
          term (here2 (lookup2 (lookup1 s p root) p (here1 (lookup1 s p root) p root)) p
                (here1 (lookup1 s p root) p root)) = true ∧
          is_link (here2 (lookup2 (lookup1 s p root) p (here1 (lookup1 s p root) p root)) p
                (here1 (lookup1 s p root) p root)).op = false ∧
          (lookup2 (lookup1 s p root) p (here1 (lookup1 s p root) p root)).bits -
            (here1 (lookup1 s p root) p root).bits -
            (here2 (lookup2 (lookup1 s p root) p (here1 (lookup1 s p root) p root)) p
                (here1 (lookup1 s p root) p root)).bits < 8))) := by
  obtain ⟨k, hp, hstop, hmin⟩ := lookup1_spec s p root
    (fun i hi => ⟨(wf_first hwf hi).2.1, (wf_first hwf hi).2.2⟩)
  generalize ht : lookup1 s p root = t at hp hstop hmin ⊢
  have hi : t.hold % 2 ^ root < 2 ^ root := pow_mod_lt _ _
  have hhere : here1 t p root = s.tab p (t.hold % 2 ^ root) := by rw [← ht]; rfl
  generalize hhe : here1 t p root = here at hstop hmin hhere ⊢
  refine ⟨⟨k, hp⟩, hstop, fun hc => ⟨fun hnl => ?_, fun hl => ?_⟩⟩
  · refine ⟨by rw [hhere]; exact wf_term hwf hi (by rw [← hhere]; exact hnl), ?_⟩
    rcases hmin with h0 | h0
    · subst h0
      obtain ⟨e1, e2⟩ := pulled_zero hp
      have hh1 : here1 s p root = here := by
        rw [hhere]; show s.tab p (s.hold % 2 ^ root) = _; rw [e1]
      rcases hsl with h | h | h
      · omega
      · unfold wants1 at h; rw [hh1] at h; omega
      · rw [hh1, hnl] at h; exact absurd h.1 (by decide)
    · omega
  · have hl' : is_link (s.tab p (t.hold % 2 ^ root)).op = true := by rw [← hhere]; exact hl
    have hsec := fun j (hj : j < 2 ^ here.op) => wf_second hwf hi hl' (by rw [← hhere]; exact hj)
    rw [← hhere] at hsec
    obtain ⟨k2, hp2, hstop2, hmin2⟩ := lookup2_spec t p here (by
      intro j hj
      have := hsec j hj
      rw [← ht]
      exact ⟨this.2.2.2.2.2.1, this.2.2.2.2.2.2⟩)
    generalize ht2 : lookup2 t p here = t2 at hp2 hstop2 hmin2 ⊢
    have hroot : here.bits = root := (hsec 0 (Nat.two_pow_pos _)).1
    have hle : root ≤ t.bits := by omega
    have hh2 : here1 t2 p root = here := by
      rw [← hhe]
      show t2.tab p (t2.hold % 2 ^ root) = t.tab p (t.hold % 2 ^ root)
      rw [pulled_mod hp2 hle, ← ht2]; rfl
    have hi2 : t2.hold % 2 ^ (here.bits + here.op) / 2 ^ here.bits < 2 ^ here.op := by
      rw [pow_add, Nat.mod_mul_right_div_self]; exact pow_mod_lt _ _
    have hhere2 : here2 t2 p here =
        s.tab p (here.val + t2.hold % 2 ^ (here.bits + here.op) / 2 ^ here.bits) := by
      rw [← ht2, ← ht]; rfl
    refine ⟨⟨k2, hp2⟩, hh2, hstop2, fun hc2 => ?_⟩
    have := hsec _ hi2
    rw [← hhere2] at this
    refine ⟨this.2.2.2.1, this.2.2.1, ?_⟩
    rcases hmin2 with h0 | h0
    · subst h0
      obtain ⟨e1, e2⟩ := pulled_zero hp2
      rcases hmin with h0 | h0
      · subst h0
        obtain ⟨e3, e4⟩ := pulled_zero hp
        have hh1 : here1 s p root = here := by
          rw [hhere]; show s.tab p (s.hold % 2 ^ root) = _; rw [e3]
        have hh3 : here2 s p here = here2 t2 p here := by
          rw [hhere2]; show s.tab p (here.val + s.hold % 2 ^ (here.bits + here.op) /
            2 ^ here.bits) = _
          rw [e1, e3]
        rcases hsl with h | h | h
        · omega
        · unfold wants1 at h; rw [hh1] at h; omega
        · have := h.2; unfold wants2 at this; rw [hh1, hh3] at this; omega
      · omega
    · omega

theorem dist_link_iff {T : Nat → code} {root i : Nat} (hwf : wf_table dist_term T root = true)
    (hi : i < 2 ^ root) : (T i).op &&& 240 = 0 ↔ is_link (T i).op = true := by
  constructor
  · intro h
    by_contra hl
    exact dist_term_test (wf_term hwf hi (by simpa using hl)) h
  · exact fun h => (link_test h).2

theorem len_link_iff {T : Nat → code} {root i : Nat} (hwf : wf_table len_term T root = true)
    (hi : i < 2 ^ root) : ((T i).op ≠ 0 ∧ (T i).op &&& 240 = 0) ↔ is_link (T i).op = true := by
  constructor
  · intro h
    by_contra hl
    exact len_term_test (wf_term hwf hi (by simpa using hl)) h
  · exact fun h => link_test h

theorem inv_DIST (out : Nat) (s : inflate_stream) (ret : Int) (h : Inv s)
    (hm : s.mode = .DIST) : Inv (case_DIST out s ret).st := by
  obtain ⟨hw, hl⟩ := me_DIST h.regs hm
  have hwd : wf_table dist_term (s.tab s.distcode) s.distbits = true := hw.2
  have hsl := we_DIST h.slack hm
  have hlink : ∀ t : inflate_stream, t.codes = s.codes →
      ((here1 t s.distcode s.distbits).op &&& 240 = 0 ↔
        is_link (here1 t s.distcode s.distbits).op = true) := by
    intro t ht
    have : here1 t s.distcode s.distbits = s.tab s.distcode (t.hold % 2 ^ s.distbits) := by
      show code_at t.codes _ _ = code_at s.codes _ _; rw [ht]; rfl
    rw [this]; exact dist_link_iff hwd (pow_mod_lt _ _)
  obtain ⟨⟨k, hp⟩, hstop, hdone⟩ := decode_slack s s.distcode s.distbits dist_term hwd (by
    rcases hsl with h1 | h1 | h1
    · exact Or.inl h1
    · exact Or.inr (Or.inl h1)
    · exact Or.inr (Or.inr ⟨(hlink s rfl).mp h1.1, h1.2⟩))
  have hh := pulled_hold hp h.inb h.hold
  have hI := pulled_bytes hp h.inb
  unfold case_DIST
  dsimp only
  by_cases h1 : (lookup1 s s.distcode s.distbits).bits <
      (here1 (lookup1 s s.distcode s.distbits) s.distcode s.distbits).bits
  · rw [if_pos h1]
    exact ⟨h.sane, h.dmax, hI, hh, Or.inr (wm_DIST hm (Or.inl h1)), mi_DIST hm ⟨hw, hl⟩⟩
  · rw [if_neg h1]
    obtain ⟨hterm, hlk⟩ := hdone h1
    by_cases h2 : (here1 (lookup1 s s.distcode s.distbits) s.distcode s.distbits).op &&& 240 = 0
    · rw [if_pos h2]
      obtain ⟨⟨k2, hp2⟩, hsame, hstop2, hdone2⟩ := hlk ((hlink (lookup1 s s.distcode s.distbits) rfl).mp h2)
      have hh2 := pulled_hold hp2 hI hh
      have hI2 := pulled_bytes hp2 hI
      by_cases h3 : (lookup2 (lookup1 s s.distcode s.distbits) s.distcode
          (here1 (lookup1 s s.distcode s.distbits) s.distcode s.distbits)).bits <
          (here1 (lookup1 s s.distcode s.distbits) s.distcode s.distbits).bits +
            (here2 (lookup2 (lookup1 s s.distcode s.distbits) s.distcode
              (here1 (lookup1 s s.distcode s.distbits) s.distcode s.distbits)) s.distcode
              (here1 (lookup1 s s.distcode s.distbits) s.distcode s.distbits)).bits
      · rw [if_pos h3]
        refine ⟨h.sane, h.dmax, hI2, hh2, Or.inr (wm_DIST hm (Or.inr ?_)), mi_DIST hm ⟨hw, hl⟩⟩
        refine ⟨?_, ?_⟩
        · show (here1 (lookup2 _ _ _) s.distcode s.distbits).op &&& 240 = 0
          rw [hsame]; exact h2
        · show wants2 (lookup2 _ _ _) s.distcode (here1 (lookup2 _ _ _) s.distcode s.distbits)
          rw [hsame]; exact h3
      · rw [if_neg h3]
        obtain ⟨ht2, _, hb2⟩ := hdone2 h3
        exact inv_dist_go _ _ _ _ h.sane h.dmax hI2 (div_pow_lt hh2) hb2 hw hl ht2
    · rw [if_neg h2]
      obtain ⟨ht1, hb1⟩ := hterm (by
        by_contra hc
        exact h2 ((hlink (lookup1 s s.distcode s.distbits) rfl).mpr (by simpa using hc)))
      exact inv_dist_go _ _ _ _ h.sane h.dmax hI hh hb1 hw hl ht1

theorem inv_LENEXT (out : Nat) (s : inflate_stream) (ret : Int) (h : Inv s)
    (hm : s.mode = .LENEXT) : Inv (case_LENEXT out s ret).st := by
  obtain ⟨hw, hl, he, hl2⟩ := me_LENEXT h.regs hm
  have hsl := we_EXT h.slack (Or.inl hm)
  unfold case_LENEXT
  by_cases h0 : s.extra ≠ 0
  · rw [if_pos h0]
    obtain ⟨k, hp, hstop, hmin⟩ := NEEDBITS_spec s.extra s
    have hh := pulled_hold hp h.inb h.hold
    have hI := pulled_bytes hp h.inb
    dsimp only
    by_cases h2 : (NEEDBITS s.extra s).bits < s.extra
    · rw [if_pos h2]
      exact ⟨h.sane, h.dmax, hI, hh, Or.inr (wm_EXT (Or.inl hm) h2),
        mi_LENEXT hm ⟨hw, hl, he, hl2⟩⟩
    · rw [if_neg h2]
      apply inv_DIST _ _ _ _ rfl
      have := pow_mod_lt (NEEDBITS s.extra s).hold s.extra
      exact ⟨h.sane, h.dmax, hI, div_pow_lt hh,
        Or.inl (by omega : (NEEDBITS s.extra s).bits - s.extra < 8),
        mi_DIST rfl ⟨hw, (by omega : 3 ≤ s.length + (NEEDBITS s.extra s).hold % 2 ^ s.extra),
          (by omega : s.length + (NEEDBITS s.extra s).hold % 2 ^ s.extra ≤ 258)⟩⟩
  · rw [if_neg h0]
    apply inv_DIST _ _ _ _ rfl
    have h0 : s.extra = 0 := not_not.mp h0
    rw [h0] at hl2
    exact ⟨h.sane, h.dmax, h.inb, h.hold, Or.inl (by omega : s.bits < 8),
      mi_DIST rfl ⟨hw, hl, (by omega : s.length ≤ 258)⟩⟩

theorem inv_len_go (out : Nat) (s : inflate_stream) (here : code) (ret : Int)
    (hs : s.sane = 1) (hd : s.dmax = 32768) (hI : bytes s.next_in) (hh : s.hold < 2 ^ s.bits)
    (hb : s.bits - here.bits < 8) (hw : wf_len s ∧ wf_dist s)
    (hterm : len_term here = true) : Inv (len_go out s here ret).st := by
  unfold len_go
  dsimp only
  by_cases h0 : here.op = 0
  · rw [if_pos h0]
    exact ⟨hs, hd, hI, div_pow_lt hh, Or.inl hb, mi_LEN (Or.inr (Or.inr rfl)) hw⟩
  · rw [if_neg h0]
    by_cases h32 : here.op &&& 32 ≠ 0
    · rw [if_pos h32]
      exact ⟨hs, hd, hI, div_pow_lt hh, Or.inl hb, mode_inv_plain rfl⟩
    · rw [if_neg h32]
      by_cases h64 : here.op &&& 64 ≠ 0
      · rw [if_pos h64]
        exact ⟨hs, hd, hI, div_pow_lt hh, Or.inr (wants_final rfl), mode_inv_plain rfl⟩
      · rw [if_neg h64]
        obtain ⟨h1, h2, h3, _⟩ := len_base hterm h0 (not_not.mp h64)
        apply inv_LENEXT _ _ _ _ rfl
        exact ⟨hs, hd, hI, div_pow_lt hh, Or.inl hb, mi_LENEXT rfl ⟨hw, h2, h1, h3⟩⟩

theorem wm_LEN {t : inflate_stream} (hm : t.mode = .LEN_ ∨ t.mode = .LEN)
    (h : wants1 t t.lencode t.lenbits ∨
      ((here1 t t.lencode t.lenbits).op ≠ 0 ∧ (here1 t t.lencode t.lenbits).op &&& 240 = 0 ∧
        wants2 t t.lencode (here1 t t.lencode t.lenbits))) : wants_more t := by
  unfold wants_more; rcases hm with hm | hm <;> rw [hm] <;> exact h

theorem we_LEN {t : inflate_stream} (h : t.bits < 8 ∨ wants_more t)
    (hm : t.mode = .LEN_ ∨ t.mode = .LEN) :
    t.bits < 8 ∨ wants1 t t.lencode t.lenbits ∨
      ((here1 t t.lencode t.lenbits).op ≠ 0 ∧ (here1 t t.lencode t.lenbits).op &&& 240 = 0 ∧
        wants2 t t.lencode (here1 t t.lencode t.lenbits)) := by
  rcases h with h | h
  · exact Or.inl h
  · unfold wants_more at h; rcases hm with hm | hm <;> rw [hm] at h <;> exact Or.inr h

theorem inv_LEN_slow (out : Nat) (s : inflate_stream) (ret : Int) (h : Inv s)
    (hm : s.mode = .LEN) : Inv (case_LEN_slow out s ret).st := by
  have hw := me_LEN h.regs (Or.inr (Or.inl hm))
  have hwd : wf_table len_term (s.tab s.lencode) s.lenbits = true := hw.1
  have hsl := we_LEN h.slack (Or.inr hm)
  have hlink : ∀ t : inflate_stream, t.codes = s.codes →
      (((here1 t s.lencode s.lenbits).op ≠ 0 ∧ (here1 t s.lencode s.lenbits).op &&& 240 = 0) ↔
        is_link (here1 t s.lencode s.lenbits).op = true) := by
    intro t ht
    have : here1 t s.lencode s.lenbits = s.tab s.lencode (t.hold % 2 ^ s.lenbits) := by
      show code_at t.codes _ _ = code_at s.codes _ _; rw [ht]; rfl
    rw [this]; exact len_link_iff hwd (pow_mod_lt _ _)
  obtain ⟨⟨k, hp⟩, hstop, hdone⟩ := decode_slack { s with back := 0 } s.lencode s.lenbits
    len_term hwd (by
    rcases hsl with h1 | h1 | h1
    · exact Or.inl h1
    · exact Or.inr (Or.inl h1)
    · exact Or.inr (Or.inr ⟨(hlink s rfl).mp ⟨h1.1, h1.2.1⟩, h1.2.2⟩))
  have hh := pulled_hold hp h.inb h.hold
  have hI := pulled_bytes hp h.inb
  unfold case_LEN_slow
  dsimp only
  by_cases h1 : (lookup1 { s with back := 0 } s.lencode s.lenbits).bits <
      (here1 (lookup1 { s with back := 0 } s.lencode s.lenbits) s.lencode s.lenbits).bits
  · rw [if_pos h1]
    exact ⟨h.sane, h.dmax, hI, hh, Or.inr (wm_LEN (Or.inr hm) (Or.inl h1)),
      mi_LEN (Or.inr (Or.inl hm)) hw⟩
  · rw [if_neg h1]
    obtain ⟨hterm, hlk⟩ := hdone h1
    by_cases h2 : (here1 (lookup1 { s with back := 0 } s.lencode s.lenbits) s.lencode
        s.lenbits).op ≠ 0 ∧ (here1 (lookup1 { s with back := 0 } s.lencode s.lenbits) s.lencode
        s.lenbits).op &&& 240 = 0
    · rw [if_pos h2]
      obtain ⟨⟨k2, hp2⟩, hsame, hstop2, hdone2⟩ := hlk ((hlink (lookup1 { s with back := 0 } s.lencode s.lenbits) rfl).mp h2)
      have hh2 := pulled_hold hp2 hI hh
      have hI2 := pulled_bytes hp2 hI
      by_cases h3 : (lookup2 (lookup1 { s with back := 0 } s.lencode s.lenbits) s.lencode
          (here1 (lookup1 { s with back := 0 } s.lencode s.lenbits) s.lencode s.lenbits)).bits <
          (here1 (lookup1 { s with back := 0 } s.lencode s.lenbits) s.lencode s.lenbits).bits +
            (here2 (lookup2 (lookup1 { s with back := 0 } s.lencode s.lenbits) s.lencode
              (here1 (lookup1 { s with back := 0 } s.lencode s.lenbits) s.lencode s.lenbits))
              s.lencode
              (here1 (lookup1 { s with back := 0 } s.lencode s.lenbits) s.lencode s.lenbits)).bits
      · rw [if_pos h3]
        refine ⟨h.sane, h.dmax, hI2, hh2, Or.inr (wm_LEN (Or.inr hm) (Or.inr ?_)),
          mi_LEN (Or.inr (Or.inl hm)) hw⟩
        refine ⟨?_, ?_, ?_⟩
        · show (here1 (lookup2 _ _ _) s.lencode s.lenbits).op ≠ 0
          rw [hsame]; exact h2.1
        · show (here1 (lookup2 _ _ _) s.lencode s.lenbits).op &&& 240 = 0
          rw [hsame]; exact h2.2
        · show wants2 (lookup2 _ _ _) s.lencode (here1 (lookup2 _ _ _) s.lencode s.lenbits)
          rw [hsame]; exact h3
      · rw [if_neg h3]
        obtain ⟨ht2, _, hb2⟩ := hdone2 h3
        exact inv_len_go _ _ _ _ h.sane h.dmax hI2 (div_pow_lt hh2) hb2 hw ht2
    · rw [if_neg h2]
      obtain ⟨ht1, hb1⟩ := hterm (by
        by_contra hc
        exact h2 ((hlink (lookup1 { s with back := 0 } s.lencode s.lenbits) rfl).mpr (by simpa using hc)))
      exact inv_len_go _ _ _ _ h.sane h.dmax hI hh hb1 hw ht1

theorem inv_LIT (s : inflate_stream) (ret : Int) (h : Inv s) (hm : s.mode = .LIT) :
    Inv (case_LIT s ret).st := by
  have hb : s.bits < 8 := we_quiet h.slack (by rw [hm]; rfl)
  have hw := me_LEN h.regs (Or.inr (Or.inr hm))
  unfold case_LIT
  split_ifs
  · exact h
  · exact ⟨h.sane, h.dmax, h.inb, h.hold, Or.inl hb, mi_LEN (Or.inr (Or.inl rfl)) hw⟩

theorem inv_COPY (s : inflate_stream) (ret : Int) (h : Inv s)
    (hm : s.mode = .COPY_ ∨ s.mode = .COPY) : Inv (case_COPY s ret).st := by
  have hb := me_COPY h.regs hm
  have hb8 : s.bits < 8 := by omega
  unfold case_COPY
  dsimp only
  split_ifs
  · exact ⟨h.sane, h.dmax, h.inb, h.hold, Or.inl hb8, mi_COPY (Or.inr rfl) hb⟩
  · exact ⟨h.sane, h.dmax, bytes_drop h.inb _, h.hold, Or.inl hb8, mi_COPY (Or.inr rfl) hb⟩
  · exact ⟨h.sane, h.dmax, h.inb, h.hold, Or.inl hb8, mode_inv_plain rfl⟩

theorem wm_STORED {t : inflate_stream} (hm : t.mode = .STORED)
    (h : t.bits - t.bits % 8 < 32) : wants_more t := by
  unfold wants_more; rw [hm]; exact h

theorem inv_STORED (flush : Int) (s : inflate_stream) (ret : Int) (h : Inv s)
    (hm : s.mode = .STORED) : Inv (case_STORED flush s ret).st := by
  obtain ⟨k, hp, hstop, hmin⟩ := NEEDBITS_spec 32 (BYTEBITS s)
  have hh0 : (BYTEBITS s).hold < 2 ^ (BYTEBITS s).bits := div_pow_lt h.hold
  have hh := pulled_hold hp h.inb hh0
  have hI := pulled_bytes hp h.inb
  unfold case_STORED
  dsimp only
  split_ifs with h1 h2 h3
  · exact ⟨h.sane, h.dmax, hI, hh,
      Or.inr (wm_STORED hm (by
        show (NEEDBITS 32 (BYTEBITS s)).bits - (NEEDBITS 32 (BYTEBITS s)).bits % 8 < 32
        omega)), plain_of_eq hm rfl⟩
  · exact ⟨h.sane, h.dmax, hI, hh, Or.inr (wants_final rfl), mode_inv_plain rfl⟩
  · exact ⟨h.sane, h.dmax, hI, Nat.two_pow_pos 0, Or.inl (by decide : 0 < 8),
      mi_COPY (Or.inl rfl) rfl⟩
  · apply inv_COPY _ _ _ (Or.inl rfl)
    exact ⟨h.sane, h.dmax, hI, Nat.two_pow_pos 0, Or.inl (by decide : 0 < 8),
      mi_COPY (Or.inl rfl) rfl⟩

theorem inv_TYPE (flush : Int) (s : inflate_stream) (ret : Int) (h : Inv s)
    (hm : s.mode = .TYPE) : Inv (case_TYPE flush s ret).st := by
  unfold case_TYPE
  split_ifs
  · exact h
  · exact inv_TYPEDO _ _ _ h (Or.inr hm)

theorem bytes_unread {inp : List Nat} (h : bytes inp) (cin len : Nat) :
    bytes (fast_unread inp cin len) := by
  unfold fast_unread
  split_ifs
  · exact bytes_drop h _
  · intro b hb
    rcases List.mem_append.mp hb with hb | hb
    · rw [List.eq_of_mem_replicate hb]; decide
    · exact h b hb

theorem inv_fast {fuel : Nat} {s s1 : inflate_stream} {start : Nat} (h : Inv s)
    (hm : s.mode = .LEN) (hf : inflate_fast fuel s start = some s1) :
    Inv s1 ∧ s1.bits < 8 := by
  have hw := me_LEN h.regs (Or.inr (Or.inl hm))
  unfold inflate_fast at hf
  dsimp only at hf
  split at hf
  · cases hf
  · rename_i r hr
    cases hf
    have hb : ∀ b : Nat, b - b / 8 * 8 < 8 := fun b => by omega
    cases r with
    | test l =>
      exact ⟨⟨h.sane, h.dmax, bytes_unread h.inb _ _, pow_mod_lt _ _, Or.inl (hb _),
        mi_LEN (Or.inr (Or.inl hm)) hw⟩, hb _⟩
    | brk l m msg =>
      refine ⟨⟨h.sane, h.dmax, bytes_unread h.inb _ _, pow_mod_lt _ _, Or.inl (hb _), ?_⟩, hb _⟩
      rcases fast_loop_brk _ _ _ _ _ _ _ _ _ _ _ hr with hm2 | hm2 <;> subst hm2 <;>
        exact mode_inv_plain rfl

theorem inv_LEN {fuel out : Nat} {s : inflate_stream} {ret : Int} {o : outcome} (h : Inv s)
    (hm : s.mode = .LEN_ ∨ s.mode = .LEN) (hc : case_LEN fuel out s ret = some o) : Inv o.st := by
  have hw := me_LEN h.regs (by rcases hm with hm | hm; exact Or.inl hm; exact Or.inr (Or.inl hm))
  have h' : Inv { s with mode := .LEN } :=
    ⟨h.sane, h.dmax, h.inb, h.hold, by
      rcases we_LEN h.slack hm with h1 | h1
      · exact Or.inl h1
      · exact Or.inr (wm_LEN (Or.inr rfl) h1), mi_LEN (Or.inr (Or.inl rfl)) hw⟩
  unfold case_LEN at hc
  dsimp only at hc
  split_ifs at hc
  · split at hc
    · cases hc
    · rename_i s1 hf
      cases hc
      obtain ⟨hi, hb⟩ := inv_fast h' rfl hf
      show Inv (if s1.mode = .TYPE then { s1 with back := -1 } else s1)
      split_ifs with ht
      · exact ⟨hi.sane, hi.dmax, hi.inb, hi.hold, Or.inl hb, plain_of_eq ht rfl⟩
      · exact hi
  · cases hc
    exact inv_LEN_slow _ _ _ h' rfl

theorem store_prefix_length (codes : List code) (pos : Nat) :
    (codes.take pos ++ List.replicate (pos - codes.length) default).length = pos := by
  rw [List.length_append, List.length_take, List.length_replicate]; omega

theorem store_get_at (codes : List code) (pos : Nat) (src : List code) {i : Nat}
    (hi : i < src.length) :
    (store_codes codes pos src).getD (pos + i) default = src.getD i default := by
  unfold store_codes
  rw [List.append_assoc, List.getD_append_right _ _ _ _ (by rw [store_prefix_length]; omega),
    store_prefix_length, Nat.add_sub_cancel_left, List.getD_append _ _ _ _ hi]

theorem store_get_before (codes : List code) (pos : Nat) (src : List code) {i : Nat}
    (hi : i < pos) (hp : pos ≤ codes.length) :
    (store_codes codes pos src).getD i default = codes.getD i default := by
  unfold store_codes
  have h1 : i < (codes.take pos).length := by rw [List.length_take]; omega
  rw [List.append_assoc, List.append_assoc, List.getD_append _ _ _ _ h1,
    List.getD_eq_getElem _ _ h1, List.getD_eq_getElem _ _ (by omega), List.getElem_take]

theorem store_length (codes : List code) (pos : Nat) (src : List code) :
    pos + src.length ≤ (store_codes codes pos src).length := by
  unfold store_codes
  rw [List.length_append, List.length_append, store_prefix_length]; omega

theorem stride_index_lt {i b span k : Nat} (hb : b ≤ span) (hk : k < 2 ^ (span - b)) :
    i % 2 ^ b + k * 2 ^ b < 2 ^ span := by
  have h1 : i % 2 ^ b < 2 ^ b := pow_mod_lt _ _
  have h2 : (k + 1) * 2 ^ b ≤ 2 ^ (span - b) * 2 ^ b := Nat.mul_le_mul_right _ hk
  rw [← pow_add, Nat.sub_add_cancel hb] at h2
  rw [Nat.add_mul] at h2; omega

theorem term_ok_congr {term : code → Bool} {T T' : Nat → code} {base span i n : Nat}
    (h : term_ok term T base span i = true) (hi : i < 2 ^ span) (hn : base + 2 ^ span ≤ n)
    (heq : ∀ x, x < n → T' x = T x) : term_ok term T' base span i = true := by
  obtain ⟨h1, h2, h3, h4⟩ := term_ok_iff.mp h
  have e0 : T' (base + i) = T (base + i) := heq _ (by omega)
  refine term_ok_iff.mpr ⟨by rw [e0]; exact h1, by rw [e0]; exact h2, by rw [e0]; exact h3, ?_⟩
  unfold stride_ok at h4 ⊢
  rw [List.all_eq_true] at h4 ⊢
  intro k hk
  rw [e0] at hk ⊢
  have := h4 k hk
  rw [heq _ (by
    have := stride_index_lt (i := i) h3 (List.mem_range.mp hk)
    omega)]
  exact this

theorem wf_table_congr {term : code → Bool} {T T' : Nat → code} {root n : Nat}
    (h : wf_table term T root = true) (hn : 2 ^ root ≤ n) (hl : links_inside T root n)
    (heq : ∀ x, x < n → T' x = T x) : wf_table term T' root = true := by
  obtain ⟨hr, h2⟩ := wf_table_iff.mp h
  refine wf_table_iff.mpr ⟨hr, fun i hi => ?_⟩
  have e0 : T' i = T i := heq _ (by omega)
  obtain ⟨ha, hb⟩ := h2 i hi
  rw [e0]
  constructor
  · intro hlk
    obtain ⟨a1, a2, a3⟩ := ha hlk
    refine ⟨a1, a2, fun j hj => ?_⟩
    have hin := hl i hi hlk
    obtain ⟨b1, b2⟩ := a3 j hj
    rw [heq _ (by omega)]
    exact ⟨b1, term_ok_congr b2 hj hin heq⟩
  · intro hlk
    exact term_ok_congr (hb hlk) hi (by omega) heq

theorem wm_CODELENS {t : inflate_stream} (hm : t.mode = .CODELENS)
    (h : t.have_ < t.nlen + t.ndist ∧
      (wants1 t t.lencode t.lenbits ∨
        (16 ≤ (here1 t t.lencode t.lenbits).val ∧
          t.bits < (here1 t t.lencode t.lenbits).bits +
            rep_extra (here1 t t.lencode t.lenbits).val))) : wants_more t := by
  unfold wants_more; rw [hm]; exact h

theorem we_CODELENS {t : inflate_stream} (h : t.bits < 8 ∨ wants_more t)
    (hm : t.mode = .CODELENS) :
    t.bits < 8 ∨ (t.have_ < t.nlen + t.ndist ∧
      (wants1 t t.lencode t.lenbits ∨
        (16 ≤ (here1 t t.lencode t.lenbits).val ∧
          t.bits < (here1 t t.lencode t.lenbits).bits +
            rep_extra (here1 t t.lencode t.lenbits).val))) := by
  rcases h with h | h
  · exact Or.inl h
  · unfold wants_more at h; rw [hm] at h; exact Or.inr h

theorem wf_codes_stable {s : inflate_stream} (h : wf_codes s) {i : Nat}
    (hi : i < 2 ^ s.lenbits) :
    (s.tab s.lencode i).bits ≤ s.lenbits ∧ stable (s.tab s.lencode) 0 s.lenbits i := by
  have := term_ok_iff.mp (h i hi)
  simp only [Nat.zero_add] at this
  refine ⟨this.2.2.1, fun j hj hji => ?_⟩
  exact stride_lookup this.2.2.2 (by simpa using this.2.2.1) hj hji

theorem inv_codelens_body (s : inflate_stream) (h : Inv s) (hm : s.mode = .CODELENS)
    (hlt : s.have_ < s.nlen + s.ndist) :
    Inv (codelens_body s).1 ∧
    ((codelens_body s).2 = .go →
      ((codelens_body s).1.bits < 8 ∧ (codelens_body s).1.mode = .CODELENS) ∧
      s.have_ < (codelens_body s).1.have_ ∧
      (codelens_body s).1.nlen + (codelens_body s).1.ndist = s.nlen + s.ndist) ∧
    ((codelens_body s).2 = .brk → (codelens_body s).1.mode = .BAD) := by
  have hw := me_CODELENS h.regs hm
  have hsl := we_CODELENS h.slack hm
  obtain ⟨k, hp, hstop, hmin⟩ := lookup1_spec s s.lencode s.lenbits
    (fun i hi => wf_codes_stable hw hi)
  have hh := pulled_hold hp h.inb h.hold
  have hI := pulled_bytes hp h.inb
  have hhere : here1 (lookup1 s s.lencode s.lenbits) s.lencode s.lenbits =
      s.tab s.lencode ((lookup1 s s.lencode s.lenbits).hold % 2 ^ s.lenbits) := rfl
  -- when nothing was pulled, the entry is the one the slack talks about
  have hk0 : k = 0 → here1 s s.lencode s.lenbits =
      here1 (lookup1 s s.lencode s.lenbits) s.lencode s.lenbits ∧
      (lookup1 s s.lencode s.lenbits).bits = s.bits := by
    intro hk; subst hk
    obtain ⟨e1, e2⟩ := pulled_zero hp
    refine ⟨?_, e2⟩
    rw [hhere]; show s.tab s.lencode (s.hold % 2 ^ s.lenbits) = _; rw [e1]
  unfold codelens_body
  dsimp only
  by_cases h1 : (lookup1 s s.lencode s.lenbits).bits <
      (here1 (lookup1 s s.lencode s.lenbits) s.lencode s.lenbits).bits
  · rw [if_pos h1]
    exact ⟨⟨h.sane, h.dmax, hI, hh, Or.inr (wm_CODELENS hm ⟨hlt, Or.inl h1⟩),
      mi_CODELENS hm hw⟩, fun e => (by cases e), fun e => (by cases e)⟩
  · rw [if_neg h1]
    by_cases h2 : (here1 (lookup1 s s.lencode s.lenbits) s.lencode s.lenbits).val < 16
    · rw [if_pos h2]
      have hb : (lookup1 s s.lencode s.lenbits).bits -
          (here1 (lookup1 s s.lencode s.lenbits) s.lencode s.lenbits).bits < 8 := by
        rcases hmin with h0 | h0
        · obtain ⟨e1, e2⟩ := hk0 h0
          rcases hsl with h3 | ⟨_, h3 | h3⟩
          · omega
          · unfold wants1 at h3; rw [e1] at h3; omega
          · rw [e1] at h3; omega
        · omega
      exact ⟨⟨h.sane, h.dmax, hI, div_pow_lt hh, Or.inl hb, mi_CODELENS hm hw⟩,
        fun _ => ⟨⟨hb, hm⟩, Nat.lt_succ_self _, rfl⟩, fun e => (by cases e)⟩
    · rw [if_neg h2]
      obtain ⟨k2, hp2, hstop2, hmin2⟩ := NEEDBITS_spec
        ((here1 (lookup1 s s.lencode s.lenbits) s.lencode s.lenbits).bits +
          rep_extra (here1 (lookup1 s s.lencode s.lenbits) s.lencode s.lenbits).val)
        (lookup1 s s.lencode s.lenbits)
      have hh2 := pulled_hold hp2 hI hh
      have hI2 := pulled_bytes hp2 hI
      by_cases h3 : (NEEDBITS ((here1 (lookup1 s s.lencode s.lenbits) s.lencode s.lenbits).bits +
          rep_extra (here1 (lookup1 s s.lencode s.lenbits) s.lencode s.lenbits).val)
          (lookup1 s s.lencode s.lenbits)).bits <
          (here1 (lookup1 s s.lencode s.lenbits) s.lencode s.lenbits).bits +
          rep_extra (here1 (lookup1 s s.lencode s.lenbits) s.lencode s.lenbits).val
      · rw [if_pos h3]
        have hsame : here1 (NEEDBITS
            ((here1 (lookup1 s s.lencode s.lenbits) s.lencode s.lenbits).bits +
              rep_extra (here1 (lookup1 s s.lencode s.lenbits) s.lencode s.lenbits).val)
            (lookup1 s s.lencode s.lenbits)) s.lencode s.lenbits =
            here1 (lookup1 s s.lencode s.lenbits) s.lencode s.lenbits := by
          obtain ⟨hle, hst⟩ := wf_codes_stable hw
            (pow_mod_lt (lookup1 s s.lencode s.lenbits).hold s.lenbits)
          rw [← hhere] at hle
          have := hst ((NEEDBITS
            ((here1 (lookup1 s s.lencode s.lenbits) s.lencode s.lenbits).bits +
              rep_extra (here1 (lookup1 s s.lencode s.lenbits) s.lencode s.lenbits).val)
            (lookup1 s s.lencode s.lenbits)).hold % 2 ^ s.lenbits) (pow_mod_lt _ _) (by
              simp only [Nat.zero_add]
              rw [← hhere, mod_pow_of_le _ hle, mod_pow_of_le _ hle,
                pulled_mod hp2 (not_lt.mp h1)])
          simp only [Nat.zero_add] at this
          exact this
        refine ⟨⟨h.sane, h.dmax, hI2, hh2, Or.inr (wm_CODELENS hm ⟨hlt, Or.inr ?_⟩),
          mi_CODELENS hm hw⟩, fun e => (by cases e), fun e => (by cases e)⟩
        show 16 ≤ (here1 (NEEDBITS _ _) s.lencode s.lenbits).val ∧
          (NEEDBITS _ _).bits < (here1 (NEEDBITS _ _) s.lencode s.lenbits).bits +
            rep_extra (here1 (NEEDBITS _ _) s.lencode s.lenbits).val
        rw [hsame]
        exact ⟨not_lt.mp h2, h3⟩
      · rw [if_neg h3]
        have hb : (NEEDBITS ((here1 (lookup1 s s.lencode s.lenbits) s.lencode s.lenbits).bits +
            rep_extra (here1 (lookup1 s s.lencode s.lenbits) s.lencode s.lenbits).val)
            (lookup1 s s.lencode s.lenbits)).bits -
            (here1 (lookup1 s s.lencode s.lenbits) s.lencode s.lenbits).bits -
            rep_extra (here1 (lookup1 s s.lencode s.lenbits) s.lencode s.lenbits).val < 8 := by
          rcases hmin2 with h0 | h0
          · rcases hmin with h4 | h4
            · obtain ⟨e1, e2⟩ := hk0 h4
              rcases hsl with h5 | ⟨_, h5 | h5⟩
              · omega
              · unfold wants1 at h5; rw [e1] at h5; omega
              · rw [e1] at h5; omega
            · omega
          · omega
        split_ifs
        · exact ⟨⟨h.sane, h.dmax, hI2, div_pow_lt hh2, Or.inr (wants_final rfl),
            mode_inv_plain rfl⟩, fun e => (by cases e), fun _ => rfl⟩
        · exact ⟨⟨h.sane, h.dmax, hI2, div_pow_lt (div_pow_lt hh2), Or.inr (wants_final rfl),
            mode_inv_plain rfl⟩, fun e => (by cases e), fun _ => rfl⟩
        · refine ⟨⟨h.sane, h.dmax, hI2, div_pow_lt (div_pow_lt hh2), Or.inl hb,
            mi_CODELENS hm hw⟩, fun _ => ⟨⟨hb, hm⟩, ?_, rfl⟩, fun e => (by cases e)⟩
          have : 3 ≤ rep_base (here1 (lookup1 s s.lencode s.lenbits) s.lencode s.lenbits).val := by
            unfold rep_base; split_ifs <;> decide
          show s.have_ < s.have_ + (rep_base _ + _)
          omega

theorem inv_codelens_loop (k : Nat) :
    ∀ s : inflate_stream, Inv s → s.mode = .CODELENS → s.nlen + s.ndist - s.have_ ≤ k →
      Inv (codelens_loop k s).1 ∧
      ((codelens_loop k s).2 = .go → (codelens_loop k s).1.bits < 8 ∧
        (codelens_loop k s).1.mode = .CODELENS) ∧
      ((codelens_loop k s).2 = .brk → (codelens_loop k s).1.mode = .BAD) := by
  induction k with
  | zero =>
    intro s h hm hk
    refine ⟨h, fun _ => ⟨?_, hm⟩, fun e => (by cases e)⟩
    rcases we_CODELENS h.slack hm with h1 | h1
    · exact h1
    · have := h1.1; omega
  | succ n ih =>
    intro s h hm hk
    unfold codelens_loop
    by_cases hlt : s.have_ < s.nlen + s.ndist
    · rw [if_pos hlt]
      obtain ⟨b1, b2, b3⟩ := inv_codelens_body s h hm hlt
      rcases hcb : codelens_body s with ⟨s1, e⟩
      rw [hcb] at b1 b2 b3
      cases e
      · obtain ⟨c1, c2, c3⟩ := b2 rfl
        exact ih s1 b1 c1.2 (by
          have c2 : s.have_ < s1.have_ := c2
          have c3 : s1.nlen + s1.ndist = s.nlen + s.ndist := c3
          omega)
      · exact ⟨b1, fun e => (by cases e), fun e => (by cases e)⟩
      · exact ⟨b1, fun e => (by cases e), b3⟩
    · rw [if_neg hlt]
      refine ⟨h, fun _ => ⟨?_, hm⟩, fun e => (by cases e)⟩
      rcases we_CODELENS h.slack hm with h1 | h1
      · exact h1
      · exact absurd h1.1 hlt

theorem wm_LENLENS {t : inflate_stream} (hm : t.mode = .LENLENS)
    (h : t.have_ < t.ncode ∧ t.bits < 3) : wants_more t := by
  unfold wants_more; rw [hm]; exact h

theorem we_LENLENS {t : inflate_stream} (h : t.bits < 8 ∨ wants_more t)
    (hm : t.mode = .LENLENS) : t.bits < 8 ∨ (t.have_ < t.ncode ∧ t.bits < 3) := by
  rcases h with h | h
  · exact Or.inl h
  · unfold wants_more at h; rw [hm] at h; exact Or.inr h

theorem inv_lenlens_read (k : Nat) :
    ∀ s : inflate_stream, Inv s → s.mode = .LENLENS → s.ncode - s.have_ ≤ k →
      Inv (lenlens_read k s).1 ∧ (lenlens_read k s).1.mode = .LENLENS ∧
      ((lenlens_read k s).2 = true → (lenlens_read k s).1.bits < 8) := by
  induction k with
  | zero =>
    intro s h hm hk
    refine ⟨h, hm, fun _ => ?_⟩
    rcases we_LENLENS h.slack hm with h1 | h1
    · exact h1
    · have := h1.1; omega
  | succ n ih =>
    intro s h hm hk
    have hsl := we_LENLENS h.slack hm
    unfold lenlens_read
    dsimp only
    by_cases hlt : s.have_ < s.ncode
    · rw [if_pos hlt]
      obtain ⟨k, hp, hstop, hmin⟩ := NEEDBITS_spec 3 s
      have hh := pulled_hold hp h.inb h.hold
      have hI := pulled_bytes hp h.inb
      by_cases h2 : (NEEDBITS 3 s).bits < 3
      · rw [if_pos h2]
        exact ⟨⟨h.sane, h.dmax, hI, hh, Or.inr (wm_LENLENS hm ⟨hlt, h2⟩), plain_of_eq hm rfl⟩,
          hm, fun e => (by cases e)⟩
      · rw [if_neg h2]
        apply ih
        · exact ⟨h.sane, h.dmax, hI, div_pow_lt hh,
            Or.inl (by omega : (NEEDBITS 3 s).bits - 3 < 8), plain_of_eq hm rfl⟩
        · exact hm
        · show s.ncode - (s.have_ + 1) ≤ n
          omega
    · rw [if_neg hlt]
      refine ⟨h, hm, fun _ => ?_⟩
      rcases hsl with h1 | h1
      · exact h1
      · exact absurd h1.1 hlt

theorem lenlens_zero_frame (k : Nat) :
    ∀ s : inflate_stream, (lenlens_zero k s).sane = s.sane ∧ (lenlens_zero k s).dmax = s.dmax ∧
      (lenlens_zero k s).next_in = s.next_in ∧ (lenlens_zero k s).hold = s.hold ∧
      (lenlens_zero k s).bits = s.bits ∧ (lenlens_zero k s).codes = s.codes := by
  induction k with
  | zero => intro s; exact ⟨rfl, rfl, rfl, rfl, rfl, rfl⟩
  | succ n ih =>
    intro s
    unfold lenlens_zero
    split_ifs
    · exact ih _
    · exact ⟨rfl, rfl, rfl, rfl, rfl, rfl⟩

theorem wm_TABLE {t : inflate_stream} (hm : t.mode = .TABLE) (h : t.bits < 14) :
    wants_more t := by
  unfold wants_more; rw [hm]; exact h

theorem we_TABLE {t : inflate_stream} (h : t.bits < 8 ∨ wants_more t)
    (hm : t.mode = .TABLE) : t.bits < 14 := by
  rcases h with h | h
  · omega
  · unfold wants_more at h; rw [hm] at h; exact h

theorem emits_refl (s : inflate_stream) : emits s s := ⟨[], by simp, by simp⟩

theorem emits_same {s t : inflate_stream} (h1 : t.next_out = s.next_out)
    (h2 : t.avail_out = s.avail_out) : emits s t := ⟨[], by simp [h1], by simp [h2]⟩

theorem emits_trans {s t u : inflate_stream} (h1 : emits s t) (h2 : emits t u) : emits s u := by
  obtain ⟨W1, a1, a2⟩ := h1
  obtain ⟨W2, b1, b2⟩ := h2
  exact ⟨W1 ++ W2, by rw [b1, a1, List.append_assoc], by rw [List.length_append]; omega⟩

theorem acct_emits {out b0 : Nat} {s t : inflate_stream} (h : acct out b0 s) (he : emits s t) :
    acct out b0 t := by
  obtain ⟨W, a1, a2⟩ := he
  obtain ⟨h1, h2, h3⟩ := h
  refine ⟨by rw [a1, List.length_append]; omega, ?_, h3⟩
  rw [a1, List.length_append]; omega

theorem acct_usub {out b0 : Nat} {s : inflate_stream} (h : acct out b0 s) :
    usub out s.avail_out = s.next_out.length - b0 := by
  obtain ⟨h1, h2, h3⟩ := h
  rw [usub_of_le (by omega) h3]; omega

theorem out_copy_spec (d : Nat) : ∀ (n : Nat) (out : List Nat),
    ∃ W, out_copy d n out = out ++ W ∧ W.length = n := by
  intro n
  induction n with
  | zero => intro out; exact ⟨[], by simp [out_copy], rfl⟩
  | succ n ih =>
    intro out
    obtain ⟨W, h1, h2⟩ := ih (out ++ [out.getD (out.length - d) 0])
    refine ⟨out.getD (out.length - d) 0 :: W, ?_, by simp [h2]⟩
    rw [out_copy, h1]; simp

theorem wread_length (w : List Nat) (idx n : Nat) : (wread w idx n).length = n := by
  simp [wread]

theorem emits_MATCH (out : Nat) (s : inflate_stream) (ret : Int) (hl : 1 ≤ s.length) :
    emits s (case_MATCH out s ret).st := by
  have key : ∀ n W, 1 ≤ n → n ≤ s.avail_out → W.length = dowhile_count n →
      emits s (match_emit s n (s.next_out ++ W)) := by
    intro n W h1 h2 h3
    have : dowhile_count n = n := by unfold dowhile_count; rw [if_neg (by omega)]
    rw [this] at h3
    unfold match_emit
    dsimp only
    split_ifs
    · exact ⟨W, rfl, by show s.avail_out - n + W.length = s.avail_out; omega⟩
    · exact ⟨W, rfl, by show s.avail_out - n + W.length = s.avail_out; omega⟩
  unfold case_MATCH
  dsimp only
  by_cases h0 : s.avail_out = 0
  · rw [if_pos h0]; exact emits_refl _
  · rw [if_neg h0]
    by_cases h1 : s.offset > usub out s.avail_out
    · rw [if_pos h1]
      by_cases h2 : s.offset - usub out s.avail_out > s.whave ∧ s.sane ≠ 0
      · rw [if_pos h2]; exact emits_same rfl rfl
      · rw [if_neg h2]
        apply key
        · unfold match_wcount; split_ifs <;> omega
        · unfold match_wcount; omega
        · exact wread_length _ _ _
    · rw [if_neg h1]
      obtain ⟨W, e1, e2⟩ := out_copy_spec s.offset (dowhile_count (min s.length s.avail_out))
        s.next_out
      rw [e1]
      exact key _ _ (by omega) (by omega) e2

theorem emits_of_eq {s t u : inflate_stream} (h : emits t u) (h1 : t.next_out = s.next_out)
    (h2 : t.avail_out = s.avail_out) : emits s u := by
  obtain ⟨W, a1, a2⟩ := h
  exact ⟨W, by rw [a1, h1], by rw [a2, h2]⟩

theorem acct_of_eq {out b0 : Nat} {s t : inflate_stream} (h : acct out b0 s)
    (h1 : t.next_out = s.next_out) (h2 : t.avail_out = s.avail_out) : acct out b0 t := by
  unfold acct at h ⊢; rw [h1, h2]; exact h

theorem emits_DISTEXT (out : Nat) (s : inflate_stream) (ret : Int) (hl : 1 ≤ s.length) :
    emits s (case_DISTEXT out s ret).st := by
  unfold case_DISTEXT
  dsimp only
  split_ifs
  · exact emits_refl _
  · exact emits_of_eq (emits_MATCH _ _ _ hl) rfl rfl
  · exact emits_of_eq (emits_MATCH _ _ _ hl) rfl rfl

theorem emits_dist_go (out : Nat) (s : inflate_stream) (here : code) (ret : Int)
    (hl : 1 ≤ s.length) : emits s (dist_go out s here ret).st := by
  unfold dist_go
  dsimp only
  split_ifs
  · exact emits_same rfl rfl
  · exact emits_of_eq (emits_DISTEXT _ _ _ hl) rfl rfl

theorem emits_DIST (out : Nat) (s : inflate_stream) (ret : Int) (hl : 1 ≤ s.length) :
    emits s (case_DIST out s ret).st := by
  unfold case_DIST
  dsimp only
  split_ifs
  · exact emits_same rfl rfl
  · exact emits_same rfl rfl
  · exact emits_of_eq (emits_dist_go _ _ _ _ hl) rfl rfl
  · exact emits_of_eq (emits_dist_go _ _ _ _ hl) rfl rfl

theorem emits_LENEXT (out : Nat) (s : inflate_stream) (ret : Int) (hl : 1 ≤ s.length) :
    emits s (case_LENEXT out s ret).st := by
  unfold case_LENEXT
  dsimp only
  split_ifs
  · exact emits_same rfl rfl
  · exact emits_of_eq (emits_DIST _ _ _
      (Nat.le_add_right_of_le hl : 1 ≤ s.length + BITS s.extra (NEEDBITS s.extra s))) rfl rfl
  · exact emits_of_eq (emits_DIST _ _ _ hl) rfl rfl

theorem emits_len_go (out : Nat) (s : inflate_stream) (here : code) (ret : Int)
    (hterm : len_term here = true) : emits s (len_go out s here ret).st := by
  unfold len_go
  dsimp only
  by_cases h0 : here.op = 0
  · rw [if_pos h0]; exact emits_same rfl rfl
  · rw [if_neg h0]
    by_cases h32 : here.op &&& 32 ≠ 0
    · rw [if_pos h32]; exact emits_same rfl rfl
    · rw [if_neg h32]
      by_cases h64 : here.op &&& 64 ≠ 0
      · rw [if_pos h64]; exact emits_same rfl rfl
      · rw [if_neg h64]
        obtain ⟨_, h2, _⟩ := len_base hterm h0 (not_not.mp h64)
        exact emits_of_eq (emits_LENEXT _ _ _ (by omega : 1 ≤ here.val)) rfl rfl

theorem emits_LEN_slow (out : Nat) (s : inflate_stream) (ret : Int) (hw : wf_len s) :
    emits s (case_LEN_slow out s ret).st := by
  have hwd : wf_table len_term (s.tab s.lencode) s.lenbits = true := hw
  unfold case_LEN_slow
  dsimp only
  have hi := pow_mod_lt (lookup1 { s with back := 0 } s.lencode s.lenbits).hold s.lenbits
  split_ifs with h1 h2
  · exact emits_same rfl rfl
  · exact emits_same rfl rfl
  · have hl := (len_link_iff hwd hi).mp h2
    have hi2 : (lookup2 (lookup1 { s with back := 0 } s.lencode s.lenbits) s.lencode
        (here1 (lookup1 { s with back := 0 } s.lencode s.lenbits) s.lencode s.lenbits)).hold %
        2 ^ ((here1 (lookup1 { s with back := 0 } s.lencode s.lenbits) s.lencode s.lenbits).bits +
          (here1 (lookup1 { s with back := 0 } s.lencode s.lenbits) s.lencode s.lenbits).op) /
        2 ^ (here1 (lookup1 { s with back := 0 } s.lencode s.lenbits) s.lencode s.lenbits).bits <
        2 ^ (here1 (lookup1 { s with back := 0 } s.lencode s.lenbits) s.lencode s.lenbits).op := by
      rw [pow_add, Nat.mod_mul_right_div_self]; exact pow_mod_lt _ _
    have := wf_second hwd hi hl hi2
    exact emits_of_eq (emits_len_go _ _ _ _ this.2.2.2.1) rfl rfl
  · have : is_link (s.tab s.lencode ((lookup1 { s with back := 0 } s.lencode s.lenbits).hold %
        2 ^ s.lenbits)).op = false := by
      by_contra hc
      exact h2 ((len_link_iff hwd hi).mpr (by simpa using hc))
    exact emits_of_eq (emits_len_go _ _ _ _ (wf_term hwd hi this)) rfl rfl

theorem emits_LIT (s : inflate_stream) (ret : Int) : emits s (case_LIT s ret).st := by
  unfold case_LIT
  split_ifs with h
  · exact emits_refl _
  · exact ⟨[s.length % 256], rfl, by
      show s.avail_out - 1 + 1 = s.avail_out
      omega⟩

theorem emits_COPY (s : inflate_stream) (ret : Int) : emits s (case_COPY s ret).st := by
  unfold case_COPY
  dsimp only
  split_ifs with h1 h2
  · exact emits_same rfl rfl
  · refine ⟨s.next_in.take (min (min s.length s.avail_in) s.avail_out), rfl, ?_⟩
    show s.avail_out - min (min s.length s.avail_in) s.avail_out + _ = s.avail_out
    rw [List.length_take]
    unfold inflate_stream.avail_in
    omega
  · exact emits_same rfl rfl

theorem emits_STORED (flush : Int) (s : inflate_stream) (ret : Int) :
    emits s (case_STORED flush s ret).st := by
  unfold case_STORED
  dsimp only
  split_ifs
  · exact emits_same rfl rfl
  · exact emits_same rfl rfl
  · exact emits_same rfl rfl
  · exact emits_of_eq (emits_COPY _ _) rfl rfl

theorem emits_TYPEDO (flush : Int) (s : inflate_stream) (ret : Int) :
    emits s (case_TYPEDO flush s ret).st := by
  unfold case_TYPEDO
  dsimp only
  split_ifs <;> first | exact emits_same rfl rfl | (split <;> exact emits_same rfl rfl)

theorem emits_TYPE (flush : Int) (s : inflate_stream) (ret : Int) :
    emits s (case_TYPE flush s ret).st := by
  unfold case_TYPE
  split_ifs
  · exact emits_refl _
  · exact emits_TYPEDO _ _ _

theorem fast_window_copy_spec (w : List Nat) (wsize wnext : Nat) (out : List Nat)
    (op len dist : Nat) :
    ∃ W, fast_window_copy w wsize wnext out op len dist = out ++ W ∧ W.length = len := by
  unfold fast_window_copy
  dsimp only
  split_ifs with h1 h2 h3 h4 h5 h6
  · obtain ⟨W, e1, e2⟩ := out_copy_spec dist (len - op) (out ++ wread w (usub wsize op) op)
    exact ⟨wread w (usub wsize op) op ++ W, by rw [e1, List.append_assoc], by
      rw [List.length_append, wread_length, e2]; omega⟩
  · exact ⟨_, rfl, wread_length _ _ _⟩
  · obtain ⟨W, e1, e2⟩ := out_copy_spec dist (len - (op - wnext) - wnext)
      (out ++ wread w (usub (wsize + wnext) op) (op - wnext) ++ wread w 0 wnext)
    exact ⟨wread w (usub (wsize + wnext) op) (op - wnext) ++ wread w 0 wnext ++ W, by
      rw [e1]; simp [List.append_assoc], by
      rw [List.length_append, List.length_append, wread_length, wread_length, e2]; omega⟩
  · exact ⟨wread w (usub (wsize + wnext) op) (op - wnext) ++ wread w 0 (len - (op - wnext)), by
      simp [List.append_assoc], by
      rw [List.length_append, wread_length, wread_length]; omega⟩
  · exact ⟨_, rfl, wread_length _ _ _⟩
  · obtain ⟨W, e1, e2⟩ := out_copy_spec dist (len - op) (out ++ wread w (wnext - op) op)
    exact ⟨wread w (wnext - op) op ++ W, by rw [e1, List.append_assoc], by
      rw [List.length_append, wread_length, e2]; omega⟩
  · exact ⟨_, rfl, wread_length _ _ _⟩

theorem need1_out (inp : List Nat) (op : Nat) (l : fast_locals) : (l.need1 inp op).out = l.out := by
  unfold fast_locals.need1; split_ifs <;> rfl

theorem need2_out (inp : List Nat) (op : Nat) (l : fast_locals) : (l.need2 inp op).out = l.out := by
  unfold fast_locals.need2; split_ifs
  · exact need1_out _ _ _
  · rfl

theorem refill_out (inp : List Nat) (l : fast_locals) : (l.refill inp).out = l.out := by
  unfold fast_locals.refill; split_ifs <;> rfl

theorem len_extra_out (inp : List Nat) (len op : Nat) (l : fast_locals) :
    (fast_len_extra inp len op l).2.out = l.out := by
  unfold fast_len_extra; split_ifs
  · exact need1_out _ _ _
  · rfl

theorem fast_dodist_term (s : inflate_stream) (inp : List Nat) (beg out0 len : Nat)
    (hlen : 3 ≤ len) (fuel : Nat) (here : code) (l : fast_locals) (r : fast_end)
    (hterm : dist_term here = true)
    (h : fast_dodist s inp beg out0 len (fuel + 1) here l = some r) : fast_grew len len l r := by
  unfold fast_dodist at h
  dsimp only at h
  have hd : fast_direct_count len = len := by unfold fast_direct_count; rw [if_pos hlen]
  have h2 : here.op &&& 16 ≠ 0 ∨ here.op &&& 64 ≠ 0 := by
    simp only [dist_term, Bool.or_eq_true, Bool.and_eq_true, decide_eq_true_eq, beq_iff_eq,
      bne_iff_ne] at hterm
    rcases hterm with h | h
    · left
      rw [((op_facts here.op (by omega)).1 ⟨h.1.1.1, by omega⟩).2.2.2.2]; decide
    · exact Or.inr h.2
  split_ifs at h with c1 c2 c3 c4
  · cases h; exact need2_out _ _ _
  · cases h
    obtain ⟨W, e1, e2⟩ := fast_window_copy_spec (s.window.getD []) s.wsize s.wnext
      ((l.drop here.bits).need2 inp (here.op &&& 15)).out
      (here.val + ((l.drop here.bits).need2 inp (here.op &&& 15)).hold % 2 ^ (here.op &&& 15) -
        (beg + (((l.drop here.bits).need2 inp (here.op &&& 15)).out.length - out0))) len
      (here.val + ((l.drop here.bits).need2 inp (here.op &&& 15)).hold % 2 ^ (here.op &&& 15))
    refine ⟨W, ?_, by omega, by omega⟩
    show fast_window_copy _ _ _ _ _ _ _ = _
    rw [show ((((l.drop here.bits).need2 inp (here.op &&& 15)).drop (here.op &&& 15)).out) =
      ((l.drop here.bits).need2 inp (here.op &&& 15)).out from rfl] at *
    rw [e1, need2_out]; rfl
  · cases h
    obtain ⟨W, e1, e2⟩ := out_copy_spec
      (here.val + ((l.drop here.bits).need2 inp (here.op &&& 15)).hold % 2 ^ (here.op &&& 15))
      (fast_direct_count len) ((l.drop here.bits).need2 inp (here.op &&& 15)).out
    refine ⟨W, ?_, by omega, by omega⟩
    show out_copy _ _ _ = _
    rw [show ((((l.drop here.bits).need2 inp (here.op &&& 15)).drop (here.op &&& 15)).out) =
      ((l.drop here.bits).need2 inp (here.op &&& 15)).out from rfl] at *
    rw [e1, need2_out]; rfl
  · rcases h2 with h2 | h2
    · exact absurd h2 c1
    · exact absurd c4 h2
  · cases h; rfl

theorem fast_grew_of_out {lo hi : Nat} {l l0 : fast_locals} {r : fast_end}
    (h : fast_grew lo hi l r) (e : l.out = l0.out) : fast_grew lo hi l0 r := by
  cases r with
  | test l1 => obtain ⟨W, a, b⟩ := h; exact ⟨W, by rw [a, e], b⟩
  | brk l1 m msg => exact (show l1.out = l.out from h).trans e

theorem fast_dodist_first (s : inflate_stream) (inp : List Nat) (beg out0 len : Nat)
    (hlen : 3 ≤ len) (hw : wf_dist s) (fuel : Nat) (i : Nat) (hi : i < 2 ^ s.distbits)
    (l : fast_locals) (r : fast_end)
    (h : fast_dodist s inp beg out0 len (fuel + 1) (s.tab s.distcode i) l = some r) :
    fast_grew len len l r := by
  have hwd : wf_table dist_term (s.tab s.distcode) s.distbits = true := hw
  by_cases hl : is_link (s.tab s.distcode i).op = true
  · have hop := link_test hl
    have h15 : (s.tab s.distcode i).op ≤ 15 := by
      simp only [is_link, Bool.and_eq_true, decide_eq_true_eq] at hl; exact hl.2
    have hf := (op_facts _ (by omega : (s.tab s.distcode i).op < 256)).2.2 h15
    unfold fast_dodist at h
    dsimp only at h
    rw [if_neg (by rw [hf.2.1]; decide), if_pos hf.2.2.1] at h
    cases fuel with
    | zero => simp [fast_dodist] at h
    | succ fuel =>
      have := wf_second hwd hi hl (pow_mod_lt (l.drop (s.tab s.distcode i).bits).hold
        (s.tab s.distcode i).op)
      exact fast_grew_of_out
        (fast_dodist_term s inp beg out0 len hlen fuel _ _ r this.2.2.2.1 h) rfl
  · exact fast_dodist_term s inp beg out0 len hlen fuel _ l r
      (wf_term hwd hi (by simpa using hl)) h

theorem fast_dolen_term (s : inflate_stream) (inp : List Nat) (beg out0 : Nat)
    (hw : wf_dist s) (fuel : Nat) (here : code) (l : fast_locals) (r : fast_end)
    (hterm : len_term here = true)
    (h : fast_dolen s inp beg out0 (fuel + 1) here l = some r) : fast_grew 1 258 l r := by
  unfold fast_dolen at h
  dsimp only at h
  by_cases c0 : here.op = 0
  · rw [if_pos c0] at h; cases h
    exact ⟨[here.val % 256], rfl, by simp, by simp⟩
  · rw [if_neg c0] at h
    by_cases c1 : here.op &&& 16 ≠ 0
    · rw [if_pos c1] at h
      have hb : here.op &&& 64 = 0 := by
        simp only [len_term, Bool.or_eq_true, Bool.and_eq_true, decide_eq_true_eq, beq_iff_eq,
          bne_iff_ne] at hterm
        rcases hterm with (h1 | h1) | h1
        · exact absurd h1 c0
        · exact ((op_facts here.op (by omega)).1 ⟨h1.1.1.1, by omega⟩).2.2.1
        · exact absurd h1.1.2 c1
      obtain ⟨b1, b2, b3, _⟩ := len_base hterm c0 hb
      have hlen : 3 ≤ (fast_len_extra inp here.val (here.op &&& 15) (l.drop here.bits)).1 ∧
          (fast_len_extra inp here.val (here.op &&& 15) (l.drop here.bits)).1 ≤ 258 := by
        unfold fast_len_extra
        split_ifs
        · have := pow_mod_lt ((l.drop here.bits).need1 inp (here.op &&& 15)).hold
            (here.op &&& 15)
          constructor
          · show 3 ≤ here.val + _; omega
          · show here.val + _ ≤ 258; omega
        · have : 1 ≤ 2 ^ (here.op &&& 15) := Nat.two_pow_pos _
          constructor
          · show 3 ≤ here.val; omega
          · show here.val ≤ 258; omega
      have := fast_dodist_first s inp beg out0 _ hlen.1 hw fuel _
        (pow_mod_lt ((fast_len_extra inp here.val (here.op &&& 15) (l.drop here.bits)).2.refill
          inp).hold s.distbits) _ r h
      have e : ((fast_len_extra inp here.val (here.op &&& 15) (l.drop here.bits)).2.refill
          inp).out = l.out := by rw [refill_out, len_extra_out]; rfl
      cases r with
      | test l1 =>
        obtain ⟨W, a, b, c⟩ := this
        exact ⟨W, by rw [a, e], by omega, by omega⟩
      | brk l1 m msg => exact (show l1.out = _ from this).trans e
    · rw [if_neg c1] at h
      have h64 : here.op &&& 64 ≠ 0 := by
        simp only [len_term, Bool.or_eq_true, Bool.and_eq_true, decide_eq_true_eq, beq_iff_eq,
          bne_iff_ne] at hterm
        rcases hterm with (h1 | h1) | h1
        · exact absurd h1 c0
        · exact absurd (by
            rw [((op_facts here.op (by omega)).1 ⟨h1.1.1.1, by omega⟩).2.2.2.2]; decide) c1
        · exact h1.2
      rw [if_neg h64] at h
      split_ifs at h <;> cases h <;> rfl

theorem fast_dolen_first (s : inflate_stream) (inp : List Nat) (beg out0 : Nat)
    (hwl : wf_len s) (hw : wf_dist s) (fuel : Nat) (i : Nat) (hi : i < 2 ^ s.lenbits)
    (l : fast_locals) (r : fast_end)
    (h : fast_dolen s inp beg out0 (fuel + 1) (s.tab s.lencode i) l = some r) :
    fast_grew 1 258 l r := by
  have hwd : wf_table len_term (s.tab s.lencode) s.lenbits = true := hwl
  by_cases hl : is_link (s.tab s.lencode i).op = true
  · have hop := link_test hl
    have h15 : (s.tab s.lencode i).op ≤ 15 := by
      simp only [is_link, Bool.and_eq_true, decide_eq_true_eq] at hl; exact hl.2
    have hf := (op_facts _ (by omega : (s.tab s.lencode i).op < 256)).2.2 h15
    unfold fast_dolen at h
    dsimp only at h
    rw [if_neg hop.1, if_neg (by rw [hf.2.1]; decide), if_pos hf.2.2.1] at h
    cases fuel with
    | zero => simp [fast_dolen] at h
    | succ fuel =>
      have := wf_second hwd hi hl (pow_mod_lt (l.drop (s.tab s.lencode i).bits).hold
        (s.tab s.lencode i).op)
      exact fast_grew_of_out
        (fast_dolen_term s inp beg out0 hw fuel _ _ r this.2.2.2.1 h) rfl
  · exact fast_dolen_term s inp beg out0 hw fuel _ l r
      (wf_term hwd hi (by simpa using hl)) h

theorem fast_loop_out (s : inflate_stream) (inp : List Nat) (beg out0 last end_ : Nat)
    (hwl : wf_len s) (hw : wf_dist s) :
    ∀ (fuel : Nat) (l : fast_locals) (r : fast_end),
      fast_loop s inp beg out0 last end_ fuel l = some r →
      out0 ≤ l.out.length → l.out.length - out0 < end_ →
      ∃ W, r.locals.out = l.out ++ W ∧ l.out.length - out0 + W.length ≤ end_ + 257 := by
  intro fuel
  induction fuel with
  | zero => intro l r h; simp [fast_loop] at h
  | succ n ih =>
    intro l r h h0 h1
    unfold fast_loop at h
    dsimp only at h
    split at h
    · cases h
    · rename_i l2 m2 msg2 hd
      cases h
      have := fast_dolen_first s inp beg out0 hwl hw n _ (pow_mod_lt _ _) _ _ hd
      exact ⟨[], by
        show l2.out = l.out ++ []
        rw [List.append_nil, show l2.out = _ from this, refill_out], by simp; omega⟩
    · rename_i l2 hd
      obtain ⟨W, a, b, c⟩ := fast_dolen_first s inp beg out0 hwl hw n _ (pow_mod_lt _ _) _ _ hd
      rw [refill_out] at a
      split_ifs at h with hc
      · obtain ⟨W2, a2, b2⟩ := ih l2 r h (by rw [a, List.length_append]; omega) hc.2
        refine ⟨W ++ W2, by rw [a2, a, List.append_assoc], ?_⟩
        rw [a, List.length_append] at b2
        rw [List.length_append]; omega
      · cases h
        exact ⟨W, a, by omega⟩

theorem emits_fast {fuel : Nat} {s s1 : inflate_stream} {start : Nat} (hwl : wf_len s)
    (hw : wf_dist s) (h258 : 258 ≤ s.avail_out) (hlt : s.avail_out < 4294967296)
    (hf : inflate_fast fuel s start = some s1) : emits s s1 := by
  unfold inflate_fast at hf
  dsimp only at hf
  split at hf
  · cases hf
  · rename_i r hr
    cases hf
    have he : usub s.avail_out 257 = s.avail_out - 257 := usub_of_le (by omega) hlt
    rw [he] at hr
    obtain ⟨W, a, b⟩ := fast_loop_out s s.next_in _ _ _ _ hwl hw fuel _ r hr (le_refl _)
      (by show s.next_out.length - s.next_out.length < _; omega)
    have b : s.next_out.length - s.next_out.length + W.length ≤ s.avail_out - 257 + 257 := b
    have a : r.locals.out = s.next_out ++ W := a
    have ha : ∀ (l : fast_locals), l.out = s.next_out ++ W →
        (if l.out.length - s.next_out.length < usub s.avail_out 257 then
          257 + (usub s.avail_out 257 - (l.out.length - s.next_out.length))
        else usub 257 (l.out.length - s.next_out.length - usub s.avail_out 257)) + W.length =
        s.avail_out := by
      intro l hl
      rw [he, hl, List.length_append]
      split_ifs with hc
      · omega
      · rw [usub_of_le (by omega) (by norm_num)]; omega
    cases r with
    | test l =>
      refine ⟨W, a, ?_⟩
      have := ha l a
      dsimp only
      exact this
    | brk l m msg =>
      refine ⟨W, a, ?_⟩
      have := ha l a
      dsimp only
      exact this

theorem emits_LEN {fuel out b0 : Nat} {s : inflate_stream} {ret : Int} {o : outcome}
    (h : Inv s) (hm : s.mode = .LEN_ ∨ s.mode = .LEN) (ha : acct out b0 s)
    (hc : case_LEN fuel out s ret = some o) : emits s o.st := by
  have hw := me_LEN h.regs (by rcases hm with hm | hm; exact Or.inl hm; exact Or.inr (Or.inl hm))
  unfold case_LEN at hc
  dsimp only at hc
  split_ifs at hc with h1
  · split at hc
    · cases hc
    · rename_i s1 hf
      cases hc
      have := @emits_fast fuel { s with mode := .LEN } s1 out hw.1 hw.2 h1.2
        (by have := ha.2.1; have := ha.2.2; show s.avail_out < _; omega) hf
      show emits s (if s1.mode = .TYPE then { s1 with back := -1 } else s1)
      split_ifs
      · exact emits_trans (emits_of_eq this rfl rfl) (emits_same rfl rfl)
      · exact emits_of_eq this rfl rfl
  · cases hc
    exact emits_of_eq (emits_LEN_slow _ { s with mode := .LEN } _ hw.1) rfl rfl

theorem codelens_body_out (s : inflate_stream) :
    (codelens_body s).1.next_out = s.next_out ∧ (codelens_body s).1.avail_out = s.avail_out := by
  unfold codelens_body
  dsimp only
  split_ifs <;> exact ⟨rfl, rfl⟩

theorem codelens_loop_out (k : Nat) :
    ∀ s : inflate_stream, (codelens_loop k s).1.next_out = s.next_out ∧
      (codelens_loop k s).1.avail_out = s.avail_out := by
  induction k with
  | zero => intro s; exact ⟨rfl, rfl⟩
  | succ n ih =>
    intro s
    unfold codelens_loop
    split_ifs
    · have hb := codelens_body_out s
      split
      · rename_i s1 heq
        rw [heq] at hb
        obtain ⟨h1, h2⟩ := ih s1
        exact ⟨h1.trans hb.1, h2.trans hb.2⟩
      · exact hb
    · exact ⟨rfl, rfl⟩

theorem lenlens_read_out (k : Nat) :
    ∀ s : inflate_stream, (lenlens_read k s).1.next_out = s.next_out ∧
      (lenlens_read k s).1.avail_out = s.avail_out := by
  induction k with
  | zero => intro s; exact ⟨rfl, rfl⟩
  | succ n ih =>
    intro s
    unfold lenlens_read
    dsimp only
    split_ifs
    · exact ⟨rfl, rfl⟩
    · obtain ⟨h1, h2⟩ := ih (DROPBITS 3
        { NEEDBITS 3 s with
          lens := (NEEDBITS 3 s).lens.set (order.getD (NEEDBITS 3 s).have_ 0) (BITS 3 (NEEDBITS 3 s)),
          have_ := (NEEDBITS 3 s).have_ + 1 })
      exact ⟨h1, h2⟩
    · exact ⟨rfl, rfl⟩

theorem lenlens_zero_out (k : Nat) :
    ∀ s : inflate_stream, (lenlens_zero k s).next_out = s.next_out ∧
      (lenlens_zero k s).avail_out = s.avail_out := by
  induction k with
  | zero => intro s; exact ⟨rfl, rfl⟩
  | succ n ih =>
    intro s
    unfold lenlens_zero
    split_ifs
    · obtain ⟨h1, h2⟩ := ih { s with lens := s.lens.set (order.getD s.have_ 0) 0,
                                     have_ := s.have_ + 1 }
      exact ⟨h1, h2⟩
    · exact ⟨rfl, rfl⟩

theorem good_LEN (out b0 : Nat) {fuel : Nat} {s : inflate_stream} {ret : Int} {o : outcome}
    (h : Inv s) (hm : s.mode = .LEN_ ∨ s.mode = .LEN) (ha : acct out b0 s)
    (hc : case_LEN fuel out s ret = some o) : Inv o.st ∧ emits s o.st :=
  ⟨inv_LEN h hm hc, emits_LEN h hm ha hc⟩

theorem good_CODELENS (out b0 : Nat) {tb : table_builder} {fuel : Nat} {flush : Int}
    {s : inflate_stream} {ret : Int} {o : outcome} (htb : wf_builder tb) (h : Inv s)
    (hm : s.mode = .CODELENS) (ha : acct out b0 s)
    (hc : case_CODELENS tb fuel flush out s ret = some o) : Inv o.st ∧ emits s o.st := by
  unfold case_CODELENS at hc
  obtain ⟨b1, b2, b3⟩ := inv_codelens_loop (s.nlen + s.ndist - s.have_) s h hm (le_refl _)
  obtain ⟨o1, o2⟩ := codelens_loop_out (s.nlen + s.ndist - s.have_) s
  rcases hcl : codelens_loop (s.nlen + s.ndist - s.have_) s with ⟨s1, e⟩
  rw [hcl] at b1 b2 b3 hc o1 o2
  have o1 : s1.next_out = s.next_out := o1
  have o2 : s1.avail_out = s.avail_out := o2
  have key : s1.bits < 8 ∨ s1.mode = .BAD →
    (if s1.mode = Mode.BAD then some (outcome.cont s1 ret)
      else if s1.lens.getD 256 0 = 0 then
        some (outcome.cont { s1 with msg := some "invalid code -- missing end-of-block",
                                     mode := .BAD } ret)
      else
        let r := tb .LENS (s1.lens.take s1.nlen) 9
        let s2 := { s1 with codes := store_codes s1.codes 0 r.2.1, next := r.2.1.length,
                            lencode := .codes 0, lenbits := r.2.2 }
        if r.1 ≠ 0 then
          some (.cont { s2 with msg := some "invalid literal/lengths set", mode := .BAD } r.1)
        else
          let r2 := tb .DISTS ((s2.lens.drop s2.nlen).take s2.ndist) 6
          let s3 := { s2 with codes := store_codes s2.codes s2.next r2.2.1,
                              distcode := .codes s2.next,
                              next := s2.next + r2.2.1.length, distbits := r2.2.2 }
          if r2.1 ≠ 0 then
            some (.cont { s3 with msg := some "invalid distances set", mode := .BAD } r2.1)
          else
            let s4 := { s3 with mode := .LEN_ }
            if flush = Z_TREES then some (.leave s4 r2.1)
            else case_LEN fuel out s4 r2.1) = some o → Inv o.st ∧ emits s o.st := by
    intro hb hc
    dsimp only at hc
    have hbad : ∀ (t : inflate_stream), t.sane = 1 → t.dmax = 32768 → bytes t.next_in →
        t.hold < 2 ^ t.bits → t.mode = .BAD → Inv t :=
      fun t a b c d e => ⟨a, b, c, d, Or.inr (wants_final (by rw [e]; rfl)),
        plain_of_eq e rfl⟩
    split_ifs at hc with h1 h2 h3 h4 h5
    · cases hc; exact ⟨b1, emits_same o1 o2⟩
    · cases hc; exact ⟨hbad _ b1.sane b1.dmax b1.inb b1.hold rfl, emits_same o1 o2⟩
    · cases hc; exact ⟨hbad _ b1.sane b1.dmax b1.inb b1.hold rfl, emits_same o1 o2⟩
    · cases hc; exact ⟨hbad _ b1.sane b1.dmax b1.inb b1.hold rfl, emits_same o1 o2⟩
    all_goals
      have hb8 : s1.bits < 8 := by
        rcases hb with hb | hb
        · exact hb
        · exact absurd hb h1
      obtain ⟨l1, l2, l3⟩ := (htb (s1.lens.take s1.nlen) 9).2.1 (not_not.mp h3)
      obtain ⟨d1, d2, d3⟩ := (htb ((s1.lens.drop s1.nlen).take s1.ndist) 6).2.2 (not_not.mp h4)
      have hwl : wf_table len_term (fun i => code_at (store_codes
          (store_codes s1.codes 0 (tb .LENS (s1.lens.take s1.nlen) 9).2.1)
          (tb .LENS (s1.lens.take s1.nlen) 9).2.1.length
          (tb .DISTS ((s1.lens.drop s1.nlen).take s1.ndist) 6).2.1) (.codes 0) i)
          (tb .LENS (s1.lens.take s1.nlen) 9).2.2 = true := by
        refine wf_table_congr l2 l1 l3 (fun x hx => ?_)
        show (store_codes _ _ _).getD (0 + x) default = _
        rw [Nat.zero_add, store_get_before _ _ _ hx (by
          have := store_length s1.codes 0 (tb .LENS (s1.lens.take s1.nlen) 9).2.1
          omega)]
        have := store_get_at s1.codes 0 (tb .LENS (s1.lens.take s1.nlen) 9).2.1 hx
        rw [Nat.zero_add] at this
        exact this
      have hwd : wf_table dist_term (fun i => code_at (store_codes
          (store_codes s1.codes 0 (tb .LENS (s1.lens.take s1.nlen) 9).2.1)
          (tb .LENS (s1.lens.take s1.nlen) 9).2.1.length
          (tb .DISTS ((s1.lens.drop s1.nlen).take s1.ndist) 6).2.1)
          (.codes (tb .LENS (s1.lens.take s1.nlen) 9).2.1.length) i)
          (tb .DISTS ((s1.lens.drop s1.nlen).take s1.ndist) 6).2.2 = true := by
        refine wf_table_congr d2 d1 d3 (fun x hx => ?_)
        exact store_get_at _ _ _ hx
    · cases hc
      exact ⟨⟨b1.sane, b1.dmax, b1.inb, b1.hold, Or.inl hb8, mi_LEN (Or.inl rfl) ⟨hwl, hwd⟩⟩,
        emits_same o1 o2⟩
    · obtain ⟨g1, g2⟩ : Inv o.st ∧ emits _ o.st := by
        refine good_LEN out b0 ?_ (Or.inl rfl) ?_ hc
        · exact ⟨b1.sane, b1.dmax, b1.inb, b1.hold, Or.inl hb8,
            mi_LEN (Or.inl rfl) ⟨hwl, hwd⟩⟩
        · exact acct_of_eq ha o1 o2
      exact ⟨g1, emits_of_eq g2 o1 o2⟩
  cases e
  · exact key (Or.inl (b2 rfl).1) hc
  · cases hc; exact ⟨b1, emits_same o1 o2⟩
  · exact key (Or.inr (b3 rfl)) hc

theorem good_LENLENS (out b0 : Nat) {tb : table_builder} {fuel : Nat} {flush : Int}
    {s : inflate_stream} {ret : Int} {o : outcome} (htb : wf_builder tb) (h : Inv s)
    (hm : s.mode = .LENLENS) (ha : acct out b0 s)
    (hc : case_LENLENS tb fuel flush out s ret = some o) : Inv o.st ∧ emits s o.st := by
  unfold case_LENLENS at hc
  obtain ⟨b1, b2, b3⟩ := inv_lenlens_read (s.ncode - s.have_) s h hm (le_refl _)
  obtain ⟨o1, o2⟩ := lenlens_read_out (s.ncode - s.have_) s
  rcases hr : lenlens_read (s.ncode - s.have_) s with ⟨s1, b⟩
  rw [hr] at b1 b2 b3 hc o1 o2
  have o1 : s1.next_out = s.next_out := o1
  have o2 : s1.avail_out = s.avail_out := o2
  cases b
  · cases hc; exact ⟨b1, emits_same o1 o2⟩
  · obtain ⟨z1, z2, z3, z4, z5, z6⟩ := lenlens_zero_frame (19 - s1.have_) s1
    obtain ⟨p1, p2⟩ := lenlens_zero_out (19 - s1.have_) s1
    have hb8 : s1.bits < 8 := b3 rfl
    dsimp only at hc
    have a1 : (lenlens_zero (19 - s1.have_) s1).sane = 1 := z1.trans b1.sane
    have a2 : (lenlens_zero (19 - s1.have_) s1).dmax = 32768 := z2.trans b1.dmax
    have a3 : bytes (lenlens_zero (19 - s1.have_) s1).next_in := by rw [z3]; exact b1.inb
    have a4 : (lenlens_zero (19 - s1.have_) s1).hold <
        2 ^ (lenlens_zero (19 - s1.have_) s1).bits := by rw [z4, z5]; exact b1.hold
    have a5 : (lenlens_zero (19 - s1.have_) s1).bits < 8 := by rw [z5]; exact hb8
    split_ifs at hc with h1
    · cases hc
      exact ⟨⟨a1, a2, a3, a4, Or.inr (wants_final rfl), mode_inv_plain rfl⟩,
        emits_same (p1.trans o1) (p2.trans o2)⟩
    · obtain ⟨g1, g2⟩ : Inv o.st ∧ emits _ o.st := by
        refine good_CODELENS out b0 htb ?_ rfl ?_ hc
        · refine ⟨a1, a2, a3, a4, Or.inl a5, mi_CODELENS rfl ?_⟩
          obtain ⟨l1, l2⟩ := (htb ((lenlens_zero (19 - s1.have_) s1).lens.take 19) 7).1
            (not_not.mp h1)
          have hn : 0 + 2 ^ (tb .CODES ((lenlens_zero (19 - s1.have_) s1).lens.take 19) 7).2.2 ≤
              (tb .CODES ((lenlens_zero (19 - s1.have_) s1).lens.take 19) 7).2.1.length := by
            rw [Nat.zero_add]; exact l1
          intro i hi
          refine term_ok_congr (l2 i hi) hi hn (fun x hx => ?_)
          show (store_codes _ _ _).getD (0 + x) default = _
          have := store_get_at (lenlens_zero (19 - s1.have_) s1).codes 0
            (tb .CODES ((lenlens_zero (19 - s1.have_) s1).lens.take 19) 7).2.1 hx
          exact this
        · exact acct_of_eq ha (p1.trans o1) (p2.trans o2)
      exact ⟨g1, emits_of_eq g2 (p1.trans o1) (p2.trans o2)⟩

theorem good_TABLE (out b0 : Nat) {tb : table_builder} {fuel : Nat} {flush : Int}
    {s : inflate_stream} {ret : Int} {o : outcome} (htb : wf_builder tb) (h : Inv s)
    (hm : s.mode = .TABLE) (ha : acct out b0 s)
    (hc : case_TABLE tb fuel flush out s ret = some o) : Inv o.st ∧ emits s o.st := by
  have hsl := we_TABLE h.slack hm
  obtain ⟨k, hp, hstop, hmin⟩ := NEEDBITS_spec 14 s
  have hh := pulled_hold hp h.inb h.hold
  have hI := pulled_bytes hp h.inb
  unfold case_TABLE at hc
  dsimp only at hc
  have hb : (NEEDBITS 14 s).bits - 5 - 5 - 4 < 8 := by omega
  split_ifs at hc with h1 h2
  · cases hc
    exact ⟨⟨h.sane, h.dmax, hI, hh, Or.inr (wm_TABLE hm h1), plain_of_eq hm rfl⟩,
      emits_same rfl rfl⟩
  · cases hc
    exact ⟨⟨h.sane, h.dmax, hI, div_pow_lt (div_pow_lt (div_pow_lt hh)),
      Or.inr (wants_final rfl), mode_inv_plain rfl⟩, emits_same rfl rfl⟩
  · obtain ⟨g1, g2⟩ : Inv o.st ∧ emits _ o.st := by
      refine good_LENLENS out b0 htb ?_ rfl ?_ hc
      · exact ⟨h.sane, h.dmax, hI, div_pow_lt (div_pow_lt (div_pow_lt hh)),
          Or.inl hb, mode_inv_plain rfl⟩
      · exact acct_of_eq ha rfl rfl
    exact ⟨g1, emits_of_eq g2 rfl rfl⟩

/-- Every pass through the `switch` keeps the invariant and only appends to the output,
within the room `avail_out` gave. -/
theorem good_step (out b0 : Nat) {tb : table_builder} {fuel : Nat} {flush : Int}
    {s : inflate_stream} {ret : Int} {o : outcome} (htb : wf_builder tb) (h : Inv s)
    (ha : acct out b0 s) (hc : step tb fuel flush out s ret = some o) :
    Inv o.st ∧ emits s o.st := by
  unfold step at hc
  split at hc
  · rename_i hm; cases hc
    have hb : s.bits < 8 := we_quiet h.slack (by rw [hm]; rfl)
    exact ⟨⟨h.sane, h.dmax, h.inb, h.hold, Or.inl hb, mode_inv_plain rfl⟩, emits_same rfl rfl⟩
  · rename_i hm; cases hc; exact ⟨inv_TYPE _ _ _ h hm, emits_TYPE _ _ _⟩
  · rename_i hm; cases hc; exact ⟨inv_TYPEDO _ _ _ h (Or.inl hm), emits_TYPEDO _ _ _⟩
  · rename_i hm; cases hc; exact ⟨inv_STORED _ _ _ h hm, emits_STORED _ _ _⟩
  · rename_i hm; cases hc; exact ⟨inv_COPY _ _ h (Or.inl hm), emits_COPY _ _⟩
  · rename_i hm; cases hc; exact ⟨inv_COPY _ _ h (Or.inr hm), emits_COPY _ _⟩
  · rename_i hm; exact good_TABLE out b0 htb h hm ha hc
  · rename_i hm; exact good_LENLENS out b0 htb h hm ha hc
  · rename_i hm; exact good_CODELENS out b0 htb h hm ha hc
  · rename_i hm; exact good_LEN out b0 h (Or.inl hm) ha hc
  · rename_i hm; exact good_LEN out b0 h (Or.inr hm) ha hc
  · rename_i hm; cases hc
    exact ⟨inv_LENEXT _ _ _ h hm, emits_LENEXT _ _ _ (by have := (me_LENEXT h.regs hm).2.1; omega)⟩
  · rename_i hm; cases hc
    exact ⟨inv_DIST _ _ _ h hm, emits_DIST _ _ _ (by have := (me_DIST h.regs hm).2.1; omega)⟩
  · rename_i hm; cases hc
    exact ⟨inv_DISTEXT _ _ _ h hm,
      emits_DISTEXT _ _ _ (by have := (me_DISTEXT h.regs hm).2.1.1; omega)⟩
  · rename_i hm; cases hc
    exact ⟨inv_MATCH _ _ _ h hm, emits_MATCH _ _ _ (me_MATCH h.regs hm).2.1.1⟩
  · rename_i hm; cases hc; exact ⟨inv_LIT _ _ h hm, emits_LIT _ _⟩
  · rename_i hm; cases hc
    exact ⟨⟨h.sane, h.dmax, h.inb, h.hold, Or.inr (wants_final rfl), mode_inv_plain rfl⟩,
      emits_same rfl rfl⟩
  · cases hc; exact ⟨h, emits_refl _⟩
  · cases hc; exact ⟨h, emits_refl _⟩
  · cases hc; exact ⟨h, emits_refl _⟩
  · cases hc; exact ⟨h, emits_refl _⟩

theorem lastn_all {n : Nat} {l : List Nat} (h : l.length ≤ n) : lastn n l = l := by
  unfold lastn; rw [Nat.sub_eq_zero_of_le h]; rfl

theorem lastn_length {n : Nat} {l : List Nat} (h : n ≤ l.length) : (lastn n l).length = n := by
  unfold lastn; rw [List.length_drop]; omega

theorem lastn_append_le {n : Nat} (a b : List Nat) (h : n ≤ b.length) :
    lastn n (a ++ b) = lastn n b := by
  unfold lastn
  rw [List.length_append, List.drop_append_eq_append_drop]
  have h1 : a.length + b.length - n - a.length = b.length - n := by omega
  rw [h1, List.drop_eq_nil_of_le (by omega)]; rfl

theorem lastn_append_ge {n : Nat} (a b : List Nat) (h : b.length ≤ n) :
    lastn n (a ++ b) = lastn (n - b.length) a ++ b := by
  unfold lastn
  rw [List.length_append, List.drop_append_eq_append_drop]
  have h1 : a.length + b.length - n - a.length = 0 := by omega
  have h2 : a.length + b.length - n = a.length - (n - b.length) := by omega
  rw [h1, h2]; rfl

theorem lastn_lastn {m n : Nat} (l : List Nat) (h : m ≤ n) : lastn m (lastn n l) = lastn m l := by
  unfold lastn
  rw [List.drop_drop, List.length_drop]
  congr 1
  omega

theorem memcpy_at_zero_all (w X : List Nat) (h : w.length ≤ X.length) : memcpy_at w 0 X = X := by
  unfold memcpy_at
  rw [List.take_zero, List.nil_append, Nat.zero_add, List.drop_eq_nil_of_le h, List.append_nil]

theorem lin_full {w : List Nat} {wnext n : Nat} (h : w.length = n) (hn : wnext ≤ n) :
    lin w wnext n = w.drop wnext ++ w.take wnext := by
  unfold lin
  exact lastn_all (by rw [List.length_append, List.length_drop, List.length_take]; omega)

theorem lin_short {w : List Nat} {h n : Nat} (hl : w.length = n) (hn : h ≤ n) :
    lin w h h = w.take h := by
  unfold lin
  rw [lastn_append_le _ _ (by rw [List.length_take]; omega)]
  exact lastn_all (by rw [List.length_take]; omega)

theorem winA {w W : List Nat} {n : Nat} (E L : List Nat) (hl : w.length = n)
    (hW : n ≤ W.length) :
    lin (memcpy_at w 0 (lastn n (E ++ W))) 0 n = lastn n (L ++ W) := by
  have e1 : lastn n (E ++ W) = lastn n W := lastn_append_le _ _ hW
  have e2 : (lastn n W).length = n := lastn_length hW
  rw [e1, memcpy_at_zero_all _ _ (by omega), lastn_append_le _ _ hW]
  unfold lin
  rw [List.drop_zero, List.take_zero, List.append_nil]
  exact lastn_all (by omega)

theorem winB {w W : List Nat} {n wnext whave : Nat} (hl : w.length = n)
    (hW : wnext + W.length ≤ n) (hh : whave ≤ n) (hfill : whave < n → wnext = whave) :
    lin (memcpy_at w wnext W) (if wnext + W.length = n then 0 else wnext + W.length)
      (if whave < n then whave + W.length else whave) =
      lastn (if whave < n then whave + W.length else whave) (lin w wnext whave ++ W) ∧
    (if whave < n then whave + W.length else whave) = min (whave + W.length) n := by
  have hm : memcpy_at w wnext W = w.take wnext ++ W ++ w.drop (wnext + W.length) := rfl
  have hml : (memcpy_at w wnext W).length = n := by
    rw [hm, List.length_append, List.length_append, List.length_take, List.length_drop]; omega
  by_cases hf : whave < n
  · have hwn := hfill hf
    subst hwn
    rw [if_pos hf]
    refine ⟨?_, by omega⟩
    rw [lin_short hl hh, lastn_all (by rw [List.length_append, List.length_take]; omega)]
    by_cases he : wnext + W.length = n
    · rw [if_pos he, he, lin_full hml (Nat.zero_le _), List.drop_zero, List.take_zero,
        List.append_nil, hm, he, List.drop_eq_nil_of_le (by omega), List.append_nil]
    · rw [if_neg he]
      unfold lin
      have h1 : (memcpy_at w wnext W).take (wnext + W.length) = w.take wnext ++ W := by
        rw [hm, List.take_append_of_le_length (by
          rw [List.length_append, List.length_take]; omega)]
        exact List.take_of_length_le (by rw [List.length_append, List.length_take]; omega)
      rw [h1, lastn_append_le _ _ (by rw [List.length_append, List.length_take]; omega)]
      exact lastn_all (by rw [List.length_append, List.length_take]; omega)
  · have hwe : whave = n := by omega
    rw [if_neg hf, hwe]
    refine ⟨?_, by omega⟩
    rw [lin_full hl (by omega), lastn_append_ge _ _ (by omega)]
    have h2 : lastn (n - W.length) (w.drop wnext ++ w.take wnext) =
        w.drop (wnext + W.length) ++ w.take wnext := by
      unfold lastn
      rw [List.length_append, List.length_drop, List.length_take,
        List.drop_append_of_le_length (by rw [List.length_drop]; omega), List.drop_drop]
      congr 2
      omega
    rw [h2]
    have h1 : (memcpy_at w wnext W).take (wnext + W.length) = w.take wnext ++ W := by
      rw [hm, List.take_append_of_le_length (by
        rw [List.length_append, List.length_take]; omega)]
      exact List.take_of_length_le (by rw [List.length_append, List.length_take]; omega)
    have h3 : (memcpy_at w wnext W).drop (wnext + W.length) = w.drop (wnext + W.length) := by
      rw [hm, List.drop_append_eq_append_drop, List.drop_eq_nil_of_le (by
        rw [List.length_append, List.length_take]; omega)]
      rw [List.nil_append, List.length_append, List.length_take]
      have : wnext + W.length - (min wnext w.length + W.length) = 0 := by omega
      rw [this, List.drop_zero]
    by_cases he : wnext + W.length = n
    · rw [if_pos he, lin_full hml (Nat.zero_le _), List.drop_zero, List.take_zero,
        List.append_nil, hm, he, List.drop_eq_nil_of_le (by omega), List.append_nil,
        List.nil_append]
    · rw [if_neg he, lin_full hml (by omega), h1, h3, List.append_assoc]

theorem winC {w W : List Nat} {n wnext whave : Nat} (E : List Nat) (hl : w.length = n)
    (hn : wnext < n) (hW1 : n - wnext < W.length) (hW2 : W.length < n) (hh : whave ≤ n)
    (hfill : whave < n → wnext = whave) :
    lin (memcpy_at (memcpy_at w wnext (W.take (n - wnext))) 0
        (lastn (W.length - (n - wnext)) (E ++ W))) (W.length - (n - wnext)) n =
      lastn n (lin w wnext whave ++ W) := by
  have e1 : lastn (W.length - (n - wnext)) (E ++ W) = W.drop (n - wnext) := by
    rw [lastn_append_le _ _ (by omega)]
    unfold lastn
    congr 1
    omega
  have hw1 : memcpy_at w wnext (W.take (n - wnext)) = w.take wnext ++ W.take (n - wnext) := by
    unfold memcpy_at
    rw [List.drop_eq_nil_of_le (by rw [List.length_take]; omega), List.append_nil]
  have hw1l : (w.take wnext ++ W.take (n - wnext)).length = n := by
    rw [List.length_append, List.length_take, List.length_take]; omega
  have hw2 : memcpy_at (w.take wnext ++ W.take (n - wnext)) 0 (W.drop (n - wnext)) =
      W.drop (n - wnext) ++ (w.take wnext ++ W.take (n - wnext)).drop (W.length - (n - wnext)) := by
    unfold memcpy_at
    rw [List.take_zero, List.nil_append, Nat.zero_add, List.length_drop]
  have hd : (w.take wnext ++ W.take (n - wnext)).drop (W.length - (n - wnext)) =
      (w.take wnext).drop (W.length - (n - wnext)) ++ W.take (n - wnext) := by
    rw [List.drop_append_of_le_length (by rw [List.length_take]; omega)]
  rw [e1, hw1, hw2, hd]
  have hl2 : (W.drop (n - wnext) ++ ((w.take wnext).drop (W.length - (n - wnext)) ++
      W.take (n - wnext))).length = n := by
    rw [List.length_append, List.length_append, List.length_drop, List.length_drop,
      List.length_take, List.length_take]; omega
  rw [lin_full hl2 (by omega)]
  have t1 : (W.drop (n - wnext) ++ ((w.take wnext).drop (W.length - (n - wnext)) ++
      W.take (n - wnext))).take (W.length - (n - wnext)) = W.drop (n - wnext) := by
    rw [List.take_append_of_le_length (by rw [List.length_drop])]
    exact List.take_of_length_le (by rw [List.length_drop])
  have t2 : (W.drop (n - wnext) ++ ((w.take wnext).drop (W.length - (n - wnext)) ++
      W.take (n - wnext))).drop (W.length - (n - wnext)) =
      (w.take wnext).drop (W.length - (n - wnext)) ++ W.take (n - wnext) := by
    rw [List.drop_append_eq_append_drop, List.drop_eq_nil_of_le (by rw [List.length_drop]),
      List.length_drop, Nat.sub_self, List.drop_zero, List.nil_append]
  rw [t1, t2, List.append_assoc, List.take_append_drop]
  -- the right-hand side
  rw [lastn_append_ge _ _ (by omega)]
  congr 1
  by_cases hf : whave < n
  · have hwn := hfill hf
    rw [← hwn, lin_short hl (by omega)]
    unfold lastn
    rw [List.length_take]
    congr 1
    omega
  · have hwe : whave = n := by omega
    rw [hwe, lin_full hl (by omega)]
    have : lastn (n - W.length) (w.drop wnext ++ w.take wnext) =
        (w.drop wnext ++ w.take wnext).drop W.length := by
      unfold lastn
      rw [List.length_append, List.length_drop, List.length_take]
      congr 1
      omega
    rw [this, List.drop_append_eq_append_drop]
    have e5 : (w.drop wnext).drop W.length = [] :=
      List.drop_eq_nil_of_le (by rw [List.length_drop]; omega)
    rw [e5, List.nil_append, List.length_drop, hl]

theorem lastn_self_append (E W : List Nat) : lastn W.length (E ++ W) = W := by
  rw [lastn_append_le _ _ (le_refl _)]; exact lastn_all (le_refl _)

/-- `updatewindow` on a window in use: it appends the `copy` bytes before `end` to the
content of the window and keeps the last `wsize` bytes. -/
theorem updatewindow_spec (alloc : allocator) (s : inflate_stream) (E W : List Nat)
    (h : win_shape s) :
    (updatewindow alloc s (E ++ W) W.length).2 = 0 ∧
    win_shape (updatewindow alloc s (E ++ W) W.length).1 ∧
    (updatewindow alloc s (E ++ W) W.length).1.win =
      lastn (updatewindow alloc s (E ++ W) W.length).1.whave (s.win ++ W) ∧
    (updatewindow alloc s (E ++ W) W.length).1.whave = min (s.whave + W.length) s.wsize ∧
    (updatewindow alloc s (E ++ W) W.length).1.wbits = s.wbits := by
  obtain ⟨h1, ⟨w, hw, hl⟩, h3, h4, h5⟩ := h
  have hne : s.wsize ≠ 0 := by omega
  have hwin : s.win = lin w s.wnext s.whave := by
    unfold inflate_stream.win; rw [hw]; rfl
  unfold updatewindow
  rw [hw]
  dsimp only
  rw [if_neg hne]
  dsimp only
  by_cases hA : W.length ≥ s.wsize
  · rw [if_pos hA]
    refine ⟨rfl, ⟨h1, ⟨_, rfl, ?_⟩, by show 0 < s.wsize; omega, le_refl _,
      fun hc => absurd hc (lt_irrefl _)⟩, ?_, ?_, rfl⟩
    · rw [lastn_append_le _ _ hA, memcpy_at_zero_all _ _ (by rw [lastn_length hA]; omega)]
      exact lastn_length hA
    · show lin (memcpy_at w 0 (lastn s.wsize (E ++ W))) 0 s.wsize = lastn s.wsize (s.win ++ W)
      exact winA E s.win hl hA
    · show s.wsize = min (s.whave + W.length) s.wsize
      omega
  · rw [if_neg hA]
    rw [lastn_self_append]
    by_cases hC : W.length - min (s.wsize - s.wnext) W.length ≠ 0
    · rw [if_pos hC]
      have hd : min (s.wsize - s.wnext) W.length = s.wsize - s.wnext := by omega
      rw [hd]
      refine ⟨rfl, ⟨h1, ⟨_, rfl, ?_⟩, by show W.length - (s.wsize - s.wnext) < s.wsize; omega,
        le_refl _, fun hc => absurd hc (lt_irrefl _)⟩, ?_, ?_, rfl⟩
      · unfold memcpy_at
        simp only [List.length_append, List.length_take, List.length_drop, List.take_zero,
          List.length_nil, lastn]
        omega
      · show lin (memcpy_at (memcpy_at w s.wnext (W.take (s.wsize - s.wnext))) 0
          (lastn (W.length - (s.wsize - s.wnext)) (E ++ W))) (W.length - (s.wsize - s.wnext))
          s.wsize = lastn s.wsize (s.win ++ W)
        rw [hwin]
        exact winC E hl h3 (by omega) (by omega) h4 h5
      · show s.wsize = min (s.whave + W.length) s.wsize
        have := h5
        omega
    · rw [if_neg hC]
      have hd : min (s.wsize - s.wnext) W.length = W.length := by omega
      rw [hd, List.take_of_length_le (le_refl _)]
      obtain ⟨b1, b2⟩ := @winB w W s.wsize s.wnext s.whave hl (by omega) h4 h5
      refine ⟨rfl, ⟨h1, ⟨_, rfl, ?_⟩, ?_, ?_, ?_⟩, ?_, b2, rfl⟩
      · unfold memcpy_at
        simp only [List.length_append, List.length_take, List.length_drop]
        omega
      · show (if s.wnext + W.length = s.wsize then 0 else s.wnext + W.length) < s.wsize
        split_ifs <;> omega
      · show (if s.whave < s.wsize then s.whave + W.length else s.whave) ≤ s.wsize
        rw [b2]; omega
      · show (if s.whave < s.wsize then s.whave + W.length else s.whave) < s.wsize →
          (if s.wnext + W.length = s.wsize then 0 else s.wnext + W.length) =
          (if s.whave < s.wsize then s.whave + W.length else s.whave)
        intro hc
        by_cases hf : s.whave < s.wsize
        · rw [if_pos hf] at hc ⊢
          rw [h5 hf, if_neg (by omega)]
        · rw [if_neg hf] at hc; omega
      · show lin (memcpy_at w s.wnext W)
          (if s.wnext + W.length = s.wsize then 0 else s.wnext + W.length)
          (if s.whave < s.wsize then s.whave + W.length else s.whave) = _
        rw [hwin]
        exact b1

/-- The first call of `updatewindow`: the window is put in use. -/
theorem updatewindow_init (alloc : allocator) (s : inflate_stream) (E W : List Nat)
    (w : List Nat) (h0 : s.wsize = 0)
    (hw : s.window = some w ∨ (s.window = none ∧ alloc (2 ^ s.wbits) = some w))
    (hl : w.length = 2 ^ s.wbits) :
    updatewindow alloc s (E ++ W) W.length =
      updatewindow alloc { s with window := some w, wsize := 2 ^ s.wbits, wnext := 0,
                                  whave := 0 } (E ++ W) W.length := by
  have hne : (2 : Nat) ^ s.wbits ≠ 0 := by positivity
  unfold updatewindow
  rcases hw with hw | ⟨hw, ha⟩
  · rw [hw]; dsimp only; rw [if_pos h0, if_neg hne]
  · rw [hw]; dsimp only; rw [ha]; dsimp only; rw [if_pos h0, if_neg hne]

theorem run_passes (tb : table_builder) (alloc : allocator) (flush : Int) (in_ out : Nat) :
    ∀ (fuel : Nat) (s : inflate_stream) (ret : Int) (p : Int × inflate_stream),
      run tb alloc flush in_ out fuel s ret = some p →
      ∃ o, passes tb flush out s ret o ∧ p = finish alloc flush in_ out o := by
  intro fuel
  induction fuel with
  | zero => intro s ret p h; simp [run] at h
  | succ n ih =>
    intro s ret p h
    unfold run at h
    rcases hs : step tb (n + 1) flush out s ret with _ | o
    · rw [hs] at h; cases h
    · rw [hs] at h
      cases o with
      | cont s1 r1 =>
        obtain ⟨o, h1, h2⟩ := ih s1 r1 p h
        exact ⟨o, passes.next hs h1, h2⟩
      | leave s1 r1 =>
        injection h with h
        exact ⟨_, passes.last hs rfl, h.symm⟩
      | done s1 r1 =>
        injection h with h
        exact ⟨_, passes.last hs rfl, h.symm⟩

theorem passes_good {tb : table_builder} {flush : Int} {out : Nat} (b0 : Nat)
    (htb : wf_builder tb) {s : inflate_stream} {ret : Int} {o : outcome}
    (hp : passes tb flush out s ret o) :
    Inv s → acct out b0 s → Inv o.st ∧ emits s o.st := by
  induction hp with
  | last hs _ => intro h ha; exact good_step out b0 htb h ha hs
  | next hs _ ih =>
    intro h ha
    obtain ⟨g1, g2⟩ := good_step out b0 htb h ha hs
    obtain ⟨g3, g4⟩ := ih g1 (acct_emits ha g2)
    exact ⟨g3, emits_trans g2 g4⟩

theorem step_fixed {tb : table_builder} {fuel : Nat} {flush : Int} {out : Nat}
    {s : inflate_stream} {ret : Int} {o : outcome}
    (hs : step tb fuel flush out s ret = some o) : o.st.fixed = s.fixed := by
  by_cases h15 : s.mode.rank ≤ 15
  · exact (basic_step hs h15).2.1
  · have hmode : s.mode = .CHECK ∨ s.mode = .DONE ∨ s.mode = .BAD ∨ s.mode = .MEM ∨
        s.mode = .SYNC := by
      revert h15
      cases s.mode <;> simp [Mode.rank]
    unfold step at hs
    rcases hmode with hm | hm | hm | hm | hm <;> rw [hm] at hs <;> cases hs <;> rfl

theorem visits_good {tb : table_builder} {flush : Int} {out : Nat} (b0 : Nat)
    (htb : wf_builder tb) {s : inflate_stream} {ret : Int} {s2 : inflate_stream}
    (hv : visits tb flush out s ret s2) :
    Inv s → acct out b0 s → Inv s2 ∧ emits s s2 ∧ s2.fixed = s.fixed := by
  induction hv with
  | here s ret => intro h _; exact ⟨h, emits_refl _, rfl⟩
  | next hs _ ih =>
    intro h ha
    obtain ⟨g1, g2⟩ := good_step out b0 htb h ha hs
    obtain ⟨g3, g4, g5⟩ := ih g1 (acct_emits ha g2)
    exact ⟨g3, emits_trans g2 g4, g5.trans (step_fixed hs)⟩

theorem Inv_entry {p : inflate_stream} (h : Inv p) : Inv (entry p) := by
  unfold entry
  split_ifs with hm
  · refine ⟨h.sane, h.dmax, h.inb, h.hold, ?_, mode_inv_plain rfl⟩
    rcases h.slack with h1 | h1
    · exact Or.inl h1
    · right
      unfold wants_more at h1 ⊢
      rw [hm] at h1
      exact h1
  · exact h

theorem updatewindow_Inv (alloc : allocator) (s : inflate_stream) (e : List Nat) (c : Nat)
    (h : Inv s) : Inv (updatewindow alloc s e c).1 := by
  unfold updatewindow
  split
  · exact h
  · dsimp only
    split_ifs <;> exact ⟨h.sane, h.dmax, h.inb, h.hold, h.slack, h.regs⟩

theorem passes_fixed {tb : table_builder} {flush : Int} {out : Nat}
    {s : inflate_stream} {ret : Int} {o : outcome}
    (hp : passes tb flush out s ret o) : o.st.fixed = s.fixed := by
  induction hp with
  | last hs _ => exact step_fixed hs
  | next hs _ ih => exact ih.trans (step_fixed hs)

theorem step_final {tb : table_builder} {fuel : Nat} {flush : Int} {out : Nat}
    {s : inflate_stream} {ret : Int} {o : outcome}
    (hs : step tb fuel flush out s ret = some o) (hf : final_mode s.mode = true) :
    o.is_cont = false ∧ o.st.next_out = s.next_out ∧ o.st.avail_out = s.avail_out ∧
    final_mode o.st.mode = true ∧ (o.is_done = true → o.st = s) ∧
    (o.is_done = false → (o.rc = Z_STREAM_END ∧ o.st.mode = .DONE) ∨
      (o.rc = Z_DATA_ERROR ∧ o.st.mode = .BAD)) := by
  have hmode : s.mode = .CHECK ∨ s.mode = .DONE ∨ s.mode = .BAD ∨ s.mode = .MEM ∨
      s.mode = .SYNC := by
    revert hf
    cases s.mode <;> simp [final_mode]
  unfold step at hs
  rcases hmode with hm | hm | hm | hm | hm <;> rw [hm] at hs <;> cases hs
  · exact ⟨rfl, rfl, rfl, rfl, fun h => Bool.noConfusion h, fun _ => Or.inl ⟨rfl, rfl⟩⟩
  · exact ⟨rfl, rfl, rfl, hf, fun h => Bool.noConfusion h, fun _ => Or.inl ⟨rfl, hm⟩⟩
  · exact ⟨rfl, rfl, rfl, hf, fun h => Bool.noConfusion h, fun _ => Or.inr ⟨rfl, hm⟩⟩
  · exact ⟨rfl, rfl, rfl, hf, fun _ => rfl, fun h => Bool.noConfusion h⟩
  · exact ⟨rfl, rfl, rfl, hf, fun _ => rfl, fun h => Bool.noConfusion h⟩

theorem final_of_not_le {m : Mode} (h : ¬ m.rank ≤ 15) : final_mode m = true := by
  revert h; cases m <;> simp [Mode.rank, final_mode]

theorem not_le_of_final {m : Mode} (h : final_mode m = true) : ¬ m.rank ≤ 15 := by
  revert h; cases m <;> simp [Mode.rank, final_mode]

/-- How the loop of one call ends: by `return` only when it was entered in `MEM` or `SYNC`
(nothing changes then); else at `inf_leave`, with `ret` equal to `Z_OK`, or
`Z_STREAM_END` in the mode `DONE`, or `Z_DATA_ERROR` in the mode `BAD`. -/
theorem passes_end {tb : table_builder} {flush : Int} {out : Nat}
    {s : inflate_stream} {ret : Int} {o : outcome}
    (hp : passes tb flush out s ret o) :
    (ret = 0 ∨ final_mode s.mode = true) →
    (o.is_done = true → o.st = s ∧ (s.mode = .MEM ∨ s.mode = .SYNC)) ∧
    (o.is_done = false → o.rc = Z_OK ∨ (o.rc = Z_STREAM_END ∧ o.st.mode = .DONE) ∨
      (o.rc = Z_DATA_ERROR ∧ o.st.mode = .BAD)) ∧
    (final_mode s.mode = true → o.st.next_out = s.next_out ∧ o.st.avail_out = s.avail_out ∧
      final_mode o.st.mode = true) := by
  induction hp with
  | last hs hc =>
    rename_i fuel s ret o
    intro hr
    by_cases h15 : s.mode.rank ≤ 15
    · obtain ⟨b1, b2, b3, b4⟩ := basic_step hs h15
      have hr0 : ret = 0 := by
        rcases hr with hr | hr
        · exact hr
        · exact absurd h15 (not_le_of_final hr)
      refine ⟨fun h => ?_, fun _ => Or.inl ?_, fun h => absurd h15 (not_le_of_final h)⟩
      · rw [b1] at h; cases h
      · rcases b4 with b4 | b4 | b4
        · exact b4.trans hr0
        · exact b4
        · rw [hc] at b4; exact Bool.noConfusion b4.1
    · obtain ⟨c1, c2, c3, c4, c5, c6⟩ := step_final hs (final_of_not_le h15)
      refine ⟨fun h => ⟨c5 h, ?_⟩, fun h => Or.inr (c6 h), fun _ => ⟨c2, c3, c4⟩⟩
      have := c5 h
      unfold step at hs
      have hmode : s.mode = .CHECK ∨ s.mode = .DONE ∨ s.mode = .BAD ∨ s.mode = .MEM ∨
          s.mode = .SYNC := by
        revert h15
        cases s.mode <;> simp [Mode.rank]
      rcases hmode with hm | hm | hm | hm | hm
      · rw [hm] at hs; cases hs; cases h
      · rw [hm] at hs; cases hs; cases h
      · rw [hm] at hs; cases hs; cases h
      · exact Or.inl hm
      · exact Or.inr hm
  | next hs hp ih =>
    rename_i fuel s ret s1 r1 o
    intro hr
    by_cases h15 : s.mode.rank ≤ 15
    · obtain ⟨b1, b2, b3, b4⟩ := basic_step hs h15
      have hr0 : ret = 0 := by
        rcases hr with hr | hr
        · exact hr
        · exact absurd h15 (not_le_of_final hr)
      have hrk : s1.mode.rank ≤ 18 := by
        rcases b3 with b3 | b3
        · rw [show s1.mode = s.mode from b3]; omega
        · exact b3
      obtain ⟨i1, i2, i3⟩ := ih (by
        rcases b4 with b4 | b4 | b4
        · left; exact (show r1 = ret from b4).trans hr0
        · left; exact b4
        · right; rw [show s1.mode = .BAD from b4.2]; rfl)
      refine ⟨fun h => ?_, i2, fun h => absurd h15 (not_le_of_final h)⟩
      obtain ⟨e1, e2⟩ := i1 h
      rcases e2 with e2 | e2 <;> rw [e2] at hrk <;> exact absurd hrk (by decide)
    · have := (step_final hs (final_of_not_le h15)).1
      cases this

theorem passes_not_cont {tb : table_builder} {flush : Int} {out : Nat}
    {s : inflate_stream} {ret : Int} {o : outcome}
    (hp : passes tb flush out s ret o) : o.is_cont = false := by
  induction hp with
  | last _ hc => exact hc
  | next _ _ ih => exact ih

theorem updatewindow_fail (alloc : allocator) (s : inflate_stream) (e : List Nat) (c : Nat)
    (h : (updatewindow alloc s e c).2 ≠ 0) :
    (updatewindow alloc s e c).1 = s ∧ s.window = none := by
  unfold updatewindow at h ⊢
  split
  · rename_i heq
    refine ⟨rfl, ?_⟩
    split at heq
    · cases heq
    · rename_i hw; exact hw
  · rename_i w heq
    rw [heq] at h
    dsimp only at h
    exfalso
    split_ifs at h <;> exact h rfl

theorem lastn_lastn_append {m k : Nat} (H W : List Nat) (h1 : m ≤ k + W.length) : lastn m (lastn k H ++ W) = lastn m (H ++ W) := by
  by_cases hm : m ≤ W.length
  · rw [lastn_append_le _ _ hm, lastn_append_le _ _ hm]
  · rw [lastn_append_ge _ _ (by omega), lastn_append_ge _ _ (by omega),
      lastn_lastn _ (by omega)]

theorem win_shape_of_fixed {s t : inflate_stream} (h : t.fixed = s.fixed) (hs : win_shape s) :
    win_shape t := by
  have e1 : t.wbits = s.wbits := congrArg fixed_part.wbits h
  have e2 : t.wsize = s.wsize := congrArg fixed_part.wsize h
  have e3 : t.whave = s.whave := congrArg fixed_part.whave h
  have e4 : t.wnext = s.wnext := congrArg fixed_part.wnext h
  have e5 : t.window = s.window := congrArg fixed_part.window h
  unfold win_shape
  rw [e1, e2, e3, e4, e5]; exact hs

theorem win_of_fixed {s t : inflate_stream} (h : t.fixed = s.fixed) : t.win = s.win := by
  have e3 : t.whave = s.whave := congrArg fixed_part.whave h
  have e4 : t.wnext = s.wnext := congrArg fixed_part.wnext h
  have e5 : t.window = s.window := congrArg fixed_part.window h
  unfold inflate_stream.win
  rw [e3, e4, e5]

/-- The code at `inf_leave` keeps what holds between calls, for the output extended by
the bytes `W` the call wrote. -/
theorem leave_between (alloc : allocator) (halloc : ∀ n w, alloc n = some w → w.length = n)
    (flush : Int) (in_ out : Nat) (s1 : inflate_stream) (r1 : Int) (H E W : List Nat)
    (hi : Inv s1) (hout : s1.next_out = E ++ W) (hu : usub out s1.avail_out = W.length)
    (hne : out ≠ s1.avail_out → W ≠ [])
    (hwin : (win_shape s1 ∧ s1.win = lastn s1.whave H ∧ s1.whave = min H.length s1.wsize) ∨
      (s1.wsize = 0 ∧ s1.whave = 0 ∧ (H = [] ∨ (W = [] ∧ final_mode s1.mode = true))))
    (hwl : ∀ w, s1.window = some w → w.length = 2 ^ s1.wbits) :
    between (inf_leave alloc flush in_ out s1 r1).2 (H ++ W) ∧
    (inf_leave alloc flush in_ out s1 r1).2.next_out = s1.next_out ∧
    (inf_leave alloc flush in_ out s1 r1).2.avail_out = s1.avail_out ∧
    (inf_leave alloc flush in_ out s1 r1).2.next_in = s1.next_in := by
  -- the state after the guarded call of updatewindow
  have key : (leave_update alloc flush out s1).2 = 0 →
      Inv (leave_update alloc flush out s1).1 ∧ win_ok (leave_update alloc flush out s1).1 (H ++ W) ∧
      (∀ w, (leave_update alloc flush out s1).1.window = some w →
        w.length = 2 ^ (leave_update alloc flush out s1).1.wbits) := by
    intro h0
    unfold leave_update at h0 ⊢
    by_cases hf : leave_folds flush out s1
    · rw [if_pos hf] at h0 ⊢
      rw [hu, hout] at h0 ⊢
      refine ⟨updatewindow_Inv _ _ _ _ hi, ?_⟩
      rcases hwin with ⟨a1, a2, a3⟩ | ⟨a1, a2, a3⟩
      · obtain ⟨c1, c2, c3, c4, c5⟩ := updatewindow_spec alloc s1 E W a1
        refine ⟨Or.inl ⟨c2, ?_, ?_⟩, ?_⟩
        · rw [c3, a2]
          exact lastn_lastn_append _ _ (by rw [c4]; omega)
        · rw [c4, c2.1, c5, ← a1.1, a3, List.length_append]; omega
        · intro w hw
          obtain ⟨w', e1, e2⟩ := c2.2.1
          rw [e1] at hw; cases hw
          rw [e2, c2.1]
      · -- the window is put in use by this call
        have hW : W ≠ [] := by
          apply hne
          rcases hf with hf | hf
          · exact absurd a1 hf
          · exact hf.1
        have hH : H = [] := by
          rcases a3 with a3 | a3
          · exact a3
          · exact absurd a3.1 hW
        have hsome : ∃ w, (s1.window = some w ∨ (s1.window = none ∧
            alloc (2 ^ s1.wbits) = some w)) ∧ w.length = 2 ^ s1.wbits := by
          rcases hw : s1.window with _ | w
          · rcases ha : alloc (2 ^ s1.wbits) with _ | w
            · exfalso
              have h1 : (updatewindow alloc s1 (E ++ W) W.length).2 = 1 := by
                unfold updatewindow
                rw [hw]; dsimp only; rw [ha]
              rw [h1] at h0
              exact absurd h0 (by decide)
            · exact ⟨w, Or.inr ⟨rfl, rfl⟩, halloc _ _ ha⟩
          · exact ⟨w, Or.inl rfl, hwl w hw⟩
        obtain ⟨w, hw, hl⟩ := hsome
        rw [updatewindow_init alloc s1 E W w a1 hw hl]
        have hsh : win_shape { s1 with window := some w, wsize := 2 ^ s1.wbits, wnext := 0, whave := 0 } :=
          ⟨rfl, ⟨w, rfl, hl⟩, Nat.two_pow_pos _, Nat.zero_le _, fun _ => rfl⟩
        have hwin0 : ∀ t : inflate_stream, t.whave = 0 → t.win = [] := by
          intro t ht
          unfold inflate_stream.win lin lastn
          rw [ht]; simp
        obtain ⟨c1, c2, c3, c4, c5⟩ := updatewindow_spec alloc _ E W hsh
        refine ⟨Or.inl ⟨c2, ?_, ?_⟩, ?_⟩
        · rw [c3, hwin0 _ rfl, hH]
        · rw [c4, c2.1, c5, hH]
          show min (0 + W.length) (2 ^ s1.wbits) = min ([] ++ W).length (2 ^ s1.wbits)
          simp
        · intro w2 hw2
          obtain ⟨w', e1, e2⟩ := c2.2.1
          rw [e1] at hw2; cases hw2
          rw [e2, c2.1]
    · rw [if_neg hf] at h0 ⊢
      refine ⟨hi, ?_, hwl⟩
      rcases hwin with ⟨a1, a2, a3⟩ | ⟨a1, a2, a3⟩
      · exfalso
        apply hf
        left
        have := a1.1
        have : 0 < 2 ^ s1.wbits := Nat.two_pow_pos _
        omega
      · refine Or.inr ⟨a1, a2, ?_⟩
        by_cases hW : W = []
        · rcases a3 with a3 | a3
          · left; rw [a3, hW]; rfl
          · right; exact a3.2
        · right
          have hH : H = [] := by
            rcases a3 with a3 | a3
            · exact a3
            · exact absurd a3.1 hW
          have hoa : out ≠ s1.avail_out := by
            intro he
            rw [he, usub_self] at hu
            exact hW (List.length_eq_zero.mp hu.symm)
          have hnf : ¬ (s1.mode.rank < Mode.BAD.rank ∧
              (s1.mode.rank < Mode.CHECK.rank ∨ flush ≠ Z_FINISH)) := by
            intro hc
            exact hf (Or.inr ⟨hoa, hc⟩)
          have hfin : final_mode s1.mode = true := by
            apply final_of_not_le
            intro h15
            apply hnf
            exact ⟨by show s1.mode.rank < 18; omega, Or.inl (by show s1.mode.rank < 16; omega)⟩
          exact hfin
  obtain ⟨f1, f2, f3, f4, f5, f6, f7, f8⟩ := leave_update_frame alloc flush out s1
  unfold inf_leave
  dsimp only
  by_cases h0 : (leave_update alloc flush out s1).2 ≠ 0
  · rw [if_pos h0]
    -- the allocation failed: nothing changed but the mode
    have hst : (leave_update alloc flush out s1).1 = s1 ∧ s1.window = none := by
      unfold leave_update at h0 ⊢
      split_ifs at h0 ⊢ with hf
      · exact updatewindow_fail _ _ _ _ h0
      · exact absurd rfl h0
    rw [hst.1]
    refine ⟨⟨⟨hi.sane, hi.dmax, hi.inb, hi.hold, Or.inr (wants_final rfl), mode_inv_plain rfl⟩,
      ?_, hwl⟩, rfl, rfl, rfl⟩
    rcases hwin with ⟨a1, a2, a3⟩ | ⟨a1, a2, a3⟩
    · obtain ⟨w, hw, _⟩ := a1.2.1
      rw [hst.2] at hw; cases hw
    · exact Or.inr ⟨a1, a2, Or.inr rfl⟩
  · rw [if_neg h0]
    obtain ⟨k1, k2, k3⟩ := key (not_not.mp h0)
    refine ⟨⟨⟨k1.sane, k1.dmax, k1.inb, k1.hold, k1.slack, k1.regs⟩, k2, k3⟩, f3, f2, f1⟩

theorem Inv_present {s : inflate_stream} (b : buffers) (h : Inv s) (hb : bytes b.next_in) :
    Inv (s.present b) :=
  ⟨h.sane, h.dmax, hb, h.hold, h.slack, h.regs⟩

theorem entry_out (s : inflate_stream) :
    (entry s).avail_out = s.avail_out ∧ (entry s).next_out = s.next_out ∧
    (entry s).fixed = s.fixed ∧ (entry s).next_in = s.next_in ∧
    (final_mode s.mode = true → entry s = s) := by
  unfold entry
  split_ifs with h
  · refine ⟨rfl, rfl, rfl, rfl, fun hf => ?_⟩
    rw [h] at hf; cases hf
  · exact ⟨rfl, rfl, rfl, rfl, fun _ => rfl⟩

theorem leave_Inv (alloc : allocator) (flush : Int) (in_ out : Nat) (s : inflate_stream)
    (r : Int) (h : Inv s) : Inv (inf_leave alloc flush in_ out s r).2 := by
  have hu : Inv (leave_update alloc flush out s).1 := by
    unfold leave_update
    split_ifs
    · exact updatewindow_Inv _ _ _ _ h
    · exact h
  unfold inf_leave
  dsimp only
  split_ifs
  · exact ⟨hu.sane, hu.dmax, hu.inb, hu.hold, Or.inr trivial, trivial⟩
  · exact ⟨hu.sane, hu.dmax, hu.inb, hu.hold, hu.slack, hu.regs⟩

theorem write_entry {tb : table_builder} {alloc : allocator} {fuel : Nat} {s : inflate_stream}
    {flush : Int} {p : Int × inflate_stream} (h : write tb alloc fuel s flush = some p) :
    p = (Z_STREAM_ERROR, s) ∨
    run tb alloc flush s.avail_in s.avail_out fuel (entry s) Z_OK = some p := by
  unfold write at h
  by_cases c : s.out_null ∨ (s.in_null ∧ s.avail_in ≠ 0)
  · rw [if_pos c] at h
    left; injection h with h; exact h.symm
  · rw [if_neg c] at h
    right
    change run tb alloc flush (entry s).avail_in (entry s).avail_out fuel (entry s) Z_OK =
      some p at h
    have e1 : (entry s).avail_in = s.avail_in := by
      unfold inflate_stream.avail_in; rw [(entry_out s).2.2.2.1]
    rw [e1, (entry_out s).1] at h
    exact h

/-- One call of `write` keeps the invariant of the state machine. -/
theorem write_Inv {tb : table_builder} (htb : wf_builder tb) {alloc : allocator} {fuel : Nat}
    {s : inflate_stream} {flush : Int} {r : Int} {s1 : inflate_stream} (h : Inv s)
    (ho : s.avail_out < 4294967296) (hw : write tb alloc fuel s flush = some (r, s1)) :
    Inv s1 := by
  rcases write_entry hw with e | e
  · injection e with _ e2; rw [e2]; exact h
  · obtain ⟨o, hp, hf⟩ := run_passes tb alloc flush _ _ fuel _ _ _ e
    have ha : acct s.avail_out (entry s).next_out.length (entry s) :=
      ⟨le_refl _, by rw [(entry_out s).1]; omega, ho⟩
    have hg := (passes_good (entry s).next_out.length htb hp (Inv_entry h) ha).1
    cases o with
    | cont s2 r2 => injection hf with _ e2; rw [e2]; exact hg
    | leave s2 r2 =>
      have e2 : s1 = (inf_leave alloc flush s.avail_in s.avail_out s2 r2).2 :=
        congrArg Prod.snd hf
      rw [e2]
      exact leave_Inv _ _ _ _ _ _ hg
    | done s2 r2 => injection hf with _ e2; rw [e2]; exact hg

/-- In a session that starts from a state in which the invariant holds whatever input is
presented, the invariant holds again of the stream the session ends with. -/
theorem session_Inv {tb : table_builder} (htb : wf_builder tb) (alloc : allocator)
    (fuel : Nat) :
    ∀ (calls : List (buffers × Int)) (s : inflate_stream) (tr : List call_record),
      session tb alloc fuel s calls = some tr →
      (∀ b : buffers, bytes b.next_in → Inv (s.present b)) →
      (∀ c ∈ calls, bytes c.1.next_in ∧ c.1.avail_out < 4294967296) →
      ∀ b : buffers, bytes b.next_in → Inv ((final_stream s tr).present b) := by
  intro calls
  induction calls with
  | nil =>
    intro s tr h hs _
    simp only [session, Option.some.injEq] at h
    subst h
    exact hs
  | cons bf rest ih =>
    intro s tr h hs hall
    obtain ⟨b, flush⟩ := bf
    unfold session at h
    rcases hw : write tb alloc fuel (s.present b) flush with _ | ⟨r, s1⟩
    · rw [hw] at h; cases h
    · rw [hw] at h
      dsimp only at h
      rcases hss : session tb alloc fuel s1 rest with _ | tr1
      · rw [hss] at h; cases h
      · rw [hss] at h
        injection h with h
        subst h
        have hb := hall (b, flush) (List.mem_cons_self _ _)
        have h1 : Inv s1 := write_Inv htb (hs b hb.1) hb.2 hw
        exact ih s1 tr1 hss (fun b2 hb2 => Inv_present b2 h1 hb2)
          (fun c2 hc2 => hall c2 (List.mem_cons_of_mem _ hc2))

theorem reset_Inv {w : Nat} {t s0 : inflate_stream} (h : reset w t = some s0) (b : buffers)
    (hb : bytes b.next_in) : Inv (s0.present b) := by
  obtain ⟨a1, a2, a3, a4, a5, a6, a7, a8, a9, a10, a11, a12, a13, a14, a15, a16⟩ :=
    reset_fields h
  refine ⟨a12, a13, hb, ?_, Or.inl ?_, mode_inv_plain ?_⟩
  · show s0.hold < 2 ^ s0.bits
    rw [a3, a4]; decide
  · show s0.bits < 8
    rw [a4]; decide
  · show plain_mode s0.mode = true
    rw [a1]; rfl

theorem between_present {s : inflate_stream} {H : List Nat} (b : buffers) (h : between s H)
    (hb : bytes b.next_in) : between (s.present b) H :=
  ⟨Inv_present b h.inv hb, h.win, h.wlen⟩

theorem reset_between {w : Nat} {t s0 : inflate_stream} (h : reset w t = some s0)
    (hwin : ∀ x, t.window = some x → x.length = 2 ^ t.wbits) (b : buffers)
    (hb : bytes b.next_in) : between (s0.present b) [] := by
  refine ⟨reset_Inv h b hb, Or.inr ⟨?_, ?_, Or.inl rfl⟩, ?_⟩
  · exact (reset_fields h).2.2.2.2.1
  · exact (reset_fields h).2.2.2.2.2.1
  · intro x hx
    unfold reset at h
    split_ifs at h with c1 c2
    · injection h with h
      subst h
      cases hx
    · injection h with h
      subst h
      have hx1 : t.window = some x := hx
      have : t.wbits = w := by
        by_contra hne
        exact c2 ⟨by rw [hx1]; rfl, hne⟩
      show x.length = 2 ^ w
      rw [← this]; exact hwin x hx1

/-- One call of `write` keeps what holds between calls, for the output extended by the
bytes the call wrote. -/
theorem write_between {tb : table_builder} (htb : wf_builder tb) {alloc : allocator}
    (halloc : ∀ n w, alloc n = some w → w.length = n) {fuel : Nat}
    {s : inflate_stream} {H : List Nat} {flush : Int} {r : Int} {s1 : inflate_stream}
    (h : between s H) (ho : s.avail_out < 4294967296)
    (hw : write tb alloc fuel s flush = some (r, s1)) :
    ∃ W, s1.next_out = s.next_out ++ W ∧ s1.avail_out + W.length = s.avail_out ∧
      between s1 (H ++ W) := by
  rcases write_entry hw with e | e
  · injection e with _ e2
    rw [e2]
    exact ⟨[], by simp, by simp, by rw [List.append_nil]; exact h⟩
  · obtain ⟨o, hp, hf⟩ := run_passes tb alloc flush _ _ fuel _ _ _ e
    obtain ⟨eo, en, ef, -, efin⟩ := entry_out s
    have ha : acct s.avail_out (entry s).next_out.length (entry s) :=
      ⟨le_refl _, by rw [eo]; omega, ho⟩
    obtain ⟨hg, W, w1, w2⟩ := passes_good (entry s).next_out.length htb hp (Inv_entry h.inv) ha
    have hfix : o.st.fixed = s.fixed := (passes_fixed hp).trans ef
    obtain ⟨p1, p2, p3⟩ := passes_end hp (Or.inl rfl)
    rw [en] at w1
    rw [eo] at w2
    cases o with
    | cont s2 r2 => exact absurd (passes_not_cont hp) (by simp [outcome.is_cont])
    | done s2 r2 =>
      injection hf with _ e2
      have := (p1 rfl).1
      have hs2 : s2 = entry s := this
      have hfin : final_mode s.mode = true := by
        have hm := (p1 rfl).2
        have hem : (entry s).mode = s.mode ∨ s.mode = .TYPE := by
          unfold entry; split_ifs with c
          · exact Or.inr c
          · exact Or.inl rfl
        rcases hem with hem | hem
        · rw [hem] at hm
          rcases hm with hm | hm <;> rw [hm] <;> rfl
        · exfalso
          have : (entry s).mode = .TYPEDO := by unfold entry; rw [if_pos hem]
          rw [this] at hm
          rcases hm with hm | hm <;> cases hm
      rw [e2, hs2, efin hfin]
      exact ⟨[], by simp, by simp, by rw [List.append_nil]; exact h⟩
    | leave s2 r2 =>
      have e2 : s1 = (inf_leave alloc flush s.avail_in s.avail_out s2 r2).2 :=
        congrArg Prod.snd hf
      have w1a : s2.next_out = s.next_out ++ W := w1
      have w2a : s2.avail_out + W.length = s.avail_out := w2
      have hu : usub s.avail_out s2.avail_out = W.length := by
        rw [usub_of_le (by omega) ho]; omega
      have hne : s.avail_out ≠ s2.avail_out → W ≠ [] := by
        intro hn hW
        rw [hW] at w2a
        simp at w2a
        exact hn w2a.symm
      have e3 : s2.whave = s.whave := congrArg fixed_part.whave hfix
      have e4 : s2.wsize = s.wsize := congrArg fixed_part.wsize hfix
      have e5 : s2.window = s.window := congrArg fixed_part.window hfix
      have e6 : s2.wbits = s.wbits := congrArg fixed_part.wbits hfix
      have hfix2 : s2.fixed = s.fixed := hfix
      have e7 : s2.win = s.win := win_of_fixed hfix2
      have hwin : (win_shape s2 ∧ s2.win = lastn s2.whave H ∧ s2.whave = min H.length s2.wsize) ∨
          (s2.wsize = 0 ∧ s2.whave = 0 ∧ (H = [] ∨ (W = [] ∧ final_mode s2.mode = true))) := by
        rcases h.win with ⟨a1, a2, a3⟩ | ⟨a1, a2, a3⟩
        · left
          refine ⟨win_shape_of_fixed hfix2 a1, ?_, ?_⟩
          · rw [e7, e3]; exact a2
          · rw [e3, e4]; exact a3
        · right
          refine ⟨by rw [e4]; exact a1, by rw [e3]; exact a2, ?_⟩
          rcases a3 with a3 | a3
          · exact Or.inl a3
          · right
            have hfe : final_mode (entry s).mode = true := by rw [efin a3]; exact a3
            obtain ⟨q1, q2, q3⟩ := p3 hfe
            have q1a : s2.next_out = (entry s).next_out := q1
            rw [en, w1a] at q1a
            exact ⟨by simpa using q1a, q3⟩
      have hwl : ∀ w, s2.window = some w → w.length = 2 ^ s2.wbits := by
        intro w hw2
        rw [e5] at hw2
        rw [e6]; exact h.wlen w hw2
      obtain ⟨b1, b2, b3, -⟩ := leave_between alloc halloc flush s.avail_in s.avail_out s2 r2
        H s.next_out W hg w1a hu hne hwin hwl
      rw [e2]
      exact ⟨W, by rw [b2]; exact w1a, by rw [b3]; exact w2a, b1⟩

theorem history_cons (c : call_record) (tr : List call_record) :
    history (c :: tr) = c.after.next_out.drop c.before.next_out.length ++ history tr := by
  simp [history]

theorem history_append (t1 t2 : List call_record) :
    history (t1 ++ t2) = history t1 ++ history t2 := by
  simp [history]

theorem wf_no_tables : wf_builder no_tables := by
  intro lens bits
  refine ⟨fun h => ?_, fun h => ?_, fun h => ?_⟩ <;>
  · change (1 : Int) = 0 at h
    exact absurd h (by decide)

theorem leave_ret_ne_mem (flush : Int) (in_ out : Nat) (r : Int)
    (h : r = Z_OK ∨ r = Z_STREAM_END ∨ r = Z_DATA_ERROR) :
    leave_ret flush in_ out r ≠ Z_MEM_ERROR := by
  unfold leave_ret
  split_ifs
  · decide
  · rcases h with h | h | h <;> rw [h] <;> decide

theorem rank_ne_mem {m : Mode} (h : m.rank ≤ 18) : m ≠ .MEM := by
  intro e; rw [e] at h; exact absurd h (by decide)

/-- One call of `write` keeps the agreement of `total_out` with the output. -/
theorem write_tot {tb : table_builder} {alloc : allocator} {fuel : Nat}
    {s : inflate_stream} {H : List Nat} {flush : Int} {r : Int} {s1 : inflate_stream}
    (h : between s H) (ht : tot_ok s H) (ho : s.avail_out < 4294967296)
    (hw : write tb alloc fuel s flush = some (r, s1)) (W : List Nat)
    (w2 : s1.avail_out + W.length = s.avail_out) : tot_ok s1 (H ++ W) := by
  have same : s1 = s → tot_ok s1 (H ++ W) := by
    intro e
    rw [e] at w2 ⊢
    have : W = [] := List.length_eq_zero.mp (by omega)
    rw [this, List.append_nil]; exact ht
  rcases write_result hw with ⟨-, -, e⟩ | ⟨-, ⟨-, -, e⟩ | ⟨-, -, e⟩ | ⟨hm, s2, r2, c1, c2, c3, c4⟩⟩
  · exact same e
  · exact same e
  · exact same e
  · have e1 : r = (inf_leave alloc flush s.avail_in s.avail_out s2 r2).1 := congrArg Prod.fst c4
    have e2 : s1 = (inf_leave alloc flush s.avail_in s.avail_out s2 r2).2 := congrArg Prod.snd c4
    by_cases hu : (leave_update alloc flush s.avail_out s2).2 = 0
    · obtain ⟨k1, k2, -, -, -, k6⟩ := inf_leave_ok alloc flush s.avail_in s.avail_out s2 r2 hu
      have hne : (inf_leave alloc flush s.avail_in s.avail_out s2 r2).1 ≠ Z_MEM_ERROR := by
        rw [k1]; exact leave_ret_ne_mem _ _ _ _ c3
      obtain ⟨-, t2, -⟩ := inf_leave_totals alloc flush s.avail_in s.avail_out s2 r2 hne
      rw [← e2] at k2 t2
      have f2 : s2.total_out = s.total_out := congrArg fixed_part.total_out c1
      refine ⟨fun hM => absurd hM (by rw [k2]; exact rank_ne_mem c2), fun _ => ?_⟩
      rw [t2, f2, ht.2 (rank_ne_mem hm), usub_of_le (by omega) ho, List.length_append]
      omega
    · have hmode : s1.mode = .MEM ∧ s1.wsize = s2.wsize ∧ s2.window = none := by
        rw [e2]
        unfold inf_leave
        dsimp only
        rw [if_pos hu]
        dsimp only
        unfold leave_update at hu ⊢
        by_cases hf : leave_folds flush s.avail_out s2
        · rw [if_pos hf] at hu ⊢
          obtain ⟨u1, u2⟩ := updatewindow_fail _ _ _ _ hu
          rw [u1]; exact ⟨rfl, rfl, u2⟩
        · rw [if_neg hf] at hu
          exact absurd rfl hu
      have f3 : s2.wsize = s.wsize := congrArg fixed_part.wsize c1
      have f4 : s2.window = s.window := congrArg fixed_part.window c1
      refine ⟨fun _ => ?_, fun hM => absurd hmode.1 hM⟩
      rw [hmode.2.1, f3]
      rcases h.win with ⟨a1, -, -⟩ | ⟨a1, -, -⟩
      · obtain ⟨-, ⟨x, hx, -⟩, -⟩ := a1
        rw [← f4, hmode.2.2] at hx
        cases hx
      · exact a1

theorem tot_present {s : inflate_stream} {H : List Nat} (b : buffers) (h : tot_ok s H) :
    tot_ok (s.present b) H := h

theorem reset_ready {w : Nat} {t s0 : inflate_stream} (h : reset w t = some s0)
    (hwin : ∀ x, t.window = some x → x.length = 2 ^ t.wbits) : ready s0 [] := by
  refine ⟨fun b hb => reset_between h hwin b hb, fun _ => (reset_fields h).2.2.2.2.1, fun _ => ?_⟩
  rw [(reset_fields h).2.2.2.2.2.2.2.2.2.1]; rfl

/-- A session keeps the stream ready for the next call, for the output extended by what
the calls wrote. -/
theorem session_ready {tb : table_builder} (htb : wf_builder tb) {alloc : allocator}
    (halloc : ∀ n w, alloc n = some w → w.length = n) (fuel : Nat) :
    ∀ (calls : List (buffers × Int)) (s : inflate_stream) (H : List Nat)
      (tr : List call_record),
      session tb alloc fuel s calls = some tr → ready s H →
      (∀ c ∈ calls, bytes c.1.next_in ∧ c.1.avail_out < 4294967296) →
      ready (final_stream s tr) (H ++ history tr) := by
  intro calls
  induction calls with
  | nil =>
    intro s H tr h hs _
    simp only [session, Option.some.injEq] at h
    subst h
    simpa [final_stream, history] using hs
  | cons bf rest ih =>
    intro s H tr h hs hall
    obtain ⟨b, flush⟩ := bf
    unfold session at h
    rcases hw : write tb alloc fuel (s.present b) flush with _ | ⟨r, s1⟩
    · rw [hw] at h; cases h
    · rw [hw] at h
      dsimp only at h
      rcases hss : session tb alloc fuel s1 rest with _ | tr1
      · rw [hss] at h; cases h
      · rw [hss] at h
        injection h with h
        subst h
        have hb := hall (b, flush) (List.mem_cons_self _ _)
        have h0 : between (s.present b) H := hs.1 b hb.1
        obtain ⟨W, w1, w2, w3⟩ := write_between htb halloc h0 hb.2 hw
        have t1 : tot_ok s1 (H ++ W) := write_tot h0 (tot_present b hs.2) hb.2 hw W w2
        have hW : s1.next_out.drop (s.present b).next_out.length = W := by
          rw [w1]; simp
        have := ih s1 (H ++ W) tr1 hss ⟨fun b2 hb2 => between_present b2 w3 hb2, t1⟩
          (fun c2 hc2 => hall c2 (List.mem_cons_of_mem _ hc2))
        rw [history_cons]
        show ready (final_stream s1 tr1) _
        dsimp only
        rw [hW, ← List.append_assoc]
        exact this

/-- C6 (amended): after every sequence of calls of `write` on a freshly reset stream,
if the window is in use (`wsize` is not 0) then `whave = min total_out (2 ^ wbits)`,
`total_out` is the number of bytes written since the reset, and the last `whave` of
these bytes are the window contents read oldest first, that is the last `whave` bytes of
`window[wnext ..]` followed by `window[.. wnext]`; the window is not in use only when
nothing was written yet or the stream has ended or failed. -/
theorem window_consistency (tb : table_builder) (alloc : allocator) (fuel : Nat) (w : Nat)
    (t s0 : inflate_stream) (calls : List (buffers × Int)) (tr : List call_record)
    (htb : wf_builder tb) (halloc : ∀ n x, alloc n = some x → x.length = n)
    (hwin : ∀ x, t.window = some x → x.length = 2 ^ t.wbits)
    (hreset : reset w t = some s0)
    (hs : session tb alloc fuel s0 calls = some tr)
    (hb : ∀ c ∈ calls, bytes c.1.next_in ∧ c.1.avail_out < 4294967296) :
    ((final_stream s0 tr).wsize ≠ 0 →
      (final_stream s0 tr).whave =
        min (final_stream s0 tr).total_out (2 ^ (final_stream s0 tr).wbits) ∧
      (final_stream s0 tr).total_out = (history tr).length ∧
      lastn (final_stream s0 tr).whave (history tr) =
        lastn (final_stream s0 tr).whave
          (((final_stream s0 tr).window.getD []).drop (final_stream s0 tr).wnext ++
            ((final_stream s0 tr).window.getD []).take (final_stream s0 tr).wnext)) ∧
    ((final_stream s0 tr).wsize = 0 →
      history tr = [] ∨ final_mode (final_stream s0 tr).mode = true) := by
  have hr := session_ready htb halloc fuel calls s0 [] tr hs (reset_ready hreset hwin) hb
  rw [List.nil_append] at hr
  obtain ⟨h1, h2⟩ := hr
  have hw : win_ok (final_stream s0 tr) (history tr) :=
    (h1 ⟨false, [], false, [], 0⟩ (by intro x hx; cases hx)).win
  constructor
  · intro hne
    rcases hw with ⟨a1, a2, a3⟩ | ⟨a1, -, -⟩
    · have hm : (final_stream s0 tr).mode ≠ .MEM := fun e => hne (h2.1 e)
      have ht := h2.2 hm
      refine ⟨?_, ht, a2.symm⟩
      rw [a3, ht, a1.1]
    · exact absurd a1 hne
  · intro h0
    rcases hw with ⟨a1, -, -⟩ | ⟨-, -, a3⟩
    · obtain ⟨b1, -, b3, -⟩ := a1
      rw [h0] at b3
      exact absurd b3 (Nat.not_lt_zero _)
    · exact a3

set_option maxRecDepth 100000 in
/-- Witness for `window_consistency`: after the two calls that decode "abcabc" the window
holds these six bytes. -/
theorem window_consistency_witness :
    lastn 6 [97, 98, 99, 97, 98, 99] =
      lastn 6
        (((final_stream (fresh 15)
            ((session no_tables zero_alloc 20 (fresh 15) two_calls).getD [])).window.getD []).drop 6 ++
         ((final_stream (fresh 15)
            ((session no_tables zero_alloc 20 (fresh 15) two_calls).getD [])).window.getD []).take 6) := by
  have h := (window_consistency no_tables zero_alloc 20 15 zero_stream (fresh 15) two_calls
    ((session no_tables zero_alloc 20 (fresh 15) two_calls).getD [])
    wf_no_tables
    (fun n x hx => by cases hx; simp) (fun x hx => by cases hx) rfl
    (eq_some_getD _ (by decide!)) (by decide)).1 (by decide!)
  have e1 : (final_stream (fresh 15)
      ((session no_tables zero_alloc 20 (fresh 15) two_calls).getD [])).whave = 6 := by decide!
  have e2 : (final_stream (fresh 15)
      ((session no_tables zero_alloc 20 (fresh 15) two_calls).getD [])).wnext = 6 := by decide!
  have e3 : history ((session no_tables zero_alloc 20 (fresh 15) two_calls).getD []) =
      [97, 98, 99, 97, 98, 99] := by decide!
  have h3 := h.2.2
  rw [e1, e2, e3] at h3
  exact h3

set_option maxRecDepth 100000 in
/-- C6 (counterexample): after the one call that decodes the literal "a" with an 8-bit
window the call has written the byte 97, `whave = 1` and `wnext = 1`, and the byte
`window[wnext]` the stated linearisation reads is 0, not 97. -/
theorem window_linear_start :
    ((session no_tables zero_alloc 20 (fresh 8) one_literal).getD []).map
      (fun c => (c.after.next_out, c.after.whave, c.after.wnext, spec_linear c.after,
        lastn (min c.after.total_out (2 ^ c.after.wbits)) c.after.next_out))
      = [([97], 1, 1, [0], [97])] := by
  decide!

theorem visits_nth (tb : table_builder) (fuel : Nat) (flush : Int) (out : Nat) :
    ∀ (k : Nat) (s : inflate_stream) (ret : Int) (s2 : inflate_stream),
      nth_pass tb fuel flush out k s ret = some s2 → visits tb flush out s ret s2 := by
  intro k
  induction k with
  | zero =>
    intro s ret s2 h
    simp only [nth_pass, Option.some.injEq] at h
    subst h
    exact visits.here _ _
  | succ k ih =>
    intro s ret s2 h
    unfold nth_pass at h
    rcases hs : step tb fuel flush out s ret with _ | o
    · rw [hs] at h; cases h
    · rw [hs] at h
      cases o with
      | cont s1 r1 => exact visits.next hs (ih s1 r1 s2 h)
      | leave s1 r1 => cases h
      | done s1 r1 => cases h

theorem tm_frame {out : Nat} {s t : inflate_stream} {ret : Int} {o : outcome}
    (h : to_match out t ret o) (e1 : t.next_out = s.next_out) (e2 : t.avail_out = s.avail_out)
    (e3 : t.fixed = s.fixed) : to_match out s ret o := by
  rcases h with h | ⟨m, h1, h2, h3, h4, h5, h6⟩
  · exact Or.inl (h.trans e1)
  · exact Or.inr ⟨m, h1, h2, h3.trans e1, h4.trans e2, h5.trans e3, h6⟩

theorem tm_MATCH (out : Nat) (s : inflate_stream) (ret : Int) (h : Inv s)
    (hm : s.mode = .MATCH) : to_match out s ret (case_MATCH out s ret) :=
  Or.inr ⟨s, h, hm, rfl, rfl, rfl, rfl⟩

theorem tm_DISTEXT (out : Nat) (s : inflate_stream) (ret : Int) (h : Inv s)
    (hm : s.mode = .DISTEXT) : to_match out s ret (case_DISTEXT out s ret) := by
  obtain ⟨hw, hl, he, ho1, ho2⟩ := me_DISTEXT h.regs hm
  have hsl := we_EXT h.slack (Or.inr hm)
  unfold case_DISTEXT
  by_cases h0 : s.extra ≠ 0
  · rw [if_pos h0]
    obtain ⟨k, hp, hstop, hmin⟩ := NEEDBITS_spec s.extra s
    have hh := pulled_hold hp h.inb h.hold
    have hI := pulled_bytes hp h.inb
    dsimp only
    by_cases h2 : (NEEDBITS s.extra s).bits < s.extra
    · rw [if_pos h2]
      exact Or.inl rfl
    · rw [if_neg h2]
      refine tm_frame (tm_MATCH _ _ _ ?_ rfl) rfl rfl rfl
      have := pow_mod_lt (NEEDBITS s.extra s).hold s.extra
      exact ⟨h.sane, h.dmax, hI, div_pow_lt hh,
        Or.inl (by omega : (NEEDBITS s.extra s).bits - s.extra < 8),
        mi_MATCH rfl ⟨hw, ⟨(by omega : 1 ≤ s.length), hl.2⟩,
          (by omega : 1 ≤ s.offset + (NEEDBITS s.extra s).hold % 2 ^ s.extra),
          (by omega : s.offset + (NEEDBITS s.extra s).hold % 2 ^ s.extra ≤ 32768)⟩⟩
  · rw [if_neg h0]
    refine tm_frame (tm_MATCH _ _ _ ?_ rfl) rfl rfl rfl
    have h0 : s.extra = 0 := not_not.mp h0
    rw [h0] at ho2
    exact ⟨h.sane, h.dmax, h.inb, h.hold, Or.inl (by omega : s.bits < 8),
      mi_MATCH rfl ⟨hw, ⟨(by omega : 1 ≤ s.length), hl.2⟩, ho1, (by omega : s.offset ≤ 32768)⟩⟩

theorem tm_dist_go (out : Nat) (s : inflate_stream) (here : code) (ret : Int)
    (hs : s.sane = 1) (hd : s.dmax = 32768) (hI : bytes s.next_in) (hh : s.hold < 2 ^ s.bits)
    (hb : s.bits - here.bits < 8) (hw : wf_len s ∧ wf_dist s)
    (hl : 3 ≤ s.length ∧ s.length ≤ 258) (hterm : dist_term here = true) :
    to_match out s ret (dist_go out s here ret) := by
  unfold dist_go
  dsimp only
  by_cases h64 : here.op &&& 64 ≠ 0
  · rw [if_pos h64]
    exact Or.inl rfl
  · rw [if_neg h64]
    obtain ⟨h1, h2, h3, _⟩ := dist_base hterm (not_not.mp h64)
    refine tm_frame (tm_DISTEXT _ _ _ ?_ rfl) rfl rfl rfl
    exact ⟨hs, hd, hI, div_pow_lt hh, Or.inl hb, mi_DISTEXT rfl ⟨hw, hl, h1, h2, h3⟩⟩

theorem tm_DIST (out : Nat) (s : inflate_stream) (ret : Int) (h : Inv s)
    (hm : s.mode = .DIST) : to_match out s ret (case_DIST out s ret) := by
  obtain ⟨hw, hl⟩ := me_DIST h.regs hm
  have hwd : wf_table dist_term (s.tab s.distcode) s.distbits = true := hw.2
  have hsl := we_DIST h.slack hm
  have hlink : ∀ t : inflate_stream, t.codes = s.codes →
      ((here1 t s.distcode s.distbits).op &&& 240 = 0 ↔
        is_link (here1 t s.distcode s.distbits).op = true) := by
    intro t ht
    have : here1 t s.distcode s.distbits = s.tab s.distcode (t.hold % 2 ^ s.distbits) := by
      show code_at t.codes _ _ = code_at s.codes _ _; rw [ht]; rfl
    rw [this]; exact dist_link_iff hwd (pow_mod_lt _ _)
  obtain ⟨⟨k, hp⟩, hstop, hdone⟩ := decode_slack s s.distcode s.distbits dist_term hwd (by
    rcases hsl with h1 | h1 | h1
    · exact Or.inl h1
    · exact Or.inr (Or.inl h1)
    · exact Or.inr (Or.inr ⟨(hlink s rfl).mp h1.1, h1.2⟩))
  have hh := pulled_hold hp h.inb h.hold
  have hI := pulled_bytes hp h.inb
  unfold case_DIST
  dsimp only
  by_cases h1 : (lookup1 s s.distcode s.distbits).bits <
      (here1 (lookup1 s s.distcode s.distbits) s.distcode s.distbits).bits
  · rw [if_pos h1]
    exact Or.inl rfl
  · rw [if_neg h1]
    obtain ⟨hterm, hlk⟩ := hdone h1
    by_cases h2 : (here1 (lookup1 s s.distcode s.distbits) s.distcode s.distbits).op &&& 240 = 0
    · rw [if_pos h2]
      obtain ⟨⟨k2, hp2⟩, hsame, hstop2, hdone2⟩ := hlk ((hlink (lookup1 s s.distcode s.distbits) rfl).mp h2)
      have hh2 := pulled_hold hp2 hI hh
      have hI2 := pulled_bytes hp2 hI
      by_cases h3 : (lookup2 (lookup1 s s.distcode s.distbits) s.distcode
          (here1 (lookup1 s s.distcode s.distbits) s.distcode s.distbits)).bits <
          (here1 (lookup1 s s.distcode s.distbits) s.distcode s.distbits).bits +
            (here2 (lookup2 (lookup1 s s.distcode s.distbits) s.distcode
              (here1 (lookup1 s s.distcode s.distbits) s.distcode s.distbits)) s.distcode
              (here1 (lookup1 s s.distcode s.distbits) s.distcode s.distbits)).bits
      · rw [if_pos h3]
        exact Or.inl rfl
      · rw [if_neg h3]
        obtain ⟨ht2, _, hb2⟩ := hdone2 h3
        exact tm_frame (tm_dist_go _ _ _ _ h.sane h.dmax hI2 (div_pow_lt hh2) hb2 hw hl ht2)
          rfl rfl rfl
    · rw [if_neg h2]
      obtain ⟨ht1, hb1⟩ := hterm (by
        by_contra hc
        exact h2 ((hlink (lookup1 s s.distcode s.distbits) rfl).mpr (by simpa using hc)))
      exact tm_frame (tm_dist_go _ _ _ _ h.sane h.dmax hI hh hb1 hw hl ht1) rfl rfl rfl

theorem tm_LENEXT (out : Nat) (s : inflate_stream) (ret : Int) (h : Inv s)
    (hm : s.mode = .LENEXT) : to_match out s ret (case_LENEXT out s ret) := by
  obtain ⟨hw, hl, he, hl2⟩ := me_LENEXT h.regs hm
  have hsl := we_EXT h.slack (Or.inl hm)
  unfold case_LENEXT
  by_cases h0 : s.extra ≠ 0
  · rw [if_pos h0]
    obtain ⟨k, hp, hstop, hmin⟩ := NEEDBITS_spec s.extra s
    have hh := pulled_hold hp h.inb h.hold
    have hI := pulled_bytes hp h.inb
    dsimp only
    by_cases h2 : (NEEDBITS s.extra s).bits < s.extra
    · rw [if_pos h2]
      exact Or.inl rfl
    · rw [if_neg h2]
      refine tm_frame (tm_DIST _ _ _ ?_ rfl) rfl rfl rfl
      have := pow_mod_lt (NEEDBITS s.extra s).hold s.extra
      exact ⟨h.sane, h.dmax, hI, div_pow_lt hh,
        Or.inl (by omega : (NEEDBITS s.extra s).bits - s.extra < 8),
        mi_DIST rfl ⟨hw, (by omega : 3 ≤ s.length + (NEEDBITS s.extra s).hold % 2 ^ s.extra),
          (by omega : s.length + (NEEDBITS s.extra s).hold % 2 ^ s.extra ≤ 258)⟩⟩
  · rw [if_neg h0]
    refine tm_frame (tm_DIST _ _ _ ?_ rfl) rfl rfl rfl
    have h0 : s.extra = 0 := not_not.mp h0
    rw [h0] at hl2
    exact ⟨h.sane, h.dmax, h.inb, h.hold, Or.inl (by omega : s.bits < 8),
      mi_DIST rfl ⟨hw, hl, (by omega : s.length ≤ 258)⟩⟩

theorem tm_len_go (out : Nat) (s : inflate_stream) (here : code) (ret : Int)
    (hs : s.sane = 1) (hd : s.dmax = 32768) (hI : bytes s.next_in) (hh : s.hold < 2 ^ s.bits)
    (hb : s.bits - here.bits < 8) (hw : wf_len s ∧ wf_dist s)
    (hterm : len_term here = true) : to_match out s ret (len_go out s here ret) := by
  unfold len_go
  dsimp only
  by_cases h0 : here.op = 0
  · rw [if_pos h0]
    exact Or.inl rfl
  · rw [if_neg h0]
    by_cases h32 : here.op &&& 32 ≠ 0
    · rw [if_pos h32]
      exact Or.inl rfl
    · rw [if_neg h32]
      by_cases h64 : here.op &&& 64 ≠ 0
      · rw [if_pos h64]
        exact Or.inl rfl
      · rw [if_neg h64]
        obtain ⟨h1, h2, h3, _⟩ := len_base hterm h0 (not_not.mp h64)
        refine tm_frame (tm_LENEXT _ _ _ ?_ rfl) rfl rfl rfl
        exact ⟨hs, hd, hI, div_pow_lt hh, Or.inl hb, mi_LENEXT rfl ⟨hw, h2, h1, h3⟩⟩

theorem tm_LEN_slow (out : Nat) (s : inflate_stream) (ret : Int) (h : Inv s)
    (hm : s.mode = .LEN) : to_match out s ret (case_LEN_slow out s ret) := by
  have hw := me_LEN h.regs (Or.inr (Or.inl hm))
  have hwd : wf_table len_term (s.tab s.lencode) s.lenbits = true := hw.1
  have hsl := we_LEN h.slack (Or.inr hm)
  have hlink : ∀ t : inflate_stream, t.codes = s.codes →
      (((here1 t s.lencode s.lenbits).op ≠ 0 ∧ (here1 t s.lencode s.lenbits).op &&& 240 = 0) ↔
        is_link (here1 t s.lencode s.lenbits).op = true) := by
    intro t ht
    have : here1 t s.lencode s.lenbits = s.tab s.lencode (t.hold % 2 ^ s.lenbits) := by
      show code_at t.codes _ _ = code_at s.codes _ _; rw [ht]; rfl
    rw [this]; exact len_link_iff hwd (pow_mod_lt _ _)
  obtain ⟨⟨k, hp⟩, hstop, hdone⟩ := decode_slack { s with back := 0 } s.lencode s.lenbits
    len_term hwd (by
    rcases hsl with h1 | h1 | h1
    · exact Or.inl h1
    · exact Or.inr (Or.inl h1)
    · exact Or.inr (Or.inr ⟨(hlink s rfl).mp ⟨h1.1, h1.2.1⟩, h1.2.2⟩))
  have hh := pulled_hold hp h.inb h.hold
  have hI := pulled_bytes hp h.inb
  unfold case_LEN_slow
  dsimp only
  by_cases h1 : (lookup1 { s with back := 0 } s.lencode s.lenbits).bits <
      (here1 (lookup1 { s with back := 0 } s.lencode s.lenbits) s.lencode s.lenbits).bits
  · rw [if_pos h1]
    exact Or.inl rfl
  · rw [if_neg h1]
    obtain ⟨hterm, hlk⟩ := hdone h1
    by_cases h2 : (here1 (lookup1 { s with back := 0 } s.lencode s.lenbits) s.lencode
        s.lenbits).op ≠ 0 ∧ (here1 (lookup1 { s with back := 0 } s.lencode s.lenbits) s.lencode
        s.lenbits).op &&& 240 = 0
    · rw [if_pos h2]
      obtain ⟨⟨k2, hp2⟩, hsame, hstop2, hdone2⟩ := hlk ((hlink (lookup1 { s with back := 0 } s.lencode s.lenbits) rfl).mp h2)
      have hh2 := pulled_hold hp2 hI hh
      have hI2 := pulled_bytes hp2 hI
      by_cases h3 : (lookup2 (lookup1 { s with back := 0 } s.lencode s.lenbits) s.lencode
          (here1 (lookup1 { s with back := 0 } s.lencode s.lenbits) s.lencode s.lenbits)).bits <
          (here1 (lookup1 { s with back := 0 } s.lencode s.lenbits) s.lencode s.lenbits).bits +
            (here2 (lookup2 (lookup1 { s with back := 0 } s.lencode s.lenbits) s.lencode
              (here1 (lookup1 { s with back := 0 } s.lencode s.lenbits) s.lencode s.lenbits))
              s.lencode
              (here1 (lookup1 { s with back := 0 } s.lencode s.lenbits) s.lencode s.lenbits)).bits
      · rw [if_pos h3]
        exact Or.inl rfl
      · rw [if_neg h3]
        obtain ⟨ht2, _, hb2⟩ := hdone2 h3
        exact tm_frame (tm_len_go _ _ _ _ h.sane h.dmax hI2 (div_pow_lt hh2) hb2 hw ht2)
          rfl rfl rfl
    · rw [if_neg h2]
      obtain ⟨ht1, hb1⟩ := hterm (by
        by_contra hc
        exact h2 ((hlink (lookup1 { s with back := 0 } s.lencode s.lenbits) rfl).mpr (by simpa using hc)))
      exact tm_frame (tm_len_go _ _ _ _ h.sane h.dmax hI hh hb1 hw ht1) rfl rfl rfl

/-- The case `MATCH` on a distance that reaches further back than the window and the
output of this call together: no byte is written, the mode becomes `BAD`. -/
theorem match_too_far (out : Nat) (m : inflate_stream) (ret : Int) (hs : m.sane = 1)
    (h0 : m.avail_out ≠ 0) (hle : m.avail_out ≤ out) (ho : out < 4294967296)
    (hfar : m.whave + (out - m.avail_out) < m.offset) :
    case_MATCH out m ret =
      .cont { m with msg := some "invalid distance too far back", mode := .BAD } ret := by
  unfold case_MATCH
  rw [if_neg h0]
  dsimp only
  rw [usub_of_le hle ho, if_pos (by omega), if_pos ⟨by omega, by rw [hs]; decide⟩]

/-- The case `MATCH` writes something only when the distance is within the window and the
output of this call. -/
theorem match_near (out : Nat) (m : inflate_stream) (ret : Int) (hs : m.sane = 1)
    (hle : m.avail_out ≤ out) (ho : out < 4294967296)
    (hne : (case_MATCH out m ret).st.next_out ≠ m.next_out) :
    m.avail_out ≠ 0 ∧ m.offset ≤ m.whave + (out - m.avail_out) := by
  by_cases h0 : m.avail_out = 0
  · exfalso
    apply hne
    unfold case_MATCH
    rw [if_pos h0]; rfl
  · refine ⟨h0, ?_⟩
    by_contra hfar
    apply hne
    rw [match_too_far out m ret hs h0 hle ho (by omega)]; rfl

/-- How the code at `dodist` ends on a terminal entry of the distance table. -/
theorem fast_dodist_near (s : inflate_stream) (hs : s.sane = 1) (inp : List Nat)
    (beg out0 len fuel : Nat) (here : code) (l : fast_locals) (r : fast_end)
    (hterm : dist_term here = true)
    (h : fast_dodist s inp beg out0 len (fuel + 1) here l = some r) :
    (∃ l1, l1.out = l.out ∧ r = .brk l1 .BAD (some "invalid distance code")) ∨
    ∃ dist l1, l1.out = l.out ∧ 1 ≤ dist ∧ dist ≤ 32768 ∧
      ((s.whave + (beg + (l.out.length - out0)) < dist ∧
          r = .brk l1 .BAD (some "invalid distance too far back")) ∨
        (beg + (l.out.length - out0) < dist ∧ dist ≤ s.whave + (beg + (l.out.length - out0)) ∧
          r = .test ⟨l1.cin, fast_window_copy (s.window.getD []) s.wsize s.wnext l.out
            (dist - (beg + (l.out.length - out0))) len dist, l1.hold, l1.bits⟩) ∨
        (dist ≤ beg + (l.out.length - out0) ∧
          r = .test ⟨l1.cin, out_copy dist (fast_direct_count len) l.out, l1.hold,
            l1.bits⟩)) := by
  unfold fast_dodist at h
  dsimp only at h
  have hout : (((l.drop here.bits).need2 inp (here.op &&& 15)).drop (here.op &&& 15)).out =
      l.out := by
    show ((l.drop here.bits).need2 inp (here.op &&& 15)).out = l.out
    rw [need2_out]; rfl
  rw [hout] at h
  by_cases c1 : here.op &&& 16 ≠ 0
  · rw [if_pos c1] at h
    have hbase : 16 ≤ here.op ∧ here.op ≤ 29 ∧ 1 ≤ here.val ∧
        here.val + 2 ^ (here.op - 16) ≤ 32769 := by
      simp only [dist_term, Bool.or_eq_true, Bool.and_eq_true, decide_eq_true_eq, beq_iff_eq,
        bne_iff_ne] at hterm
      rcases hterm with h1 | h1
      · exact ⟨h1.1.1.1, h1.1.1.2, h1.1.2, h1.2⟩
      · exact absurd h1.1.2 c1
    have h15 : here.op &&& 15 = here.op - 16 :=
      ((op_facts here.op (by omega)).1 ⟨hbase.1, by omega⟩).2.2.2.1
    have hlt : ((l.drop here.bits).need2 inp (here.op &&& 15)).hold % 2 ^ (here.op &&& 15) <
        2 ^ (here.op - 16) := lt_of_lt_of_eq (pow_mod_lt _ _) (by rw [h15])
    right
    refine ⟨here.val +
        ((l.drop here.bits).need2 inp (here.op &&& 15)).hold % 2 ^ (here.op &&& 15),
      ((l.drop here.bits).need2 inp (here.op &&& 15)).drop (here.op &&& 15),
      hout, by omega, by omega, ?_⟩
    split_ifs at h with c2 c3
    · left
      injection h with h
      exact ⟨by omega, h.symm⟩
    · right; left
      injection h with h
      refine ⟨by omega, ?_, h.symm⟩
      rw [hs] at c3
      by_contra hc
      exact c3 ⟨by omega, by decide⟩
    · right; right
      injection h with h
      exact ⟨by omega, h.symm⟩
  · rw [if_neg c1] at h
    have h64 : here.op &&& 64 ≠ 0 := by
      simp only [dist_term, Bool.or_eq_true, Bool.and_eq_true, decide_eq_true_eq, beq_iff_eq,
        bne_iff_ne] at hterm
      rcases hterm with h1 | h1
      · exfalso
        apply c1
        rw [((op_facts here.op (by omega)).1 ⟨h1.1.1.1, by omega⟩).2.2.2.2]; decide
      · exact h1.2
    rw [if_neg h64] at h
    injection h with h
    exact Or.inl ⟨l.drop here.bits, rfl, h.symm⟩

/-- How the code at `dodist` ends on a first-level entry of a well-formed distance
table. -/
theorem fast_dodist_bound (s : inflate_stream) (hs : s.sane = 1) (hw : wf_dist s)
    (inp : List Nat) (beg out0 len fuel : Nat) (i : Nat) (hi : i < 2 ^ s.distbits)
    (l : fast_locals) (r : fast_end)
    (h : fast_dodist s inp beg out0 len fuel (s.tab s.distcode i) l = some r) :
    (∃ l1, l1.out = l.out ∧ r = .brk l1 .BAD (some "invalid distance code")) ∨
    ∃ dist l1, l1.out = l.out ∧ 1 ≤ dist ∧ dist ≤ 32768 ∧
      ((s.whave + (beg + (l.out.length - out0)) < dist ∧
          r = .brk l1 .BAD (some "invalid distance too far back")) ∨
        (beg + (l.out.length - out0) < dist ∧ dist ≤ s.whave + (beg + (l.out.length - out0)) ∧
          r = .test ⟨l1.cin, fast_window_copy (s.window.getD []) s.wsize s.wnext l.out
            (dist - (beg + (l.out.length - out0))) len dist, l1.hold, l1.bits⟩) ∨
        (dist ≤ beg + (l.out.length - out0) ∧
          r = .test ⟨l1.cin, out_copy dist (fast_direct_count len) l.out, l1.hold,
            l1.bits⟩)) := by
  have hwd : wf_table dist_term (s.tab s.distcode) s.distbits = true := hw
  cases fuel with
  | zero => simp [fast_dodist] at h
  | succ fuel =>
    by_cases hl : is_link (s.tab s.distcode i).op = true
    · have hop := link_test hl
      have h15 : (s.tab s.distcode i).op ≤ 15 := by
        simp only [is_link, Bool.and_eq_true, decide_eq_true_eq] at hl; exact hl.2
      have hf := (op_facts _ (by omega : (s.tab s.distcode i).op < 256)).2.2 h15
      unfold fast_dodist at h
      dsimp only at h
      rw [if_neg (by rw [hf.2.1]; decide), if_pos hf.2.2.1] at h
      cases fuel with
      | zero => simp [fast_dodist] at h
      | succ fuel =>
        have := wf_second hwd hi hl (pow_mod_lt (l.drop (s.tab s.distcode i).bits).hold
          (s.tab s.distcode i).op)
        exact fast_dodist_near s hs inp beg out0 len fuel _ (l.drop (s.tab s.distcode i).bits) r
          this.2.2.2.1 h
    · exact fast_dodist_near s hs inp beg out0 len fuel _ l r
        (wf_term hwd hi (by simpa using hl)) h

theorem Inv_LEN_of {s : inflate_stream} (h : Inv s) (hm : s.mode = .LEN_ ∨ s.mode = .LEN) :
    Inv { s with mode := .LEN } := by
  have hw := me_LEN h.regs (by rcases hm with hm | hm; exact Or.inl hm; exact Or.inr (Or.inl hm))
  exact ⟨h.sane, h.dmax, h.inb, h.hold, by
      rcases we_LEN h.slack hm with h1 | h1
      · exact Or.inl h1
      · exact Or.inr (wm_LEN (Or.inr rfl) h1), mi_LEN (Or.inr (Or.inl rfl)) hw⟩

/-- A pass that begins in one of the modes of the slow decoder of matches either writes
nothing or reaches the code of the case `MATCH`. -/
theorem step_to_match {tb : table_builder} {fuel : Nat} {flush : Int} {out : Nat}
    {s : inflate_stream} {ret : Int} {o : outcome} (h : Inv s)
    (hm : s.mode = .LENEXT ∨ s.mode = .DIST ∨ s.mode = .DISTEXT ∨ s.mode = .MATCH ∨
      ((s.mode = .LEN_ ∨ s.mode = .LEN) ∧ ¬(s.avail_in ≥ 6 ∧ s.avail_out ≥ 258)))
    (hs : step tb fuel flush out s ret = some o) : to_match out s ret o := by
  unfold step at hs
  rcases hm with hm | hm | hm | hm | ⟨hm, hslow⟩
  · rw [hm] at hs; cases hs; exact tm_LENEXT _ _ _ h hm
  · rw [hm] at hs; cases hs; exact tm_DIST _ _ _ h hm
  · rw [hm] at hs; cases hs; exact tm_DISTEXT _ _ _ h hm
  · rw [hm] at hs; cases hs; exact tm_MATCH _ _ _ h hm
  · have hc : case_LEN fuel out s ret = some o := by
      rcases hm with hm | hm <;> rw [hm] at hs <;> exact hs
    unfold case_LEN at hc
    dsimp only at hc
    split_ifs at hc with hfast
    · exact absurd hfast hslow
    · cases hc
      exact tm_frame (tm_LEN_slow _ _ _ (Inv_LEN_of h hm) rfl) rfl rfl rfl

theorem asteps_add (tb : table_builder) : ∀ (j k : Nat) (a b c : astate),
    asteps tb j a = some b → asteps tb k b = some c → asteps tb (j + k) a = some c := by
  intro j
  induction j with
  | zero =>
    intro k a b c h1 h2
    simp only [asteps, Option.some.injEq] at h1
    subst h1
    rw [Nat.zero_add]; exact h2
  | succ j ih =>
    intro k a b c h1 h2
    rw [Nat.succ_add]
    unfold asteps at h1 ⊢
    rcases ha : astep tb a with _ | a1
    · rw [ha] at h1; cases h1
    · rw [ha] at h1
      exact ih k a1 b c h1 h2

theorem asteps_one {tb : table_builder} {a b : astate} (h : astep tb a = some b) :
    asteps tb 1 a = some b := by
  unfold asteps; rw [h]; rfl

theorem refines_refl (tb : table_builder) (X : List Nat) (E : Nat) (Hp : List Nat)
    (s : inflate_stream) : refines tb X E Hp s s := ⟨0, rfl⟩

theorem refines_trans {tb : table_builder} {X : List Nat} {E : Nat} {Hp : List Nat}
    {s t u : inflate_stream} (h1 : refines tb X E Hp s t) (h2 : refines tb X E Hp t u) :
    refines tb X E Hp s u := by
  obtain ⟨j, hj⟩ := h1
  obtain ⟨k, hk⟩ := h2
  exact ⟨j + k, asteps_add tb j k _ _ _ hj hk⟩

theorem alpha_N (X H : List Nat) (s : inflate_stream) : (alpha X H s).N = s.sN X := rfl

theorem alpha_L (X H : List Nat) (s : inflate_stream) : (alpha X H s).L = s.sL X := rfl

/-- Two streams have the same decoder state when they agree on the unread bits, the
mode with its live registers, and the tables. -/
theorem alpha_congr {X : List Nat} {H H1 : List Nat} {s t : inflate_stream}
    (hm : amode_of t = amode_of s) (hN : t.sN X = s.sN X) (hL : t.sL X = s.sL X)
    (hH : H1 = H) (h1 : t.last = s.last) (h2 : t.lencode = s.lencode)
    (h3 : t.distcode = s.distcode) (h4 : t.lenbits = s.lenbits)
    (h5 : t.distbits = s.distbits) (h6 : t.ncode = s.ncode) (h7 : t.nlen = s.nlen)
    (h8 : t.ndist = s.ndist) (h9 : t.have_ = s.have_) (h10 : t.next = s.next)
    (h11 : t.lens = s.lens) (h12 : t.codes = s.codes) (h13 : t.msg = s.msg) :
    alpha X H1 t = alpha X H s := by
  unfold alpha
  have hN : t.sval + 2 ^ t.slen * bytes_val X = s.sval + 2 ^ s.slen * bytes_val X := hN
  have hL : t.slen + 8 * X.length = s.slen + 8 * X.length := hL
  rw [hm, hN, hL, hH, h1, h2, h3, h4, h5, h6, h7, h8, h9, h10, h11, h12, h13]

theorem sN_pulled {s t : inflate_stream} {k : Nat} (h : pulled s t k) (X : List Nat) :
    t.sN X = s.sN X ∧ t.sL X = s.sL X := by
  unfold inflate_stream.sN inflate_stream.sL
  rw [pulled_sval h, pulled_slen h]
  exact ⟨rfl, rfl⟩

theorem sN_eq (s : inflate_stream) (X : List Nat) :
    s.sN X = s.hold + 2 ^ s.bits * (bytes_val s.next_in + 2 ^ (8 * s.next_in.length) * bytes_val X) := by
  unfold inflate_stream.sN inflate_stream.sval inflate_stream.slen
  rw [pow_add]; ring

theorem sN_mod (s : inflate_stream) (X : List Nat) {n : Nat} (h : n ≤ s.bits) :
    s.sN X % 2 ^ n = s.hold % 2 ^ n := by
  rw [sN_eq]; exact add_mul_pow_mod _ _ h

theorem sN_dropped {s t : inflate_stream} {n : Nat} (h : dropped s t n) (X : List Nat) :
    t.sN X = s.sN X / 2 ^ n ∧ t.sL X = s.sL X - n := by
  obtain ⟨hn, e1, e2, e3⟩ := h
  constructor
  · rw [sN_eq, sN_eq, e1, e2, e3]
    obtain ⟨d, hd⟩ := Nat.exists_eq_add_of_le hn
    rw [hd, Nat.add_sub_cancel_left, pow_add, Nat.mul_assoc,
      Nat.add_mul_div_left _ _ (Nat.two_pow_pos n)]
  · unfold inflate_stream.sL inflate_stream.slen
    rw [e2, e3]; omega

theorem dropped_DROPBITS (n : Nat) (s : inflate_stream) (h : n ≤ s.bits) :
    dropped s (DROPBITS n s) n := ⟨h, rfl, rfl, rfl⟩

theorem sL_ge (s : inflate_stream) (X : List Nat) : s.bits ≤ s.sL X := by
  unfold inflate_stream.sL inflate_stream.slen; omega

theorem sL_mod8 (s : inflate_stream) (X : List Nat) : s.sL X % 8 = s.bits % 8 := by
  unfold inflate_stream.sL inflate_stream.slen; omega

theorem drop_append_of_le {E : Nat} {l : List Nat} (h : E ≤ l.length) (w : List Nat) :
    (l ++ w).drop E = l.drop E ++ w := by
  rw [List.drop_append_of_le_length h]

theorem alpha_mk {X H : List Nat} {t : inflate_stream} {a : astate}
    (hm : amode_of t = a.mode) (hN : t.sN X = a.N) (hL : t.sL X = a.L)
    (hH : H = a.H) (h1 : t.last = a.last) (h2 : t.lencode = a.lencode)
    (h3 : t.distcode = a.distcode) (h4 : t.lenbits = a.lenbits)
    (h5 : t.distbits = a.distbits) (h6 : t.ncode = a.ncode) (h7 : t.nlen = a.nlen)
    (h8 : t.ndist = a.ndist) (h9 : t.have_ = a.have_) (h10 : t.next = a.next)
    (h11 : t.lens = a.lens) (h12 : t.codes = a.codes) (h13 : t.msg = a.msg) :
    alpha X H t = a := by
  cases a
  dsimp only at hm hN hL hH h1 h2 h3 h4 h5 h6 h7 h8 h9 h10 h11 h12 h13
  unfold alpha
  have hN : t.sval + 2 ^ t.slen * bytes_val X = _ := hN
  have hL : t.slen + 8 * X.length = _ := hL
  rw [hm, hN, hL, hH, h1, h2, h3, h4, h5, h6, h7, h8, h9, h10, h11, h12, h13]

theorem astep_at_TYPEDO {tb : table_builder} {a : astate} (h : a.mode = .TYPEDO) :
    astep tb a = astep_TYPEDO a := by
  unfold astep; rw [h]

theorem BYTEBITS_dropped (s : inflate_stream) : dropped s (BYTEBITS s) (s.bits % 8) :=
  ⟨Nat.mod_le _ _, rfl, rfl, rfl⟩

/-- The code of the case `TYPEDO`: either it only pulled bytes, or it did the step of the
decoder at a block header. -/
theorem TYPEDO_core (X : List Nat) (H : List Nat) (flush : Int)
    (s : inflate_stream) (ret : Int) :
    ((case_TYPEDO flush s ret).st.next_out = s.next_out) ∧
    ((amode_of (case_TYPEDO flush s ret).st = amode_of s ∧
        alpha X H (case_TYPEDO flush s ret).st = alpha X H s) ∨
      astep_TYPEDO (alpha X H s) = some (alpha X H (case_TYPEDO flush s ret).st)) := by
  unfold case_TYPEDO
  by_cases h0 : s.last ≠ 0
  · rw [if_pos h0]
    refine ⟨rfl, Or.inr ?_⟩
    unfold astep_TYPEDO
    rw [if_pos (show (alpha X _ s).last ≠ 0 from h0)]
    obtain ⟨e1, e2⟩ := sN_dropped (BYTEBITS_dropped s) X
    refine congrArg some (alpha_mk rfl ?_ ?_ rfl rfl rfl rfl rfl rfl rfl rfl rfl rfl rfl rfl rfl rfl).symm
    · show (BYTEBITS s).sN X = s.sN X / 2 ^ (s.sL X % 8)
      rw [e1, sL_mod8]
    · show (BYTEBITS s).sL X = s.sL X - s.sL X % 8
      rw [e2, sL_mod8]
  · rw [if_neg h0]
    obtain ⟨k, hp, hstop, hmin⟩ := NEEDBITS_spec 3 s
    obtain ⟨p1, p2⟩ := sN_pulled hp X
    dsimp only
    by_cases h3 : (NEEDBITS 3 s).bits < 3
    · rw [if_pos h3]
      exact ⟨rfl, Or.inl ⟨rfl, alpha_congr rfl p1 p2 rfl rfl rfl rfl rfl rfl rfl rfl rfl rfl rfl rfl rfl rfl⟩⟩
    · rw [if_neg h3]
      have hL3 : ¬ (alpha X H s).L < 3 := by
        show ¬ s.sL X < 3
        have := sL_ge (NEEDBITS 3 s) X
        omega
      have hN8 : s.sN X % 2 ^ 3 = (NEEDBITS 3 s).hold % 2 ^ 3 := by
        rw [← p1]; exact sN_mod _ X (by omega)
      have key : ∀ t : inflate_stream, t.hold = (NEEDBITS 3 s).hold / 2 ^ 1 / 2 ^ 2 →
          t.bits = (NEEDBITS 3 s).bits - 1 - 2 → t.next_in = (NEEDBITS 3 s).next_in →
          t.sN X = s.sN X / 2 ^ 3 ∧ t.sL X = s.sL X - 3 := by
        intro t e1 e2 e3
        have hd : dropped (NEEDBITS 3 s) t 3 :=
          ⟨by omega, by rw [e1, Nat.div_div_eq_div_mul]; rfl, by rw [e2]; omega, e3⟩
        obtain ⟨d1, d2⟩ := sN_dropped hd X
        rw [d1, d2, p1, p2]; exact ⟨rfl, rfl⟩
      have hlast : BITS 1 (NEEDBITS 3 s) = s.sN X % 2 := by
        show (NEEDBITS 3 s).hold % 2 ^ 1 = _
        norm_num at hN8 ⊢; omega
      have htype : BITS 2 (DROPBITS 1 { NEEDBITS 3 s with last := BITS 1 (NEEDBITS 3 s) }) =
          s.sN X / 2 % 4 := by
        show (NEEDBITS 3 s).hold / 2 ^ 1 % 2 ^ 2 = _
        norm_num at hN8 ⊢; omega
      have hst : astep_TYPEDO (alpha X H s) = astep_TYPEDO (alpha X H s) := rfl
      conv_rhs at hst => unfold astep_TYPEDO
      rw [if_neg (show ¬ (alpha X _ s).last ≠ 0 from h0), if_neg hL3] at hst
      change astep_TYPEDO _ = (match s.sN X / 2 % 4 with
        | 0 => _ | 1 => _ | 2 => _ | _ => _) at hst
      rw [hst, htype]
      have hv : s.sN X / 2 % 4 = 0 ∨ s.sN X / 2 % 4 = 1 ∨ s.sN X / 2 % 4 = 2 ∨
          s.sN X / 2 % 4 = 3 := by omega
      rcases hv with hv | hv | hv | hv <;> rw [hv] <;> dsimp only
      · refine ⟨rfl, Or.inr (congrArg some (alpha_mk rfl ?_ ?_ rfl hlast rfl rfl rfl rfl rfl rfl rfl rfl rfl rfl rfl rfl).symm)⟩
        · refine (key _ ?_ ?_ ?_).1 <;> rfl
        · refine (key _ ?_ ?_ ?_).2 <;> rfl
      · split_ifs
        · refine ⟨rfl, Or.inr (congrArg some (alpha_mk rfl ?_ ?_ rfl hlast rfl rfl rfl rfl rfl rfl rfl rfl rfl rfl rfl rfl).symm)⟩
          · refine (key _ ?_ ?_ ?_).1 <;> rfl
          · refine (key _ ?_ ?_ ?_).2 <;> rfl
        · refine ⟨rfl, Or.inr (congrArg some (alpha_mk rfl ?_ ?_ rfl hlast rfl rfl rfl rfl rfl rfl rfl rfl rfl rfl rfl rfl).symm)⟩
          · refine (key _ ?_ ?_ ?_).1 <;> rfl
          · refine (key _ ?_ ?_ ?_).2 <;> rfl
      · refine ⟨rfl, Or.inr (congrArg some (alpha_mk rfl ?_ ?_ rfl hlast rfl rfl rfl rfl rfl rfl rfl rfl rfl rfl rfl rfl).symm)⟩
        · refine (key _ ?_ ?_ ?_).1 <;> rfl
        · refine (key _ ?_ ?_ ?_).2 <;> rfl
      · refine ⟨rfl, Or.inr (congrArg some (alpha_mk rfl ?_ ?_ rfl hlast rfl rfl rfl rfl rfl rfl rfl rfl rfl rfl rfl rfl).symm)⟩
        · refine (key _ ?_ ?_ ?_).1 <;> rfl
        · refine (key _ ?_ ?_ ?_).2 <;> rfl

theorem am_of {X H : List Nat} {s : inflate_stream} : (alpha X H s).mode = amode_of s := rfl

theorem with_mode_self (a : astate) : { a with mode := a.mode } = a := by
  cases a; rfl

/-- The case `TYPEDO` is a run of steps of the decoder. -/
theorem ref_TYPEDO (tb : table_builder) (X : List Nat) (E : Nat) (Hp : List Nat) (flush : Int)
    (s : inflate_stream) (ret : Int) (hm : s.mode = .TYPEDO) :
    refines tb X E Hp s (case_TYPEDO flush s ret).st := by
  obtain ⟨e, h | h⟩ := TYPEDO_core X (Hp ++ s.next_out.drop E) flush s ret
  · exact ⟨0, by rw [e, h.2]; rfl⟩
  · refine ⟨1, asteps_one ?_⟩
    rw [astep_at_TYPEDO (by rw [am_of]; unfold amode_of; rw [hm]), h, e]

/-- The case `TYPE` is a run of steps of the decoder. -/
theorem ref_TYPE (tb : table_builder) (X : List Nat) (E : Nat) (Hp : List Nat) (flush : Int)
    (s : inflate_stream) (ret : Int) (hm : s.mode = .TYPE) :
    refines tb X E Hp s (case_TYPE flush s ret).st := by
  unfold case_TYPE
  split_ifs
  · exact refines_refl _ _ _ _ _
  · obtain ⟨e, h | h⟩ := TYPEDO_core X (Hp ++ s.next_out.drop E) flush s ret
    · exact ⟨0, by rw [e, h.2]; rfl⟩
    · refine ⟨2, ?_⟩
      have h1 : astep tb (alpha X (Hp ++ s.next_out.drop E) s) =
          some { alpha X (Hp ++ s.next_out.drop E) s with mode := .TYPEDO } := by
        have : (alpha X (Hp ++ s.next_out.drop E) s).mode = .TYPE := by
          rw [am_of]; unfold amode_of; rw [hm]
        unfold astep; rw [this]
      have h2 : astep tb { alpha X (Hp ++ s.next_out.drop E) s with mode := .TYPEDO } =
          some (alpha X (Hp ++ s.next_out.drop E) (case_TYPEDO flush s ret).st) := by
        rw [astep_at_TYPEDO rfl, ← h]; rfl
      unfold asteps; rw [h1]; dsimp only
      unfold asteps; rw [h2]; dsimp only
      rw [e]; rfl

/-- The case `LIT` is a step of the decoder. -/
theorem ref_LIT (tb : table_builder) (X : List Nat) (E : Nat) (Hp : List Nat)
    (s : inflate_stream) (ret : Int) (hm : s.mode = .LIT) (hE : E ≤ s.next_out.length) :
    refines tb X E Hp s (case_LIT s ret).st := by
  unfold case_LIT
  split_ifs
  · exact refines_refl _ _ _ _ _
  · refine ⟨1, asteps_one ?_⟩
    have : (alpha X (Hp ++ s.next_out.drop E) s).mode = .LIT s.length := by
      rw [am_of]; unfold amode_of; rw [hm]
    unfold astep; rw [this]
    refine congrArg some (alpha_mk rfl rfl rfl ?_ rfl rfl rfl rfl rfl rfl rfl rfl rfl rfl rfl rfl rfl).symm
    show Hp ++ (s.next_out ++ [s.length % 256]).drop E = Hp ++ s.next_out.drop E ++ [s.length % 256]
    rw [drop_append_of_le hE, List.append_assoc]

theorem bytes_val_cons_mod {b : Nat} {r : List Nat} (hb : b < 256) (R : Nat) :
    (bytes_val (b :: r) + 2 ^ (8 * (b :: r).length) * R) % 256 = b ∧
    (bytes_val (b :: r) + 2 ^ (8 * (b :: r).length) * R) / 256 =
      bytes_val r + 2 ^ (8 * r.length) * R := by
  have e : 2 ^ (8 * (b :: r).length) = 256 * 2 ^ (8 * r.length) := by
    rw [List.length_cons, Nat.mul_add, pow_add]; norm_num; ring
  rw [e]
  show (b + 256 * bytes_val r + 256 * 2 ^ (8 * r.length) * R) % 256 = b ∧
    (b + 256 * bytes_val r + 256 * 2 ^ (8 * r.length) * R) / 256 = _
  have e2 : b + 256 * bytes_val r + 256 * 2 ^ (8 * r.length) * R =
      b + 256 * (bytes_val r + 2 ^ (8 * r.length) * R) := by ring
  rw [e2]
  constructor
  · rw [Nat.add_mul_mod_self_left]; exact Nat.mod_eq_of_lt hb
  · rw [Nat.add_mul_div_left _ _ (by norm_num : 0 < 256), Nat.div_eq_of_lt hb, Nat.zero_add]

/-- The steps of the decoder that copy `n` bytes of a stored block. -/
theorem asteps_COPY (tb : table_builder) : ∀ (n : Nat) (a : astate) (len : Nat) (I : List Nat)
    (R : Nat), a.mode = .COPY len → n ≤ len → n ≤ I.length → bytes I →
    a.N = bytes_val I + 2 ^ (8 * I.length) * R → 8 * I.length ≤ a.L →
    asteps tb n a = some { a with N := bytes_val (I.drop n) + 2 ^ (8 * (I.drop n).length) * R,
                                  L := a.L - 8 * n, H := a.H ++ I.take n,
                                  mode := .COPY (len - n) } := by
  intro n
  induction n with
  | zero =>
    intro a len I R hm _ _ _ hN _
    cases a
    dsimp only at hm hN
    subst hm hN
    simp [asteps]
  | succ n ih =>
    intro a len I R hm h1 h2 hI hN hL
    cases I with
    | nil => simp at h2
    | cons b r =>
      have hb : b < 256 := hI b (List.mem_cons_self _ _)
      obtain ⟨m1, m2⟩ := bytes_val_cons_mod hb R (r := r)
      have hs : astep tb a =
          some { a.drop 8 with H := a.H ++ [a.N % 256], mode := .COPY (len - 1) } := by
        unfold astep; rw [hm]; dsimp only
        unfold astep_COPY
        rw [if_neg (by omega), if_neg (by simp at hL; omega)]
      unfold asteps
      rw [hs]
      dsimp only
      have := ih { a.drop 8 with H := a.H ++ [a.N % 256], mode := .COPY (len - 1) } (len - 1) r R
        rfl (by omega) (by simpa using h2) (fun x hx => hI x (List.mem_cons_of_mem _ hx))
        (by show a.N / 2 ^ 8 = _; rw [hN]; exact m2)
        (by show 8 * r.length ≤ a.L - 8; simp at hL; omega)
      rw [this]
      refine congrArg some ?_
      cases a
      dsimp only [astate.drop] at hN ⊢
      subst hN
      simp only [astate.mk.injEq, List.drop_succ_cons, List.take_succ_cons, List.append_assoc,
        List.singleton_append, true_and, and_true]
      refine ⟨by congr 1; omega, by omega, ?_⟩
      rw [m1]

theorem ref_toCOPY (tb : table_builder) (X : List Nat) (E : Nat) (Hp : List Nat)
    (s : inflate_stream) (hm : s.mode = .COPY_ ∨ s.mode = .COPY) :
    refines tb X E Hp s { s with mode := .COPY } := by
  rcases hm with hm | hm
  · refine ⟨1, asteps_one ?_⟩
    have : (alpha X (Hp ++ s.next_out.drop E) s).mode = .COPY_ s.length := by
      rw [am_of]; unfold amode_of; rw [hm]
    unfold astep; rw [this]
    exact congrArg some (alpha_mk rfl rfl rfl rfl rfl rfl rfl rfl rfl rfl rfl rfl rfl rfl rfl rfl rfl).symm
  · refine ⟨0, ?_⟩
    show some (alpha X (Hp ++ s.next_out.drop E) s) =
      some (alpha X (Hp ++ s.next_out.drop E) { s with mode := .COPY })
    refine congrArg some (Eq.symm ?_)
    apply alpha_congr <;> first | rfl | skip
    show amode_of { s with mode := .COPY } = amode_of s
    unfold amode_of; rw [hm]

/-- The cases `COPY_` and `COPY` are a run of steps of the decoder. -/
theorem ref_COPY (tb : table_builder) (X : List Nat) (E : Nat) (Hp : List Nat)
    (s : inflate_stream) (ret : Int) (h : Inv s) (hm : s.mode = .COPY_ ∨ s.mode = .COPY)
    (hE : E ≤ s.next_out.length) : refines tb X E Hp s (case_COPY s ret).st := by
  have hb := me_COPY h.regs hm
  have hh : s.hold = 0 := by
    have := h.hold; rw [hb] at this; simpa using this
  refine refines_trans (ref_toCOPY tb X E Hp s hm) ?_
  unfold case_COPY
  dsimp only
  by_cases h0 : s.length ≠ 0
  · rw [if_pos h0]
    by_cases hc : min (min s.length ({ s with mode := Mode.COPY } : inflate_stream).avail_in)
        s.avail_out = 0
    · rw [if_pos hc]
      exact refines_refl _ _ _ _ _
    · rw [if_neg hc]
      have hcin : min (min s.length ({ s with mode := Mode.COPY } : inflate_stream).avail_in)
          s.avail_out ≤ s.next_in.length :=
        le_trans (min_le_left _ _) (min_le_right _ _)
      have hclen : min (min s.length ({ s with mode := Mode.COPY } : inflate_stream).avail_in)
          s.avail_out ≤ s.length :=
        le_trans (min_le_left _ _) (min_le_left _ _)
      generalize min (min s.length ({ s with mode := Mode.COPY } : inflate_stream).avail_in)
        s.avail_out = n at hc hcin hclen
      refine ⟨n, ?_⟩
      have hN : (alpha X (Hp ++ s.next_out.drop E) { s with mode := Mode.COPY }).N =
          bytes_val s.next_in + 2 ^ (8 * s.next_in.length) * bytes_val X := by
        show s.sN X = _
        rw [sN_eq, hh, hb]; simp
      have hL : 8 * s.next_in.length ≤
          (alpha X (Hp ++ s.next_out.drop E) { s with mode := Mode.COPY }).L := by
        show _ ≤ s.sL X
        unfold inflate_stream.sL inflate_stream.slen; omega
      rw [asteps_COPY tb n _ s.length s.next_in (bytes_val X) rfl hclen hcin h.inb hN hL]
      refine congrArg some (alpha_mk rfl ?_ ?_ ?_ rfl rfl rfl rfl rfl rfl rfl rfl rfl rfl rfl rfl rfl).symm
      · show inflate_stream.sN _ X = _
        rw [sN_eq]
        show s.hold + 2 ^ s.bits * _ = _
        rw [hh, hb]; simp [outcome.st]
      · show inflate_stream.sL _ X = s.sL X - 8 * n
        unfold inflate_stream.sL inflate_stream.slen
        show s.bits + 8 * (s.next_in.drop n).length + _ = s.bits + 8 * s.next_in.length + _ - _
        rw [List.length_drop]; omega
      · show Hp ++ (s.next_out ++ s.next_in.take n).drop E = Hp ++ s.next_out.drop E ++ _
        rw [drop_append_of_le hE, List.append_assoc]
  · rw [if_neg h0]
    refine ⟨1, asteps_one ?_⟩
    have : (alpha X (Hp ++ s.next_out.drop E) { s with mode := Mode.COPY }).mode =
        .COPY s.length := rfl
    unfold astep; rw [this]; dsimp only
    unfold astep_COPY
    rw [if_pos (not_not.mp h0)]
    exact congrArg some (alpha_mk rfl rfl rfl rfl rfl rfl rfl rfl rfl rfl rfl rfl rfl rfl rfl rfl rfl).symm

theorem astep_at_STORED {tb : table_builder} {a : astate} (h : a.mode = .STORED) :
    astep tb a = astep_STORED a := by
  unfold astep; rw [h]

/-- The case `STORED` is a run of steps of the decoder. -/
theorem ref_STORED (tb : table_builder) (X : List Nat) (E : Nat) (Hp : List Nat) (flush : Int)
    (s : inflate_stream) (ret : Int) (h : Inv s) (hm : s.mode = .STORED)
    (hE : E ≤ s.next_out.length) : refines tb X E Hp s (case_STORED flush s ret).st := by
  obtain ⟨k, hp, hstop, hmin⟩ := NEEDBITS_spec 32 (BYTEBITS s)
  have hh0 : (BYTEBITS s).hold < 2 ^ (BYTEBITS s).bits := div_pow_lt h.hold
  have hh := pulled_hold hp h.inb hh0
  have hI := pulled_bytes hp h.inb
  obtain ⟨p1, p2⟩ := sN_pulled hp X
  obtain ⟨d1, d2⟩ := sN_dropped (BYTEBITS_dropped s) X
  have hb0 : (BYTEBITS s).bits = s.bits - s.bits % 8 := rfl
  have hb1 : (NEEDBITS 32 (BYTEBITS s)).bits = (BYTEBITS s).bits + 8 * k := hp.2.2.1
  have hsl : s.bits - s.bits % 8 < 32 := by
    rcases h.slack with h1 | h1
    · omega
    · unfold wants_more at h1; rw [hm] at h1; exact h1
  -- the alignment step
  have halign : refines tb X E Hp s (NEEDBITS 32 (BYTEBITS s)) := by
    by_cases h8 : s.bits % 8 = 0
    · refine ⟨0, ?_⟩
      show some (alpha X (Hp ++ s.next_out.drop E) s) =
        some (alpha X (Hp ++ s.next_out.drop E) (NEEDBITS 32 (BYTEBITS s)))
      refine congrArg some (Eq.symm ?_)
      apply alpha_congr <;> first | rfl | skip
      · rw [p1, d1, h8]; simp
      · rw [p2, d2, h8]; simp
    · refine ⟨1, asteps_one ?_⟩
      rw [astep_at_STORED (by rw [am_of]; unfold amode_of; rw [hm])]
      unfold astep_STORED
      rw [if_pos (by show s.sL X % 8 ≠ 0; rw [sL_mod8]; exact h8)]
      show some ((alpha X (Hp ++ s.next_out.drop E) s).drop (s.sL X % 8)) =
        some (alpha X (Hp ++ s.next_out.drop E) (NEEDBITS 32 (BYTEBITS s)))
      refine congrArg some (Eq.symm ?_)
      apply alpha_mk <;> first | rfl | skip
      · show _ = s.sN X / 2 ^ (s.sL X % 8)
        rw [p1, d1, sL_mod8]
      · show _ = s.sL X - s.sL X % 8
        rw [p2, d2, sL_mod8]
  unfold case_STORED
  dsimp only
  by_cases h1 : (NEEDBITS 32 (BYTEBITS s)).bits < 32
  · rw [if_pos h1]
    exact halign
  · rw [if_neg h1]
    have hb32 : (NEEDBITS 32 (BYTEBITS s)).bits = 32 := by omega
    have hh32 : (NEEDBITS 32 (BYTEBITS s)).hold < 2 ^ 32 := by rw [hb32] at hh; exact hh
    have hmod : (NEEDBITS 32 (BYTEBITS s)).sN X % 2 ^ 32 = (NEEDBITS 32 (BYTEBITS s)).hold := by
      rw [sN_mod _ X (le_of_eq hb32.symm), Nat.mod_eq_of_lt hh32]
    have hlo : (NEEDBITS 32 (BYTEBITS s)).sN X % 65536 =
        (NEEDBITS 32 (BYTEBITS s)).hold % 65536 := by
      have := congrArg (· % 65536) hmod
      simp only at this
      rw [← this]
      norm_num
    have hhi : (NEEDBITS 32 (BYTEBITS s)).sN X / 65536 % 65536 =
        (NEEDBITS 32 (BYTEBITS s)).hold / 65536 := by
      rw [← hmod]
      omega
    have hL8 : ¬ (alpha X (Hp ++ s.next_out.drop E) (NEEDBITS 32 (BYTEBITS s))).L % 8 ≠ 0 := by
      show ¬ (NEEDBITS 32 (BYTEBITS s)).sL X % 8 ≠ 0
      rw [sL_mod8, hb32]; decide
    have hL32 : ¬ (alpha X (Hp ++ s.next_out.drop E) (NEEDBITS 32 (BYTEBITS s))).L < 32 := by
      show ¬ (NEEDBITS 32 (BYTEBITS s)).sL X < 32
      have := sL_ge (NEEDBITS 32 (BYTEBITS s)) X
      omega
    have hst : astep tb (alpha X (Hp ++ s.next_out.drop E) (NEEDBITS 32 (BYTEBITS s))) =
        astep_STORED (alpha X (Hp ++ s.next_out.drop E) (NEEDBITS 32 (BYTEBITS s))) :=
      astep_at_STORED (by rw [am_of]; show amode_of (NEEDBITS 32 (BYTEBITS s)) = _
                          unfold amode_of
                          rw [show (NEEDBITS 32 (BYTEBITS s)).mode = .STORED from hm])
    unfold astep_STORED at hst
    rw [if_neg hL8, if_neg hL32] at hst
    have hNa : (alpha X (Hp ++ s.next_out.drop E) (NEEDBITS 32 (BYTEBITS s))).N =
        (NEEDBITS 32 (BYTEBITS s)).sN X := rfl
    rw [hNa, hlo, hhi] at hst
    by_cases h2 : (NEEDBITS 32 (BYTEBITS s)).hold % 65536 ≠
        ((NEEDBITS 32 (BYTEBITS s)).hold / 65536) ^^^ 65535
    · rw [if_pos h2]
      rw [if_pos h2] at hst
      refine refines_trans halign ⟨1, asteps_one ?_⟩
      show astep tb (alpha X (Hp ++ s.next_out.drop E) (NEEDBITS 32 (BYTEBITS s))) = _
      rw [hst]
      refine congrArg some (Eq.symm ?_)
      apply alpha_mk <;> rfl
    · rw [if_neg h2]
      rw [if_neg h2] at hst
      have hto : refines tb X E Hp (NEEDBITS 32 (BYTEBITS s))
          { INITBITS { NEEDBITS 32 (BYTEBITS s) with
              length := (NEEDBITS 32 (BYTEBITS s)).hold % 65536 } with mode := .COPY_ } := by
        refine ⟨1, asteps_one ?_⟩
        show astep tb (alpha X (Hp ++ s.next_out.drop E) (NEEDBITS 32 (BYTEBITS s))) = _
        rw [hst]
        refine congrArg some (Eq.symm ?_)
        have hd : dropped (NEEDBITS 32 (BYTEBITS s))
            { INITBITS { NEEDBITS 32 (BYTEBITS s) with
              length := (NEEDBITS 32 (BYTEBITS s)).hold % 65536 } with mode := .COPY_ } 32 :=
          ⟨le_of_eq hb32.symm, by
            show 0 = (NEEDBITS 32 (BYTEBITS s)).hold / 2 ^ 32
            rw [Nat.div_eq_of_lt hh32], by show 0 = _; rw [hb32], rfl⟩
        obtain ⟨e1, e2⟩ := sN_dropped hd X
        apply alpha_mk <;> first | rfl | skip
        · exact e1
        · exact e2
      have hinv : Inv { INITBITS { NEEDBITS 32 (BYTEBITS s) with
              length := (NEEDBITS 32 (BYTEBITS s)).hold % 65536 } with mode := .COPY_ } :=
        ⟨h.sane, h.dmax, hI, Nat.two_pow_pos 0, Or.inl (by decide : 0 < 8),
          mi_COPY (Or.inl rfl) rfl⟩
      split_ifs
      · exact refines_trans halign hto
      · exact refines_trans halign (refines_trans hto (ref_COPY tb X E Hp _ ret hinv (Or.inl rfl) hE))

theorem mod_div_mod (x : Nat) {lb op b : Nat} (h : b ≤ op) :
    x % 2 ^ (lb + op) / 2 ^ lb % 2 ^ b = x % 2 ^ (lb + b) / 2 ^ lb := by
  rw [pow_add, Nat.mod_mul_right_div_self, pow_add, Nat.mod_mul_right_div_self,
    mod_pow_of_le _ h]

/-- The first-level entry the lookup loop stops at is the entry under the unread bits. -/
theorem first_entry {T : Nat → code} {root : Nat} {term : code → Bool}
    (hwf : wf_table term T root = true) {N hold bits : Nat}
    (hmod : ∀ n, n ≤ bits → N % 2 ^ n = hold % 2 ^ n)
    (hstop : (T (hold % 2 ^ root)).bits ≤ bits) :
    T (N % 2 ^ root) = T (hold % 2 ^ root) := by
  have hi : hold % 2 ^ root < 2 ^ root := pow_mod_lt _ _
  obtain ⟨-, hb, hst⟩ := wf_first hwf hi
  have := hst (N % 2 ^ root) (pow_mod_lt _ _) (by
    rw [Nat.zero_add, mod_pow_of_le _ hb, mod_pow_of_le _ hb]
    exact hmod _ hstop)
  simpa using this

/-- The second-level entry the lookup loop stops at is the entry under the unread bits. -/
theorem second_entry {T : Nat → code} {root : Nat} {term : code → Bool}
    (hwf : wf_table term T root = true) {i : Nat} (hi : i < 2 ^ root)
    (hl : is_link (T i).op = true) {N hold bits : Nat}
    (hmod : ∀ n, n ≤ bits → N % 2 ^ n = hold % 2 ^ n)
    (hstop : (T i).bits +
      (T ((T i).val + hold % 2 ^ ((T i).bits + (T i).op) / 2 ^ (T i).bits)).bits ≤ bits) :
    T ((T i).val + N % 2 ^ ((T i).bits + (T i).op) / 2 ^ (T i).bits) =
      T ((T i).val + hold % 2 ^ ((T i).bits + (T i).op) / 2 ^ (T i).bits) := by
  have hj : hold % 2 ^ ((T i).bits + (T i).op) / 2 ^ (T i).bits < 2 ^ (T i).op := by
    rw [pow_add, Nat.mod_mul_right_div_self]; exact pow_mod_lt _ _
  have hjN : N % 2 ^ ((T i).bits + (T i).op) / 2 ^ (T i).bits < 2 ^ (T i).op := by
    rw [pow_add, Nat.mod_mul_right_div_self]; exact pow_mod_lt _ _
  obtain ⟨-, -, -, -, -, hb, hst⟩ := wf_second hwf hi hl hj
  exact hst _ hjN (by
    rw [mod_div_mod _ hb, mod_div_mod _ hb, hmod _ hstop])

theorem sN_mods (s : inflate_stream) (X : List Nat) :
    ∀ n, n ≤ s.bits → s.sN X % 2 ^ n = s.hold % 2 ^ n :=
  fun _ hn => sN_mod s X hn

theorem out_copy_step (d n : Nat) (H : List Nat) :
    out_copy d (n + 1) H = out_copy d n (H ++ [H.getD (H.length - d) 0]) := rfl

theorem out_copy_append (d : Nat) : ∀ (n : Nat) (A B : List Nat), d ≤ B.length →
    out_copy d n (A ++ B) = A ++ out_copy d n B := by
  intro n
  induction n with
  | zero => intro A B _; rfl
  | succ n ih =>
    intro A B h
    rw [out_copy_step, out_copy_step]
    have e : (A ++ B).getD ((A ++ B).length - d) 0 = B.getD (B.length - d) 0 := by
      rw [List.length_append, List.getD_append_right _ _ _ _ (by omega)]
      congr 1
      omega
    rw [e, List.append_assoc]
    exact ih A (B ++ [B.getD (B.length - d) 0]) (by rw [List.length_append]; omega)

theorem out_copy_add (d : Nat) : ∀ (m n : Nat) (H : List Nat),
    out_copy d (m + n) H = out_copy d n (out_copy d m H) := by
  intro m
  induction m with
  | zero => intro n H; rw [Nat.zero_add]; rfl
  | succ m ih =>
    intro n H
    rw [Nat.succ_add, out_copy_step, out_copy_step]
    exact ih n _

theorem out_copy_length (d : Nat) (n : Nat) (H : List Nat) :
    (out_copy d n H).length = H.length + n := by
  obtain ⟨W, e1, e2⟩ := out_copy_spec d n H
  rw [e1, List.length_append, e2]

/-- A match that does not overlap itself copies a stretch of the output. -/
theorem out_copy_far (d : Nat) : ∀ (n : Nat) (H : List Nat), n ≤ d → d ≤ H.length →
    out_copy d n H = H ++ (H.drop (H.length - d)).take n := by
  intro n
  induction n with
  | zero => intro H _ _; simp [out_copy]
  | succ n ih =>
    intro H h1 h2
    rw [out_copy_step, ih _ (by omega) (by rw [List.length_append]; omega)]
    have hk : H.length - d < H.length := by omega
    have e1 : (H ++ [H.getD (H.length - d) 0]).length - d = H.length - d + 1 := by
      rw [List.length_append]; simp; omega
    rw [e1, List.append_assoc]
    congr 1
    rw [List.drop_append_of_le_length (by omega)]
    have e2 : H.drop (H.length - d) = H.getD (H.length - d) 0 :: H.drop (H.length - d + 1) := by
      rw [List.getD_eq_getElem _ _ hk]
      exact (List.drop_eq_getElem_cons hk)
    rw [e2, List.take_succ_cons, List.singleton_append]
    congr 1
    rw [List.take_append_of_le_length (by rw [List.length_drop]; omega)]

theorem astate_eta (a : astate) : { a with H := a.H, mode := a.mode } = a := by
  cases a; rfl

/-- The steps of the decoder that copy `n` bytes of a match. -/
theorem asteps_MATCH (tb : table_builder) (off : Nat) : ∀ (n : Nat) (a : astate) (len : Nat),
    a.mode = .MATCH len off → 1 ≤ len → n ≤ len → off ≤ a.H.length →
    asteps tb n a = some { a with H := out_copy off n a.H,
                                  mode := if n = len then .LEN else .MATCH (len - n) off } := by
  intro n
  induction n with
  | zero =>
    intro a len hm h1 _ _
    rw [if_neg (by omega)]
    cases a
    dsimp only at hm
    subst hm
    rfl
  | succ n ih =>
    intro a len hm h1 h2 h3
    unfold asteps
    have hs : astep tb a = astep_MATCH a len off := by unfold astep; rw [hm]
    rw [hs]
    unfold astep_MATCH
    rw [if_neg (by omega)]
    by_cases hl : len - 1 = 0
    · rw [if_pos hl]
      have hn : n = 0 := by omega
      subst hn
      dsimp only
      rw [if_pos (by omega)]
      rfl
    · rw [if_neg hl]
      dsimp only
      rw [ih _ (len - 1) rfl (by omega) (by omega) (by
        show off ≤ (a.H ++ _).length
        rw [List.length_append]; omega)]
      refine congrArg some ?_
      have e : (n = len - 1) = (n + 1 = len) := by
        apply propext; constructor <;> intro h <;> omega
      have e2 : len - 1 - n = len - (n + 1) := by omega
      simp only [e, e2]
      rfl

theorem getD_drop (l : List Nat) (k j : Nat) : (l.drop k).getD j 0 = l.getD (k + j) 0 := by
  simp [List.getD_eq_getElem?_getD, List.getElem?_drop]

theorem getD_take_lt (l : List Nat) {k j : Nat} (h : j < k) :
    (l.take k).getD j 0 = l.getD j 0 := by
  simp [List.getD_eq_getElem?_getD, List.getElem?_take, h]

theorem drop_take_map (H : List Nat) (k m : Nat) (h : k + m ≤ H.length) :
    (H.drop k).take m = (List.range m).map (fun i => H.getD (k + i) 0) := by
  apply List.ext_getElem
  · simp; omega
  · intro i h1 h2
    simp only [List.length_map, List.length_range] at h2
    rw [List.getElem_take, List.getElem_drop, List.getElem_map, List.getElem_range,
      List.getD_eq_getElem _ _ (by omega)]

/-- Reading the window backwards from the write position yields the end of the output
the window was filled from, as long as the read does not pass the end of the window or
the write position. -/
theorem wread_history {w Hp : List Nat} {n wnext whave : Nat} (hl : w.length = n)
    (hn : wnext < n) (hh : whave ≤ n) (hfill : whave < n → wnext = whave)
    (hwin : lin w wnext whave = lastn whave Hp) (hle : whave ≤ Hp.length)
    {c m : Nat} (hc1 : 1 ≤ c) (hc2 : c ≤ whave)
    (hm : m ≤ (if c > wnext then c - wnext else c)) :
    wread w (back_idx n wnext c) m = (Hp.drop (Hp.length - c)).take m := by
  have hmc : m ≤ c := by split_ifs at hm <;> omega
  rw [drop_take_map _ _ _ (by omega)]
  unfold wread
  apply List.map_congr_left
  intro i hi
  rw [List.mem_range] at hi
  have e1 : Hp.getD (Hp.length - c + i) 0 = (lastn whave Hp).getD (whave - c + i) 0 := by
    unfold lastn
    rw [getD_drop]
    congr 1
    omega
  rw [e1, ← hwin]
  unfold back_idx
  by_cases hf : whave < n
  · have hw := hfill hf
    subst hw
    rw [lin_short hl hh, if_neg (by omega), getD_take_lt _ (by omega)]
  · have hw : whave = n := by omega
    subst hw
    rw [lin_full hl (le_of_lt hn)]
    by_cases hcw : c > wnext
    · rw [if_pos hcw] at hm ⊢
      rw [List.getD_append _ _ _ _ (by rw [List.length_drop]; omega), getD_drop]
      congr 1
      omega
    · rw [if_neg hcw] at hm ⊢
      rw [List.getD_append_right _ _ _ _ (by rw [List.length_drop]; omega), List.length_drop,
        getD_take_lt _ (by omega)]
      congr 1
      omega

theorem wctx_of_eq {Hp : List Nat} {s t : inflate_stream} (h : wctx Hp s)
    (e : t.fixed = s.fixed) : wctx Hp t := by
  have e1 : t.whave = s.whave := congrArg fixed_part.whave e
  have e2 : t.wsize = s.wsize := congrArg fixed_part.wsize e
  have e3 : t.wnext = s.wnext := congrArg fixed_part.wnext e
  have e4 : t.window = s.window := congrArg fixed_part.window e
  have e5 : t.wbits = s.wbits := congrArg fixed_part.wbits e
  unfold wctx win_shape inflate_stream.win at h ⊢
  rw [e1, e2, e3, e4, e5]
  exact h

theorem dowhile_pos {n : Nat} (h : 1 ≤ n) : dowhile_count n = n := by
  unfold dowhile_count; rw [if_neg (by omega)]

/-- The decoder state after the case `MATCH` has copied `n` bytes. -/
theorem alpha_match_emit (X H1 : List Nat) (s : inflate_stream) (n : Nat) (nout : List Nat)
    (hm : s.mode = .MATCH) (hn : n ≤ s.length) (H : List Nat) :
    alpha X H1 (match_emit s n nout) =
      { alpha X H s with H := H1,
                         mode := if n = s.length then .LEN else .MATCH (s.length - n) s.offset } := by
  unfold match_emit
  dsimp only
  by_cases h0 : s.length - n = 0
  · rw [if_pos h0, if_pos (by omega)]
    apply alpha_mk <;> rfl
  · rw [if_neg h0, if_neg (by omega)]
    apply alpha_mk <;> first | rfl | skip
    show amode_of _ = _
    unfold amode_of
    rw [show ({ s with avail_out := s.avail_out - n, length := s.length - n,
                       next_out := nout } : inflate_stream).mode = .MATCH from hm]

/-- The three ways the case `MATCH` ends: no room in the output; a distance that reaches
before the first byte of the output, which fails; or a copy of `n` bytes, which are the
bytes the decoder copies. -/
theorem MATCH_core (out E : Nat) (Hp : List Nat) (s : inflate_stream) (ret : Int)
    (h : Inv s) (hm : s.mode = .MATCH) (ha : acct out E s) (hw : wctx Hp s) :
    (s.avail_out = 0 ∧ case_MATCH out s ret = .leave s ret) ∨
    (s.avail_out ≠ 0 ∧ s.offset > (Hp ++ s.next_out.drop E).length ∧
      case_MATCH out s ret =
        .cont { s with msg := some "invalid distance too far back", mode := .BAD } ret) ∨
    (s.avail_out ≠ 0 ∧ s.offset ≤ (Hp ++ s.next_out.drop E).length ∧
      ∃ n nout, 1 ≤ n ∧ n ≤ s.length ∧ n ≤ s.avail_out ∧
        (s.offset ≤ s.next_out.length - E → n = min s.length s.avail_out) ∧
        case_MATCH out s ret = .cont (match_emit s n nout) ret ∧
        (∃ W, nout = s.next_out ++ W ∧ W.length = n) ∧
        Hp ++ nout.drop E = out_copy s.offset n (Hp ++ s.next_out.drop E)) := by
  obtain ⟨-, ⟨hl1, hl2⟩, ho1, ho2⟩ := me_MATCH h.regs hm
  obtain ⟨hwh, hws, hwin⟩ := hw
  have hE : E ≤ s.next_out.length := ha.1
  have hP := acct_usub ha
  have hlen : (Hp ++ s.next_out.drop E).length = Hp.length + (s.next_out.length - E) := by
    rw [List.length_append, List.length_drop]
  unfold case_MATCH
  by_cases h0 : s.avail_out = 0
  · rw [if_pos h0]; exact Or.inl ⟨h0, rfl⟩
  · rw [if_neg h0]
    refine Or.inr ?_
    dsimp only
    rw [hP]
    by_cases h1 : s.offset > s.next_out.length - E
    · rw [if_pos h1]
      by_cases h2 : s.offset - (s.next_out.length - E) > s.whave ∧ s.sane ≠ 0
      · rw [if_pos h2]
        refine Or.inl ⟨h0, ?_, rfl⟩
        rw [hlen]
        have := h2.1
        omega
      · rw [if_neg h2]
        have hc : s.offset - (s.next_out.length - E) ≤ s.whave := by
          by_contra hc
          exact h2 ⟨by omega, by rw [h.sane]; decide⟩
        have hoff : s.offset ≤ (Hp ++ s.next_out.drop E).length := by rw [hlen]; omega
        refine Or.inr ⟨h0, hoff, ?_⟩
        generalize hcdef : s.offset - (s.next_out.length - E) = c at hc
        have hc1 : 1 ≤ c := by omega
        rcases hwin with hz | ⟨hshape, hlin⟩
        · omega
        obtain ⟨hsz, ⟨w, hw1, hw2⟩, hnx, hhv, hfill⟩ := hshape
        have hn1 : 1 ≤ match_wcount s c := by
          unfold match_wcount; split_ifs <;> omega
        have hn2 : match_wcount s c ≤ (if c > s.wnext then c - s.wnext else c) := by
          unfold match_wcount; omega
        have hn3 : match_wcount s c ≤ s.length := by unfold match_wcount; omega
        have hn4 : match_wcount s c ≤ s.avail_out := by unfold match_wcount; omega
        have hnc : match_wcount s c ≤ c := by split_ifs at hn2 <;> omega
        have hfrom : match_from s c = back_idx s.wsize s.wnext c := by
          unfold match_from back_idx
          split_ifs with hcw
          · exact usub_of_le (by omega) (by omega)
          · rfl
        have hread : wread (s.window.getD []) (match_from s c) (dowhile_count (match_wcount s c)) =
            (Hp.drop (Hp.length - c)).take (match_wcount s c) := by
          rw [dowhile_pos hn1, hfrom, hw1]
          exact wread_history hw2 hnx hhv hfill (by
            have : s.win = lin w s.wnext s.whave := by
              unfold inflate_stream.win; rw [hw1]; rfl
            rw [← this]; exact hlin) (by omega) hc1 hc hn2
        refine ⟨match_wcount s c, _, hn1, hn3, hn4, fun hx => absurd hx (by omega), rfl,
          ⟨_, rfl, by rw [wread_length, dowhile_pos hn1]⟩, ?_⟩
        rw [hread, drop_append_of_le hE, ← List.append_assoc,
          out_copy_far _ _ _ (by omega) hoff]
        congr 1
        rw [hlen, show Hp.length + (s.next_out.length - E) - s.offset = Hp.length - c by omega,
          List.drop_append_of_le_length (by omega),
          List.take_append_of_le_length (by rw [List.length_drop]; omega)]
    · rw [if_neg h1]
      have hoff : s.offset ≤ (Hp ++ s.next_out.drop E).length := by rw [hlen]; omega
      refine Or.inr ⟨h0, hoff, min s.length s.avail_out, _, by omega, by omega, by omega,
        fun _ => rfl, rfl, ?_, ?_⟩
      · obtain ⟨W, e1, e2⟩ := out_copy_spec s.offset (dowhile_count (min s.length s.avail_out))
          s.next_out
        exact ⟨W, e1, by rw [e2, dowhile_pos (by omega)]⟩
      · rw [dowhile_pos (by omega : 1 ≤ min s.length s.avail_out)]
        have e : s.next_out = s.next_out.take E ++ s.next_out.drop E :=
          (List.take_append_drop E s.next_out).symm
        have hd : s.offset ≤ (s.next_out.drop E).length := by rw [List.length_drop]; omega
        conv_lhs => rw [e]
        rw [out_copy_append _ _ _ _ hd, out_copy_append _ _ _ _ hd,
          List.drop_append_of_le_length (by rw [List.length_take]; omega)]
        rw [List.drop_eq_nil_of_le (by rw [List.length_take]; omega), List.nil_append]

/-- The case `MATCH` is a run of steps of the decoder. -/
theorem ref_MATCH (tb : table_builder) (X : List Nat) (out E : Nat) (Hp : List Nat)
    (s : inflate_stream) (ret : Int) (h : Inv s) (hm : s.mode = .MATCH) (ha : acct out E s)
    (hw : wctx Hp s) : refines tb X E Hp s (case_MATCH out s ret).st := by
  obtain ⟨-, ⟨hl1, hl2⟩, ho1, ho2⟩ := me_MATCH h.regs hm
  have hmode : (alpha X (Hp ++ s.next_out.drop E) s).mode = .MATCH s.length s.offset := by
    rw [am_of]; unfold amode_of; rw [hm]
  rcases MATCH_core out E Hp s ret h hm ha hw with ⟨-, e⟩ | ⟨-, hfar, e⟩ |
    ⟨-, hnear, n, nout, hn1, hn2, hn3, -, e, -, hH⟩
  · rw [e]; exact refines_refl _ _ _ _ _
  · rw [e]
    refine ⟨1, asteps_one ?_⟩
    unfold astep; rw [hmode]; dsimp only
    unfold astep_MATCH
    rw [if_pos (show s.offset > (alpha X (Hp ++ s.next_out.drop E) s).H.length from hfar)]
    refine congrArg some (Eq.symm ?_)
    apply alpha_mk <;> rfl
  · rw [e]
    refine ⟨n, ?_⟩
    rw [asteps_MATCH tb s.offset n _ s.length hmode hl1 hn2 hnear]
    refine congrArg some (Eq.symm ?_)
    show alpha X (Hp ++ (match_emit s n nout).next_out.drop E) (match_emit s n nout) = _
    have hno : (match_emit s n nout).next_out = nout := by
      unfold match_emit; dsimp only; split_ifs <;> rfl
    rw [hno, hH]
    exact alpha_match_emit X _ s n nout hm hn2 _

theorem aseg_asteps {tb : table_builder} {a b : astate} (h : aseg tb a b) :
    ∃ k, asteps tb (k + 1) a = some b := by
  induction h with
  | one h => exact ⟨0, asteps_one h⟩
  | cons h _ _ ih =>
    obtain ⟨k, hk⟩ := ih
    exact ⟨k + 1, by rw [Nat.add_comm (k + 1) 1]; exact asteps_add tb 1 (k + 1) _ _ _ (asteps_one h) hk⟩

theorem aseg_trans {tb : table_builder} {a b c : astate} (h1 : aseg tb a b)
    (hb : boundary b.mode = false) (h2 : aseg tb b c) : aseg tb a c := by
  induction h1 with
  | one h => exact aseg.cons h hb h2
  | cons h hc _ ih => exact aseg.cons h hc (ih hb h2)

/-- The state in which the decoder next stands between two symbols is determined. -/
theorem aseg_det {tb : table_builder} {a b : astate} (h1 : aseg tb a b) :
    ∀ {b1 : astate}, boundary b.mode = true → aseg tb a b1 → boundary b1.mode = true →
      b1 = b := by
  induction h1 with
  | one h =>
    intro b1 hb h2 hb1
    cases h2 with
    | one h3 => rw [h] at h3; exact (Option.some.inj h3).symm
    | cons h3 hc _ =>
      rw [h] at h3
      have := Option.some.inj h3
      subst this
      rw [hb] at hc; cases hc
  | cons h hc _ ih =>
    intro b1 hb h2 hb1
    cases h2 with
    | one h3 =>
      rw [h] at h3
      have := Option.some.inj h3
      subst this
      rw [hb1] at hc; cases hc
    | cons h3 _ h4 =>
      rw [h] at h3
      have := Option.some.inj h3
      subst this
      exact ih hb h4 hb1

/-- From a state inside a symbol the decoder goes on to the same end of the symbol. -/
theorem aseg_rest {tb : table_builder} {a t : astate} (h1 : aseg tb a t) :
    ∀ {b : astate}, boundary t.mode = false → aseg tb a b → boundary b.mode = true →
      aseg tb t b := by
  induction h1 with
  | one h =>
    intro b ht h2 hb
    cases h2 with
    | one h3 =>
      rw [h] at h3
      have := Option.some.inj h3
      subst this
      rw [hb] at ht; cases ht
    | cons h3 _ h4 =>
      rw [h] at h3
      have := Option.some.inj h3
      subst this
      exact h4
  | cons h hc _ ih =>
    intro b ht h2 hb
    cases h2 with
    | one h3 =>
      rw [h] at h3
      have := Option.some.inj h3
      subst this
      rw [hb] at hc; cases hc
    | cons h3 _ h4 =>
      rw [h] at h3
      have := Option.some.inj h3
      subst this
      exact ih ht h4 hb

theorem chain_refines {tb : table_builder} {X : List Nat} {E : Nat} {Hp : List Nat}
    {s : inflate_stream} {o : outcome} (h : chain_ok tb X E Hp s o) :
    refines tb X E Hp s o.st := by
  rcases h.seg with e | e
  · exact ⟨0, congrArg some e.symm⟩
  · obtain ⟨k, hk⟩ := aseg_asteps e
    exact ⟨k + 1, hk⟩

/-- The steps of the decoder that copy `n` bytes of a match stay inside the symbol. -/
theorem aseg_MATCH (tb : table_builder) (off : Nat) : ∀ (n : Nat) (a : astate) (len : Nat),
    a.mode = .MATCH len off → 1 ≤ n → n ≤ len → off ≤ a.H.length →
    aseg tb a { a with H := out_copy off n a.H,
                       mode := if n = len then .LEN else .MATCH (len - n) off } := by
  intro n
  induction n with
  | zero => intro a len _ h; omega
  | succ n ih =>
    intro a len hm _ h2 h3
    have hs : astep tb a = astep_MATCH a len off := by unfold astep; rw [hm]
    unfold astep_MATCH at hs
    rw [if_neg (by omega)] at hs
    by_cases hl : len - 1 = 0
    · rw [if_pos hl] at hs
      have hn : n = 0 := by omega
      subst hn
      rw [if_pos (by omega)]
      exact aseg.one hs
    · rw [if_neg hl] at hs
      by_cases hn : n = 0
      · subst hn
        rw [if_neg (by omega)]
        exact aseg.one hs
      · have := ih { a with H := a.H ++ [a.H.getD (a.H.length - off) 0],
                            mode := .MATCH (len - 1) off } (len - 1) rfl (by omega) (by omega) (by
          show off ≤ (a.H ++ _).length
          rw [List.length_append]; omega)
        refine aseg.cons hs rfl ?_
        have e : (n = len - 1) = (n + 1 = len) := by
          apply propext; constructor <;> intro h <;> omega
        have e2 : len - 1 - n = len - (n + 1) := by omega
        simp only [e, e2] at this
        exact this

theorem match_emit_fields (s : inflate_stream) (n : Nat) (nout : List Nat) :
    (match_emit s n nout).next_out = nout ∧
    (match_emit s n nout).avail_out = s.avail_out - n ∧
    (match_emit s n nout).length = s.length - n ∧
    ((match_emit s n nout).mode = s.mode ∨ (match_emit s n nout).mode = .LEN) := by
  unfold match_emit
  dsimp only
  split_ifs
  · exact ⟨rfl, rfl, rfl, Or.inr rfl⟩
  · exact ⟨rfl, rfl, rfl, Or.inl rfl⟩

/-- The case `MATCH` as a pass of the slow decoder. -/
theorem chain_MATCH (tb : table_builder) (X : List Nat) (out E : Nat) (Hp : List Nat)
    (s : inflate_stream) (ret : Int) (h : Inv s) (hm : s.mode = .MATCH) (ha : acct out E s)
    (hw : wctx Hp s) : chain_ok tb X E Hp s (case_MATCH out s ret) := by
  obtain ⟨-, ⟨hl1, hl2⟩, ho1, ho2⟩ := me_MATCH h.regs hm
  have hmode : (alpha_at X E Hp s).mode = .MATCH s.length s.offset := by
    show amode_of s = _; unfold amode_of; rw [hm]
  rcases MATCH_core out E Hp s ret h hm ha hw with ⟨h0, e⟩ | ⟨-, hfar, e⟩ |
    ⟨-, hnear, n, nout, hn1, hn2, hn3, -, e, -, hH⟩
  · rw [e]
    exact ⟨Or.inl rfl, fun hc => (by cases hc), fun _ => Or.inl h0, fun hc => (by cases hc),
      fun _ => by show s.avail_out + s.length ≤ s.avail_out + _; rw [if_pos hm]⟩
  · rw [e]
    have hseg : aseg tb (alpha_at X E Hp s) (alpha_at X E Hp
        { s with msg := some "invalid distance too far back", mode := .BAD }) := by
      refine aseg.one ?_
      unfold astep; rw [hmode]; dsimp only
      unfold astep_MATCH
      rw [if_pos (show s.offset > (alpha_at X E Hp s).H.length from hfar)]
      refine congrArg some (Eq.symm ?_)
      apply alpha_mk <;> rfl
    exact ⟨Or.inr hseg, fun _ => hseg, fun hc => (by cases hc), fun _ => Or.inr (Or.inr (Or.inl rfl)),
      fun hc => by cases hc⟩
  · rw [e]
    obtain ⟨f1, f2, f3, f4⟩ := match_emit_fields s n nout
    have hseg : aseg tb (alpha_at X E Hp s) (alpha_at X E Hp (match_emit s n nout)) := by
      have := aseg_MATCH tb s.offset n _ s.length hmode hn1 hn2 hnear
      have e2 : alpha_at X E Hp (match_emit s n nout) =
          { alpha_at X E Hp s with
              H := out_copy s.offset n (Hp ++ s.next_out.drop E)
              mode := if n = s.length then .LEN else .MATCH (s.length - n) s.offset } := by
        show alpha X (Hp ++ (match_emit s n nout).next_out.drop E) (match_emit s n nout) = _
        rw [f1, hH]
        exact alpha_match_emit X _ s n nout hm hn2 _
      rw [e2]; exact this
    refine ⟨Or.inr hseg, fun _ => hseg, fun hc => (by cases hc), fun _ => ?_, fun _ => ?_⟩
    · rcases f4 with f4 | f4
      · exact Or.inr (Or.inr (Or.inr (Or.inr (f4.trans hm))))
      · exact Or.inl f4
    · show s.avail_out + (match_emit s n nout).length ≤ (match_emit s n nout).avail_out + _
      rw [if_pos hm, f2, f3]; omega

/-- The case `LIT` as a pass of the slow decoder. -/
theorem chain_LIT (tb : table_builder) (X : List Nat) (E : Nat) (Hp : List Nat)
    (s : inflate_stream) (ret : Int) (hm : s.mode = .LIT) (hE : E ≤ s.next_out.length) :
    chain_ok tb X E Hp s (case_LIT s ret) := by
  unfold case_LIT
  by_cases h0 : s.avail_out = 0
  · rw [if_pos h0]
    exact ⟨Or.inl rfl, fun hc => (by cases hc), fun _ => Or.inl h0, fun hc => (by cases hc),
      fun hc => by rw [show (outcome.leave s ret).st.mode = s.mode from rfl, hm] at hc; cases hc⟩
  · rw [if_neg h0]
    have hseg : aseg tb (alpha_at X E Hp s) (alpha_at X E Hp
        { s with next_out := s.next_out ++ [s.length % 256], avail_out := s.avail_out - 1,
                 mode := .LEN }) := by
      refine aseg.one ?_
      have : (alpha_at X E Hp s).mode = .LIT s.length := by
        show amode_of s = _; unfold amode_of; rw [hm]
      unfold astep; rw [this]
      refine congrArg some (alpha_mk rfl rfl rfl ?_ rfl rfl rfl rfl rfl rfl rfl rfl rfl rfl rfl rfl rfl).symm
      show Hp ++ (s.next_out ++ [s.length % 256]).drop E = Hp ++ s.next_out.drop E ++ [s.length % 256]
      rw [drop_append_of_le hE, List.append_assoc]
    exact ⟨Or.inr hseg, fun _ => hseg, fun hc => (by cases hc), fun _ => Or.inl rfl,
      fun hc => by cases hc⟩

/-- A pass that begins with one step of the decoder and goes on as the pass of the state
`m` reached by it. -/
theorem chain_hand {tb : table_builder} {X : List Nat} {E : Nat} {Hp : List Nat}
    {s m : inflate_stream} {o : outcome}
    (hstep : astep tb (alpha_at X E Hp s) = some (alpha_at X E Hp m))
    (hb : boundary (amode_of m) = false) (h2 : m.avail_out = s.avail_out)
    (hneed : m.slen < need_bits m → s.slen < need_bits s)
    (hroom : (if m.mode = .MATCH then m.length else 258) ≤
      (if s.mode = .MATCH then s.length else 258))
    (h : chain_ok tb X E Hp m o) : chain_ok tb X E Hp s o := by
  have h1 : aseg tb (alpha_at X E Hp s) (alpha_at X E Hp m) := aseg.one hstep
  refine ⟨Or.inr ?_, fun hc => ?_, fun hc => ?_, h.modes, fun hc => ?_⟩
  · rcases h.seg with e | e
    · rw [e]; exact h1
    · exact aseg_trans h1 hb e
  · exact aseg_trans h1 hb (h.go hc)
  · rcases h.stuck hc with e | e
    · exact Or.inl (h2 ▸ e)
    · exact Or.inr (hneed e)
  · have := h.room hc
    rw [h2] at this
    omega

/-- A pass that only pulled bytes and then stalled. -/
theorem chain_stall {tb : table_builder} {X : List Nat} {E : Nat} {Hp : List Nat}
    {s t : inflate_stream} {k : Nat} (ret : Int) (hp : pulled s t k)
    (hfr : amode_of t = amode_of s ∧ t.next_out = s.next_out ∧ t.last = s.last ∧
      t.lencode = s.lencode ∧ t.distcode = s.distcode ∧ t.lenbits = s.lenbits ∧
      t.distbits = s.distbits ∧ t.ncode = s.ncode ∧ t.nlen = s.nlen ∧ t.ndist = s.ndist ∧
      t.have_ = s.have_ ∧ t.next = s.next ∧ t.lens = s.lens ∧ t.codes = s.codes ∧ t.msg = s.msg)
    (hs : s.slen < need_bits s) (hmode : t.mode ≠ .MATCH) :
    chain_ok tb X E Hp s (.leave t ret) := by
  obtain ⟨f0, f1, f2, f3, f4, f5, f6, f7, f8, f9, f10, f11, f12, f13, f14⟩ := hfr
  obtain ⟨p1, p2⟩ := sN_pulled hp X
  refine ⟨Or.inl ?_, fun hc => (by cases hc), fun _ => Or.inr hs, fun hc => (by cases hc),
    fun hc => absurd hc hmode⟩
  show alpha X (Hp ++ t.next_out.drop E) t = alpha X (Hp ++ s.next_out.drop E) s
  rw [f1]
  exact alpha_congr f0 p1 p2 rfl f2 f3 f4 f5 f6 f7 f8 f9 f10 f11 f12 f13 f14

theorem slen_sL (s : inflate_stream) (X : List Nat) : s.slen ≤ s.sL X := by
  unfold inflate_stream.sL; omega

theorem pulled_self (s : inflate_stream) : pulled s s 0 :=
  ⟨Nat.zero_le _, by simp [bytes_val], by simp, by simp⟩

/-- The case `DISTEXT` as a pass of the slow decoder. -/
theorem chain_DISTEXT (tb : table_builder) (X : List Nat) (out E : Nat) (Hp : List Nat)
    (s : inflate_stream) (ret : Int) (h : Inv s) (hm : s.mode = .DISTEXT) (ha : acct out E s)
    (hw : wctx Hp s) : chain_ok tb X E Hp s (case_DISTEXT out s ret) := by
  obtain ⟨hwf, hl, he, ho1, ho2⟩ := me_DISTEXT h.regs hm
  have hsl := we_EXT h.slack (Or.inr hm)
  have hmode : (alpha_at X E Hp s).mode = .DISTEXT s.length s.offset s.extra := by
    show amode_of s = _; unfold amode_of; rw [hm]
  have hnb : need_bits s = 13 := by unfold need_bits; rw [hm]
  have key : ∀ (b : inflate_stream) (k : Nat), pulled s b k → b.hold < 2 ^ b.bits →
      (b.bits = s.bits ∨ b.bits < s.extra + 8) → s.extra ≤ b.bits →
      ∀ m : inflate_stream, m.mode = .MATCH → m.length = s.length →
      m.offset = s.offset + b.hold % 2 ^ s.extra →
      dropped b m s.extra → bytes m.next_in →
      m.next_out = s.next_out → m.avail_out = s.avail_out → m.fixed = s.fixed →
      m.last = s.last → m.lencode = s.lencode → m.distcode = s.distcode →
      m.lenbits = s.lenbits → m.distbits = s.distbits → m.ncode = s.ncode → m.nlen = s.nlen →
      m.ndist = s.ndist → m.have_ = s.have_ → m.next = s.next → m.lens = s.lens →
      m.codes = s.codes → m.msg = s.msg →
      chain_ok tb X E Hp s (case_MATCH out m ret) := by
    intro b k hp hh hmin hge m g1 g2 g3 hd hIm g4 g5 g6 f2 f3 f4 f5 f6 f7 f8 f9 f10 f11 f12 f13 f14
    obtain ⟨p1, p2⟩ := sN_pulled hp X
    obtain ⟨d1, d2⟩ := sN_dropped hd X
    have hmod : s.sN X % 2 ^ s.extra = b.hold % 2 ^ s.extra := by
      rw [← p1]; exact sN_mod _ X hd.1
    have hpow := pow_mod_lt b.hold s.extra
    have hwm : wf_len m ∧ wf_dist m := by
      unfold wf_len wf_dist inflate_stream.tab at hwf ⊢
      rw [f13, f3, f4, f5, f6]; exact hwf
    have hinv : Inv m := by
      refine ⟨by rw [show m.sane = s.sane from congrArg fixed_part.sane g6]; exact h.sane,
        by rw [show m.dmax = s.dmax from congrArg fixed_part.dmax g6]; exact h.dmax, hIm,
        by rw [hd.2.1, hd.2.2.1]; exact div_pow_lt hh, Or.inl ?_,
        mi_MATCH g1 ⟨hwm, ⟨by omega, by omega⟩, by omega, by omega⟩⟩
      rw [hd.2.2.1]
      rcases hmin with e | e
      · rcases hsl with hsl | hsl
        · omega
        · omega
      · omega
    refine chain_hand ?_ (by unfold amode_of; rw [g1]; rfl) g5 (fun _ => ?_) ?_
      (chain_MATCH tb X out E Hp m ret hinv g1 (acct_of_eq ha g4 g5) (wctx_of_eq hw g6))
    · unfold astep; rw [hmode]; dsimp only
      have hL : ¬ (alpha_at X E Hp s).L < s.extra := by
        show ¬ s.sL X < s.extra
        rw [← p2]
        have := sL_ge b X
        omega
      rw [if_neg hL]
      refine congrArg some (Eq.symm ?_)
      unfold alpha_at
      rw [g4]
      apply alpha_mk <;> first | assumption | skip
      · show amode_of m = .MATCH s.length (s.offset + s.sN X % 2 ^ s.extra)
        unfold amode_of; rw [g1]; dsimp only; rw [g2, g3, hmod]
      · show m.sN X = s.sN X / 2 ^ s.extra
        rw [d1, p1]
      · show m.sL X = s.sL X - s.extra
        rw [d2, p2]
      · rfl
    · exfalso
      have : need_bits m = 0 := by unfold need_bits; rw [g1]
      omega
    · rw [if_pos g1, if_neg (by rw [hm]; decide)]; omega
  unfold case_DISTEXT
  by_cases h0 : s.extra ≠ 0
  · rw [if_pos h0]
    obtain ⟨k, hp, hstop, hmin⟩ := NEEDBITS_spec s.extra s
    have hh := pulled_hold hp h.inb h.hold
    have hI := pulled_bytes hp h.inb
    dsimp only
    by_cases h2 : (NEEDBITS s.extra s).bits < s.extra
    · rw [if_pos h2]
      refine chain_stall ret hp ⟨rfl, rfl, rfl, rfl, rfl, rfl, rfl, rfl, rfl, rfl, rfl, rfl, rfl,
        rfl, rfl⟩ ?_ (by rw [show (NEEDBITS s.extra s).mode = s.mode from rfl, hm]; decide)
      rw [hnb, ← pulled_slen hp]
      unfold inflate_stream.slen
      rw [hstop h2]
      simp only [List.length_nil, Nat.mul_zero, Nat.add_zero]
      omega
    · rw [if_neg h2]
      refine key _ k hp hh hmin (by omega) _ rfl rfl rfl ⟨by show s.extra ≤ _; omega, rfl, rfl, rfl⟩ hI
        rfl rfl rfl rfl rfl rfl rfl rfl rfl rfl rfl rfl rfl rfl rfl rfl
  · rw [if_neg h0]
    have h0 : s.extra = 0 := not_not.mp h0
    refine key s 0 (pulled_self s) h.hold (Or.inl rfl) (by omega) _ rfl rfl ?_
        ⟨by rw [h0]; exact Nat.zero_le _, ?_, ?_, rfl⟩ h.inb
        rfl rfl rfl rfl rfl rfl rfl rfl rfl rfl rfl rfl rfl rfl rfl rfl
    · rw [h0]; simp [Nat.mod_one]
    · rw [h0]; simp
    · rw [h0]; simp

theorem kept_wf {t s : inflate_stream} (h : kept t s) (hw : wf_len s ∧ wf_dist s) :
    wf_len t ∧ wf_dist t := by
  unfold wf_len wf_dist inflate_stream.tab at hw ⊢
  rw [h.codes, h.lencode, h.distcode, h.lenbits, h.distbits]; exact hw

theorem taken_of_pulled {s b t : inflate_stream} {k n : Nat} (hp : pulled s b k)
    (hd : dropped b t n) : taken s t n := by
  refine ⟨?_, fun X => ?_⟩
  · rw [← pulled_slen hp]; unfold inflate_stream.slen; have := hd.1; omega
  · obtain ⟨p1, p2⟩ := sN_pulled hp X
    obtain ⟨d1, d2⟩ := sN_dropped hd X
    rw [d1, d2, p1, p2]; exact ⟨rfl, rfl⟩

theorem taken_drop {s t u : inflate_stream} {n m : Nat} (h : taken s t n)
    (hd : dropped t u m) : taken s u (n + m) := by
  obtain ⟨h1, h2⟩ := h
  have e0 := (h2 []).2
  have : t.slen = s.slen - n := by
    unfold inflate_stream.sL at e0; simpa using e0
  refine ⟨?_, fun X => ?_⟩
  · have := hd.1; unfold inflate_stream.slen at *; omega
  · obtain ⟨d1, d2⟩ := sN_dropped hd X
    rw [d1, d2, (h2 X).1, (h2 X).2, Nat.div_div_eq_div_mul, ← pow_add]
    exact ⟨rfl, by omega⟩

theorem taken_slen {s t : inflate_stream} {n : Nat} (h : taken s t n) :
    t.slen + n = s.slen := by
  have e0 := (h.2 []).2
  unfold inflate_stream.sL at e0
  have := h.1
  simp at e0
  omega

/-- The decoder state of a stream that has consumed `n` bits of the stream `s` and kept
its output and registers. -/
theorem alpha_taken {s t : inflate_stream} {n : Nat} (X : List Nat) (E : Nat) (Hp : List Nat)
    (ht : taken s t n) (hk : kept t s) :
    alpha_at X E Hp t =
      { (alpha_at X E Hp s).drop n with mode := amode_of t, msg := t.msg } := by
  unfold alpha_at
  rw [hk.out]
  apply alpha_mk
  · rfl
  · exact (ht.2 X).1
  · exact (ht.2 X).2
  · rfl
  · exact hk.last
  · exact hk.lencode
  · exact hk.distcode
  · exact hk.lenbits
  · exact hk.distbits
  · exact hk.ncode
  · exact hk.nlen
  · exact hk.ndist
  · exact hk.have_
  · exact hk.next
  · exact hk.lens
  · exact hk.codes
  · rfl

theorem wf_root {term : code → Bool} {T : Nat → code} {root : Nat}
    (h : wf_table term T root = true) : 1 ≤ root ∧ root ≤ 15 :=
  (wf_table_iff.mp h).1

/-- The two lookup loops of the slow decoder find the symbol the decoder reads from the
unread bits; they stall only when fewer than 15 bits are left. -/
theorem decode_core (s : inflate_stream) (p : codeptr) (root : Nat) (term linkB : code → Bool)
    (X : List Nat) (hwf : wf_table term (s.tab p) root = true)
    (hlk : ∀ i, i < 2 ^ root → (linkB (s.tab p i) = true ↔ is_link (s.tab p i).op = true))
    (hI : bytes s.next_in) (hh : s.hold < 2 ^ s.bits)
    (hsl : s.bits < 8 ∨ wants1 s p root ∨
      (is_link (here1 s p root).op = true ∧ wants2 s p (here1 s p root))) :
    ((lookup1 s p root).bits < (here1 (lookup1 s p root) p root).bits → s.slen < 15) ∧
    (¬ (lookup1 s p root).bits < (here1 (lookup1 s p root) p root).bits →
      (is_link (here1 (lookup1 s p root) p root).op = false →
        adecode (s.tab p) root linkB (s.sN X) (s.sL X) =
          some (here1 (lookup1 s p root) p root, (here1 (lookup1 s p root) p root).bits) ∧
        (here1 (lookup1 s p root) p root).bits ≤ 15) ∧
      (is_link (here1 (lookup1 s p root) p root).op = true →
        (∃ k, pulled s (lookup2 (lookup1 s p root) p (here1 (lookup1 s p root) p root)) k) ∧
        ((lookup2 (lookup1 s p root) p (here1 (lookup1 s p root) p root)).bits <
            (here1 (lookup1 s p root) p root).bits +
              (here2 (lookup2 (lookup1 s p root) p (here1 (lookup1 s p root) p root)) p
                (here1 (lookup1 s p root) p root)).bits → s.slen < 15) ∧
        (¬ (lookup2 (lookup1 s p root) p (here1 (lookup1 s p root) p root)).bits <
            (here1 (lookup1 s p root) p root).bits +
              (here2 (lookup2 (lookup1 s p root) p (here1 (lookup1 s p root) p root)) p
                (here1 (lookup1 s p root) p root)).bits →
          adecode (s.tab p) root linkB (s.sN X) (s.sL X) =
            some (here2 (lookup2 (lookup1 s p root) p (here1 (lookup1 s p root) p root)) p
                (here1 (lookup1 s p root) p root),
              (here1 (lookup1 s p root) p root).bits +
              (here2 (lookup2 (lookup1 s p root) p (here1 (lookup1 s p root) p root)) p
                (here1 (lookup1 s p root) p root)).bits) ∧
          (here1 (lookup1 s p root) p root).bits +
              (here2 (lookup2 (lookup1 s p root) p (here1 (lookup1 s p root) p root)) p
                (here1 (lookup1 s p root) p root)).bits ≤ 15))) := by
  obtain ⟨⟨k, hp⟩, hstop, hdone⟩ := decode_slack s p root term hwf hsl
  obtain ⟨hr1, hr2⟩ := wf_root hwf
  have hi : (lookup1 s p root).hold % 2 ^ root < 2 ^ root := pow_mod_lt _ _
  obtain ⟨hb1, hb2, -⟩ := wf_first hwf hi
  have hb2 : (here1 (lookup1 s p root) p root).bits ≤ root := hb2
  obtain ⟨p1, p2⟩ := sN_pulled hp X
  constructor
  · intro h1
    rw [← pulled_slen hp]
    unfold inflate_stream.slen
    rw [hstop h1]
    simp only [List.length_nil, Nat.mul_zero, Nat.add_zero]
    omega
  · intro h1
    have hfirst : s.tab p (s.sN X % 2 ^ root) = here1 (lookup1 s p root) p root :=
      first_entry hwf (fun n hn => by rw [← p1]; exact sN_mod _ X hn) (by
        show (here1 (lookup1 s p root) p root).bits ≤ _; omega)
    have hL : ¬ s.sL X < (here1 (lookup1 s p root) p root).bits := by
      rw [← p2]; have := sL_ge (lookup1 s p root) X; omega
    have hlk1 := hlk _ hi
    have hlk1 : linkB (here1 (lookup1 s p root) p root) = true ↔
        is_link (here1 (lookup1 s p root) p root).op = true := hlk1
    constructor
    · intro hl
      refine ⟨?_, by omega⟩
      unfold adecode
      rw [hfirst, if_neg hL, if_neg (by rw [hlk1, hl]; decide)]
    · intro hl
      obtain ⟨⟨k2, hp2⟩, -, hstop2, -⟩ := (hdone h1).2 hl
      have hj : (lookup2 (lookup1 s p root) p (here1 (lookup1 s p root) p root)).hold %
          2 ^ ((here1 (lookup1 s p root) p root).bits + (here1 (lookup1 s p root) p root).op) /
          2 ^ (here1 (lookup1 s p root) p root).bits <
          2 ^ (here1 (lookup1 s p root) p root).op := by
        rw [pow_add, Nat.mod_mul_right_div_self]; exact pow_mod_lt _ _
      obtain ⟨w1, w2, -, -, -, w3, -⟩ := wf_second hwf hi hl hj
      have w3 : (here2 (lookup2 (lookup1 s p root) p (here1 (lookup1 s p root) p root)) p
                (here1 (lookup1 s p root) p root)).bits ≤
          (here1 (lookup1 s p root) p root).op := w3
      have w1 : (here1 (lookup1 s p root) p root).bits = root := w1
      have w2 : root + (here1 (lookup1 s p root) p root).op ≤ 15 := w2
      obtain ⟨q1, q2⟩ := sN_pulled hp2 X
      have hpp : pulled s (lookup2 (lookup1 s p root) p (here1 (lookup1 s p root) p root))
          (k + k2) := by
        obtain ⟨a1, a2, a3, a4⟩ := hp
        obtain ⟨b1, b2, b3, b4⟩ := hp2
        rw [a4, List.length_drop] at b1
        refine ⟨by omega, ?_, by rw [b3, a3]; omega, by rw [b4, a4, List.drop_drop]⟩
        rw [b2, a2, a3, a4, List.take_add, bytes_val_append, List.length_take,
          Nat.min_eq_left a1, pow_add]
        ring
      refine ⟨⟨_, hpp⟩, ?_, ?_⟩
      · intro h2
        rw [← pulled_slen hpp]
        unfold inflate_stream.slen
        rw [hstop2 h2]
        simp only [List.length_nil, Nat.mul_zero, Nat.add_zero]
        omega
      · intro h2
        have hsecond : s.tab p ((here1 (lookup1 s p root) p root).val +
            s.sN X % 2 ^ ((here1 (lookup1 s p root) p root).bits +
              (here1 (lookup1 s p root) p root).op) /
              2 ^ (here1 (lookup1 s p root) p root).bits) =
            here2 (lookup2 (lookup1 s p root) p (here1 (lookup1 s p root) p root)) p
                (here1 (lookup1 s p root) p root) :=
          second_entry hwf hi hl (fun n hn => by rw [← p1, ← q1]; exact sN_mod _ X hn) (by
            show (here1 (lookup1 s p root) p root).bits +
              (here2 (lookup2 (lookup1 s p root) p (here1 (lookup1 s p root) p root)) p
                (here1 (lookup1 s p root) p root)).bits ≤ _
            omega)
        have hL2 : ¬ s.sL X < (here1 (lookup1 s p root) p root).bits +
              (here2 (lookup2 (lookup1 s p root) p (here1 (lookup1 s p root) p root)) p
                (here1 (lookup1 s p root) p root)).bits := by
          rw [← p2, ← q2]
          have := sL_ge (lookup2 (lookup1 s p root) p (here1 (lookup1 s p root) p root)) X
          omega
        refine ⟨?_, by omega⟩
        unfold adecode
        rw [hfirst, if_neg hL, if_pos (hlk1.mpr hl), hsecond, if_neg hL2]

theorem kept_refl (s : inflate_stream) : kept s s :=
  ⟨rfl, rfl, rfl, rfl, rfl, rfl, rfl, rfl, rfl, rfl, rfl, rfl, rfl, rfl, rfl⟩

theorem kept_trans {u t s : inflate_stream} (h2 : kept t s) (h1 : kept u t) : kept u s :=
  ⟨h1.out.trans h2.out, h1.avail.trans h2.avail, h1.fixed.trans h2.fixed,
    h1.last.trans h2.last, h1.lencode.trans h2.lencode, h1.distcode.trans h2.distcode,
    h1.lenbits.trans h2.lenbits, h1.distbits.trans h2.distbits, h1.ncode.trans h2.ncode,
    h1.nlen.trans h2.nlen, h1.ndist.trans h2.ndist, h1.have_.trans h2.have_,
    h1.next.trans h2.next, h1.lens.trans h2.lens, h1.codes.trans h2.codes⟩

theorem kept_pulled {s t : inflate_stream} (h : kept t s) (X : List Nat) (E : Nat)
    (Hp : List Nat) (hb : ∀ Y, t.sN Y = s.sN Y ∧ t.sL Y = s.sL Y)
    (hm : amode_of t = amode_of s) (hmsg : t.msg = s.msg) :
    alpha_at X E Hp t = alpha_at X E Hp s := by
  unfold alpha_at
  rw [h.out]
  exact alpha_congr hm (hb X).1 (hb X).2 rfl h.last h.lencode h.distcode h.lenbits h.distbits
    h.ncode h.nlen h.ndist h.have_ h.next h.lens h.codes hmsg

/-- A pass that only pulled bytes and then stalled. -/
theorem chain_stall2 {tb : table_builder} {X : List Nat} {E : Nat} {Hp : List Nat}
    {s t : inflate_stream} {k : Nat} (ret : Int) (hp : pulled s t k) (hk : kept t s)
    (hm : amode_of t = amode_of s) (hmsg : t.msg = s.msg)
    (hs : s.slen < need_bits s) (hmode : t.mode ≠ .MATCH) :
    chain_ok tb X E Hp s (.leave t ret) :=
  ⟨Or.inl (kept_pulled hk X E Hp (fun Y => sN_pulled hp Y) hm hmsg), fun hc => (by cases hc),
    fun _ => Or.inr hs, fun hc => (by cases hc), fun hc => absurd hc hmode⟩

/-- The lemma `chain_hand` with the pass of the state reached given first. -/
theorem chain_to {tb : table_builder} {X : List Nat} {E : Nat} {Hp : List Nat}
    {s m : inflate_stream} {o : outcome} (h : chain_ok tb X E Hp m o)
    (hstep : astep tb (alpha_at X E Hp s) = some (alpha_at X E Hp m))
    (hb : boundary (amode_of m) = false) (h2 : m.avail_out = s.avail_out)
    (hneed : m.slen < need_bits m → s.slen < need_bits s)
    (hroom : (if m.mode = .MATCH then m.length else 258) ≤
      (if s.mode = .MATCH then s.length else 258)) : chain_ok tb X E Hp s o :=
  chain_hand hstep hb h2 hneed hroom h

theorem astep_DIST_eval {a : astate} (len : Nat) {here : code} {c : Nat}
    (h : adecode (code_at a.codes a.distcode) a.distbits dist_link a.N a.L = some (here, c)) :
    astep_DIST a len =
      if here.op &&& 64 ≠ 0 then some ((a.drop c).bad "invalid distance code")
      else some { a.drop c with mode := .DISTEXT len here.val (here.op &&& 15) } := by
  unfold astep_DIST; rw [h]

theorem astep_LEN_eval {a : astate} {here : code} {c : Nat}
    (h : adecode (code_at a.codes a.lencode) a.lenbits len_link a.N a.L = some (here, c)) :
    astep_LEN a =
      if here.op = 0 then some { a.drop c with mode := .LIT here.val }
      else if here.op &&& 32 ≠ 0 then some { a.drop c with mode := .TYPE }
      else if here.op &&& 64 ≠ 0 then some ((a.drop c).bad "invalid literal/length code")
      else some { a.drop c with mode := .LENEXT here.val (here.op &&& 15) } := by
  unfold astep_LEN; rw [h]

/-- The case `DIST` from `DROPBITS(here.bits)` on, as the end of a pass of the slow
decoder that began in the state `s0`. -/
theorem chain_dist_go (tb : table_builder) (X : List Nat) (out E : Nat) (Hp : List Nat)
    (s0 t : inflate_stream) (here : code) (ret : Int) (n0 : Nat)
    (h0 : Inv s0) (hm0 : s0.mode = .DIST) (ha : acct out E s0) (hw : wctx Hp s0)
    (hk : kept t s0) (hlen : t.length = s0.length) (hmsg : t.msg = s0.msg)
    (ht : taken s0 t n0) (hI : bytes t.next_in) (hh : t.hold < 2 ^ t.bits)
    (hge : here.bits ≤ t.bits) (hb : t.bits - here.bits < 8) (hterm : dist_term here = true)
    (hdec : adecode (s0.tab s0.distcode) s0.distbits dist_link (s0.sN X) (s0.sL X) =
      some (here, n0 + here.bits))
    (h15 : n0 + here.bits ≤ 15) : chain_ok tb X E Hp s0 (dist_go out t here ret) := by
  obtain ⟨hwf, hl⟩ := me_DIST h0.regs hm0
  have hmode : (alpha_at X E Hp s0).mode = .DIST s0.length := by
    show amode_of s0 = _; unfold amode_of; rw [hm0]
  have hst : astep tb (alpha_at X E Hp s0) = astep_DIST (alpha_at X E Hp s0) s0.length := by
    unfold astep; rw [hmode]
  rw [astep_DIST_eval (a := alpha_at X E Hp s0) s0.length hdec] at hst
  have hsane : t.sane = 1 := by
    rw [show t.sane = s0.sane from congrArg fixed_part.sane hk.fixed]; exact h0.sane
  have hdmax : t.dmax = 32768 := by
    rw [show t.dmax = s0.dmax from congrArg fixed_part.dmax hk.fixed]; exact h0.dmax
  unfold dist_go
  dsimp only
  by_cases h64 : here.op &&& 64 ≠ 0
  · rw [if_pos h64]
    rw [if_pos h64] at hst
    have htk : taken s0 { DROPBITS here.bits t with
        back := (DROPBITS here.bits t).back + here.bits,
        msg := some "invalid distance code", mode := .BAD } (n0 + here.bits) :=
      taken_drop ht ⟨hge, rfl, rfl, rfl⟩
    have hseg : aseg tb (alpha_at X E Hp s0) (alpha_at X E Hp
        { DROPBITS here.bits t with back := (DROPBITS here.bits t).back + here.bits,
                                    msg := some "invalid distance code", mode := .BAD }) := by
      refine aseg.one ?_
      rw [hst]
      refine congrArg some (Eq.symm ?_)
      rw [alpha_taken X E Hp htk (kept_trans hk ⟨rfl, rfl, rfl, rfl, rfl, rfl, rfl, rfl, rfl, rfl, rfl, rfl, rfl, rfl, rfl⟩)]
      rfl
    exact ⟨Or.inr hseg, fun _ => hseg, fun hc => (by cases hc),
      fun _ => Or.inr (Or.inr (Or.inl rfl)), fun hc => (by cases hc)⟩
  · rw [if_neg h64]
    rw [if_neg h64] at hst
    obtain ⟨e1, e2, e3, _⟩ := dist_base hterm (not_not.mp h64)
    have hkm : kept { DROPBITS here.bits t with
        back := (DROPBITS here.bits t).back + here.bits,
        offset := here.val, extra := here.op &&& 15, mode := .DISTEXT } s0 :=
      kept_trans hk ⟨rfl, rfl, rfl, rfl, rfl, rfl, rfl, rfl, rfl, rfl, rfl, rfl, rfl, rfl, rfl⟩
    have htk : taken s0 { DROPBITS here.bits t with
        back := (DROPBITS here.bits t).back + here.bits,
        offset := here.val, extra := here.op &&& 15, mode := .DISTEXT } (n0 + here.bits) :=
      taken_drop ht ⟨hge, rfl, rfl, rfl⟩
    have hinv : Inv { DROPBITS here.bits t with
        back := (DROPBITS here.bits t).back + here.bits,
        offset := here.val, extra := here.op &&& 15, mode := .DISTEXT } :=
      ⟨hsane, hdmax, hI, div_pow_lt hh, Or.inl hb,
        mi_DISTEXT rfl ⟨kept_wf hkm hwf, by
          show 3 ≤ t.length ∧ t.length ≤ 258
          rw [hlen]; exact hl, e1, e2, e3⟩⟩
    have hM := chain_DISTEXT tb X out E Hp _ ret hinv rfl (acct_of_eq ha hkm.out hkm.avail)
      (wctx_of_eq hw hkm.fixed)
    refine chain_to hM ?_ rfl hk.avail (fun hn => ?_) ?_
    · rw [hst]
      refine congrArg some (Eq.symm ?_)
      rw [alpha_taken X E Hp htk hkm]
      show _ = ({ (alpha_at X E Hp s0).drop (n0 + here.bits) with
        mode := .DISTEXT s0.length here.val (here.op &&& 15) } : astate)
      have : amode_of { DROPBITS here.bits t with
          back := (DROPBITS here.bits t).back + here.bits,
          offset := here.val, extra := here.op &&& 15, mode := .DISTEXT } =
          .DISTEXT s0.length here.val (here.op &&& 15) := by
        show amode.DISTEXT t.length here.val (here.op &&& 15) = _
        rw [hlen]
      rw [this]
      show ({ (alpha_at X E Hp s0).drop (n0 + here.bits) with
        mode := .DISTEXT s0.length here.val (here.op &&& 15), msg := t.msg } : astate) = _
      rw [hmsg]
      rfl
    · have hs := taken_slen htk
      have e13 : need_bits { DROPBITS here.bits t with
          back := (DROPBITS here.bits t).back + here.bits,
          offset := here.val, extra := here.op &&& 15, mode := .DISTEXT } = 13 := rfl
      have e28 : need_bits s0 = 28 := by unfold need_bits; rw [hm0]
      rw [e13] at hn
      rw [e28]
      omega
    · show (if Mode.DISTEXT = Mode.MATCH then _ else 258) ≤ _
      rw [if_neg (by decide), if_neg (by rw [hm0]; decide)]

theorem is_link_false {op : Nat} (h : ¬ is_link op = true) : is_link op = false := by
  simpa using h

/-- The case `DIST` as a pass of the slow decoder. -/
theorem chain_DIST (tb : table_builder) (X : List Nat) (out E : Nat) (Hp : List Nat)
    (s : inflate_stream) (ret : Int) (h : Inv s) (hm : s.mode = .DIST) (ha : acct out E s)
    (hw : wctx Hp s) : chain_ok tb X E Hp s (case_DIST out s ret) := by
  obtain ⟨hwf, hl⟩ := me_DIST h.regs hm
  have hwd : wf_table dist_term (s.tab s.distcode) s.distbits = true := hwf.2
  have hsl := we_DIST h.slack hm
  have hnb : need_bits s = 28 := by unfold need_bits; rw [hm]
  have hlink : ∀ t : inflate_stream, t.codes = s.codes →
      ((here1 t s.distcode s.distbits).op &&& 240 = 0 ↔
        is_link (here1 t s.distcode s.distbits).op = true) := by
    intro t ht
    have : here1 t s.distcode s.distbits = s.tab s.distcode (t.hold % 2 ^ s.distbits) := by
      show code_at t.codes _ _ = code_at s.codes _ _; rw [ht]; rfl
    rw [this]; exact dist_link_iff hwd (pow_mod_lt _ _)
  have hsl2 : s.bits < 8 ∨ wants1 s s.distcode s.distbits ∨
      (is_link (here1 s s.distcode s.distbits).op = true ∧
        wants2 s s.distcode (here1 s s.distcode s.distbits)) := by
    rcases hsl with h1 | h1 | h1
    · exact Or.inl h1
    · exact Or.inr (Or.inl h1)
    · exact Or.inr (Or.inr ⟨(hlink s rfl).mp h1.1, h1.2⟩)
  obtain ⟨⟨k, hp⟩, hstop, hdone⟩ := decode_slack s s.distcode s.distbits dist_term hwd hsl2
  obtain ⟨c1, c2⟩ := decode_core s s.distcode s.distbits dist_term dist_link X hwd (by
    intro i hi
    rw [← dist_link_iff hwd hi]
    unfold dist_link
    exact decide_eq_true_iff) h.inb h.hold hsl2
  have hh := pulled_hold hp h.inb h.hold
  have hI := pulled_bytes hp h.inb
  unfold case_DIST
  dsimp only
  by_cases h1 : (lookup1 s s.distcode s.distbits).bits <
      (here1 (lookup1 s s.distcode s.distbits) s.distcode s.distbits).bits
  · rw [if_pos h1]
    exact chain_stall2 ret hp ⟨rfl, rfl, rfl, rfl, rfl, rfl, rfl, rfl, rfl, rfl, rfl, rfl, rfl, rfl, rfl⟩ rfl rfl (by have := c1 h1; omega)
      (by rw [show (lookup1 s s.distcode s.distbits).mode = s.mode from rfl, hm]; decide)
  · rw [if_neg h1]
    obtain ⟨hterm, hlk⟩ := hdone h1
    obtain ⟨d1, d2⟩ := c2 h1
    by_cases h2 : (here1 (lookup1 s s.distcode s.distbits) s.distcode s.distbits).op &&& 240 = 0
    · rw [if_pos h2]
      have hl2 := (hlink (lookup1 s s.distcode s.distbits) rfl).mp h2
      obtain ⟨⟨k2, hp2⟩, hsame, hstop2, hdone2⟩ := hlk hl2
      obtain ⟨⟨kk, hpp⟩, g1, g2⟩ := d2 hl2
      have hh2 := pulled_hold hp2 hI hh
      have hI2 := pulled_bytes hp2 hI
      by_cases h3 : (lookup2 (lookup1 s s.distcode s.distbits) s.distcode
          (here1 (lookup1 s s.distcode s.distbits) s.distcode s.distbits)).bits <
          (here1 (lookup1 s s.distcode s.distbits) s.distcode s.distbits).bits +
            (here2 (lookup2 (lookup1 s s.distcode s.distbits) s.distcode
              (here1 (lookup1 s s.distcode s.distbits) s.distcode s.distbits)) s.distcode
              (here1 (lookup1 s s.distcode s.distbits) s.distcode s.distbits)).bits
      · rw [if_pos h3]
        exact chain_stall2 ret hpp ⟨rfl, rfl, rfl, rfl, rfl, rfl, rfl, rfl, rfl, rfl, rfl, rfl, rfl, rfl, rfl⟩ rfl rfl (by have := g1 h3; omega)
          (by rw [show (lookup2 (lookup1 s s.distcode s.distbits) s.distcode
                (here1 (lookup1 s s.distcode s.distbits) s.distcode s.distbits)).mode = s.mode
              from rfl, hm]; decide)
      · rw [if_neg h3]
        obtain ⟨ht2, _, hb2⟩ := hdone2 h3
        obtain ⟨g3, g4⟩ := g2 h3
        refine chain_dist_go tb X out E Hp s _ _ ret _ h hm ha hw
          ⟨rfl, rfl, rfl, rfl, rfl, rfl, rfl, rfl, rfl, rfl, rfl, rfl, rfl, rfl, rfl⟩ rfl rfl
          (taken_of_pulled hpp ⟨by omega, rfl, rfl, rfl⟩) hI2 (div_pow_lt hh2) ?_ ?_ ht2 g3 g4
        · show _ ≤ (lookup2 (lookup1 s s.distcode s.distbits) s.distcode
            (here1 (lookup1 s s.distcode s.distbits) s.distcode s.distbits)).bits -
            (here1 (lookup1 s s.distcode s.distbits) s.distcode s.distbits).bits
          omega
        · show (lookup2 (lookup1 s s.distcode s.distbits) s.distcode
            (here1 (lookup1 s s.distcode s.distbits) s.distcode s.distbits)).bits -
            (here1 (lookup1 s s.distcode s.distbits) s.distcode s.distbits).bits - _ < 8
          exact hb2
    · rw [if_neg h2]
      have hnl : is_link (here1 (lookup1 s s.distcode s.distbits) s.distcode s.distbits).op =
          false := is_link_false (fun hc => h2 ((hlink (lookup1 s s.distcode s.distbits) rfl).mpr hc))
      obtain ⟨ht1, hb1⟩ := hterm hnl
      obtain ⟨g3, g4⟩ := d1 hnl
      refine chain_dist_go tb X out E Hp s _ _ ret 0 h hm ha hw ⟨rfl, rfl, rfl, rfl, rfl, rfl, rfl, rfl, rfl, rfl, rfl, rfl, rfl, rfl, rfl⟩ rfl rfl
        (taken_of_pulled hp ⟨Nat.zero_le _, by simp, by simp, rfl⟩) hI hh (by omega) hb1 ht1
        (by rw [Nat.zero_add]; exact g3) (by omega)

/-- The case `LENEXT` as a pass of the slow decoder. -/
theorem chain_LENEXT (tb : table_builder) (X : List Nat) (out E : Nat) (Hp : List Nat)
    (s : inflate_stream) (ret : Int) (h : Inv s) (hm : s.mode = .LENEXT) (ha : acct out E s)
    (hw : wctx Hp s) : chain_ok tb X E Hp s (case_LENEXT out s ret) := by
  obtain ⟨hwf, hl, he, hl2⟩ := me_LENEXT h.regs hm
  have hsl := we_EXT h.slack (Or.inl hm)
  have hmode : (alpha_at X E Hp s).mode = .LENEXT s.length s.extra := by
    show amode_of s = _; unfold amode_of; rw [hm]
  have hnb : need_bits s = 33 := by unfold need_bits; rw [hm]
  have key : ∀ (b : inflate_stream) (k : Nat), pulled s b k → b.hold < 2 ^ b.bits →
      (b.bits = s.bits ∨ b.bits < s.extra + 8) → s.extra ≤ b.bits →
      ∀ m : inflate_stream, m.mode = .DIST →
      m.length = s.length + b.hold % 2 ^ s.extra →
      dropped b m s.extra → bytes m.next_in → kept m s → m.msg = s.msg →
      chain_ok tb X E Hp s (case_DIST out m ret) := by
    intro b k hp hh hmin hge m g1 g2 hd hIm hk hmsg
    obtain ⟨p1, p2⟩ := sN_pulled hp X
    have htk := taken_of_pulled hp hd
    have hmod : s.sN X % 2 ^ s.extra = b.hold % 2 ^ s.extra := by
      rw [← p1]; exact sN_mod _ X hd.1
    have hpow := pow_mod_lt b.hold s.extra
    have hinv : Inv m := by
      refine ⟨by rw [show m.sane = s.sane from congrArg fixed_part.sane hk.fixed]; exact h.sane,
        by rw [show m.dmax = s.dmax from congrArg fixed_part.dmax hk.fixed]; exact h.dmax, hIm,
        by rw [hd.2.1, hd.2.2.1]; exact div_pow_lt hh, Or.inl ?_,
        mi_DIST g1 ⟨kept_wf hk hwf, by omega, by omega⟩⟩
      rw [hd.2.2.1]
      rcases hmin with e | e
      · rcases hsl with hsl | hsl
        · omega
        · omega
      · omega
    refine chain_hand ?_ (by unfold amode_of; rw [g1]; rfl) hk.avail (fun hn => ?_) ?_
      (chain_DIST tb X out E Hp m ret hinv g1 (acct_of_eq ha hk.out hk.avail)
        (wctx_of_eq hw hk.fixed))
    · unfold astep; rw [hmode]; dsimp only
      have hL : ¬ (alpha_at X E Hp s).L < s.extra := by
        show ¬ s.sL X < s.extra
        rw [← p2]
        have := sL_ge b X
        omega
      rw [if_neg hL]
      refine congrArg some (Eq.symm ?_)
      rw [alpha_taken X E Hp htk hk]
      have : amode_of m = .DIST (s.length + (alpha_at X E Hp s).N % 2 ^ s.extra) := by
        unfold amode_of; rw [g1]; dsimp only
        rw [g2, show (alpha_at X E Hp s).N = s.sN X from rfl, hmod]
      rw [this, hmsg]
      rfl
    · have hs := taken_slen htk
      have e28 : need_bits m = 28 := by unfold need_bits; rw [g1]
      rw [e28] at hn
      rw [hnb]
      omega
    · rw [if_neg (by rw [g1]; decide), if_neg (by rw [hm]; decide)]
  unfold case_LENEXT
  by_cases h0 : s.extra ≠ 0
  · rw [if_pos h0]
    obtain ⟨k, hp, hstop, hmin⟩ := NEEDBITS_spec s.extra s
    have hh := pulled_hold hp h.inb h.hold
    have hI := pulled_bytes hp h.inb
    dsimp only
    by_cases h2 : (NEEDBITS s.extra s).bits < s.extra
    · rw [if_pos h2]
      refine chain_stall2 ret hp ⟨rfl, rfl, rfl, rfl, rfl, rfl, rfl, rfl, rfl, rfl, rfl, rfl, rfl, rfl, rfl⟩ rfl rfl ?_
        (by rw [show (NEEDBITS s.extra s).mode = s.mode from rfl, hm]; decide)
      rw [hnb, ← pulled_slen hp]
      unfold inflate_stream.slen
      rw [hstop h2]
      simp only [List.length_nil, Nat.mul_zero, Nat.add_zero]
      omega
    · rw [if_neg h2]
      exact key _ k hp hh hmin (by omega) _ rfl rfl ⟨by show s.extra ≤ _; omega, rfl, rfl, rfl⟩ hI
        ⟨rfl, rfl, rfl, rfl, rfl, rfl, rfl, rfl, rfl, rfl, rfl, rfl, rfl, rfl, rfl⟩ rfl
  · rw [if_neg h0]
    have h0 : s.extra = 0 := not_not.mp h0
    refine key s 0 (pulled_self s) h.hold (Or.inl rfl) (by omega) _ rfl ?_
        ⟨by rw [h0]; exact Nat.zero_le _, ?_, ?_, rfl⟩ h.inb
        ⟨rfl, rfl, rfl, rfl, rfl, rfl, rfl, rfl, rfl, rfl, rfl, rfl, rfl, rfl, rfl⟩ rfl
    · rw [h0]; simp [Nat.mod_one]
    · rw [h0]; simp
    · rw [h0]; simp

/-- The case `LEN` from `DROPBITS(here.bits)` on, as the end of a pass of the slow decoder
that began in the state `s0`. -/
theorem chain_len_go (tb : table_builder) (X : List Nat) (out E : Nat) (Hp : List Nat)
    (s0 t : inflate_stream) (here : code) (ret : Int) (n0 : Nat)
    (h0 : Inv s0) (hm0 : s0.mode = .LEN) (ha : acct out E s0) (hw : wctx Hp s0)
    (hk : kept t s0) (hmsg : t.msg = s0.msg)
    (ht : taken s0 t n0) (hI : bytes t.next_in) (hh : t.hold < 2 ^ t.bits)
    (hge : here.bits ≤ t.bits) (hb : t.bits - here.bits < 8) (hterm : len_term here = true)
    (hdec : adecode (s0.tab s0.lencode) s0.lenbits len_link (s0.sN X) (s0.sL X) =
      some (here, n0 + here.bits))
    (h15 : n0 + here.bits ≤ 15) : chain_ok tb X E Hp s0 (len_go out t here ret) := by
  have hwf := me_LEN h0.regs (Or.inr (Or.inl hm0))
  have hmode : (alpha_at X E Hp s0).mode = .LEN := by
    show amode_of s0 = _; unfold amode_of; rw [hm0]
  have hst : astep tb (alpha_at X E Hp s0) = astep_LEN (alpha_at X E Hp s0) := by
    unfold astep; rw [hmode]
  rw [astep_LEN_eval (a := alpha_at X E Hp s0) hdec] at hst
  have hsane : t.sane = 1 := by
    rw [show t.sane = s0.sane from congrArg fixed_part.sane hk.fixed]; exact h0.sane
  have hdmax : t.dmax = 32768 := by
    rw [show t.dmax = s0.dmax from congrArg fixed_part.dmax hk.fixed]; exact h0.dmax
  have fin : ∀ (u : inflate_stream) (a : astate), kept u t → dropped t u here.bits →
      astep tb (alpha_at X E Hp s0) = some a →
      a = { (alpha_at X E Hp s0).drop (n0 + here.bits) with mode := amode_of u, msg := u.msg } →
      (u.mode = .TYPE ∨ u.mode = .BAD ∨ u.mode = .LIT) →
      chain_ok tb X E Hp s0 (.cont u ret) := by
    intro u a hku hdu hs ha2 hmu
    have hseg : aseg tb (alpha_at X E Hp s0) (alpha_at X E Hp u) := by
      refine aseg.one ?_
      rw [hs, ha2, alpha_taken X E Hp (taken_drop ht hdu) (kept_trans hk hku)]
    refine ⟨Or.inr hseg, fun _ => hseg, fun hc => (by cases hc), fun _ => ?_, fun hc => ?_⟩
    · rcases hmu with e | e | e
      · exact Or.inr (Or.inl e)
      · exact Or.inr (Or.inr (Or.inl e))
      · exact Or.inr (Or.inr (Or.inr (Or.inl e)))
    · have hc : u.mode = .MATCH := hc
      rcases hmu with e | e | e <;> rw [e] at hc <;> cases hc
  unfold len_go
  dsimp only
  by_cases h1 : here.op = 0
  · rw [if_pos h1]
    rw [if_pos h1] at hst
    exact fin _ _ ⟨rfl, rfl, rfl, rfl, rfl, rfl, rfl, rfl, rfl, rfl, rfl, rfl, rfl, rfl, rfl⟩
      ⟨hge, rfl, rfl, rfl⟩ hst (by
        show _ = ({ (alpha_at X E Hp s0).drop (n0 + here.bits) with
          mode := .LIT here.val, msg := t.msg } : astate)
        rw [hmsg]; rfl) (Or.inr (Or.inr rfl))
  · rw [if_neg h1]
    rw [if_neg h1] at hst
    by_cases h32 : here.op &&& 32 ≠ 0
    · rw [if_pos h32]
      rw [if_pos h32] at hst
      exact fin _ _ ⟨rfl, rfl, rfl, rfl, rfl, rfl, rfl, rfl, rfl, rfl, rfl, rfl, rfl, rfl, rfl⟩
        ⟨hge, rfl, rfl, rfl⟩ hst (by
          show _ = ({ (alpha_at X E Hp s0).drop (n0 + here.bits) with
            mode := .TYPE, msg := t.msg } : astate)
          rw [hmsg]; rfl) (Or.inl rfl)
    · rw [if_neg h32]
      rw [if_neg h32] at hst
      by_cases h64 : here.op &&& 64 ≠ 0
      · rw [if_pos h64]
        rw [if_pos h64] at hst
        exact fin _ _ ⟨rfl, rfl, rfl, rfl, rfl, rfl, rfl, rfl, rfl, rfl, rfl, rfl, rfl, rfl, rfl⟩
          ⟨hge, rfl, rfl, rfl⟩ hst rfl (Or.inr (Or.inl rfl))
      · rw [if_neg h64]
        rw [if_neg h64] at hst
        obtain ⟨e1, e2, e3, _⟩ := len_base hterm h1 (not_not.mp h64)
        have hkm : kept { DROPBITS here.bits t with
            back := (DROPBITS here.bits t).back + here.bits, length := here.val,
            extra := here.op &&& 15, mode := .LENEXT } s0 :=
          kept_trans hk ⟨rfl, rfl, rfl, rfl, rfl, rfl, rfl, rfl, rfl, rfl, rfl, rfl, rfl, rfl, rfl⟩
        have htk : taken s0 { DROPBITS here.bits t with
            back := (DROPBITS here.bits t).back + here.bits, length := here.val,
            extra := here.op &&& 15, mode := .LENEXT } (n0 + here.bits) :=
          taken_drop ht ⟨hge, rfl, rfl, rfl⟩
        have hinv : Inv { DROPBITS here.bits t with
            back := (DROPBITS here.bits t).back + here.bits, length := here.val,
            extra := here.op &&& 15, mode := .LENEXT } :=
          ⟨hsane, hdmax, hI, div_pow_lt hh, Or.inl hb,
            mi_LENEXT rfl ⟨kept_wf hkm hwf, e2, e1, e3⟩⟩
        have hM := chain_LENEXT tb X out E Hp _ ret hinv rfl (acct_of_eq ha hkm.out hkm.avail)
          (wctx_of_eq hw hkm.fixed)
        refine chain_to hM ?_ rfl hk.avail (fun hn => ?_) ?_
        · rw [hst]
          refine congrArg some (Eq.symm ?_)
          rw [alpha_taken X E Hp htk hkm]
          show ({ (alpha_at X E Hp s0).drop (n0 + here.bits) with
            mode := .LENEXT here.val (here.op &&& 15), msg := t.msg } : astate) = _
          rw [hmsg]
          rfl
        · have hs := taken_slen htk
          have e33 : need_bits { DROPBITS here.bits t with
              back := (DROPBITS here.bits t).back + here.bits, length := here.val,
              extra := here.op &&& 15, mode := .LENEXT } = 33 := rfl
          have e48 : need_bits s0 = 48 := by unfold need_bits; rw [hm0]
          rw [e33] at hn
          rw [e48]
          omega
        · show (if Mode.LENEXT = Mode.MATCH then _ else 258) ≤ _
          rw [if_neg (by decide), if_neg (by rw [hm0]; decide)]

/-- The slow branch of the case `LEN` as a pass of the slow decoder. -/
theorem chain_LEN_slow (tb : table_builder) (X : List Nat) (out E : Nat) (Hp : List Nat)
    (s : inflate_stream) (ret : Int) (h : Inv s) (hm : s.mode = .LEN) (ha : acct out E s)
    (hw : wctx Hp s) : chain_ok tb X E Hp s (case_LEN_slow out s ret) := by
  have hwf := me_LEN h.regs (Or.inr (Or.inl hm))
  have hwd : wf_table len_term (s.tab s.lencode) s.lenbits = true := hwf.1
  have hsl := we_LEN h.slack (Or.inr hm)
  have hnb : need_bits s = 48 := by unfold need_bits; rw [hm]
  have hlink : ∀ t : inflate_stream, t.codes = s.codes →
      (((here1 t s.lencode s.lenbits).op ≠ 0 ∧ (here1 t s.lencode s.lenbits).op &&& 240 = 0) ↔
        is_link (here1 t s.lencode s.lenbits).op = true) := by
    intro t ht
    have : here1 t s.lencode s.lenbits = s.tab s.lencode (t.hold % 2 ^ s.lenbits) := by
      show code_at t.codes _ _ = code_at s.codes _ _; rw [ht]; rfl
    rw [this]; exact len_link_iff hwd (pow_mod_lt _ _)
  have hsl2 : ({ s with back := 0 } : inflate_stream).bits < 8 ∨
      wants1 { s with back := 0 } s.lencode s.lenbits ∨
      (is_link (here1 { s with back := 0 } s.lencode s.lenbits).op = true ∧
        wants2 { s with back := 0 } s.lencode (here1 { s with back := 0 } s.lencode s.lenbits)) := by
    rcases hsl with h1 | h1 | h1
    · exact Or.inl h1
    · exact Or.inr (Or.inl h1)
    · exact Or.inr (Or.inr ⟨(hlink s rfl).mp ⟨h1.1, h1.2.1⟩, h1.2.2⟩)
  obtain ⟨⟨k, hp⟩, hstop, hdone⟩ := decode_slack { s with back := 0 } s.lencode s.lenbits
    len_term hwd hsl2
  obtain ⟨c1, c2⟩ := decode_core { s with back := 0 } s.lencode s.lenbits len_term len_link X
    hwd (by
    intro i hi
    show len_link (s.tab s.lencode i) = true ↔ is_link (s.tab s.lencode i).op = true
    rw [← len_link_iff hwd hi]
    unfold len_link
    exact decide_eq_true_iff) h.inb h.hold hsl2
  have hp : pulled s (lookup1 { s with back := 0 } s.lencode s.lenbits) k := hp
  have hh := pulled_hold hp h.inb h.hold
  have hI := pulled_bytes hp h.inb
  unfold case_LEN_slow
  dsimp only
  by_cases h1 : (lookup1 { s with back := 0 } s.lencode s.lenbits).bits <
      (here1 (lookup1 { s with back := 0 } s.lencode s.lenbits) s.lencode s.lenbits).bits
  · rw [if_pos h1]
    exact chain_stall2 ret hp ⟨rfl, rfl, rfl, rfl, rfl, rfl, rfl, rfl, rfl, rfl, rfl, rfl, rfl, rfl, rfl⟩ (by
      show amode_of (lookup1 { s with back := 0 } s.lencode s.lenbits) = amode_of s
      unfold amode_of
      rw [show (lookup1 { s with back := 0 } s.lencode s.lenbits).mode = s.mode from rfl, hm])
      rfl (by have := c1 h1; have e : ({ s with back := 0 } : inflate_stream).slen = s.slen := rfl
              omega)
      (by rw [show (lookup1 { s with back := 0 } s.lencode s.lenbits).mode = s.mode from rfl, hm]
          decide)
  · rw [if_neg h1]
    obtain ⟨hterm, hlk⟩ := hdone h1
    obtain ⟨d1, d2⟩ := c2 h1
    by_cases h2 : (here1 (lookup1 { s with back := 0 } s.lencode s.lenbits) s.lencode
        s.lenbits).op ≠ 0 ∧ (here1 (lookup1 { s with back := 0 } s.lencode s.lenbits) s.lencode
        s.lenbits).op &&& 240 = 0
    · rw [if_pos h2]
      have hl2 := (hlink (lookup1 { s with back := 0 } s.lencode s.lenbits) rfl).mp h2
      obtain ⟨⟨k2, hp2⟩, hsame, hstop2, hdone2⟩ := hlk hl2
      obtain ⟨⟨kk, hpp⟩, g1, g2⟩ := d2 hl2
      have hpp : pulled s (lookup2 (lookup1 { s with back := 0 } s.lencode s.lenbits) s.lencode
          (here1 (lookup1 { s with back := 0 } s.lencode s.lenbits) s.lencode s.lenbits)) kk := hpp
      have hh2 := pulled_hold hp2 hI hh
      have hI2 := pulled_bytes hp2 hI
      by_cases h3 : (lookup2 (lookup1 { s with back := 0 } s.lencode s.lenbits) s.lencode
          (here1 (lookup1 { s with back := 0 } s.lencode s.lenbits) s.lencode s.lenbits)).bits <
          (here1 (lookup1 { s with back := 0 } s.lencode s.lenbits) s.lencode s.lenbits).bits +
            (here2 (lookup2 (lookup1 { s with back := 0 } s.lencode s.lenbits) s.lencode
              (here1 (lookup1 { s with back := 0 } s.lencode s.lenbits) s.lencode s.lenbits))
              s.lencode
              (here1 (lookup1 { s with back := 0 } s.lencode s.lenbits) s.lencode s.lenbits)).bits
      · rw [if_pos h3]
        exact chain_stall2 ret hpp ⟨rfl, rfl, rfl, rfl, rfl, rfl, rfl, rfl, rfl, rfl, rfl, rfl, rfl, rfl, rfl⟩ (by
          show amode_of (lookup2 (lookup1 { s with back := 0 } s.lencode s.lenbits) s.lencode
            (here1 (lookup1 { s with back := 0 } s.lencode s.lenbits) s.lencode s.lenbits)) =
            amode_of s
          unfold amode_of
          rw [show (lookup2 (lookup1 { s with back := 0 } s.lencode s.lenbits) s.lencode
            (here1 (lookup1 { s with back := 0 } s.lencode s.lenbits) s.lencode s.lenbits)).mode =
            s.mode from rfl, hm])
          rfl (by have := g1 h3
                  have e : ({ s with back := 0 } : inflate_stream).slen = s.slen := rfl
                  omega)
          (by rw [show (lookup2 (lookup1 { s with back := 0 } s.lencode s.lenbits) s.lencode
                (here1 (lookup1 { s with back := 0 } s.lencode s.lenbits) s.lencode
                  s.lenbits)).mode = s.mode from rfl, hm]
              decide)
      · rw [if_neg h3]
        obtain ⟨ht2, _, hb2⟩ := hdone2 h3
        obtain ⟨g3, g4⟩ := g2 h3
        refine chain_len_go tb X out E Hp s _ _ ret _ h hm ha hw
          ⟨rfl, rfl, rfl, rfl, rfl, rfl, rfl, rfl, rfl, rfl, rfl, rfl, rfl, rfl, rfl⟩ rfl
          (taken_of_pulled hpp ⟨by omega, rfl, rfl, rfl⟩) hI2 (div_pow_lt hh2) ?_ ?_ ht2 g3 g4
        · show _ ≤ (lookup2 (lookup1 { s with back := 0 } s.lencode s.lenbits) s.lencode
            (here1 (lookup1 { s with back := 0 } s.lencode s.lenbits) s.lencode s.lenbits)).bits -
            (here1 (lookup1 { s with back := 0 } s.lencode s.lenbits) s.lencode s.lenbits).bits
          omega
        · show (lookup2 (lookup1 { s with back := 0 } s.lencode s.lenbits) s.lencode
            (here1 (lookup1 { s with back := 0 } s.lencode s.lenbits) s.lencode s.lenbits)).bits -
            (here1 (lookup1 { s with back := 0 } s.lencode s.lenbits) s.lencode s.lenbits).bits -
            _ < 8
          exact hb2
    · rw [if_neg h2]
      have hnl : is_link (here1 (lookup1 { s with back := 0 } s.lencode s.lenbits) s.lencode
          s.lenbits).op = false :=
        is_link_false (fun hc => h2 ((hlink (lookup1 { s with back := 0 } s.lencode s.lenbits)
          rfl).mpr hc))
      obtain ⟨ht1, hb1⟩ := hterm hnl
      obtain ⟨g3, g4⟩ := d1 hnl
      refine chain_len_go tb X out E Hp s _ _ ret 0 h hm ha hw ⟨rfl, rfl, rfl, rfl, rfl, rfl, rfl, rfl, rfl, rfl, rfl, rfl, rfl, rfl, rfl⟩ rfl
        (taken_of_pulled hp ⟨Nat.zero_le _, by simp, by simp, rfl⟩) hI hh (by omega) hb1 ht1
        (by rw [Nat.zero_add]; exact g3) (by omega)

theorem back_idx_wrap {n wnext c : Nat} (h : wnext < c) (hc : c ≤ n)
    (h32 : n + wnext < 4294967296) : usub (n + wnext) c = back_idx n wnext c := by
  unfold back_idx
  rw [if_pos h, usub_of_le (by omega) h32]
  omega

theorem take_drop_take (l : List Nat) (a b : Nat) :
    l.take a ++ (l.drop a).take b = l.take (a + b) := by
  rw [List.take_add]

/-- The match copy of the fast decoder out of the window, in terms of the output `Hp` the
window was filled from: the stretch that begins `c` bytes before the end of `Hp`, then
bytes of the match itself. -/
theorem fwc_eq {w Hp : List Nat} {n wnext whave : Nat} (hl : w.length = n)
    (hn : wnext < n) (hh : whave ≤ n) (hfill : whave < n → wnext = whave)
    (hwin : lin w wnext whave = lastn whave Hp) (hle : whave ≤ Hp.length)
    (h32 : n + wnext < 4294967296) (out : List Nat) {c len dist : Nat}
    (hc1 : 1 ≤ c) (hc2 : c ≤ whave) :
    fast_window_copy w n wnext out c len dist =
      if c < len then out_copy dist (len - c) (out ++ Hp.drop (Hp.length - c))
      else out ++ (Hp.drop (Hp.length - c)).take len := by
  have hS : (Hp.drop (Hp.length - c)).length = c := by rw [List.length_drop]; omega
  have R : ∀ {c1 m : Nat}, 1 ≤ c1 → c1 ≤ whave → m ≤ (if c1 > wnext then c1 - wnext else c1) →
      wread w (back_idx n wnext c1) m = (Hp.drop (Hp.length - c1)).take m :=
    fun h1 h2 h3 => wread_history hl hn hh hfill hwin hle h1 h2 h3
  have full : (Hp.drop (Hp.length - c)).take c = Hp.drop (Hp.length - c) := by
    rw [List.take_of_length_le (by omega)]
  unfold fast_window_copy
  by_cases h0 : wnext = 0
  · rw [if_pos h0]
    dsimp only
    have e : usub n c = back_idx n wnext c := by
      unfold back_idx; rw [if_pos (by omega), usub_of_le (by omega) (by omega)]; omega
    rw [e]
    by_cases h1 : c < len
    · rw [if_pos h1, if_pos h1, R hc1 hc2 (by rw [if_pos (by omega)]; omega), full]
    · rw [if_neg h1, if_neg h1, R hc1 hc2 (by rw [if_pos (by omega)]; omega)]
  · rw [if_neg h0]
    by_cases h1 : wnext < c
    · rw [if_pos h1]
      dsimp only
      rw [back_idx_wrap h1 (by omega) h32]
      have hw1 : wnext ≤ whave := by
        by_cases hf : whave < n
        · rw [hfill hf]
        · omega
      have e0 : (0 : Nat) = back_idx n wnext wnext := by
        unfold back_idx; rw [if_neg (by omega)]; omega
      have hd : Hp.drop (Hp.length - wnext) =
          (Hp.drop (Hp.length - c)).drop (c - wnext) := by
        rw [List.drop_drop]; congr 1; omega
      by_cases h2 : c - wnext < len
      · rw [if_pos h2, R hc1 hc2 (by rw [if_pos h1])]
        by_cases h3 : wnext < len - (c - wnext)
        · rw [if_pos h3, if_pos (by omega)]
          conv_lhs => rw [e0]
          rw [R (by omega) hw1 (by rw [if_neg (by omega)]), hd, List.append_assoc,
            take_drop_take, show c - wnext + wnext = c by omega, full]
          congr 1
          omega
        · rw [if_neg h3, if_neg (by omega)]
          conv_lhs => rw [e0]
          rw [R (by omega) hw1 (by rw [if_neg (by omega)]; omega), hd, List.append_assoc,
            take_drop_take]
          congr 2
          omega
      · rw [if_neg h2, if_neg (by omega), R hc1 hc2 (by rw [if_pos h1]; omega)]
    · rw [if_neg h1]
      dsimp only
      have e : wnext - c = back_idx n wnext c := by
        unfold back_idx; rw [if_neg (by omega)]
      rw [e]
      by_cases h2 : c < len
      · rw [if_pos h2, if_pos h2, R hc1 hc2 (by rw [if_neg (by omega)]), full]
      · rw [if_neg h2, if_neg h2, R hc1 hc2 (by rw [if_neg (by omega)]; omega)]

/-- A match of distance `dist = c + |P|` copied onto `Hp ++ P`: the first `c` bytes come
from the end of `Hp`. -/
theorem out_copy_window (Hp P : List Nat) (c : Nat) {len dist : Nat} (hc : c ≤ Hp.length)
    (hd : dist = c + P.length) :
    out_copy dist len (Hp ++ P) =
      if c < len then out_copy dist (len - c) (Hp ++ P ++ Hp.drop (Hp.length - c))
      else Hp ++ P ++ (Hp.drop (Hp.length - c)).take len := by
  have far : ∀ m, m ≤ c → out_copy dist m (Hp ++ P) =
      Hp ++ P ++ (Hp.drop (Hp.length - c)).take m := by
    intro m hm
    rw [out_copy_far _ _ _ (by omega) (by rw [List.length_append]; omega)]
    congr 1
    rw [List.length_append, show Hp.length + P.length - dist = Hp.length - c by omega,
      List.drop_append_of_le_length (by omega),
      List.take_append_of_le_length (by rw [List.length_drop]; omega)]
  by_cases h1 : c < len
  · rw [if_pos h1]
    have := far c (le_refl _)
    rw [List.take_of_length_le (by rw [List.length_drop]; omega)] at this
    rw [← this, ← out_copy_add]
    congr 1
    omega
  · rw [if_neg h1]
    exact far len (by omega)

/-- The match copy of the fast decoder out of the window is the copy the decoder makes
on the whole output. -/
theorem fwc_history {w Hp : List Nat} {n wnext whave : Nat} (hl : w.length = n)
    (hn : wnext < n) (hh : whave ≤ n) (hfill : whave < n → wnext = whave)
    (hwin : lin w wnext whave = lastn whave Hp) (hle : whave ≤ Hp.length)
    (h32 : n + wnext < 4294967296) (out : List Nat) (E c len dist : Nat)
    (hE : E ≤ out.length) (hc1 : 1 ≤ c) (hc2 : c ≤ whave)
    (hd : dist = c + (out.length - E)) :
    Hp ++ (fast_window_copy w n wnext out c len dist).drop E =
      out_copy dist len (Hp ++ out.drop E) := by
  rw [fwc_eq hl hn hh hfill hwin hle h32 out hc1 hc2,
    out_copy_window Hp (out.drop E) c (by omega) (by rw [List.length_drop]; exact hd)]
  have e : out = out.take E ++ out.drop E := (List.take_append_drop E out).symm
  have ht : (out.take E).length = E := by rw [List.length_take]; omega
  by_cases h1 : c < len
  · rw [if_pos h1, if_pos h1]
    have hdl : dist ≤ (out.drop E ++ Hp.drop (Hp.length - c)).length := by
      rw [List.length_append, List.length_drop, List.length_drop]; omega
    conv_lhs => rw [e]
    rw [List.append_assoc (out.take E), out_copy_append _ _ _ _ hdl,
      List.drop_append_of_le_length (by omega), List.drop_eq_nil_of_le (by omega),
      List.nil_append, List.append_assoc Hp, out_copy_append _ _ _ _ hdl]
  · rw [if_neg h1, if_neg h1, drop_append_of_le hE, List.append_assoc]

/-- The direct match copy of the fast decoder is the copy the decoder makes on the whole
output. -/
theorem direct_history (Hp out : List Nat) (E len dist : Nat) (hE : E ≤ out.length)
    (hd : dist ≤ out.length - E) :
    Hp ++ (out_copy dist len out).drop E = out_copy dist len (Hp ++ out.drop E) := by
  have e : out = out.take E ++ out.drop E := (List.take_append_drop E out).symm
  have hdl : dist ≤ (out.drop E).length := by rw [List.length_drop]; exact hd
  conv_lhs => rw [e]
  rw [out_copy_append _ _ _ _ hdl, out_copy_append _ _ _ _ hdl,
    List.drop_append_of_le_length (by rw [List.length_take]; omega),
    List.drop_eq_nil_of_le (by rw [List.length_take]; omega), List.nil_append]

theorem bytes_val_shift (R : Nat) : ∀ (k : Nat) (I : List Nat), k ≤ I.length → bytes I →
    (bytes_val I + 2 ^ (8 * I.length) * R) / 2 ^ (8 * k) =
      bytes_val (I.drop k) + 2 ^ (8 * (I.drop k).length) * R := by
  intro k
  induction k with
  | zero => intro I _ _; simp
  | succ k ih =>
    intro I hk hI
    cases I with
    | nil => simp at hk
    | cons b r =>
      have hb : b < 256 := hI b (List.mem_cons_self _ _)
      obtain ⟨-, m2⟩ := bytes_val_cons_mod hb R (r := r)
      rw [show 8 * (k + 1) = 8 + 8 * k by ring, pow_add, ← Nat.div_div_eq_div_mul,
        show (2 : Nat) ^ 8 = 256 by norm_num, m2, List.drop_succ_cons]
      exact ih r (by simpa using hk) (fun x hx => hI x (List.mem_cons_of_mem _ hx))

theorem byte_at (R : Nat) (I : List Nat) {k : Nat} (hk : k < I.length) (hI : bytes I) :
    (bytes_val I + 2 ^ (8 * I.length) * R) / 2 ^ (8 * k) % 256 = I.getD k 0 := by
  rw [bytes_val_shift R k I (le_of_lt hk) hI]
  have hd : I.drop k = I.getD k 0 :: I.drop (k + 1) := by
    rw [List.getD_eq_getElem _ _ hk]
    exact List.drop_eq_getElem_cons hk
  rw [hd]
  have hb : I.getD k 0 < 256 := by
    rw [List.getD_eq_getElem _ _ hk]; exact hI _ (List.getElem_mem _)
  exact (bytes_val_cons_mod hb R).1

theorem mod_pow_div (a : Nat) {n b : Nat} (h : n ≤ b) :
    a % 2 ^ b / 2 ^ n = a / 2 ^ n % 2 ^ (b - n) := by
  obtain ⟨d, hd⟩ := Nat.exists_eq_add_of_le h
  rw [hd, Nat.add_sub_cancel_left, pow_add, Nat.mod_mul_right_div_self]

theorem div_div_pow (a m n : Nat) : a / 2 ^ m / 2 ^ n = a / 2 ^ (m + n) := by
  rw [Nat.div_div_eq_div_mul, ← pow_add]

/-- A pull of the fast decoder inside the input keeps the invariant and consumes nothing. -/
theorem fast_inv_pull {V0 bits0 R : Nat} {inp : List Nat} {l : fast_locals}
    (hV : V0 / 2 ^ bits0 = bytes_val inp + 2 ^ (8 * inp.length) * R) (hI : bytes inp)
    (h : fast_inv V0 bits0 inp l) (hc : l.cin < inp.length) (hb : l.bits < 24) :
    fast_inv V0 bits0 inp (l.pull inp) ∧ cbits bits0 (l.pull inp) = cbits bits0 l ∧
      (l.pull inp).out = l.out ∧ (l.pull inp).bits = l.bits + 8 ∧
      (l.pull inp).cin = l.cin + 1 := by
  have hle := h.le
  have hcb : cbits bits0 (l.pull inp) = cbits bits0 l := by
    unfold cbits fast_locals.pull; dsimp only; omega
  refine ⟨⟨?_, ?_, ?_, ?_⟩, hcb, rfl, rfl, rfl⟩
  · show l.cin + 1 ≤ _; omega
  · show l.bits + 8 ≤ bits0 + 8 * (l.cin + 1); omega
  · show l.bits + 8 < 32; omega
  · rw [hcb]
    show l.hold + inp.getD l.cin 0 * 2 ^ l.bits = V0 / 2 ^ cbits bits0 l % 2 ^ (l.bits + 8)
    rw [pow_add, Nat.mod_mul, ← h.hold, div_div_pow]
    have e : cbits bits0 l + l.bits = bits0 + 8 * l.cin := by unfold cbits; omega
    rw [e, ← div_div_pow, hV, show (2 : Nat) ^ 8 = 256 by norm_num, byte_at R inp hc hI]
    ring

/-- Dropping bits the accumulator holds keeps the invariant and consumes them. -/
theorem fast_inv_drop {V0 bits0 : Nat} {inp : List Nat} {l : fast_locals} {n : Nat}
    (h : fast_inv V0 bits0 inp l) (hn : n ≤ l.bits) :
    fast_inv V0 bits0 inp (l.drop n) ∧ cbits bits0 (l.drop n) = cbits bits0 l + n ∧
      (l.drop n).out = l.out ∧ (l.drop n).bits = l.bits - n ∧ (l.drop n).cin = l.cin := by
  have hle := h.le
  have hsm := h.small
  have hb : (l.drop n).bits = l.bits - n := usub_of_le hn (by omega)
  have hcb : cbits bits0 (l.drop n) = cbits bits0 l + n := by
    unfold cbits; rw [hb]; show bits0 + 8 * l.cin - (l.bits - n) = _; omega
  refine ⟨⟨h.cin, ?_, ?_, ?_⟩, hcb, rfl, hb, rfl⟩
  · rw [hb]; show l.bits - n ≤ bits0 + 8 * l.cin; omega
  · rw [hb]; omega
  · rw [hcb, hb]
    show l.hold / 2 ^ n = _
    rw [h.hold, mod_pow_div _ hn, div_div_pow]

theorem fast_inv_read {V0 bits0 : Nat} {inp : List Nat} {l : fast_locals} {n : Nat}
    (h : fast_inv V0 bits0 inp l) (hn : n ≤ l.bits) :
    l.hold % 2 ^ n = V0 / 2 ^ cbits bits0 l % 2 ^ n := by
  rw [h.hold, mod_pow_of_le _ hn]

/-- The refill of the fast decoder with two bytes of input left. -/
theorem fast_inv_refill {V0 bits0 R : Nat} {inp : List Nat} {l : fast_locals}
    (hV : V0 / 2 ^ bits0 = bytes_val inp + 2 ^ (8 * inp.length) * R) (hI : bytes inp)
    (h : fast_inv V0 bits0 inp l) (hc : l.bits < 15 → l.cin + 2 ≤ inp.length) :
    fast_inv V0 bits0 inp (l.refill inp) ∧ cbits bits0 (l.refill inp) = cbits bits0 l ∧
      (l.refill inp).out = l.out ∧ 15 ≤ (l.refill inp).bits ∧
      (l.refill inp).cin ≤ l.cin + 2 ∧ l.cin ≤ (l.refill inp).cin := by
  unfold fast_locals.refill
  by_cases h15 : l.bits < 15
  · rw [if_pos h15]
    obtain ⟨a1, a2, a3, a4, a5⟩ := fast_inv_pull hV hI h (by have := hc h15; omega) (by omega)
    obtain ⟨b1, b2, b3, b4, b5⟩ := fast_inv_pull hV hI a1 (by rw [a5]; have := hc h15; omega)
      (by rw [a4]; omega)
    exact ⟨b1, b2.trans a2, b3.trans a3, by rw [b4, a4]; omega, by rw [b5, a5], by
      rw [b5, a5]; omega⟩
  · rw [if_neg h15]
    exact ⟨h, rfl, rfl, by omega, by omega, le_refl _⟩

/-- The statement `need1` of the fast decoder with a byte of input left. -/
theorem fast_inv_need1 {V0 bits0 R : Nat} {inp : List Nat} {l : fast_locals} {op : Nat}
    (hV : V0 / 2 ^ bits0 = bytes_val inp + 2 ^ (8 * inp.length) * R) (hI : bytes inp)
    (h : fast_inv V0 bits0 inp l) (hop : op ≤ 8) (hc : l.bits < op → l.cin < inp.length) :
    fast_inv V0 bits0 inp (l.need1 inp op) ∧ cbits bits0 (l.need1 inp op) = cbits bits0 l ∧
      (l.need1 inp op).out = l.out ∧ op ≤ (l.need1 inp op).bits := by
  unfold fast_locals.need1
  by_cases h1 : l.bits < op
  · rw [if_pos h1]
    obtain ⟨a1, a2, a3, a4, a5⟩ := fast_inv_pull hV hI h (hc h1) (by omega)
    exact ⟨a1, a2, a3, by rw [a4]; omega⟩
  · rw [if_neg h1]
    exact ⟨h, rfl, rfl, by omega⟩

/-- The statement `need2` of the fast decoder with the bytes it pulls left in the input. -/
theorem fast_inv_need2 {V0 bits0 R : Nat} {inp : List Nat} {l : fast_locals} {op : Nat}
    (hV : V0 / 2 ^ bits0 = bytes_val inp + 2 ^ (8 * inp.length) * R) (hI : bytes inp)
    (h : fast_inv V0 bits0 inp l) (hop : op ≤ 16)
    (hc : l.bits < op → l.cin < inp.length ∧ (l.bits + 8 < op → l.cin + 1 < inp.length)) :
    fast_inv V0 bits0 inp (l.need2 inp op) ∧ cbits bits0 (l.need2 inp op) = cbits bits0 l ∧
      (l.need2 inp op).out = l.out ∧ op ≤ (l.need2 inp op).bits := by
  unfold fast_locals.need2
  by_cases h1 : l.bits < op
  · rw [if_pos h1]
    obtain ⟨a1, a2, a3, a4, a5⟩ := fast_inv_pull hV hI h (hc h1).1 (by omega)
    unfold fast_locals.need1
    by_cases h2 : (l.pull inp).bits < op
    · rw [if_pos h2]
      obtain ⟨b1, b2, b3, b4, b5⟩ := fast_inv_pull hV hI a1 (by
        rw [a5]; exact (hc h1).2 (by rw [a4] at h2; exact h2)) (by rw [a4]; omega)
      exact ⟨b1, b2.trans a2, b3.trans a3, by rw [b4, a4]; omega⟩
    · rw [if_neg h2]
      exact ⟨a1, a2, a3, by omega⟩
  · rw [if_neg h1]
    exact ⟨h, rfl, rfl, by omega⟩

theorem Ast_drop (a0 : astate) (c n : Nat) (H : List Nat) (m m1 : amode)
    (msg : Option String) :
    ({ (Ast a0 c H m msg).drop n with mode := m1 } : astate) = Ast a0 (c + n) H m1 msg := by
  unfold Ast astate.drop
  dsimp only
  rw [div_div_pow, Nat.sub_sub]

theorem Ast_bad (a0 : astate) (c n : Nat) (H : List Nat) (m : amode)
    (msg : Option String) (t : String) :
    ((Ast a0 c H m msg).drop n).bad t = Ast a0 (c + n) H .BAD (some t) := by
  unfold Ast astate.drop astate.bad
  dsimp only
  rw [div_div_pow, Nat.sub_sub]

/-- The step of the decoder at a literal/length symbol, on a state given by its
consumed bits. -/
theorem astep_Ast_LEN (tb : table_builder) (a0 : astate) (c : Nat) (H : List Nat)
    (msg : Option String) {e : code} {cl : Nat}
    (h : adecode (code_at a0.codes a0.lencode) a0.lenbits len_link (a0.N / 2 ^ c) (a0.L - c) =
      some (e, cl)) :
    astep tb (Ast a0 c H .LEN msg) =
      if e.op = 0 then some (Ast a0 (c + cl) H (.LIT e.val) msg)
      else if e.op &&& 32 ≠ 0 then some (Ast a0 (c + cl) H .TYPE msg)
      else if e.op &&& 64 ≠ 0 then
        some (Ast a0 (c + cl) H .BAD (some "invalid literal/length code"))
      else some (Ast a0 (c + cl) H (.LENEXT e.val (e.op &&& 15)) msg) := by
  have hs : astep tb (Ast a0 c H .LEN msg) = astep_LEN (Ast a0 c H .LEN msg) := rfl
  have h2 : adecode (code_at (Ast a0 c H .LEN msg).codes (Ast a0 c H .LEN msg).lencode)
      (Ast a0 c H .LEN msg).lenbits len_link (Ast a0 c H .LEN msg).N (Ast a0 c H .LEN msg).L =
      some (e, cl) := h
  rw [hs, astep_LEN_eval h2, Ast_drop, Ast_drop, Ast_drop, Ast_bad]

/-- The step of the decoder at a distance symbol, on a state given by its consumed
bits. -/
theorem astep_Ast_DIST (tb : table_builder) (a0 : astate) (c : Nat) (H : List Nat)
    (msg : Option String) (len : Nat) {e : code} {cl : Nat}
    (h : adecode (code_at a0.codes a0.distcode) a0.distbits dist_link (a0.N / 2 ^ c)
      (a0.L - c) = some (e, cl)) :
    astep tb (Ast a0 c H (.DIST len) msg) =
      if e.op &&& 64 ≠ 0 then some (Ast a0 (c + cl) H .BAD (some "invalid distance code"))
      else some (Ast a0 (c + cl) H (.DISTEXT len e.val (e.op &&& 15)) msg) := by
  have hs : astep tb (Ast a0 c H (.DIST len) msg) = astep_DIST (Ast a0 c H (.DIST len) msg) len :=
    rfl
  have h2 : adecode (code_at (Ast a0 c H (.DIST len) msg).codes
      (Ast a0 c H (.DIST len) msg).distcode) (Ast a0 c H (.DIST len) msg).distbits dist_link
      (Ast a0 c H (.DIST len) msg).N (Ast a0 c H (.DIST len) msg).L = some (e, cl) := h
  rw [hs, astep_DIST_eval len h2, Ast_drop, Ast_bad]

theorem astep_Ast_LENEXT (tb : table_builder) (a0 : astate) (c : Nat) (H : List Nat)
    (msg : Option String) (len e : Nat) (h : e ≤ a0.L - c) :
    astep tb (Ast a0 c H (.LENEXT len e) msg) =
      some (Ast a0 (c + e) H (.DIST (len + a0.N / 2 ^ c % 2 ^ e)) msg) := by
  have hs : astep tb (Ast a0 c H (.LENEXT len e) msg) =
      if (Ast a0 c H (.LENEXT len e) msg).L < e then none
      else some { (Ast a0 c H (.LENEXT len e) msg).drop e with
        mode := .DIST (len + (Ast a0 c H (.LENEXT len e) msg).N % 2 ^ e) } := rfl
  rw [hs, if_neg (by show ¬ a0.L - c < e; omega), Ast_drop]
  rfl

theorem astep_Ast_DISTEXT (tb : table_builder) (a0 : astate) (c : Nat) (H : List Nat)
    (msg : Option String) (len off e : Nat) (h : e ≤ a0.L - c) :
    astep tb (Ast a0 c H (.DISTEXT len off e) msg) =
      some (Ast a0 (c + e) H (.MATCH len (off + a0.N / 2 ^ c % 2 ^ e)) msg) := by
  have hs : astep tb (Ast a0 c H (.DISTEXT len off e) msg) =
      if (Ast a0 c H (.DISTEXT len off e) msg).L < e then none
      else some { (Ast a0 c H (.DISTEXT len off e) msg).drop e with
        mode := .MATCH len (off + (Ast a0 c H (.DISTEXT len off e) msg).N % 2 ^ e) } := rfl
  rw [hs, if_neg (by show ¬ a0.L - c < e; omega), Ast_drop]
  rfl

theorem astep_Ast_LIT (tb : table_builder) (a0 : astate) (c : Nat) (H : List Nat)
    (msg : Option String) (len : Nat) :
    astep tb (Ast a0 c H (.LIT len) msg) = some (Ast a0 c (H ++ [len % 256]) .LEN msg) := rfl

/-- The steps of the decoder through a whole match that does not reach before the
output, on a state given by its consumed bits. -/
theorem aseg_Ast_MATCH (tb : table_builder) (a0 : astate) (c : Nat) (H : List Nat)
    (msg : Option String) (len off : Nat) (hl : 1 ≤ len) (ho : off ≤ H.length) :
    aseg tb (Ast a0 c H (.MATCH len off) msg) (Ast a0 c (out_copy off len H) .LEN msg) := by
  have := aseg_MATCH tb off len (Ast a0 c H (.MATCH len off) msg) len rfl hl (le_refl _) ho
  rw [if_pos rfl] at this
  exact this

theorem astep_Ast_far (tb : table_builder) (a0 : astate) (c : Nat) (H : List Nat)
    (msg : Option String) (len off : Nat) (ho : off > H.length) :
    astep tb (Ast a0 c H (.MATCH len off) msg) =
      some (Ast a0 c H .BAD (some "invalid distance too far back")) := by
  have hs : astep tb (Ast a0 c H (.MATCH len off) msg) =
      astep_MATCH (Ast a0 c H (.MATCH len off) msg) len off := rfl
  rw [hs]
  unfold astep_MATCH
  rw [if_pos (show off > (Ast a0 c H (.MATCH len off) msg).H.length from ho)]
  rfl

theorem fast_hV (X : List Nat) {s : inflate_stream} (h : s.hold < 2 ^ s.bits) :
    s.sN X / 2 ^ s.bits =
      bytes_val s.next_in + 2 ^ (8 * s.next_in.length) * bytes_val X := by
  rw [sN_eq, Nat.add_mul_div_left _ _ (Nat.two_pow_pos _), Nat.div_eq_of_lt h, Nat.zero_add]

theorem fast_L (X : List Nat) (E : Nat) (Hp : List Nat) {s : inflate_stream}
    {l : fast_locals} (h : fI X s l) :
    (alpha_at X E Hp s).L - cbits s.bits l = lbits s l + 8 * X.length := by
  have h1 := h.cin
  have h2 := h.le
  show s.sL X - cbits s.bits l = _
  unfold inflate_stream.sL inflate_stream.slen cbits lbits
  omega

theorem fast_ok_mono {tb : table_builder} {X : List Nat} {E : Nat} {Hp : List Nat}
    {s : inflate_stream} {start : astate} {l l0 : fast_locals} {r : fast_end}
    (h : fast_ok tb X E Hp s start l r) (hc : cbits s.bits l0 ≤ cbits s.bits l)
    (ho : l.out = l0.out) : fast_ok tb X E Hp s start l0 r := by
  cases r with
  | test l1 =>
    obtain ⟨a, b, c, d⟩ := h
    exact ⟨a, le_trans hc b, by rw [← ho]; exact c, d⟩
  | brk l1 m msg =>
    obtain ⟨a, b, c, d, e⟩ := h
    exact ⟨a, le_trans hc b, c.trans ho, d, e⟩

theorem fast_ok_start {tb : table_builder} {X : List Nat} {E : Nat} {Hp : List Nat}
    {s : inflate_stream} {start a : astate} {l : fast_locals} {r : fast_end}
    (h : fast_ok tb X E Hp s a l r) (hs : astep tb start = some a)
    (hb : boundary a.mode = false) : fast_ok tb X E Hp s start l r := by
  cases r with
  | test l1 =>
    obtain ⟨p, q, c, d⟩ := h
    exact ⟨p, q, c, aseg.cons hs hb d⟩
  | brk l1 m msg =>
    obtain ⟨p, q, c, d, e⟩ := h
    exact ⟨p, q, c, d, aseg.cons hs hb e⟩

/-- With 15 bits in the accumulator the lookups of the fast decoder find the symbol the
decoder reads from the unread bits. -/
theorem fast_decode {T : Nat → code} {root : Nat} {term linkB : code → Bool}
    (hwf : wf_table term T root = true)
    (hlk : ∀ i, i < 2 ^ root → (linkB (T i) = true ↔ is_link (T i).op = true))
    {N L hold bits : Nat} (hb : 15 ≤ bits) (hL : bits ≤ L)
    (hmod : ∀ n, n ≤ bits → hold % 2 ^ n = N % 2 ^ n) :
    (is_link (T (hold % 2 ^ root)).op = false →
      adecode T root linkB N L = some (T (hold % 2 ^ root), (T (hold % 2 ^ root)).bits) ∧
      term (T (hold % 2 ^ root)) = true ∧ (T (hold % 2 ^ root)).bits ≤ 15) ∧
    (is_link (T (hold % 2 ^ root)).op = true →
      adecode T root linkB N L =
        some (T ((T (hold % 2 ^ root)).val +
            hold / 2 ^ (T (hold % 2 ^ root)).bits % 2 ^ (T (hold % 2 ^ root)).op),
          (T (hold % 2 ^ root)).bits +
            (T ((T (hold % 2 ^ root)).val +
              hold / 2 ^ (T (hold % 2 ^ root)).bits % 2 ^ (T (hold % 2 ^ root)).op)).bits) ∧
      term (T ((T (hold % 2 ^ root)).val +
            hold / 2 ^ (T (hold % 2 ^ root)).bits % 2 ^ (T (hold % 2 ^ root)).op)) = true ∧
      (T (hold % 2 ^ root)).bits +
            (T ((T (hold % 2 ^ root)).val +
              hold / 2 ^ (T (hold % 2 ^ root)).bits % 2 ^ (T (hold % 2 ^ root)).op)).bits ≤ 15 ∧
      (T (hold % 2 ^ root)).op ≤ 15) := by
  obtain ⟨hr1, hr2⟩ := wf_root hwf
  have hi : hold % 2 ^ root < 2 ^ root := pow_mod_lt _ _
  obtain ⟨hb1, hb2, -⟩ := wf_first hwf hi
  have e1 : N % 2 ^ root = hold % 2 ^ root := (hmod root (by omega)).symm
  have hlk1 := hlk _ hi
  constructor
  · intro hl
    refine ⟨?_, wf_term hwf hi hl, by omega⟩
    unfold adecode
    rw [e1, if_neg (by omega), if_neg (by rw [hlk1, hl]; decide)]
  · intro hl
    have hj : hold / 2 ^ (T (hold % 2 ^ root)).bits % 2 ^ (T (hold % 2 ^ root)).op <
        2 ^ (T (hold % 2 ^ root)).op := pow_mod_lt _ _
    obtain ⟨w1, w2, -, w4, -, w3, -⟩ := wf_second hwf hi hl hj
    have e2 : N % 2 ^ ((T (hold % 2 ^ root)).bits + (T (hold % 2 ^ root)).op) /
        2 ^ (T (hold % 2 ^ root)).bits =
        hold / 2 ^ (T (hold % 2 ^ root)).bits % 2 ^ (T (hold % 2 ^ root)).op := by
      rw [← hmod _ (by omega), pow_add, Nat.mod_mul_right_div_self]
    refine ⟨?_, w4, by omega, by omega⟩
    unfold adecode
    rw [e1, if_neg (by omega), if_pos (hlk1.mpr hl), e2, if_neg (by omega)]

theorem dist_term_cases {e : code} (h : dist_term e = true) :
    (e.op &&& 16 ≠ 0 ∧ e.op &&& 64 = 0) ∨ (e.op &&& 16 = 0 ∧ e.op &&& 64 ≠ 0) := by
  simp only [dist_term, Bool.or_eq_true, Bool.and_eq_true, decide_eq_true_eq, beq_iff_eq,
    bne_iff_ne] at h
  rcases h with h | h
  · left
    obtain ⟨-, -, f3, -, f5⟩ := (op_facts e.op (by omega)).1 ⟨h.1.1.1, by omega⟩
    exact ⟨by rw [f5]; decide, f3⟩
  · exact Or.inr ⟨h.1.2, h.2⟩

theorem len_term_cases {e : code} (h : len_term e = true) :
    e.op = 0 ∨ (e.op ≠ 0 ∧ e.op &&& 16 ≠ 0 ∧ e.op &&& 64 = 0 ∧ e.op &&& 32 = 0) ∨
      (e.op ≠ 0 ∧ e.op &&& 16 = 0 ∧ e.op &&& 64 ≠ 0) := by
  simp only [len_term, Bool.or_eq_true, Bool.and_eq_true, decide_eq_true_eq, beq_iff_eq,
    bne_iff_ne] at h
  rcases h with (h | h) | h
  · exact Or.inl h
  · right; left
    obtain ⟨-, f2, f3, -, f5⟩ := (op_facts e.op (by omega)).1 ⟨h.1.1.1, by omega⟩
    exact ⟨by omega, by rw [f5]; decide, f3, f2⟩
  · right; right
    refine ⟨?_, h.1.2, h.2⟩
    intro h0
    rw [h0] at h
    exact h.2 (by decide)

theorem link_ops {op : Nat} (h : is_link op = true) :
    op ≠ 0 ∧ op &&& 16 = 0 ∧ op &&& 64 = 0 ∧ op ≤ 15 := by
  simp only [is_link, Bool.and_eq_true, decide_eq_true_eq] at h
  obtain ⟨-, f2, f3, -⟩ := (op_facts op (by omega)).2.2 h.2
  exact ⟨by omega, f2, f3, h.2⟩

theorem fast_beg {out E : Nat} {s : inflate_stream} (ha : acct out E s) {n : Nat}
    (hn : s.next_out.length ≤ n) :
    usub out s.avail_out + (n - s.next_out.length) = n - E := by
  rw [acct_usub ha]
  have := ha.1
  omega

/-- The code at `dodist` of the fast decoder on a distance entry that is not a link. -/
theorem fast_dodist_leaf (tb : table_builder) (X : List Nat) (out E : Nat) (Hp : List Nat)
    (s : inflate_stream) (hc : fast_ctx out E Hp s) (len fuel : Nat) (e : code)
    (l : fast_locals) (r : fast_end) (c0 : Nat) (hfi : fI X s l) (hge : e.bits ≤ l.bits)
    (hterm : dist_term e = true) (hbud : e.bits + 13 ≤ lbits s l)
    (hlen : 3 ≤ len ∧ len ≤ 258) (hE : s.next_out.length ≤ l.out.length)
    (hst : astep tb (Ast (alpha_at X E Hp s) c0 (Hp ++ l.out.drop E) (.DIST len) s.msg) =
      if e.op &&& 64 ≠ 0 then
        some (Ast (alpha_at X E Hp s) (cbits s.bits l + e.bits) (Hp ++ l.out.drop E) .BAD
          (some "invalid distance code"))
      else some (Ast (alpha_at X E Hp s) (cbits s.bits l + e.bits) (Hp ++ l.out.drop E)
          (.DISTEXT len e.val (e.op &&& 15)) s.msg))
    (hr : fast_dodist s s.next_in (usub out s.avail_out) s.next_out.length len (fuel + 1) e l =
      some r) :
    fast_ok tb X E Hp s (Ast (alpha_at X E Hp s) c0 (Hp ++ l.out.drop E) (.DIST len) s.msg)
      l r := by
  have hV := fast_hV X hc.inv.hold
  have hI := hc.inv.inb
  obtain ⟨d1, d2, d3, d4, d5⟩ := fast_inv_drop hfi hge
  have hlb1 : lbits s (l.drop e.bits) + e.bits = lbits s l := by
    unfold lbits; rw [d4, d5]; omega
  unfold fast_dodist at hr
  dsimp only at hr
  rcases dist_term_cases hterm with ⟨h16, h64⟩ | ⟨h16, h64⟩
  · rw [if_pos h16] at hr
    rw [if_neg (by rw [h64]; decide)] at hst
    obtain ⟨x1, x2, x3, -⟩ := dist_base hterm h64
    obtain ⟨n1, n2, n3, n4⟩ := fast_inv_need2 hV hI d1 (by omega : e.op &&& 15 ≤ 16) (by
      intro hlt
      have hcin := d1.cin
      unfold lbits at hlb1 hbud
      constructor
      · by_contra hcon
        have : s.next_in.length - (l.drop e.bits).cin = 0 := by omega
        omega
      · intro h8
        by_contra hcon
        have : s.next_in.length - (l.drop e.bits).cin ≤ 1 := by omega
        omega)
    obtain ⟨g1, g2, g3, g4, g5⟩ := fast_inv_drop n1 n4
    have hread := fast_inv_read n1 n4
    rw [n2, d2] at hread
    have hpow := pow_mod_lt ((l.drop e.bits).need2 s.next_in (e.op &&& 15)).hold (e.op &&& 15)
    have hcb : cbits s.bits (((l.drop e.bits).need2 s.next_in (e.op &&& 15)).drop
        (e.op &&& 15)) = cbits s.bits l + e.bits + (e.op &&& 15) := by rw [g2, n2, d2]
    have hout : (((l.drop e.bits).need2 s.next_in (e.op &&& 15)).drop (e.op &&& 15)).out =
        l.out := by rw [g3, n3, d3]
    rw [hout, fast_beg hc.acc hE] at hr
    have hLe : e.op &&& 15 ≤ (alpha_at X E Hp s).L - (cbits s.bits l + e.bits) := by
      have := fast_L X E Hp n1
      rw [n2, d2] at this
      rw [this]
      unfold lbits
      omega
    have hext := astep_Ast_DISTEXT tb (alpha_at X E Hp s) (cbits s.bits l + e.bits)
      (Hp ++ l.out.drop E) s.msg len e.val (e.op &&& 15) hLe
    rw [show (alpha_at X E Hp s).N = s.sN X from rfl, ← hread] at hext
    have hEl : E ≤ l.out.length := le_trans hc.acc.1 hE
    have hHl : (Hp ++ l.out.drop E).length = Hp.length + (l.out.length - E) := by
      rw [List.length_append, List.length_drop]
    obtain ⟨hwh, hws, hwin⟩ := hc.win
    generalize hdist : e.val + ((l.drop e.bits).need2 s.next_in (e.op &&& 15)).hold %
      2 ^ (e.op &&& 15) = dist at hr hext
    have hd1 : 1 ≤ dist := by omega
    have hd2 : dist ≤ 32768 := by omega
    by_cases hfar : dist > l.out.length - E
    · rw [if_pos hfar] at hr
      by_cases hbad : dist - (l.out.length - E) > s.whave ∧ s.sane ≠ 0
      · rw [if_pos hbad] at hr
        cases hr
        refine ⟨g1, by rw [hcb]; omega, hout, Or.inr rfl, ?_⟩
        refine aseg.cons hst rfl (aseg.cons hext rfl (aseg.one ?_))
        have := astep_Ast_far tb (alpha_at X E Hp s) (cbits s.bits l + e.bits + (e.op &&& 15))
          (Hp ++ l.out.drop E) s.msg len dist (by
            rw [hHl]; have := hbad.1; omega)
        rw [this]
        unfold fA
        rw [hcb, hout]
        rfl
      · rw [if_neg hbad] at hr
        cases hr
        have hcw : dist - (l.out.length - E) ≤ s.whave := by
          by_contra hcon
          exact hbad ⟨by omega, by rw [hc.inv.sane]; decide⟩
        rcases hwin with hz | ⟨hshape, hlin⟩
        · omega
        obtain ⟨hsz, ⟨w, hw1, hw2⟩, hnx, hhv, hfill⟩ := hshape
        have hlinw : lin w s.wnext s.whave = lastn s.whave Hp := by
          have : s.win = lin w s.wnext s.whave := by
            unfold inflate_stream.win; rw [hw1]; rfl
          rw [← this]; exact hlin
        have hhist := fwc_history hw2 hnx hhv hfill hlinw (by omega) (by omega) l.out
          E (dist - (l.out.length - E)) len dist hEl (by omega)
          hcw (by omega)
        obtain ⟨W, e1, e2⟩ := fast_window_copy_spec w s.wsize s.wnext l.out
          (dist - (l.out.length - E)) len dist
        rw [hw1]
        simp only [Option.getD_some]
        refine ⟨⟨g1.cin, g1.le, g1.small, g1.hold⟩, by
          show cbits s.bits l ≤ cbits s.bits (((l.drop e.bits).need2 s.next_in
            (e.op &&& 15)).drop (e.op &&& 15))
          rw [hcb]; omega, ⟨W, e1, by omega, by omega⟩, ?_⟩
        refine aseg.cons hst rfl (aseg.cons hext rfl ?_)
        have := aseg_Ast_MATCH tb (alpha_at X E Hp s)
          (cbits s.bits l + e.bits + (e.op &&& 15)) (Hp ++ l.out.drop E) s.msg
          len dist (by omega) (by rw [hHl]; omega)
        unfold fA
        rw [show cbits s.bits { ((l.drop e.bits).need2 s.next_in (e.op &&& 15)).drop
            (e.op &&& 15) with
          out := fast_window_copy w s.wsize s.wnext l.out (dist - (l.out.length - E)) len dist } =
          cbits s.bits (((l.drop e.bits).need2 s.next_in (e.op &&& 15)).drop (e.op &&& 15))
          from rfl, hcb]
        show aseg tb _ (Ast _ _ (Hp ++ (fast_window_copy w s.wsize s.wnext l.out
          (dist - (l.out.length - E)) len dist).drop E) _ _)
        rw [hhist]
        exact this
    · rw [if_neg hfar] at hr
      cases hr
      have hdc : fast_direct_count len = len := by
        unfold fast_direct_count; rw [if_pos hlen.1]
      rw [hdc]
      obtain ⟨W, e1, e2⟩ := out_copy_spec dist len l.out
      have hhist := direct_history Hp l.out E len dist hEl (by omega)
      refine ⟨⟨g1.cin, g1.le, g1.small, g1.hold⟩, by
        show cbits s.bits l ≤ cbits s.bits (((l.drop e.bits).need2 s.next_in
          (e.op &&& 15)).drop (e.op &&& 15))
        rw [hcb]; omega, ⟨W, e1, by omega, by omega⟩, ?_⟩
      refine aseg.cons hst rfl (aseg.cons hext rfl ?_)
      have := aseg_Ast_MATCH tb (alpha_at X E Hp s)
        (cbits s.bits l + e.bits + (e.op &&& 15)) (Hp ++ l.out.drop E) s.msg
        len dist (by omega) (by rw [hHl]; omega)
      unfold fA
      rw [show cbits s.bits { ((l.drop e.bits).need2 s.next_in (e.op &&& 15)).drop
          (e.op &&& 15) with out := out_copy dist len l.out } =
        cbits s.bits (((l.drop e.bits).need2 s.next_in (e.op &&& 15)).drop (e.op &&& 15))
        from rfl, hcb]
      show aseg tb _ (Ast _ _ (Hp ++ (out_copy dist len l.out).drop E) _ _)
      rw [hhist]
      exact this
  · rw [if_neg (by rw [h16]; decide), if_neg h64] at hr
    rw [if_pos h64] at hst
    cases hr
    refine ⟨d1, by rw [d2]; omega, d3, Or.inr rfl, aseg.one ?_⟩
    rw [hst]
    unfold fA
    rw [d2, d3]
    rfl

theorem lbits_eq {X : List Nat} {s : inflate_stream} {l : fast_locals} (h : fI X s l) :
    lbits s l + cbits s.bits l = s.bits + 8 * s.next_in.length := by
  have h1 := h.cin
  have h2 := h.le
  unfold lbits cbits
  omega

theorem dist_lk {s : inflate_stream} (hwd : wf_dist s) :
    ∀ i, i < 2 ^ s.distbits →
      (dist_link (s.tab s.distcode i) = true ↔ is_link (s.tab s.distcode i).op = true) := by
  intro i hi
  rw [← dist_link_iff hwd hi]
  unfold dist_link
  exact decide_eq_true_iff

theorem len_lk {s : inflate_stream} (hwl : wf_len s) :
    ∀ i, i < 2 ^ s.lenbits →
      (len_link (s.tab s.lencode i) = true ↔ is_link (s.tab s.lencode i).op = true) := by
  intro i hi
  rw [← len_link_iff hwl hi]
  unfold len_link
  exact decide_eq_true_iff

/-- The code at `dodist` of the fast decoder on the first-level distance entry under the
accumulator, after a refill. -/
theorem fast_dodist_top (tb : table_builder) (X : List Nat) (out E : Nat) (Hp : List Nat)
    (s : inflate_stream) (hc : fast_ctx out E Hp s) (len fuel : Nat)
    (l : fast_locals) (r : fast_end) (hfi : fI X s l) (h15 : 15 ≤ l.bits)
    (hbud : 28 ≤ lbits s l) (hlen : 3 ≤ len ∧ len ≤ 258)
    (hE : s.next_out.length ≤ l.out.length)
    (hr : fast_dodist s s.next_in (usub out s.avail_out) s.next_out.length len (fuel + 1)
      (s.tab s.distcode (l.hold % 2 ^ s.distbits)) l = some r) :
    fast_ok tb X E Hp s (fA X E Hp s l (.DIST len) s.msg) l r := by
  have hwd : wf_dist s := (me_LEN hc.inv.regs (Or.inr (Or.inl hc.mode))).2
  have hL : l.bits ≤ (alpha_at X E Hp s).L - cbits s.bits l := by
    rw [fast_L X E Hp hfi]; unfold lbits; omega
  have hmod : ∀ n, n ≤ l.bits → l.hold % 2 ^ n = s.sN X / 2 ^ cbits s.bits l % 2 ^ n :=
    fun n hn => fast_inv_read hfi hn
  obtain ⟨f1, f2⟩ := fast_decode hwd (dist_lk hwd) h15 hL hmod
  by_cases hl : is_link (s.tab s.distcode (l.hold % 2 ^ s.distbits)).op = true
  · obtain ⟨hdec, hterm, hb15, hop⟩ := f2 hl
    obtain ⟨k0, k16, k64, -⟩ := link_ops hl
    unfold fast_dodist at hr
    dsimp only at hr
    rw [if_neg (by rw [k16]; decide), if_pos k64] at hr
    cases fuel with
    | zero => simp [fast_dodist] at hr
    | succ f =>
      obtain ⟨d1, d2, d3, d4, d5⟩ := fast_inv_drop hfi
        (by omega : (s.tab s.distcode (l.hold % 2 ^ s.distbits)).bits ≤ l.bits)
      have hst := astep_Ast_DIST tb (alpha_at X E Hp s) (cbits s.bits l) (Hp ++ l.out.drop E)
        s.msg len hdec
      rw [← Nat.add_assoc, ← d2] at hst
      have := fast_dodist_leaf tb X out E Hp s hc len f _ _ r (cbits s.bits l) d1 (by
          rw [d4]
          show (s.tab s.distcode ((s.tab s.distcode (l.hold % 2 ^ s.distbits)).val +
            l.hold / 2 ^ (s.tab s.distcode (l.hold % 2 ^ s.distbits)).bits %
              2 ^ (s.tab s.distcode (l.hold % 2 ^ s.distbits)).op)).bits ≤ _
          omega) hterm (by
          show (s.tab s.distcode ((s.tab s.distcode (l.hold % 2 ^ s.distbits)).val +
            l.hold / 2 ^ (s.tab s.distcode (l.hold % 2 ^ s.distbits)).bits %
              2 ^ (s.tab s.distcode (l.hold % 2 ^ s.distbits)).op)).bits + 13 ≤ _
          unfold lbits at hbud ⊢
          rw [d4, d5]
          omega) hlen hE hst hr
      exact fast_ok_mono this (by rw [d2]; omega) rfl
  · have hl : is_link (s.tab s.distcode (l.hold % 2 ^ s.distbits)).op = false :=
      is_link_false hl
    obtain ⟨hdec, hterm, hb15⟩ := f1 hl
    have hst := astep_Ast_DIST tb (alpha_at X E Hp s) (cbits s.bits l) (Hp ++ l.out.drop E)
      s.msg len hdec
    exact fast_dodist_leaf tb X out E Hp s hc len fuel _ l r (cbits s.bits l) hfi (by omega)
      hterm (by omega) hlen hE hst hr

/-- The length of a match in the fast decoder: the extra bits are the next unread bits. -/
theorem fast_len_extra_ok {V0 bits0 R : Nat} {inp : List Nat} {l : fast_locals}
    (val : Nat) {extra : Nat}
    (hV : V0 / 2 ^ bits0 = bytes_val inp + 2 ^ (8 * inp.length) * R) (hI : bytes inp)
    (h : fast_inv V0 bits0 inp l) (hx : extra ≤ 5) (hc : l.bits < extra → l.cin < inp.length) :
    fast_inv V0 bits0 inp (fast_len_extra inp val extra l).2 ∧
    cbits bits0 (fast_len_extra inp val extra l).2 = cbits bits0 l + extra ∧
    (fast_len_extra inp val extra l).2.out = l.out ∧
    (fast_len_extra inp val extra l).1 = val + V0 / 2 ^ cbits bits0 l % 2 ^ extra := by
  unfold fast_len_extra
  by_cases h0 : extra ≠ 0
  · rw [if_pos h0]
    obtain ⟨n1, n2, n3, n4⟩ := fast_inv_need1 hV hI h (by omega : extra ≤ 8) hc
    obtain ⟨g1, g2, g3, -, -⟩ := fast_inv_drop n1 n4
    have hread := fast_inv_read n1 n4
    rw [n2] at hread
    exact ⟨g1, by rw [g2, n2], by rw [g3, n3], by show val + _ = _; rw [hread]⟩
  · rw [if_neg h0]
    have h0 : extra = 0 := not_not.mp h0
    subst h0
    exact ⟨h, rfl, rfl, by simp [Nat.mod_one]⟩

/-- The code at `dolen` of the fast decoder on a literal/length entry that is not a
link. -/
theorem fast_dolen_leaf (tb : table_builder) (X : List Nat) (out E : Nat) (Hp : List Nat)
    (s : inflate_stream) (hc : fast_ctx out E Hp s) (fuel : Nat) (e : code)
    (l : fast_locals) (r : fast_end) (c0 : Nat) (hfi : fI X s l) (hge : e.bits ≤ l.bits)
    (hterm : len_term e = true) (hbud : e.bits + 33 ≤ lbits s l)
    (hE : s.next_out.length ≤ l.out.length)
    (hst : astep tb (Ast (alpha_at X E Hp s) c0 (Hp ++ l.out.drop E) .LEN s.msg) =
      if e.op = 0 then
        some (Ast (alpha_at X E Hp s) (cbits s.bits l + e.bits) (Hp ++ l.out.drop E)
          (.LIT e.val) s.msg)
      else if e.op &&& 32 ≠ 0 then
        some (Ast (alpha_at X E Hp s) (cbits s.bits l + e.bits) (Hp ++ l.out.drop E) .TYPE s.msg)
      else if e.op &&& 64 ≠ 0 then
        some (Ast (alpha_at X E Hp s) (cbits s.bits l + e.bits) (Hp ++ l.out.drop E) .BAD
          (some "invalid literal/length code"))
      else some (Ast (alpha_at X E Hp s) (cbits s.bits l + e.bits) (Hp ++ l.out.drop E)
          (.LENEXT e.val (e.op &&& 15)) s.msg))
    (hr : fast_dolen s s.next_in (usub out s.avail_out) s.next_out.length (fuel + 1) e l =
      some r) :
    fast_ok tb X E Hp s (Ast (alpha_at X E Hp s) c0 (Hp ++ l.out.drop E) .LEN s.msg)
      (l.drop e.bits) r := by
  have hV := fast_hV X hc.inv.hold
  have hI := hc.inv.inb
  have hEl : E ≤ l.out.length := le_trans hc.acc.1 hE
  obtain ⟨d1, d2, d3, d4, d5⟩ := fast_inv_drop hfi hge
  have hlq := lbits_eq hfi
  have hlq1 := lbits_eq d1
  rw [d2] at hlq1
  unfold fast_dolen at hr
  dsimp only at hr
  rcases len_term_cases hterm with h0 | ⟨h0, h16, h64, h32⟩ | ⟨h0, h16, h64⟩
  · rw [if_pos h0] at hr
    rw [if_pos h0] at hst
    cases hr
    refine ⟨⟨d1.cin, d1.le, d1.small, d1.hold⟩, le_refl _, ⟨[e.val % 256], rfl, by simp, by simp⟩,
      aseg.cons hst rfl (aseg.one ?_)⟩
    rw [astep_Ast_LIT]
    unfold fA
    rw [show cbits s.bits { l.drop e.bits with out := (l.drop e.bits).out ++ [e.val % 256] } =
      cbits s.bits (l.drop e.bits) from rfl, d2]
    show _ = some (Ast _ _ (Hp ++ (l.out ++ [e.val % 256]).drop E) _ _)
    rw [drop_append_of_le hEl, List.append_assoc]
  · rw [if_neg h0, if_pos h16] at hr
    rw [if_neg h0, if_neg (by rw [h32]; decide), if_neg (by rw [h64]; decide)] at hst
    obtain ⟨x1, x2, x3, -⟩ := len_base hterm h0 h64
    obtain ⟨y1, y2, y3, y4⟩ := fast_len_extra_ok e.val hV hI d1 x1 (by
      intro hlt
      have := d1.cin
      unfold lbits at hlq1 hbud
      by_contra hcon
      have : s.next_in.length - (l.drop e.bits).cin = 0 := by omega
      unfold lbits at hlq
      omega)
    rw [d2] at y2 y4
    have hlq2 := lbits_eq y1
    rw [y2] at hlq2
    obtain ⟨z1, z2, z3, z4, -, -⟩ := fast_inv_refill hV hI y1 (by
      intro hlt
      have := y1.cin
      unfold lbits at hlq2 hbud hlq
      by_contra hcon
      have : s.next_in.length - (fast_len_extra s.next_in e.val (e.op &&& 15)
        (l.drop e.bits)).2.cin ≤ 1 := by omega
      omega)
    rw [y2] at z2
    have hlq3 := lbits_eq z1
    rw [z2] at hlq3
    have hpow := pow_mod_lt (s.sN X / 2 ^ (cbits s.bits l + e.bits)) (e.op &&& 15)
    have htop := fast_dodist_top tb X out E Hp s hc _ fuel _ r z1 z4 (by omega)
      (by rw [y4]; constructor <;> omega) (by rw [z3, y3, d3]; exact hE) hr
    have hLe : e.op &&& 15 ≤ (alpha_at X E Hp s).L - (cbits s.bits l + e.bits) := by
      have := fast_L X E Hp d1
      rw [d2] at this
      rw [this]
      omega
    have hext := astep_Ast_LENEXT tb (alpha_at X E Hp s) (cbits s.bits l + e.bits)
      (Hp ++ l.out.drop E) s.msg e.val (e.op &&& 15) hLe
    have hfa : fA X E Hp s ((fast_len_extra s.next_in e.val (e.op &&& 15)
        (l.drop e.bits)).2.refill s.next_in)
        (.DIST (fast_len_extra s.next_in e.val (e.op &&& 15) (l.drop e.bits)).1) s.msg =
        Ast (alpha_at X E Hp s) (cbits s.bits l + e.bits + (e.op &&& 15)) (Hp ++ l.out.drop E)
          (.DIST (e.val + (alpha_at X E Hp s).N / 2 ^ (cbits s.bits l + e.bits) %
            2 ^ (e.op &&& 15))) s.msg := by
      unfold fA
      rw [z2, z3, y3, d3, y4]
      rfl
    rw [hfa] at htop
    exact fast_ok_mono (fast_ok_start (fast_ok_start htop hext rfl) hst rfl)
      (by rw [z2, d2]; omega) (by rw [z3, y3])
  · rw [if_neg h0, if_neg (by rw [h16]; decide), if_neg h64] at hr
    rw [if_neg h0] at hst
    by_cases h32 : e.op &&& 32 ≠ 0
    · rw [if_pos h32] at hr
      rw [if_pos h32] at hst
      cases hr
      refine ⟨d1, le_refl _, rfl, Or.inl ⟨rfl, rfl⟩, aseg.one ?_⟩
      rw [hst]
      unfold fA
      rw [d2, d3]
      rfl
    · rw [if_neg h32] at hr
      rw [if_neg h32, if_pos h64] at hst
      cases hr
      refine ⟨d1, le_refl _, rfl, Or.inr rfl, aseg.one ?_⟩
      rw [hst]
      unfold fA
      rw [d2, d3]
      rfl

theorem fast_ok_cbits {tb : table_builder} {X : List Nat} {E : Nat} {Hp : List Nat}
    {s : inflate_stream} {start : astate} {l : fast_locals} {r : fast_end}
    (h : fast_ok tb X E Hp s start l r) : cbits s.bits l ≤ cbits s.bits r.locals := by
  cases r with
  | test l1 => exact h.2.1
  | brk l1 m msg => exact h.2.1

/-- The code at `dolen` of the fast decoder on the first-level entry under the
accumulator, after a refill. -/
theorem fast_dolen_top (tb : table_builder) (X : List Nat) (out E : Nat) (Hp : List Nat)
    (s : inflate_stream) (hc : fast_ctx out E Hp s) (fuel : Nat)
    (l : fast_locals) (r : fast_end) (hfi : fI X s l) (h15 : 15 ≤ l.bits)
    (hbud : 48 ≤ lbits s l) (hE : s.next_out.length ≤ l.out.length)
    (hr : fast_dolen s s.next_in (usub out s.avail_out) s.next_out.length (fuel + 1)
      (s.tab s.lencode (l.hold % 2 ^ s.lenbits)) l = some r) :
    fast_ok tb X E Hp s (fA X E Hp s l .LEN s.msg) l r ∧ first_code X s l r := by
  have hwl : wf_len s := (me_LEN hc.inv.regs (Or.inr (Or.inl hc.mode))).1
  have hL : l.bits ≤ (alpha_at X E Hp s).L - cbits s.bits l := by
    rw [fast_L X E Hp hfi]; unfold lbits; omega
  have hmod : ∀ n, n ≤ l.bits → l.hold % 2 ^ n = s.sN X / 2 ^ cbits s.bits l % 2 ^ n :=
    fun n hn => fast_inv_read hfi hn
  obtain ⟨f1, f2⟩ := fast_decode hwl (len_lk hwl) h15 hL hmod
  by_cases hl : is_link (s.tab s.lencode (l.hold % 2 ^ s.lenbits)).op = true
  · obtain ⟨hdec, hterm, hb15, hop⟩ := f2 hl
    obtain ⟨k0, k16, k64, -⟩ := link_ops hl
    unfold fast_dolen at hr
    dsimp only at hr
    rw [if_neg k0, if_neg (by rw [k16]; decide), if_pos k64] at hr
    cases fuel with
    | zero => simp [fast_dolen] at hr
    | succ f =>
      obtain ⟨d1, d2, d3, d4, d5⟩ := fast_inv_drop hfi
        (by omega : (s.tab s.lencode (l.hold % 2 ^ s.lenbits)).bits ≤ l.bits)
      have hr2 : fast_dolen s s.next_in (usub out s.avail_out) s.next_out.length (f + 1)
          (s.tab s.lencode ((s.tab s.lencode (l.hold % 2 ^ s.lenbits)).val +
            l.hold / 2 ^ (s.tab s.lencode (l.hold % 2 ^ s.lenbits)).bits %
              2 ^ (s.tab s.lencode (l.hold % 2 ^ s.lenbits)).op))
          (l.drop (s.tab s.lencode (l.hold % 2 ^ s.lenbits)).bits) = some r := hr
      generalize s.tab s.lencode ((s.tab s.lencode (l.hold % 2 ^ s.lenbits)).val +
            l.hold / 2 ^ (s.tab s.lencode (l.hold % 2 ^ s.lenbits)).bits %
              2 ^ (s.tab s.lencode (l.hold % 2 ^ s.lenbits)).op) = e2 at hdec hterm hb15 hr2
      have hst := astep_Ast_LEN tb (alpha_at X E Hp s) (cbits s.bits l) (Hp ++ l.out.drop E)
        s.msg hdec
      rw [← Nat.add_assoc, ← d2] at hst
      have hge2 : e2.bits ≤ (l.drop (s.tab s.lencode (l.hold % 2 ^ s.lenbits)).bits).bits := by
        rw [d4]; omega
      have := fast_dolen_leaf tb X out E Hp s hc f e2 _ r (cbits s.bits l) d1 hge2 hterm (by
          unfold lbits at hbud ⊢
          rw [d4, d5]
          omega) hE hst hr2
      obtain ⟨q1, q2, -⟩ := fast_inv_drop d1 hge2
      have hcb := fast_ok_cbits this
      rw [q2, d2] at hcb
      exact ⟨fast_ok_mono this (by rw [q2, d2]; omega) rfl, _, _, hdec, by omega⟩
  · have hl : is_link (s.tab s.lencode (l.hold % 2 ^ s.lenbits)).op = false :=
      is_link_false hl
    obtain ⟨hdec, hterm, hb15⟩ := f1 hl
    have hst := astep_Ast_LEN tb (alpha_at X E Hp s) (cbits s.bits l) (Hp ++ l.out.drop E)
      s.msg hdec
    have := fast_dolen_leaf tb X out E Hp s hc fuel _ l r (cbits s.bits l) hfi (by omega)
      hterm (by omega) hE hst hr
    obtain ⟨d1, d2, d3, d4, d5⟩ := fast_inv_drop hfi
      (by omega : (s.tab s.lencode (l.hold % 2 ^ s.lenbits)).bits ≤ l.bits)
    refine ⟨fast_ok_mono this (by rw [d2]; omega) rfl, _, _, hdec, ?_⟩
    have hcb := fast_ok_cbits this
    rw [d2] at hcb
    exact hcb

theorem symrun_asteps {tb : table_builder} {x8 cap : Nat} {a b : astate}
    (h : symrun tb x8 cap a b) : ∃ k, asteps tb k a = some b := by
  induction h with
  | done a => exact ⟨0, rfl⟩
  | sym _ _ _ hseg _ _ ih =>
    obtain ⟨k, hk⟩ := aseg_asteps hseg
    obtain ⟨j, hj⟩ := ih
    exact ⟨k + 1 + j, asteps_add tb _ _ _ _ _ hk hj⟩

theorem usub_le_sub (a b : Nat) (h : b ≤ a) (hb : b < 4294967296) : usub a b ≤ a - b := by
  unfold usub
  rw [Nat.mod_eq_of_lt hb]
  have : a + 4294967296 - b = (a - b) + 4294967296 := by omega
  rw [this, Nat.add_mod_right]
  exact Nat.mod_le _ _

theorem fA_refill {X : List Nat} {E : Nat} {Hp : List Nat} {s : inflate_stream}
    {l l0 : fast_locals} (h1 : cbits s.bits l0 = cbits s.bits l) (h2 : l0.out = l.out)
    (m : amode) (msg : Option String) : fA X E Hp s l0 m msg = fA X E Hp s l m msg := by
  unfold fA; rw [h1, h2]

/-- The loop of the fast decoder is a run of the decoder over whole symbols. -/
theorem fast_loop_run (tb : table_builder) (X : List Nat) (out E : Nat) (Hp : List Nat)
    (s : inflate_stream) (hc : fast_ctx out E Hp s) (h258 : 258 ≤ s.avail_out) :
    ∀ (fuel : Nat) (l : fast_locals) (r : fast_end),
      fast_loop s s.next_in (usub out s.avail_out) s.next_out.length (usub s.avail_in 5)
        (usub s.avail_out 257) fuel l = some r →
      fI X s l → l.cin + 6 ≤ s.next_in.length → s.next_out.length ≤ l.out.length →
      l.out.length - s.next_out.length < s.avail_out - 257 →
      fI X s r.locals ∧
      symrun tb (8 * X.length) (Hp.length + out) (fA X E Hp s l .LEN s.msg) (fA_end X E Hp s r) ∧
      (∃ W, r.locals.out = l.out ++ W) ∧ first_code X s l r := by
  have hV := fast_hV X hc.inv.hold
  have hI := hc.inv.inb
  have hlt : s.avail_out < 4294967296 := by have := hc.acc.2.1; have := hc.acc.2.2; omega
  have he : usub s.avail_out 257 = s.avail_out - 257 := usub_of_le (by omega) hlt
  rw [he]
  intro fuel
  induction fuel with
  | zero => intro l r h; simp [fast_loop] at h
  | succ n ih =>
    intro l r h hfi h6 hE hroom
    unfold fast_loop at h
    dsimp only at h
    obtain ⟨z1, z2, z3, z4, z5, z6⟩ := fast_inv_refill hV hI hfi (fun _ => by omega)
    have hlq := lbits_eq hfi
    have hlq0 := lbits_eq z1
    rw [z2] at hlq0
    have hl48 : 48 ≤ lbits s l := by unfold lbits; have := hfi.cin; omega
    have hgL : 48 + 8 * X.length ≤ (fA X E Hp s l .LEN s.msg).L := by
      show 48 + 8 * X.length ≤ (alpha_at X E Hp s).L - cbits s.bits l
      rw [fast_L X E Hp hfi]; omega
    have hgH : (fA X E Hp s l .LEN s.msg).H.length + 258 ≤ Hp.length + out := by
      show (Hp ++ l.out.drop E).length + 258 ≤ _
      rw [List.length_append, List.length_drop]
      obtain ⟨a1, a2, a3⟩ := hc.acc
      omega
    have hfc : ∀ r1 : fast_end, first_code X s (l.refill s.next_in) r1 → first_code X s l r1 := by
      intro r1 ⟨e, cl, q1, q2⟩
      rw [z2] at q1 q2
      exact ⟨e, cl, q1, q2⟩
    split at h
    · cases h
    · rename_i l2 m2 msg2 hd
      cases h
      obtain ⟨hok, hfirst⟩ := fast_dolen_top tb X out E Hp s hc n _ _ z1 z4 (by omega)
        (by rw [z3]; exact hE) hd
      rw [fA_refill z2 z3] at hok
      obtain ⟨p1, p2, p3, p4, p5⟩ := hok
      refine ⟨p1, symrun.sym rfl hgL hgH p5 ?_ (symrun.done _), ⟨[], by
        show l2.out = l.out ++ []
        rw [List.append_nil, p3, z3]⟩, hfc _ hfirst⟩
      show boundary (bmode m2) = true
      unfold bmode
      split_ifs <;> rfl
    · rename_i l2 hd
      obtain ⟨hok, hfirst⟩ := fast_dolen_top tb X out E Hp s hc n _ _ z1 z4 (by omega)
        (by rw [z3]; exact hE) hd
      rw [fA_refill z2 z3] at hok
      obtain ⟨p1, p2, ⟨W, w1, w2, w3⟩, p5⟩ := hok
      rw [z3] at w1
      have hfirst := hfc _ hfirst
      by_cases hcond : l2.cin < usub s.avail_in 5 ∧ l2.out.length - s.next_out.length <
          s.avail_out - 257
      · rw [if_pos hcond] at h
        have h5 : usub s.avail_in 5 ≤ s.next_in.length - 5 :=
          usub_le_sub _ _ (by show 5 ≤ s.next_in.length; omega) (by norm_num)
        obtain ⟨i1, i2, ⟨W2, i3⟩, i4⟩ := ih l2 r h p1 (by have := hcond.1; omega)
          (by rw [w1, List.length_append]; omega) hcond.2
        refine ⟨i1, symrun.sym rfl hgL hgH p5 rfl i2, ⟨W ++ W2, by
          rw [i3, w1, List.append_assoc]⟩, ?_⟩
        obtain ⟨e, cl, q1, q2⟩ := hfirst
        obtain ⟨e2, cl2, q3, q4⟩ := i4
        exact ⟨e, cl, q1, by
          have : cbits s.bits (fast_end.test l2).locals = cbits s.bits l2 := rfl
          rw [this] at q2
          omega⟩
      · rw [if_neg hcond] at h
        cases h
        exact ⟨p1, symrun.sym rfl hgL hgH p5 rfl (symrun.done _), ⟨W, w1⟩, hfirst⟩

theorem len_slack {s : inflate_stream} (h : Inv s) (hm : s.mode = .LEN) :
    s.bits < 8 ∨ wants1 s s.lencode s.lenbits ∨
      (is_link (here1 s s.lencode s.lenbits).op = true ∧
        wants2 s s.lencode (here1 s s.lencode s.lenbits)) := by
  have hwl : wf_table len_term (s.tab s.lencode) s.lenbits = true :=
    (me_LEN h.regs (Or.inr (Or.inl hm))).1
  rcases we_LEN h.slack (Or.inr hm) with h1 | h1 | h1
  · exact Or.inl h1
  · exact Or.inr (Or.inl h1)
  · refine Or.inr (Or.inr ⟨?_, h1.2.2⟩)
    have : here1 s s.lencode s.lenbits = s.tab s.lencode (s.hold % 2 ^ s.lenbits) := rfl
    rw [this]
    exact (len_link_iff hwl (pow_mod_lt _ _)).mp ⟨h1.1, h1.2.1⟩

/-- In the mode `LEN` fewer than 15 bits are held. -/
theorem len_bits_small {s : inflate_stream} (h : Inv s) (hm : s.mode = .LEN) : s.bits < 15 := by
  have hwl : wf_table len_term (s.tab s.lencode) s.lenbits = true :=
    (me_LEN h.regs (Or.inr (Or.inl hm))).1
  obtain ⟨hr1, hr2⟩ := wf_root hwl
  have hi : s.hold % 2 ^ s.lenbits < 2 ^ s.lenbits := pow_mod_lt _ _
  obtain ⟨-, hb2, -⟩ := wf_first hwl hi
  rcases len_slack h hm with h1 | h1 | ⟨h1, h2⟩
  · omega
  · have h1 : s.bits < (s.tab s.lencode (s.hold % 2 ^ s.lenbits)).bits := h1
    omega
  · have h1 : is_link (s.tab s.lencode (s.hold % 2 ^ s.lenbits)).op = true := h1
    have hj : s.hold % 2 ^ ((s.tab s.lencode (s.hold % 2 ^ s.lenbits)).bits +
        (s.tab s.lencode (s.hold % 2 ^ s.lenbits)).op) /
        2 ^ (s.tab s.lencode (s.hold % 2 ^ s.lenbits)).bits <
        2 ^ (s.tab s.lencode (s.hold % 2 ^ s.lenbits)).op := by
      rw [pow_add, Nat.mod_mul_right_div_self]; exact pow_mod_lt _ _
    obtain ⟨w1, w2, -, -, -, w3, -⟩ := wf_second hwl hi h1 hj
    have h2 : s.bits < (s.tab s.lencode (s.hold % 2 ^ s.lenbits)).bits +
        (s.tab s.lencode ((s.tab s.lencode (s.hold % 2 ^ s.lenbits)).val +
          s.hold % 2 ^ ((s.tab s.lencode (s.hold % 2 ^ s.lenbits)).bits +
            (s.tab s.lencode (s.hold % 2 ^ s.lenbits)).op) /
          2 ^ (s.tab s.lencode (s.hold % 2 ^ s.lenbits)).bits)).bits := h2
    omega

/-- The code of the next literal/length symbol is longer than the bits held less eight:
the accumulator never holds a whole byte beyond the code. -/
theorem first_code_long (X : List Nat) {s : inflate_stream} (h : Inv s) (hm : s.mode = .LEN)
    (h15 : 15 ≤ s.slen) {e : code} {cl : Nat}
    (hdec : adecode (s.tab s.lencode) s.lenbits len_link (s.sN X) (s.sL X) = some (e, cl)) :
    s.bits < cl + 8 := by
  have hwl : wf_table len_term (s.tab s.lencode) s.lenbits = true :=
    (me_LEN h.regs (Or.inr (Or.inl hm))).1
  have hsl := len_slack h hm
  obtain ⟨⟨k, hp⟩, hstop, hdone⟩ := decode_slack s s.lencode s.lenbits len_term hwl hsl
  obtain ⟨c1, c2⟩ := decode_core s s.lencode s.lenbits len_term len_link X hwl (len_lk hwl)
    h.inb h.hold hsl
  have hk : (lookup1 s s.lencode s.lenbits).bits = s.bits + 8 * k := hp.2.2.1
  by_cases h1 : (lookup1 s s.lencode s.lenbits).bits <
      (here1 (lookup1 s s.lencode s.lenbits) s.lencode s.lenbits).bits
  · have := c1 h1; omega
  · obtain ⟨hterm, hlk⟩ := hdone h1
    obtain ⟨d1, d2⟩ := c2 h1
    by_cases hl : is_link (here1 (lookup1 s s.lencode s.lenbits) s.lencode s.lenbits).op = true
    · obtain ⟨⟨k2, hp2⟩, -, -, hdone2⟩ := hlk hl
      obtain ⟨-, g1, g2⟩ := d2 hl
      have hk2 : (lookup2 (lookup1 s s.lencode s.lenbits) s.lencode
          (here1 (lookup1 s s.lencode s.lenbits) s.lencode s.lenbits)).bits =
          (lookup1 s s.lencode s.lenbits).bits + 8 * k2 := hp2.2.2.1
      by_cases h3 : (lookup2 (lookup1 s s.lencode s.lenbits) s.lencode
          (here1 (lookup1 s s.lencode s.lenbits) s.lencode s.lenbits)).bits <
          (here1 (lookup1 s s.lencode s.lenbits) s.lencode s.lenbits).bits +
            (here2 (lookup2 (lookup1 s s.lencode s.lenbits) s.lencode
              (here1 (lookup1 s s.lencode s.lenbits) s.lencode s.lenbits)) s.lencode
              (here1 (lookup1 s s.lencode s.lenbits) s.lencode s.lenbits)).bits
      · have := g1 h3; omega
      · obtain ⟨-, -, hb2⟩ := hdone2 h3
        obtain ⟨g3, -⟩ := g2 h3
        rw [hdec] at g3
        have := (Prod.mk.inj (Option.some.inj g3)).2
        omega
    · obtain ⟨-, hb1⟩ := hterm (is_link_false hl)
      obtain ⟨g3, -⟩ := d1 (is_link_false hl)
      rw [hdec] at g3
      have := (Prod.mk.inj (Option.some.inj g3)).2
      omega

/-- The bits the fast decoder hands back: the accumulator cut to less than a byte and
the input cursor moved back are the same unread bits. -/
theorem exit_bits {V0 bits0 R : Nat} {inp : List Nat} {l : fast_locals}
    (hV : V0 / 2 ^ bits0 = bytes_val inp + 2 ^ (8 * inp.length) * R) (hI : bytes inp)
    (h : fast_inv V0 bits0 inp l) (hlen : l.bits / 8 ≤ l.cin) :
    l.hold % 2 ^ (l.bits - l.bits / 8 * 8) + 2 ^ (l.bits - l.bits / 8 * 8) *
      (bytes_val (inp.drop (l.cin - l.bits / 8)) +
        2 ^ (8 * (inp.drop (l.cin - l.bits / 8)).length) * R) = V0 / 2 ^ cbits bits0 l ∧
    (l.bits - l.bits / 8 * 8) + 8 * (inp.drop (l.cin - l.bits / 8)).length =
      bits0 + 8 * inp.length - cbits bits0 l := by
  have h1 := h.cin
  have h2 := h.le
  constructor
  · rw [fast_inv_read h (by omega : l.bits - l.bits / 8 * 8 ≤ l.bits),
      ← bytes_val_shift R _ inp (by omega) hI, ← hV, div_div_pow]
    have e : bits0 + 8 * (l.cin - l.bits / 8) = cbits bits0 l + (l.bits - l.bits / 8 * 8) := by
      unfold cbits; omega
    rw [e, ← div_div_pow]
    exact Nat.mod_add_div _ _
  · rw [List.length_drop]
    unfold cbits
    omega

theorem Ast_zero (a : astate) : Ast a 0 a.H a.mode a.msg = a := by
  cases a
  unfold Ast astate.drop
  simp

/-- The fast decoder is a run of the decoder over whole symbols. -/
theorem fast_symrun (tb : table_builder) (X : List Nat) (out E : Nat) (Hp : List Nat)
    (s : inflate_stream) (hc : fast_ctx out E Hp s) (h6 : 6 ≤ s.avail_in)
    (h258 : 258 ≤ s.avail_out) {fuel : Nat} {s1 : inflate_stream}
    (hf : inflate_fast fuel s out = some s1) :
    symrun tb (8 * X.length) (Hp.length + out) (alpha_at X E Hp s) (alpha_at X E Hp s1) := by
  have hV := fast_hV X hc.inv.hold
  have hI := hc.inv.inb
  have hsmall := len_bits_small hc.inv hc.mode
  have hm := hc.mode
  unfold inflate_fast at hf
  dsimp only at hf
  split at hf
  · cases hf
  · rename_i r hr
    have hfi0 : fI X s ⟨0, s.next_out, s.hold, s.bits⟩ := by
      refine ⟨Nat.zero_le _, by show s.bits ≤ s.bits + 8 * 0; omega, by show s.bits < 32; omega, ?_⟩
      show s.hold = s.sN X / 2 ^ (s.bits + 8 * 0 - s.bits) % 2 ^ s.bits
      rw [show s.bits + 8 * 0 - s.bits = 0 by omega, pow_zero, Nat.div_one,
        sN_mod s X (le_refl _), Nat.mod_eq_of_lt hc.inv.hold]
    obtain ⟨r1, r2, ⟨W, r3⟩, e, cl, r4, r5⟩ := fast_loop_run tb X out E Hp s hc h258 fuel
      ⟨0, s.next_out, s.hold, s.bits⟩ r hr hfi0 (by show 0 + 6 ≤ _; exact h6) (le_refl _)
      (by show s.next_out.length - s.next_out.length < _; omega)
    have hc0 : cbits s.bits ⟨0, s.next_out, s.hold, s.bits⟩ = 0 := by
      show s.bits + 8 * 0 - s.bits = 0; omega
    rw [hc0, pow_zero, Nat.div_one, Nat.sub_zero] at r4
    have hlong := first_code_long X hc.inv hm (by
      unfold inflate_stream.slen
      have : 6 ≤ s.next_in.length := h6
      omega) r4
    rw [hc0] at r5
    have hstart : fA X E Hp s ⟨0, s.next_out, s.hold, s.bits⟩ .LEN s.msg = alpha_at X E Hp s := by
      unfold fA
      rw [hc0]
      have h1 : (alpha_at X E Hp s).mode = .LEN := by
        show amode_of s = _; unfold amode_of; rw [hm]
      have := Ast_zero (alpha_at X E Hp s)
      rw [h1] at this
      exact this
    rw [hstart] at r2
    have hle := r1.le
    have hcin := r1.cin
    have hlen : r.locals.bits / 8 ≤ r.locals.cin := by
      unfold cbits at r5
      omega
    obtain ⟨x1, x2⟩ := exit_bits hV hI r1 hlen
    have hun : fast_unread s.next_in r.locals.cin (r.locals.bits / 8) =
        s.next_in.drop (r.locals.cin - r.locals.bits / 8) := by
      unfold fast_unread; rw [if_pos hlen]
    have hN : ∀ t : inflate_stream,
        t.hold = r.locals.hold % 2 ^ (r.locals.bits - r.locals.bits / 8 * 8) →
        t.bits = r.locals.bits - r.locals.bits / 8 * 8 →
        t.next_in = fast_unread s.next_in r.locals.cin (r.locals.bits / 8) →
        t.sN X = (alpha_at X E Hp s).N / 2 ^ cbits s.bits r.locals ∧
        t.sL X = (alpha_at X E Hp s).L - cbits s.bits r.locals := by
      intro t t1 t2 t3
      constructor
      · rw [sN_eq, t1, t2, t3, hun]
        exact x1
      · unfold inflate_stream.sL inflate_stream.slen
        rw [t2, t3, hun, x2]
        show _ = s.sL X - _
        unfold inflate_stream.sL inflate_stream.slen
        unfold cbits
        omega
    cases r with
    | test l =>
      cases hf
      convert r2 using 1
      unfold fA_end fA alpha_at
      apply alpha_mk <;> first | rfl | skip
      · show amode_of _ = amode.LEN
        unfold amode_of
        dsimp only
        rw [hm]
      · exact (hN _ rfl rfl rfl).1
      · exact (hN _ rfl rfl rfl).2
    | brk l m msg =>
      cases hf
      have hmm := fast_loop_brk _ _ _ _ _ _ _ _ _ _ _ hr
      convert r2 using 1
      unfold fA_end fA alpha_at
      apply alpha_mk <;> first | rfl | skip
      · show amode_of _ = bmode m
        unfold amode_of bmode
        dsimp only
        rcases hmm with hmm | hmm <;> subst hmm <;> rfl
      · exact (hN _ rfl rfl rfl).1
      · exact (hN _ rfl rfl rfl).2

/-! ## Fast and slow decoder (C4) -/

theorem fast_dodist_some (s : inflate_stream) (inp : List Nat) (beg out0 len fuel : Nat)
    (hwd : wf_dist s) (l : fast_locals) {i : Nat} (hi : i < 2 ^ s.distbits) :
    (fast_dodist s inp beg out0 len (fuel + 2) (s.tab s.distcode i) l).isSome = true := by
  have leaf : ∀ (f : Nat) (e : code) (l : fast_locals), dist_term e = true →
      (fast_dodist s inp beg out0 len (f + 1) e l).isSome = true := by
    intro f e l ht
    unfold fast_dodist
    dsimp only
    rcases dist_term_cases ht with ⟨a, b⟩ | ⟨a, b⟩
    · rw [if_pos a]
      split_ifs <;> rfl
    · rw [if_neg (not_not.mpr a), if_neg b]
      rfl
  by_cases hl : is_link (s.tab s.distcode i).op = true
  · obtain ⟨l1, l2, l3, -⟩ := link_ops hl
    show (fast_dodist s inp beg out0 len (fuel + 1 + 1) (s.tab s.distcode i) l).isSome = true
    unfold fast_dodist
    dsimp only
    rw [if_neg (not_not.mpr l2), if_pos l3]
    exact leaf fuel _ _ (wf_second hwd hi hl (pow_mod_lt _ _)).2.2.2.1
  · exact leaf (fuel + 1) _ _ (wf_term hwd hi (by simpa using hl))

theorem fast_dolen_some (s : inflate_stream) (inp : List Nat) (beg out0 fuel : Nat)
    (hwl : wf_len s) (hwd : wf_dist s) (l : fast_locals) {i : Nat} (hi : i < 2 ^ s.lenbits) :
    (fast_dolen s inp beg out0 (fuel + 3) (s.tab s.lencode i) l).isSome = true := by
  have leaf : ∀ (f : Nat) (e : code) (l : fast_locals), len_term e = true →
      (fast_dolen s inp beg out0 (f + 1 + 1) e l).isSome = true := by
    intro f e l ht
    unfold fast_dolen
    dsimp only
    rcases len_term_cases ht with a | ⟨a, b, c, d⟩ | ⟨a, b, c⟩
    · rw [if_pos a]
      rfl
    · rw [if_neg a, if_pos b]
      exact fast_dodist_some s inp beg out0 _ f hwd _ (pow_mod_lt _ _)
    · rw [if_neg a, if_neg (not_not.mpr b), if_neg c]
      split_ifs <;> rfl
  by_cases hl : is_link (s.tab s.lencode i).op = true
  · obtain ⟨l1, l2, l3, -⟩ := link_ops hl
    show (fast_dolen s inp beg out0 (fuel + 1 + 1 + 1) (s.tab s.lencode i) l).isSome = true
    unfold fast_dolen
    dsimp only
    rw [if_neg l1, if_neg (not_not.mpr l2), if_pos l3]
    exact leaf fuel _ _ (wf_second hwl hi hl (pow_mod_lt _ _)).2.2.2.1
  · exact leaf (fuel + 1) _ _ (wf_term hwl hi (by simpa using hl))

/-- The loop of the fast decoder ends: every pass that goes on has written a byte. -/
theorem fast_loop_total (tb : table_builder) (X : List Nat) (out E : Nat) (Hp : List Nat)
    (s : inflate_stream) (hc : fast_ctx out E Hp s) (h258 : 258 ≤ s.avail_out) :
    ∀ (n : Nat) (l : fast_locals),
      fI X s l → l.cin + 6 ≤ s.next_in.length → s.next_out.length ≤ l.out.length →
      l.out.length - s.next_out.length < s.avail_out - 257 →
      s.avail_out - 257 - (l.out.length - s.next_out.length) ≤ n →
      ∀ fuel, n + 2 ≤ fuel →
      (fast_loop s s.next_in (usub out s.avail_out) s.next_out.length (usub s.avail_in 5)
        (usub s.avail_out 257) fuel l).isSome = true := by
  have hV := fast_hV X hc.inv.hold
  have hI := hc.inv.inb
  have hwf := me_LEN hc.inv.regs (Or.inr (Or.inl hc.mode))
  have hlt : s.avail_out < 4294967296 := by have := hc.acc.2.1; have := hc.acc.2.2; omega
  have he : usub s.avail_out 257 = s.avail_out - 257 := usub_of_le (by omega) hlt
  rw [he]
  intro n
  induction n with
  | zero => intro l _ _ _ h1 h2; omega
  | succ n ih =>
    intro l hfi h6 hE hroom hmeas fuel hfuel
    obtain ⟨f, rfl⟩ : ∃ f, fuel = f + 2 + 1 := ⟨fuel - 3, by omega⟩
    unfold fast_loop
    dsimp only
    obtain ⟨z1, z2, z3, z4, z5, z6⟩ := fast_inv_refill hV hI hfi (fun _ => by omega)
    have hl48 : 48 ≤ lbits s l := by unfold lbits; have := hfi.cin; omega
    have hlq := lbits_eq hfi
    have hlq0 := lbits_eq z1
    rw [z2] at hlq0
    have hs : (fast_dolen s s.next_in (usub out s.avail_out) s.next_out.length (f + 2 + 1)
        (s.tab s.lencode ((l.refill s.next_in).hold % 2 ^ s.lenbits))
        (l.refill s.next_in)).isSome = true :=
      fast_dolen_some s _ _ _ f hwf.1 hwf.2 _ (pow_mod_lt _ _)
    split
    · rename_i hd
      rw [hd] at hs; cases hs
    · rfl
    · rename_i l2 hd
      obtain ⟨hok, -⟩ := fast_dolen_top tb X out E Hp s hc (f + 2) _ _ z1 z4 (by omega)
        (by rw [z3]; exact hE) hd
      obtain ⟨p1, p2, ⟨W, w1, w2, w3⟩, p5⟩ := hok
      rw [z3] at w1
      by_cases hcond : l2.cin < usub s.avail_in 5 ∧ l2.out.length - s.next_out.length <
          s.avail_out - 257
      · rw [if_pos hcond]
        have h5 : usub s.avail_in 5 ≤ s.next_in.length - 5 :=
          usub_le_sub _ _ (by show 5 ≤ s.next_in.length; omega) (by norm_num)
        have hlen2 : l2.out.length = l.out.length + W.length := by
          rw [w1, List.length_append]
        exact ih l2 p1 (by have := hcond.1; omega) (by omega) hcond.2 (by omega) (f + 2)
          (by omega)
      · rw [if_neg hcond]
        rfl

/-- With enough fuel the fast decoder returns. -/
theorem fast_total (tb : table_builder) (X : List Nat) (out E : Nat) (Hp : List Nat)
    (s : inflate_stream) (hc : fast_ctx out E Hp s) (h6 : 6 ≤ s.avail_in)
    (h258 : 258 ≤ s.avail_out) :
    ∃ s1, inflate_fast (s.avail_out + 2) s out = some s1 := by
  have hfi0 : fI X s ⟨0, s.next_out, s.hold, s.bits⟩ := by
    refine ⟨Nat.zero_le _, by show s.bits ≤ s.bits + 8 * 0; omega, by
      show s.bits < 32
      have := len_bits_small hc.inv hc.mode
      omega, ?_⟩
    show s.hold = s.sN X / 2 ^ (s.bits + 8 * 0 - s.bits) % 2 ^ s.bits
    rw [show s.bits + 8 * 0 - s.bits = 0 by omega, pow_zero, Nat.div_one,
      sN_mod s X (le_refl _), Nat.mod_eq_of_lt hc.inv.hold]
  have := fast_loop_total tb X out E Hp s hc h258 s.avail_out ⟨0, s.next_out, s.hold, s.bits⟩
    hfi0 (by show 0 + 6 ≤ _; exact h6) (le_refl _)
    (by show s.next_out.length - s.next_out.length < _; omega)
    (by show _ - (s.next_out.length - s.next_out.length) ≤ _; omega) (s.avail_out + 2)
    (le_refl _)
  obtain ⟨r, hr⟩ := Option.isSome_iff_exists.mp this
  unfold inflate_fast
  dsimp only
  rw [hr]
  exact ⟨_, rfl⟩

theorem slow_next {out : Nat} {s s1 : inflate_stream} {ret r1 : Int}
    (h : slow_step out s ret = .cont s1 r1) {k : Nat} {p : inflate_stream × Int}
    (h2 : slow_run out k s1 r1 = some p) : slow_run out (k + 1) s ret = some p := by
  unfold slow_run
  rw [h]
  exact h2

theorem slow_one {out : Nat} {s s1 : inflate_stream} {ret r1 : Int}
    (h : slow_step out s ret = .cont s1 r1) : slow_run out 1 s ret = some (s1, r1) :=
  slow_next h rfl

theorem slow_run_add (out : Nat) : ∀ (j k : Nat) (s t u : inflate_stream) (r1 r2 r3 : Int),
    slow_run out j s r1 = some (t, r2) → slow_run out k t r2 = some (u, r3) →
    slow_run out (j + k) s r1 = some (u, r3) := by
  intro j
  induction j with
  | zero =>
    intro k s t u r1 r2 r3 h1 h2
    simp only [slow_run, Option.some.injEq, Prod.mk.injEq] at h1
    obtain ⟨rfl, rfl⟩ := h1
    rw [Nat.zero_add]; exact h2
  | succ j ih =>
    intro k s t u r1 r2 r3 h1 h2
    rw [Nat.succ_add]
    unfold slow_run at h1 ⊢
    split at h1
    · rename_i s1 q1 hs
      exact ih k s1 t u q1 r2 r3 h1 h2
    · cases h1

theorem dctx_next {out E : Nat} {Hp : List Nat} {s t : inflate_stream}
    (hc : dctx out E Hp s) (hi : Inv t) (he : emits s t) (hf : t.fixed = s.fixed) :
    dctx out E Hp t :=
  ⟨hi, acct_emits hc.acc he, wctx_of_eq hc.win hf⟩

theorem amode_LEN {s : inflate_stream} (h : amode_of s = .LEN) : s.mode = .LEN := by
  unfold amode_of at h
  cases hm : s.mode <;> rw [hm] at h <;> first | rfl | cases h

theorem MATCH_mode (out : Nat) (m : inflate_stream) (ret : Int) :
    (case_MATCH out m ret).st.mode = m.mode ∨ (case_MATCH out m ret).st.mode = .LEN ∨
      (case_MATCH out m ret).st.mode = .BAD := by
  unfold case_MATCH
  dsimp only
  split_ifs
  · exact Or.inl rfl
  · exact Or.inr (Or.inr rfl)
  · rcases (match_emit_fields m _ _).2.2.2 with h | h
    · exact Or.inl h
    · exact Or.inr (Or.inl h)
  · rcases (match_emit_fields m _ _).2.2.2 with h | h
    · exact Or.inl h
    · exact Or.inr (Or.inl h)

/-- From a literal to write, with room for it, the slow decoder reaches the end of the
symbol in one pass. -/
theorem slow_LIT (tb : table_builder) (X : List Nat) (out E : Nat) (Hp : List Nat)
    (s : inflate_stream) (ret : Int) (hc : dctx out E Hp s) (hm : s.mode = .LIT)
    (h1 : 1 ≤ s.avail_out) {b : astate} (hb : boundary b.mode = true)
    (hseg : aseg tb (alpha_at X E Hp s) b) :
    ∃ k s2 r2, slow_run out k s ret = some (s2, r2) ∧ alpha_at X E Hp s2 = b ∧
      dctx out E Hp s2 ∧ emits s s2 := by
  have hstep : slow_step out s ret = case_LIT s ret := by unfold slow_step; rw [hm]
  have ch := chain_LIT tb X E Hp s ret hm hc.acc.1
  have hi := inv_LIT s ret hc.inv hm
  have he := emits_LIT s ret
  have hf := (basic_LIT s ret).2.1
  have e : case_LIT s ret = .cont
      { s with
        next_out := s.next_out ++ [s.length % 256]
        avail_out := s.avail_out - 1
        mode := .LEN } ret := by
    unfold case_LIT; rw [if_neg (by omega)]
  rw [e] at ch hi he hf hstep
  exact ⟨1, _, _, slow_one hstep, aseg_det hseg hb (ch.go rfl) rfl, dctx_next hc hi he hf, he⟩

/-- From inside a match, with room for the rest of it, the slow decoder reaches the end of
the symbol. -/
theorem slow_MATCH (tb : table_builder) (X : List Nat) (out E : Nat) (Hp : List Nat) :
    ∀ (n : Nat) (s : inflate_stream) (ret : Int), s.length ≤ n → dctx out E Hp s →
      s.mode = .MATCH → s.length ≤ s.avail_out →
      ∀ b : astate, boundary b.mode = true → aseg tb (alpha_at X E Hp s) b →
      ∃ k s2 r2, slow_run out k s ret = some (s2, r2) ∧ alpha_at X E Hp s2 = b ∧
        dctx out E Hp s2 ∧ emits s s2 := by
  intro n
  induction n with
  | zero =>
    intro s ret hn hc hm _ b _ _
    have := (me_MATCH hc.inv.regs hm).2.1.1
    omega
  | succ n ih =>
    intro s ret hn hc hm hroom b hb hseg
    obtain ⟨-, ⟨hl1, hl2⟩, -, -⟩ := me_MATCH hc.inv.regs hm
    have hstep : slow_step out s ret = case_MATCH out s ret := by unfold slow_step; rw [hm]
    have ch := chain_MATCH tb X out E Hp s ret hc.inv hm hc.acc hc.win
    have hi := inv_MATCH out s ret hc.inv hm
    have he := emits_MATCH out s ret hl1
    have hf := (basic_MATCH out s ret).2.1
    rcases MATCH_core out E Hp s ret hc.inv hm hc.acc hc.win with ⟨h0, -⟩ | ⟨-, -, e⟩ |
      ⟨-, -, n1, nout, hn1, hn2, hn3, -, e, -, -⟩
    · omega
    · rw [e] at ch hi he hf hstep
      exact ⟨1, _, _, slow_one hstep, aseg_det hseg hb (ch.go rfl) rfl,
        dctx_next hc hi he hf, he⟩
    · rw [e] at ch hi he hf hstep
      obtain ⟨f1, f2, f3, f4⟩ := match_emit_fields s n1 nout
      have hc1 := dctx_next hc hi he hf
      rcases f4 with f4 | f4
      · have hnb : boundary (alpha_at X E Hp (match_emit s n1 nout)).mode = false := by
          show boundary (amode_of (match_emit s n1 nout)) = false
          unfold amode_of
          have : (match_emit s n1 nout).mode = .MATCH := by
            show (outcome.cont (match_emit s n1 nout) ret).st.mode = .MATCH
            exact f4.trans hm
          rw [this]
          rfl
        have hrest := aseg_rest (ch.go rfl) hnb hseg hb
        obtain ⟨k, s2, r2, g1, g2, g3, g4⟩ := ih (match_emit s n1 nout) ret
          (by rw [f3]; omega) hc1 (f4.trans hm) (by rw [f2, f3]; omega) b hb hrest
        exact ⟨k + 1, s2, r2, slow_next hstep g1, g2, g3, emits_trans he g4⟩
      · have hbb : boundary (alpha_at X E Hp (match_emit s n1 nout)).mode = true := by
          show boundary (amode_of (match_emit s n1 nout)) = true
          unfold amode_of
          rw [f4]
          rfl
        exact ⟨1, _, _, slow_one hstep, aseg_det hseg hb (ch.go rfl) hbb, hc1, he⟩

/-- From the start of a symbol, with 48 bits at hand and room for 258 bytes, the slow
decoder reaches the end of the symbol. -/
theorem slow_LEN (tb : table_builder) (X : List Nat) (out E : Nat) (Hp : List Nat)
    (s : inflate_stream) (ret : Int) (hc : dctx out E Hp s) (hm : s.mode = .LEN)
    (h48 : 48 ≤ s.slen) (h258 : 258 ≤ s.avail_out) {b : astate}
    (hb : boundary b.mode = true) (hseg : aseg tb (alpha_at X E Hp s) b) :
    ∃ k s2 r2, slow_run out k s ret = some (s2, r2) ∧ alpha_at X E Hp s2 = b ∧
      dctx out E Hp s2 ∧ emits s s2 := by
  have hwf := me_LEN hc.inv.regs (Or.inr (Or.inl hm))
  have hstep : slow_step out s ret = case_LEN_slow out s ret := by unfold slow_step; rw [hm]
  have ch := chain_LEN_slow tb X out E Hp s ret hc.inv hm hc.acc hc.win
  have hi := inv_LEN_slow out s ret hc.inv hm
  have he := emits_LEN_slow out s ret hwf.1
  have hf := (basic_LEN_slow out s ret).2.1
  have htm := tm_LEN_slow out s ret hc.inv hm
  have hnb : need_bits s = 48 := by unfold need_bits; rw [hm]
  rcases ho : case_LEN_slow out s ret with ⟨s1, r1⟩ | ⟨s1, r1⟩ | ⟨s1, r1⟩
  · rw [ho] at ch hi he hf hstep htm
    have hi : Inv s1 := hi
    have he : emits s s1 := he
    have hf : s1.fixed = s.fixed := hf
    have hc1 := dctx_next hc hi he hf
    have hgo : aseg tb (alpha_at X E Hp s) (alpha_at X E Hp s1) := ch.go rfl
    have hmodes : s1.mode = .LEN ∨ s1.mode = .TYPE ∨ s1.mode = .BAD ∨ s1.mode = .LIT ∨
        s1.mode = .MATCH := ch.modes rfl
    have bnd : ∀ m : Mode, s1.mode = m → boundary (amode_of s1) = true →
        ∃ k s2 r2, slow_run out k s ret = some (s2, r2) ∧ alpha_at X E Hp s2 = b ∧
          dctx out E Hp s2 ∧ emits s s2 := fun m _ hbb =>
      ⟨1, s1, r1, slow_one hstep, aseg_det hseg hb hgo hbb, hc1, he⟩
    rcases hmodes with h | h | h | h | h
    · exact bnd _ h (by unfold amode_of; rw [h]; rfl)
    · exact bnd _ h (by unfold amode_of; rw [h]; rfl)
    · exact bnd _ h (by unfold amode_of; rw [h]; rfl)
    · have hnbd : boundary (alpha_at X E Hp s1).mode = false := by
        show boundary (amode_of s1) = false
        unfold amode_of; rw [h]; rfl
      have hrest := aseg_rest hgo hnbd hseg hb
      have hout : s1.next_out = s.next_out := by
        rcases htm with e | ⟨m, m1, m2, m3, m4, m5, m6⟩
        · exact e
        · exfalso
          have := MATCH_mode out m ret
          have e2 : (case_MATCH out m ret).st.mode = .LIT := by
            rw [← m6]; exact h
          rw [e2, m2] at this
          rcases this with t | t | t <;> cases t
      have hav : s1.avail_out = s.avail_out := by
        obtain ⟨W, w1, w2⟩ := he
        rw [hout] at w1
        have : W = [] := by
          have := congrArg List.length w1
          rw [List.length_append] at this
          exact List.length_eq_zero.mp (by omega)
        rw [this] at w2
        simpa using w2
      obtain ⟨k, s2, r2, g1, g2, g3, g4⟩ := slow_LIT tb X out E Hp s1 r1 hc1 h (by omega) hb
        hrest
      exact ⟨k + 1, s2, r2, slow_next hstep g1, g2, g3, emits_trans he g4⟩
    · have hnbd : boundary (alpha_at X E Hp s1).mode = false := by
        show boundary (amode_of s1) = false
        unfold amode_of; rw [h]; rfl
      have hrest := aseg_rest hgo hnbd hseg hb
      have hroom := ch.room h
      have hroom : s.avail_out + s1.length ≤ s1.avail_out +
          (if s.mode = Mode.MATCH then s.length else 258) := hroom
      rw [if_neg (by rw [hm]; decide)] at hroom
      obtain ⟨k, s2, r2, g1, g2, g3, g4⟩ := slow_MATCH tb X out E Hp s1.length s1 r1
        (le_refl _) hc1 h (by omega) b hb hrest
      exact ⟨k + 1, s2, r2, slow_next hstep g1, g2, g3, emits_trans he g4⟩
  · rw [ho] at ch
    rcases ch.stuck rfl with h | h
    · omega
    · rw [hnb] at h; omega
  · rw [ho] at ch
    rcases ch.stuck rfl with h | h
    · omega
    · rw [hnb] at h; omega

/-- The slow decoder follows every run of the decoder over whole symbols. -/
theorem slow_symrun (tb : table_builder) (X : List Nat) (out E : Nat) (Hp : List Nat)
    {a c : astate} (h : symrun tb (8 * X.length) (Hp.length + out) a c) :
    ∀ (s : inflate_stream) (ret : Int), dctx out E Hp s → alpha_at X E Hp s = a →
      ∃ k s2 r2, slow_run out k s ret = some (s2, r2) ∧ alpha_at X E Hp s2 = c ∧
        dctx out E Hp s2 ∧ emits s s2 := by
  induction h with
  | done a => intro s ret hc ha; exact ⟨0, s, ret, rfl, ha, hc, emits_refl s⟩
  | sym hm hL hH hseg hb _ ih =>
    intro s ret hc ha
    subst ha
    have hmode : s.mode = .LEN := amode_LEN hm
    have h48 : 48 ≤ s.slen := by
      have : 48 + 8 * X.length ≤ s.slen + 8 * X.length := hL
      omega
    have h258 : 258 ≤ s.avail_out := by
      have : (Hp ++ s.next_out.drop E).length + 258 ≤ Hp.length + out := hH
      rw [List.length_append, List.length_drop] at this
      obtain ⟨a1, a2, a3⟩ := hc.acc
      omega
    obtain ⟨k1, s2, r2, h1, h2, h3, h4⟩ := slow_LEN tb X out E Hp s ret hc hmode h48 h258 hb hseg
    obtain ⟨k2, s3, r3, g1, g2, g3, g4⟩ := ih s2 r2 h3 h2
    exact ⟨k1 + k2, s3, r3, slow_run_add out k1 k2 _ _ _ _ _ _ h1 g1, g2, g3, emits_trans h4 g4⟩

theorem amode_base (s : inflate_stream) : (amode_of s).base = s.mode := by
  unfold amode_of
  cases s.mode <;> rfl

theorem symrun_boundary {tb : table_builder} {x8 cap : Nat} {a c : astate}
    (h : symrun tb x8 cap a c) : boundary a.mode = true → boundary c.mode = true := by
  induction h with
  | done a => exact id
  | sym _ _ _ _ hb _ ih => exact fun _ => ih hb

theorem boundary_modes {s : inflate_stream} (h : boundary (amode_of s) = true) :
    s.mode = .LEN ∨ s.mode = .TYPE ∨ s.mode = .BAD := by
  unfold amode_of at h
  cases hm : s.mode <;> rw [hm] at h <;> simp [boundary] at h ⊢

/-- Two extensions of the same output that agree beyond the first `E` bytes are equal. -/
theorem emits_same_out {E : Nat} {s s1 s2 : inflate_stream} (hE : E ≤ s.next_out.length)
    (h1 : emits s s1) (h2 : emits s s2)
    (h : s2.next_out.drop E = s1.next_out.drop E) :
    s2.next_out = s1.next_out ∧ s2.avail_out = s1.avail_out := by
  obtain ⟨W1, a1, a2⟩ := h1
  obtain ⟨W2, b1, b2⟩ := h2
  rw [a1, b1, drop_append_of_le hE, drop_append_of_le hE] at h
  have hW := List.append_cancel_left h
  subst hW
  exact ⟨b1.trans a1.symm, by omega⟩

/-- C4: in every state of mode `LEN` that `write` can hand to the fast decoder (the
invariant of the state machine holds, which includes well-formed tables; at least 6 bytes
of input and room for 258 bytes of output; `out` is `avail_out` on entry of `write` and
the window holds the end of the earlier output `Hp`), `inflate_fast` returns, and the
passes of the slow cases `LEN`, `LENEXT`, `DIST`, `DISTEXT`, `MATCH`, `LIT` run from the
same state reach, after some number of passes, a state with the same output bytes, the
same room left, the same unread bits (so the same number of bits consumed), the same mode,
which is `LEN`, `TYPE` or `BAD`, and the same `msg`. -/
theorem fast_slow_equiv (out E : Nat) (Hp : List Nat) (s : inflate_stream) (hi : Inv s)
    (hm : s.mode = .LEN) (h6 : 6 ≤ s.avail_in) (h258 : 258 ≤ s.avail_out)
    (ha : acct out E s) (hw : wctx Hp s) :
    (∃ s1, inflate_fast (s.avail_out + 2) s out = some s1) ∧
    ∀ fuel s1, inflate_fast fuel s out = some s1 →
      (s1.mode = .LEN ∨ s1.mode = .TYPE ∨ s1.mode = .BAD) ∧
      ∃ k s2 r2, slow_run out k s Z_OK = some (s2, r2) ∧ s2.next_out = s1.next_out ∧
        s2.avail_out = s1.avail_out ∧ s2.slen = s1.slen ∧ s2.sval = s1.sval ∧
        s2.mode = s1.mode ∧ s2.msg = s1.msg := by
  have hc : fast_ctx out E Hp s := ⟨hi, hm, ha, hw⟩
  refine ⟨fast_total no_tables [] out E Hp s hc h6 h258, ?_⟩
  intro fuel s1 hf
  have hwf := me_LEN hi.regs (Or.inr (Or.inl hm))
  have hlt : s.avail_out < 4294967296 := by have := ha.2.1; have := ha.2.2; omega
  have hrun := fast_symrun no_tables [] out E Hp s hc h6 h258 hf
  have hb0 : boundary (alpha_at [] E Hp s).mode = true := by
    show boundary (amode_of s) = true
    unfold amode_of; rw [hm]; rfl
  have hb1 := symrun_boundary hrun hb0
  obtain ⟨k, s2, r2, g1, g2, g3, g4⟩ := slow_symrun no_tables [] out E Hp hrun s Z_OK
    ⟨hi, ha, hw⟩ rfl
  have e1 := emits_fast hwf.1 hwf.2 h258 hlt hf
  have hH : s2.next_out.drop E = s1.next_out.drop E :=
    List.append_cancel_left (congrArg astate.H g2)
  obtain ⟨o1, o2⟩ := emits_same_out ha.1 e1 g4 hH
  have hN : s2.sN [] = s1.sN [] := congrArg astate.N g2
  have hL : s2.sL [] = s1.sL [] := congrArg astate.L g2
  have hmode : (amode_of s2).base = (amode_of s1).base :=
    congrArg (fun a => a.mode.base) g2
  rw [amode_base, amode_base] at hmode
  refine ⟨boundary_modes hb1, k, s2, r2, g1, o1, o2, ?_, ?_, hmode, congrArg astate.msg g2⟩
  · simpa [inflate_stream.sL] using hL
  · simpa [inflate_stream.sN, bytes_val] using hN

/-- Witness for `fast_slow_equiv`: the state at the first symbol of the fixed-Huffman
stream of "abcabc" with room for 258 bytes. -/
theorem fast_slow_equiv_witness :
    (∃ s1, inflate_fast (fast_state.avail_out + 2) fast_state 258 = some s1) ∧
    ∀ fuel s1, inflate_fast fuel fast_state 258 = some s1 →
      (s1.mode = .LEN ∨ s1.mode = .TYPE ∨ s1.mode = .BAD) ∧
      ∃ k s2 r2, slow_run 258 k fast_state Z_OK = some (s2, r2) ∧
        s2.next_out = s1.next_out ∧ s2.avail_out = s1.avail_out ∧ s2.slen = s1.slen ∧
        s2.sval = s1.sval ∧ s2.mode = s1.mode ∧ s2.msg = s1.msg :=
  fast_slow_equiv 258 0 [] fast_state
    ⟨rfl, rfl, by decide, by decide, Or.inl (by decide), ⟨wf_lenfix, wf_distfix⟩⟩ rfl
    (by decide) (by decide) ⟨by decide, by decide, by decide⟩ ⟨rfl, by decide, Or.inl rfl⟩

/-! ## reset and resetKeep (C16, C17) -/

/-- C16: `reset(windowBits)` succeeds exactly when `8 <= windowBits <= 15` (otherwise it
throws before touching the stream, which the model renders as `none`); on success
`wbits = windowBits`, `wsize = whave = wnext = 0`, `mode = HEAD`, the three totals, `hold`,
`bits` and `last` are 0, `msg` is null, `dmax = 32768`, `sane = 1`, and the window buffer
is released exactly when there was one and its `wbits` differs from `windowBits`. -/
theorem reset_spec (w : Nat) (s : inflate_stream) :
    ((reset w s).isSome = true ↔ 8 ≤ w ∧ w ≤ 15) ∧
    ∀ s1, reset w s = some s1 →
      s1.wbits = w ∧ s1.wsize = 0 ∧ s1.whave = 0 ∧ s1.wnext = 0 ∧ s1.mode = .HEAD ∧
      s1.total_in = 0 ∧ s1.total_out = 0 ∧ s1.total = 0 ∧ s1.hold = 0 ∧ s1.bits = 0 ∧
      s1.last = 0 ∧ s1.msg = none ∧ s1.dmax = 32768 ∧ s1.sane = 1 ∧
      s1.window = (if s.window.isSome ∧ s.wbits ≠ w then none else s.window) := by
  constructor
  · unfold reset
    by_cases h : w < 8 ∨ w > 15
    · rw [if_pos h]
      simp only [Option.isSome_none, Bool.false_eq_true, false_iff]; omega
    · rw [if_neg h]
      simp only [Option.isSome_some, true_iff]; omega
  · intro s1 h
    unfold reset at h
    by_cases hw : w < 8 ∨ w > 15
    · rw [if_pos hw] at h; cases h
    · rw [if_neg hw] at h
      dsimp only at h
      by_cases hc : s.window.isSome ∧ s.wbits ≠ w
      · rw [if_pos hc] at h ⊢
        cases h
        exact ⟨rfl, rfl, rfl, rfl, rfl, rfl, rfl, rfl, rfl, rfl, rfl, rfl, rfl, rfl, rfl⟩
      · rw [if_neg hc] at h ⊢
        cases h
        exact ⟨rfl, rfl, rfl, rfl, rfl, rfl, rfl, rfl, rfl, rfl, rfl, rfl, rfl, rfl, rfl⟩

/-- Witness for `reset_spec`: resetting a stream with a window of 2^15 bytes to 8 window
bits succeeds and releases the window. -/
theorem reset_spec_witness :
    ∃ s1, reset 8 { zero_stream with window := some [], wbits := 15 } = some s1 ∧
      s1.wbits = 8 ∧ s1.mode = .HEAD ∧ s1.window = none := by
  refine ⟨_, rfl, ?_⟩
  obtain ⟨h1, -, -, -, h5, -, -, -, -, -, -, -, -, -, h15⟩ :=
    (reset_spec 8 { zero_stream with window := some [], wbits := 15 }).2 _ rfl
  exact ⟨h1, h5, h15⟩

set_option maxRecDepth 100000 in
/-- Counterexample to C17 as stated: `resetKeep` leaves `wsize`, `whave` and `wnext` as
they are; on the stream that has decoded "abcabc" they stay 32768, 6 and 6. -/
theorem resetKeep_keeps_window_state :
    (resetKeep used_stream).wsize = 32768 ∧ (resetKeep used_stream).whave = 6 ∧
    (resetKeep used_stream).wnext = 6 := by
  refine ⟨?_, ?_, ?_⟩ <;> rfl

/-- C17 (amended): after `resetKeep()`, from any prior state, `total_in = total_out =
total = 0`, `msg` is null, `mode = HEAD`, `last = 0`, `hold = 0`, `bits = 0` (and
`dmax = 32768`, `sane = 1`, `back = -1`, the table pointers at the start of `codes`),
while the window buffer, `wbits` and the window state `wsize`, `whave`, `wnext` are left
as they were, like the buffer fields and the remaining registers. -/
theorem resetKeep_spec (s : inflate_stream) :
    (resetKeep s).total_in = 0 ∧ (resetKeep s).total_out = 0 ∧ (resetKeep s).total = 0 ∧
    (resetKeep s).msg = none ∧ (resetKeep s).mode = .HEAD ∧ (resetKeep s).last = 0 ∧
    (resetKeep s).hold = 0 ∧ (resetKeep s).bits = 0 ∧ (resetKeep s).dmax = 32768 ∧
    (resetKeep s).sane = 1 ∧ (resetKeep s).back = -1 ∧
    (resetKeep s).lencode = .codes 0 ∧ (resetKeep s).distcode = .codes 0 ∧
    (resetKeep s).next = 0 ∧
    (resetKeep s).window = s.window ∧ (resetKeep s).wbits = s.wbits ∧
    (resetKeep s).wsize = s.wsize ∧ (resetKeep s).whave = s.whave ∧
    (resetKeep s).wnext = s.wnext ∧
    (resetKeep s).next_in = s.next_in ∧ (resetKeep s).next_out = s.next_out ∧
    (resetKeep s).avail_out = s.avail_out ∧ (resetKeep s).in_null = s.in_null ∧
    (resetKeep s).out_null = s.out_null ∧ (resetKeep s).data_type = s.data_type ∧
    (resetKeep s).length = s.length ∧ (resetKeep s).offset = s.offset ∧
    (resetKeep s).extra = s.extra ∧ (resetKeep s).lenbits = s.lenbits ∧
    (resetKeep s).distbits = s.distbits ∧ (resetKeep s).ncode = s.ncode ∧
    (resetKeep s).nlen = s.nlen ∧ (resetKeep s).ndist = s.ndist ∧
    (resetKeep s).have_ = s.have_ ∧ (resetKeep s).lens = s.lens ∧
    (resetKeep s).codes = s.codes ∧ (resetKeep s).was = s.was :=
  ⟨rfl, rfl, rfl, rfl, rfl, rfl, rfl, rfl, rfl, rfl, rfl, rfl, rfl, rfl, rfl, rfl, rfl, rfl,
    rfl, rfl, rfl, rfl, rfl, rfl, rfl, rfl, rfl, rfl, rfl, rfl, rfl, rfl, rfl, rfl, rfl, rfl, rfl⟩

/-! ## Flush values that `write` does not test for (C13) -/

theorem flush_STORED {f : Int} (h : plain_flush f) (s : inflate_stream) (ret : Int) :
    case_STORED f s ret = case_STORED Z_NO_FLUSH s ret := by
  unfold case_STORED
  dsimp only
  rw [if_neg h.2.2, if_neg (by decide : ¬ Z_NO_FLUSH = Z_TREES)]

theorem flush_TYPEDO {f : Int} (h : plain_flush f) (s : inflate_stream) (ret : Int) :
    case_TYPEDO f s ret = case_TYPEDO Z_NO_FLUSH s ret := by
  unfold case_TYPEDO
  dsimp only
  rw [if_neg h.2.2, if_neg (by decide : ¬ Z_NO_FLUSH = Z_TREES)]

theorem flush_TYPE {f : Int} (h : plain_flush f) (s : inflate_stream) (ret : Int) :
    case_TYPE f s ret = case_TYPE Z_NO_FLUSH s ret := by
  unfold case_TYPE
  rw [if_neg (by rintro (e | e); exact h.2.1 e; exact h.2.2 e),
    if_neg (by decide : ¬ (Z_NO_FLUSH = Z_BLOCK ∨ Z_NO_FLUSH = Z_TREES)), flush_TYPEDO h]

theorem flush_CODELENS {f : Int} (h : plain_flush f) (tb : table_builder) (fuel out : Nat)
    (s : inflate_stream) (ret : Int) :
    case_CODELENS tb fuel f out s ret = case_CODELENS tb fuel Z_NO_FLUSH out s ret := by
  unfold case_CODELENS
  simp only [if_neg h.2.2, if_neg (show ¬ Z_NO_FLUSH = Z_TREES by decide)]

theorem flush_LENLENS {f : Int} (h : plain_flush f) (tb : table_builder) (fuel out : Nat)
    (s : inflate_stream) (ret : Int) :
    case_LENLENS tb fuel f out s ret = case_LENLENS tb fuel Z_NO_FLUSH out s ret := by
  unfold case_LENLENS
  simp only [flush_CODELENS h]

theorem flush_TABLE {f : Int} (h : plain_flush f) (tb : table_builder) (fuel out : Nat)
    (s : inflate_stream) (ret : Int) :
    case_TABLE tb fuel f out s ret = case_TABLE tb fuel Z_NO_FLUSH out s ret := by
  unfold case_TABLE
  simp only [flush_LENLENS h]

theorem flush_step {f : Int} (h : plain_flush f) (tb : table_builder) (fuel out : Nat)
    (s : inflate_stream) (ret : Int) :
    step tb fuel f out s ret = step tb fuel Z_NO_FLUSH out s ret := by
  unfold step
  simp only [flush_TYPE h, flush_TYPEDO h, flush_STORED h, flush_TABLE h, flush_LENLENS h,
    flush_CODELENS h]

theorem flush_leave {f : Int} (h : plain_flush f) (alloc : allocator) (in_ out : Nat)
    (s : inflate_stream) (ret : Int) :
    inf_leave alloc f in_ out s ret = inf_leave alloc Z_NO_FLUSH in_ out s ret := by
  have e1 : leave_update alloc f out s = leave_update alloc Z_NO_FLUSH out s := by
    unfold leave_update
    refine if_congr ?_ rfl rfl
    unfold leave_folds
    have : (f ≠ Z_FINISH) ↔ (Z_NO_FLUSH ≠ Z_FINISH) :=
      ⟨fun _ => by decide, fun _ => h.1⟩
    rw [this]
  have e2 : ∀ a b r, leave_ret f a b r = leave_ret Z_NO_FLUSH a b r := by
    intro a b r
    unfold leave_ret
    refine if_congr ?_ rfl rfl
    have : (f = Z_FINISH) ↔ (Z_NO_FLUSH = Z_FINISH) :=
      ⟨fun e => absurd e h.1, fun e => absurd e (by decide)⟩
    rw [this]
  unfold inf_leave
  simp only [e1, e2]

theorem flush_run {f : Int} (h : plain_flush f) (tb : table_builder) (alloc : allocator)
    (in_ out : Nat) : ∀ (fuel : Nat) (s : inflate_stream) (ret : Int),
    run tb alloc f in_ out fuel s ret = run tb alloc Z_NO_FLUSH in_ out fuel s ret := by
  intro fuel
  induction fuel with
  | zero => intro s ret; rfl
  | succ n ih =>
    intro s ret
    unfold run
    rw [flush_step h]
    split
    · rfl
    · exact ih _ _
    · rw [flush_leave h]
    · rfl

theorem flush_write {f : Int} (h : plain_flush f) (tb : table_builder) (alloc : allocator)
    (fuel : Nat) (s : inflate_stream) :
    write tb alloc fuel s f = write tb alloc fuel s Z_NO_FLUSH := by
  unfold write
  simp only [flush_run h]

/-- C13: for every stream state and buffer contents (and every table builder, allocator
and fuel), `write` with `Z_SYNC_FLUSH` and with `Z_FULL_FLUSH` returns the same status and
the same resulting stream, output bytes included, as with `Z_NO_FLUSH`. -/
theorem flush_independence (tb : table_builder) (alloc : allocator) (fuel : Nat)
    (s : inflate_stream) :
    write tb alloc fuel s Z_SYNC_FLUSH = write tb alloc fuel s Z_NO_FLUSH ∧
    write tb alloc fuel s Z_FULL_FLUSH = write tb alloc fuel s Z_NO_FLUSH :=
  ⟨flush_write ⟨by decide, by decide, by decide⟩ tb alloc fuel s,
   flush_write ⟨by decide, by decide, by decide⟩ tb alloc fuel s⟩

/-! ## The outcome of the loop of `write` does not depend on the fuel -/

theorem fast_dodist_fuel (s : inflate_stream) (inp : List Nat) (beg out0 len : Nat) :
    ∀ (fuel : Nat) (e : code) (l : fast_locals) (r : fast_end),
      fast_dodist s inp beg out0 len fuel e l = some r →
      ∀ k, fast_dodist s inp beg out0 len (fuel + k) e l = some r := by
  intro fuel
  induction fuel with
  | zero => intro e l r h; simp [fast_dodist] at h
  | succ n ih =>
    intro e l r h k
    rw [show n + 1 + k = n + k + 1 by omega]
    unfold fast_dodist at h ⊢
    dsimp only at h ⊢
    split_ifs at h ⊢
    · exact h
    · exact h
    · exact h
    · exact ih _ _ _ h k
    · exact h

theorem fast_dolen_fuel (s : inflate_stream) (inp : List Nat) (beg out0 : Nat) :
    ∀ (fuel : Nat) (e : code) (l : fast_locals) (r : fast_end),
      fast_dolen s inp beg out0 fuel e l = some r →
      ∀ k, fast_dolen s inp beg out0 (fuel + k) e l = some r := by
  intro fuel
  induction fuel with
  | zero => intro e l r h; simp [fast_dolen] at h
  | succ n ih =>
    intro e l r h k
    rw [show n + 1 + k = n + k + 1 by omega]
    unfold fast_dolen at h ⊢
    dsimp only at h ⊢
    split_ifs at h ⊢
    · exact h
    · have := fast_dodist_fuel s inp beg out0 _ _ _ _ _ h k
      rw [show n + 1 + k = n + k + 1 by omega] at this
      exact this
    · exact ih _ _ _ h k
    · exact h
    · exact h

theorem fast_loop_fuel (s : inflate_stream) (inp : List Nat) (beg out0 last end_ : Nat) :
    ∀ (fuel : Nat) (l : fast_locals) (r : fast_end),
      fast_loop s inp beg out0 last end_ fuel l = some r →
      ∀ k, fast_loop s inp beg out0 last end_ (fuel + k) l = some r := by
  intro fuel
  induction fuel with
  | zero => intro l r h; simp [fast_loop] at h
  | succ n ih =>
    intro l r h k
    rw [show n + 1 + k = n + k + 1 by omega]
    unfold fast_loop at h ⊢
    dsimp only at h ⊢
    rcases hd : fast_dolen s inp beg out0 (n + 1) (s.tab s.lencode ((l.refill inp).hold % 2 ^ s.lenbits))
      (l.refill inp) with _ | r1
    · rw [hd] at h; cases h
    · have h2 := fast_dolen_fuel s inp beg out0 _ _ _ _ hd k
      rw [show n + 1 + k = n + k + 1 by omega] at h2
      rw [hd] at h
      rw [h2]
      cases r1 with
      | brk l1 m msg => exact h
      | test l1 =>
        dsimp only at h ⊢
        split_ifs at h ⊢
        · exact ih _ _ h k
        · exact h

theorem inflate_fast_fuel {fuel : Nat} {s s1 : inflate_stream} {start : Nat}
    (h : inflate_fast fuel s start = some s1) (k : Nat) :
    inflate_fast (fuel + k) s start = some s1 := by
  unfold inflate_fast at h ⊢
  dsimp only at h ⊢
  rcases hl : fast_loop s s.next_in (usub start s.avail_out) s.next_out.length
    (usub s.avail_in 5) (usub s.avail_out 257) fuel ⟨0, s.next_out, s.hold, s.bits⟩ with _ | r
  · rw [hl] at h; cases h
  · rw [hl] at h
    rw [fast_loop_fuel _ _ _ _ _ _ _ _ _ hl k]
    exact h

theorem case_LEN_fuel {fuel out : Nat} {s : inflate_stream} {ret : Int} {o : outcome}
    (h : case_LEN fuel out s ret = some o) (k : Nat) :
    case_LEN (fuel + k) out s ret = some o := by
  unfold case_LEN at h ⊢
  dsimp only at h ⊢
  split_ifs at h ⊢
  · rcases hf : inflate_fast fuel { s with mode := .LEN } out with _ | s1
    · rw [hf] at h; cases h
    · rw [hf] at h
      rw [inflate_fast_fuel hf k]
      exact h
  · exact h

theorem case_CODELENS_fuel {tb : table_builder} {fuel : Nat} {flush : Int} {out : Nat}
    {s : inflate_stream} {ret : Int} {o : outcome}
    (h : case_CODELENS tb fuel flush out s ret = some o) (k : Nat) :
    case_CODELENS tb (fuel + k) flush out s ret = some o := by
  unfold case_CODELENS at h ⊢
  split at h
  · exact h
  · dsimp only at h ⊢
    split_ifs at h ⊢
    · exact h
    · exact h
    · exact h
    · exact h
    · exact h
    · exact case_LEN_fuel h k

theorem case_LENLENS_fuel {tb : table_builder} {fuel : Nat} {flush : Int} {out : Nat}
    {s : inflate_stream} {ret : Int} {o : outcome}
    (h : case_LENLENS tb fuel flush out s ret = some o) (k : Nat) :
    case_LENLENS tb (fuel + k) flush out s ret = some o := by
  unfold case_LENLENS at h ⊢
  split at h
  · exact h
  · dsimp only at h ⊢
    split_ifs at h ⊢
    · exact h
    · exact case_CODELENS_fuel h k

theorem case_TABLE_fuel {tb : table_builder} {fuel : Nat} {flush : Int} {out : Nat}
    {s : inflate_stream} {ret : Int} {o : outcome}
    (h : case_TABLE tb fuel flush out s ret = some o) (k : Nat) :
    case_TABLE tb (fuel + k) flush out s ret = some o := by
  unfold case_TABLE at h ⊢
  dsimp only at h ⊢
  split_ifs at h ⊢
  · exact h
  · exact h
  · exact case_LENLENS_fuel h k

/-- More fuel does not change the outcome of a pass. -/
theorem step_fuel {tb : table_builder} {fuel : Nat} {flush : Int} {out : Nat}
    {s : inflate_stream} {ret : Int} {o : outcome}
    (h : step tb fuel flush out s ret = some o) (k : Nat) :
    step tb (fuel + k) flush out s ret = some o := by
  unfold step at h ⊢
  cases hm : s.mode <;> rw [hm] at h <;> dsimp only at h ⊢ <;>
    first
    | exact h
    | exact case_TABLE_fuel h k
    | exact case_LENLENS_fuel h k
    | exact case_CODELENS_fuel h k
    | exact case_LEN_fuel h k

/-- The outcome of a pass does not depend on the fuel, when there is enough of it. -/
theorem step_det {tb : table_builder} {f1 f2 : Nat} {flush : Int} {out : Nat}
    {s : inflate_stream} {ret : Int} {o1 o2 : outcome}
    (h1 : step tb f1 flush out s ret = some o1) (h2 : step tb f2 flush out s ret = some o2) :
    o1 = o2 := by
  have a := step_fuel h1 f2
  have b := step_fuel h2 f1
  rw [Nat.add_comm] at b
  rw [a] at b
  exact Option.some.inj b

/-- The loop of `write` has one outcome. -/
theorem passes_det {tb : table_builder} {flush : Int} {out : Nat} {s : inflate_stream}
    {ret : Int} {o1 : outcome} (h1 : passes tb flush out s ret o1) :
    ∀ {o2 : outcome}, passes tb flush out s ret o2 → o1 = o2 := by
  induction h1 with
  | last hs hc =>
    intro o2 h2
    cases h2 with
    | last hs2 _ => exact step_det hs hs2
    | next hs2 _ =>
      have := step_det hs hs2
      subst this
      cases hc
  | next hs _ ih =>
    intro o2 h2
    cases h2 with
    | last hs2 hc2 =>
      have := step_det hs hs2
      subst this
      cases hc2
    | next hs2 hp2 =>
      have := step_det hs hs2
      cases this
      exact ih hp2

/-- The loop of `write` goes on from every state it visits to the same outcome. -/
theorem visits_passes {tb : table_builder} {flush : Int} {out : Nat} {s : inflate_stream}
    {ret : Int} {v : inflate_stream} (hv : visits tb flush out s ret v) :
    ∀ {o : outcome}, passes tb flush out s ret o → ∃ r, passes tb flush out v r o := by
  induction hv with
  | here s ret => intro o h; exact ⟨ret, h⟩
  | next hs _ ih =>
    intro o h
    cases h with
    | last hs2 hc =>
      have := step_det hs hs2
      subst this
      cases hc
    | next hs2 hp =>
      have := step_det hs hs2
      cases this
      exact ih hp

/-! ## Memory error (C18), buffer error (C12) -/

theorem inf_leave_avail (alloc : allocator) (flush : Int) (in_ out : Nat) (s : inflate_stream)
    (ret : Int) :
    (inf_leave alloc flush in_ out s ret).2.avail_out = s.avail_out ∧
    (inf_leave alloc flush in_ out s ret).2.next_in = s.next_in ∧
    (inf_leave alloc flush in_ out s ret).2.next_out = s.next_out := by
  obtain ⟨a, b, c, -⟩ := leave_update_frame alloc flush out s
  unfold inf_leave
  dsimp only
  split_ifs
  · exact ⟨b, a, c⟩
  · exact ⟨b, a, c⟩

theorem write_bad_args {tb : table_builder} {alloc : allocator} {fuel : Nat}
    {s : inflate_stream} {flush : Int}
    (hc : s.out_null = true ∨ (s.in_null = true ∧ s.avail_in ≠ 0)) :
    write tb alloc fuel s flush = some (Z_STREAM_ERROR, s) := by
  unfold write
  rw [if_pos hc]

theorem write_run {tb : table_builder} {alloc : allocator} {fuel : Nat}
    {s : inflate_stream} {flush : Int}
    (hc : ¬ (s.out_null = true ∨ (s.in_null = true ∧ s.avail_in ≠ 0))) :
    write tb alloc fuel s flush =
      run tb alloc flush s.avail_in s.avail_out fuel (entry s) Z_OK := by
  unfold write entry
  rw [if_neg hc]
  split_ifs <;> rfl

/-- The loop of `write` does not look at the allocator: with another allocator the same
passes are made, and only the code at `inf_leave` may differ. -/
theorem run_alloc (tb : table_builder) (alloc alloc2 : allocator) (flush : Int)
    (in_ out : Nat) :
    ∀ (fuel : Nat) (s : inflate_stream) (ret : Int) (p : Int × inflate_stream),
      run tb alloc flush in_ out fuel s ret = some p →
      ∃ o, passes tb flush out s ret o ∧ p = finish alloc flush in_ out o ∧
        run tb alloc2 flush in_ out fuel s ret = some (finish alloc2 flush in_ out o) := by
  intro fuel
  induction fuel with
  | zero => intro s ret p h; simp [run] at h
  | succ n ih =>
    intro s ret p h
    unfold run at h ⊢
    rcases hs : step tb (n + 1) flush out s ret with _ | o
    · rw [hs] at h; cases h
    · rw [hs] at h
      cases o with
      | cont s1 r1 =>
        obtain ⟨o, h1, h2, h3⟩ := ih s1 r1 p h
        exact ⟨o, passes.next hs h1, h2, h3⟩
      | leave s1 r1 =>
        injection h with h
        exact ⟨_, passes.last hs rfl, h.symm, rfl⟩
      | done s1 r1 =>
        injection h with h
        exact ⟨_, passes.last hs rfl, h.symm, rfl⟩

theorem updatewindow_fail_iff (alloc : allocator) (t : inflate_stream) (e : List Nat)
    (c : Nat) :
    (updatewindow alloc t e c).2 ≠ 0 ↔ (t.window = none ∧ alloc (2 ^ t.wbits) = none) := by
  constructor
  · intro h
    have hw := (updatewindow_fail alloc t e c h).2
    refine ⟨hw, ?_⟩
    rcases ha : alloc (2 ^ t.wbits) with _ | w
    · rfl
    · exact absurd (updatewindow_ok alloc t e c (Or.inr (by rw [ha]; rfl))) h
  · rintro ⟨hw, ha⟩
    unfold updatewindow
    rw [hw]
    dsimp only
    rw [ha]
    exact one_ne_zero

theorem leave_update_cases (alloc : allocator) (flush : Int) (out : Nat)
    (s : inflate_stream) :
    ((leave_update alloc flush out s).2 ≠ 0 ∧ (leave_update alloc flush out s).1 = s ∧
      s.window = none ∧ alloc (2 ^ s.wbits) = none ∧ leave_folds flush out s) ∨
    (leave_update alloc flush out s).2 = 0 := by
  unfold leave_update
  by_cases hf : leave_folds flush out s
  · rw [if_pos hf]
    by_cases h0 : (updatewindow alloc s s.next_out (usub out s.avail_out)).2 = 0
    · exact Or.inr h0
    · obtain ⟨a, b⟩ := updatewindow_fail alloc s _ _ h0
      exact Or.inl ⟨h0, a, b, ((updatewindow_fail_iff alloc s _ _).mp h0).2, hf⟩
  · rw [if_neg hf]
    exact Or.inr rfl

/-- C18: (1) `updatewindow` reports failure exactly when there is no window buffer and the
allocation of `2^wbits` bytes fails, and then it leaves the stream, so `wsize`, `whave`
and `wnext`, unchanged; (2) when it fails at `inf_leave`, `write` sets `mode = MEM` and
returns `Z_MEM_ERROR`; (3) `write` returns `Z_MEM_ERROR` only when the mode was `MEM` on
entry or the allocation failed in this call; (4) a call that produces no output while
`wsize == 0` does not attempt an allocation: it returns the same with every allocator. -/
theorem memory_error (tb : table_builder) (alloc : allocator) (fuel : Nat)
    (s : inflate_stream) (flush : Int) (r : Int) (s2 : inflate_stream)
    (hw : write tb alloc fuel s flush = some (r, s2)) :
    (∀ t e c, ((updatewindow alloc t e c).2 ≠ 0 ↔
        (t.window = none ∧ alloc (2 ^ t.wbits) = none)) ∧
      ((updatewindow alloc t e c).2 ≠ 0 → (updatewindow alloc t e c).1 = t)) ∧
    (∀ t in_ out ret, (leave_update alloc flush out t).2 ≠ 0 →
      inf_leave alloc flush in_ out t ret = (Z_MEM_ERROR, { t with mode := .MEM })) ∧
    (r = Z_MEM_ERROR → s.mode = .MEM ∨
      (s.window = none ∧ alloc (2 ^ s.wbits) = none ∧ s2.mode = .MEM ∧
        s2.wsize = s.wsize ∧ s2.whave = s.whave ∧ s2.wnext = s.wnext)) ∧
    (s.wsize = 0 → s2.avail_out = s.avail_out →
      ∀ alloc2, write tb alloc2 fuel s flush = some (r, s2)) := by
  refine ⟨fun t e c => ⟨updatewindow_fail_iff alloc t e c,
    fun h => (updatewindow_fail alloc t e c h).1⟩, ?_, ?_, ?_⟩
  · intro t in_ out ret h
    rcases leave_update_cases alloc flush out t with ⟨-, e, -⟩ | h0
    · unfold inf_leave
      dsimp only
      rw [if_pos h, e]
    · exact absurd h0 h
  · intro hr
    subst hr
    rcases write_result hw with ⟨-, h2, -⟩ | ⟨-, ⟨h2, -, -⟩ | ⟨-, h2, -⟩ |
      ⟨-, s1, r1, c1, -, c3, c4⟩⟩
    · exact absurd h2 (by decide)
    · exact Or.inl h2
    · exact absurd h2 (by decide)
    · right
      rcases leave_update_cases alloc flush s.avail_out s1 with ⟨h0, e, hwn, ha, -⟩ | h0
      · have e4 : inf_leave alloc flush s.avail_in s.avail_out s1 r1 =
            (Z_MEM_ERROR, { s1 with mode := .MEM }) := by
          unfold inf_leave
          dsimp only
          rw [if_pos h0, e]
        rw [e4] at c4
        have e5 : s2 = { s1 with mode := .MEM } := congrArg Prod.snd c4
        have f1 : s1.window = s.window := congrArg fixed_part.window c1
        have f2 : s1.wbits = s.wbits := congrArg fixed_part.wbits c1
        have f3 : s1.wsize = s.wsize := congrArg fixed_part.wsize c1
        have f4 : s1.whave = s.whave := congrArg fixed_part.whave c1
        have f5 : s1.wnext = s.wnext := congrArg fixed_part.wnext c1
        rw [f1] at hwn
        rw [f2] at ha
        subst e5
        exact ⟨hwn, ha, rfl, f3, f4, f5⟩
      · exfalso
        have e1 : Z_MEM_ERROR = (inf_leave alloc flush s.avail_in s.avail_out s1 r1).1 :=
          congrArg Prod.fst c4
        rw [(inf_leave_ok alloc flush _ _ s1 r1 h0).1] at e1
        exact leave_ret_ne_mem _ _ _ _ c3 e1.symm
  · intro h0 hav alloc2
    by_cases hc : s.out_null = true ∨ (s.in_null = true ∧ s.avail_in ≠ 0)
    · rw [write_bad_args hc] at hw ⊢
      exact hw
    · rw [write_run hc] at hw ⊢
      obtain ⟨o, hp, e1, e2⟩ := run_alloc tb alloc alloc2 flush _ _ fuel _ _ _ hw
      rw [e2, e1]
      congr 1
      cases o with
      | cont s1 r1 => rfl
      | done s1 r1 => rfl
      | leave s1 r1 =>
        show inf_leave alloc2 flush s.avail_in s.avail_out s1 r1 =
          inf_leave alloc flush s.avail_in s.avail_out s1 r1
        have hfix : s1.fixed = s.fixed := (passes_fixed hp).trans (entry_out s).2.2.1
        have hws : s1.wsize = 0 := (congrArg fixed_part.wsize hfix).trans h0
        have hav1 : s1.avail_out = s.avail_out := by
          have := (inf_leave_avail alloc flush s.avail_in s.avail_out s1 r1).1
          have e3 : s2 = (inf_leave alloc flush s.avail_in s.avail_out s1 r1).2 :=
            congrArg Prod.snd e1
          rw [← e3] at this
          rw [← this]; exact hav
        have hnf : ¬ leave_folds flush s.avail_out s1 := by
          unfold leave_folds
          rintro (h | h)
          · exact h hws
          · exact h.1 hav1.symm
        have hu : ∀ a : allocator, leave_update a flush s.avail_out s1 = (s1, 0) := by
          intro a
          unfold leave_update
          rw [if_neg hnf]
        unfold inf_leave
        rw [hu alloc, hu alloc2]

set_option maxRecDepth 100000 in
/-- Witness for `memory_error`: the allocation fails in a call that wrote one byte of a
stored block; the mode becomes `MEM` and the window state stays zero. -/
theorem memory_error_witness :
    ((write no_tables no_alloc 10 short_room Z_FINISH).getD (0, zero_stream)).2.mode = .MEM ∧
    ((write no_tables no_alloc 10 short_room Z_FINISH).getD (0, zero_stream)).2.wsize = 0 := by
  have h := (memory_error no_tables no_alloc 10 short_room Z_FINISH _ _
    (eq_some_getD (0, zero_stream) (by decide!))).2.2.1 (by decide!)
  rcases h with h | h
  · exact absurd h (by decide)
  · exact ⟨h.2.2.1, h.2.2.2.1⟩

set_option maxRecDepth 100000 in
/-- Counterexample to C12 as stated: with `Z_FINISH` the loop leaves with status `Z_OK`
(with an allocator that succeeds the call returns `Z_BUF_ERROR`), but when the window
allocation fails the call returns `Z_MEM_ERROR`, not `Z_BUF_ERROR`. -/
theorem buf_error_lost_on_mem_error :
    (write no_tables no_alloc 10 short_room Z_FINISH).map Prod.fst = some Z_MEM_ERROR ∧
    (write no_tables zero_alloc 10 short_room Z_FINISH).map Prod.fst = some Z_BUF_ERROR := by
  decide

theorem entry_mode (s : inflate_stream) :
    (entry s).mode = s.mode ∨ (s.mode = .TYPE ∧ (entry s).mode = .TYPEDO) := by
  unfold entry
  split_ifs with h
  · exact Or.inr ⟨h, rfl⟩
  · exact Or.inl rfl

/-- C12 (amended): `write` returns `Z_OK` only if `flush` is not `Z_FINISH` and the call
consumed or produced a byte (`in - avail_in` or `out - avail_out`, as the code counts them,
is not 0); when the arguments are valid and the mode is not `MEM` or `SYNC`, the loop
leaves with a status `r1` that is `Z_OK`, `Z_STREAM_END` or `Z_DATA_ERROR`, and then
either the window allocation fails in this call and `write` returns `Z_MEM_ERROR`, or
`write` returns `Z_BUF_ERROR` if `r1` is `Z_OK` and nothing was consumed and nothing
produced or `flush` is `Z_FINISH`, and `r1` itself otherwise (so `Z_STREAM_END` and
`Z_DATA_ERROR` are never turned into `Z_BUF_ERROR`). -/
theorem buffer_error_rule (tb : table_builder) (alloc : allocator) (fuel : Nat)
    (s : inflate_stream) (flush : Int) (r : Int) (s2 : inflate_stream)
    (hw : write tb alloc fuel s flush = some (r, s2)) :
    (r = Z_OK → flush ≠ Z_FINISH ∧
      (usub s.avail_in s2.avail_in ≠ 0 ∨ usub s.avail_out s2.avail_out ≠ 0)) ∧
    (¬ (s.out_null = true ∨ (s.in_null = true ∧ s.avail_in ≠ 0)) → s.mode ≠ .MEM →
      s.mode ≠ .SYNC →
      ∃ s1 r1, passes tb flush s.avail_out (entry s) Z_OK (.leave s1 r1) ∧
        (r1 = Z_OK ∨ r1 = Z_STREAM_END ∨ r1 = Z_DATA_ERROR) ∧
        (((leave_update alloc flush s.avail_out s1).2 ≠ 0 ∧ r = Z_MEM_ERROR) ∨
         ((leave_update alloc flush s.avail_out s1).2 = 0 ∧
           r = if r1 = Z_OK ∧ ((usub s.avail_in s2.avail_in = 0 ∧
                  usub s.avail_out s2.avail_out = 0) ∨ flush = Z_FINISH)
               then Z_BUF_ERROR else r1))) := by
  have key : ∀ s1 r1, (r, s2) = inf_leave alloc flush s.avail_in s.avail_out s1 r1 →
      ((leave_update alloc flush s.avail_out s1).2 ≠ 0 ∧ r = Z_MEM_ERROR) ∨
      ((leave_update alloc flush s.avail_out s1).2 = 0 ∧
        r = if r1 = Z_OK ∧ ((usub s.avail_in s2.avail_in = 0 ∧
               usub s.avail_out s2.avail_out = 0) ∨ flush = Z_FINISH)
            then Z_BUF_ERROR else r1) := by
    intro s1 r1 c4
    have e1 : r = (inf_leave alloc flush s.avail_in s.avail_out s1 r1).1 := congrArg Prod.fst c4
    have e2 : s2 = (inf_leave alloc flush s.avail_in s.avail_out s1 r1).2 := congrArg Prod.snd c4
    obtain ⟨a1, a2, -⟩ := inf_leave_avail alloc flush s.avail_in s.avail_out s1 r1
    rw [← e2] at a1 a2
    have a3 : s2.avail_in = s1.avail_in := congrArg List.length a2
    by_cases h0 : (leave_update alloc flush s.avail_out s1).2 = 0
    · right
      refine ⟨h0, ?_⟩
      rw [e1, (inf_leave_ok alloc flush _ _ s1 r1 h0).1, a1, a3]
      unfold leave_ret
      refine if_congr ?_ rfl rfl
      tauto
    · left
      refine ⟨h0, ?_⟩
      rw [e1]
      unfold inf_leave
      dsimp only
      rw [if_pos h0]
  constructor
  · intro hr
    subst hr
    rcases write_result hw with ⟨-, h2, -⟩ | ⟨-, ⟨-, h2, -⟩ | ⟨-, h2, -⟩ |
      ⟨-, s1, r1, -, -, c3, c4⟩⟩
    · exact absurd h2 (by decide)
    · exact absurd h2 (by decide)
    · exact absurd h2 (by decide)
    · rcases key s1 r1 c4 with ⟨-, h⟩ | ⟨-, h⟩
      · exact absurd h (by decide)
      · split_ifs at h with hc
        · exact absurd h (by decide)
        · subst h
          constructor
          · intro hf; exact hc ⟨rfl, Or.inr hf⟩
          · by_contra hn
            push_neg at hn
            exact hc ⟨rfl, Or.inl hn⟩
  · intro hc hM hS
    rw [write_run hc] at hw
    obtain ⟨o, hp, hf⟩ := run_passes tb alloc flush _ _ fuel _ _ _ hw
    obtain ⟨p1, p2, -⟩ := passes_end hp (Or.inl rfl)
    have hnc := passes_not_cont hp
    have hem : (entry s).mode ≠ .MEM ∧ (entry s).mode ≠ .SYNC := by
      rcases entry_mode s with e | ⟨-, e⟩
      · rw [e]; exact ⟨hM, hS⟩
      · rw [e]; exact ⟨by decide, by decide⟩
    cases o with
    | cont s1 r1 => cases hnc
    | done s1 r1 =>
      exfalso
      rcases (p1 rfl).2 with h | h
      · exact hem.1 h
      · exact hem.2 h
    | leave s1 r1 =>
      refine ⟨s1, r1, hp, ?_, key s1 r1 hf⟩
      rcases p2 rfl with h | ⟨h, -⟩ | ⟨h, -⟩
      · exact Or.inl h
      · exact Or.inr (Or.inl h)
      · exact Or.inr (Or.inr h)

set_option maxRecDepth 100000 in
/-- Witness for `buffer_error_rule`: the first call of the two-piece session of "abcabc"
returns `Z_OK`; it was not called with `Z_FINISH` and consumed three bytes. -/
theorem buffer_error_rule_witness :
    Z_NO_FLUSH ≠ Z_FINISH ∧
    (usub 3 ((write no_tables zero_alloc 20
        ((fresh 15).present ⟨false, [75, 76, 74], false, [], 4⟩) Z_NO_FLUSH).getD
          (0, zero_stream)).2.avail_in ≠ 0 ∨
     usub 4 ((write no_tables zero_alloc 20
        ((fresh 15).present ⟨false, [75, 76, 74], false, [], 4⟩) Z_NO_FLUSH).getD
          (0, zero_stream)).2.avail_out ≠ 0) :=
  (buffer_error_rule no_tables zero_alloc 20
    ((fresh 15).present ⟨false, [75, 76, 74], false, [], 4⟩) Z_NO_FLUSH _ _
    (eq_some_getD (0, zero_stream) (by decide!))).1 (by decide!)

/-! ## Terminal modes (C11) -/

/-- A call of `updatewindow` with `copy = 0` on a window in use changes nothing. -/
theorem updatewindow_zero (alloc : allocator) (s : inflate_stream) (e : List Nat)
    (h : win_shape s) : updatewindow alloc s e 0 = (s, 0) := by
  obtain ⟨h1, ⟨w, hw, hl⟩, h3, h4, h5⟩ := h
  have hne : s.wsize ≠ 0 := by omega
  unfold updatewindow
  rw [hw]
  dsimp only
  rw [if_neg hne]
  dsimp only
  rw [if_neg (by omega : ¬ 0 ≥ s.wsize)]
  have hmin : min (s.wsize - s.wnext) 0 = 0 := Nat.min_zero _
  rw [hmin]
  rw [if_neg (by omega : ¬ (0 - 0 ≠ 0))]
  have hm : memcpy_at w s.wnext ((lastn 0 e).take 0) = w := by
    unfold memcpy_at
    simp
  rw [hm, if_neg (by omega : ¬ s.wnext + 0 = s.wsize)]
  have hh : (if s.whave < s.wsize then s.whave + 0 else s.whave) = s.whave := by
    split_ifs <;> rfl
  simp only [Nat.add_zero] at hh ⊢
  rw [hh, ← hw]

/-- The code at `inf_leave` after a call that wrote nothing, entered with a status other
than `Z_OK`: the window is left alone and the status is returned. -/
theorem leave_idle (alloc : allocator) (flush : Int) (s : inflate_stream) (ret : Int)
    (hw : win_shape s ∨ s.wsize = 0) (hr : ret ≠ Z_OK) :
    ∃ s1, inf_leave alloc flush s.avail_in s.avail_out s ret = (ret, s1) ∧
      s1.mode = s.mode ∧ s1.hold = s.hold ∧ s1.bits = s.bits ∧ s1.msg = s.msg ∧
      s1.wsize = s.wsize ∧ s1.whave = s.whave ∧ s1.wnext = s.wnext ∧
      s1.window = s.window ∧ s1.next_in = s.next_in ∧ s1.next_out = s.next_out ∧
      s1.avail_out = s.avail_out ∧ s1.total_in = s.total_in ∧ s1.total_out = s.total_out := by
  have hu : leave_update alloc flush s.avail_out s = (s, 0) := by
    unfold leave_update
    by_cases hf : leave_folds flush s.avail_out s
    · rw [if_pos hf, usub_self]
      rcases hw with hw | hw
      · exact updatewindow_zero alloc s _ hw
      · exfalso
        rcases hf with hf | hf
        · exact hf hw
        · exact hf.1 rfl
    · rw [if_neg hf]
  unfold inf_leave
  rw [hu]
  dsimp only
  rw [if_neg (by decide : ¬ (0 ≠ 0)), usub_self, usub_self]
  refine ⟨{ s with
      total_in := s.total_in + 0
      total_out := s.total_out + 0
      total := s.total + 0
      data_type := leave_data_type s }, ?_, rfl, rfl, rfl, rfl, rfl, rfl, rfl, rfl, rfl, rfl, rfl,
    rfl, rfl⟩
  congr 1
  unfold leave_ret
  rw [if_neg (fun h => hr h.2)]

/-- C11: in a stream that a sequence of calls of `write` since a reset has brought into the
mode `DONE`, `BAD` or `MEM`, every further call of `write` with valid buffer arguments,
whatever the flush value, returns `Z_STREAM_END`, `Z_DATA_ERROR` or `Z_MEM_ERROR`
respectively, consumes no input, writes no output, and leaves the mode, `hold`, `bits`,
`msg`, the window state and the totals as they were; so no call of `write` leaves these
modes. -/
theorem absorbing_states (tb : table_builder) (alloc : allocator) (fuel : Nat) (w : Nat)
    (t s0 : inflate_stream) (calls : List (buffers × Int)) (tr : List call_record)
    (b : buffers) (flush : Int) (k : Nat)
    (htb : wf_builder tb) (halloc : ∀ n x, alloc n = some x → x.length = n)
    (hwin : ∀ x, t.window = some x → x.length = 2 ^ t.wbits)
    (hreset : reset w t = some s0)
    (hs : session tb alloc fuel s0 calls = some tr)
    (hb : ∀ c ∈ calls, bytes c.1.next_in ∧ c.1.avail_out < 4294967296)
    (hv : b.out_null = false ∧ (b.in_null = true → b.next_in = []))
    (hm : (final_stream s0 tr).mode = .DONE ∨ (final_stream s0 tr).mode = .BAD ∨
      (final_stream s0 tr).mode = .MEM) :
    ∃ r s1, write tb alloc (k + 1) ((final_stream s0 tr).present b) flush = some (r, s1) ∧
      ((final_stream s0 tr).mode = .DONE → r = Z_STREAM_END) ∧
      ((final_stream s0 tr).mode = .BAD → r = Z_DATA_ERROR) ∧
      ((final_stream s0 tr).mode = .MEM → r = Z_MEM_ERROR) ∧
      s1.mode = (final_stream s0 tr).mode ∧ s1.hold = (final_stream s0 tr).hold ∧
      s1.bits = (final_stream s0 tr).bits ∧ s1.msg = (final_stream s0 tr).msg ∧
      s1.wsize = (final_stream s0 tr).wsize ∧ s1.whave = (final_stream s0 tr).whave ∧
      s1.wnext = (final_stream s0 tr).wnext ∧ s1.window = (final_stream s0 tr).window ∧
      s1.next_in = b.next_in ∧ s1.next_out = b.next_out ∧ s1.avail_out = b.avail_out ∧
      s1.total_in = (final_stream s0 tr).total_in ∧
      s1.total_out = (final_stream s0 tr).total_out := by
  have hr := session_ready htb halloc fuel calls s0 [] tr hs (reset_ready hreset hwin) hb
  have hwk : win_ok (final_stream s0 tr) ([] ++ history tr) :=
    (hr.1 ⟨false, [], false, [], 0⟩ (by intro x hx; cases hx)).win
  have hws : win_shape ((final_stream s0 tr).present b) ∨
      ((final_stream s0 tr).present b).wsize = 0 := by
    rcases hwk with ⟨a, -, -⟩ | ⟨a, -, -⟩
    · exact Or.inl a
    · exact Or.inr a
  have hc : ¬ (((final_stream s0 tr).present b).out_null = true ∨
      (((final_stream s0 tr).present b).in_null = true ∧
        ((final_stream s0 tr).present b).avail_in ≠ 0)) := by
    rintro (h | ⟨h1, h2⟩)
    · have : b.out_null = true := h
      rw [hv.1] at this; cases this
    · have h3 : b.in_null = true := h1
      have h4 : b.next_in.length ≠ 0 := h2
      rw [hv.2 h3] at h4
      exact h4 rfl
  have hfin : final_mode ((final_stream s0 tr).present b).mode = true := by
    show final_mode (final_stream s0 tr).mode = true
    rcases hm with h | h | h <;> rw [h] <;> rfl
  rw [write_run hc, (entry_out _).2.2.2.2 hfin]
  rcases hm with h | h | h
  · obtain ⟨s1, e, f⟩ := leave_idle alloc flush ((final_stream s0 tr).present b) Z_STREAM_END
      hws (by decide)
    refine ⟨Z_STREAM_END, s1, ?_, fun _ => rfl, fun h2 => ?_, fun h2 => ?_, f⟩
    · unfold run step
      rw [show ((final_stream s0 tr).present b).mode = .DONE from h]
      exact congrArg some e
    · rw [h] at h2; cases h2
    · rw [h] at h2; cases h2
  · obtain ⟨s1, e, f⟩ := leave_idle alloc flush ((final_stream s0 tr).present b) Z_DATA_ERROR
      hws (by decide)
    refine ⟨Z_DATA_ERROR, s1, ?_, fun h2 => ?_, fun _ => rfl, fun h2 => ?_, f⟩
    · unfold run step
      rw [show ((final_stream s0 tr).present b).mode = .BAD from h]
      exact congrArg some e
    · rw [h] at h2; cases h2
    · rw [h] at h2; cases h2
  · refine ⟨Z_MEM_ERROR, (final_stream s0 tr).present b, run_MEM tb alloc flush _ _ k _ _ h,
      fun h2 => ?_, fun h2 => ?_, fun _ => rfl, rfl, rfl, rfl, rfl, rfl, rfl, rfl, rfl, rfl,
      rfl, rfl, rfl, rfl⟩
    · rw [h] at h2; cases h2
    · rw [h] at h2; cases h2

set_option maxRecDepth 100000 in
/-- Witness for `absorbing_states`: after the two calls that decode "abcabc" the mode is
`DONE`; a further call with two bytes of input and room for five returns `Z_STREAM_END`
and touches neither buffer. -/
theorem absorbing_states_witness :
    ∃ r s1, write no_tables zero_alloc 1 (used_stream.present ⟨false, [1, 2], false, [], 5⟩)
        Z_NO_FLUSH = some (r, s1) ∧
      r = Z_STREAM_END ∧ s1.mode = .DONE ∧ s1.next_in = [1, 2] ∧ s1.next_out = [] ∧
      s1.avail_out = 5 := by
  have hd : used_stream.mode = .DONE := by rfl
  obtain ⟨r, s1, h1, h2, -, -, h5, -, -, -, -, -, -, -, h13, h14, h15, -⟩ :=
    absorbing_states no_tables zero_alloc 20 15 zero_stream (fresh 15) two_calls
      ((session no_tables zero_alloc 20 (fresh 15) two_calls).getD [])
      ⟨false, [1, 2], false, [], 5⟩ Z_NO_FLUSH 0 wf_no_tables
      (by intro n x h; cases h; simp)
      (by intro x h; cases h) rfl (eq_some_getD _ (by decide!)) (by decide!)
      ⟨rfl, by intro h; cases h⟩ (Or.inl hd)
  exact ⟨r, s1, h1, h2 hd, h5.trans hd, h13, h14, h15⟩

/-! ## updatewindow and the state of the window (C19, C20) -/

theorem rotate_read (w : List Nat) {k n : Nat} (hl : w.length = n) (hk : k < n) :
    (List.range n).map (fun i => w.getD ((k + i) % n) 0) = w.drop k ++ w.take k := by
  apply List.ext_getElem
  · simp only [List.length_map, List.length_range, List.length_append, List.length_drop,
      List.length_take]
    omega
  · intro i h1 h2
    simp only [List.length_map, List.length_range] at h1
    rw [List.getElem_map, List.getElem_range]
    by_cases hi : i < n - k
    · rw [List.getElem_append_left (by rw [List.length_drop]; omega), List.getElem_drop,
        Nat.mod_eq_of_lt (by omega), List.getD_eq_getElem _ _ (by omega)]
    · rw [List.getElem_append_right (by rw [List.length_drop]; omega), List.getElem_take]
      have e : (k + i) % n = i - (w.drop k).length := by
        rw [List.length_drop, hl]
        have : k + i = (i - (n - k)) + n := by omega
        rw [this, Nat.add_mod_right, Nat.mod_eq_of_lt (by omega)]
      rw [e]
      exact List.getD_eq_getElem _ _ _

/-- On a window in use the reading of the specification is the window oldest byte
first. -/
theorem read_eq_win {s : inflate_stream} (h : win_shape s) : window_read s = s.win := by
  obtain ⟨h1, ⟨w, hw, hl⟩, h3, h4, h5⟩ := h
  unfold window_read inflate_stream.win
  rw [hw]
  simp only [Option.getD_some]
  by_cases hf : s.whave < s.wsize
  · rw [h5 hf, lin_short hl (le_of_lt hf)]
    have := drop_take_map w 0 s.whave (by omega)
    rw [List.drop_zero] at this
    rw [this]
    apply List.map_congr_left
    intro i hi
    rw [List.mem_range] at hi
    have e : s.whave + s.wsize - s.whave + i = s.wsize + i := by omega
    rw [e, Nat.add_mod_left, Nat.mod_eq_of_lt (by omega), Nat.zero_add]
  · have he : s.whave = s.wsize := by omega
    rw [he, lin_full hl (le_of_lt h3), ← rotate_read w hl h3]
    apply List.map_congr_left
    intro i _
    have e : s.wnext + s.wsize - s.wsize + i = s.wnext + i := by omega
    rw [e]

theorem updatewindow_wsize (alloc : allocator) (s : inflate_stream) (e : List Nat) (c : Nat)
    (h : (updatewindow alloc s e c).2 = 0) : (updatewindow alloc s e c).1.wsize ≠ 0 := by
  have hp : (2 : Nat) ^ s.wbits ≠ 0 := by positivity
  unfold updatewindow at h ⊢
  split
  · rename_i heq
    rw [heq] at h
    cases h
  · dsimp only
    split_ifs <;> first | exact hp | assumption

/-- Where `updatewindow` leaves the write cursor. -/
theorem updatewindow_cursor (alloc : allocator) (s : inflate_stream) (E W : List Nat)
    (h : win_shape s) :
    (s.wsize ≤ W.length → (updatewindow alloc s (E ++ W) W.length).1.wnext = 0 ∧
      (updatewindow alloc s (E ++ W) W.length).1.window = some (lastn s.wsize (E ++ W))) ∧
    (W.length < s.wsize →
      (updatewindow alloc s (E ++ W) W.length).1.wnext = (s.wnext + W.length) % s.wsize) := by
  obtain ⟨h1, ⟨w, hw, hl⟩, h3, h4, h5⟩ := h
  have hne : s.wsize ≠ 0 := by omega
  unfold updatewindow
  rw [hw]
  dsimp only
  rw [if_neg hne]
  dsimp only
  by_cases hA : W.length ≥ s.wsize
  · rw [if_pos hA]
    refine ⟨fun _ => ⟨rfl, ?_⟩, fun hc => by omega⟩
    show some (memcpy_at w 0 (lastn s.wsize (E ++ W))) = _
    rw [memcpy_at_zero_all _ _ (by
      rw [lastn_length (by rw [List.length_append]; omega)]; omega)]
  · rw [if_neg hA]
    refine ⟨fun hc => by omega, fun _ => ?_⟩
    by_cases hC : W.length - min (s.wsize - s.wnext) W.length ≠ 0
    · rw [if_pos hC]
      show W.length - min (s.wsize - s.wnext) W.length = (s.wnext + W.length) % s.wsize
      have hd : min (s.wsize - s.wnext) W.length = s.wsize - s.wnext := by omega
      rw [hd]
      have : s.wnext + W.length = (W.length - (s.wsize - s.wnext)) + s.wsize := by omega
      rw [this, Nat.add_mod_right, Nat.mod_eq_of_lt (by omega)]
    · rw [if_neg hC]
      have hd : min (s.wsize - s.wnext) W.length = W.length := by omega
      show (if s.wnext + min (s.wsize - s.wnext) W.length = s.wsize then 0
        else s.wnext + min (s.wsize - s.wnext) W.length) = (s.wnext + W.length) % s.wsize
      rw [hd]
      split_ifs with hq
      · rw [hq, Nat.mod_self]
      · rw [Nat.mod_eq_of_lt (by omega)]

/-- What a successful call of `updatewindow` does to a window that satisfies the
invariant, in use or not yet. -/
theorem updatewindow_general (alloc : allocator)
    (halloc : ∀ n x, alloc n = some x → x.length = n) (s : inflate_stream) (E W : List Nat)
    (hs : win_shape s ∨ window_unused s)
    (hok : (updatewindow alloc s (E ++ W) W.length).2 = 0) :
    win_shape (updatewindow alloc s (E ++ W) W.length).1 ∧
    (updatewindow alloc s (E ++ W) W.length).1.wbits = s.wbits ∧
    (updatewindow alloc s (E ++ W) W.length).1.wsize = 2 ^ s.wbits ∧
    (updatewindow alloc s (E ++ W) W.length).1.whave =
      min (2 ^ s.wbits) (s.whave + W.length) ∧
    window_read (updatewindow alloc s (E ++ W) W.length).1 =
      lastn (min (2 ^ s.wbits) (s.whave + W.length)) (window_read s ++ W) ∧
    (2 ^ s.wbits ≤ W.length → (updatewindow alloc s (E ++ W) W.length).1.wnext = 0 ∧
      (updatewindow alloc s (E ++ W) W.length).1.window =
        some (lastn (2 ^ s.wbits) (E ++ W))) ∧
    (W.length < 2 ^ s.wbits →
      (updatewindow alloc s (E ++ W) W.length).1.wnext =
        (s.wnext + W.length) % 2 ^ s.wbits) := by
  have key : ∀ t : inflate_stream, win_shape t →
      win_shape (updatewindow alloc t (E ++ W) W.length).1 ∧
      (updatewindow alloc t (E ++ W) W.length).1.wbits = t.wbits ∧
      (updatewindow alloc t (E ++ W) W.length).1.wsize = 2 ^ t.wbits ∧
      (updatewindow alloc t (E ++ W) W.length).1.whave =
        min (2 ^ t.wbits) (t.whave + W.length) ∧
      window_read (updatewindow alloc t (E ++ W) W.length).1 =
        lastn (min (2 ^ t.wbits) (t.whave + W.length)) (window_read t ++ W) ∧
      (2 ^ t.wbits ≤ W.length → (updatewindow alloc t (E ++ W) W.length).1.wnext = 0 ∧
        (updatewindow alloc t (E ++ W) W.length).1.window =
          some (lastn (2 ^ t.wbits) (E ++ W))) ∧
      (W.length < 2 ^ t.wbits →
        (updatewindow alloc t (E ++ W) W.length).1.wnext =
          (t.wnext + W.length) % 2 ^ t.wbits) := by
    intro t ht
    obtain ⟨-, p2, p3, p4, p5⟩ := updatewindow_spec alloc t E W ht
    obtain ⟨c1, c2⟩ := updatewindow_cursor alloc t E W ht
    have hw : t.wsize = 2 ^ t.wbits := ht.1
    rw [hw] at c1 c2 p4
    have hwh : (updatewindow alloc t (E ++ W) W.length).1.whave =
        min (2 ^ t.wbits) (t.whave + W.length) := by rw [p4, Nat.min_comm]
    refine ⟨p2, p5, by rw [p2.1, p5], hwh, ?_, c1, c2⟩
    rw [read_eq_win p2, p3, hwh, read_eq_win ht]
  rcases hs with hs | ⟨u1, u2, u3, u4⟩
  · exact key s hs
  · have hex : ∃ w, (s.window = some w ∨ (s.window = none ∧ alloc (2 ^ s.wbits) = some w)) ∧
        w.length = 2 ^ s.wbits := by
      rcases hwd : s.window with _ | w
      · rcases ha : alloc (2 ^ s.wbits) with _ | w
        · exact absurd hok ((updatewindow_fail_iff alloc s _ _).mpr ⟨hwd, ha⟩)
        · exact ⟨w, Or.inr ⟨rfl, rfl⟩, halloc _ _ ha⟩
      · exact ⟨w, Or.inl rfl, u4 w hwd⟩
    obtain ⟨w, hw, hl⟩ := hex
    rw [updatewindow_init alloc s E W w u1 hw hl]
    have hp : (0 : Nat) < 2 ^ s.wbits := by positivity
    have hi : win_shape { s with window := some w, wsize := 2 ^ s.wbits, wnext := 0,
                                 whave := 0 } :=
      ⟨rfl, ⟨w, rfl, hl⟩, hp, Nat.zero_le _, fun _ => rfl⟩
    have := key _ hi
    have er : window_read s = [] := by unfold window_read; rw [u2]; rfl
    have er2 : window_read { s with window := some w, wsize := 2 ^ s.wbits, wnext := 0,
                                    whave := 0 } = [] := rfl
    rw [er, u2, u3]
    rw [er2] at this
    exact this

/-- C19: on a window that satisfies the window invariant (in use, or not used yet with
`wsize = whave = wnext = 0`), a successful call `updatewindow(end, copy)`, `W` being the
`copy` bytes that end at `end`, leaves a window in use of `2^wbits` bytes whose reading
oldest first (`whave` bytes from index `(wnext - whave) mod wsize`) is the last
`min(wsize, whave_before + copy)` bytes of the old reading followed by `W`; with
`copy >= wsize` it sets `wnext = 0`, `whave = wsize` and the window to the last `wsize`
bytes before `end`; with `copy < wsize` the bytes go to `window[wnext ..]` and wrap to
`window[0 ..]`, so that `wnext` advances by `copy` modulo `wsize`; and `copy = 0` on a
window in use changes nothing. -/
theorem updatewindow_appends (alloc : allocator)
    (halloc : ∀ n x, alloc n = some x → x.length = n) (s : inflate_stream) (E W : List Nat)
    (hs : win_shape s ∨ window_unused s)
    (hok : (updatewindow alloc s (E ++ W) W.length).2 = 0) :
    win_shape (updatewindow alloc s (E ++ W) W.length).1 ∧
    (updatewindow alloc s (E ++ W) W.length).1.wbits = s.wbits ∧
    (updatewindow alloc s (E ++ W) W.length).1.wsize = 2 ^ s.wbits ∧
    (updatewindow alloc s (E ++ W) W.length).1.whave =
      min (2 ^ s.wbits) (s.whave + W.length) ∧
    window_read (updatewindow alloc s (E ++ W) W.length).1 =
      lastn (min (2 ^ s.wbits) (s.whave + W.length)) (window_read s ++ W) ∧
    (2 ^ s.wbits ≤ W.length → (updatewindow alloc s (E ++ W) W.length).1.wnext = 0 ∧
      (updatewindow alloc s (E ++ W) W.length).1.window =
        some (lastn (2 ^ s.wbits) (E ++ W))) ∧
    (W.length < 2 ^ s.wbits →
      (updatewindow alloc s (E ++ W) W.length).1.wnext =
        (s.wnext + W.length) % 2 ^ s.wbits) ∧
    (win_shape s → ∀ e, updatewindow alloc s e 0 = (s, 0)) := by
  obtain ⟨a1, a2, a3, a4, a5, a6, a7⟩ := updatewindow_general alloc halloc s E W hs hok
  exact ⟨a1, a2, a3, a4, a5, a6, a7, fun h e => updatewindow_zero alloc s e h⟩

/-- Witness for `updatewindow_appends`: the first three bytes in the window of a fresh
inflater. -/
theorem updatewindow_appends_witness :
    (updatewindow zero_alloc (fresh 15) [1, 2, 3] 3).1.whave = 3 ∧
    window_read (updatewindow zero_alloc (fresh 15) [1, 2, 3] 3).1 = [1, 2, 3] ∧
    (updatewindow zero_alloc (fresh 15) [1, 2, 3] 3).1.wnext = 3 := by
  obtain ⟨-, -, -, a4, a5, -, a7, -⟩ := updatewindow_appends zero_alloc
    (by intro n x h; cases h; simp) (fresh 15) [] [1, 2, 3]
    (Or.inr ⟨rfl, rfl, rfl, by intro w h; cases h⟩)
    (updatewindow_ok zero_alloc (fresh 15) _ _ (Or.inr rfl))
  exact ⟨a4, a5, a7 (by decide)⟩

theorem inf_leave_window (alloc : allocator) (flush : Int) (in_ out : Nat)
    (s : inflate_stream) (ret : Int) :
    (inf_leave alloc flush in_ out s ret).2.wsize = (leave_update alloc flush out s).1.wsize ∧
    (inf_leave alloc flush in_ out s ret).2.wnext = (leave_update alloc flush out s).1.wnext := by
  unfold inf_leave
  dsimp only
  split_ifs
  · exact ⟨rfl, rfl⟩
  · exact ⟨rfl, rfl⟩

/-- A call of `write` keeps `wnext` at 0 as long as the window is not in use. -/
theorem write_wnext {tb : table_builder} {alloc : allocator} {fuel : Nat}
    {s : inflate_stream} {flush : Int} {r : Int} {s2 : inflate_stream}
    (hw : write tb alloc fuel s flush = some (r, s2)) (h : s.wsize = 0 → s.wnext = 0) :
    s2.wsize = 0 → s2.wnext = 0 := by
  rcases write_result hw with ⟨-, -, e⟩ | ⟨-, ⟨-, -, e⟩ | ⟨-, -, e⟩ | ⟨-, s1, r1, c1, -, -, c4⟩⟩
  · rw [e]; exact h
  · rw [e]; exact h
  · rw [e]; exact h
  · have e2 : s2 = (inf_leave alloc flush s.avail_in s.avail_out s1 r1).2 := congrArg Prod.snd c4
    obtain ⟨w1, w2⟩ := inf_leave_window alloc flush s.avail_in s.avail_out s1 r1
    rw [e2, w1, w2]
    have f3 : s1.wsize = s.wsize := congrArg fixed_part.wsize c1
    have f5 : s1.wnext = s.wnext := congrArg fixed_part.wnext c1
    unfold leave_update
    by_cases hf : leave_folds flush s.avail_out s1
    · rw [if_pos hf]
      by_cases h0 : (updatewindow alloc s1 s1.next_out (usub s.avail_out s1.avail_out)).2 = 0
      · intro hz
        exact absurd hz (updatewindow_wsize alloc s1 _ _ h0)
      · rw [(updatewindow_fail alloc s1 _ _ h0).1, f3, f5]
        exact h
    · rw [if_neg hf, f3, f5]
      exact h

theorem session_wnext (tb : table_builder) (alloc : allocator) (fuel : Nat) :
    ∀ (calls : List (buffers × Int)) (s : inflate_stream) (tr : List call_record),
      session tb alloc fuel s calls = some tr → (s.wsize = 0 → s.wnext = 0) →
      (final_stream s tr).wsize = 0 → (final_stream s tr).wnext = 0 := by
  intro calls
  induction calls with
  | nil =>
    intro s tr h hs
    simp only [session, Option.some.injEq] at h
    subst h
    exact hs
  | cons bf rest ih =>
    intro s tr h hs
    obtain ⟨b, flush⟩ := bf
    unfold session at h
    rcases hw : write tb alloc fuel (s.present b) flush with _ | ⟨r, s1⟩
    · rw [hw] at h; cases h
    · rw [hw] at h
      dsimp only at h
      rcases hss : session tb alloc fuel s1 rest with _ | tr1
      · rw [hss] at h; cases h
      · rw [hss] at h
        injection h with h
        subst h
        exact ih s1 tr1 hss (write_wnext hw hs)

/-- C20: (1) a successful call of `updatewindow` on a window that is in use with the
invariant (`wsize = 2^wbits`, the buffer has `wsize` bytes, `wnext < wsize`,
`whave <= wsize`, and `wnext = whave` while `whave < wsize`) or not used yet leaves a
window in use with the invariant; (2) after every sequence of calls of `write` since a
reset, if the window is in use then `wsize = 2^wbits`, `whave <= wsize`, `wnext < wsize`,
and while `whave < wsize` the window has not wrapped: `whave = wnext` and `window[0 ..
whave)` are the bytes written since the reset; (3) before its first use
`wsize = whave = wnext = 0`. -/
theorem window_state_invariant (tb : table_builder) (alloc : allocator) (fuel : Nat)
    (w : Nat) (t s0 : inflate_stream) (calls : List (buffers × Int)) (tr : List call_record)
    (htb : wf_builder tb) (halloc : ∀ n x, alloc n = some x → x.length = n)
    (hwin : ∀ x, t.window = some x → x.length = 2 ^ t.wbits)
    (hreset : reset w t = some s0)
    (hs : session tb alloc fuel s0 calls = some tr)
    (hb : ∀ c ∈ calls, bytes c.1.next_in ∧ c.1.avail_out < 4294967296) :
    (∀ (s : inflate_stream) (E W : List Nat), win_shape s ∨ window_unused s →
      (updatewindow alloc s (E ++ W) W.length).2 = 0 →
      win_shape (updatewindow alloc s (E ++ W) W.length).1) ∧
    ((final_stream s0 tr).wsize ≠ 0 →
      (final_stream s0 tr).wsize = 2 ^ (final_stream s0 tr).wbits ∧
      (final_stream s0 tr).whave ≤ (final_stream s0 tr).wsize ∧
      (final_stream s0 tr).wnext < (final_stream s0 tr).wsize ∧
      ((final_stream s0 tr).whave < (final_stream s0 tr).wsize →
        (final_stream s0 tr).whave = (final_stream s0 tr).wnext ∧
        ((final_stream s0 tr).window.getD []).take (final_stream s0 tr).whave =
          history tr)) ∧
    ((final_stream s0 tr).wsize = 0 →
      (final_stream s0 tr).whave = 0 ∧ (final_stream s0 tr).wnext = 0) := by
  have hr := session_ready htb halloc fuel calls s0 [] tr hs (reset_ready hreset hwin) hb
  rw [List.nil_append] at hr
  have hwk : win_ok (final_stream s0 tr) (history tr) :=
    (hr.1 ⟨false, [], false, [], 0⟩ (by intro x hx; cases hx)).win
  have hn := session_wnext tb alloc fuel calls s0 tr hs
    (fun _ => (reset_fields hreset).2.2.2.2.2.2.1)
  refine ⟨fun s E W h1 h2 => (updatewindow_general alloc halloc s E W h1 h2).1, ?_, ?_⟩
  · intro hne
    rcases hwk with ⟨a1, a2, a3⟩ | ⟨a1, -, -⟩
    · obtain ⟨b1, ⟨x, hx, hl⟩, b3, b4, b5⟩ := a1
      refine ⟨b1, b4, b3, fun hlt => ?_⟩
      have hq := b5 hlt
      refine ⟨hq.symm, ?_⟩
      have hH : (final_stream s0 tr).whave = (history tr).length := by omega
      unfold inflate_stream.win at a2
      rw [hx] at a2 ⊢
      simp only [Option.getD_some] at a2 ⊢
      rw [hq, lin_short hl (le_of_lt hlt), hH, lastn_all (le_refl _)] at a2
      rw [hH]
      exact a2
    · exact absurd a1 hne
  · intro h0
    refine ⟨?_, hn h0⟩
    rcases hwk with ⟨a1, -, -⟩ | ⟨-, a2, -⟩
    · obtain ⟨b1, -, b3, -⟩ := a1
      rw [h0] at b3
      exact absurd b3 (Nat.not_lt_zero _)
    · exact a2

set_option maxRecDepth 100000 in
/-- Witness for `window_state_invariant`: after the two calls that decode "abcabc" the
window is in use, has not wrapped, and its first six bytes are the output. -/
theorem window_state_invariant_witness :
    used_stream.whave = used_stream.wnext ∧
    (used_stream.window.getD []).take used_stream.whave = [97, 98, 99, 97, 98, 99] := by
  have h := (window_state_invariant no_tables zero_alloc 20 15 zero_stream (fresh 15)
    two_calls ((session no_tables zero_alloc 20 (fresh 15) two_calls).getD []) wf_no_tables
    (by intro n x h; cases h; simp) (by intro x h; cases h) rfl
    (eq_some_getD _ (by decide!)) (by decide!)).2.1 (by decide!)
  have e3 : history ((session no_tables zero_alloc 20 (fresh 15) two_calls).getD []) =
      [97, 98, 99, 97, 98, 99] := by decide!
  have h4 := h.2.2.2 (by decide!)
  rw [e3] at h4
  exact h4

/-! ## Suspension between blocks (C14) -/

theorem updatewindow_regs (alloc : allocator) (s : inflate_stream) (e : List Nat) (c : Nat) :
    (updatewindow alloc s e c).1.hold = s.hold ∧ (updatewindow alloc s e c).1.bits = s.bits ∧
    (updatewindow alloc s e c).1.last = s.last ∧
    (updatewindow alloc s e c).1.length = s.length := by
  unfold updatewindow
  split
  · exact ⟨rfl, rfl, rfl, rfl⟩
  · dsimp only
    split_ifs <;> exact ⟨rfl, rfl, rfl, rfl⟩

theorem leave_update_regs (alloc : allocator) (flush : Int) (out : Nat) (s : inflate_stream) :
    (leave_update alloc flush out s).1.hold = s.hold ∧
    (leave_update alloc flush out s).1.bits = s.bits ∧
    (leave_update alloc flush out s).1.last = s.last ∧
    (leave_update alloc flush out s).1.length = s.length := by
  unfold leave_update
  split_ifs
  · exact updatewindow_regs alloc s _ _
  · exact ⟨rfl, rfl, rfl, rfl⟩

/-- The registers after the code at `inf_leave`, when the window allocation did not
fail. -/
theorem inf_leave_regs (alloc : allocator) (flush : Int) (in_ out : Nat) (s : inflate_stream)
    (ret : Int) (h : (leave_update alloc flush out s).2 = 0) :
    (inf_leave alloc flush in_ out s ret).2.mode = s.mode ∧
    (inf_leave alloc flush in_ out s ret).2.hold = s.hold ∧
    (inf_leave alloc flush in_ out s ret).2.bits = s.bits ∧
    (inf_leave alloc flush in_ out s ret).2.last = s.last ∧
    (inf_leave alloc flush in_ out s ret).2.length = s.length ∧
    (inf_leave alloc flush in_ out s ret).2.next_in = s.next_in ∧
    (inf_leave alloc flush in_ out s ret).2.next_out = s.next_out ∧
    (inf_leave alloc flush in_ out s ret).2.avail_out = s.avail_out ∧
    (inf_leave alloc flush in_ out s ret).2.data_type = leave_data_type s := by
  obtain ⟨a1, a2, a3, a4⟩ := leave_update_regs alloc flush out s
  obtain ⟨b1, b2, b3, -, -, -, b7, -⟩ := leave_update_frame alloc flush out s
  unfold inf_leave
  dsimp only
  rw [if_neg (not_not.mpr h)]
  refine ⟨b7, a1, a2, a3, a4, b1, b3, b2, ?_⟩
  show leave_data_type (leave_update alloc flush out s).1 = leave_data_type s
  unfold leave_data_type
  rw [a2, a3, b7]

/-- With `Z_BLOCK` or `Z_TREES` the loop of `write` ends in the pass that starts in the
mode `TYPE`, by `goto inf_leave`, with the state as it is. -/
theorem passes_TYPE {tb : table_builder} {flush : Int} {out : Nat} {v : inflate_stream}
    {r1 : Int} {o : outcome} (hp : passes tb flush out v r1 o) (hm : v.mode = .TYPE)
    (hf : flush = Z_BLOCK ∨ flush = Z_TREES) : o = .leave v r1 := by
  have hstep : ∀ fuel, step tb fuel flush out v r1 = some (.leave v r1) := by
    intro fuel
    unfold step
    rw [hm]
    dsimp only
    unfold case_TYPE
    rw [if_pos hf]
  cases hp with
  | last hs _ =>
    rw [hstep] at hs
    exact (Option.some.inj hs).symm
  | next hs _ =>
    rw [hstep] at hs
    cases hs

theorem im_MATCH (out : Nat) (m : inflate_stream) (ret : Int)
    (h : inner_mode m.mode = true) : inner_mode (case_MATCH out m ret).st.mode = true := by
  rcases MATCH_mode out m ret with e | e | e <;> rw [e] <;> first | exact h | rfl

theorem im_DISTEXT (out : Nat) (s : inflate_stream) (ret : Int)
    (h : inner_mode s.mode = true) : inner_mode (case_DISTEXT out s ret).st.mode = true := by
  unfold case_DISTEXT
  dsimp only
  split_ifs
  · exact h
  · exact im_MATCH _ _ _ rfl
  · exact im_MATCH _ _ _ rfl

theorem im_dist_go (out : Nat) (s : inflate_stream) (here : code) (ret : Int) :
    inner_mode (dist_go out s here ret).st.mode = true := by
  unfold dist_go
  dsimp only
  split_ifs
  · rfl
  · exact im_DISTEXT _ _ _ rfl

theorem im_DIST (out : Nat) (s : inflate_stream) (ret : Int)
    (h : inner_mode s.mode = true) : inner_mode (case_DIST out s ret).st.mode = true := by
  unfold case_DIST
  dsimp only
  split_ifs
  · exact h
  · exact h
  · exact im_dist_go _ _ _ _
  · exact im_dist_go _ _ _ _

theorem im_LENEXT (out : Nat) (s : inflate_stream) (ret : Int)
    (h : inner_mode s.mode = true) : inner_mode (case_LENEXT out s ret).st.mode = true := by
  unfold case_LENEXT
  dsimp only
  split_ifs
  · exact h
  · exact im_DIST _ _ _ rfl
  · exact im_DIST _ _ _ rfl

theorem im_len_go (out : Nat) (s : inflate_stream) (here : code) (ret : Int) :
    inner_mode (len_go out s here ret).st.mode = true := by
  unfold len_go
  dsimp only
  split_ifs
  · rfl
  · rfl
  · rfl
  · exact im_LENEXT _ _ _ rfl

theorem im_LEN_slow (out : Nat) (s : inflate_stream) (ret : Int)
    (h : inner_mode s.mode = true) : inner_mode (case_LEN_slow out s ret).st.mode = true := by
  unfold case_LEN_slow
  dsimp only
  split_ifs
  · exact h
  · exact h
  · exact im_len_go _ _ _ _
  · exact im_len_go _ _ _ _

theorem im_LEN {fuel out : Nat} {s : inflate_stream} {ret : Int} {o : outcome}
    (h : case_LEN fuel out s ret = some o) : inner_mode o.st.mode = true := by
  unfold case_LEN at h
  dsimp only at h
  split_ifs at h
  · split at h
    · cases h
    · rename_i s1 hf
      cases h
      obtain ⟨-, h2⟩ := fast_fixed hf
      have hm : inner_mode s1.mode = true := by
        rcases h2 with h2 | h2 | h2 <;> rw [h2] <;> rfl
      show inner_mode (if s1.mode = .TYPE then { s1 with back := -1 } else s1).mode = true
      split_ifs
      · exact hm
      · exact hm
  · cases h
    exact im_LEN_slow _ _ _ rfl

theorem im_COPY (s : inflate_stream) (ret : Int) :
    inner_mode (case_COPY s ret).st.mode = true := by
  unfold case_COPY
  dsimp only
  split_ifs <;> rfl

/-- With `Z_TREES` a pass that does not begin in a block header does not end in one, nor
in the modes `LEN_` and `COPY_`. -/
theorem step_inner {tb : table_builder} {fuel : Nat} {out : Nat} {v : inflate_stream}
    {ret : Int} {o : outcome} (hh : header_mode v.mode = false)
    (h : step tb fuel Z_TREES out v ret = some o) : inner_mode o.st.mode = true := by
  unfold step at h
  cases hm : v.mode <;> rw [hm] at h hh <;> dsimp only at h <;>
    first
    | exact absurd hh (by decide)
    | exact im_LEN h
    | (cases h
       first
       | exact im_COPY _ _
       | exact im_LENEXT _ _ _ (by rw [hm]; rfl)
       | exact im_DIST _ _ _ (by rw [hm]; rfl)
       | exact im_DISTEXT _ _ _ (by rw [hm]; rfl)
       | exact im_MATCH _ _ _ (by rw [hm]; rfl)
       | rfl
       | (show inner_mode v.mode = true; rw [hm]; rfl)
       | (unfold case_LIT; split_ifs
          · show inner_mode v.mode = true
            rw [hm]; rfl
          · rfl))

theorem hdr_CODELENS {tb : table_builder} {fuel out : Nat} {s : inflate_stream} {ret : Int}
    {o : outcome} (hm : s.mode = .CODELENS)
    (h : case_CODELENS tb fuel Z_TREES out s ret = some o) : hdr_ok tb s o := by
  obtain ⟨l1, l2⟩ := codelens_loop_out (s.nlen + s.ndist - s.have_) s
  obtain ⟨-, l3⟩ := codelens_loop_fixed (s.nlen + s.ndist - s.have_) s
  rw [hm] at l3
  unfold case_CODELENS at h
  split at h
  · rename_i s1 heq
    rw [heq] at l1 l2 l3
    cases h
    refine ⟨l1, l2, rfl, fun hc => (by cases hc), fun _ => ⟨?_, ?_⟩⟩
    · show s1.mode ≠ .COPY_
      rcases l3 with e | e <;> rw [show s1.mode = _ from e] <;> intro e3 <;> cases e3
    · intro e2
      exfalso
      have e2 : s1.mode = .LEN_ := e2
      rcases l3 with e | e <;> rw [show s1.mode = _ from e] at e2 <;> cases e2
  · rename_i s1 e hne heq
    rw [heq] at l1 l2 l3
    dsimp only at h
    split_ifs at h with c1 c2 c3 c4 c5
    · cases h
      exact ⟨l1, l2, rfl, fun _ => Or.inr (by show inner_mode s1.mode = true; rw [c1]; rfl),
        fun _ => ⟨(by show s1.mode ≠ .COPY_; rw [c1]; intro e3; cases e3),
          fun e2 => by have e2 : s1.mode = .LEN_ := e2; rw [c1] at e2; cases e2⟩⟩
    · cases h
      exact ⟨l1, l2, rfl, fun _ => Or.inr rfl, fun _ => ⟨fun e2 => (by cases e2), fun e2 => (by cases e2)⟩⟩
    · cases h
      exact ⟨l1, l2, rfl, fun _ => Or.inr rfl, fun _ => ⟨fun e2 => (by cases e2), fun e2 => (by cases e2)⟩⟩
    · cases h
      exact ⟨l1, l2, rfl, fun _ => Or.inr rfl, fun _ => ⟨fun e2 => (by cases e2), fun e2 => (by cases e2)⟩⟩
    · cases h
      refine ⟨l1, l2, rfl, fun hc => (by cases hc), fun _ => ⟨fun e2 => (by cases e2), fun _ => ?_⟩⟩
      exact ⟨c2, not_not.mp c3, not_not.mp c4, rfl, rfl, rfl, rfl⟩
    · exact absurd rfl c5

theorem hdr_ok_of {tb : table_builder} {v t : inflate_stream} {o : outcome}
    (h : hdr_ok tb t o) (e1 : t.next_out = v.next_out) (e2 : t.avail_out = v.avail_out)
    (hm : t.mode = .TABLE ∨ t.mode = .LENLENS ∨ t.mode = .CODELENS) : hdr_ok tb v o :=
  ⟨h.out.trans e1, h.avail.trans e2, h.nd, h.go, fun _ => h.dyn hm⟩

theorem hdr_LENLENS {tb : table_builder} {fuel out : Nat} {s : inflate_stream} {ret : Int}
    {o : outcome} (hm : s.mode = .LENLENS)
    (h : case_LENLENS tb fuel Z_TREES out s ret = some o) : hdr_ok tb s o := by
  obtain ⟨l1, l2⟩ := lenlens_read_out (s.ncode - s.have_) s
  obtain ⟨-, l3⟩ := lenlens_read_fixed (s.ncode - s.have_) s
  rw [hm] at l3
  unfold case_LENLENS at h
  split at h
  · rename_i s1 heq
    rw [heq] at l1 l2 l3
    cases h
    exact ⟨l1, l2, rfl, fun hc => (by cases hc),
      fun _ => ⟨(by show s1.mode ≠ .COPY_; rw [show s1.mode = _ from l3]; intro e3; cases e3),
        fun e2 => by have e2 : s1.mode = .LEN_ := e2; rw [show s1.mode = _ from l3] at e2
                     cases e2⟩⟩
  · rename_i s1 heq
    rw [heq] at l1 l2 l3
    obtain ⟨z1, z2⟩ := lenlens_zero_out (19 - s1.have_) s1
    dsimp only at h
    split_ifs at h with c1
    · cases h
      exact ⟨z1.trans l1, z2.trans l2, rfl, fun _ => Or.inr rfl,
        fun _ => ⟨fun e2 => (by cases e2), fun e2 => (by cases e2)⟩⟩
    · exact hdr_ok_of (hdr_CODELENS rfl h) (z1.trans l1) (z2.trans l2) (Or.inr (Or.inr rfl))

theorem hdr_TABLE {tb : table_builder} {fuel out : Nat} {s : inflate_stream} {ret : Int}
    {o : outcome} (hm : s.mode = .TABLE)
    (h : case_TABLE tb fuel Z_TREES out s ret = some o) : hdr_ok tb s o := by
  unfold case_TABLE at h
  dsimp only at h
  split_ifs at h with c1 c2
  · cases h
    exact ⟨rfl, rfl, rfl, fun hc => (by cases hc),
      fun _ => ⟨(by show s.mode ≠ .COPY_; rw [hm]; intro e3; cases e3),
        fun e2 => by have e2 : s.mode = .LEN_ := e2; rw [hm] at e2; cases e2⟩⟩
  · cases h
    exact ⟨rfl, rfl, rfl, fun _ => Or.inr rfl, fun _ => ⟨fun e2 => (by cases e2), fun e2 => (by cases e2)⟩⟩
  · exact hdr_ok_of (hdr_LENLENS rfl h) rfl rfl (Or.inr (Or.inl rfl))

theorem hdr_TYPEDO (tb : table_builder) (v : inflate_stream) (ret : Int)
    (hm : v.mode = .TYPEDO) : hdr_ok tb v (case_TYPEDO Z_TREES v ret) := by
  have hd : ∀ o : outcome, ¬ (v.mode = .TABLE ∨ v.mode = .LENLENS ∨ v.mode = .CODELENS) := by
    intro _ h
    rw [hm] at h
    rcases h with h | h | h <;> cases h
  unfold case_TYPEDO
  dsimp only
  by_cases c1 : v.last ≠ 0
  · rw [if_pos c1]
    exact ⟨rfl, rfl, rfl, fun _ => Or.inr rfl, fun h => absurd h (hd (.leave v ret))⟩
  rw [if_neg c1]
  by_cases c2 : (NEEDBITS 3 v).bits < 3
  · rw [if_pos c2]
    exact ⟨rfl, rfl, rfl, fun hc => (by cases hc), fun h => absurd h (hd (.leave v ret))⟩
  rw [if_neg c2]
  split
  · exact ⟨rfl, rfl, rfl, fun _ => Or.inl rfl, fun h => absurd h (hd (.leave v ret))⟩
  · rw [if_pos rfl]
    exact ⟨rfl, rfl, rfl, fun hc => (by cases hc), fun h => absurd h (hd (.leave v ret))⟩
  · exact ⟨rfl, rfl, rfl, fun _ => Or.inl rfl, fun h => absurd h (hd (.leave v ret))⟩
  · exact ⟨rfl, rfl, rfl, fun _ => Or.inr rfl, fun h => absurd h (hd (.leave v ret))⟩

theorem hdr_STORED (tb : table_builder) (v : inflate_stream) (ret : Int)
    (hm : v.mode = .STORED) : hdr_ok tb v (case_STORED Z_TREES v ret) := by
  have hd : ∀ o : outcome, ¬ (v.mode = .TABLE ∨ v.mode = .LENLENS ∨ v.mode = .CODELENS) := by
    intro _ h
    rw [hm] at h
    rcases h with h | h | h <;> cases h
  unfold case_STORED
  dsimp only
  split_ifs with c1 c2 c3
  · exact ⟨rfl, rfl, rfl, fun hc => (by cases hc), fun h => absurd h (hd (.leave v ret))⟩
  · exact ⟨rfl, rfl, rfl, fun _ => Or.inr rfl, fun h => absurd h (hd (.leave v ret))⟩
  · exact ⟨rfl, rfl, rfl, fun hc => (by cases hc), fun h => absurd h (hd (.leave v ret))⟩
  · exact absurd rfl c3

/-- With `Z_TREES` a pass that begins in a block header writes nothing and goes on only in
a header mode or to a mode outside the headers. -/
theorem step_header {tb : table_builder} {fuel : Nat} {out : Nat} {v : inflate_stream}
    {ret : Int} {o : outcome} (hh : header_mode v.mode = true)
    (h : step tb fuel Z_TREES out v ret = some o) : hdr_ok tb v o := by
  unfold step at h
  cases hm : v.mode <;> rw [hm] at h hh <;> dsimp only at h <;>
    first
    | exact absurd hh (by decide)
    | exact hdr_TABLE hm h
    | exact hdr_LENLENS hm h
    | exact hdr_CODELENS hm h
    | (cases h; exact hdr_TYPEDO tb v ret hm)
    | (cases h; exact hdr_STORED tb v ret hm)
    | (cases h
       exact ⟨rfl, rfl, rfl, fun _ => Or.inl rfl, fun hd => by
         rw [hm] at hd
         rcases hd with hd | hd | hd <;> cases hd⟩)

theorem im_header {m : Mode} (h : inner_mode m = true) : header_mode m = false := by
  cases m <;> first | rfl | cases h

/-- With `Z_TREES` the loop never comes back to a block header in the same call. -/
theorem visits_inner {tb : table_builder} {out : Nat} {s : inflate_stream} {ret : Int}
    {v : inflate_stream} (hv : visits tb Z_TREES out s ret v) :
    header_mode s.mode = false → header_mode v.mode = false := by
  induction hv with
  | here s ret => exact id
  | next hs _ ih => intro h; exact ih (im_header (step_inner h hs))

/-- With `Z_TREES` nothing was written when a pass begins in a block header. -/
theorem visits_header {tb : table_builder} {out : Nat} {s : inflate_stream} {ret : Int}
    {v : inflate_stream} (hv : visits tb Z_TREES out s ret v) :
    header_mode v.mode = true → v.next_out = s.next_out ∧ v.avail_out = s.avail_out := by
  induction hv with
  | here s ret => exact fun _ => ⟨rfl, rfl⟩
  | next hs hv ih =>
    intro h
    rename_i s0 r0 s1 r1 s2
    by_cases hh : header_mode s0.mode = true
    · have a := step_header hh hs
      obtain ⟨b1, b2⟩ := ih h
      exact ⟨b1.trans a.out, b2.trans a.avail⟩
    · have := visits_inner (visits.next hs hv) (by simpa using hh)
      rw [this] at h
      cases h

theorem visits_fixed {tb : table_builder} {flush : Int} {out : Nat} {s : inflate_stream}
    {ret : Int} {v : inflate_stream} (hv : visits tb flush out s ret v) : v.fixed = s.fixed := by
  induction hv with
  | here s ret => rfl
  | next hs _ ih => exact ih.trans (step_fixed hs)

theorem CODELENS_some (tb : table_builder) (out : Nat) (s : inflate_stream) (ret : Int) :
    ∃ o, case_CODELENS tb 0 Z_TREES out s ret = some o := by
  unfold case_CODELENS
  split
  · exact ⟨_, rfl⟩
  · dsimp only
    split_ifs with c1 c2 c3 c4 c5
    all_goals first | exact ⟨_, rfl⟩ | exact absurd rfl c5

theorem LENLENS_some (tb : table_builder) (out : Nat) (s : inflate_stream) (ret : Int) :
    ∃ o, case_LENLENS tb 0 Z_TREES out s ret = some o := by
  unfold case_LENLENS
  split
  · exact ⟨_, rfl⟩
  · dsimp only
    split_ifs
    · exact ⟨_, rfl⟩
    · exact CODELENS_some _ _ _ _

theorem TABLE_some (tb : table_builder) (out : Nat) (s : inflate_stream) (ret : Int) :
    ∃ o, case_TABLE tb 0 Z_TREES out s ret = some o := by
  unfold case_TABLE
  dsimp only
  split_ifs
  · exact ⟨_, rfl⟩
  · exact ⟨_, rfl⟩
  · exact LENLENS_some _ _ _ _

/-- With `Z_TREES` a pass that begins in a block header ends whatever the fuel. -/
theorem step_trees_total (tb : table_builder) (out : Nat) (v : inflate_stream) (ret : Int)
    (hh : header_mode v.mode = true) :
    ∃ o, ∀ f, step tb f Z_TREES out v ret = some o := by
  have h0 : ∃ o, step tb 0 Z_TREES out v ret = some o := by
    unfold step
    cases hm : v.mode <;> rw [hm] at hh <;> dsimp only <;>
      first
      | exact absurd hh (by decide)
      | exact TABLE_some _ _ _ _
      | exact LENLENS_some _ _ _ _
      | exact CODELENS_some _ _ _ _
      | exact ⟨_, rfl⟩
  obtain ⟨o, ho⟩ := h0
  refine ⟨o, fun f => ?_⟩
  have := step_fuel ho f
  rwa [Nat.zero_add] at this

/-- The passes up to a visited state take a number `k` of units of fuel; with enough fuel
the loop goes on from the visited state. -/
theorem visits_run (tb : table_builder) (alloc : allocator) (flush : Int) (in_ out : Nat)
    {s : inflate_stream} {ret : Int} {v : inflate_stream}
    (hv : visits tb flush out s ret v) :
    ∃ k n r1, ∀ m, n ≤ m →
      run tb alloc flush in_ out (m + k) s ret = run tb alloc flush in_ out m v r1 := by
  induction hv with
  | here s ret => exact ⟨0, 0, ret, fun m _ => rfl⟩
  | next hs hv ih =>
    rename_i fuel s0 r0 s1 r1 s2
    obtain ⟨k, n, r2, h⟩ := ih
    refine ⟨k + 1, max n fuel, r2, fun m hm => ?_⟩
    have l1 := le_max_left n fuel
    have l2 := le_max_right n fuel
    have h1 : step tb (m + k + 1) flush out s0 r0 = some (.cont s1 r1) := by
      have := step_fuel hs (m + k + 1 - fuel)
      rwa [show fuel + (m + k + 1 - fuel) = m + k + 1 by omega] at this
    rw [show m + (k + 1) = (m + k) + 1 from rfl, run_cont h1]
    exact h m (by omega)

theorem leave_update_quiet (alloc : allocator) (flush : Int) (s : inflate_stream)
    (hw : win_shape s ∨ s.wsize = 0) : leave_update alloc flush s.avail_out s = (s, 0) := by
  unfold leave_update
  by_cases hf : leave_folds flush s.avail_out s
  · rw [if_pos hf, usub_self]
    rcases hw with hw | hw
    · exact updatewindow_zero alloc s _ hw
    · exfalso
      rcases hf with hf | hf
      · exact hf hw
      · exact hf.1 rfl
  · rw [if_neg hf]

theorem win_fixed {s t : inflate_stream} (h : t.fixed = s.fixed)
    (hw : win_shape s ∨ s.wsize = 0) : win_shape t ∨ t.wsize = 0 := by
  have e1 : t.wsize = s.wsize := congrArg fixed_part.wsize h
  have e2 : t.wbits = s.wbits := congrArg fixed_part.wbits h
  have e3 : t.whave = s.whave := congrArg fixed_part.whave h
  have e4 : t.wnext = s.wnext := congrArg fixed_part.wnext h
  have e5 : t.window = s.window := congrArg fixed_part.window h
  unfold win_shape
  rw [e1, e2, e3, e4, e5]
  exact hw

theorem entry_frame (s : inflate_stream) :
    (entry s).fixed = s.fixed ∧ (entry s).next_out = s.next_out ∧
    (entry s).avail_out = s.avail_out := by
  unfold entry
  split_ifs <;> exact ⟨rfl, rfl, rfl⟩

/-- The header of a fixed-Huffman block with `Z_TREES`: the three header bits are dropped,
the fixed tables are installed and the pass leaves in the mode `LEN_`. -/
theorem fixed_header (v : inflate_stream) (ret : Int) (hl : v.last = 0)
    (h3 : 3 ≤ (NEEDBITS 3 v).bits) (ht : (NEEDBITS 3 v).hold / 2 % 4 = 1) :
    ∃ t, case_TYPEDO Z_TREES v ret = .leave t ret ∧ t.mode = .LEN_ ∧
      dropped (NEEDBITS 3 v) t 3 ∧ t.last = (NEEDBITS 3 v).hold % 2 ∧
      t.lencode = .lenfix ∧ t.lenbits = 9 ∧ t.distcode = .distfix ∧ t.distbits = 5 := by
  refine ⟨DROPBITS 2 { fixedTables (DROPBITS 1 { NEEDBITS 3 v with
      last := BITS 1 (NEEDBITS 3 v) }) with mode := .LEN_ }, ?_, rfl, ⟨h3, ?_, ?_, rfl⟩, rfl,
    rfl, rfl, rfl, rfl⟩
  · unfold case_TYPEDO
    dsimp only
    rw [if_neg (by simp [hl]), if_neg (by omega)]
    have hb : BITS 2 (DROPBITS 1 { NEEDBITS 3 v with last := BITS 1 (NEEDBITS 3 v) }) = 1 := by
      show (NEEDBITS 3 v).hold / 2 ^ 1 % 2 ^ 2 = 1
      simpa using ht
    rw [hb]
    dsimp only
    rw [if_pos rfl]
  · show (NEEDBITS 3 v).hold / 2 ^ 1 / 2 ^ 2 = (NEEDBITS 3 v).hold / 2 ^ 3
    rw [Nat.div_div_eq_div_mul]
    norm_num
  · show (NEEDBITS 3 v).bits - 1 - 2 = (NEEDBITS 3 v).bits - 3
    omega

/-- The header of a stored block with `Z_TREES`: after a valid length field the pass
leaves in the mode `COPY_` with `length = LEN` and an empty accumulator. -/
theorem stored_header_trees (v : inflate_stream) (ret : Int)
    (h32 : 32 ≤ (NEEDBITS 32 (BYTEBITS v)).bits)
    (hx : (NEEDBITS 32 (BYTEBITS v)).hold % 65536 =
      ((NEEDBITS 32 (BYTEBITS v)).hold / 65536) ^^^ 65535) :
    ∃ t, case_STORED Z_TREES v ret = .leave t ret ∧ t.mode = .COPY_ ∧
      t.length = (NEEDBITS 32 (BYTEBITS v)).hold % 65536 ∧ t.bits = 0 ∧ t.hold = 0 ∧
      t.next_in = (NEEDBITS 32 (BYTEBITS v)).next_in := by
  refine ⟨{ INITBITS { NEEDBITS 32 (BYTEBITS v) with
      length := (NEEDBITS 32 (BYTEBITS v)).hold % 65536 } with mode := .COPY_ }, ?_, rfl, rfl,
    rfl, rfl, rfl⟩
  unfold case_STORED
  dsimp only
  rw [if_neg (by omega), if_neg (by simpa using hx), if_pos rfl]

/-- The case `CODELENS` with `Z_TREES`: when the loop reads all the code lengths, the
end-of-block code has a length and both tables are built without error, the pass leaves
in the mode `LEN_`. -/
theorem codelens_trees (tb : table_builder) (f out : Nat) (v : inflate_stream) (ret : Int)
    (s1 : inflate_stream) (e : loop_end)
    (hl : codelens_loop (v.nlen + v.ndist - v.have_) v = (s1, e)) (he : e ≠ .leave)
    (hb : s1.mode ≠ .BAD) (h256 : s1.lens.getD 256 0 ≠ 0)
    (hL : (tb .LENS (s1.lens.take s1.nlen) 9).1 = 0)
    (hD : (tb .DISTS ((s1.lens.drop s1.nlen).take s1.ndist) 6).1 = 0) :
    ∃ t r, case_CODELENS tb f Z_TREES out v ret = some (.leave t r) ∧ t.mode = .LEN_ := by
  unfold case_CODELENS
  rw [hl]
  cases e with
  | leave => exact absurd rfl he
  | go =>
    dsimp only
    rw [if_neg hb, if_neg (by simpa using h256), if_neg (by simpa using hL),
      if_neg (by simpa using hD), if_pos rfl]
    exact ⟨_, _, rfl, rfl⟩
  | brk =>
    dsimp only
    rw [if_neg hb, if_neg (by simpa using h256), if_neg (by simpa using hL),
      if_neg (by simpa using hD), if_pos rfl]
    exact ⟨_, _, rfl, rfl⟩

theorem suspended_mode {m : Mode} (h : m = .LEN_ ∨ m = .COPY_) :
    header_mode m = false ∧ inner_mode m = false ∧ m ≠ .TYPE := by
  rcases h with h | h <;> subst h <;> exact ⟨rfl, rfl, fun e => by cases e⟩

theorem step_at_TYPEDO {tb : table_builder} {f : Nat} {flush : Int} {out : Nat}
    {v : inflate_stream} {ret : Int} (hm : v.mode = .TYPEDO) :
    step tb f flush out v ret = some (case_TYPEDO flush v ret) := by
  unfold step
  rw [hm]

theorem step_at_STORED {tb : table_builder} {f : Nat} {flush : Int} {out : Nat}
    {v : inflate_stream} {ret : Int} (hm : v.mode = .STORED) :
    step tb f flush out v ret = some (case_STORED flush v ret) := by
  unfold step
  rw [hm]

theorem step_at_CODELENS {tb : table_builder} {f : Nat} {flush : Int} {out : Nat}
    {v : inflate_stream} {ret : Int} (hm : v.mode = .CODELENS) :
    step tb f flush out v ret = case_CODELENS tb f flush out v ret := by
  unfold step
  rw [hm]

theorem alpha_to_LEN {tb : table_builder} (X H : List Nat) (s : inflate_stream)
    (hm : s.mode = .LEN_ ∨ s.mode = .LEN) :
    ∃ k, asteps tb k (alpha X H s) = some (alpha X H { s with mode := .LEN }) := by
  rcases hm with hm | hm
  · refine ⟨1, asteps_one ?_⟩
    have : (alpha X H s).mode = .LEN_ := by rw [am_of]; unfold amode_of; rw [hm]
    unfold astep
    rw [this]
    rfl
  · refine ⟨0, ?_⟩
    have : ({ s with mode := .LEN } : inflate_stream) = s := by
      cases s
      simp only at hm
      subst hm
      rfl
    rw [this]
    rfl

/-- The cases `LEN_` and `LEN` are runs of steps of the decoder. -/
theorem ref_LEN (tb : table_builder) (X : List Nat) (out E : Nat) (Hp : List Nat)
    {fuel : Nat} (s : inflate_stream) (ret : Int) {o : outcome} (h : Inv s)
    (hm : s.mode = .LEN_ ∨ s.mode = .LEN) (ha : acct out E s) (hw : wctx Hp s)
    (hc : case_LEN fuel out s ret = some o) : refines tb X E Hp s o.st := by
  have hwf := me_LEN h.regs (by rcases hm with hm | hm; exact Or.inl hm; exact Or.inr (Or.inl hm))
  have h' : Inv { s with mode := .LEN } :=
    ⟨h.sane, h.dmax, h.inb, h.hold, by
      rcases we_LEN h.slack hm with h1 | h1
      · exact Or.inl h1
      · exact Or.inr (wm_LEN (Or.inr rfl) h1), mi_LEN (Or.inr (Or.inl rfl)) hwf⟩
  have ha' : acct out E { s with mode := .LEN } := acct_of_eq ha rfl rfl
  have hw' : wctx Hp { s with mode := .LEN } := wctx_of_eq hw rfl
  have h0 : refines tb X E Hp s { s with mode := .LEN } :=
    alpha_to_LEN X (Hp ++ s.next_out.drop E) s hm
  refine refines_trans h0 ?_
  unfold case_LEN at hc
  dsimp only at hc
  split_ifs at hc with c
  · split at hc
    · cases hc
    · rename_i s1 hf
      cases hc
      obtain ⟨k, hk⟩ := symrun_asteps
        (fast_symrun tb X out E Hp _ ⟨h', rfl, ha', hw'⟩ c.1 c.2 hf)
      refine ⟨k, hk.trans ?_⟩
      show some (alpha_at X E Hp s1) =
        some (alpha_at X E Hp (if s1.mode = .TYPE then { s1 with back := -1 } else s1))
      split_ifs with ht
      · rfl
      · rfl
  · cases hc
    exact chain_refines (chain_LEN_slow tb X out E Hp _ ret h' rfl ha' hw')

/-- The step of the decoder on a code-length symbol, the table entry being `c`. -/
theorem astep_codelen_eval (a : astate) (c : code)
    (hc : code_at a.codes a.lencode (a.N % 2 ^ a.lenbits) = c) :
    astep_codelen a =
      if a.L < c.bits then none
      else if c.val < 16 then
        some { a.drop c.bits with lens := a.lens.set a.have_ c.val, have_ := a.have_ + 1 }
      else if a.L < c.bits + rep_extra c.val then none
      else if c.val = 16 ∧ a.have_ = 0 then
        some ((a.drop c.bits).bad "invalid bit length repeat")
      else if a.have_ + (rep_base c.val + a.N / 2 ^ c.bits % 2 ^ rep_extra c.val) >
          a.nlen + a.ndist then
        some (((a.drop c.bits).drop (rep_extra c.val)).bad "invalid bit length repeat")
      else
        some { (a.drop c.bits).drop (rep_extra c.val) with
          lens := fill_lens (if c.val = 16 then a.lens.getD (a.have_ - 1) 0 else 0)
            (rep_base c.val + a.N / 2 ^ c.bits % 2 ^ rep_extra c.val) a.have_ a.lens,
          have_ := a.have_ + (rep_base c.val + a.N / 2 ^ c.bits % 2 ^ rep_extra c.val) } := by
  unfold astep_codelen
  rw [hc]

theorem astep_at_CODELENS {tb : table_builder} {a : astate} (hm : a.mode = .CODELENS) :
    astep tb a = if a.have_ < a.nlen + a.ndist then astep_codelen a else astep_tables tb a := by
  unfold astep
  rw [hm]

/-- One pass of the loop of `CODELENS` either only pulls bytes or is a step of the
decoder. -/
theorem codelens_body_ref (tb : table_builder) (X H : List Nat) (s : inflate_stream)
    (h : Inv s) (hm : s.mode = .CODELENS) (hlt : s.have_ < s.nlen + s.ndist) :
    ((codelens_body s).2 = .leave ∧ alpha X H (codelens_body s).1 = alpha X H s) ∨
    ((codelens_body s).2 ≠ .leave ∧
      astep tb (alpha X H s) = some (alpha X H (codelens_body s).1)) := by
  have hw := me_CODELENS h.regs hm
  obtain ⟨k, hp, -, -⟩ := lookup1_spec s s.lencode s.lenbits
    (fun i hi => wf_codes_stable hw hi)
  obtain ⟨p1, p2⟩ := sN_pulled hp X
  have hma : (alpha X H s).mode = .CODELENS := by rw [am_of]; unfold amode_of; rw [hm]
  unfold codelens_body
  dsimp only
  set sl := lookup1 s s.lencode s.lenbits with hsl
  set hr := here1 sl s.lencode s.lenbits with hhr
  by_cases h1 : sl.bits < hr.bits
  · rw [if_pos h1]
    exact Or.inl ⟨rfl, alpha_congr rfl p1 p2 rfl rfl rfl rfl rfl rfl rfl rfl rfl rfl rfl rfl
      rfl rfl⟩
  · rw [if_neg h1]
    have hent : code_at (alpha X H s).codes (alpha X H s).lencode
        ((alpha X H s).N % 2 ^ (alpha X H s).lenbits) = hr := by
      obtain ⟨hle, hst⟩ := wf_codes_stable hw (pow_mod_lt sl.hold s.lenbits)
      have := hst (s.sN X % 2 ^ s.lenbits) (pow_mod_lt _ _) (by
        simp only [Nat.zero_add]
        rw [mod_pow_of_le _ hle, mod_pow_of_le _ hle, ← p1]
        exact sN_mod _ X (not_lt.mp h1))
      simp only [Nat.zero_add] at this
      exact this
    have hL1 : ¬ (alpha X H s).L < hr.bits := by
      show ¬ s.sL X < _
      have := sL_ge sl X
      omega
    obtain ⟨d1, d2⟩ := sN_dropped (dropped_DROPBITS hr.bits sl (not_lt.mp h1)) X
    have hstep : astep tb (alpha X H s) =
        if hr.val < 16 then
          some { (alpha X H s).drop hr.bits with
            lens := (alpha X H s).lens.set (alpha X H s).have_ hr.val,
            have_ := (alpha X H s).have_ + 1 }
        else if (alpha X H s).L < hr.bits + rep_extra hr.val then none
        else if hr.val = 16 ∧ (alpha X H s).have_ = 0 then
          some (((alpha X H s).drop hr.bits).bad "invalid bit length repeat")
        else if (alpha X H s).have_ +
            (rep_base hr.val + (alpha X H s).N / 2 ^ hr.bits % 2 ^ rep_extra hr.val) >
            (alpha X H s).nlen + (alpha X H s).ndist then
          some ((((alpha X H s).drop hr.bits).drop (rep_extra hr.val)).bad
            "invalid bit length repeat")
        else
          some { ((alpha X H s).drop hr.bits).drop (rep_extra hr.val) with
            lens := fill_lens
              (if hr.val = 16 then (alpha X H s).lens.getD ((alpha X H s).have_ - 1) 0 else 0)
              (rep_base hr.val + (alpha X H s).N / 2 ^ hr.bits % 2 ^ rep_extra hr.val)
              (alpha X H s).have_ (alpha X H s).lens,
            have_ := (alpha X H s).have_ +
              (rep_base hr.val + (alpha X H s).N / 2 ^ hr.bits % 2 ^ rep_extra hr.val) } := by
      rw [astep_at_CODELENS hma,
        if_pos (show (alpha X H s).have_ < (alpha X H s).nlen + (alpha X H s).ndist from hlt),
        astep_codelen_eval _ _ hent, if_neg hL1]
    rw [hstep]
    by_cases h2 : hr.val < 16
    · rw [if_pos h2, if_pos h2]
      refine Or.inr ⟨fun e => (by cases e), congrArg some (alpha_mk rfl ?_ ?_ rfl rfl rfl rfl
        rfl rfl rfl rfl rfl rfl rfl rfl rfl rfl).symm⟩
      · exact d1.trans (by rw [p1]; rfl)
      · exact d2.trans (by rw [p2]; rfl)
    · rw [if_neg h2, if_neg h2]
      obtain ⟨k2, hp2, -, -⟩ := NEEDBITS_spec (hr.bits + rep_extra hr.val) sl
      obtain ⟨q1, q2⟩ := sN_pulled hp2 X
      set s1 := NEEDBITS (hr.bits + rep_extra hr.val) sl with hs1
      by_cases h3 : s1.bits < hr.bits + rep_extra hr.val
      · rw [if_pos h3]
        exact Or.inl ⟨rfl, alpha_congr rfl (q1.trans p1) (q2.trans p2) rfl rfl rfl rfl rfl rfl
          rfl rfl rfl rfl rfl rfl rfl rfl⟩
      · rw [if_neg h3]
        have hL2 : ¬ (alpha X H s).L < hr.bits + rep_extra hr.val := by
          show ¬ s.sL X < _
          have := sL_ge s1 X
          omega
        rw [if_neg hL2]
        obtain ⟨e1, e2⟩ := sN_dropped (dropped_DROPBITS hr.bits s1 (by omega)) X
        obtain ⟨f1, f2⟩ := sN_dropped (dropped_DROPBITS (rep_extra hr.val)
          (DROPBITS hr.bits s1) (by show rep_extra hr.val ≤ s1.bits - hr.bits; omega)) X
        have hcopy : BITS (rep_extra hr.val) (DROPBITS hr.bits s1) =
            (alpha X H s).N / 2 ^ hr.bits % 2 ^ rep_extra hr.val := by
          show s1.hold / 2 ^ hr.bits % 2 ^ rep_extra hr.val =
            s.sN X / 2 ^ hr.bits % 2 ^ rep_extra hr.val
          have a := mod_pow_div s1.hold (Nat.le_add_right hr.bits (rep_extra hr.val))
          have b := mod_pow_div (s.sN X) (Nat.le_add_right hr.bits (rep_extra hr.val))
          rw [Nat.add_sub_cancel_left] at a b
          rw [← a, ← b, ← p1, ← q1, sN_mod s1 X (not_lt.mp h3)]
        by_cases c1 : hr.val = 16 ∧ s.have_ = 0
        · rw [if_pos (show hr.val = 16 ∧ (DROPBITS hr.bits s1).have_ = 0 from c1),
            if_pos (show hr.val = 16 ∧ (alpha X H s).have_ = 0 from c1)]
          refine Or.inr ⟨fun e => (by cases e), congrArg some (alpha_mk rfl ?_ ?_ rfl rfl rfl
            rfl rfl rfl rfl rfl rfl rfl rfl rfl rfl rfl).symm⟩
          · exact e1.trans (by rw [q1, p1]; rfl)
          · exact e2.trans (by rw [q2, p2]; rfl)
        · rw [if_neg (show ¬ (hr.val = 16 ∧ (DROPBITS hr.bits s1).have_ = 0) from c1),
            if_neg (show ¬ (hr.val = 16 ∧ (alpha X H s).have_ = 0) from c1)]
          rw [hcopy]
          by_cases c2 : s.have_ +
              (rep_base hr.val + (alpha X H s).N / 2 ^ hr.bits % 2 ^ rep_extra hr.val) >
              s.nlen + s.ndist
          · rw [if_pos (show (DROPBITS (rep_extra hr.val) (DROPBITS hr.bits s1)).have_ +
                (rep_base hr.val + (alpha X H s).N / 2 ^ hr.bits % 2 ^ rep_extra hr.val) >
                (DROPBITS (rep_extra hr.val) (DROPBITS hr.bits s1)).nlen +
                (DROPBITS (rep_extra hr.val) (DROPBITS hr.bits s1)).ndist from c2),
              if_pos (show (alpha X H s).have_ +
                (rep_base hr.val + (alpha X H s).N / 2 ^ hr.bits % 2 ^ rep_extra hr.val) >
                (alpha X H s).nlen + (alpha X H s).ndist from c2)]
            refine Or.inr ⟨fun e => (by cases e), congrArg some (alpha_mk rfl ?_ ?_ rfl rfl rfl
              rfl rfl rfl rfl rfl rfl rfl rfl rfl rfl rfl).symm⟩
            · exact f1.trans (by rw [e1, q1, p1]; rfl)
            · exact f2.trans (by rw [e2, q2, p2]; rfl)
          · rw [if_neg (show ¬ ((DROPBITS (rep_extra hr.val) (DROPBITS hr.bits s1)).have_ +
                (rep_base hr.val + (alpha X H s).N / 2 ^ hr.bits % 2 ^ rep_extra hr.val) >
                (DROPBITS (rep_extra hr.val) (DROPBITS hr.bits s1)).nlen +
                (DROPBITS (rep_extra hr.val) (DROPBITS hr.bits s1)).ndist) from c2),
              if_neg (show ¬ ((alpha X H s).have_ +
                (rep_base hr.val + (alpha X H s).N / 2 ^ hr.bits % 2 ^ rep_extra hr.val) >
                (alpha X H s).nlen + (alpha X H s).ndist) from c2)]
            refine Or.inr ⟨fun e => (by cases e), congrArg some (alpha_mk rfl ?_ ?_ rfl rfl rfl
              rfl rfl rfl rfl rfl rfl rfl rfl rfl rfl rfl).symm⟩
            · exact f1.trans (by rw [e1, q1, p1]; rfl)
            · exact f2.trans (by rw [e2, q2, p2]; rfl)

/-- The loop of `CODELENS` is a run of steps of the decoder. -/
theorem codelens_loop_ref (tb : table_builder) (X H : List Nat) (k : Nat) :
    ∀ s : inflate_stream, Inv s → s.mode = .CODELENS →
      ∃ j, asteps tb j (alpha X H s) = some (alpha X H (codelens_loop k s).1) := by
  induction k with
  | zero => intro s _ _; exact ⟨0, rfl⟩
  | succ n ih =>
    intro s h hm
    unfold codelens_loop
    by_cases hlt : s.have_ < s.nlen + s.ndist
    · rw [if_pos hlt]
      obtain ⟨b1, b2, b3⟩ := inv_codelens_body s h hm hlt
      have hr := codelens_body_ref tb X H s h hm hlt
      rcases hcb : codelens_body s with ⟨s1, e⟩
      rw [hcb] at b1 b2 b3 hr
      cases e
      · obtain ⟨c1, -, -⟩ := b2 rfl
        obtain ⟨j, hj⟩ := ih s1 b1 c1.2
        rcases hr with ⟨hr, -⟩ | ⟨-, hr⟩
        · cases hr
        · exact ⟨1 + j, asteps_add tb 1 j _ _ _ (asteps_one hr) hj⟩
      · rcases hr with ⟨-, hr⟩ | ⟨hr, -⟩
        · exact ⟨0, congrArg some hr.symm⟩
        · exact absurd rfl hr
      · rcases hr with ⟨hr, -⟩ | ⟨-, hr⟩
        · cases hr
        · exact ⟨1, asteps_one hr⟩
    · rw [if_neg hlt]
      exact ⟨0, rfl⟩

theorem codelens_loop_done (k : Nat) :
    ∀ s : inflate_stream, Inv s → s.mode = .CODELENS → s.nlen + s.ndist - s.have_ ≤ k →
      (codelens_loop k s).2 = .go →
      ¬ (codelens_loop k s).1.have_ < (codelens_loop k s).1.nlen + (codelens_loop k s).1.ndist := by
  induction k with
  | zero =>
    intro s _ _ hk _
    show ¬ s.have_ < s.nlen + s.ndist
    omega
  | succ n ih =>
    intro s h hm hk
    unfold codelens_loop
    by_cases hlt : s.have_ < s.nlen + s.ndist
    · rw [if_pos hlt]
      obtain ⟨b1, b2, b3⟩ := inv_codelens_body s h hm hlt
      rcases hcb : codelens_body s with ⟨s1, e⟩
      rw [hcb] at b1 b2 b3
      cases e
      · obtain ⟨c1, c2, c3⟩ := b2 rfl
        exact ih s1 b1 c1.2 (by
          have c2 : s.have_ < s1.have_ := c2
          have c3 : s1.nlen + s1.ndist = s.nlen + s.ndist := c3
          omega)
      · intro e; cases e
      · intro e; cases e
    · rw [if_neg hlt]
      exact fun _ => hlt

theorem refines_of_asteps {tb : table_builder} {X : List Nat} {E : Nat} {Hp : List Nat}
    {s t : inflate_stream} (ho : t.next_out = s.next_out)
    (h : ∃ k, asteps tb k (alpha X (Hp ++ s.next_out.drop E) s) =
      some (alpha X (Hp ++ s.next_out.drop E) t)) : refines tb X E Hp s t := by
  unfold refines
  rw [ho]
  exact h

/-- The case `CODELENS` is a run of steps of the decoder. -/
theorem ref_CODELENS (tb : table_builder) (X : List Nat) (out E : Nat) (Hp : List Nat)
    {fuel : Nat} {flush : Int} (s : inflate_stream) (ret : Int) {o : outcome}
    (htb : wf_builder tb) (h : Inv s) (hm : s.mode = .CODELENS) (ha : acct out E s)
    (hw : wctx Hp s) (hc : case_CODELENS tb fuel flush out s ret = some o) :
    refines tb X E Hp s o.st := by
  unfold case_CODELENS at hc
  obtain ⟨b1, b2, b3⟩ := inv_codelens_loop (s.nlen + s.ndist - s.have_) s h hm (le_refl _)
  obtain ⟨o1, o2⟩ := codelens_loop_out (s.nlen + s.ndist - s.have_) s
  obtain ⟨x1, -⟩ := codelens_loop_fixed (s.nlen + s.ndist - s.have_) s
  obtain ⟨j, hj⟩ := codelens_loop_ref tb X (Hp ++ s.next_out.drop E)
    (s.nlen + s.ndist - s.have_) s h hm
  have hdone := codelens_loop_done (s.nlen + s.ndist - s.have_) s h hm (le_refl _)
  rcases hcl : codelens_loop (s.nlen + s.ndist - s.have_) s with ⟨s1, e⟩
  rw [hcl] at b1 b2 b3 hc o1 o2 x1 hj hdone
  have o1 : s1.next_out = s.next_out := o1
  have o2 : s1.avail_out = s.avail_out := o2
  have x1 : s1.fixed = s.fixed := x1
  have hj : asteps tb j (alpha X (Hp ++ s.next_out.drop E) s) =
    some (alpha X (Hp ++ s.next_out.drop E) s1) := hj
  have key : (s1.mode = .CODELENS ∧ s1.bits < 8 ∧ ¬ s1.have_ < s1.nlen + s1.ndist) ∨
      s1.mode = .BAD →
    (if s1.mode = Mode.BAD then some (outcome.cont s1 ret)
      else if s1.lens.getD 256 0 = 0 then
        some (outcome.cont { s1 with msg := some "invalid code -- missing end-of-block",
                                     mode := .BAD } ret)
      else
        let r := tb .LENS (s1.lens.take s1.nlen) 9
        let s2 := { s1 with codes := store_codes s1.codes 0 r.2.1, next := r.2.1.length,
                            lencode := .codes 0, lenbits := r.2.2 }
        if r.1 ≠ 0 then
          some (.cont { s2 with msg := some "invalid literal/lengths set", mode := .BAD } r.1)
        else
          let r2 := tb .DISTS ((s2.lens.drop s2.nlen).take s2.ndist) 6
          let s3 := { s2 with codes := store_codes s2.codes s2.next r2.2.1,
                              distcode := .codes s2.next,
                              next := s2.next + r2.2.1.length, distbits := r2.2.2 }
          if r2.1 ≠ 0 then
            some (.cont { s3 with msg := some "invalid distances set", mode := .BAD } r2.1)
          else
            let s4 := { s3 with mode := .LEN_ }
            if flush = Z_TREES then some (.leave s4 r2.1)
            else case_LEN fuel out s4 r2.1) = some o → refines tb X E Hp s o.st := by
    intro hb hc
    dsimp only at hc
    by_cases h1 : s1.mode = .BAD
    · rw [if_pos h1] at hc
      cases hc
      exact refines_of_asteps o1 ⟨j, hj⟩
    rw [if_neg h1] at hc
    obtain ⟨hm1, hb8, hd⟩ : s1.mode = .CODELENS ∧ s1.bits < 8 ∧
        ¬ s1.have_ < s1.nlen + s1.ndist := by
      rcases hb with hb | hb
      · exact hb
      · exact absurd hb h1
    have hma : (alpha X (Hp ++ s.next_out.drop E) s1).mode = .CODELENS := by
      rw [am_of]; unfold amode_of; rw [hm1]
    have hst : astep tb (alpha X (Hp ++ s.next_out.drop E) s1) =
        astep_tables tb (alpha X (Hp ++ s.next_out.drop E) s1) := by
      rw [astep_at_CODELENS hma, if_neg (show ¬ (alpha X _ s1).have_ <
        (alpha X (Hp ++ s.next_out.drop E) s1).nlen +
        (alpha X (Hp ++ s.next_out.drop E) s1).ndist from hd)]
    have fin : ∀ t : inflate_stream,
        astep_tables tb (alpha X (Hp ++ s.next_out.drop E) s1) =
          some (alpha X (Hp ++ s.next_out.drop E) t) → t.next_out = s1.next_out →
        refines tb X E Hp s t := by
      intro t e2 e1
      refine refines_of_asteps (e1.trans o1) ⟨j + 1, asteps_add tb j 1 _ _ _ hj (asteps_one ?_)⟩
      rw [hst, e2]
    split_ifs at hc with h2 h3 h4 h5
    · cases hc
      refine fin _ ?_ rfl
      unfold astep_tables
      rw [if_pos (show (alpha X _ s1).lens.getD 256 0 = 0 from h2)]
      rfl
    · cases hc
      refine fin _ ?_ rfl
      unfold astep_tables
      rw [if_neg (show ¬ (alpha X _ s1).lens.getD 256 0 = 0 from h2),
        if_pos (show (tb .LENS ((alpha X _ s1).lens.take (alpha X _ s1).nlen) 9).1 ≠ 0 from h3)]
      rfl
    · cases hc
      refine fin _ ?_ rfl
      unfold astep_tables
      rw [if_neg (show ¬ (alpha X _ s1).lens.getD 256 0 = 0 from h2),
        if_neg (show ¬ (tb .LENS ((alpha X _ s1).lens.take (alpha X _ s1).nlen) 9).1 ≠ 0
          from h3),
        if_pos (show (tb .DISTS (((alpha X _ s1).lens.drop (alpha X _ s1).nlen).take
          (alpha X _ s1).ndist) 6).1 ≠ 0 from h4)]
      rfl
    all_goals
      obtain ⟨l1, l2, l3⟩ := (htb (s1.lens.take s1.nlen) 9).2.1 (not_not.mp h3)
      obtain ⟨d1, d2, d3⟩ := (htb ((s1.lens.drop s1.nlen).take s1.ndist) 6).2.2 (not_not.mp h4)
      have hwl : wf_table len_term (fun i => code_at (store_codes
          (store_codes s1.codes 0 (tb .LENS (s1.lens.take s1.nlen) 9).2.1)
          (tb .LENS (s1.lens.take s1.nlen) 9).2.1.length
          (tb .DISTS ((s1.lens.drop s1.nlen).take s1.ndist) 6).2.1) (.codes 0) i)
          (tb .LENS (s1.lens.take s1.nlen) 9).2.2 = true := by
        refine wf_table_congr l2 l1 l3 (fun x hx => ?_)
        show (store_codes _ _ _).getD (0 + x) default = _
        rw [Nat.zero_add, store_get_before _ _ _ hx (by
          have := store_length s1.codes 0 (tb .LENS (s1.lens.take s1.nlen) 9).2.1
          omega)]
        have := store_get_at s1.codes 0 (tb .LENS (s1.lens.take s1.nlen) 9).2.1 hx
        rw [Nat.zero_add] at this
        exact this
      have hwd : wf_table dist_term (fun i => code_at (store_codes
          (store_codes s1.codes 0 (tb .LENS (s1.lens.take s1.nlen) 9).2.1)
          (tb .LENS (s1.lens.take s1.nlen) 9).2.1.length
          (tb .DISTS ((s1.lens.drop s1.nlen).take s1.ndist) 6).2.1)
          (.codes (tb .LENS (s1.lens.take s1.nlen) 9).2.1.length) i)
          (tb .DISTS ((s1.lens.drop s1.nlen).take s1.ndist) 6).2.2 = true := by
        refine wf_table_congr d2 d1 d3 (fun x hx => ?_)
        exact store_get_at _ _ _ hx
      have hlast : astep_tables tb (alpha X (Hp ++ s.next_out.drop E) s1) =
          some (alpha X (Hp ++ s.next_out.drop E)
            { s1 with
              codes := store_codes (store_codes s1.codes 0 (tb .LENS (s1.lens.take s1.nlen) 9).2.1)
                (tb .LENS (s1.lens.take s1.nlen) 9).2.1.length
                (tb .DISTS ((s1.lens.drop s1.nlen).take s1.ndist) 6).2.1
              next := (tb .LENS (s1.lens.take s1.nlen) 9).2.1.length +
                (tb .DISTS ((s1.lens.drop s1.nlen).take s1.ndist) 6).2.1.length
              lencode := .codes 0
              lenbits := (tb .LENS (s1.lens.take s1.nlen) 9).2.2
              distcode := .codes (tb .LENS (s1.lens.take s1.nlen) 9).2.1.length
              distbits := (tb .DISTS ((s1.lens.drop s1.nlen).take s1.ndist) 6).2.2
              mode := .LEN_ }) := by
        unfold astep_tables
        rw [if_neg (show ¬ (alpha X _ s1).lens.getD 256 0 = 0 from h2),
          if_neg (show ¬ (tb .LENS ((alpha X _ s1).lens.take (alpha X _ s1).nlen) 9).1 ≠ 0
            from h3),
          if_neg (show ¬ (tb .DISTS (((alpha X _ s1).lens.drop (alpha X _ s1).nlen).take
            (alpha X _ s1).ndist) 6).1 ≠ 0 from h4)]
        rfl
    · cases hc
      exact fin _ hlast rfl
    · refine refines_trans (fin _ hlast rfl) ?_
      refine ref_LEN tb X out E Hp _ _ ?_ (Or.inl rfl) ?_ ?_ hc
      · exact ⟨b1.sane, b1.dmax, b1.inb, b1.hold, Or.inl hb8,
          mi_LEN (Or.inl rfl) ⟨hwl, hwd⟩⟩
      · exact acct_of_eq ha o1 o2
      · exact wctx_of_eq hw x1
  cases e
  · exact key (Or.inl ⟨(b2 rfl).2, (b2 rfl).1, hdone rfl⟩) hc
  · cases hc
    exact refines_of_asteps o1 ⟨j, hj⟩
  · exact key (Or.inr (b3 rfl)) hc

theorem astep_at_LENLENS {tb : table_builder} {a : astate} (hm : a.mode = .LENLENS) :
    astep tb a = astep_LENLENS tb a := by
  unfold astep
  rw [hm]

/-- The loop that reads the code lengths of the code-length code is a run of steps of the
decoder. -/
theorem lenlens_read_ref (tb : table_builder) (X H : List Nat) (k : Nat) :
    ∀ s : inflate_stream, s.mode = .LENLENS →
      ∃ j, asteps tb j (alpha X H s) = some (alpha X H (lenlens_read k s).1) := by
  induction k with
  | zero => intro s _; exact ⟨0, rfl⟩
  | succ n ih =>
    intro s hm
    unfold lenlens_read
    by_cases hlt : s.have_ < s.ncode
    · rw [if_pos hlt]
      dsimp only
      obtain ⟨k, hp, -, -⟩ := NEEDBITS_spec 3 s
      obtain ⟨p1, p2⟩ := sN_pulled hp X
      by_cases h3 : (NEEDBITS 3 s).bits < 3
      · rw [if_pos h3]
        have e : alpha X H (NEEDBITS 3 s) = alpha X H s :=
          alpha_congr rfl p1 p2 rfl rfl rfl rfl rfl rfl rfl rfl rfl rfl rfl rfl rfl rfl
        exact ⟨0, congrArg some e.symm⟩
      · rw [if_neg h3]
        obtain ⟨j, hj⟩ := ih (DROPBITS 3 { NEEDBITS 3 s with
          lens := (NEEDBITS 3 s).lens.set (order.getD (NEEDBITS 3 s).have_ 0)
            (BITS 3 (NEEDBITS 3 s))
          have_ := (NEEDBITS 3 s).have_ + 1 }) hm
        refine ⟨1 + j, asteps_add tb 1 j _ _ _ (asteps_one ?_) hj⟩
        have hma : (alpha X H s).mode = .LENLENS := by rw [am_of]; unfold amode_of; rw [hm]
        have hL3 : ¬ (alpha X H s).L < 3 := by
          show ¬ s.sL X < 3
          have := sL_ge (NEEDBITS 3 s) X
          omega
        obtain ⟨d1, d2⟩ := sN_dropped (dropped_DROPBITS 3 (NEEDBITS 3 s) (not_lt.mp h3)) X
        have hb : BITS 3 (NEEDBITS 3 s) = (alpha X H s).N % 8 := by
          show (NEEDBITS 3 s).hold % 2 ^ 3 = s.sN X % 2 ^ 3
          rw [← p1]
          exact (sN_mod _ X (not_lt.mp h3)).symm
        rw [astep_at_LENLENS hma]
        unfold astep_LENLENS
        rw [if_pos (show (alpha X H s).have_ < (alpha X H s).ncode from hlt), if_neg hL3, hb]
        refine congrArg some (alpha_mk rfl ?_ ?_ rfl rfl rfl rfl rfl rfl rfl rfl rfl rfl rfl rfl
          rfl rfl).symm
        · exact d1.trans (by rw [p1]; rfl)
        · exact d2.trans (by rw [p2]; rfl)
    · rw [if_neg hlt]
      exact ⟨0, rfl⟩

theorem lenlens_read_done (k : Nat) :
    ∀ s : inflate_stream, s.ncode - s.have_ ≤ k → (lenlens_read k s).2 = true →
      ¬ (lenlens_read k s).1.have_ < (lenlens_read k s).1.ncode := by
  induction k with
  | zero =>
    intro s hk _
    show ¬ s.have_ < s.ncode
    omega
  | succ n ih =>
    intro s hk
    unfold lenlens_read
    by_cases hlt : s.have_ < s.ncode
    · rw [if_pos hlt]
      dsimp only
      by_cases h3 : (NEEDBITS 3 s).bits < 3
      · rw [if_pos h3]
        intro e
        cases e
      · rw [if_neg h3]
        exact ih _ (by
          show s.ncode - (s.have_ + 1) ≤ n
          omega)
    · rw [if_neg hlt]
      exact fun _ => hlt

/-- The loop that clears the remaining code lengths touches `lens` and `have` only. -/
theorem lenlens_zero_fields (k : Nat) :
    ∀ s : inflate_stream,
      (lenlens_zero k s).lens = zero_lens k s.have_ s.lens ∧
      (lenlens_zero k s).have_ = zero_have k s.have_ ∧
      (lenlens_zero k s).mode = s.mode ∧ (lenlens_zero k s).msg = s.msg ∧
      (lenlens_zero k s).last = s.last ∧ (lenlens_zero k s).hold = s.hold ∧
      (lenlens_zero k s).bits = s.bits ∧ (lenlens_zero k s).next_in = s.next_in ∧
      (lenlens_zero k s).lencode = s.lencode ∧ (lenlens_zero k s).distcode = s.distcode ∧
      (lenlens_zero k s).lenbits = s.lenbits ∧ (lenlens_zero k s).distbits = s.distbits ∧
      (lenlens_zero k s).ncode = s.ncode ∧ (lenlens_zero k s).nlen = s.nlen ∧
      (lenlens_zero k s).ndist = s.ndist ∧ (lenlens_zero k s).next = s.next ∧
      (lenlens_zero k s).codes = s.codes := by
  induction k with
  | zero =>
    intro s
    exact ⟨rfl, rfl, rfl, rfl, rfl, rfl, rfl, rfl, rfl, rfl, rfl, rfl, rfl, rfl, rfl, rfl, rfl⟩
  | succ n ih =>
    intro s
    unfold lenlens_zero zero_lens zero_have
    split_ifs
    · exact ih _
    · exact ⟨rfl, rfl, rfl, rfl, rfl, rfl, rfl, rfl, rfl, rfl, rfl, rfl, rfl, rfl, rfl, rfl, rfl⟩

/-- The case `LENLENS` is a run of steps of the decoder. -/
theorem ref_LENLENS (tb : table_builder) (X : List Nat) (out E : Nat) (Hp : List Nat)
    {fuel : Nat} {flush : Int} (s : inflate_stream) (ret : Int) {o : outcome}
    (htb : wf_builder tb) (h : Inv s) (hm : s.mode = .LENLENS) (ha : acct out E s)
    (hw : wctx Hp s) (hc : case_LENLENS tb fuel flush out s ret = some o) :
    refines tb X E Hp s o.st := by
  unfold case_LENLENS at hc
  obtain ⟨b1, b2, b3⟩ := inv_lenlens_read (s.ncode - s.have_) s h hm (le_refl _)
  obtain ⟨o1, o2⟩ := lenlens_read_out (s.ncode - s.have_) s
  obtain ⟨x1, -⟩ := lenlens_read_fixed (s.ncode - s.have_) s
  obtain ⟨j, hj⟩ := lenlens_read_ref tb X (Hp ++ s.next_out.drop E) (s.ncode - s.have_) s hm
  have hdone := lenlens_read_done (s.ncode - s.have_) s (le_refl _)
  rcases hr : lenlens_read (s.ncode - s.have_) s with ⟨s1, b⟩
  rw [hr] at b1 b2 b3 hc o1 o2 x1 hj hdone
  have o1 : s1.next_out = s.next_out := o1
  have o2 : s1.avail_out = s.avail_out := o2
  have x1 : s1.fixed = s.fixed := x1
  have b2 : s1.mode = .LENLENS := b2
  have hj : asteps tb j (alpha X (Hp ++ s.next_out.drop E) s) =
    some (alpha X (Hp ++ s.next_out.drop E) s1) := hj
  cases b
  · cases hc
    exact refines_of_asteps o1 ⟨j, hj⟩
  · have hd : ¬ s1.have_ < s1.ncode := hdone rfl
    obtain ⟨z_lens, z_have, z_mode, z_msg, z_last, z_hold, z_bits, z_in, z_lc, z_dc, z_lb,
      z_db, z_nc, z_nl, z_nd, z_next, z_codes⟩ := lenlens_zero_fields (19 - s1.have_) s1
    obtain ⟨z1, z2, z3, z4, z5, z6⟩ := lenlens_zero_frame (19 - s1.have_) s1
    obtain ⟨p1, p2⟩ := lenlens_zero_out (19 - s1.have_) s1
    obtain ⟨y1, -⟩ := lenlens_zero_fixed (19 - s1.have_) s1
    have hb8 : s1.bits < 8 := b3 rfl
    dsimp only at hc
    have hma : (alpha X (Hp ++ s.next_out.drop E) s1).mode = .LENLENS := by
      rw [am_of]; unfold amode_of; rw [b2]
    have zN : ∀ t : inflate_stream, t.hold = (lenlens_zero (19 - s1.have_) s1).hold →
        t.bits = (lenlens_zero (19 - s1.have_) s1).bits →
        t.next_in = (lenlens_zero (19 - s1.have_) s1).next_in →
        t.sN X = s1.sN X ∧ t.sL X = s1.sL X := by
      intro t e1 e2 e3
      unfold inflate_stream.sN inflate_stream.sL inflate_stream.sval inflate_stream.slen
      rw [e1, e2, e3, z_hold, z_bits, z_in]
      exact ⟨rfl, rfl⟩
    have hstep : astep tb (alpha X (Hp ++ s.next_out.drop E) s1) =
        if (tb .CODES ((zero_lens (19 - s1.have_) s1.have_ s1.lens).take 19) 7).1 ≠ 0 then
          some { alpha X (Hp ++ s.next_out.drop E) s1 with
            lens := zero_lens (19 - s1.have_) s1.have_ s1.lens
            have_ := zero_have (19 - s1.have_) s1.have_
            codes := store_codes s1.codes 0
              (tb .CODES ((zero_lens (19 - s1.have_) s1.have_ s1.lens).take 19) 7).2.1
            next := (tb .CODES ((zero_lens (19 - s1.have_) s1.have_ s1.lens).take 19) 7).2.1.length
            lencode := .codes 0
            lenbits := (tb .CODES ((zero_lens (19 - s1.have_) s1.have_ s1.lens).take 19) 7).2.2
            msg := some "invalid code lengths set"
            mode := .BAD }
        else
          some { alpha X (Hp ++ s.next_out.drop E) s1 with
            lens := zero_lens (19 - s1.have_) s1.have_ s1.lens
            have_ := 0
            codes := store_codes s1.codes 0
              (tb .CODES ((zero_lens (19 - s1.have_) s1.have_ s1.lens).take 19) 7).2.1
            next := (tb .CODES ((zero_lens (19 - s1.have_) s1.have_ s1.lens).take 19) 7).2.1.length
            lencode := .codes 0
            lenbits := (tb .CODES ((zero_lens (19 - s1.have_) s1.have_ s1.lens).take 19) 7).2.2
            mode := .CODELENS } := by
      rw [astep_at_LENLENS hma]
      unfold astep_LENLENS
      rw [if_neg (show ¬ (alpha X _ s1).have_ < (alpha X (Hp ++ s.next_out.drop E) s1).ncode
        from hd)]
      rfl
    by_cases h1 : (tb .CODES ((lenlens_zero (19 - s1.have_) s1).lens.take 19) 7).1 ≠ 0
    · rw [if_pos h1] at hc
      cases hc
      refine refines_of_asteps (p1.trans o1) ⟨j + 1, asteps_add tb j 1 _ _ _ hj (asteps_one ?_)⟩
      rw [hstep, if_pos (by rw [← z_lens]; exact h1)]
      refine congrArg some (Eq.symm ?_)
      apply alpha_mk
      · rfl
      · exact (zN _ rfl rfl rfl).1
      · exact (zN _ rfl rfl rfl).2
      · rfl
      · exact z_last
      · rfl
      · exact z_dc
      · show (tb .CODES ((lenlens_zero (19 - s1.have_) s1).lens.take 19) 7).2.2 = _
        rw [z_lens]
      · exact z_db
      · exact z_nc
      · exact z_nl
      · exact z_nd
      · exact z_have
      · show (tb .CODES ((lenlens_zero (19 - s1.have_) s1).lens.take 19) 7).2.1.length = _
        rw [z_lens]
      · exact z_lens
      · show store_codes (lenlens_zero (19 - s1.have_) s1).codes 0
          (tb .CODES ((lenlens_zero (19 - s1.have_) s1).lens.take 19) 7).2.1 = _
        rw [z_lens, z_codes]
      · rfl
    · rw [if_neg h1] at hc
      have hr1 : refines tb X E Hp s
          { lenlens_zero (19 - s1.have_) s1 with
            codes := store_codes (lenlens_zero (19 - s1.have_) s1).codes 0
              (tb .CODES ((lenlens_zero (19 - s1.have_) s1).lens.take 19) 7).2.1
            next := (tb .CODES ((lenlens_zero (19 - s1.have_) s1).lens.take 19) 7).2.1.length
            lencode := .codes 0
            lenbits := (tb .CODES ((lenlens_zero (19 - s1.have_) s1).lens.take 19) 7).2.2
            have_ := 0
            mode := .CODELENS } := by
        refine refines_of_asteps (p1.trans o1)
          ⟨j + 1, asteps_add tb j 1 _ _ _ hj (asteps_one ?_)⟩
        rw [hstep, if_neg (by rw [← z_lens]; exact h1)]
        refine congrArg some (Eq.symm ?_)
        apply alpha_mk
        · rfl
        · exact (zN _ rfl rfl rfl).1
        · exact (zN _ rfl rfl rfl).2
        · rfl
        · exact z_last
        · rfl
        · exact z_dc
        · show (tb .CODES ((lenlens_zero (19 - s1.have_) s1).lens.take 19) 7).2.2 = _
          rw [z_lens]
        · exact z_db
        · exact z_nc
        · exact z_nl
        · exact z_nd
        · rfl
        · show (tb .CODES ((lenlens_zero (19 - s1.have_) s1).lens.take 19) 7).2.1.length = _
          rw [z_lens]
        · exact z_lens
        · show store_codes (lenlens_zero (19 - s1.have_) s1).codes 0
            (tb .CODES ((lenlens_zero (19 - s1.have_) s1).lens.take 19) 7).2.1 = _
          rw [z_lens, z_codes]
        · exact z_msg
      refine refines_trans hr1 ?_
      have a1 : (lenlens_zero (19 - s1.have_) s1).sane = 1 := z1.trans b1.sane
      have a2 : (lenlens_zero (19 - s1.have_) s1).dmax = 32768 := z2.trans b1.dmax
      have a3 : bytes (lenlens_zero (19 - s1.have_) s1).next_in := by rw [z3]; exact b1.inb
      have a4 : (lenlens_zero (19 - s1.have_) s1).hold <
          2 ^ (lenlens_zero (19 - s1.have_) s1).bits := by rw [z4, z5]; exact b1.hold
      have a5 : (lenlens_zero (19 - s1.have_) s1).bits < 8 := by rw [z5]; exact hb8
      refine ref_CODELENS tb X out E Hp _ _ htb ?_ rfl ?_ ?_ hc
      · refine ⟨a1, a2, a3, a4, Or.inl a5, mi_CODELENS rfl ?_⟩
        obtain ⟨l1, l2⟩ := (htb ((lenlens_zero (19 - s1.have_) s1).lens.take 19) 7).1
          (not_not.mp h1)
        have hn : 0 + 2 ^ (tb .CODES ((lenlens_zero (19 - s1.have_) s1).lens.take 19) 7).2.2 ≤
            (tb .CODES ((lenlens_zero (19 - s1.have_) s1).lens.take 19) 7).2.1.length := by
          rw [Nat.zero_add]; exact l1
        intro i hi
        refine term_ok_congr (l2 i hi) hi hn (fun x hx => ?_)
        show (store_codes _ _ _).getD (0 + x) default = _
        have := store_get_at (lenlens_zero (19 - s1.have_) s1).codes 0
          (tb .CODES ((lenlens_zero (19 - s1.have_) s1).lens.take 19) 7).2.1 hx
        exact this
      · exact acct_of_eq ha (p1.trans o1) (p2.trans o2)
      · exact wctx_of_eq hw (y1.trans x1)

theorem astep_at_TABLE {tb : table_builder} {a : astate} (hm : a.mode = .TABLE) :
    astep tb a = astep_TABLE a := by
  unfold astep
  rw [hm]

theorem astep_TABLE_bad (a : astate) (hL : ¬ a.L < 14)
    (hc : a.N % 32 + 257 > 286 ∨ a.N / 32 % 32 + 1 > 30) :
    astep_TABLE a =
      some { a.drop 14 with nlen := a.N % 32 + 257, ndist := a.N / 32 % 32 + 1,
                            ncode := a.N / 1024 % 16 + 4,
                            msg := some "too many length or distance symbols", mode := .BAD } := by
  unfold astep_TABLE
  rw [if_neg hL, if_pos hc]

theorem astep_TABLE_ok (a : astate) (hL : ¬ a.L < 14)
    (hc : ¬ (a.N % 32 + 257 > 286 ∨ a.N / 32 % 32 + 1 > 30)) :
    astep_TABLE a =
      some { a.drop 14 with nlen := a.N % 32 + 257, ndist := a.N / 32 % 32 + 1,
                            ncode := a.N / 1024 % 16 + 4, have_ := 0, mode := .LENLENS } := by
  unfold astep_TABLE
  rw [if_neg hL, if_neg hc]

/-- The case `TABLE` is a run of steps of the decoder. -/
theorem ref_TABLE (tb : table_builder) (X : List Nat) (out E : Nat) (Hp : List Nat)
    {fuel : Nat} {flush : Int} (s : inflate_stream) (ret : Int) {o : outcome}
    (htb : wf_builder tb) (h : Inv s) (hm : s.mode = .TABLE) (ha : acct out E s)
    (hw : wctx Hp s) (hc : case_TABLE tb fuel flush out s ret = some o) :
    refines tb X E Hp s o.st := by
  have hsl := we_TABLE h.slack hm
  obtain ⟨k, hp, hstop, hmin⟩ := NEEDBITS_spec 14 s
  have hh := pulled_hold hp h.inb h.hold
  have hI := pulled_bytes hp h.inb
  obtain ⟨p1, p2⟩ := sN_pulled hp X
  unfold case_TABLE at hc
  dsimp only at hc
  have hb : (NEEDBITS 14 s).bits - 5 - 5 - 4 < 8 := by omega
  by_cases h1 : (NEEDBITS 14 s).bits < 14
  · rw [if_pos h1] at hc
    cases hc
    have e : alpha X (Hp ++ s.next_out.drop E) (NEEDBITS 14 s) =
        alpha X (Hp ++ s.next_out.drop E) s :=
      alpha_congr rfl p1 p2 rfl rfl rfl rfl rfl rfl rfl rfl rfl rfl rfl rfl rfl rfl
    exact refines_of_asteps rfl ⟨0, congrArg some e.symm⟩
  rw [if_neg h1] at hc
  have hma : (alpha X (Hp ++ s.next_out.drop E) s).mode = .TABLE := by
    rw [am_of]; unfold amode_of; rw [hm]
  have hL : ¬ (alpha X (Hp ++ s.next_out.drop E) s).L < 14 := by
    show ¬ s.sL X < 14
    have := sL_ge (NEEDBITS 14 s) X
    omega
  have hN : s.sN X % 2 ^ 14 = (NEEDBITS 14 s).hold % 2 ^ 14 := by
    rw [← p1]; exact sN_mod _ X (not_lt.mp h1)
  have n1 : BITS 5 (NEEDBITS 14 s) = s.sN X % 32 := by
    show (NEEDBITS 14 s).hold % 2 ^ 5 = _
    norm_num at hN ⊢; omega
  have n2 : (NEEDBITS 14 s).hold / 2 ^ 5 % 2 ^ 5 = s.sN X / 32 % 32 := by
    norm_num at hN ⊢; omega
  have n3 : (NEEDBITS 14 s).hold / 2 ^ 5 / 2 ^ 5 % 2 ^ 4 = s.sN X / 1024 % 16 := by
    norm_num at hN ⊢; omega
  have key : ∀ t : inflate_stream, t.hold = (NEEDBITS 14 s).hold / 2 ^ 5 / 2 ^ 5 / 2 ^ 4 →
      t.bits = (NEEDBITS 14 s).bits - 5 - 5 - 4 → t.next_in = (NEEDBITS 14 s).next_in →
      t.sN X = s.sN X / 2 ^ 14 ∧ t.sL X = s.sL X - 14 := by
    intro t e1 e2 e3
    have hd : dropped (NEEDBITS 14 s) t 14 :=
      ⟨by omega, by rw [e1, Nat.div_div_eq_div_mul, Nat.div_div_eq_div_mul]; rfl,
        by rw [e2]; omega, e3⟩
    obtain ⟨d1, d2⟩ := sN_dropped hd X
    rw [d1, d2, p1, p2]
    exact ⟨rfl, rfl⟩
  have hcnd : ((alpha X (Hp ++ s.next_out.drop E) s).N % 32 + 257 > 286 ∨
      (alpha X (Hp ++ s.next_out.drop E) s).N / 32 % 32 + 1 > 30) ↔
      (BITS 5 (NEEDBITS 14 s) + 257 > 286 ∨
        (NEEDBITS 14 s).hold / 2 ^ 5 % 2 ^ 5 + 1 > 30) := by
    show (s.sN X % 32 + 257 > 286 ∨ s.sN X / 32 % 32 + 1 > 30) ↔ _
    rw [n1, n2]
  split_ifs at hc with h2
  · have hst := (astep_at_TABLE hma : astep tb _ = _).trans (astep_TABLE_bad _ hL (hcnd.mpr h2))
    cases hc
    refine refines_of_asteps rfl ⟨1, asteps_one (hst.trans (congrArg some (Eq.symm ?_)))⟩
    apply alpha_mk
    · rfl
    · refine (key _ ?_ ?_ ?_).1 <;> rfl
    · refine (key _ ?_ ?_ ?_).2 <;> rfl
    · rfl
    · rfl
    · rfl
    · rfl
    · rfl
    · rfl
    · show (NEEDBITS 14 s).hold / 2 ^ 5 / 2 ^ 5 % 2 ^ 4 + 4 = s.sN X / 1024 % 16 + 4
      rw [n3]
    · show BITS 5 (NEEDBITS 14 s) + 257 = s.sN X % 32 + 257
      rw [n1]
    · show (NEEDBITS 14 s).hold / 2 ^ 5 % 2 ^ 5 + 1 = s.sN X / 32 % 32 + 1
      rw [n2]
    · rfl
    · rfl
    · rfl
    · rfl
    · rfl
  · have hst := (astep_at_TABLE hma : astep tb _ = _).trans (astep_TABLE_ok _ hL (fun c => h2 (hcnd.mp c)))
    have hr1 : refines tb X E Hp s
        { DROPBITS 4 { DROPBITS 5 { DROPBITS 5 { NEEDBITS 14 s with
              nlen := BITS 5 (NEEDBITS 14 s) + 257 } with
            ndist := (NEEDBITS 14 s).hold / 2 ^ 5 % 2 ^ 5 + 1 } with
          ncode := (NEEDBITS 14 s).hold / 2 ^ 5 / 2 ^ 5 % 2 ^ 4 + 4 } with
          have_ := 0
          mode := .LENLENS } := by
      refine refines_of_asteps rfl ⟨1, asteps_one (hst.trans (congrArg some (Eq.symm ?_)))⟩
      apply alpha_mk
      · rfl
      · refine (key _ ?_ ?_ ?_).1 <;> rfl
      · refine (key _ ?_ ?_ ?_).2 <;> rfl
      · rfl
      · rfl
      · rfl
      · rfl
      · rfl
      · rfl
      · show (NEEDBITS 14 s).hold / 2 ^ 5 / 2 ^ 5 % 2 ^ 4 + 4 = s.sN X / 1024 % 16 + 4
        rw [n3]
      · show BITS 5 (NEEDBITS 14 s) + 257 = s.sN X % 32 + 257
        rw [n1]
      · show (NEEDBITS 14 s).hold / 2 ^ 5 % 2 ^ 5 + 1 = s.sN X / 32 % 32 + 1
        rw [n2]
      · rfl
      · rfl
      · rfl
      · rfl
      · rfl
    refine refines_trans hr1 ?_
    refine ref_LENLENS tb X out E Hp _ _ htb ?_ rfl ?_ ?_ hc
    · exact ⟨h.sane, h.dmax, hI, div_pow_lt (div_pow_lt (div_pow_lt hh)),
        Or.inl hb, mode_inv_plain rfl⟩
    · exact acct_of_eq ha rfl rfl
    · exact wctx_of_eq hw rfl

theorem astep_mode {tb : table_builder} (X H : List Nat) (s : inflate_stream) (m : Mode)
    (hs : s.mode = .HEAD ∨ s.mode = .TYPE ∨ s.mode = .CHECK)
    (hm : (s.mode = .CHECK → m = .DONE) ∧ (s.mode ≠ .CHECK → m = .TYPEDO)) :
    astep tb (alpha X H s) = some (alpha X H { s with mode := m }) := by
  rcases hs with e | e | e
  · have : (alpha X H s).mode = .HEAD := by rw [am_of]; unfold amode_of; rw [e]
    unfold astep
    rw [this, hm.2 (by rw [e]; intro c; cases c)]
    rfl
  · have : (alpha X H s).mode = .TYPE := by rw [am_of]; unfold amode_of; rw [e]
    unfold astep
    rw [this, hm.2 (by rw [e]; intro c; cases c)]
    rfl
  · have : (alpha X H s).mode = .CHECK := by rw [am_of]; unfold amode_of; rw [e]
    unfold astep
    rw [this, hm.1 e]
    rfl

/-- Every pass through the `switch` is a run of steps of the decoder. -/
theorem step_refines (tb : table_builder) (X : List Nat) (out E : Nat) (Hp : List Nat)
    {fuel : Nat} {flush : Int} {s : inflate_stream} {ret : Int} {o : outcome}
    (htb : wf_builder tb) (h : Inv s) (ha : acct out E s)
    (hw : final_mode s.mode = false → wctx Hp s)
    (hc : step tb fuel flush out s ret = some o) : refines tb X E Hp s o.st := by
  have hE : E ≤ s.next_out.length := ha.1
  unfold step at hc
  cases hm : s.mode <;> rw [hm] at hc <;> dsimp only at hc
  · cases hc
    exact refines_of_asteps rfl ⟨1, asteps_one
      (astep_mode X _ s .TYPEDO (Or.inl hm) ⟨fun e => (by rw [hm] at e; cases e), fun _ => rfl⟩)⟩
  · cases hc; exact ref_TYPE tb X E Hp flush s ret hm
  · cases hc; exact ref_TYPEDO tb X E Hp flush s ret hm
  · cases hc; exact ref_STORED tb X E Hp flush s ret h hm hE
  · cases hc; exact ref_COPY tb X E Hp s ret h (Or.inl hm) hE
  · cases hc; exact ref_COPY tb X E Hp s ret h (Or.inr hm) hE
  · exact ref_TABLE tb X out E Hp s ret htb h hm ha (hw (by rw [hm]; rfl)) hc
  · exact ref_LENLENS tb X out E Hp s ret htb h hm ha (hw (by rw [hm]; rfl)) hc
  · exact ref_CODELENS tb X out E Hp s ret htb h hm ha (hw (by rw [hm]; rfl)) hc
  · exact ref_LEN tb X out E Hp s ret h (Or.inl hm) ha (hw (by rw [hm]; rfl)) hc
  · exact ref_LEN tb X out E Hp s ret h (Or.inr hm) ha (hw (by rw [hm]; rfl)) hc
  · cases hc; exact chain_refines (chain_LENEXT tb X out E Hp s ret h hm ha (hw (by rw [hm]; rfl)))
  · cases hc; exact chain_refines (chain_DIST tb X out E Hp s ret h hm ha (hw (by rw [hm]; rfl)))
  · cases hc; exact chain_refines (chain_DISTEXT tb X out E Hp s ret h hm ha (hw (by rw [hm]; rfl)))
  · cases hc; exact ref_MATCH tb X out E Hp s ret h hm ha (hw (by rw [hm]; rfl))
  · cases hc; exact ref_LIT tb X E Hp s ret hm hE
  · cases hc
    exact refines_of_asteps rfl ⟨1, asteps_one
      (astep_mode X _ s .DONE (Or.inr (Or.inr hm)) ⟨fun _ => rfl, fun e => absurd hm e⟩)⟩
  · cases hc; exact refines_refl _ _ _ _ _
  · cases hc; exact refines_refl _ _ _ _ _
  · cases hc; exact refines_refl _ _ _ _ _
  · cases hc; exact refines_refl _ _ _ _ _

/-- The passes of one call of `write` are a run of steps of the decoder. -/
theorem passes_refines (tb : table_builder) (X : List Nat) (out E : Nat) (Hp : List Nat)
    (htb : wf_builder tb) {flush : Int} {s : inflate_stream} {ret : Int} {o : outcome}
    (hp : passes tb flush out s ret o) :
    Inv s → acct out E s → (final_mode s.mode = false → wctx Hp s) →
      refines tb X E Hp s o.st := by
  induction hp with
  | last hs _ => intro h ha hw; exact step_refines tb X out E Hp htb h ha hw hs
  | next hs hp1 ih =>
    intro h ha hw
    obtain ⟨g1, g2⟩ := good_step out E htb h ha hs
    refine refines_trans (step_refines tb X out E Hp htb h ha hw hs)
      (ih g1 (acct_emits ha g2) (fun hq => ?_))
    rename_i fuel s0 r0 s1 r1 o1
    cases hf : final_mode s0.mode
    · exact wctx_of_eq (hw hf) (step_fixed hs)
    · exact Bool.noConfusion (step_final hs hf).1

/-- The function `updatewindow` touches the window and its three counters only. -/
theorem updatewindow_alpha (alloc : allocator) (s : inflate_stream) (e : List Nat) (c : Nat)
    (X H : List Nat) : alpha X H (updatewindow alloc s e c).1 = alpha X H s := by
  unfold updatewindow
  split
  · rfl
  · dsimp only
    split_ifs <;> rfl

/-- The code at `inf_leave` does not touch the state of the decoder, unless the window
allocation fails. -/
theorem inf_leave_alpha (alloc : allocator) (flush : Int) (in_ out : Nat) (s : inflate_stream)
    (ret : Int) (X H : List Nat) :
    (inf_leave alloc flush in_ out s ret).2.mode = .MEM ∨
    alpha X H (inf_leave alloc flush in_ out s ret).2 = alpha X H s := by
  have hu : alpha X H (leave_update alloc flush out s).1 = alpha X H s := by
    unfold leave_update
    split_ifs
    · exact updatewindow_alpha _ _ _ _ _ _
    · rfl
  unfold inf_leave
  dsimp only
  split_ifs
  · exact Or.inl rfl
  · right
    rw [← hu]
    rfl

/-- With a window of 32768 bytes the window of a stream between two calls holds the end
of the output, all of it up to 32768 bytes. -/
theorem wctx_of_between {S : inflate_stream} {Hp : List Nat} (hb : win_ok S Hp)
    (h15 : S.wbits = 15) (hf : final_mode S.mode = false) : wctx Hp S := by
  rcases hb with ⟨a, b, c⟩ | ⟨a, b, c⟩
  · have hs : S.wsize = 32768 := by rw [a.1, h15]; rfl
    exact ⟨by rw [c, hs], by rw [hs], Or.inr ⟨a, b⟩⟩
  · rcases c with c | c
    · subst c
      exact ⟨by rw [b]; rfl, by rw [a]; decide, Or.inl b⟩
    · rw [hf] at c
      cases c

/-- One call of `write` is a run of steps of the decoder: it leads to a state of the decoder
that has the output of the call, and that is the state of the stream afterwards unless the
window allocation failed; `X` is the input the caller has not presented yet and `Hp` the
output of the calls before. -/
theorem write_refines (tb : table_builder) (X : List Nat) (htb : wf_builder tb)
    {alloc : allocator} {fuel : Nat} {S : inflate_stream} {flush : Int} {r : Int}
    {s2 : inflate_stream} (Hp : List Nat) (hbt : between S Hp) (h15 : S.wbits = 15)
    (ho : S.avail_out < 4294967296) (hw : write tb alloc fuel S flush = some (r, s2)) :
    ∃ k a, asteps tb k (alpha X Hp S) = some a ∧
      a.H = Hp ++ s2.next_out.drop S.next_out.length ∧
      (s2.mode ≠ .MEM → a = alpha X (Hp ++ s2.next_out.drop S.next_out.length) s2) := by
  have h0 : Hp ++ S.next_out.drop S.next_out.length = Hp := by
    rw [List.drop_length, List.append_nil]
  by_cases hc : S.out_null = true ∨ (S.in_null = true ∧ S.avail_in ≠ 0)
  · rw [write_bad_args hc] at hw
    cases hw
    exact ⟨0, _, rfl, h0.symm, fun _ => by rw [h0]⟩
  rw [write_run hc] at hw
  obtain ⟨o, hp, hf⟩ := run_passes tb alloc flush _ _ fuel _ _ _ hw
  obtain ⟨e1, e2, e3, e4, e5⟩ := entry_out S
  have hent : refines tb X S.next_out.length Hp S (entry S) := by
    unfold entry
    split_ifs with hm
    · exact refines_of_asteps rfl ⟨1, asteps_one (astep_mode X _ S .TYPEDO (Or.inr (Or.inl hm))
        ⟨fun e => (by rw [hm] at e; cases e), fun _ => rfl⟩)⟩
    · exact refines_refl _ _ _ _ _
  have hacct : acct S.avail_out S.next_out.length (entry S) :=
    ⟨by rw [e2], by rw [e1, e2]; omega, ho⟩
  have hwc : final_mode (entry S).mode = false → wctx Hp (entry S) := by
    intro hf2
    have : final_mode S.mode = false := by
      rcases entry_mode S with e | ⟨e, _⟩
      · rw [← e]; exact hf2
      · rw [e]; rfl
    exact wctx_of_eq (wctx_of_between hbt.win h15 this) e3
  have href : refines tb X S.next_out.length Hp S o.st :=
    refines_trans hent (passes_refines tb X S.avail_out S.next_out.length Hp htb hp
      (Inv_entry hbt.inv) hacct hwc)
  unfold refines at href
  rw [h0] at href
  obtain ⟨k, hk⟩ := href
  cases o with
  | cont t rr => exact Bool.noConfusion (passes_not_cont hp)
  | done t rr =>
    cases hf
    exact ⟨k, _, hk, rfl, fun _ => rfl⟩
  | leave t rr =>
    have e : s2 = (inf_leave alloc flush S.avail_in S.avail_out t rr).2 := congrArg Prod.snd hf
    obtain ⟨-, -, a3⟩ := inf_leave_avail alloc flush S.avail_in S.avail_out t rr
    have a3 : s2.next_out = t.next_out := by rw [e]; exact a3
    refine ⟨k, _, hk, by rw [a3]; rfl, fun hM => ?_⟩
    rcases inf_leave_alpha alloc flush S.avail_in S.avail_out t rr X
      (Hp ++ t.next_out.drop S.next_out.length) with h1 | hA
    · rw [← e] at h1
      exact absurd h1 hM
    · rw [← e] at hA
      rw [a3, hA]
      rfl

theorem alpha_split (X H : List Nat) (s : inflate_stream) :
    alpha X H s = decoder_state s (s.next_in ++ X) H := by
  unfold decoder_state
  refine alpha_mk rfl ?_ ?_ rfl rfl rfl rfl rfl rfl rfl rfl rfl rfl rfl rfl rfl rfl
  · unfold inflate_stream.sN inflate_stream.sval inflate_stream.slen
    show s.hold + 2 ^ s.bits * bytes_val s.next_in +
        2 ^ (s.bits + 8 * s.next_in.length) * bytes_val X =
      s.hold + 2 ^ s.bits * bytes_val [] +
        2 ^ (s.bits + 8 * ([] : List Nat).length) * bytes_val (s.next_in ++ X)
    rw [bytes_val_append, pow_add, pow_add]
    simp only [bytes_val, List.length_nil, Nat.mul_zero, pow_zero]
    ring
  · unfold inflate_stream.sL inflate_stream.slen
    show s.bits + 8 * s.next_in.length + 8 * X.length =
      s.bits + 8 * ([] : List Nat).length + 8 * (s.next_in ++ X).length
    rw [List.length_append, List.length_nil]
    omega

theorem decoder_present (s : inflate_stream) (b : buffers) (I H : List Nat) :
    decoder_state (s.present b) I H = decoder_state s I H := rfl

/-- A call of `write` on a stream in the mode `MEM` leaves it there. -/
theorem write_MEM {tb : table_builder} {alloc : allocator} {fuel : Nat} {S : inflate_stream}
    {flush : Int} {r : Int} {s2 : inflate_stream}
    (hw : write tb alloc fuel S flush = some (r, s2)) (hm : S.mode = .MEM) :
    s2.mode = .MEM := by
  rcases write_result hw with ⟨-, -, e⟩ | ⟨-, ⟨-, -, e⟩ | ⟨-, -, e⟩ | ⟨h, -⟩⟩
  · rw [e]; exact hm
  · rw [e]; exact hm
  · rw [e]; exact hm
  · rw [hm] at h
    exact absurd h (by decide)

theorem session_MEM (tb : table_builder) (alloc : allocator) (fuel : Nat) :
    ∀ (calls : List (buffers × Int)) (s : inflate_stream) (tr : List call_record),
      session tb alloc fuel s calls = some tr → s.mode = .MEM →
      (final_stream s tr).mode = .MEM := by
  intro calls
  induction calls with
  | nil =>
    intro s tr h hm
    simp only [session, Option.some.injEq] at h
    subst h
    exact hm
  | cons bf rest ih =>
    intro s tr h hm
    obtain ⟨b, flush⟩ := bf
    unfold session at h
    rcases hw : write tb alloc fuel (s.present b) flush with _ | ⟨r, s1⟩
    · rw [hw] at h; cases h
    · rw [hw] at h
      dsimp only at h
      rcases hss : session tb alloc fuel s1 rest with _ | tr1
      · rw [hss] at h; cases h
      · rw [hss] at h
        injection h with h
        subst h
        exact ih s1 tr1 hss (write_MEM hw hm)

theorem updatewindow_wbits (alloc : allocator) (s : inflate_stream) (e : List Nat) (c : Nat) :
    (updatewindow alloc s e c).1.wbits = s.wbits := by
  unfold updatewindow
  split
  · rfl
  · dsimp only
    split_ifs <;> rfl

theorem inf_leave_wbits (alloc : allocator) (flush : Int) (in_ out : Nat) (s : inflate_stream)
    (ret : Int) : (inf_leave alloc flush in_ out s ret).2.wbits = s.wbits := by
  have hu : (leave_update alloc flush out s).1.wbits = s.wbits := by
    unfold leave_update
    split_ifs
    · exact updatewindow_wbits _ _ _ _
    · rfl
  unfold inf_leave
  dsimp only
  split_ifs
  · exact hu
  · exact hu

theorem write_wbits {tb : table_builder} {alloc : allocator} {fuel : Nat} {S : inflate_stream}
    {flush : Int} {r : Int} {s2 : inflate_stream}
    (hw : write tb alloc fuel S flush = some (r, s2)) : s2.wbits = S.wbits := by
  rcases write_result hw with ⟨-, -, e⟩ | ⟨-, ⟨-, -, e⟩ | ⟨-, -, e⟩ | ⟨-, s1, r1, c1, -, -, c4⟩⟩
  · rw [e]
  · rw [e]
  · rw [e]
  · have e2 : s2 = (inf_leave alloc flush S.avail_in S.avail_out s1 r1).2 := congrArg Prod.snd c4
    rw [e2, inf_leave_wbits]
    exact congrArg fixed_part.wbits c1

theorem session_MEM_history (tb : table_builder) (alloc : allocator) (fuel : Nat) :
    ∀ (calls : List (buffers × Int)) (s : inflate_stream) (tr : List call_record),
      session tb alloc fuel s calls = some tr → s.mode = .MEM → history tr = [] := by
  intro calls
  induction calls with
  | nil =>
    intro s tr h hm
    simp only [session, Option.some.injEq] at h
    subst h
    rfl
  | cons bf rest ih =>
    intro s tr h hm
    obtain ⟨b, flush⟩ := bf
    unfold session at h
    rcases hw : write tb alloc fuel (s.present b) flush with _ | ⟨r, s1⟩
    · rw [hw] at h; cases h
    · rw [hw] at h
      dsimp only at h
      rcases hss : session tb alloc fuel s1 rest with _ | tr1
      · rw [hss] at h; cases h
      · rw [hss] at h
        injection h with h
        subst h
        rw [history_cons, ih s1 tr1 hss (write_MEM hw hm), List.append_nil]
        have e : s1 = s.present b := by
          rcases write_result hw with ⟨-, -, e⟩ | ⟨-, ⟨-, -, e⟩ | ⟨-, -, e⟩ | ⟨h, -⟩⟩
          · exact e
          · exact e
          · exact e
          · have hm2 : (s.present b).mode = .MEM := hm
            rw [hm2] at h
            exact absurd h (by decide)
        show s1.next_out.drop (s.present b).next_out.length = []
        rw [e, List.drop_length]

/-- A session of calls that read the input `I` in order is a run of steps of the decoder
on `I`: it leads to a state of the decoder that has the output of the session, and that
is the state of the stream at the end unless a window allocation failed. -/
theorem session_refines (tb : table_builder) (htb : wf_builder tb) {alloc : allocator}
    (halloc : ∀ n w, alloc n = some w → w.length = n) (fuel : Nat) :
    ∀ (calls : List (buffers × Int)) (s : inflate_stream) (H I : List Nat)
      (tr : List call_record),
      session tb alloc fuel s calls = some tr → ready s H → s.wbits = 15 →
      (∀ c ∈ calls, bytes c.1.next_in ∧ c.1.avail_out < 4294967296) →
      feeds I tr = true →
      ∃ k a, asteps tb k (decoder_state s I H) = some a ∧ a.H = H ++ history tr ∧
        ((final_stream s tr).mode ≠ .MEM →
          a = decoder_state (final_stream s tr) (unread I tr) (H ++ history tr)) := by
  intro calls
  induction calls with
  | nil =>
    intro s H I tr h hs _ _ _
    simp only [session, Option.some.injEq] at h
    subst h
    refine ⟨0, _, rfl, ?_, fun _ => ?_⟩
    · simp [history, decoder_state, alpha]
    · simp [final_stream, history, unread]
  | cons bf rest ih =>
    intro s H I tr h hs h15 hall hfeed
    obtain ⟨b, flush⟩ := bf
    unfold session at h
    rcases hw : write tb alloc fuel (s.present b) flush with _ | ⟨r, s1⟩
    · rw [hw] at h; cases h
    · rw [hw] at h
      dsimp only at h
      rcases hss : session tb alloc fuel s1 rest with _ | tr1
      · rw [hss] at h; cases h
      · rw [hss] at h
        injection h with h
        subst h
        have hb := hall (b, flush) (List.mem_cons_self _ _)
        have h0 : between (s.present b) H := hs.1 b hb.1
        obtain ⟨W, w1, w2, w3⟩ := write_between htb halloc h0 hb.2 hw
        have t1 : tot_ok s1 (H ++ W) := write_tot h0 (tot_present b hs.2) hb.2 hw W w2
        have hW : s1.next_out.drop (s.present b).next_out.length = W := by
          rw [w1]; simp
        unfold feeds at hfeed
        rw [Bool.and_eq_true] at hfeed
        obtain ⟨hpre, hfeed⟩ := hfeed
        have hI : I = b.next_in ++ I.drop b.next_in.length := by
          obtain ⟨t, ht⟩ := List.isPrefixOf_iff_prefix.mp hpre
          have ht : b.next_in ++ t = I := ht
          rw [← ht, List.drop_left]
        show ∃ k a, asteps tb k (decoder_state s I H) = some a ∧
          a.H = H ++ history (⟨s.present b, r, s1⟩ :: tr1) ∧
          ((final_stream s1 tr1).mode ≠ .MEM →
            a = decoder_state (final_stream s1 tr1)
              (unread (s1.next_in ++ I.drop b.next_in.length) tr1)
              (H ++ history (⟨s.present b, r, s1⟩ :: tr1)))
        rw [history_cons]
        dsimp only
        rw [hW, ← List.append_assoc]
        obtain ⟨k, a1, hk, hH, hnm⟩ :=
          write_refines tb (I.drop b.next_in.length) htb H h0 h15 hb.2 hw
        rw [hW] at hH hnm
        have hk : asteps tb k (decoder_state s I H) = some a1 := by
          rw [alpha_split] at hk
          have e : (s.present b).next_in ++ I.drop b.next_in.length = I := hI.symm
          rw [e, decoder_present] at hk
          exact hk
        by_cases hM : s1.mode = .MEM
        · refine ⟨k, a1, hk, ?_, fun hne => ?_⟩
          · rw [session_MEM_history tb alloc fuel rest s1 tr1 hss hM, List.append_nil]
            exact hH
          · exact absurd (session_MEM tb alloc fuel rest s1 tr1 hss hM) hne
        · obtain ⟨j, a2, hj, hH2, hnm2⟩ :=
            ih s1 (H ++ W) (s1.next_in ++ I.drop b.next_in.length) tr1 hss
              ⟨fun b2 hb2 => between_present b2 w3 hb2, t1⟩
              ((write_wbits hw).trans h15)
              (fun c2 hc2 => hall c2 (List.mem_cons_of_mem _ hc2)) hfeed
          refine ⟨k + j, a2, asteps_add tb k j _ _ _ hk ?_, hH2, hnm2⟩
          rw [hnm hM, alpha_split]
          exact hj

theorem asteps_split (tb : table_builder) : ∀ (j k : Nat) (a b : astate),
    asteps tb j a = some b → asteps tb (j + k) a = asteps tb k b := by
  intro j
  induction j with
  | zero =>
    intro k a b h
    simp only [asteps, Option.some.injEq] at h
    subst h
    rw [Nat.zero_add]
  | succ n ih =>
    intro k a b h
    rw [show n + 1 + k = (n + k) + 1 by omega]
    unfold asteps at h
    conv_lhs => unfold asteps
    rcases hs : astep tb a with _ | a1
    · rw [hs] at h; cases h
    · rw [hs] at h
      exact ih k a1 b h

theorem asteps_stuck {tb : table_builder} {b : astate} (h : astep tb b = none) (k : Nat) :
    asteps tb (k + 1) b = none := by
  unfold asteps
  rw [h]

/-- The decoder ends in one state: a run from `a` that can be extended no further ends in
the state every other run from `a` leads towards. -/
theorem asteps_towards {tb : table_builder} {j k : Nat} {a b c : astate}
    (hb : asteps tb j a = some b) (hc : asteps tb k a = some c) (hend : astep tb c = none) :
    ∃ d, asteps tb d b = some c := by
  rcases Nat.le_total j k with h | h
  · obtain ⟨d, hd⟩ := Nat.exists_eq_add_of_le h
    refine ⟨d, ?_⟩
    rw [← asteps_split tb j d a b hb, ← hd]
    exact hc
  · obtain ⟨d, hd⟩ := Nat.exists_eq_add_of_le h
    have := asteps_split tb k d a c hc
    rw [← hd, hb] at this
    cases d with
    | zero =>
      simp only [asteps, Option.some.injEq] at this
      exact ⟨0, by rw [this]; rfl⟩
    | succ n =>
      rw [asteps_stuck hend n] at this
      cases this

theorem asteps_det {tb : table_builder} {j k : Nat} {a b c : astate}
    (hb : asteps tb j a = some b) (hc : asteps tb k a = some c) (hbe : astep tb b = none)
    (hend : astep tb c = none) : b = c := by
  obtain ⟨d, hd⟩ := asteps_towards hb hc hend
  cases d with
  | zero =>
    simp only [asteps, Option.some.injEq] at hd
    exact hd
  | succ n =>
    rw [asteps_stuck hbe n] at hd
    cases hd

theorem astep_end {tb : table_builder} {a : astate}
    (h : a.mode = .DONE ∨ a.mode = .BAD) : astep tb a = none := by
  unfold astep
  rcases h with h | h <;> rw [h]

/-- A step of the decoder only appends to the output. -/
theorem astep_H {tb : table_builder} {a b : astate} (h : astep tb a = some b) :
    a.H <+: b.H := by
  unfold astep at h
  split at h
  all_goals first
    | (cases h; done)
    | (cases h; exact List.prefix_refl _)
    | (cases h; exact List.prefix_append _ _)
    | (unfold astep_TYPEDO at h
       split_ifs at h
       · cases h; exact List.prefix_refl _
       · split at h <;> cases h <;> exact List.prefix_refl _)
    | (unfold astep_STORED astate.bad astate.drop at h
       split_ifs at h <;> cases h <;> exact List.prefix_refl _)
    | (unfold astep_COPY astate.drop at h
       split_ifs at h <;> cases h <;> first | exact List.prefix_refl _ | exact List.prefix_append _ _)
    | (unfold astep_TABLE astate.drop at h
       split_ifs at h <;> cases h <;> exact List.prefix_refl _)
    | (unfold astep_LENLENS astate.drop at h
       dsimp only at h
       split_ifs at h <;> cases h <;> exact List.prefix_refl _)
    | (unfold astep_codelen astep_tables astate.bad astate.drop at h
       split_ifs at h <;> cases h <;> exact List.prefix_refl _)
    | (unfold astep_LEN astate.bad astate.drop at h
       split at h
       · cases h
       · split_ifs at h <;> cases h <;> exact List.prefix_refl _)
    | (unfold astep_DIST astate.bad astate.drop at h
       split at h
       · cases h
       · split_ifs at h <;> cases h <;> exact List.prefix_refl _)
    | (unfold astep_MATCH astate.bad at h
       split_ifs at h <;> cases h <;> first | exact List.prefix_refl _ | exact List.prefix_append _ _)
    | (unfold astate.drop at h
       split_ifs at h <;> cases h <;> exact List.prefix_refl _)

theorem asteps_H {tb : table_builder} : ∀ (k : Nat) (a b : astate),
    asteps tb k a = some b → a.H <+: b.H := by
  intro k
  induction k with
  | zero =>
    intro a b h
    simp only [asteps, Option.some.injEq] at h
    subst h
    exact List.prefix_refl _
  | succ n ih =>
    intro a b h
    unfold asteps at h
    rcases hs : astep tb a with _ | a1
    · rw [hs] at h; cases h
    · rw [hs] at h
      exact (astep_H hs).trans (ih a1 b h)

theorem reset_refines (tb : table_builder) (htb : wf_builder tb) {alloc : allocator}
    (halloc : ∀ n w, alloc n = some w → w.length = n) (fuel : Nat) {t s0 : inflate_stream}
    (hwin : ∀ x, t.window = some x → x.length = 2 ^ t.wbits) (hreset : reset 15 t = some s0)
    {calls : List (buffers × Int)} {tr : List call_record}
    (hs : session tb alloc fuel s0 calls = some tr)
    (hb : ∀ c ∈ calls, bytes c.1.next_in ∧ c.1.avail_out < 4294967296) {I : List Nat}
    (hf : feeds I tr = true) :
    ∃ k a, asteps tb k (decoder_state s0 I []) = some a ∧ a.H = history tr ∧
      ((final_stream s0 tr).mode ≠ .MEM →
        a = decoder_state (final_stream s0 tr) (unread I tr) (history tr)) := by
  obtain ⟨k, a, h1, h2, h3⟩ := session_refines tb htb halloc fuel calls s0 [] I tr hs
    (reset_ready hreset hwin) (reset_fields hreset).2.2.2.2.2.2.2.2.2.2.2.2.2.1 hb hf
  rw [List.nil_append] at h2 h3
  exact ⟨k, a, h1, h2, h3⟩

theorem decoder_mode (s : inflate_stream) (I H : List Nat) :
    (decoder_state s I H).mode = amode_of s := rfl

theorem decoder_end {tb : table_builder} (s : inflate_stream) (I H : List Nat)
    (h : s.mode = .DONE ∨ s.mode = .BAD) : astep tb (decoder_state s I H) = none := by
  apply astep_end
  rw [decoder_mode]
  unfold amode_of
  rcases h with h | h <;> rw [h]
  · exact Or.inl rfl
  · exact Or.inr rfl

/-- A call of `write` returns `Z_DATA_ERROR` only with the stream in the mode `BAD`. -/
theorem data_error_mode {tb : table_builder} {alloc : allocator} {fuel : Nat}
    {S : inflate_stream} {flush : Int} {r : Int} {s2 : inflate_stream}
    (hw : write tb alloc fuel S flush = some (r, s2)) (hr : r = Z_DATA_ERROR) :
    s2.mode = .BAD := by
  rcases write_result hw with ⟨-, e, -⟩ | ⟨hc, ⟨-, e, -⟩ | ⟨-, e, -⟩ | ⟨hrank, -⟩⟩
  · rw [e] at hr; exact absurd hr (by decide)
  · rw [e] at hr; exact absurd hr (by decide)
  · rw [e] at hr; exact absurd hr (by decide)
  · rw [write_run hc] at hw
    obtain ⟨o, hp, hf⟩ := run_passes tb alloc flush _ _ fuel _ _ _ hw
    obtain ⟨p1, p2, -⟩ := passes_end hp (Or.inl rfl)
    cases o with
    | cont t rr => exact Bool.noConfusion (passes_not_cont hp)
    | done t rr =>
      exfalso
      obtain ⟨-, hm⟩ := p1 rfl
      rcases entry_mode S with e | ⟨-, e⟩
      · rw [e] at hm
        rcases hm with hm | hm <;> rw [hm] at hrank <;> exact absurd hrank (by decide)
      · rw [e] at hm
        rcases hm with hm | hm <;> cases hm
    | leave t rr =>
      have e1 : r = (inf_leave alloc flush S.avail_in S.avail_out t rr).1 := congrArg Prod.fst hf
      have e2 : s2 = (inf_leave alloc flush S.avail_in S.avail_out t rr).2 := congrArg Prod.snd hf
      by_cases hu : (leave_update alloc flush S.avail_out t).2 = 0
      · obtain ⟨k1, k2, -⟩ := inf_leave_ok alloc flush S.avail_in S.avail_out t rr hu
        rw [e2, k2]
        rw [e1, k1] at hr
        have hrr : rr = Z_DATA_ERROR := by
          unfold leave_ret at hr
          split_ifs at hr
          · exact absurd hr (by decide)
          · exact hr
        rcases p2 rfl with h | ⟨h, -⟩ | ⟨-, h⟩
        · have h : rr = Z_OK := h
          rw [h] at hrr; exact absurd hrr (by decide)
        · have h : rr = Z_STREAM_END := h
          rw [h] at hrr; exact absurd hrr (by decide)
        · exact h
      · exfalso
        rw [e1] at hr
        unfold inf_leave at hr
        dsimp only at hr
        rw [if_pos hu] at hr
        have hr : Z_MEM_ERROR = Z_DATA_ERROR := hr
        exact absurd hr (by decide)

theorem reaches_refl (tb : table_builder) (a : astate) : reaches tb a a := ⟨0, rfl⟩

theorem reaches_trans {tb : table_builder} {a b c : astate} (h1 : reaches tb a b)
    (h2 : reaches tb b c) : reaches tb a c := by
  obtain ⟨j, hj⟩ := h1
  obtain ⟨k, hk⟩ := h2
  exact ⟨j + k, asteps_add tb j k a b c hj hk⟩

theorem reaches_step {tb : table_builder} {a b : astate} (h : astep tb a = some b) :
    reaches tb a b := ⟨1, asteps_one h⟩

theorem reaches_aseg {tb : table_builder} {a b : astate} (h : aseg tb a b) :
    reaches tb a b := by
  obtain ⟨k, hk⟩ := aseg_asteps h
  exact ⟨k + 1, hk⟩

theorem bitrev_lt : ∀ (n x : Nat), bitrev n x < 2 ^ n := by
  intro n
  induction n with
  | zero => intro x; simp [bitrev]
  | succ n ih =>
    intro x
    unfold bitrev
    have h1 := ih (x / 2)
    have h2 : x % 2 < 2 := Nat.mod_lt _ (by norm_num)
    have h3 : x % 2 * 2 ^ n ≤ 1 * 2 ^ n := Nat.mul_le_mul_right _ (by omega)
    rw [pow_succ]; omega

theorem huff_lt (lens : List Nat) (sym : Nat) : (huff lens sym).1 < 2 ^ (huff lens sym).2 :=
  bitrev_lt _ _

theorem bcat_lt {x y : Nat × Nat} (hx : x.1 < 2 ^ x.2) (hy : y.1 < 2 ^ y.2) :
    (bcat x y).1 < 2 ^ (bcat x y).2 := by
  show x.1 + 2 ^ x.2 * y.1 < 2 ^ (x.2 + y.2)
  rw [pow_add]
  have : 2 ^ x.2 * (y.1 + 1) ≤ 2 ^ x.2 * 2 ^ y.2 := Nat.mul_le_mul_left _ hy
  rw [Nat.mul_add, Nat.mul_one] at this
  omega

theorem starts_bcat {N L : Nat} {x y : Nat × Nat} (hx : x.1 < 2 ^ x.2)
    (h : starts N L (bcat x y)) : starts N L x ∧ starts (N / 2 ^ x.2) (L - x.2) y := by
  obtain ⟨h1, h2⟩ := h
  have h1 : x.2 + y.2 ≤ L := h1
  have h2 : N % 2 ^ (x.2 + y.2) = x.1 + 2 ^ x.2 * y.1 := h2
  refine ⟨⟨by omega, ?_⟩, ⟨by omega, ?_⟩⟩
  · rw [← mod_pow_of_le N (Nat.le_add_right x.2 y.2), h2, Nat.add_mul_mod_self_left,
      Nat.mod_eq_of_lt hx]
  · rw [← Nat.add_sub_cancel_left (n := x.2) (m := y.2), ← mod_pow_div N (Nat.le_add_right _ _), h2,
      Nat.add_mul_div_left _ _ (Nat.two_pow_pos _), Nat.div_eq_of_lt hx, Nat.zero_add]

theorem starts_Ast {z : astate} {c : Nat} {x y : Nat × Nat} (hx : x.1 < 2 ^ x.2)
    (h : starts (z.N / 2 ^ c) (z.L - c) (bcat x y)) :
    starts (z.N / 2 ^ c) (z.L - c) x ∧ starts (z.N / 2 ^ (c + x.2)) (z.L - (c + x.2)) y := by
  obtain ⟨h1, h2⟩ := starts_bcat hx h
  refine ⟨h1, ?_⟩
  rw [div_div_pow, Nat.sub_sub] at h2
  exact h2

theorem lz_copy_eq (d : Nat) : ∀ (n : Nat) (H : List Nat), lz_copy d n H = out_copy d n H := by
  intro n
  induction n with
  | zero => intro H; rfl
  | succ n ih => intro H; unfold lz_copy out_copy; exact ih _

theorem lext_le {ls : Nat} (h : ls < 29) : lext ls ≤ 5 := by
  unfold lext; split_ifs <;> omega

theorem dext_le {ds : Nat} (h : ds < 30) : dext ds ≤ 13 := by
  unfold dext; omega

theorem lbase_pos (ls : Nat) : 1 ≤ lbase ls := by
  unfold lbase; split_ifs <;> omega

/-- The decoder on a literal. -/
theorem token_lit {tb : table_builder} {z : astate} {ll : List Nat}
    (hlen : decodes_len (code_at z.codes z.lencode) z.lenbits ll)
    (c : Nat) (H : List Nat) (msg : Option String) {b : Nat} (hb : b < 256)
    (hc : ll.getD b 0 ≠ 0)
    (hs : starts (z.N / 2 ^ c) (z.L - c) (huff ll b)) :
    reaches tb (Ast z c H .LEN msg) (Ast z (c + (huff ll b).2) (H ++ [b]) .LEN msg) := by
  obtain ⟨e, he, hop, hval⟩ := hlen b (by omega) hc _ _ hs.1 hs.2
  have hop : e.op = 0 := by rw [hop]; unfold lensym; rw [if_pos hb]
  have hval : e.val = b := by rw [hval]; unfold lensym; rw [if_pos hb]
  have h1 := astep_Ast_LEN tb z c H msg he
  rw [if_pos hop, hval] at h1
  have h2 := astep_Ast_LIT tb z (c + ll.getD b 0) H msg b
  rw [Nat.mod_eq_of_lt hb] at h2
  exact reaches_trans (reaches_step h1) (reaches_step h2)

/-- The decoder on the end-of-block symbol. -/
theorem token_end (tb : table_builder) {z : astate} {ll : List Nat}
    (hlen : decodes_len (code_at z.codes z.lencode) z.lenbits ll)
    (c : Nat) (H : List Nat) (msg : Option String) (hc : ll.getD 256 0 ≠ 0)
    (hs : starts (z.N / 2 ^ c) (z.L - c) (huff ll 256)) :
    reaches tb (Ast z c H .LEN msg) (Ast z (c + (huff ll 256).2) H .TYPE msg) := by
  obtain ⟨e, he, hop, hval⟩ := hlen 256 (by omega) hc _ _ hs.1 hs.2
  have hop : e.op = 96 := by rw [hop]; rfl
  have h1 := astep_Ast_LEN tb z c H msg he
  rw [if_neg (by rw [hop]; decide), if_pos (by rw [hop]; decide)] at h1
  exact reaches_step h1

/-- The decoder on a length and distance pair. -/
theorem token_ref {tb : table_builder} {z : astate} {ll dl : List Nat}
    (hlen : decodes_len (code_at z.codes z.lencode) z.lenbits ll)
    (hdist : decodes_dist (code_at z.codes z.distcode) z.distbits dl)
    (c : Nat) (H : List Nat) (msg : Option String) {ls le ds de : Nat}
    (hok : ok_token ll dl H (.ref ls le ds de) = true)
    (hs : starts (z.N / 2 ^ c) (z.L - c) (enc_token ll dl (.ref ls le ds de))) :
    reaches tb (Ast z c H .LEN msg)
      (Ast z (c + (enc_token ll dl (.ref ls le ds de)).2)
        (lz_copy (dbase ds + de) (lbase ls + le) H) .LEN msg) := by
  simp only [ok_token, Bool.and_eq_true, decide_eq_true_eq] at hok
  obtain ⟨⟨⟨⟨⟨⟨⟨k1, k2⟩, k3⟩, k4⟩, k5⟩, k6⟩, k7⟩, k8⟩ := hok
  have hs : starts (z.N / 2 ^ c) (z.L - c)
      (bcat (huff ll (257 + ls)) (bcat (le, lext ls) (bcat (huff dl ds) (de, dext ds)))) := hs
  obtain ⟨s1, hs⟩ := starts_Ast (huff_lt _ _) hs
  obtain ⟨s2, hs⟩ := starts_Ast (x := (le, lext ls)) k2 hs
  obtain ⟨s3, s4⟩ := starts_Ast (huff_lt _ _) hs
  have e2 : (huff ll (257 + ls)).2 = ll.getD (257 + ls) 0 := rfl
  have e3 : (huff dl ds).2 = dl.getD ds 0 := rfl
  have e0 : (enc_token ll dl (.ref ls le ds de)).2 =
      ll.getD (257 + ls) 0 + (lext ls + (dl.getD ds 0 + dext ds)) := rfl
  simp only [e2, e3] at s1 s2 s3 s4
  -- the length symbol
  obtain ⟨e, he, hop, hval⟩ := hlen (257 + ls) (by omega) k4 _ _ s1.1 s1.2
  have hop : e.op = 16 + lext ls := by
    rw [hop]; unfold lensym
    rw [if_neg (by omega), if_neg (by omega), if_pos (by omega), Nat.add_sub_cancel_left]
  have hval : e.val = lbase ls := by
    rw [hval]; unfold lensym
    rw [if_neg (by omega), if_neg (by omega), if_pos (by omega), Nat.add_sub_cancel_left]
  have hl5 := lext_le k1
  obtain ⟨f1, f2, f3, f4, -⟩ := (op_facts e.op (by omega)).1 ⟨by omega, by omega⟩
  have h1 := astep_Ast_LEN tb z c H msg he
  rw [if_neg (by omega), if_neg (by rw [f2]; decide), if_neg (by rw [f3]; decide), hval, f4, hop,
    Nat.add_sub_cancel_left] at h1
  -- its extra bits
  have h2 := astep_Ast_LENEXT tb z (c + ll.getD (257 + ls) 0) H msg (lbase ls) (lext ls) s2.1
  have s22 : z.N / 2 ^ (c + ll.getD (257 + ls) 0) % 2 ^ lext ls = le := s2.2
  rw [s22] at h2
  -- the distance symbol
  obtain ⟨g, hg, gop, gval⟩ := hdist ds k5 k7 _ _ s3.1 s3.2
  have gop : g.op = 16 + dext ds := by rw [gop]; unfold distsym; rw [if_pos k5]
  have gval : g.val = dbase ds := by rw [gval]; unfold distsym; rw [if_pos k5]
  have hd13 := dext_le k5
  obtain ⟨g1, g2, g3, g4, -⟩ := (op_facts g.op (by omega)).1 ⟨by omega, by omega⟩
  have h3 := astep_Ast_DIST tb z (c + ll.getD (257 + ls) 0 + lext ls) H msg (lbase ls + le) hg
  rw [if_neg (by rw [g3]; decide), gval, g4, gop, Nat.add_sub_cancel_left] at h3
  -- its extra bits
  have h4 := astep_Ast_DISTEXT tb z (c + ll.getD (257 + ls) 0 + lext ls + dl.getD ds 0) H msg
    (lbase ls + le) (dbase ds) (dext ds) s4.1
  have s42 : z.N / 2 ^ (c + ll.getD (257 + ls) 0 + lext ls + dl.getD ds 0) % 2 ^ dext ds = de :=
    s4.2
  rw [s42] at h4
  -- the copy
  have h5 := aseg_Ast_MATCH tb z (c + ll.getD (257 + ls) 0 + lext ls + dl.getD ds 0 + dext ds) H
    msg (lbase ls + le) (dbase ds + de) (by have := lbase_pos ls; omega) k8
  rw [← lz_copy_eq] at h5
  have ec : c + (enc_token ll dl (.ref ls le ds de)).2 =
      c + ll.getD (257 + ls) 0 + lext ls + dl.getD ds 0 + dext ds := by rw [e0]; omega
  rw [ec]
  exact reaches_trans (reaches_step h1) (reaches_trans (reaches_step h2)
    (reaches_trans (reaches_step h3) (reaches_trans (reaches_step h4) (reaches_aseg h5))))

theorem enc_token_lt {ll dl : List Nat} {H : List Nat} {t : token}
    (hok : ok_token ll dl H t = true) :
    (enc_token ll dl t).1 < 2 ^ (enc_token ll dl t).2 := by
  cases t with
  | lit b => exact huff_lt _ _
  | ref ls le ds de =>
    simp only [ok_token, Bool.and_eq_true, decide_eq_true_eq] at hok
    obtain ⟨⟨⟨⟨⟨⟨⟨k1, k2⟩, k3⟩, k4⟩, k5⟩, k6⟩, k7⟩, k8⟩ := hok
    exact bcat_lt (huff_lt _ _) (bcat_lt (x := (le, lext ls)) k2
      (bcat_lt (y := (de, dext ds)) (huff_lt _ _) k6))

/-- The decoder on one token. -/
theorem token_run (tb : table_builder) {z : astate} {ll dl : List Nat}
    (hlen : decodes_len (code_at z.codes z.lencode) z.lenbits ll)
    (hdist : decodes_dist (code_at z.codes z.distcode) z.distbits dl)
    (c : Nat) (H : List Nat) (msg : Option String) {t : token}
    (hok : ok_token ll dl H t = true)
    (hs : starts (z.N / 2 ^ c) (z.L - c) (enc_token ll dl t)) :
    reaches tb (Ast z c H .LEN msg) (Ast z (c + (enc_token ll dl t).2) (t.out H) .LEN msg) := by
  cases t with
  | lit b =>
    have hok2 := hok
    simp only [ok_token, Bool.and_eq_true, decide_eq_true_eq] at hok2
    exact token_lit hlen c H msg hok2.1 hok2.2 hs
  | ref ls le ds de => exact token_ref hlen hdist c H msg hok hs

/-- The decoder on a sequence of tokens. -/
theorem tokens_run (tb : table_builder) {z : astate} {ll dl : List Nat}
    (hlen : decodes_len (code_at z.codes z.lencode) z.lenbits ll)
    (hdist : decodes_dist (code_at z.codes z.distcode) z.distbits dl)
    (msg : Option String) : ∀ (ts : List token) (c : Nat) (H : List Nat) (y : Nat × Nat),
    ok_tokens ll dl ts H = true →
    starts (z.N / 2 ^ c) (z.L - c) (bcat (enc_tokens ll dl ts) y) →
    reaches tb (Ast z c H .LEN msg)
      (Ast z (c + (enc_tokens ll dl ts).2) (tokens_out ts H) .LEN msg) ∧
    starts (z.N / 2 ^ (c + (enc_tokens ll dl ts).2)) (z.L - (c + (enc_tokens ll dl ts).2)) y := by
  intro ts
  induction ts with
  | nil =>
    intro c H y _ hs
    have e : bcat (enc_tokens ll dl []) y = y := by
      show ((0 : Nat) + 2 ^ 0 * y.1, 0 + y.2) = y
      simp
    rw [e] at hs
    exact ⟨reaches_refl _ _, hs⟩
  | cons t ts ih =>
    intro c H y hok hs
    simp only [ok_tokens, Bool.and_eq_true] at hok
    have hlt := enc_token_lt hok.1
    have e : bcat (enc_tokens ll dl (t :: ts)) y =
        bcat (enc_token ll dl t) (bcat (enc_tokens ll dl ts) y) := by
      show (_ + 2 ^ _ * _, _) = ((_ : Nat) + 2 ^ _ * (_ + 2 ^ _ * _), _)
      simp only [enc_tokens, bcat, pow_add, Prod.mk.injEq]
      constructor
      · ring
      · omega
    rw [e] at hs
    obtain ⟨s1, s2⟩ := starts_Ast hlt hs
    have h1 := token_run tb hlen hdist c H msg hok.1 s1
    obtain ⟨h2, s3⟩ := ih (c + (enc_token ll dl t).2) (t.out H) y hok.2 s2
    have ec : c + (enc_tokens ll dl (t :: ts)).2 =
        c + (enc_token ll dl t).2 + (enc_tokens ll dl ts).2 := by
      show c + ((enc_token ll dl t).2 + (enc_tokens ll dl ts).2) = _
      omega
    rw [ec]
    exact ⟨reaches_trans h1 h2, s3⟩

theorem bcat_assoc (x y z : Nat × Nat) : bcat (bcat x y) z = bcat x (bcat y z) := by
  simp only [bcat, pow_add, Prod.mk.injEq]
  constructor
  · ring
  · omega

theorem bcat_nil (y : Nat × Nat) : bcat (0, 0) y = y := by
  show ((0 : Nat) + 2 ^ 0 * y.1, 0 + y.2) = y
  simp

theorem bcat_snd (x y : Nat × Nat) : (bcat x y).2 = x.2 + y.2 := rfl

theorem drop_zero (a : astate) : a.drop 0 = a := by
  cases a
  simp [astate.drop]

theorem drop_drop (a : astate) (m n : Nat) : (a.drop m).drop n = a.drop (m + n) := by
  cases a
  simp only [astate.drop, div_div_pow, Nat.sub_sub]

/-- A table without second-level tables in use for the code lengths `ll` decodes the
code when the entry under each code is the entry of its symbol. -/
theorem decodes_len_flat {T : Nat → code} {root : Nat} {ll : List Nat}
    (hwf : wf_table len_term T root = true)
    (h : ∀ sym, sym < 286 → ll.getD sym 0 ≠ 0 →
      (huff ll sym).1 < 2 ^ root ∧ is_link (T (huff ll sym).1).op = false ∧
      (T (huff ll sym).1).bits = ll.getD sym 0 ∧
      (T (huff ll sym).1).op = (lensym 0 sym).op ∧
      (T (huff ll sym).1).val = (lensym 0 sym).val) :
    decodes_len T root ll := by
  intro sym hsym hne N L hL hN
  obtain ⟨h1, h2, h3, h4, h5⟩ := h sym hsym hne
  obtain ⟨-, hb, hst⟩ := wf_first hwf h1
  have hi : N % 2 ^ root < 2 ^ root := pow_mod_lt _ _
  have hT : T (N % 2 ^ root) = T (huff ll sym).1 := by
    have := hst (N % 2 ^ root) hi (by
      rw [Nat.zero_add, h3, mod_pow_of_le N (by rw [← h3]; exact hb), hN]
      exact (Nat.mod_eq_of_lt (huff_lt ll sym)).symm)
    simpa using this
  refine ⟨T (huff ll sym).1, ?_, h4, h5⟩
  unfold adecode
  rw [hT, if_neg (by rw [h3]; omega), h3]
  have hnl : len_link (T (huff ll sym).1) = false := by
    unfold len_link
    rw [decide_eq_false_iff_not]
    intro hc
    have := (len_link_iff hwf h1).mp hc
    rw [h2] at this
    cases this
  rw [hnl]
  rfl

/-- The same for a distance table. -/
theorem decodes_dist_flat {T : Nat → code} {root : Nat} {dl : List Nat}
    (hwf : wf_table dist_term T root = true)
    (h : ∀ sym, sym < 30 → dl.getD sym 0 ≠ 0 →
      (huff dl sym).1 < 2 ^ root ∧ is_link (T (huff dl sym).1).op = false ∧
      (T (huff dl sym).1).bits = dl.getD sym 0 ∧
      (T (huff dl sym).1).op = (distsym 0 sym).op ∧
      (T (huff dl sym).1).val = (distsym 0 sym).val) :
    decodes_dist T root dl := by
  intro sym hsym hne N L hL hN
  obtain ⟨h1, h2, h3, h4, h5⟩ := h sym hsym hne
  obtain ⟨-, hb, hst⟩ := wf_first hwf h1
  have hi : N % 2 ^ root < 2 ^ root := pow_mod_lt _ _
  have hT : T (N % 2 ^ root) = T (huff dl sym).1 := by
    have := hst (N % 2 ^ root) hi (by
      rw [Nat.zero_add, h3, mod_pow_of_le N (by rw [← h3]; exact hb), hN]
      exact (Nat.mod_eq_of_lt (huff_lt dl sym)).symm)
    simpa using this
  refine ⟨T (huff dl sym).1, ?_, h4, h5⟩
  unfold adecode
  rw [hT, if_neg (by rw [h3]; omega), h3]
  have hnl : dist_link (T (huff dl sym).1) = false := by
    unfold dist_link
    rw [decide_eq_false_iff_not]
    intro hc
    have := (dist_link_iff hwf h1).mp hc
    rw [h2] at this
    cases this
  rw [hnl]
  rfl

set_option maxRecDepth 1000000 in
theorem fixed_len_entries : ∀ sym, sym < 286 → fixed_ll.getD sym 0 ≠ 0 →
      (huff fixed_ll sym).1 < 2 ^ 9 ∧
      is_link ((fun i => if i < 512 then lenfix_entry i else default) (huff fixed_ll sym).1).op
        = false ∧
      ((fun i => if i < 512 then lenfix_entry i else default) (huff fixed_ll sym).1).bits =
        fixed_ll.getD sym 0 ∧
      ((fun i => if i < 512 then lenfix_entry i else default) (huff fixed_ll sym).1).op =
        (lensym 0 sym).op ∧
      ((fun i => if i < 512 then lenfix_entry i else default) (huff fixed_ll sym).1).val =
        (lensym 0 sym).val := by
  decide!

set_option maxRecDepth 1000000 in
theorem fixed_dist_entries : ∀ sym, sym < 30 → fixed_dl.getD sym 0 ≠ 0 →
      (huff fixed_dl sym).1 < 2 ^ 5 ∧
      is_link ((fun i => if i < 32 then distsym 5 (bitrev 5 i) else default)
        (huff fixed_dl sym).1).op = false ∧
      ((fun i => if i < 32 then distsym 5 (bitrev 5 i) else default) (huff fixed_dl sym).1).bits =
        fixed_dl.getD sym 0 ∧
      ((fun i => if i < 32 then distsym 5 (bitrev 5 i) else default) (huff fixed_dl sym).1).op =
        (distsym 0 sym).op ∧
      ((fun i => if i < 32 then distsym 5 (bitrev 5 i) else default) (huff fixed_dl sym).1).val =
        (distsym 0 sym).val := by
  decide!

/-- The fixed literal/length table decodes the fixed literal/length code. -/
theorem fixed_len_ok : decodes_len (fun i => lenfix.getD i default) 9 fixed_ll := by
  refine decodes_len_flat wf_lenfix (fun sym hs hne => ?_)
  have h := fixed_len_entries sym hs hne
  simp only [lenfix_getD]
  exact h

/-- The fixed distance table decodes the fixed distance code. -/
theorem fixed_dist_ok : decodes_dist (fun i => distfix.getD i default) 5 fixed_dl := by
  refine decodes_dist_flat wf_distfix (fun sym hs hne => ?_)
  have h := fixed_dist_entries sym hs hne
  simp only [distfix_getD]
  exact h

theorem header_bits {N L fin ty : Nat} {y : Nat × Nat} (hfin : fin ≤ 1) (hty : ty ≤ 3)
    (hs : starts N L (bcat (fin + 2 * ty, 3) y)) :
    3 ≤ L ∧ N % 2 = fin ∧ N / 2 % 4 = ty ∧ starts (N / 2 ^ 3) (L - 3) y := by
  obtain ⟨⟨h1, h2⟩, h3⟩ := starts_bcat (x := (fin + 2 * ty, 3)) (by
    show fin + 2 * ty < 2 ^ 3
    omega) hs
  have h1 : 3 ≤ L := h1
  have h2 : N % 2 ^ 3 = fin + 2 * ty := h2
  have h2 : N % 8 = fin + 2 * ty := h2
  exact ⟨h1, by omega, by omega, h3⟩

/-- The decoder at the header of a stored block. -/
theorem at_typedo_stored (tb : table_builder) {a : astate} (hm : a.mode = .TYPEDO)
    (hl : a.last = 0) (h3 : 3 ≤ a.L) (hty : a.N / 2 % 4 = 0) :
    astep tb a = some { a.drop 3 with last := a.N % 2, mode := .STORED } := by
  rw [astep_at_TYPEDO hm]
  unfold astep_TYPEDO
  rw [if_neg (by rw [hl]; decide), if_neg (by omega), hty]

/-- The decoder at the header of a block with the fixed codes. -/
theorem at_typedo_fixed (tb : table_builder) {a : astate} (hm : a.mode = .TYPEDO)
    (hl : a.last = 0) (h3 : 3 ≤ a.L) (hty : a.N / 2 % 4 = 1) :
    astep tb a = some { a.drop 3 with last := a.N % 2, lencode := .lenfix, lenbits := 9,
                                      distcode := .distfix, distbits := 5, mode := .LEN_ } := by
  rw [astep_at_TYPEDO hm]
  unfold astep_TYPEDO
  rw [if_neg (by rw [hl]; decide), if_neg (by omega), hty]

/-- The decoder at the header of a block with dynamic codes. -/
theorem at_typedo_dynamic (tb : table_builder) {a : astate} (hm : a.mode = .TYPEDO)
    (hl : a.last = 0) (h3 : 3 ≤ a.L) (hty : a.N / 2 % 4 = 2) :
    astep tb a = some { a.drop 3 with last := a.N % 2, mode := .TABLE } := by
  rw [astep_at_TYPEDO hm]
  unfold astep_TYPEDO
  rw [if_neg (by rw [hl]; decide), if_neg (by omega), hty]

theorem astep_LEN_ {tb : table_builder} {a : astate} (hm : a.mode = .LEN_) :
    astep tb a = some { a with mode := .LEN } := by
  unfold astep; rw [hm]

/-- The decoder on the tokens and the end-of-block symbol of a block, from the mode
`LEN_` on. -/
theorem data_run (tb : table_builder) (a : astate) (ll dl : List Nat)
    (hlen : decodes_len (code_at a.codes a.lencode) a.lenbits ll)
    (hdist : decodes_dist (code_at a.codes a.distcode) a.distbits dl)
    (hm : a.mode = .LEN_) (ts : List token) (y : Nat × Nat)
    (hok : ok_tokens ll dl ts a.H = true) (hend : ll.getD 256 0 ≠ 0)
    (hs : starts a.N a.L (bcat (bcat (enc_tokens ll dl ts) (huff ll 256)) y)) :
    ∃ b, reaches tb a b ∧ b.mode = .TYPE ∧ b.last = a.last ∧ b.H = tokens_out ts a.H ∧
      b.lens = a.lens ∧
      b.N = a.N / 2 ^ (bcat (enc_tokens ll dl ts) (huff ll 256)).2 ∧
      b.L = a.L - (bcat (enc_tokens ll dl ts) (huff ll 256)).2 ∧
      starts b.N b.L y := by
  have e0 : ({ a with mode := .LEN } : astate) =
      Ast { a with mode := .LEN } 0 a.H .LEN a.msg := (Ast_zero { a with mode := .LEN }).symm
  have h1 : reaches tb a (Ast { a with mode := .LEN } 0 a.H .LEN a.msg) := by
    rw [← e0]; exact reaches_step (astep_LEN_ hm)
  rw [bcat_assoc] at hs
  have hs0 : starts (({ a with mode := .LEN } : astate).N / 2 ^ 0)
      (({ a with mode := .LEN } : astate).L - 0)
      (bcat (enc_tokens ll dl ts) (bcat (huff ll 256) y)) := by
    show starts (a.N / 2 ^ 0) (a.L - 0) _
    rw [pow_zero, Nat.div_one, Nat.sub_zero]; exact hs
  obtain ⟨h2, s2⟩ := tokens_run tb (z := { a with mode := .LEN }) hlen hdist a.msg ts 0
    a.H _ hok hs0
  obtain ⟨s3, s4⟩ := starts_Ast (huff_lt _ _) s2
  have h3 := token_end tb (z := { a with mode := .LEN }) hlen _ (tokens_out ts a.H)
    a.msg hend s3
  refine ⟨_, reaches_trans h1 (reaches_trans h2 h3), rfl, rfl, rfl, rfl, ?_, ?_, ?_⟩
  · show a.N / 2 ^ (0 + (enc_tokens ll dl ts).2 + (huff ll 256).2) = _
    rw [bcat_snd, Nat.zero_add]
  · show a.L - (0 + (enc_tokens ll dl ts).2 + (huff ll 256).2) = _
    rw [bcat_snd, Nat.zero_add]
  · exact s4

/-- The decoder on a block with the fixed codes. -/
theorem fixed_run (tb : table_builder) {a : astate} (hm : a.mode = .TYPEDO) (hl : a.last = 0)
    {fin : Nat} (hfin : fin ≤ 1) {ts : List token} {y : Nat × Nat} (p : Nat)
    (hok : ok_block a.H (.fixed ts) = true)
    (hs : starts a.N a.L (bcat (enc_block p fin (.fixed ts)) y)) :
    ∃ b, reaches tb a b ∧ b.mode = .TYPE ∧ b.last = fin ∧ b.H = (block.fixed ts).out a.H ∧
      b.lens = a.lens ∧
      b.L = a.L - (enc_block p fin (.fixed ts)).2 ∧ starts b.N b.L y := by
  have hs : starts a.N a.L (bcat (bcat (fin + 2 * 1, 3)
      (bcat (enc_tokens fixed_ll fixed_dl ts) (huff fixed_ll 256))) y) := hs
  rw [bcat_assoc] at hs
  obtain ⟨k1, k2, k3, k4⟩ := header_bits hfin (by omega) hs
  have h1 := at_typedo_fixed tb hm hl k1 k3
  obtain ⟨b, hb, b1, b2, b3, b4, b5, b6, b7⟩ := data_run tb
    { a.drop 3 with last := a.N % 2, lencode := .lenfix, lenbits := 9,
                    distcode := .distfix, distbits := 5, mode := .LEN_ }
    fixed_ll fixed_dl fixed_len_ok fixed_dist_ok rfl ts y hok (by decide) k4
  refine ⟨b, reaches_trans (reaches_step h1) hb, b1, b2.trans k2, b3, b4, ?_, b7⟩
  rw [b6]
  show a.L - 3 - _ = a.L - (3 + _)
  rw [Nat.sub_sub]

theorem astep_COPY_ (tb : table_builder) {a : astate} {n : Nat} (hm : a.mode = .COPY_ n) :
    astep tb a = some { a with mode := .COPY n } := by
  unfold astep; rw [hm]

theorem astep_COPY_zero (tb : table_builder) {a : astate} (hm : a.mode = .COPY 0) :
    astep tb a = some { a with mode := .TYPE } := by
  unfold astep; rw [hm]; rfl

/-- The decoder skips to the byte boundary before the length fields of a stored block. -/
theorem stored_align (tb : table_builder) {a : astate} (hm : a.mode = .STORED) :
    reaches tb a (a.drop (a.L % 8)) := by
  by_cases hz : a.L % 8 = 0
  · rw [hz, drop_zero]; exact reaches_refl _ _
  · apply reaches_step
    rw [astep_at_STORED hm]
    unfold astep_STORED
    rw [if_pos hz]

/-- The decoder on the two length fields of a stored block. -/
theorem stored_fields (tb : table_builder) {a : astate} (hm : a.mode = .STORED)
    (h8 : a.L % 8 = 0) {n : Nat} (hn : n < 65536) {y : Nat × Nat}
    (hs : starts a.N a.L (bcat (n + 65536 * (n ^^^ 65535), 32) y)) :
    astep tb a = some { a.drop 32 with mode := .COPY_ n } ∧ starts (a.N / 2 ^ 32) (a.L - 32) y := by
  have hx := xor_65535_lt hn
  obtain ⟨⟨q2, q3⟩, k6⟩ := starts_bcat (x := (n + 65536 * (n ^^^ 65535), 32)) (by
      show n + 65536 * (n ^^^ 65535) < 2 ^ 32
      omega) hs
  have q2 : 32 ≤ a.L := q2
  have q3 : a.N % 2 ^ 32 = n + 65536 * (n ^^^ 65535) := q3
  have hlo : a.N % 65536 = n := by omega
  have hhi : a.N / 65536 % 65536 = n ^^^ 65535 := by omega
  refine ⟨?_, k6⟩
  rw [astep_at_STORED hm]
  unfold astep_STORED
  rw [if_neg (by omega), if_neg (by omega), if_neg (by
    rw [hlo, hhi, xor_65535_twice]
    exact fun h => h rfl), hlo]

/-- The decoder on the bytes of a stored block. -/
theorem stored_bytes (tb : table_builder) {a : astate} {data : List Nat}
    (hm : a.mode = .COPY_ data.length) (hb : bytes data) {y : Nat × Nat}
    (hs : starts a.N a.L (bcat (bytes_val data, 8 * data.length) y)) :
    ∃ b, reaches tb a b ∧ b.mode = .TYPE ∧ b.last = a.last ∧ b.H = a.H ++ data ∧
      b.lens = a.lens ∧ b.L = a.L - 8 * data.length ∧ starts b.N b.L y := by
  obtain ⟨⟨q4, q5⟩, k7⟩ := starts_bcat (x := (bytes_val data, 8 * data.length))
    (bytes_val_lt hb) hs
  have q4 : 8 * data.length ≤ a.L := q4
  have q5 : a.N % 2 ^ (8 * data.length) = bytes_val data := q5
  have h4 := astep_COPY_ tb hm
  have h5 := asteps_COPY tb data.length { a with mode := .COPY data.length }
    data.length data (a.N / 2 ^ (8 * data.length))
    rfl (Nat.le_refl _) (Nat.le_refl _) hb (by
      show a.N = _
      rw [← q5]; exact (Nat.mod_add_div _ _).symm) q4
  rw [List.drop_length, List.take_length, Nat.sub_self] at h5
  have e : bytes_val [] + 2 ^ (8 * ([] : List Nat).length) * (a.N / 2 ^ (8 * data.length)) =
      a.N / 2 ^ (8 * data.length) := by
    simp [bytes_val]
  rw [e] at h5
  have h6 := astep_COPY_zero tb (a := { ({ a with mode := .COPY data.length } : astate) with
    N := a.N / 2 ^ (8 * data.length), L := a.L - 8 * data.length, H := a.H ++ data,
    mode := .COPY 0 }) rfl
  exact ⟨_, reaches_trans (reaches_step h4) (reaches_trans ⟨_, h5⟩ (reaches_step h6)),
    rfl, rfl, rfl, rfl, rfl, k7⟩

/-- The decoder on a stored block. -/
theorem stored_run (tb : table_builder) {a : astate} (hm : a.mode = .TYPEDO) (hl : a.last = 0)
    {fin : Nat} (hfin : fin ≤ 1) {fill : Nat} {data : List Nat} {y : Nat × Nat} (p : Nat)
    (hp : (p + a.L) % 8 = 0)
    (hok : ok_block a.H (.stored fill data) = true)
    (hs : starts a.N a.L (bcat (enc_block p fin (.stored fill data)) y)) :
    ∃ b, reaches tb a b ∧ b.mode = .TYPE ∧ b.last = fin ∧
      b.H = (block.stored fill data).out a.H ∧ b.lens = a.lens ∧
      b.L = a.L - (enc_block p fin (.stored fill data)).2 ∧ starts b.N b.L y := by
  simp only [ok_block, Bool.and_eq_true, decide_eq_true_eq] at hok
  obtain ⟨hlen, hbytes⟩ := hok
  have hs : starts a.N a.L (bcat (bcat (fin + 2 * 0, 3)
      (bcat (fill % 2 ^ to_boundary (p + 3), to_boundary (p + 3))
        (bcat (data.length + 65536 * (data.length ^^^ 65535), 32)
          (bytes_val data, 8 * data.length)))) y) := hs
  rw [bcat_assoc, bcat_assoc, bcat_assoc] at hs
  obtain ⟨k1, k2, k3, k4⟩ := header_bits hfin (by omega) hs
  have h1 := at_typedo_stored tb hm hl k1 k3
  obtain ⟨⟨q1, -⟩, k5⟩ := starts_bcat (x := (fill % 2 ^ to_boundary (p + 3), to_boundary (p + 3)))
    (pow_mod_lt _ _) k4
  have q1 : to_boundary (p + 3) ≤ a.L - 3 := q1
  have hpad : to_boundary (p + 3) = (a.L - 3) % 8 := by unfold to_boundary; omega
  rw [hpad] at k5
  have h2 := stored_align tb
    (a := { a.drop 3 with last := a.N % 2, mode := .STORED }) rfl
  obtain ⟨h3, k6⟩ := stored_fields tb
    (a := ({ a.drop 3 with last := a.N % 2, mode := .STORED } : astate).drop ((a.L - 3) % 8))
    rfl (by
      show (a.L - 3 - (a.L - 3) % 8) % 8 = 0
      omega) hlen k5
  obtain ⟨b, hb, b1, b2, b3, b4, b5, b6⟩ := stored_bytes tb (a := { (({ a.drop 3 with
      last := a.N % 2, mode := .STORED } : astate).drop ((a.L - 3) % 8)).drop 32 with
        mode := .COPY_ data.length }) rfl hbytes k6
  refine ⟨b, reaches_trans (reaches_step h1) (reaches_trans h2 (reaches_trans (reaches_step h3) hb)),
    b1, b2.trans k2, b3, b4, ?_, b6⟩
  rw [b5]
  show a.L - 3 - (a.L - 3) % 8 - 32 - 8 * data.length =
      a.L - (3 + (to_boundary (p + 3) + (32 + 8 * data.length)))
  rw [hpad]
  omega

theorem getD_set (l : List Nat) (i j v d : Nat) :
    (l.set i v).getD j d = if i = j ∧ i < l.length then v else l.getD j d := by
  rw [List.getD_eq_getElem?_getD, List.getD_eq_getElem?_getD, List.getElem?_set]
  by_cases h : i = j
  · subst h
    by_cases h2 : i < l.length
    · simp [h2]
    · simp [h2, List.getElem?_eq_none (Nat.le_of_not_lt h2)]
  · simp [h]

theorem order_inj : ∀ i, i < 19 → ∀ j, j < 19 → order.getD i 0 = order.getD j 0 → i = j := by
  decide

theorem order_lt : ∀ i, i < 19 → order.getD i 0 < 19 := by
  decide

theorem order_onto : ∀ x, x < 19 → ∃ j, j < 19 ∧ order.getD j 0 = x := by
  decide

/-- The decoder at the three counts of a block with dynamic codes. -/
theorem table_run (tb : table_builder) {a : astate} (hm : a.mode = .TABLE)
    {nlen ndist ncode : Nat} (h1 : 257 ≤ nlen ∧ nlen ≤ 286) (h2 : 1 ≤ ndist ∧ ndist ≤ 30)
    (h3 : 4 ≤ ncode ∧ ncode ≤ 19) {y : Nat × Nat}
    (hs : starts a.N a.L (bcat ((nlen - 257) + 32 * (ndist - 1) + 1024 * (ncode - 4), 14) y)) :
    astep tb a = some { a.drop 14 with nlen := nlen, ndist := ndist, ncode := ncode, have_ := 0,
                                       mode := .LENLENS } ∧
    starts (a.N / 2 ^ 14) (a.L - 14) y := by
  obtain ⟨⟨q1, q2⟩, k⟩ := starts_bcat
    (x := ((nlen - 257) + 32 * (ndist - 1) + 1024 * (ncode - 4), 14)) (by
      show (nlen - 257) + 32 * (ndist - 1) + 1024 * (ncode - 4) < 2 ^ 14
      omega) hs
  have q1 : 14 ≤ a.L := q1
  have q2 : a.N % 2 ^ 14 = (nlen - 257) + 32 * (ndist - 1) + 1024 * (ncode - 4) := q2
  have e1 : a.N % 32 + 257 = nlen := by omega
  have e2 : a.N / 32 % 32 + 1 = ndist := by omega
  have e3 : a.N / 1024 % 16 + 4 = ncode := by omega
  refine ⟨?_, k⟩
  unfold astep
  rw [hm]
  show astep_TABLE a = _
  unfold astep_TABLE
  rw [if_neg (by omega), e1, e2, e3, if_neg (by omega)]

theorem astep_lenlens_read (tb : table_builder) {a : astate} (hm : a.mode = .LENLENS)
    (hh : a.have_ < a.ncode) (h3 : 3 ≤ a.L) :
    astep tb a = some { a.drop 3 with lens := a.lens.set (order.getD a.have_ 0) (a.N % 8),
                                      have_ := a.have_ + 1 } := by
  unfold astep
  rw [hm]
  show astep_LENLENS tb a = _
  unfold astep_LENLENS
  rw [if_pos hh, if_neg (by omega)]

/-- The decoder on the code lengths of the code length code. -/
theorem lenlens_run (tb : table_builder) (cl : List Nat) (hcl : ∀ x, cl.getD x 0 < 8) :
    ∀ (k : Nat) (a : astate) (y : Nat × Nat), a.mode = .LENLENS → a.have_ + k = a.ncode →
    a.ncode ≤ 19 → 19 ≤ a.lens.length →
    (∀ j, j < a.have_ → a.lens.getD (order.getD j 0) 0 = cl.getD (order.getD j 0) 0) →
    starts a.N a.L (bcat (enc_cl cl k a.have_) y) →
    ∃ b, reaches tb a b ∧ b.mode = .LENLENS ∧ b.have_ = a.ncode ∧ b.ncode = a.ncode ∧
      b.nlen = a.nlen ∧ b.ndist = a.ndist ∧ b.last = a.last ∧ b.H = a.H ∧
      b.lens.length = a.lens.length ∧
      (∀ j, j < a.ncode → b.lens.getD (order.getD j 0) 0 = cl.getD (order.getD j 0) 0) ∧
      b.L = a.L - 3 * k ∧ starts b.N b.L y := by
  intro k
  induction k with
  | zero =>
    intro a y hm hk _ _ hinv hs
    have hs : starts a.N a.L (bcat (0, 0) y) := hs
    rw [bcat_nil] at hs
    have hk : a.have_ = a.ncode := hk
    exact ⟨a, reaches_refl _ _, hm, hk, rfl, rfl, rfl, rfl, rfl, rfl,
      fun j hj => hinv j (by omega), rfl, hs⟩
  | succ k ih =>
    intro a y hm hk h19 hlen hinv hs
    have hs : starts a.N a.L (bcat (bcat (cl.getD (order.getD a.have_ 0) 0, 3)
      (enc_cl cl k (a.have_ + 1))) y) := hs
    rw [bcat_assoc] at hs
    obtain ⟨⟨q1, q2⟩, ks⟩ := starts_bcat (x := (cl.getD (order.getD a.have_ 0) 0, 3))
      (hcl _) hs
    have q1 : 3 ≤ a.L := q1
    have q2 : a.N % 8 = cl.getD (order.getD a.have_ 0) 0 := q2
    have h1 := astep_lenlens_read tb hm (by omega) q1
    rw [q2] at h1
    have hol := order_lt a.have_ (by omega)
    obtain ⟨b, hb, b1, b2, b3, b4, b5, b6, b7, b8, b9, b10, b11⟩ := ih
      { a.drop 3 with lens := a.lens.set (order.getD a.have_ 0) (cl.getD (order.getD a.have_ 0) 0),
                      have_ := a.have_ + 1 } y hm
      (by
        show a.have_ + 1 + k = a.ncode
        omega) h19
      (by
        show 19 ≤ (a.lens.set _ _).length
        rw [List.length_set]; exact hlen)
      (by
        intro j hj
        have hj : j < a.have_ + 1 := hj
        show (a.lens.set _ _).getD _ 0 = _
        rw [getD_set]
        by_cases hjj : j = a.have_
        · rw [hjj, if_pos ⟨rfl, by omega⟩]
        · rw [if_neg (by
            rintro ⟨e, -⟩
            exact hjj (order_inj _ (by omega) _ (by omega) e).symm)]
          exact hinv j (by omega)) ks
    refine ⟨b, reaches_trans (reaches_step h1) hb, b1, b2, b3, b4, b5, b6, b7, ?_, b9, ?_, b11⟩
    · rw [b8]
      show (a.lens.set _ _).length = _
      rw [List.length_set]
    · rw [b10]
      show a.L - 3 - 3 * k = _
      omega

/-- The array `lens` after the loop that clears the code lengths not sent. -/
theorem zero_lens_spec (cl : List Nat) : ∀ (k h : Nat) (lens : List Nat), h + k = 19 →
    19 ≤ lens.length →
    (∀ j, j < h → lens.getD (order.getD j 0) 0 = cl.getD (order.getD j 0) 0) →
    (∀ j, h ≤ j → j < 19 → cl.getD (order.getD j 0) 0 = 0) →
    (zero_lens k h lens).length = lens.length ∧
    ∀ j, j < 19 → (zero_lens k h lens).getD (order.getD j 0) 0 = cl.getD (order.getD j 0) 0 := by
  intro k
  induction k with
  | zero =>
    intro h lens hk _ hinv _
    exact ⟨rfl, fun j hj => hinv j (by omega)⟩
  | succ k ih =>
    intro h lens hk hlen hinv hz
    unfold zero_lens
    rw [if_pos (by omega)]
    have hol := order_lt h (by omega)
    obtain ⟨i1, i2⟩ := ih (h + 1) (lens.set (order.getD h 0) 0) (by omega)
      (by rw [List.length_set]; exact hlen)
      (by
        intro j hj
        rw [getD_set]
        by_cases hjj : j = h
        · rw [hjj, if_pos ⟨rfl, by omega⟩]
          exact (hz h (Nat.le_refl _) (by omega)).symm
        · rw [if_neg (by
            rintro ⟨e, -⟩
            exact hjj (order_inj _ (by omega) _ (by omega) e).symm)]
          exact hinv j (by omega))
      (fun j hj hj2 => hz j (by omega) hj2)
    refine ⟨?_, i2⟩
    rw [i1, List.length_set]

theorem take_eq_of_getD {l cl : List Nat} {n : Nat} (hl : n ≤ l.length) (hc : cl.length = n)
    (h : ∀ x, x < n → l.getD x 0 = cl.getD x 0) : l.take n = cl := by
  apply List.ext_getElem
  · rw [List.length_take, hc]; omega
  · intro i h1 h2
    rw [List.length_take] at h1
    have := h i (by omega)
    rw [List.getD_eq_getElem _ _ (by omega), List.getD_eq_getElem _ _ h2] at this
    rw [List.getElem_take]
    exact this

/-- The decoder builds the table of the code length code. -/
theorem lenlens_end (tb : table_builder) {a : astate} (hm : a.mode = .LENLENS)
    (hh : a.have_ = a.ncode) (h19 : a.ncode ≤ 19) (hlen : 19 ≤ a.lens.length) {cl : List Nat}
    (hc : cl.length = 19)
    (hinv : ∀ j, j < a.ncode → a.lens.getD (order.getD j 0) 0 = cl.getD (order.getD j 0) 0)
    (hz : ∀ j, a.ncode ≤ j → j < 19 → cl.getD (order.getD j 0) 0 = 0)
    (hok : (tb .CODES cl 7).1 = 0) :
    ∃ b, astep tb a = some b ∧ b.mode = .CODELENS ∧ b.have_ = 0 ∧ b.nlen = a.nlen ∧
      b.ndist = a.ndist ∧ b.last = a.last ∧ b.H = a.H ∧ b.lens.length = a.lens.length ∧
      b.N = a.N ∧ b.L = a.L ∧ b.codes = store_codes a.codes 0 (tb .CODES cl 7).2.1 ∧
      b.lencode = .codes 0 ∧ b.lenbits = (tb .CODES cl 7).2.2 := by
  obtain ⟨z1, z2⟩ := zero_lens_spec cl (19 - a.have_) a.have_ a.lens (by omega) hlen
    (by rw [hh]; exact hinv) (by rw [hh]; exact hz)
  have e : (zero_lens (19 - a.have_) a.have_ a.lens).take 19 = cl := by
    apply take_eq_of_getD (by rw [z1]; exact hlen) hc
    intro x hx
    obtain ⟨j, hj, e⟩ := order_onto x hx
    rw [← e]; exact z2 j hj
  unfold astep
  rw [hm]
  show ∃ b, astep_LENLENS tb a = some b ∧ _
  unfold astep_LENLENS
  rw [if_neg (by omega)]
  dsimp only
  rw [e, if_neg (by rw [hok]; exact fun h => h rfl)]
  exact ⟨_, rfl, rfl, rfl, rfl, rfl, rfl, rfl, z1, rfl, rfl, rfl, rfl, rfl⟩

theorem take_set_succ : ∀ (l : List Nat) (h v : Nat), h < l.length →
    (l.set h v).take (h + 1) = l.take h ++ [v] := by
  intro l
  induction l with
  | nil => intro h v hl; simp at hl
  | cons x l ih =>
    intro h v hl
    cases h with
    | zero => simp
    | succ h =>
      simp only [List.set_cons_succ, List.take_succ_cons, List.cons_append, List.cons.injEq,
        true_and]
      exact ih h v (by simpa using hl)

theorem fill_lens_spec (v : Nat) : ∀ (n h : Nat) (lens : List Nat), h + n ≤ lens.length →
    (fill_lens v n h lens).length = lens.length ∧
    (fill_lens v n h lens).take (h + n) = lens.take h ++ List.replicate n v := by
  intro n
  induction n with
  | zero => intro h lens _; exact ⟨rfl, by simp [fill_lens]⟩
  | succ n ih =>
    intro h lens hl
    unfold fill_lens
    obtain ⟨i1, i2⟩ := ih (h + 1) (lens.set h v) (by rw [List.length_set]; omega)
    refine ⟨by rw [i1, List.length_set], ?_⟩
    have e : h + (n + 1) = h + 1 + n := by omega
    rw [e, i2, take_set_succ lens h v (by omega), List.append_assoc]
    rfl

theorem run_out_length (acc : List Nat) (it : Nat × Nat) :
    (run_out acc it).length = acc.length +
      (if it.1 < 16 then 1 else if it.1 = 16 then 3 + it.2 else run_base it.1 + it.2) := by
  unfold run_out
  split_ifs <;> simp

theorem runs_out_le : ∀ (r : List (Nat × Nat)) (acc : List Nat),
    acc.length ≤ (runs_out r acc).length := by
  intro r
  induction r with
  | nil => intro acc; exact Nat.le_refl _
  | cons it r ih =>
    intro acc
    have h1 := ih (run_out acc it)
    have h2 := run_out_length acc it
    show _ ≤ (runs_out r (run_out acc it)).length
    omega

theorem rep_base_eq {sym : Nat} (h1 : 16 ≤ sym) (h2 : sym ≤ 18) : rep_base sym = run_base sym := by
  unfold rep_base run_base
  split_ifs <;> omega

theorem rep_extra_eq (sym : Nat) : rep_extra sym = run_extra sym := rfl

theorem run_extra_pos (sym : Nat) : run_base sym ≥ 3 := by
  unfold run_base; split_ifs <;> omega

/-- The decoder on one item of the run-length coded code lengths. -/
theorem run_step (tb : table_builder) {a : astate} {cl acc : List Nat} {it : Nat × Nat}
    (hm : a.mode = .CODELENS) (hh : a.have_ = acc.length) (ht : a.lens.take a.have_ = acc)
    (hok : ok_run cl acc it = true)
    (hle : (run_out acc it).length ≤ a.nlen + a.ndist) (hfit : a.nlen + a.ndist ≤ a.lens.length)
    (hcodes : decodes_codes (code_at a.codes a.lencode) a.lenbits cl) {y : Nat × Nat}
    (hs : starts a.N a.L (bcat (enc_run cl it) y)) :
    ∃ b, astep tb a = some b ∧ b.mode = .CODELENS ∧ b.have_ = (run_out acc it).length ∧
      b.lens.take b.have_ = run_out acc it ∧ b.lens.length = a.lens.length ∧
      b.nlen = a.nlen ∧ b.ndist = a.ndist ∧ b.last = a.last ∧ b.H = a.H ∧
      b.codes = a.codes ∧ b.lencode = a.lencode ∧ b.lenbits = a.lenbits ∧
      b.L = a.L - (enc_run cl it).2 ∧ starts b.N b.L y := by
  simp only [ok_run, Bool.and_eq_true, Bool.or_eq_true, decide_eq_true_eq] at hok
  obtain ⟨⟨o1, o2⟩, o3⟩ := hok
  have hlen := run_out_length acc it
  by_cases h16 : it.1 < 16
  · -- a code length
    have hs : starts a.N a.L (bcat (huff cl it.1) y) := by
      unfold enc_run at hs; rw [if_pos h16] at hs; exact hs
    obtain ⟨⟨q1, q2⟩, k⟩ := starts_bcat (huff_lt _ _) hs
    have q1 : cl.getD it.1 0 ≤ a.L := q1
    obtain ⟨e1, e2⟩ := hcodes it.1 (by omega) o2 a.N q2
    have hst := astep_codelen_eval a _ rfl
    rw [e1, e2, if_neg (by omega), if_pos h16] at hst
    rw [if_pos h16] at hlen
    have hstep := (@astep_at_CODELENS tb a hm).trans
      ((if_pos (by omega : a.have_ < a.nlen + a.ndist)).trans hst)
    refine ⟨_, hstep, hm, ?_, ?_, ?_, rfl, rfl, rfl, rfl, rfl, rfl, rfl, ?_, k⟩
    · show a.have_ + 1 = _
      rw [hlen, hh]
    · show (a.lens.set a.have_ it.1).take (a.have_ + 1) = _
      rw [take_set_succ _ _ _ (by omega), ht]
      unfold run_out; rw [if_pos h16]
    · show (a.lens.set a.have_ it.1).length = _
      rw [List.length_set]
    · show a.L - cl.getD it.1 0 = a.L - (enc_run cl it).2
      unfold enc_run; rw [if_pos h16]; rfl
  · -- a repeat
    rcases o3 with ⟨o3, -⟩ | ⟨⟨o3, o4⟩, o5⟩
    · exact absurd o3 h16
    have hs : starts a.N a.L (bcat (bcat (huff cl it.1) (it.2, run_extra it.1)) y) := by
      unfold enc_run at hs; rw [if_neg h16] at hs; exact hs
    rw [bcat_assoc] at hs
    obtain ⟨⟨q1, q2⟩, k⟩ := starts_bcat (huff_lt _ _) hs
    have q1 : cl.getD it.1 0 ≤ a.L := q1
    obtain ⟨⟨q3, q4⟩, k2⟩ := starts_bcat (x := (it.2, run_extra it.1)) o4 k
    have q3 : run_extra it.1 ≤ a.L - cl.getD it.1 0 := q3
    have q4 : a.N / 2 ^ cl.getD it.1 0 % 2 ^ run_extra it.1 = it.2 := q4
    obtain ⟨e1, e2⟩ := hcodes it.1 (by omega) o2 a.N q2
    have hst := astep_codelen_eval a _ rfl
    rw [if_neg h16] at hlen
    have hcount : (if it.1 = 16 then 3 + it.2 else run_base it.1 + it.2) =
        run_base it.1 + it.2 := by
      split_ifs with h
      · rw [h]; rfl
      · rfl
    rw [hcount] at hlen
    have hne : ¬ (it.1 = 16 ∧ a.have_ = 0) := by
      rintro ⟨h1, h2⟩
      rcases o5 with h | h
      · exact h h1
      · rw [hh] at h2
        exact h (List.length_eq_zero.mp h2)
    rw [e1, e2, if_neg (by omega), if_neg h16, rep_extra_eq, if_neg (by omega), if_neg hne,
      rep_base_eq (by omega) o1, q4, if_neg (by omega)] at hst
    obtain ⟨f1, f2⟩ := fill_lens_spec (if it.1 = 16 then a.lens.getD (a.have_ - 1) 0 else 0)
      (run_base it.1 + it.2) a.have_ a.lens (by omega)
    have hstep := (@astep_at_CODELENS tb a hm).trans
      ((if_pos (by
        have := run_extra_pos it.1
        omega : a.have_ < a.nlen + a.ndist)).trans hst)
    refine ⟨_, hstep, hm, ?_, ?_, ?_, rfl, rfl, rfl, rfl, rfl, rfl, rfl, ?_, ?_⟩
    · show a.have_ + (run_base it.1 + it.2) = _
      rw [hlen, hh]
    · show (fill_lens _ _ _ _).take (a.have_ + (run_base it.1 + it.2)) = _
      rw [f2, ht]
      unfold run_out
      rw [if_neg h16]
      by_cases h : it.1 = 16
      · rw [if_pos h, if_pos h]
        have hb : run_base it.1 = 3 := by rw [h]; rfl
        rw [hb, ← ht]
        have hpos : a.have_ ≠ 0 := fun h2 => hne ⟨h, h2⟩
        rw [List.length_take, min_eq_left (by omega),
          List.getD_eq_getElem?_getD (l := List.take _ _), List.getElem?_take_of_lt (by omega),
          ← List.getD_eq_getElem?_getD]
      · rw [if_neg h, if_neg h]
    · exact f1
    · show a.L - cl.getD it.1 0 - run_extra it.1 = a.L - (enc_run cl it).2
      unfold enc_run; rw [if_neg h16]
      show _ = a.L - (cl.getD it.1 0 + run_extra it.1)
      omega
    · show starts (a.N / 2 ^ cl.getD it.1 0 / 2 ^ run_extra it.1)
        (a.L - cl.getD it.1 0 - run_extra it.1) y
      exact k2

/-- The decoder on the run-length coded code lengths. -/
theorem runs_run (tb : table_builder) (cl : List Nat) : ∀ (runs : List (Nat × Nat)) (a : astate)
    (acc : List Nat) (y : Nat × Nat), a.mode = .CODELENS → a.have_ = acc.length →
    a.lens.take a.have_ = acc → ok_runs cl runs acc = true →
    (runs_out runs acc).length = a.nlen + a.ndist → a.nlen + a.ndist ≤ a.lens.length →
    decodes_codes (code_at a.codes a.lencode) a.lenbits cl →
    starts a.N a.L (bcat (enc_runs cl runs) y) →
    ∃ b, reaches tb a b ∧ b.mode = .CODELENS ∧ b.have_ = a.nlen + a.ndist ∧
      b.lens.take (a.nlen + a.ndist) = runs_out runs acc ∧ b.lens.length = a.lens.length ∧
      b.nlen = a.nlen ∧ b.ndist = a.ndist ∧ b.last = a.last ∧ b.H = a.H ∧
      b.codes = a.codes ∧
      b.L = a.L - (enc_runs cl runs).2 ∧ starts b.N b.L y := by
  intro runs
  induction runs with
  | nil =>
    intro a acc y hm hh ht _ htot _ _ hs
    have hs : starts a.N a.L (bcat (0, 0) y) := hs
    rw [bcat_nil] at hs
    have htot : acc.length = a.nlen + a.ndist := htot
    refine ⟨a, reaches_refl _ _, hm, by omega, ?_, rfl, rfl, rfl, rfl, rfl, rfl, rfl, hs⟩
    rw [← htot, ← hh]; exact ht
  | cons it r ih =>
    intro a acc y hm hh ht hok htot hfit hcodes hs
    simp only [ok_runs, Bool.and_eq_true] at hok
    have htot : (runs_out r (run_out acc it)).length = a.nlen + a.ndist := htot
    have hs : starts a.N a.L (bcat (bcat (enc_run cl it) (enc_runs cl r)) y) := hs
    rw [bcat_assoc] at hs
    obtain ⟨b, hb, b1, b2, b3, b4, b5, b6, b7, b8, b9, b10, b11, b12, b13⟩ :=
      run_step tb hm hh ht hok.1 (by rw [← htot]; exact runs_out_le _ _) hfit hcodes hs
    obtain ⟨c, hc, c1, c2, c3, c4, c5, c6, c7, c8, c9, c10, c11⟩ := ih b (run_out acc it) y b1 b2
      (by rw [b3]) hok.2 (by rw [b5, b6]; exact htot) (by rw [b4, b5, b6]; exact hfit)
      (by rw [b9, b10, b11]; exact hcodes) b13
    rw [b5, b6] at c2 c3
    refine ⟨c, reaches_trans (reaches_step hb) hc, c1, c2, c3, c4.trans b4, c5.trans b5,
      c6.trans b6, c7.trans b7, c8.trans b8, c9.trans b9, ?_, c11⟩
    rw [c10, b12]
    show _ = a.L - ((enc_run cl it).2 + (enc_runs cl r).2)
    omega

theorem adecode_congr {T T' : Nat → code} {root n : Nat} {link : code → Bool}
    (hn : 2 ^ root ≤ n)
    (hin : ∀ i, i < 2 ^ root → link (T i) = true → (T i).val + 2 ^ (T i).op ≤ n)
    (heq : ∀ x, x < n → T' x = T x) (N L : Nat) :
    adecode T' root link N L = adecode T root link N L := by
  have hi : N % 2 ^ root < 2 ^ root := pow_mod_lt _ _
  have e0 : T' (N % 2 ^ root) = T (N % 2 ^ root) := heq _ (by omega)
  unfold adecode
  rw [e0]
  by_cases hl : link (T (N % 2 ^ root)) = true
  · have h2 := hin _ hi hl
    have h3 : N % 2 ^ ((T (N % 2 ^ root)).bits + (T (N % 2 ^ root)).op) /
        2 ^ (T (N % 2 ^ root)).bits < 2 ^ (T (N % 2 ^ root)).op := by
      rw [Nat.div_lt_iff_lt_mul (Nat.two_pow_pos _), ← pow_add, Nat.add_comm]
      exact pow_mod_lt _ _
    rw [heq _ (by omega)]
  · rw [if_neg hl, if_neg hl]

/-- The literal/length table of a block with dynamic codes, read in the storage of the
stream, decodes what the table delivered by the builder decodes. -/
theorem decodes_len_stored {tb : table_builder} (htb : wf_builder tb) {ll : List Nat}
    (hok : (tb .LENS ll 9).1 = 0)
    (h : decodes_len (fun i => (tb .LENS ll 9).2.1.getD i default) (tb .LENS ll 9).2.2 ll)
    (codes src : List code) :
    decodes_len (code_at (store_codes (store_codes codes 0 (tb .LENS ll 9).2.1)
      (tb .LENS ll 9).2.1.length src) (.codes 0)) (tb .LENS ll 9).2.2 ll := by
  obtain ⟨w1, w2, w3⟩ := (htb ll 9).2.1 hok
  intro sym hsym hne N L hL hN
  obtain ⟨e, he, h1, h2⟩ := h sym hsym hne N L hL hN
  refine ⟨e, ?_, h1, h2⟩
  rw [← he]
  apply adecode_congr w1
  · intro i hi hl
    apply w3 i hi
    unfold len_link at hl
    rw [decide_eq_true_eq] at hl
    exact (len_link_iff w2 hi).mp hl
  · intro x hx
    show (store_codes _ _ _).getD (0 + x) default = _
    rw [Nat.zero_add, store_get_before _ _ _ hx (by
      have := store_length codes 0 (tb .LENS ll 9).2.1
      omega)]
    have := store_get_at codes 0 (tb .LENS ll 9).2.1 hx
    rw [Nat.zero_add] at this
    exact this

/-- The same for the distance table, which is stored after the literal/length table. -/
theorem decodes_dist_stored {tb : table_builder} (htb : wf_builder tb) {dl : List Nat}
    (hok : (tb .DISTS dl 6).1 = 0)
    (h : decodes_dist (fun i => (tb .DISTS dl 6).2.1.getD i default) (tb .DISTS dl 6).2.2 dl)
    (codes : List code) (pos : Nat) :
    decodes_dist (code_at (store_codes codes pos (tb .DISTS dl 6).2.1) (.codes pos))
      (tb .DISTS dl 6).2.2 dl := by
  obtain ⟨w1, w2, w3⟩ := (htb dl 6).2.2 hok
  intro sym hsym hne N L hL hN
  obtain ⟨e, he, h1, h2⟩ := h sym hsym hne N L hL hN
  refine ⟨e, ?_, h1, h2⟩
  rw [← he]
  apply adecode_congr w1
  · intro i hi hl
    apply w3 i hi
    unfold dist_link at hl
    rw [decide_eq_true_eq] at hl
    exact (dist_link_iff w2 hi).mp hl
  · intro x hx
    exact store_get_at codes pos (tb .DISTS dl 6).2.1 hx

/-- The table of the code length code, read in the storage of the stream. -/
theorem decodes_codes_stored {tb : table_builder} (htb : wf_builder tb) {cl : List Nat}
    (hok : (tb .CODES cl 7).1 = 0)
    (h : decodes_codes (fun i => (tb .CODES cl 7).2.1.getD i default) (tb .CODES cl 7).2.2 cl)
    (codes : List code) :
    decodes_codes (code_at (store_codes codes 0 (tb .CODES cl 7).2.1) (.codes 0))
      (tb .CODES cl 7).2.2 cl := by
  obtain ⟨w1, -⟩ := (htb cl 7).1 hok
  intro sym hsym hne N hN
  have hi : N % 2 ^ (tb .CODES cl 7).2.2 < 2 ^ (tb .CODES cl 7).2.2 := pow_mod_lt _ _
  have e : code_at (store_codes codes 0 (tb .CODES cl 7).2.1) (.codes 0)
      (N % 2 ^ (tb .CODES cl 7).2.2) =
      (tb .CODES cl 7).2.1.getD (N % 2 ^ (tb .CODES cl 7).2.2) default := by
    show (store_codes _ _ _).getD (0 + _) default = _
    exact store_get_at codes 0 _ (by omega)
  rw [e]
  exact h sym hsym hne N hN

/-- The decoder builds the two tables of a block with dynamic codes. -/
theorem tables_run (tb : table_builder) {a : astate} (hm : a.mode = .CODELENS)
    (hh : a.have_ = a.nlen + a.ndist) {ll dl : List Nat}
    (hll : a.lens.take a.nlen = ll) (hdl : (a.lens.drop a.nlen).take a.ndist = dl)
    (hend : a.lens.getD 256 0 ≠ 0)
    (h1 : (tb .LENS ll 9).1 = 0) (h2 : (tb .DISTS dl 6).1 = 0) :
    ∃ b, astep tb a = some b ∧ b.mode = .LEN_ ∧ b.last = a.last ∧ b.H = a.H ∧
      b.lens = a.lens ∧ b.N = a.N ∧ b.L = a.L ∧
      b.codes = store_codes (store_codes a.codes 0 (tb .LENS ll 9).2.1)
        (tb .LENS ll 9).2.1.length (tb .DISTS dl 6).2.1 ∧
      b.lencode = .codes 0 ∧ b.lenbits = (tb .LENS ll 9).2.2 ∧
      b.distcode = .codes (tb .LENS ll 9).2.1.length ∧ b.distbits = (tb .DISTS dl 6).2.2 := by
  have hst : astep tb a = astep_tables tb a := by
    rw [astep_at_CODELENS hm, if_neg (by omega)]
  unfold astep_tables at hst
  rw [if_neg hend, hll, if_neg (by rw [h1]; exact fun h => h rfl), hdl,
    if_neg (by rw [h2]; exact fun h => h rfl)] at hst
  exact ⟨_, hst, rfl, rfl, rfl, rfl, rfl, rfl, rfl, rfl, rfl, rfl, rfl⟩

theorem enc_cl_snd (cl : List Nat) : ∀ (k i : Nat), (enc_cl cl k i).2 = 3 * k := by
  intro k
  induction k with
  | zero => intro i; rfl
  | succ k ih =>
    intro i
    show 3 + (enc_cl cl k (i + 1)).2 = _
    rw [ih]; omega

theorem getD_lt_of_all {cl : List Nat} (h : cl.all (fun x => decide (x < 8)) = true) (x : Nat) :
    cl.getD x 0 < 8 := by
  rw [List.all_eq_true] at h
  by_cases hx : x < cl.length
  · rw [List.getD_eq_getElem _ _ hx]
    have := h _ (List.getElem_mem hx)
    simpa using this
  · rw [List.getD_eq_default _ _ (by omega)]
    omega

/-- The decoder on a block with dynamic codes. -/
theorem dynamic_run {tb : table_builder} (htb : wf_builder tb) {a : astate}
    (hm : a.mode = .TYPEDO) (hl : a.last = 0) (hlens : 316 ≤ a.lens.length)
    {fin : Nat} (hfin : fin ≤ 1) {ncode : Nat} {cl : List Nat} {runs : List (Nat × Nat)}
    {nlen ndist : Nat} {ts : List token} {y : Nat × Nat} (p : Nat)
    (hok : ok_block a.H (.dynamic ncode cl runs nlen ndist ts) = true)
    (hc : conforms tb (.dynamic ncode cl runs nlen ndist ts))
    (hs : starts a.N a.L (bcat (enc_block p fin (.dynamic ncode cl runs nlen ndist ts)) y)) :
    ∃ b, reaches tb a b ∧ b.mode = .TYPE ∧ b.last = fin ∧
      b.H = (block.dynamic ncode cl runs nlen ndist ts).out a.H ∧
      b.lens.length = a.lens.length ∧
      b.L = a.L - (enc_block p fin (.dynamic ncode cl runs nlen ndist ts)).2 ∧
      starts b.N b.L y := by
  simp only [ok_block, Bool.and_eq_true, decide_eq_true_eq] at hok
  obtain ⟨⟨⟨⟨⟨⟨⟨⟨⟨⟨⟨⟨o1, o2⟩, o3⟩, o4⟩, o5⟩, o6⟩, o7⟩, o8⟩, o9⟩, o10⟩, o11⟩, o12⟩, o13⟩ := hok
  obtain ⟨⟨c1, c2⟩, ⟨c3, c4⟩, ⟨c5, c6⟩⟩ := hc
  have hs : starts a.N a.L (bcat (bcat (fin + 2 * 2, 3)
      (bcat ((nlen - 257) + 32 * (ndist - 1) + 1024 * (ncode - 4), 14)
        (bcat (enc_cl cl ncode 0) (bcat (enc_runs cl runs)
          (bcat (enc_tokens (dyn_ll runs nlen) (dyn_dl runs nlen) ts)
            (huff (dyn_ll runs nlen) 256)))))) y) := hs
  rw [bcat_assoc, bcat_assoc, bcat_assoc, bcat_assoc] at hs
  obtain ⟨k1, k2, k3, k4⟩ := header_bits hfin (by omega) hs
  have h1 := at_typedo_dynamic tb hm hl k1 k3
  -- the counts
  obtain ⟨h2, k5⟩ := table_run tb
    (a := { a.drop 3 with last := a.N % 2, mode := .TABLE }) rfl ⟨o1, o2⟩ ⟨o3, o4⟩ ⟨o5, o6⟩ k4
  -- the code lengths of the code length code
  obtain ⟨b3, r3, m3, e31, e32, e33, e34, e35, e36, e37, e38, e39, s3⟩ := lenlens_run tb
    cl (getD_lt_of_all o8) ncode
    { ({ a.drop 3 with last := a.N % 2, mode := .TABLE } : astate).drop 14 with
      nlen := nlen, ndist := ndist, ncode := ncode, have_ := 0, mode := .LENLENS } _ rfl
    (Nat.zero_add _) o6 (by
      show 19 ≤ a.lens.length
      omega) (fun j hj => absurd hj (Nat.not_lt_zero _)) k5
  have e31 : b3.have_ = ncode := e31
  have e32 : b3.ncode = ncode := e32
  have e33 : b3.nlen = nlen := e33
  have e34 : b3.ndist = ndist := e34
  have e35 : b3.last = a.N % 2 := e35
  have e36 : b3.H = a.H := e36
  have e37 : b3.lens.length = a.lens.length := e37
  have e38 : ∀ j, j < ncode → b3.lens.getD (order.getD j 0) 0 = cl.getD (order.getD j 0) 0 := e38
  have e39 : b3.L = a.L - 3 - 14 - 3 * ncode := e39
  have hz : ∀ j, ncode ≤ j → j < 19 → cl.getD (order.getD j 0) 0 = 0 := by
    intro j hj hj2
    rw [List.all_eq_true] at o9
    have := o9 j (List.mem_range.mpr hj2)
    simp only [Bool.or_eq_true, decide_eq_true_eq] at this
    rcases this with h | h
    · omega
    · exact h
  obtain ⟨b4, r4, m4, e41, e42, e43, e44, e45, e46, e47, e48, e49, e4a, e4b⟩ := lenlens_end
    tb m3 (by rw [e31, e32]) (by rw [e32]; exact o6) (by rw [e37]; omega) o7
    (by rw [e32]; exact e38) (by rw [e32]; exact hz) c1
  -- the code lengths of the two codes
  obtain ⟨b5, r5, m5, e51, e52, e53, e54, e55, e56, e57, e58, e59, s5⟩ := runs_run tb
    cl runs b4 [] _ m4 e41 (by rw [e41]; rfl) o10 (by rw [e42, e43, e33, e34]; exact o11)
    (by rw [e42, e43, e33, e34, e46, e37]; omega)
    (by rw [e49, e4a, e4b]; exact decodes_codes_stored htb c1 c2 _)
    (by rw [e47, e48]; exact s3)
  rw [e42, e43, e33, e34] at e51 e52
  have hll : b5.lens.take b5.nlen = dyn_ll runs nlen := by
    rw [e54, e42, e33]
    unfold dyn_ll
    rw [← e52, List.take_take, min_eq_left (by omega)]
  have hdl : (b5.lens.drop b5.nlen).take b5.ndist = dyn_dl runs nlen := by
    rw [e54, e42, e33, e55, e43, e34]
    unfold dyn_dl
    rw [← e52, List.drop_take, Nat.add_sub_cancel_left]
  have hend : b5.lens.getD 256 0 ≠ 0 := by
    have : (dyn_ll runs nlen).getD 256 0 = b5.lens.getD 256 0 := by
      rw [← hll, e54, e42, e33]
      exact getD_take_lt _ (by omega)
    rw [← this]; exact o12
  obtain ⟨b6, r6, m6, e61, e62, e63, e64, e65, e66, e67, e68, e69, e6a⟩ := tables_run tb
    m5 (by rw [e51, e54, e55, e42, e43, e33, e34]) hll hdl hend c3 c5
  -- the tokens
  obtain ⟨b7, r7, m7, e71, e72, e73, e74, e75, s7⟩ := data_run tb b6
    (dyn_ll runs nlen) (dyn_dl runs nlen)
    (by rw [e66, e67, e68]; exact decodes_len_stored htb c3 c4 _ _)
    (by rw [e66, e69, e6a]; exact decodes_dist_stored htb c5 c6 _ _)
    m6 ts y (by rw [e62, e57, e45, e36]; exact o13) o12
    (by rw [e64, e65]; exact s5)
  refine ⟨b7, reaches_trans (reaches_step h1) (reaches_trans (reaches_step h2)
    (reaches_trans r3 (reaches_trans (reaches_step r4) (reaches_trans r5
      (reaches_trans (reaches_step r6) r7))))), m7, ?_, ?_, ?_, ?_, s7⟩
  · rw [e71, e61, e56, e44, e35]; exact k2
  · rw [e72, e62, e57, e45, e36]; rfl
  · rw [e73, e63, e53, e46, e37]
  · rw [e75, e65, e59, e48, e39]
    show _ = a.L - (3 + (14 + ((enc_cl cl ncode 0).2 + ((enc_runs cl runs).2 +
      (bcat (enc_tokens (dyn_ll runs nlen) (dyn_dl runs nlen) ts)
        (huff (dyn_ll runs nlen) 256)).2))))
    rw [enc_cl_snd]
    omega

/-- The decoder on a block. -/
theorem block_run {tb : table_builder} (htb : wf_builder tb) {a : astate}
    (hm : a.mode = .TYPEDO) (hl : a.last = 0) (hlens : 316 ≤ a.lens.length)
    {fin : Nat} (hfin : fin ≤ 1) (b : block) {y : Nat × Nat} (p : Nat)
    (hp : (p + a.L) % 8 = 0) (hok : ok_block a.H b = true) (hc : conforms tb b)
    (hs : starts a.N a.L (bcat (enc_block p fin b) y)) :
    ∃ c, reaches tb a c ∧ c.mode = .TYPE ∧ c.last = fin ∧ c.H = b.out a.H ∧
      c.lens.length = a.lens.length ∧ c.L = a.L - (enc_block p fin b).2 ∧
      starts c.N c.L y := by
  cases b with
  | stored fill data =>
    obtain ⟨c, r, c1, c2, c3, c4, c5, c6⟩ := stored_run tb hm hl hfin p hp hok hs
    exact ⟨c, r, c1, c2, c3, by rw [c4], c5, c6⟩
  | fixed ts =>
    obtain ⟨c, r, c1, c2, c3, c4, c5, c6⟩ := fixed_run tb hm hl hfin p hok hs
    exact ⟨c, r, c1, c2, c3, by rw [c4], c5, c6⟩
  | dynamic ncode cl runs nlen ndist ts => exact dynamic_run htb hm hl hlens hfin p hok hc hs

theorem astep_TYPE (tb : table_builder) {a : astate} (hm : a.mode = .TYPE) :
    astep tb a = some { a with mode := .TYPEDO } := by
  unfold astep; rw [hm]

/-- The decoder on a sequence of blocks: it ends between two blocks, after the block
flagged final. -/
theorem blocks_run {tb : table_builder} (htb : wf_builder tb) : ∀ (bs : List block)
    (a : astate) (p : Nat) (y : Nat × Nat), bs ≠ [] → a.mode = .TYPEDO → a.last = 0 →
    316 ≤ a.lens.length → (p + a.L) % 8 = 0 → ok_blocks bs a.H = true →
    (∀ b ∈ bs, conforms tb b) → starts a.N a.L (bcat (encode p bs) y) →
    ∃ c, reaches tb a c ∧ c.mode = .TYPE ∧ c.last = 1 ∧ c.H = blocks_out bs a.H := by
  intro bs
  induction bs with
  | nil => intro a p y h; exact absurd rfl h
  | cons b bs ih =>
    intro a p y _ hm hl hlens hp hok hc hs
    simp only [ok_blocks, Bool.and_eq_true] at hok
    cases bs with
    | nil =>
      have hs : starts a.N a.L (bcat (enc_block p 1 b) y) := hs
      obtain ⟨c, r, c1, c2, c3, -⟩ := block_run htb hm hl hlens (Nat.le_refl 1) b p hp hok.1
        (hc b (List.mem_cons_self _ _)) hs
      exact ⟨c, r, c1, c2, c3⟩
    | cons b2 bs =>
      have hs : starts a.N a.L (bcat (bcat (enc_block p 0 b)
        (encode (p + (enc_block p 0 b).2) (b2 :: bs))) y) := hs
      rw [bcat_assoc] at hs
      have hle : (enc_block p 0 b).2 ≤ a.L := by
        have := hs.1
        rw [bcat_snd] at this
        omega
      obtain ⟨c, r, c1, c2, c3, c4, c5, c6⟩ := block_run htb hm hl hlens (Nat.zero_le 1) b p hp
        hok.1 (hc b (List.mem_cons_self _ _)) hs
      obtain ⟨d, r2, d1, d2, d3⟩ := ih { c with mode := .TYPEDO } (p + (enc_block p 0 b).2) y
        (List.cons_ne_nil _ _) rfl c2 (by
          show 316 ≤ c.lens.length
          rw [c4]; exact hlens)
        (by
          show (p + (enc_block p 0 b).2 + c.L) % 8 = 0
          rw [c5]
          have e : p + (enc_block p 0 b).2 + (a.L - (enc_block p 0 b).2) = p + a.L := by omega
          rw [e]; exact hp)
        (by
          show ok_blocks (b2 :: bs) c.H = true
          rw [c3]; exact hok.2)
        (fun x hx => hc x (List.mem_cons_of_mem _ hx)) c6
      refine ⟨d, reaches_trans r (reaches_trans (reaches_step (astep_TYPE tb c1)) r2), d1, d2, ?_⟩
      rw [d3]
      show blocks_out (b2 :: bs) c.H = blocks_out (b2 :: bs) (b.out a.H)
      rw [c3]

/-- The decoder on a deflate stream: from the start it gets to the end of the stream with
the output of the blocks. -/
theorem decode_deflated {tb : table_builder} (htb : wf_builder tb) {bs : List block}
    {C : List Nat} (hC : deflated bs C) (hc : ∀ b ∈ bs, conforms tb b) (a : astate)
    (hm : a.mode = .HEAD) (hl : a.last = 0) (hN : a.N = bytes_val C) (hL : a.L = 8 * C.length)
    (hH : a.H = []) (hlens : 316 ≤ a.lens.length) :
    ∃ d, reaches tb a d ∧ d.mode = .DONE ∧ d.H = blocks_out bs [] := by
  obtain ⟨h1, h2, -, h4, h5⟩ := hC
  have h0 : astep tb a = some { a with mode := .TYPEDO } := by
    unfold astep; rw [hm]
  obtain ⟨c, r, c1, c2, c3⟩ := blocks_run htb bs { a with mode := .TYPEDO } 0 (0, 0) h1 rfl hl
    hlens (by
      show (0 + a.L) % 8 = 0
      rw [hL]; omega)
    (by
      show ok_blocks bs a.H = true
      rw [hH]; exact h2)
    hc (by
      show starts a.N a.L (bcat (encode 0 bs) (0, 0))
      refine ⟨?_, ?_⟩
      · show (encode 0 bs).2 + 0 ≤ a.L
        rw [hL]; exact h4
      · show a.N % 2 ^ ((encode 0 bs).2 + 0) = (encode 0 bs).1 + 2 ^ (encode 0 bs).2 * 0
        rw [hN, Nat.add_zero, Nat.mul_zero, Nat.add_zero]; exact h5)
  have c3 : c.H = blocks_out bs a.H := c3
  have s1 := astep_TYPE tb c1
  have s2 : astep tb { c with mode := .TYPEDO } =
      some { ({ c with mode := .TYPEDO } : astate).drop (c.L % 8) with mode := .CHECK } := by
    rw [astep_at_TYPEDO rfl]
    unfold astep_TYPEDO
    rw [if_pos (by
      show c.last ≠ 0
      rw [c2]; decide)]
  have s3 : astep tb { ({ c with mode := .TYPEDO } : astate).drop (c.L % 8) with mode := .CHECK } =
      some { ({ ({ c with mode := .TYPEDO } : astate).drop (c.L % 8) with
        mode := .CHECK } : astate) with mode := .DONE } := rfl
  refine ⟨_, reaches_trans (reaches_step h0) (reaches_trans r (reaches_trans (reaches_step s1)
    (reaches_trans (reaches_step s2) (reaches_step s3)))), rfl, ?_⟩
  show c.H = _
  rw [c3, hH]

theorem reset_lens {w : Nat} {t s : inflate_stream} (h : reset w t = some s) :
    s.lens = t.lens := by
  unfold reset at h
  split_ifs at h with hw <;> dsimp only at h <;> cases h <;> rfl

/-- A call of `write` returns `Z_STREAM_END` only with the stream in the mode `DONE`. -/
theorem stream_end_mode {tb : table_builder} {alloc : allocator} {fuel : Nat}
    {S : inflate_stream} {flush : Int} {r : Int} {s2 : inflate_stream}
    (hw : write tb alloc fuel S flush = some (r, s2)) (hr : r = Z_STREAM_END) :
    s2.mode = .DONE := by
  rcases write_result hw with ⟨-, e, -⟩ | ⟨hc, ⟨-, e, -⟩ | ⟨-, e, -⟩ | ⟨hrank, -⟩⟩
  · rw [e] at hr; exact absurd hr (by decide)
  · rw [e] at hr; exact absurd hr (by decide)
  · rw [e] at hr; exact absurd hr (by decide)
  · rw [write_run hc] at hw
    obtain ⟨o, hp, hf⟩ := run_passes tb alloc flush _ _ fuel _ _ _ hw
    obtain ⟨p1, p2, -⟩ := passes_end hp (Or.inl rfl)
    cases o with
    | cont t rr => exact Bool.noConfusion (passes_not_cont hp)
    | done t rr =>
      exfalso
      obtain ⟨-, hm⟩ := p1 rfl
      rcases entry_mode S with e | ⟨-, e⟩
      · rw [e] at hm
        rcases hm with hm | hm <;> rw [hm] at hrank <;> exact absurd hrank (by decide)
      · rw [e] at hm
        rcases hm with hm | hm <;> cases hm
    | leave t rr =>
      have e1 : r = (inf_leave alloc flush S.avail_in S.avail_out t rr).1 := congrArg Prod.fst hf
      have e2 : s2 = (inf_leave alloc flush S.avail_in S.avail_out t rr).2 := congrArg Prod.snd hf
      by_cases hu : (leave_update alloc flush S.avail_out t).2 = 0
      · obtain ⟨k1, k2, -⟩ := inf_leave_ok alloc flush S.avail_in S.avail_out t rr hu
        rw [e2, k2]
        rw [e1, k1] at hr
        have hrr : rr = Z_STREAM_END := by
          unfold leave_ret at hr
          split_ifs at hr
          · exact absurd hr (by decide)
          · exact hr
        rcases p2 rfl with h | ⟨-, h⟩ | ⟨h, -⟩
        · have h : rr = Z_OK := h
          rw [h] at hrr; exact absurd hrr (by decide)
        · exact h
        · have h : rr = Z_DATA_ERROR := h
          rw [h] at hrr; exact absurd hrr (by decide)
      · exfalso
        rw [e1] at hr
        unfold inf_leave at hr
        dsimp only at hr
        rw [if_pos hu] at hr
        have hr : Z_MEM_ERROR = Z_STREAM_END := hr
        exact absurd hr (by decide)

/-- The last call of a session that made a call returned its status with the stream the
session ends in. -/
theorem session_last {tb : table_builder} {alloc : allocator} {fuel : Nat} :
    ∀ (calls : List (buffers × Int)) (s : inflate_stream) (tr : List call_record),
    session tb alloc fuel s calls = some tr → tr ≠ [] →
    ∃ S flush, write tb alloc fuel S flush = some (last_ret tr, final_stream s tr) := by
  intro calls
  induction calls with
  | nil =>
    intro s tr h hne
    simp only [session, Option.some.injEq] at h
    exact absurd h.symm hne
  | cons c rest ih =>
    intro s tr h _
    obtain ⟨b, flush⟩ := c
    unfold session at h
    rcases hw : write tb alloc fuel (s.present b) flush with _ | ⟨r, s1⟩
    · rw [hw] at h; cases h
    · rw [hw] at h
      dsimp only at h
      rcases hs : session tb alloc fuel s1 rest with _ | tr1
      · rw [hs] at h; cases h
      · rw [hs] at h
        simp only [Option.some.injEq] at h
        subst h
        cases tr1 with
        | nil => exact ⟨_, _, hw⟩
        | cons c2 tr2 =>
          obtain ⟨S, fl, h2⟩ := ih s1 (c2 :: tr2) hs (List.cons_ne_nil _ _)
          refine ⟨S, fl, ?_⟩
          rw [h2]
          rfl

theorem sN_nil (s : inflate_stream) : s.sN [] = s.sval := by
  unfold inflate_stream.sN
  simp [bytes_val]

theorem sL_nil (s : inflate_stream) : s.sL [] = s.slen := by
  unfold inflate_stream.sL
  simp

theorem xor_swap (a b c : Nat) : a ^^^ c = b ↔ a = b ^^^ c := by
  constructor
  · intro h
    rw [← h, Nat.xor_assoc, Nat.xor_self, Nat.xor_zero]
  · intro h
    rw [h, Nat.xor_assoc, Nat.xor_self, Nat.xor_zero]

/-- The 32 bits of a stored header in the accumulator: after the skip to the byte boundary
the accumulator is filled to exactly 32 bits, which are the next 32 unread bits, unless
the input runs out first. -/
theorem stored_fill {s : inflate_stream} (h : Inv s) (hm : s.mode = .STORED) :
    (NEEDBITS 32 (BYTEBITS s)).sval = s.sval / 2 ^ (s.bits % 8) ∧
    (NEEDBITS 32 (BYTEBITS s)).slen = s.slen - s.bits % 8 ∧
    ((NEEDBITS 32 (BYTEBITS s)).bits < 32 →
      (NEEDBITS 32 (BYTEBITS s)).next_in = [] ∧
      (NEEDBITS 32 (BYTEBITS s)).hold = s.sval / 2 ^ (s.bits % 8) ∧
      (NEEDBITS 32 (BYTEBITS s)).bits = s.slen - s.bits % 8) ∧
    (¬ (NEEDBITS 32 (BYTEBITS s)).bits < 32 →
      (NEEDBITS 32 (BYTEBITS s)).bits = 32 ∧
      (NEEDBITS 32 (BYTEBITS s)).hold % 65536 = s.sval / 2 ^ (s.bits % 8) % 65536 ∧
      (NEEDBITS 32 (BYTEBITS s)).hold / 65536 = s.sval / 2 ^ (s.bits % 8) / 65536 % 65536 ∧
      bytes_val (NEEDBITS 32 (BYTEBITS s)).next_in = s.sval / 2 ^ (s.bits % 8) / 4294967296 ∧
      8 * (NEEDBITS 32 (BYTEBITS s)).next_in.length + 32 = s.slen - s.bits % 8) := by
  obtain ⟨k, hp, hstop, hmin⟩ := NEEDBITS_spec 32 (BYTEBITS s)
  have hh0 : (BYTEBITS s).hold < 2 ^ (BYTEBITS s).bits := div_pow_lt h.hold
  have hh := pulled_hold hp h.inb hh0
  obtain ⟨d1, d2⟩ := sN_dropped (BYTEBITS_dropped s) []
  rw [sN_nil, sN_nil] at d1
  rw [sL_nil, sL_nil] at d2
  have e1 := pulled_sval hp
  have e2 := pulled_slen hp
  rw [d1] at e1
  rw [d2] at e2
  have hb0 : (BYTEBITS s).bits = s.bits - s.bits % 8 := rfl
  have hb1 : (NEEDBITS 32 (BYTEBITS s)).bits = (BYTEBITS s).bits + 8 * k := hp.2.2.1
  have hsl : s.bits - s.bits % 8 < 32 := by
    rcases h.slack with h1 | h1
    · omega
    · unfold wants_more at h1; rw [hm] at h1; exact h1
  generalize NEEDBITS 32 (BYTEBITS s) = t at *
  generalize s.sval / 2 ^ (s.bits % 8) = V at *
  have hsv : t.hold + 2 ^ t.bits * bytes_val t.next_in = V := e1
  have hsn : t.bits + 8 * t.next_in.length = s.slen - s.bits % 8 := e2
  refine ⟨e1, e2, fun hlt => ?_, fun hge => ?_⟩
  · have hn := hstop hlt
    rw [hn] at hsv hsn
    simp [bytes_val] at hsv hsn
    exact ⟨hn, hsv, hsn⟩
  · have h32 : t.bits = 32 := by
      rcases hmin with h1 | h1
      · omega
      · omega
    rw [h32] at hsv hsn hh
    refine ⟨h32, ?_, ?_, ?_, by omega⟩
    · rw [← hsv, show (65536 : Nat) = 2 ^ 16 by norm_num]
      exact (add_mul_pow_mod _ _ (by norm_num : 16 ≤ 32)).symm
    · rw [← hsv, show (65536 : Nat) = 2 ^ 16 by norm_num]
      have : (t.hold + 2 ^ 32 * bytes_val t.next_in) / 2 ^ 16 =
          t.hold / 2 ^ 16 + 2 ^ 16 * bytes_val t.next_in := by
        rw [show (2 : Nat) ^ 32 = 2 ^ 16 * 2 ^ 16 by norm_num, Nat.mul_assoc,
          Nat.add_mul_div_left _ _ (Nat.two_pow_pos 16)]
      rw [this, Nat.add_mul_mod_self_left, Nat.mod_eq_of_lt]
      exact Nat.div_lt_of_lt_mul (by norm_num at hh ⊢; omega)
    · rw [← hsv, show (4294967296 : Nat) = 2 ^ 32 by norm_num,
        Nat.add_mul_div_left _ _ (Nat.two_pow_pos 32), Nat.div_eq_of_lt hh, Nat.zero_add]

/-- C22 (stored-header validation): in the mode `STORED` the pass drops `bits mod 8` bits
and fills the accumulator to 32 bits.  With fewer than 32 bits left it jumps to `inf_leave`
in the mode `STORED` with all the bits left in `hold`.  With 32 bits, `LEN` the low and
`NLEN` the high 16 of them, the header is accepted iff `LEN ^ 0xFFFF = NLEN`: then
`length = LEN`, `hold = 0`, `bits = 0`, the mode is `COPY_` and the pass goes on in the
case `COPY` (or leaves, with `Z_TREES`); otherwise the pass ends in `BAD` with the message
"invalid stored block lengths", having written nothing, and the loop returns
`Z_DATA_ERROR`. -/
theorem stored_validation (tb : table_builder) (alloc : allocator) (flush : Int)
    (fuel in_ out : Nat) (s : inflate_stream) (ret : Int) (h : Inv s)
    (hm : s.mode = .STORED) (hw : win_shape s ∨ s.wsize = 0) :
    (s.slen - s.bits % 8 < 32 →
      ∃ t, step tb fuel flush out s ret = some (.leave t ret) ∧ t.mode = .STORED ∧
        t.next_in = [] ∧ t.hold = s.sval / 2 ^ (s.bits % 8) ∧
        t.bits = s.slen - s.bits % 8 ∧ t.next_out = s.next_out ∧
        t.avail_out = s.avail_out) ∧
    (32 ≤ s.slen - s.bits % 8 →
      ((s.sval / 2 ^ (s.bits % 8) % 65536) ^^^ 65535 =
          s.sval / 2 ^ (s.bits % 8) / 65536 % 65536 →
        ∃ t, step tb fuel flush out s ret =
            some (if flush = Z_TREES then .leave t ret else case_COPY t ret) ∧
          t.mode = .COPY_ ∧ t.length = s.sval / 2 ^ (s.bits % 8) % 65536 ∧
          t.hold = 0 ∧ t.bits = 0 ∧ t.sval = s.sval / 2 ^ (s.bits % 8) / 4294967296 ∧
          t.slen + 32 = s.slen - s.bits % 8 ∧
          t.next_out = s.next_out ∧ t.avail_out = s.avail_out ∧
          ((case_COPY t ret).st.mode = .COPY ∨
            (t.length = 0 ∧ (case_COPY t ret).st.mode = .TYPE))) ∧
      ((s.sval / 2 ^ (s.bits % 8) % 65536) ^^^ 65535 ≠
          s.sval / 2 ^ (s.bits % 8) / 65536 % 65536 →
        (∃ t, step tb fuel flush out s ret = some (.cont t ret) ∧ t.mode = .BAD ∧
          t.msg = some "invalid stored block lengths" ∧ t.next_out = s.next_out ∧
          t.avail_out = s.avail_out) ∧
        ∃ s2, run tb alloc flush in_ out (fuel + 2) s ret = some (Z_DATA_ERROR, s2) ∧
          s2.mode = .BAD ∧ s2.msg = some "invalid stored block lengths" ∧
          s2.next_out = s.next_out ∧ s2.avail_out = s.avail_out)) := by
  obtain ⟨f1, f2, f3, f4⟩ := stored_fill h hm
  have hstep : ∀ f, step tb f flush out s ret = some (case_STORED flush s ret) := by
    intro f; unfold step; rw [hm]
  have hge : (NEEDBITS 32 (BYTEBITS s)).bits ≤ s.slen - s.bits % 8 := by
    rw [← f2]; unfold inflate_stream.slen; omega
  refine ⟨fun hlt => ?_, fun h32 => ?_⟩
  · have hb : (NEEDBITS 32 (BYTEBITS s)).bits < 32 := by omega
    obtain ⟨g1, g2, g3⟩ := f3 hb
    refine ⟨NEEDBITS 32 (BYTEBITS s), ?_, hm, g1, g2, g3, rfl, rfl⟩
    rw [hstep]
    unfold case_STORED
    dsimp only
    rw [if_pos hb]
  · have hb : ¬ (NEEDBITS 32 (BYTEBITS s)).bits < 32 := by
      intro hb
      have := (f3 hb).2.2
      omega
    obtain ⟨g1, g2, g3, g4, g5⟩ := f4 hb
    refine ⟨fun hx => ?_, fun hx => ?_⟩
    · have hx2 : ¬ (NEEDBITS 32 (BYTEBITS s)).hold % 65536 ≠
          ((NEEDBITS 32 (BYTEBITS s)).hold / 65536) ^^^ 65535 := by
        rw [g2, g3]
        exact not_not.mpr ((xor_swap _ _ _).mp hx)
      refine ⟨{ INITBITS { NEEDBITS 32 (BYTEBITS s) with
          length := (NEEDBITS 32 (BYTEBITS s)).hold % 65536 } with mode := .COPY_ }, ?_, rfl,
        g2, rfl, rfl, ?_, ?_, rfl, rfl, ?_⟩
      · rw [hstep]
        unfold case_STORED
        dsimp only
        rw [if_neg hb, if_neg hx2]
      · show 0 + 2 ^ 0 * bytes_val (NEEDBITS 32 (BYTEBITS s)).next_in = _
        rw [g4]; simp
      · show 0 + 8 * (NEEDBITS 32 (BYTEBITS s)).next_in.length + 32 = _
        omega
      · unfold case_COPY
        dsimp only
        split_ifs with c1 c2
        · exact Or.inl rfl
        · exact Or.inl rfl
        · exact Or.inr ⟨not_not.mp c1, rfl⟩
    · have hx2 : (NEEDBITS 32 (BYTEBITS s)).hold % 65536 ≠
          ((NEEDBITS 32 (BYTEBITS s)).hold / 65536) ^^^ 65535 := by
        rw [g2, g3]
        exact fun e => hx ((xor_swap _ _ _).mpr e)
      have hcase : case_STORED flush s ret =
          .cont { NEEDBITS 32 (BYTEBITS s) with
            msg := some "invalid stored block lengths", mode := .BAD } ret := by
        unfold case_STORED
        dsimp only
        rw [if_neg hb, if_pos hx2]
      refine ⟨⟨{ NEEDBITS 32 (BYTEBITS s) with
            msg := some "invalid stored block lengths", mode := .BAD },
          by rw [hstep, hcase], rfl, rfl, rfl, rfl⟩, ?_⟩
      generalize hbad : ({ NEEDBITS 32 (BYTEBITS s) with
            msg := some "invalid stored block lengths", mode := .BAD } : inflate_stream) = t
        at hcase
      have t1 : t.mode = .BAD := by rw [← hbad]
      have t2 : t.msg = some "invalid stored block lengths" := by rw [← hbad]
      have t3 : t.next_out = s.next_out := by rw [← hbad]; rfl
      have t4 : t.avail_out = s.avail_out := by rw [← hbad]; rfl
      have t5 : t.fixed = s.fixed := by rw [← hbad]; rfl
      have hu : (leave_update alloc flush out t).2 = 0 := by
        rcases win_fixed t5 hw with hw1 | hw1
        · obtain ⟨w, hw2, -⟩ := hw1.2.1
          exact leave_update_ok alloc flush out t (Or.inl (by rw [hw2]; rfl))
        · unfold leave_update
          rw [if_neg]
          rintro (c | c)
          · exact c hw1
          · rw [t1] at c
            exact absurd c.2.1 (by decide)
      obtain ⟨i1, i2, i3, -, i5, i6⟩ := inf_leave_ok alloc flush in_ out t Z_DATA_ERROR hu
      refine ⟨(inf_leave alloc flush in_ out t Z_DATA_ERROR).2, ?_, by rw [i2, t1],
        by rw [i3, t2], by rw [i5, t3], by rw [i6, t4]⟩
      have hr : run tb alloc flush in_ out (fuel + 2) s ret =
          some (inf_leave alloc flush in_ out t Z_DATA_ERROR) := by
        have hs2 : step tb (fuel + 1) flush out t ret = some (.leave t Z_DATA_ERROR) := by
          unfold step; rw [t1]
        show (match step tb (fuel + 1 + 1) flush out s ret with
          | none => none
          | some (.cont s1 ret1) => run tb alloc flush in_ out (fuel + 1) s1 ret1
          | some (.leave s1 ret1) => some (inf_leave alloc flush in_ out s1 ret1)
          | some (.done s1 ret1) => some (ret1, s1)) = _
        rw [hstep, hcase]
        show (match step tb (fuel + 1) flush out t ret with
          | none => none
          | some (.cont s1 ret1) => run tb alloc flush in_ out fuel s1 ret1
          | some (.leave s1 ret1) => some (inf_leave alloc flush in_ out s1 ret1)
          | some (.done s1 ret1) => some (ret1, s1)) = _
        rw [hs2]
      rw [hr]
      congr 1
      refine Prod.ext ?_ rfl
      rw [i1]
      unfold leave_ret
      rw [if_neg (fun c => absurd c.2 (by decide))]

/-- Witness for `stored_validation`: the header `LEN = 1`, `NLEN = 0xFFFE` is accepted. -/
theorem stored_validation_witness :
    Inv stored_state ∧ stored_state.mode = .STORED ∧ 32 ≤ stored_state.slen ∧
    ∃ t, step no_tables 1 Z_NO_FLUSH 10 stored_state Z_OK = some (case_COPY t Z_OK) ∧
      t.mode = .COPY_ ∧ t.length = 1 ∧ t.hold = 0 ∧ t.bits = 0 :=
  have hI : Inv stored_state :=
    ⟨rfl, rfl, by decide, by decide, Or.inl (by decide), mode_inv_plain rfl⟩
  ⟨hI, rfl, by decide, by
    obtain ⟨t, a, b, c, d, e, -⟩ :=
      ((stored_validation no_tables zero_alloc Z_NO_FLUSH 1 5 10 stored_state Z_OK hI rfl
        (Or.inr rfl)).2 (by decide)).1 (by decide)
    rw [if_neg (by decide)] at a
    exact ⟨t, a, b, c.trans (by decide), d, e⟩⟩

theorem out_copy_extends (d : Nat) : ∀ (n : Nat) (H : List Nat),
    ∃ W, out_copy d n H = H ++ W ∧ W.length = n := by
  intro n
  induction n with
  | zero => intro H; exact ⟨[], (List.append_nil H).symm, rfl⟩
  | succ n ih =>
    intro H
    obtain ⟨W, e, l⟩ := ih (H ++ [H.getD (H.length - d) 0])
    refine ⟨H.getD (H.length - d) 0 :: W, ?_, by simp [l]⟩
    rw [out_copy_step, e, List.append_assoc]
    rfl

/-- Every byte that `out_copy` appends is the byte `d` places before it. -/
theorem out_copy_get (d : Nat) (hd : 1 ≤ d) : ∀ (n : Nat) (H : List Nat) (i : Nat), i < n →
    d ≤ H.length →
    (out_copy d n H).getD (H.length + i) 0 = (out_copy d n H).getD (H.length + i - d) 0 := by
  intro n
  induction n with
  | zero => intro H i hi; omega
  | succ n ih =>
    intro H i hi hH
    rw [out_copy_step]
    obtain ⟨W, e, l⟩ := out_copy_extends d n (H ++ [H.getD (H.length - d) 0])
    cases i with
    | zero =>
      have hlt : H.length - d < H.length := by omega
      rw [e, Nat.add_zero, List.append_assoc]
      simp [List.getD_eq_getElem?_getD, List.getElem?_append_left hlt,
        List.getElem_append_right]
    | succ i =>
      have := ih (H ++ [H.getD (H.length - d) 0]) i (by omega)
        (by rw [List.length_append, List.length_singleton]; omega)
      rw [List.length_append, List.length_singleton] at this
      rw [show H.length + (i + 1) = H.length + 1 + i by omega]
      exact this

theorem match_emit_more (s : inflate_stream) (n : Nat) (nout : List Nat) :
    (match_emit s n nout).offset = s.offset ∧ (match_emit s n nout).fixed = s.fixed ∧
    (match_emit s n nout).mode = (if s.length - n = 0 then .LEN else s.mode) := by
  unfold match_emit
  dsimp only
  split_ifs <;> exact ⟨rfl, rfl, rfl⟩

/-- The passes of the case `MATCH` of one call, from a state inside a match: they copy
`min length avail_out` bytes, each the byte `offset` places back in the output so far. -/
theorem match_run (out E : Nat) (Hp : List Nat) :
    ∀ (n : Nat) (s : inflate_stream) (ret : Int), s.length ≤ n → Inv s → s.mode = .MATCH →
      acct out E s → wctx Hp s → s.offset ≤ (Hp ++ s.next_out.drop E).length →
      ∃ k t, slow_run out k s ret = some (t, ret) ∧ Inv t ∧ acct out E t ∧
        t.fixed = s.fixed ∧
        Hp ++ t.next_out.drop E =
          out_copy s.offset (min s.length s.avail_out) (Hp ++ s.next_out.drop E) ∧
        (∃ W, t.next_out = s.next_out ++ W ∧ W.length = min s.length s.avail_out) ∧
        t.avail_out + min s.length s.avail_out = s.avail_out ∧
        (s.length ≤ s.avail_out → t.mode = .LEN) ∧
        (s.avail_out < s.length → t.mode = .MATCH ∧ t.length = s.length - s.avail_out ∧
          t.offset = s.offset ∧ t.avail_out = 0) := by
  intro n
  induction n with
  | zero =>
    intro s ret hn h hm
    have := (me_MATCH h.regs hm).2.1.1
    omega
  | succ n ih =>
    intro s ret hn h hm ha hw hD
    have hl := (me_MATCH h.regs hm).2.1.1
    rcases MATCH_core out E Hp s ret h hm ha hw with ⟨a0, -⟩ | ⟨-, b0, -⟩ | ⟨c0, -, n1, nout, c1, c2, c3, -, c5, ⟨W1, c6, c7⟩, c8⟩
    · refine ⟨0, s, rfl, h, ha, rfl, ?_, ⟨[], (List.append_nil _).symm, ?_⟩, ?_, ?_, ?_⟩
      · rw [a0, Nat.min_zero]; rfl
      · rw [a0, Nat.min_zero]; rfl
      · rw [a0, Nat.min_zero]
      · intro c; omega
      · intro _; exact ⟨hm, by rw [a0]; rfl, rfl, a0⟩
    · omega
    · obtain ⟨f1, f2, f3, -⟩ := match_emit_fields s n1 nout
      obtain ⟨g1, g2, g3⟩ := match_emit_more s n1 nout
      have hstep : slow_step out s ret = .cont (match_emit s n1 nout) ret := by
        unfold slow_step; rw [hm]; exact c5
      have hi1 : Inv (match_emit s n1 nout) := by
        have := inv_MATCH out s ret h hm
        rw [c5] at this
        exact this
      have ha1 : acct out E (match_emit s n1 nout) :=
        acct_emits ha ⟨W1, by rw [f1, c6], by rw [f2]; omega⟩
      by_cases hfin : n1 = s.length
      · refine ⟨1, match_emit s n1 nout, slow_one hstep, hi1, ha1, g2, ?_, ⟨W1, by rw [f1, c6], ?_⟩,
          ?_, ?_, ?_⟩
        · rw [f1, c8, Nat.min_eq_left (by omega), hfin]
        · rw [c7, Nat.min_eq_left (by omega), hfin]
        · rw [f2, Nat.min_eq_left (by omega)]; omega
        · intro _; rw [g3, if_pos (by omega)]
        · intro c; omega
      · have hm1 : (match_emit s n1 nout).mode = .MATCH := by
          rw [g3, if_neg (by omega)]; exact hm
        have hD1 : (match_emit s n1 nout).offset ≤
            (Hp ++ (match_emit s n1 nout).next_out.drop E).length := by
          rw [g1, f1, c8, out_copy_length]; omega
        obtain ⟨k, t, r1, r2, r3, r4, r5, ⟨W2, r6, r7⟩, r8, r9, r10⟩ :=
          ih (match_emit s n1 nout) ret (by rw [f3]; omega) hi1 hm1 ha1
            (wctx_of_eq hw g2) hD1
        simp only [f1, f2, f3, g1] at r5 r6 r7 r8 r9 r10
        have hmin : n1 + min (s.length - n1) (s.avail_out - n1) = min s.length s.avail_out := by
          omega
        refine ⟨k + 1, t, slow_next hstep r1, r2, r3, r4.trans g2, ?_,
          ⟨W1 ++ W2, by rw [r6, c6, List.append_assoc], by
            rw [List.length_append, c7, r7]; exact hmin⟩, by omega, ?_, ?_⟩
        · rw [r5, c8, ← out_copy_add, hmin]
        · intro c; exact r9 (by omega)
        · intro c
          obtain ⟨q1, q2, q3, q4⟩ := r10 (by omega)
          exact ⟨q1, by rw [q2]; omega, q3, q4⟩

theorem win_length {s : inflate_stream} (h : win_shape s) : s.win.length = s.whave := by
  obtain ⟨-, ⟨w, e, l⟩, -, h4, -⟩ := h
  unfold inflate_stream.win lin
  rw [e]
  apply lastn_length
  show s.whave ≤ (w.drop s.wnext ++ w.take s.wnext).length
  rw [List.length_append, List.length_drop, List.length_take]
  omega

/-- The window of a stream holds the end of its own content. -/
theorem wctx_win {s : inflate_stream} (hw : win_shape s ∨ (s.wsize = 0 ∧ s.whave = 0))
    (h15 : s.wbits ≤ 15) : wctx s.win s := by
  rcases hw with hw | ⟨a, b⟩
  · have hl := win_length hw
    have h2 : s.wsize ≤ 32768 := by
      rw [hw.1]
      exact Nat.pow_le_pow_right (by norm_num) h15
    have h3 := hw.2.2.2.1
    refine ⟨by rw [hl]; omega, h2, Or.inr ⟨hw, ?_⟩⟩
    exact (lastn_all (by rw [hl])).symm
  · have : s.win = [] := by
      unfold inflate_stream.win lin lastn
      rw [b]
      simp
    exact ⟨by rw [this, b]; rfl, by rw [a]; norm_num, Or.inl b⟩

theorem amode_MATCH_inj {s t : inflate_stream} (h : amode_of t = amode_of s)
    (hm : s.mode = .MATCH) : t.mode = .MATCH ∧ t.length = s.length ∧ t.offset = s.offset := by
  have hb : t.mode = .MATCH := by
    have := congrArg amode.base h
    rw [amode_base, amode_base, hm] at this
    exact this
  unfold amode_of at h
  rw [hm, hb] at h
  dsimp only at h
  injection h with h1 h2
  exact ⟨hb, h1, h2⟩

/-- C27 (match copy, slow path), for a state in the mode `MATCH` whose distance reaches at
most to the start of the window content: with `H` the window content oldest byte first
followed by the output of this call, the passes of the case `MATCH` in this call append
`min length avail_out` bytes `W`, each equal to the byte `offset` places before it in
`H ++ W` (also when the match overlaps itself), whether they come from the window, from
its wrapped part or from the output; with room for the whole match the mode is `LEN`
again; without, the call leaves in `MATCH` with the rest of the length and the same
offset, and the code at `inf_leave` makes the window hold the end of `H ++ W`, so that the
next call goes on with the same history as long as the window still holds the byte
`offset` places back. -/
theorem match_copy (alloc : allocator) (halloc : ∀ n w, alloc n = some w → w.length = n)
    (flush : Int) (in_ out E : Nat) (s : inflate_stream) (ret : Int)
    (h : Inv s) (hm : s.mode = .MATCH) (ha : acct out E s)
    (hw : win_shape s ∨ (s.wsize = 0 ∧ s.whave = 0))
    (hwl : ∀ w, s.window = some w → w.length = 2 ^ s.wbits) (h15 : s.wbits ≤ 15)
    (hD : s.offset ≤ s.whave + (s.next_out.length - E)) :
    ∃ k t W, slow_run out k s ret = some (t, ret) ∧ t.next_out = s.next_out ++ W ∧
      W.length = min s.length s.avail_out ∧ t.avail_out + W.length = s.avail_out ∧
      (∀ i, i < W.length → W.getD i 0 =
        (s.win ++ s.next_out.drop E ++ W).getD
          ((s.win ++ s.next_out.drop E).length + i - s.offset) 0) ∧
      (s.length ≤ s.avail_out → t.mode = .LEN) ∧
      (s.avail_out < s.length →
        t.mode = .MATCH ∧ t.length = s.length - s.avail_out ∧ t.offset = s.offset ∧
        case_MATCH out t ret = .leave t ret ∧
        ((inf_leave alloc flush in_ out t ret).2.mode = .MEM ∨
          ((inf_leave alloc flush in_ out t ret).2.mode = .MATCH ∧
           (inf_leave alloc flush in_ out t ret).2.length = t.length ∧
           (inf_leave alloc flush in_ out t ret).2.offset = s.offset ∧
           win_shape (inf_leave alloc flush in_ out t ret).2 ∧
           (inf_leave alloc flush in_ out t ret).2.win =
             lastn (inf_leave alloc flush in_ out t ret).2.whave
               (s.win ++ s.next_out.drop E ++ W) ∧
           (inf_leave alloc flush in_ out t ret).2.whave =
             min (s.win ++ s.next_out.drop E ++ W).length
               (inf_leave alloc flush in_ out t ret).2.wsize))) := by
  obtain ⟨-, ⟨hl1, hl2⟩, ho1, ho2⟩ := me_MATCH h.regs hm
  have hwc := wctx_win hw h15
  have hwn : s.win.length = s.whave := by
    rcases hw with hw | ⟨-, b⟩
    · exact win_length hw
    · unfold inflate_stream.win lin lastn
      rw [b]
      simp
  have hlen : (s.win ++ s.next_out.drop E).length = s.whave + (s.next_out.length - E) := by
    rw [List.length_append, List.length_drop, hwn]
  obtain ⟨k, t, r1, r2, r3, r4, r5, ⟨W, r6, r7⟩, r8, r9, r10⟩ :=
    match_run out E s.win s.length s ret (le_refl _) h hm ha hwc (by rw [hlen]; exact hD)
  have hdrop : t.next_out.drop E = s.next_out.drop E ++ W := by
    rw [r6, drop_append_of_le ha.1]
  rw [hdrop, ← List.append_assoc] at r5
  refine ⟨k, t, W, r1, r6, r7, by omega, ?_, r9, ?_⟩
  · intro i hi
    have := out_copy_get s.offset ho1 (min s.length s.avail_out) (s.win ++ s.next_out.drop E) i
      (by rw [← r7]; exact hi) (by rw [hlen]; exact hD)
    rw [← r5] at this
    rw [← this, List.getD_eq_getElem?_getD, List.getD_eq_getElem?_getD,
      List.getElem?_append_right (by omega)]
    congr 2
    omega
  · intro hlt
    obtain ⟨q1, q2, q3, q4⟩ := r10 hlt
    have hcase : case_MATCH out t ret = .leave t ret := by
      unfold case_MATCH; rw [if_pos q4]
    refine ⟨q1, q2, q3, hcase, ?_⟩
    have hwt : (win_shape t ∧ t.win = lastn t.whave s.win ∧ t.whave = min s.win.length t.wsize) ∨
        (t.wsize = 0 ∧ t.whave = 0 ∧
          (s.win = [] ∨ (t.next_out.drop E = [] ∧ final_mode t.mode = true))) := by
      have e3 : t.whave = s.whave := congrArg fixed_part.whave r4
      have e2 : t.wsize = s.wsize := congrArg fixed_part.wsize r4
      rcases hw with hw | ⟨a, b⟩
      · refine Or.inl ⟨win_shape_of_fixed r4 hw, ?_, ?_⟩
        · rw [win_of_fixed r4, e3]
          exact (lastn_all (by rw [win_length hw])).symm
        · rw [e3, e2, win_length hw]
          have := hw.2.2.2.1
          omega
      · refine Or.inr ⟨by rw [e2, a], by rw [e3, b], Or.inl ?_⟩
        unfold inflate_stream.win lin lastn
        rw [b]
        simp
    have hwlt : ∀ w, t.window = some w → w.length = 2 ^ t.wbits := by
      have e1 : t.wbits = s.wbits := congrArg fixed_part.wbits r4
      have e5 : t.window = s.window := congrArg fixed_part.window r4
      rw [e1, e5]; exact hwl
    obtain ⟨hb, -, -, -⟩ := leave_between alloc halloc flush in_ out t ret s.win
      (t.next_out.take E) (t.next_out.drop E) r2 (List.take_append_drop _ _).symm
      (by rw [acct_usub r3, List.length_drop])
      (by
        intro hne hnil
        have := r3.2.1
        rw [← List.length_drop, hnil] at this
        exact hne (by simpa using this.symm))
      hwt hwlt
    rw [hdrop, ← List.append_assoc] at hb
    rcases inf_leave_alpha alloc flush in_ out t ret [] [] with hmem | hal
    · exact Or.inl hmem
    · right
      obtain ⟨m1, m2, m3⟩ := amode_MATCH_inj (congrArg astate.mode hal) q1
      refine ⟨m1, m2, by rw [m3, q3], ?_⟩
      rcases hb.win with ⟨a, b, c⟩ | ⟨-, -, c⟩
      · exact ⟨a, b, c⟩
      · exfalso
        rcases c with c | c
        · have := congrArg List.length c
          rw [List.length_append, hlen] at this
          simp at this
          omega
        · rw [m1] at c
          cases c

/-- Witness for `match_copy`: the match of "abcabc". -/
theorem match_copy_witness :
    ∃ k t W, slow_run 258 k match_state Z_OK = some (t, Z_OK) ∧
      t.next_out = [97, 98, 99] ++ W ∧ W.length = 3 ∧ t.avail_out + W.length = 255 ∧
      (∀ i, i < W.length → W.getD i 0 = ([97, 98, 99] ++ W).getD (3 + i - 3) 0) ∧
      t.mode = .LEN := by
  obtain ⟨k, t, W, a, b, c, d, e, f, -⟩ :=
    match_copy zero_alloc (fun n w hw => by cases hw; simp) Z_NO_FLUSH 6 258 0 match_state Z_OK
      ⟨rfl, rfl, by decide, by decide, Or.inl (by decide),
        ⟨⟨wf_lenfix, wf_distfix⟩, ⟨by decide, by decide⟩, by decide, by decide⟩⟩ rfl
      ⟨by decide, by decide, by decide⟩ (Or.inr ⟨rfl, rfl⟩) (fun w hw => by cases hw)
      (by decide) (by decide)
  exact ⟨k, t, W, a, b, c, d, e, f (by decide)⟩

/-- The match that a call leaves unfinished is lost when the window is smaller than its
distance: with `wbits = 8` the first call on `far_stream` (room for 259 bytes) ends inside
the match of length 3 at distance 257, entered with 259 bytes written in this call; the
next call fails and writes nothing. -/
theorem match_lost_across_calls :
    ((session no_tables zero_alloc 20 (fresh 8) far_pieces).getD []).map
      (fun c => (c.ret, c.after.mode, c.after.length, c.after.offset,
        c.after.next_out.length)) =
      [(Z_OK, .MATCH, 3, 257, 259), (Z_DATA_ERROR, .BAD, 3, 257, 0)] := by
  decide!

theorem fast_avail_in_eq {avail_in pos : Nat} (h5 : 5 ≤ avail_in) (hlt : avail_in < 4294967296)
    (hp : pos ≤ avail_in) : fast_avail_in avail_in pos = avail_in - pos := by
  unfold fast_avail_in
  dsimp only
  rw [usub_of_le h5 hlt]
  split_ifs with h
  · omega
  · rw [usub_of_le (by omega) (by norm_num)]
    omega

/-- What the loop of the fast decoder leaves in its locals, and what the code after the
loop makes of it: the whole bytes left in the accumulator go back to the input, which is
a suffix of the input on entry, and the unread bits are the bits on entry less the bits
consumed. -/
theorem fast_exit_core (out E : Nat) (Hp : List Nat) (s : inflate_stream)
    (hc : fast_ctx out E Hp s) (h6 : 6 ≤ s.avail_in) (h258 : 258 ≤ s.avail_out)
    {fuel : Nat} {s1 : inflate_stream} (hf : inflate_fast fuel s out = some s1) :
    ∃ n c, n ≤ s.next_in.length ∧ s1.next_in = s.next_in.drop n ∧ c ≤ s.slen ∧
      s1.sval = s.sval / 2 ^ c ∧ s1.slen = s.slen - c := by
  have hV := fast_hV [] hc.inv.hold
  have hI := hc.inv.inb
  have hm := hc.mode
  have hfc := hf
  unfold inflate_fast at hf
  dsimp only at hf
  split at hf
  · cases hf
  · rename_i r hr
    have hfi0 : fI [] s ⟨0, s.next_out, s.hold, s.bits⟩ := by
      have hsmall := len_bits_small hc.inv hc.mode
      refine ⟨Nat.zero_le _, by show s.bits ≤ s.bits + 8 * 0; omega, by show s.bits < 32; omega, ?_⟩
      show s.hold = s.sN [] / 2 ^ (s.bits + 8 * 0 - s.bits) % 2 ^ s.bits
      rw [show s.bits + 8 * 0 - s.bits = 0 by omega, pow_zero, Nat.div_one,
        sN_mod s [] (le_refl _), Nat.mod_eq_of_lt hc.inv.hold]
    obtain ⟨r1, -, -, e, cl, r4, r5⟩ := fast_loop_run no_tables [] out E Hp s hc h258 fuel
      ⟨0, s.next_out, s.hold, s.bits⟩ r hr hfi0 (by show 0 + 6 ≤ _; exact h6) (le_refl _)
      (by show s.next_out.length - s.next_out.length < _; omega)
    have hc0 : cbits s.bits ⟨0, s.next_out, s.hold, s.bits⟩ = 0 := by
      show s.bits + 8 * 0 - s.bits = 0; omega
    rw [hc0, pow_zero, Nat.div_one, Nat.sub_zero] at r4
    have hlong := first_code_long [] hc.inv hm (by
      unfold inflate_stream.slen
      have : 6 ≤ s.next_in.length := h6
      omega) r4
    rw [hc0] at r5
    have hle := r1.le
    have hcin := r1.cin
    have hlen : r.locals.bits / 8 ≤ r.locals.cin := by
      unfold cbits at r5
      omega
    obtain ⟨x1, x2⟩ := exit_bits hV hI r1 hlen
    have hun : fast_unread s.next_in r.locals.cin (r.locals.bits / 8) =
        s.next_in.drop (r.locals.cin - r.locals.bits / 8) := by
      unfold fast_unread; rw [if_pos hlen]
    have hN : ∀ t : inflate_stream,
        t.hold = r.locals.hold % 2 ^ (r.locals.bits - r.locals.bits / 8 * 8) →
        t.bits = r.locals.bits - r.locals.bits / 8 * 8 →
        t.next_in = fast_unread s.next_in r.locals.cin (r.locals.bits / 8) →
        ∃ n c, n ≤ s.next_in.length ∧ t.next_in = s.next_in.drop n ∧ c ≤ s.slen ∧
          t.sval = s.sval / 2 ^ c ∧ t.slen = s.slen - c := by
      intro t t1 t2 t3
      refine ⟨r.locals.cin - r.locals.bits / 8, cbits s.bits r.locals, by omega,
        by rw [t3, hun], ?_, ?_, ?_⟩
      · unfold cbits inflate_stream.slen
        omega
      · rw [← sN_nil, ← sN_nil, sN_eq, t1, t2, t3, hun]
        exact x1
      · unfold inflate_stream.slen
        rw [t2, t3, hun, x2]
    cases r with
    | test l =>
      cases hf
      exact hN _ rfl rfl rfl
    | brk l m msg =>
      cases hf
      exact hN _ rfl rfl rfl

/-- C29 (exit of the fast decoder): `inflate_fast`, entered in a state of the mode `LEN`
in which the invariant of the state machine holds (`hold < 2 ^ bits`, well-formed tables,
and `bits < 8` or else fewer bits than the next code needs) with at least 6 bytes of input
and room for 258 bytes, returns, and on return `bits < 8` and
`hold < 2 ^ bits`, `next_in` is a suffix of the input on entry (never before its entry
value) and `avail_in`, as the code computes it from `last`, is its length; the output on
entry was extended and `avail_out` went down by the number of bytes written; the unread
bits (`hold`, then the input left) are the unread bits on entry less the bits consumed;
and the mode is `LEN`, `TYPE` or `BAD`. -/
theorem fast_exit (out E : Nat) (s : inflate_stream) (hi : Inv s) (hm : s.mode = .LEN)
    (h6 : 6 ≤ s.avail_in) (h258 : 258 ≤ s.avail_out) (hin : s.avail_in < 4294967296)
    (ha : acct out E s) (hw : win_shape s ∨ (s.wsize = 0 ∧ s.whave = 0))
    (h15 : s.wbits ≤ 15) :
    (∃ s1, inflate_fast (s.avail_out + 2) s out = some s1) ∧
    ∀ fuel s1, inflate_fast fuel s out = some s1 →
      s1.bits < 8 ∧ s1.hold < 2 ^ s1.bits ∧
      (∃ n, n ≤ s.next_in.length ∧ s1.next_in = s.next_in.drop n ∧
        s1.avail_in = fast_avail_in s.avail_in n ∧ s1.avail_in + n = s.avail_in) ∧
      (∃ W, s1.next_out = s.next_out ++ W ∧ s1.avail_out + W.length = s.avail_out) ∧
      (∃ c, c ≤ s.slen ∧ s1.sval = s.sval / 2 ^ c ∧ s1.slen = s.slen - c) ∧
      (s1.mode = .LEN ∨ s1.mode = .TYPE ∨ s1.mode = .BAD) := by
  have hc : fast_ctx out E s.win s := ⟨hi, hm, ha, wctx_win hw h15⟩
  refine ⟨fast_total no_tables [] out E s.win s hc h6 h258, ?_⟩
  intro fuel s1 hf
  have hwf := me_LEN hi.regs (Or.inr (Or.inl hm))
  have hlt : s.avail_out < 4294967296 := by have := ha.2.1; have := ha.2.2; omega
  obtain ⟨i1, i2⟩ := inv_fast hi hm hf
  obtain ⟨n, c, e1, e2, e3, e4, e5⟩ := fast_exit_core out E s.win s hc h6 h258 hf
  have hrun := fast_symrun no_tables [] out E s.win s hc h6 h258 hf
  have hb0 : boundary (alpha_at [] E s.win s).mode = true := by
    show boundary (amode_of s) = true
    unfold amode_of; rw [hm]; rfl
  have hlen : s1.avail_in + n = s.avail_in := by
    show s1.next_in.length + n = s.next_in.length
    rw [e2, List.length_drop]; omega
  refine ⟨i2, i1.hold, ⟨n, e1, e2, ?_, hlen⟩, emits_fast hwf.1 hwf.2 h258 hlt hf,
    ⟨c, e3, e4, e5⟩, boundary_modes (symrun_boundary hrun hb0)⟩
  rw [fast_avail_in_eq (by omega) hin e1]
  omega

/-- Witness for `fast_exit`: the fast decoder on the symbols of "abcabc". -/
theorem fast_exit_witness :
    ∃ s1, inflate_fast 260 fast_state 258 = some s1 ∧ s1.bits < 8 ∧ s1.hold < 2 ^ s1.bits ∧
      (s1.mode = .LEN ∨ s1.mode = .TYPE ∨ s1.mode = .BAD) := by
  have h := fast_exit 258 0 fast_state
    ⟨rfl, rfl, by decide, by decide, Or.inl (by decide), ⟨wf_lenfix, wf_distfix⟩⟩ rfl
    (by decide) (by decide) (by decide) ⟨by decide, by decide, by decide⟩
    (Or.inr ⟨rfl, rfl⟩) (by decide)
  obtain ⟨s1, h1⟩ := h.1
  obtain ⟨a, b, -, -, -, c⟩ := h.2 _ s1 h1
  exact ⟨s1, h1, a, b, c⟩

theorem codelens_end_eq {tb : table_builder} {s0 s3 : inflate_stream}
    (h : codelens_fall tb s0 = some s3) (fuel : Nat) (flush : Int) (out : Nat) (ret : Int) :
    s3.mode = .LEN_ ∧ ∃ r, case_CODELENS tb fuel flush out s0 ret =
      if flush = Z_TREES then some (.leave s3 r) else case_LEN fuel out s3 r := by
  unfold codelens_fall at h
  unfold case_CODELENS
  rcases hl : codelens_loop (s0.nlen + s0.ndist - s0.have_) s0 with ⟨s, e⟩
  rw [hl] at h
  cases e <;> dsimp only at h ⊢
  · split_ifs at h with h1 h2 h3 h4
    cases h
    rw [if_neg h1, if_neg h2, if_neg h3, if_neg h4]
    exact ⟨rfl, _, rfl⟩
  · cases h
  · split_ifs at h with h1 h2 h3 h4
    cases h
    rw [if_neg h1, if_neg h2, if_neg h3, if_neg h4]
    exact ⟨rfl, _, rfl⟩

theorem lenlens_end_eq {tb : table_builder} {s0 s2 : inflate_stream}
    (h : lenlens_fall tb s0 = some s2) (fuel : Nat) (flush : Int) (out : Nat) (ret : Int) :
    ∃ r, case_LENLENS tb fuel flush out s0 ret = case_CODELENS tb fuel flush out s2 r := by
  unfold lenlens_fall at h
  unfold case_LENLENS
  rcases hl : lenlens_read (s0.ncode - s0.have_) s0 with ⟨s, e⟩
  rw [hl] at h
  cases e <;> dsimp only at h ⊢
  · cases h
  · split_ifs at h with h1
    cases h
    rw [if_neg h1]
    exact ⟨_, rfl⟩

theorem table_end_eq {s0 s1 : inflate_stream} (h : table_fall s0 = some s1)
    (tb : table_builder) (fuel : Nat) (flush : Int) (out : Nat) (ret : Int) :
    case_TABLE tb fuel flush out s0 ret = case_LENLENS tb fuel flush out s1 ret := by
  unfold table_fall at h
  unfold case_TABLE
  dsimp only at h ⊢
  split_ifs at h with h1 h2
  cases h
  rw [if_neg h1, if_neg h2]

/-- The stream `len_entry` gives is the stream with which the pass goes on in the case
`LEN`. -/
theorem len_entry_eq {tb : table_builder} {v s0 : inflate_stream}
    (h : len_entry tb v = some s0) (fuel : Nat) (flush : Int) (out : Nat) (ret : Int) :
    (s0.mode = .LEN_ ∨ s0.mode = .LEN) ∧
    ∃ r, step tb fuel flush out v ret =
      if (v.mode = .TABLE ∨ v.mode = .LENLENS ∨ v.mode = .CODELENS) ∧ flush = Z_TREES then
        some (.leave s0 r)
      else case_LEN fuel out s0 r := by
  unfold len_entry at h
  unfold step
  cases hm : v.mode <;> rw [hm] at h <;> dsimp only at h ⊢ <;> try cases h
  case TABLE =>
    rcases h1 : table_fall v with _ | a
    · rw [h1] at h; cases h
    rcases h2 : lenlens_fall tb a with _ | b
    · rw [h1] at h; dsimp only [Option.bind] at h; rw [h2] at h; cases h
    rw [h1] at h
    dsimp only [Option.bind] at h
    rw [h2] at h
    dsimp only [Option.bind] at h
    obtain ⟨r, e2⟩ := lenlens_end_eq h2 fuel flush out ret
    obtain ⟨m, r3, e3⟩ := codelens_end_eq h fuel flush out r
    refine ⟨Or.inl m, r3, ?_⟩
    rw [table_end_eq h1, e2, e3]
    by_cases hf : flush = Z_TREES
    · rw [if_pos hf, if_pos ⟨Or.inl rfl, hf⟩]
    · rw [if_neg hf, if_neg (fun c => hf c.2)]
  case LENLENS =>
    rcases h2 : lenlens_fall tb v with _ | b
    · rw [h2] at h; cases h
    rw [h2] at h
    dsimp only [Option.bind] at h
    obtain ⟨r, e2⟩ := lenlens_end_eq h2 fuel flush out ret
    obtain ⟨m, r3, e3⟩ := codelens_end_eq h fuel flush out r
    refine ⟨Or.inl m, r3, ?_⟩
    rw [e2, e3]
    by_cases hf : flush = Z_TREES
    · rw [if_pos hf, if_pos ⟨Or.inr (Or.inl rfl), hf⟩]
    · rw [if_neg hf, if_neg (fun c => hf c.2)]
  case CODELENS =>
    obtain ⟨m, r3, e3⟩ := codelens_end_eq h fuel flush out ret
    refine ⟨Or.inl m, r3, ?_⟩
    rw [e3]
    by_cases hf : flush = Z_TREES
    · rw [if_pos hf, if_pos ⟨Or.inr (Or.inr rfl), hf⟩]
    · rw [if_neg hf, if_neg (fun c => hf c.2)]
  case LEN_ =>
    refine ⟨Or.inl hm, ret, ?_⟩
    rw [if_neg (by rintro ⟨c | c | c, -⟩ <;> cases c)]
  case LEN =>
    refine ⟨Or.inr hm, ret, ?_⟩
    rw [if_neg (by rintro ⟨c | c | c, -⟩ <;> cases c)]

/-- The stream `fast_arg` gives is the argument of the call of `inflate_fast`: the pass
ends as that call tells. -/
theorem fast_arg_eq {tb : table_builder} {flush : Int} {v s : inflate_stream}
    (h : fast_arg tb flush v = some s) (fuel out : Nat) (ret : Int) :
    ∃ s0 r, len_entry tb v = some s0 ∧ s = { s0 with mode := .LEN } ∧
      ¬ ((v.mode = .TABLE ∨ v.mode = .LENLENS ∨ v.mode = .CODELENS) ∧ flush = Z_TREES) ∧
      6 ≤ s.avail_in ∧ 258 ≤ s.avail_out ∧
      step tb fuel flush out v ret =
        (inflate_fast fuel s out).map
          (fun s1 => .cont (if s1.mode = .TYPE then { s1 with back := -1 } else s1) r) := by
  unfold fast_arg at h
  rcases he : len_entry tb v with _ | s0
  · rw [he] at h; cases h
  rw [he] at h
  dsimp only at h
  split_ifs at h with h1 h2
  cases h
  obtain ⟨-, r, e⟩ := len_entry_eq he fuel flush out ret
  refine ⟨s0, r, rfl, rfl, h1, h2.1, h2.2, ?_⟩
  rw [e, if_neg h1]
  unfold case_LEN
  dsimp only
  rw [if_pos h2]
  cases inflate_fast fuel { s0 with mode := .LEN } out <;> rfl

theorem len_entry_good {tb : table_builder} {v s0 : inflate_stream} (out b0 : Nat)
    (htb : wf_builder tb) (h : len_entry tb v = some s0) (hi : Inv v) (ha : acct out b0 v) :
    Inv s0 ∧ emits v s0 ∧ (s0.mode = .LEN_ ∨ s0.mode = .LEN) := by
  obtain ⟨hm, r, e⟩ := len_entry_eq h 0 Z_TREES out 0
  by_cases hh : v.mode = .TABLE ∨ v.mode = .LENLENS ∨ v.mode = .CODELENS
  · rw [if_pos ⟨hh, rfl⟩] at e
    obtain ⟨g1, g2⟩ := good_step out b0 htb hi ha e
    exact ⟨g1, g2, hm⟩
  · have : s0 = v := by
      unfold len_entry at h
      cases hv : v.mode <;> rw [hv] at h hh <;> dsimp only at h <;>
        first
        | cases h; rfl
        | cases h
        | exact absurd (Or.inl rfl) hh
        | exact absurd (Or.inr (Or.inl rfl)) hh
        | exact absurd (Or.inr (Or.inr rfl)) hh
    subst this
    exact ⟨hi, emits_refl _, hm⟩

/-- The stream passed to `inflate_fast` carries the invariant of the state machine, in the
mode `LEN`, with the output of the pass so far. -/
theorem fast_arg_good {tb : table_builder} {flush : Int} {v s : inflate_stream} (out b0 : Nat)
    (htb : wf_builder tb) (hf : fast_arg tb flush v = some s) (hi : Inv v)
    (ha : acct out b0 v) : Inv s ∧ s.mode = .LEN ∧ acct out b0 s := by
  obtain ⟨u, r, e1, e2, -, -, -, -⟩ := fast_arg_eq hf 0 out 0
  obtain ⟨g1, g2, g3⟩ := len_entry_good out b0 htb e1 hi ha
  have a := acct_emits ha g2
  rw [e2]
  exact ⟨Inv_LEN_of g1 g3, rfl, acct_of_eq a rfl rfl⟩

theorem regs_of_quiet {s : inflate_stream} (hb : s.bits ≤ 32)
    (hm : lens_mode s.mode = false) : regs_ok s :=
  ⟨hb, fun c => absurd c (by rw [hm]; exact Bool.false_ne_true),
    fun c => absurd hm (by rw [c]; exact fun e => Bool.noConfusion e)⟩

theorem pull_bits_le (s : inflate_stream) (need : Nat → Nat → Bool) (K : Nat)
    (hK : ∀ h b, need h b = true → b < K) : (s.pull need).bits ≤ max s.bits (K + 7) := by
  obtain ⟨k, hp, -, hall⟩ := pull_spec s need
  rw [hp.2.2.1]
  cases k with
  | zero => simp
  | succ k =>
    have := hK _ _ (hall k (Nat.lt_succ_self k))
    have h2 : s.bits + 8 * (k + 1) ≤ K + 7 := by omega
    exact le_trans h2 (le_max_right _ _)

theorem NEEDBITS_le (n : Nat) (s : inflate_stream) :
    (NEEDBITS n s).bits ≤ max s.bits (n + 7) :=
  pull_bits_le s _ n (fun _ _ h => by simpa using h)

theorem lookup1_le (s : inflate_stream) (p : codeptr) (tbits : Nat)
    (hb : ∀ i, i < 2 ^ tbits → (s.tab p i).bits ≤ 15) :
    (lookup1 s p tbits).bits ≤ max s.bits 22 :=
  pull_bits_le s _ 15 (fun h b hn => by
    have h1 : b < (s.tab p (h % 2 ^ tbits)).bits := by simpa using hn
    have := hb _ (pow_mod_lt h tbits)
    omega)

theorem lookup2_le (s : inflate_stream) (p : codeptr) (last : code)
    (hb : ∀ j, j < 2 ^ last.op → last.bits + (s.tab p (last.val + j)).bits ≤ 15) :
    (lookup2 s p last).bits ≤ max s.bits 22 :=
  pull_bits_le s _ 15 (fun h b hn => by
    have h1 : b < last.bits +
        (s.tab p (last.val + h % 2 ^ (last.bits + last.op) / 2 ^ last.bits)).bits := by
      simpa using hn
    have h2 : h % 2 ^ (last.bits + last.op) / 2 ^ last.bits < 2 ^ last.op := by
      rw [Nat.div_lt_iff_lt_mul (Nat.two_pow_pos _), ← pow_add, Nat.add_comm]
      exact pow_mod_lt _ _
    have := hb _ h2
    omega)

theorem rk_MATCH (out : Nat) (s : inflate_stream) (ret : Int) (hq : quiet s) :
    quiet (case_MATCH out s ret).st := by
  obtain ⟨hb, hm⟩ := hq
  unfold case_MATCH match_emit
  dsimp only
  split_ifs <;> first | exact ⟨hb, hm⟩ | exact ⟨hb, rfl⟩

theorem rk_DISTEXT (out : Nat) (s : inflate_stream) (ret : Int) (hq : quiet s)
    (he : s.extra ≤ 24) : quiet (case_DISTEXT out s ret).st := by
  obtain ⟨hb, hm⟩ := hq
  have hn := NEEDBITS_le s.extra s
  unfold case_DISTEXT
  dsimp only
  split_ifs
  · exact ⟨by show (NEEDBITS s.extra s).bits ≤ 32; omega, hm⟩
  · exact rk_MATCH _ _ _ ⟨by show (NEEDBITS s.extra s).bits - _ ≤ 32; omega, rfl⟩
  · exact rk_MATCH _ _ _ ⟨hb, rfl⟩

theorem rk_dist_go (out : Nat) (s : inflate_stream) (here : code) (ret : Int) (hq : quiet s) :
    quiet (dist_go out s here ret).st := by
  obtain ⟨hb, hm⟩ := hq
  unfold dist_go
  dsimp only
  split_ifs
  · exact ⟨by show s.bits - _ ≤ 32; omega, rfl⟩
  · refine rk_DISTEXT _ _ _ ⟨by show s.bits - _ ≤ 32; omega, rfl⟩ ?_
    show here.op &&& 15 ≤ 24
    have := @Nat.and_le_right here.op 15
    omega

theorem rk_DIST (out : Nat) (s : inflate_stream) (ret : Int) (hq : quiet s)
    (hwd : wf_dist s) : quiet (case_DIST out s ret).st := by
  obtain ⟨hb, hm⟩ := hq
  have hwd : wf_table dist_term (s.tab s.distcode) s.distbits = true := hwd
  obtain ⟨-, hr⟩ := wf_root hwd
  have h1 := lookup1_le s s.distcode s.distbits (fun i hi => by
    have := (wf_first hwd hi).2.1
    omega)
  unfold case_DIST
  dsimp only
  split_ifs with c1 c2 c3
  · exact ⟨by show (lookup1 _ _ _).bits ≤ 32; omega, hm⟩
  · have hl : is_link (here1 (lookup1 s s.distcode s.distbits) s.distcode s.distbits).op =
        true := (dist_link_iff hwd (pow_mod_lt _ _)).mp c2
    have h2 := lookup2_le (lookup1 s s.distcode s.distbits) s.distcode
      (here1 (lookup1 s s.distcode s.distbits) s.distcode s.distbits) (fun j hj => by
        obtain ⟨a1, a2, -, -, -, a6, -⟩ := wf_second hwd (pow_mod_lt _ _) hl hj
        have a1 : (here1 (lookup1 s s.distcode s.distbits) s.distcode s.distbits).bits =
          s.distbits := a1
        have a6 : ((lookup1 s s.distcode s.distbits).tab s.distcode
            ((here1 (lookup1 s s.distcode s.distbits) s.distcode s.distbits).val + j)).bits ≤
          (here1 (lookup1 s s.distcode s.distbits) s.distcode s.distbits).op := a6
        have a2 : s.distbits +
          (here1 (lookup1 s s.distcode s.distbits) s.distcode s.distbits).op ≤ 15 := a2
        omega)
    exact ⟨by show (lookup2 _ _ _).bits ≤ 32; omega, hm⟩
  · have hl : is_link (here1 (lookup1 s s.distcode s.distbits) s.distcode s.distbits).op =
        true := (dist_link_iff hwd (pow_mod_lt _ _)).mp c2
    have h2 := lookup2_le (lookup1 s s.distcode s.distbits) s.distcode
      (here1 (lookup1 s s.distcode s.distbits) s.distcode s.distbits) (fun j hj => by
        obtain ⟨a1, a2, -, -, -, a6, -⟩ := wf_second hwd (pow_mod_lt _ _) hl hj
        have a1 : (here1 (lookup1 s s.distcode s.distbits) s.distcode s.distbits).bits =
          s.distbits := a1
        have a6 : ((lookup1 s s.distcode s.distbits).tab s.distcode
            ((here1 (lookup1 s s.distcode s.distbits) s.distcode s.distbits).val + j)).bits ≤
          (here1 (lookup1 s s.distcode s.distbits) s.distcode s.distbits).op := a6
        have a2 : s.distbits +
          (here1 (lookup1 s s.distcode s.distbits) s.distcode s.distbits).op ≤ 15 := a2
        omega)
    refine rk_dist_go _ _ _ _ ⟨?_, hm⟩
    show (lookup2 _ _ _).bits - _ ≤ 32
    omega
  · exact rk_dist_go _ _ _ _ ⟨by show (lookup1 _ _ _).bits ≤ 32; omega, hm⟩

theorem rk_LENEXT (out : Nat) (s : inflate_stream) (ret : Int) (hq : quiet s)
    (hwd : wf_dist s) (he : s.extra ≤ 24) : quiet (case_LENEXT out s ret).st := by
  obtain ⟨hb, hm⟩ := hq
  have hn := NEEDBITS_le s.extra s
  unfold case_LENEXT
  dsimp only
  split_ifs
  · exact ⟨by show (NEEDBITS s.extra s).bits ≤ 32; omega, hm⟩
  · exact rk_DIST _ _ _ ⟨by show (NEEDBITS s.extra s).bits - _ ≤ 32; omega, rfl⟩ hwd
  · exact rk_DIST _ _ _ ⟨hb, rfl⟩ hwd

theorem rk_len_go (out : Nat) (s : inflate_stream) (here : code) (ret : Int) (hq : quiet s)
    (hwd : wf_dist s) : quiet (len_go out s here ret).st := by
  obtain ⟨hb, hm⟩ := hq
  unfold len_go
  dsimp only
  split_ifs
  · exact ⟨by show s.bits - _ ≤ 32; omega, rfl⟩
  · exact ⟨by show s.bits - _ ≤ 32; omega, rfl⟩
  · exact ⟨by show s.bits - _ ≤ 32; omega, rfl⟩
  · refine rk_LENEXT _ _ _ ⟨by show s.bits - _ ≤ 32; omega, rfl⟩ hwd ?_
    show here.op &&& 15 ≤ 24
    have := @Nat.and_le_right here.op 15
    omega

theorem rk_LEN_slow (out : Nat) (s : inflate_stream) (ret : Int) (hq : quiet s)
    (hwl : wf_len s) (hwd : wf_dist s) : quiet (case_LEN_slow out s ret).st := by
  obtain ⟨hb, hm⟩ := hq
  have hwl : wf_table len_term (s.tab s.lencode) s.lenbits = true := hwl
  obtain ⟨-, hr⟩ := wf_root hwl
  have h1 := lookup1_le { s with back := 0 } s.lencode s.lenbits (fun i hi => by
    have := (wf_first hwl hi).2.1
    have e : ({ s with back := 0 } : inflate_stream).tab s.lencode i = s.tab s.lencode i := rfl
    rw [e]
    omega)
  have h1 : (lookup1 { s with back := 0 } s.lencode s.lenbits).bits ≤ max s.bits 22 := h1
  have h2 : ∀ c : (here1 (lookup1 { s with back := 0 } s.lencode s.lenbits) s.lencode
        s.lenbits).op ≠ 0 ∧
      (here1 (lookup1 { s with back := 0 } s.lencode s.lenbits) s.lencode s.lenbits).op &&& 240
        = 0,
      (lookup2 (lookup1 { s with back := 0 } s.lencode s.lenbits) s.lencode
        (here1 (lookup1 { s with back := 0 } s.lencode s.lenbits) s.lencode s.lenbits)).bits
        ≤ 32 := by
    intro c
    have hl : is_link (s.tab s.lencode
        ((lookup1 { s with back := 0 } s.lencode s.lenbits).hold % 2 ^ s.lenbits)).op = true :=
      (len_link_iff hwl (pow_mod_lt _ _)).mp c
    have := lookup2_le (lookup1 { s with back := 0 } s.lencode s.lenbits) s.lencode
      (here1 (lookup1 { s with back := 0 } s.lencode s.lenbits) s.lencode s.lenbits)
      (fun j hj => by
        obtain ⟨a1, a2, -, -, -, a6, -⟩ := wf_second hwl (pow_mod_lt _ _) hl hj
        have a1 : (here1 (lookup1 { s with back := 0 } s.lencode s.lenbits) s.lencode
          s.lenbits).bits = s.lenbits := a1
        have a6 : ((lookup1 { s with back := 0 } s.lencode s.lenbits).tab s.lencode
            ((here1 (lookup1 { s with back := 0 } s.lencode s.lenbits) s.lencode
              s.lenbits).val + j)).bits ≤
          (here1 (lookup1 { s with back := 0 } s.lencode s.lenbits) s.lencode s.lenbits).op :=
          a6
        have a2 : s.lenbits +
          (here1 (lookup1 { s with back := 0 } s.lencode s.lenbits) s.lencode s.lenbits).op
            ≤ 15 := a2
        omega)
    omega
  unfold case_LEN_slow
  dsimp only
  split_ifs with c1 c2 c3
  · exact ⟨by show (lookup1 _ _ _).bits ≤ 32; omega, hm⟩
  · exact ⟨h2 c2, hm⟩
  · refine rk_len_go _ _ _ _ ⟨?_, hm⟩ hwd
    show (lookup2 _ _ _).bits - _ ≤ 32
    have := h2 c2
    omega
  · exact rk_len_go _ _ _ _ ⟨by show (lookup1 _ _ _).bits ≤ 32; omega, hm⟩ hwd

theorem rk_LEN {fuel out : Nat} {s : inflate_stream} {ret : Int} {o : outcome} (h : Inv s)
    (hm : s.mode = .LEN_ ∨ s.mode = .LEN) (hc : case_LEN fuel out s ret = some o) :
    quiet o.st := by
  have hI := Inv_LEN_of h hm
  have hw := me_LEN hI.regs (Or.inr (Or.inl rfl))
  have hb := len_bits_small hI rfl
  unfold case_LEN at hc
  dsimp only at hc
  split_ifs at hc
  · split at hc
    · cases hc
    · rename_i s1 hf
      cases hc
      obtain ⟨-, h8⟩ := inv_fast hI rfl hf
      obtain ⟨-, h2⟩ := fast_fixed hf
      split_ifs with c
      · exact ⟨by show s1.bits ≤ 32; omega, by show lens_mode s1.mode = false; rw [c]; rfl⟩
      · refine ⟨by show s1.bits ≤ 32; omega, ?_⟩
        show lens_mode s1.mode = false
        rcases h2 with h2 | h2 | h2 <;> rw [h2] <;> rfl
  · cases hc
    exact rk_LEN_slow _ _ _ ⟨by show s.bits ≤ 32; have : s.bits < 15 := hb; omega, rfl⟩
      hw.1 hw.2

theorem rk_LIT (s : inflate_stream) (ret : Int) (hq : quiet s) : quiet (case_LIT s ret).st := by
  obtain ⟨hb, hm⟩ := hq
  unfold case_LIT
  split_ifs
  · exact ⟨hb, hm⟩
  · exact ⟨hb, rfl⟩

theorem rk_COPY (s : inflate_stream) (ret : Int) (hb : s.bits ≤ 32) :
    quiet (case_COPY s ret).st := by
  unfold case_COPY
  dsimp only
  split_ifs <;> exact ⟨hb, rfl⟩

theorem rk_STORED (flush : Int) (s : inflate_stream) (ret : Int) (hq : quiet s) :
    quiet (case_STORED flush s ret).st := by
  obtain ⟨hb, hm⟩ := hq
  obtain ⟨k, hp, -, hn⟩ := NEEDBITS_spec 32 (BYTEBITS s)
  have e : (NEEDBITS 32 (BYTEBITS s)).bits = (s.bits - s.bits % 8) + 8 * k := hp.2.2.1
  have hn : (NEEDBITS 32 (BYTEBITS s)).bits = s.bits - s.bits % 8 ∨
      (NEEDBITS 32 (BYTEBITS s)).bits < 32 + 8 := hn
  have h32 : (NEEDBITS 32 (BYTEBITS s)).bits ≤ 32 := by omega
  unfold case_STORED
  dsimp only
  split_ifs
  · exact ⟨h32, hm⟩
  · exact ⟨h32, rfl⟩
  · exact ⟨Nat.zero_le _, rfl⟩
  · exact rk_COPY _ _ (Nat.zero_le _)

theorem rk_TYPEDO (flush : Int) (s : inflate_stream) (ret : Int) (hq : quiet s) :
    quiet (case_TYPEDO flush s ret).st := by
  obtain ⟨hb, hm⟩ := hq
  have hn := NEEDBITS_le 3 s
  unfold case_TYPEDO
  dsimp only
  split_ifs <;> try split
  all_goals first
  | exact ⟨by show s.bits - _ ≤ 32; omega, rfl⟩
  | exact ⟨by show (NEEDBITS 3 s).bits ≤ 32; omega, hm⟩
  | exact ⟨by show (NEEDBITS 3 s).bits - 1 - 2 ≤ 32; omega, rfl⟩

theorem rk_TYPE (flush : Int) (s : inflate_stream) (ret : Int) (hq : quiet s) :
    quiet (case_TYPE flush s ret).st := by
  unfold case_TYPE
  split_ifs
  · exact hq
  · exact rk_TYPEDO _ _ _ hq

theorem rk_lenlens_read (k : Nat) :
    ∀ s : inflate_stream, s.bits ≤ 32 →
      (lenlens_read k s).1.bits ≤ 32 ∧ (lenlens_read k s).1.nlen = s.nlen ∧
      (lenlens_read k s).1.ndist = s.ndist ∧ (lenlens_read k s).1.ncode = s.ncode := by
  induction k with
  | zero => intro s hb; exact ⟨hb, rfl, rfl, rfl⟩
  | succ n ih =>
    intro s hb
    have hn := NEEDBITS_le 3 s
    unfold lenlens_read
    dsimp only
    split_ifs
    · exact ⟨by show (NEEDBITS 3 s).bits ≤ 32; omega, rfl, rfl, rfl⟩
    · exact ih _ (by show (NEEDBITS 3 s).bits - 3 ≤ 32; omega)
    · exact ⟨hb, rfl, rfl, rfl⟩

theorem rk_lenlens_zero (k : Nat) :
    ∀ s : inflate_stream, (lenlens_zero k s).nlen = s.nlen ∧
      (lenlens_zero k s).ndist = s.ndist ∧ (lenlens_zero k s).ncode = s.ncode := by
  induction k with
  | zero => intro s; exact ⟨rfl, rfl, rfl⟩
  | succ n ih =>
    intro s
    unfold lenlens_zero
    split_ifs
    · exact ih _
    · exact ⟨rfl, rfl, rfl⟩

theorem rk_codelens_body (s : inflate_stream) (hb : s.bits ≤ 32) (hT : codes_short s) :
    (codelens_body s).1.bits ≤ 32 ∧ (codelens_body s).1.nlen = s.nlen ∧
    (codelens_body s).1.ndist = s.ndist ∧ (codelens_body s).1.ncode = s.ncode ∧
    (codelens_body s).1.lenbits = s.lenbits ∧ (codelens_body s).1.lencode = s.lencode ∧
    (codelens_body s).1.codes = s.codes := by
  have h1 := lookup1_le s s.lencode s.lenbits hT
  have hh : (here1 (lookup1 s s.lencode s.lenbits) s.lencode s.lenbits).bits ≤ 15 :=
    hT _ (pow_mod_lt _ _)
  have hx : rep_extra (here1 (lookup1 s s.lencode s.lenbits) s.lencode s.lenbits).val ≤ 7 := by
    unfold rep_extra; split_ifs <;> omega
  have h2 := NEEDBITS_le ((here1 (lookup1 s s.lencode s.lenbits) s.lencode s.lenbits).bits +
    rep_extra (here1 (lookup1 s s.lencode s.lenbits) s.lencode s.lenbits).val)
    (lookup1 s s.lencode s.lenbits)
  unfold codelens_body
  dsimp only
  split_ifs
  · exact ⟨by show (lookup1 _ _ _).bits ≤ 32; omega, rfl, rfl, rfl, rfl, rfl, rfl⟩
  · exact ⟨by show (lookup1 _ _ _).bits - _ ≤ 32; omega, rfl, rfl, rfl, rfl, rfl, rfl⟩
  · exact ⟨by show (NEEDBITS _ _).bits ≤ 32; omega, rfl, rfl, rfl, rfl, rfl, rfl⟩
  · exact ⟨by show (NEEDBITS _ _).bits - _ ≤ 32; omega, rfl, rfl, rfl, rfl, rfl, rfl⟩
  · exact ⟨by show (NEEDBITS _ _).bits - _ - _ ≤ 32; omega, rfl, rfl, rfl, rfl, rfl, rfl⟩
  · exact ⟨by show (NEEDBITS _ _).bits - _ - _ ≤ 32; omega, rfl, rfl, rfl, rfl, rfl, rfl⟩

theorem codes_short_of_eq {s t : inflate_stream} (h : codes_short s)
    (e1 : t.lenbits = s.lenbits) (e2 : t.lencode = s.lencode) (e3 : t.codes = s.codes) :
    codes_short t := by
  intro i hi
  rw [e1] at hi
  have : t.tab t.lencode i = s.tab s.lencode i := by
    show code_at t.codes t.lencode i = code_at s.codes s.lencode i
    rw [e2, e3]
  rw [this]
  exact h i hi

theorem rk_codelens_loop (k : Nat) :
    ∀ s : inflate_stream, s.bits ≤ 32 → codes_short s →
      (codelens_loop k s).1.bits ≤ 32 ∧ (codelens_loop k s).1.nlen = s.nlen ∧
      (codelens_loop k s).1.ndist = s.ndist ∧ (codelens_loop k s).1.ncode = s.ncode ∧
      (codelens_loop k s).1.lenbits = s.lenbits := by
  induction k with
  | zero => intro s hb _; exact ⟨hb, rfl, rfl, rfl, rfl⟩
  | succ n ih =>
    intro s hb hT
    obtain ⟨b1, b2, b3, b4, b5, b6, b7⟩ := rk_codelens_body s hb hT
    unfold codelens_loop
    split_ifs
    · rcases hcb : codelens_body s with ⟨s1, e⟩
      rw [hcb] at b1 b2 b3 b4 b5 b6 b7
      cases e
      · obtain ⟨c1, c2, c3, c4, c5⟩ := ih s1 b1 (codes_short_of_eq hT b5 b6 b7)
        exact ⟨c1, c2.trans b2, c3.trans b3, c4.trans b4, c5.trans b5⟩
      · exact ⟨b1, b2, b3, b4, b5⟩
      · exact ⟨b1, b2, b3, b4, b5⟩
    · exact ⟨hb, rfl, rfl, rfl, rfl⟩

theorem rk_CODELENS (out b0 : Nat) {tb : table_builder} {fuel : Nat} {flush : Int}
    {s : inflate_stream} {ret : Int} {o : outcome} (htb : wf_builder tb) (h : Inv s)
    (hm : s.mode = .CODELENS) (ha : acct out b0 s) (hr : regs_ok s)
    (hc : case_CODELENS tb fuel flush out s ret = some o) : regs_ok o.st := by
  obtain ⟨hb, hcnt, hlb⟩ := hr
  have hT : codes_short s := fun i hi => by
    have := (wf_codes_stable (me_CODELENS h.regs hm) hi).1
    have := hlb hm
    omega
  obtain ⟨b1, b2, b3, b4, b5⟩ := rk_codelens_loop (s.nlen + s.ndist - s.have_) s hb hT
  have hz : ∀ s4 r, case_CODELENS tb 0 Z_TREES out s ret = some (.leave s4 r) → Inv s4 :=
    fun s4 r e => (good_CODELENS out b0 htb h hm ha e).1
  unfold case_CODELENS at hc hz
  rcases hcl : codelens_loop (s.nlen + s.ndist - s.have_) s with ⟨s1, e⟩
  rw [hcl] at b1 b2 b3 b4 b5 hc hz
  have hs1 : regs_ok s1 := by
    refine ⟨b1, fun _ => ?_, fun _ => ?_⟩
    · have := hcnt (by rw [hm]; rfl)
      unfold counts_ok at this ⊢
      have b2 : s1.nlen = s.nlen := b2
      have b3 : s1.ndist = s.ndist := b3
      have b4 : s1.ncode = s.ncode := b4
      rw [b2, b3, b4]
      exact this
    · have b5 : s1.lenbits = s.lenbits := b5
      rw [b5]
      exact hlb hm
  cases e
  case leave => cases hc; exact hs1
  all_goals
    dsimp only at hc hz
    split_ifs at hc with h1 h2 h3 h4 h5
    · cases hc; exact hs1
    · cases hc; exact regs_of_quiet b1 rfl
    · cases hc; exact regs_of_quiet b1 rfl
    · cases hc; exact regs_of_quiet b1 rfl
    · cases hc; exact regs_of_quiet b1 rfl
    · rw [if_neg h1, if_neg h2, if_neg h3, if_neg h4, if_pos rfl] at hz
      have hq := rk_LEN (hz _ _ rfl) (Or.inl rfl) hc
      exact regs_of_quiet hq.1 hq.2

theorem rk_LENLENS (out b0 : Nat) {tb : table_builder} {fuel : Nat} {flush : Int}
    {s : inflate_stream} {ret : Int} {o : outcome} (htb : wf_builder tb)
    (hsc : short_codes tb) (h : Inv s) (hm : s.mode = .LENLENS) (ha : acct out b0 s)
    (hr : regs_ok s) (hc : case_LENLENS tb fuel flush out s ret = some o) : regs_ok o.st := by
  obtain ⟨hb, hcnt, -⟩ := hr
  have hcnt : counts_ok s := hcnt (by rw [hm]; rfl)
  unfold case_LENLENS at hc
  obtain ⟨b1, b2, b3⟩ := inv_lenlens_read (s.ncode - s.have_) s h hm (le_refl _)
  obtain ⟨o1, o2⟩ := lenlens_read_out (s.ncode - s.have_) s
  obtain ⟨r1, r2, r3, r4⟩ := rk_lenlens_read (s.ncode - s.have_) s hb
  rcases hr : lenlens_read (s.ncode - s.have_) s with ⟨s1, b⟩
  rw [hr] at b1 b2 b3 hc o1 o2 r1 r2 r3 r4
  have o1 : s1.next_out = s.next_out := o1
  have o2 : s1.avail_out = s.avail_out := o2
  have r1 : s1.bits ≤ 32 := r1
  have r2 : s1.nlen = s.nlen := r2
  have r3 : s1.ndist = s.ndist := r3
  have r4 : s1.ncode = s.ncode := r4
  have hc1 : counts_ok s1 := by
    unfold counts_ok at hcnt ⊢
    rw [r2, r3, r4]
    exact hcnt
  cases b
  · cases hc
    have b2 : s1.mode = .LENLENS := b2
    exact ⟨r1, fun _ => hc1, fun c => absurd (b2.symm.trans c) (fun e => Mode.noConfusion e)⟩
  · obtain ⟨z1, z2, z3, z4, z5, z6⟩ := lenlens_zero_frame (19 - s1.have_) s1
    obtain ⟨p1, p2⟩ := lenlens_zero_out (19 - s1.have_) s1
    obtain ⟨q1, q2, q3⟩ := rk_lenlens_zero (19 - s1.have_) s1
    have hb8 : s1.bits < 8 := b3 rfl
    dsimp only at hc
    have a1 : (lenlens_zero (19 - s1.have_) s1).sane = 1 := z1.trans b1.sane
    have a2 : (lenlens_zero (19 - s1.have_) s1).dmax = 32768 := z2.trans b1.dmax
    have a3 : bytes (lenlens_zero (19 - s1.have_) s1).next_in := by rw [z3]; exact b1.inb
    have a4 : (lenlens_zero (19 - s1.have_) s1).hold <
        2 ^ (lenlens_zero (19 - s1.have_) s1).bits := by rw [z4, z5]; exact b1.hold
    have a5 : (lenlens_zero (19 - s1.have_) s1).bits < 8 := by rw [z5]; exact hb8
    split_ifs at hc with h1
    · cases hc
      exact regs_of_quiet (by show (lenlens_zero (19 - s1.have_) s1).bits ≤ 32; omega) rfl
    · refine rk_CODELENS out b0 htb ?_ rfl ?_ ?_ hc
      · refine ⟨a1, a2, a3, a4, Or.inl a5, mi_CODELENS rfl ?_⟩
        obtain ⟨l1, l2⟩ := (htb ((lenlens_zero (19 - s1.have_) s1).lens.take 19) 7).1
          (not_not.mp h1)
        have hn : 0 + 2 ^ (tb .CODES ((lenlens_zero (19 - s1.have_) s1).lens.take 19) 7).2.2 ≤
            (tb .CODES ((lenlens_zero (19 - s1.have_) s1).lens.take 19) 7).2.1.length := by
          rw [Nat.zero_add]; exact l1
        intro i hi
        refine term_ok_congr (l2 i hi) hi hn (fun x hx => ?_)
        show (store_codes _ _ _).getD (0 + x) default = _
        have := store_get_at (lenlens_zero (19 - s1.have_) s1).codes 0
          (tb .CODES ((lenlens_zero (19 - s1.have_) s1).lens.take 19) 7).2.1 hx
        exact this
      · exact acct_of_eq ha (p1.trans o1) (p2.trans o2)
      · refine ⟨by show (lenlens_zero (19 - s1.have_) s1).bits ≤ 32; omega, fun _ => ?_,
          fun _ => hsc _ _ (not_not.mp h1)⟩
        show counts_ok (lenlens_zero (19 - s1.have_) s1)
        unfold counts_ok at hc1 ⊢
        rw [q1, q2, q3]
        exact hc1

theorem rk_TABLE (out b0 : Nat) {tb : table_builder} {fuel : Nat} {flush : Int}
    {s : inflate_stream} {ret : Int} {o : outcome} (htb : wf_builder tb)
    (hsc : short_codes tb) (h : Inv s) (hm : s.mode = .TABLE) (ha : acct out b0 s)
    (hb : s.bits ≤ 32) (hc : case_TABLE tb fuel flush out s ret = some o) : regs_ok o.st := by
  have hsl := we_TABLE h.slack hm
  obtain ⟨k, hp, hstop, hmin⟩ := NEEDBITS_spec 14 s
  have hh := pulled_hold hp h.inb h.hold
  have hI := pulled_bytes hp h.inb
  have h5 : ∀ x : Nat, x % 2 ^ 5 < 32 := fun x => Nat.mod_lt _ (by decide)
  have h4 : ∀ x : Nat, x % 2 ^ 4 < 16 := fun x => Nat.mod_lt _ (by decide)
  unfold case_TABLE at hc
  dsimp only at hc
  have hb8 : (NEEDBITS 14 s).bits - 5 - 5 - 4 < 8 := by omega
  split_ifs at hc with h1 h2
  · cases hc
    exact regs_of_quiet (by show (NEEDBITS 14 s).bits ≤ 32; omega) (by
      show lens_mode s.mode = false; rw [hm]; rfl)
  · cases hc
    exact regs_of_quiet (by show (NEEDBITS 14 s).bits - 5 - 5 - 4 ≤ 32; omega) rfl
  · refine rk_LENLENS out b0 htb hsc ?_ rfl ?_ ?_ hc
    · exact ⟨h.sane, h.dmax, hI, div_pow_lt (div_pow_lt (div_pow_lt hh)),
        Or.inl hb8, mode_inv_plain rfl⟩
    · exact acct_of_eq ha rfl rfl
    · refine ⟨by show (NEEDBITS 14 s).bits - 5 - 5 - 4 ≤ 32; omega, fun _ => ?_,
        fun c => (by cases c)⟩
      have h2 : ¬ ((NEEDBITS 14 s).hold % 2 ^ 5 + 257 > 286 ∨
          (NEEDBITS 14 s).hold / 2 ^ 5 % 2 ^ 5 + 1 > 30) := h2
      refine ⟨⟨?_, ?_⟩, ⟨?_, ?_⟩, ⟨?_, ?_⟩⟩
      · show 257 ≤ (NEEDBITS 14 s).hold % 2 ^ 5 + 257
        omega
      · show (NEEDBITS 14 s).hold % 2 ^ 5 + 257 ≤ 286
        omega
      · show 1 ≤ (NEEDBITS 14 s).hold / 2 ^ 5 % 2 ^ 5 + 1
        omega
      · show (NEEDBITS 14 s).hold / 2 ^ 5 % 2 ^ 5 + 1 ≤ 30
        omega
      · show 4 ≤ (NEEDBITS 14 s).hold / 2 ^ 5 / 2 ^ 5 % 2 ^ 4 + 4
        omega
      · show (NEEDBITS 14 s).hold / 2 ^ 5 / 2 ^ 5 % 2 ^ 4 + 4 ≤ 19
        have := h4 ((NEEDBITS 14 s).hold / 2 ^ 5 / 2 ^ 5)
        omega

/-- Every pass through the `switch` keeps the accumulator within 32 bits and the counts of
a dynamic header in range. -/
theorem rk_step (out b0 : Nat) {tb : table_builder} {fuel : Nat} {flush : Int}
    {s : inflate_stream} {ret : Int} {o : outcome} (htb : wf_builder tb)
    (hsc : short_codes tb) (h : Inv s) (ha : acct out b0 s) (hr : regs_ok s)
    (hc : step tb fuel flush out s ret = some o) : regs_ok o.st := by
  have hb := hr.1
  unfold step at hc
  cases hm : s.mode <;> rw [hm] at hc <;> dsimp only at hc
  case TABLE => exact rk_TABLE out b0 htb hsc h hm ha hb hc
  case LENLENS => exact rk_LENLENS out b0 htb hsc h hm ha hr hc
  case CODELENS => exact rk_CODELENS out b0 htb h hm ha hr hc
  case LEN_ => have hq := rk_LEN h (Or.inl hm) hc; exact regs_of_quiet hq.1 hq.2
  case LEN => have hq := rk_LEN h (Or.inr hm) hc; exact regs_of_quiet hq.1 hq.2
  all_goals
    have hq : quiet s := ⟨hb, by rw [hm]; rfl⟩
    cases hc
  case HEAD => exact regs_of_quiet hb rfl
  case TYPE => have hq := rk_TYPE flush s ret hq; exact regs_of_quiet hq.1 hq.2
  case TYPEDO => have hq := rk_TYPEDO flush s ret hq; exact regs_of_quiet hq.1 hq.2
  case STORED => have hq := rk_STORED flush s ret hq; exact regs_of_quiet hq.1 hq.2
  case COPY_ => have hq := rk_COPY s ret hb; exact regs_of_quiet hq.1 hq.2
  case COPY => have hq := rk_COPY s ret hb; exact regs_of_quiet hq.1 hq.2
  case LENEXT =>
    obtain ⟨hw, -, he, -⟩ := me_LENEXT h.regs hm
    have hq := rk_LENEXT out s ret hq hw.2 (by omega)
    exact regs_of_quiet hq.1 hq.2
  case DIST =>
    obtain ⟨hw, -⟩ := me_DIST h.regs hm
    have hq := rk_DIST out s ret hq hw.2
    exact regs_of_quiet hq.1 hq.2
  case DISTEXT =>
    obtain ⟨hw, -, he, -⟩ := me_DISTEXT h.regs hm
    have hq := rk_DISTEXT out s ret hq (by omega)
    exact regs_of_quiet hq.1 hq.2
  case MATCH => have hq := rk_MATCH out s ret hq; exact regs_of_quiet hq.1 hq.2
  case LIT => have hq := rk_LIT s ret hq; exact regs_of_quiet hq.1 hq.2
  all_goals exact regs_of_quiet hb (by first | rfl | (show lens_mode s.mode = false; rw [hm]; rfl))

theorem updatewindow_counts (alloc : allocator) (s : inflate_stream) (e : List Nat) (c : Nat) :
    (updatewindow alloc s e c).1.bits = s.bits ∧ (updatewindow alloc s e c).1.mode = s.mode ∧
    (updatewindow alloc s e c).1.nlen = s.nlen ∧ (updatewindow alloc s e c).1.ndist = s.ndist ∧
    (updatewindow alloc s e c).1.ncode = s.ncode ∧
    (updatewindow alloc s e c).1.lenbits = s.lenbits := by
  unfold updatewindow
  split
  · exact ⟨rfl, rfl, rfl, rfl, rfl, rfl⟩
  · dsimp only
    split_ifs <;> exact ⟨rfl, rfl, rfl, rfl, rfl, rfl⟩

theorem regs_ok_of_eq {s t : inflate_stream} (h : regs_ok s) (e1 : t.bits = s.bits)
    (e2 : t.mode = s.mode) (e3 : t.nlen = s.nlen) (e4 : t.ndist = s.ndist)
    (e5 : t.ncode = s.ncode) (e6 : t.lenbits = s.lenbits) : regs_ok t := by
  unfold regs_ok counts_ok at h ⊢
  rw [e1, e2, e3, e4, e5, e6]
  exact h

theorem leave_regs_ok (alloc : allocator) (flush : Int) (in_ out : Nat) (s : inflate_stream)
    (ret : Int) (h : regs_ok s) : regs_ok (inf_leave alloc flush in_ out s ret).2 := by
  have hu : regs_ok (leave_update alloc flush out s).1 := by
    unfold leave_update
    split_ifs
    · obtain ⟨a1, a2, a3, a4, a5, a6⟩ := updatewindow_counts alloc s s.next_out
        (usub out s.avail_out)
      exact regs_ok_of_eq h a1 a2 a3 a4 a5 a6
    · exact h
  unfold inf_leave
  dsimp only
  split_ifs
  · exact regs_of_quiet hu.1 rfl
  · exact regs_ok_of_eq hu rfl rfl rfl rfl rfl rfl

theorem passes_regs {tb : table_builder} {flush : Int} {out : Nat} (b0 : Nat)
    (htb : wf_builder tb) (hsc : short_codes tb) {s : inflate_stream} {ret : Int} {o : outcome}
    (hp : passes tb flush out s ret o) :
    Inv s → acct out b0 s → regs_ok s → regs_ok o.st := by
  induction hp with
  | last hs _ => intro h ha hr; exact rk_step out b0 htb hsc h ha hr hs
  | next hs _ ih =>
    intro h ha hr
    obtain ⟨g1, g2⟩ := good_step out b0 htb h ha hs
    exact ih g1 (acct_emits ha g2) (rk_step out b0 htb hsc h ha hr hs)

theorem visits_regs {tb : table_builder} {flush : Int} {out : Nat} (b0 : Nat)
    (htb : wf_builder tb) (hsc : short_codes tb) {s : inflate_stream} {ret : Int}
    {s2 : inflate_stream} (hv : visits tb flush out s ret s2) :
    Inv s → acct out b0 s → regs_ok s → regs_ok s2 := by
  induction hv with
  | here s ret => intro _ _ hr; exact hr
  | next hs _ ih =>
    intro h ha hr
    obtain ⟨g1, g2⟩ := good_step out b0 htb h ha hs
    exact ih g1 (acct_emits ha g2) (rk_step out b0 htb hsc h ha hr hs)

theorem regs_ok_entry {p : inflate_stream} (h : regs_ok p) : regs_ok (entry p) := by
  unfold entry
  split_ifs with hm
  · exact regs_of_quiet h.1 rfl
  · exact h

/-- One call of `write` keeps the accumulator within 32 bits and the counts of a dynamic
header in range. -/
theorem write_regs {tb : table_builder} (htb : wf_builder tb) (hsc : short_codes tb)
    {alloc : allocator} {fuel : Nat} {s : inflate_stream} {flush : Int} {r : Int}
    {s1 : inflate_stream} (h : Inv s) (hr : regs_ok s) (ho : s.avail_out < 4294967296)
    (hw : write tb alloc fuel s flush = some (r, s1)) : regs_ok s1 := by
  rcases write_entry hw with e | e
  · injection e with _ e2; rw [e2]; exact hr
  · obtain ⟨o, hp, hf⟩ := run_passes tb alloc flush _ _ fuel _ _ _ e
    have ha : acct s.avail_out (entry s).next_out.length (entry s) :=
      ⟨le_refl _, by rw [(entry_out s).1]; omega, ho⟩
    have hg := passes_regs (entry s).next_out.length htb hsc hp (Inv_entry h) ha
      (regs_ok_entry hr)
    cases o with
    | cont s2 r2 => injection hf with _ e2; rw [e2]; exact hg
    | leave s2 r2 =>
      have e2 : s1 = (inf_leave alloc flush s.avail_in s.avail_out s2 r2).2 :=
        congrArg Prod.snd hf
      rw [e2]
      exact leave_regs_ok _ _ _ _ _ _ hg
    | done s2 r2 => injection hf with _ e2; rw [e2]; exact hg

/-- A session keeps the accumulator within 32 bits and the counts of a dynamic header in
range. -/
theorem session_regs {tb : table_builder} (htb : wf_builder tb) (hsc : short_codes tb)
    (alloc : allocator) (fuel : Nat) :
    ∀ (calls : List (buffers × Int)) (s : inflate_stream) (tr : List call_record),
      session tb alloc fuel s calls = some tr →
      (∀ b : buffers, bytes b.next_in → Inv (s.present b)) → regs_ok s →
      (∀ c ∈ calls, bytes c.1.next_in ∧ c.1.avail_out < 4294967296) →
      regs_ok (final_stream s tr) := by
  intro calls
  induction calls with
  | nil =>
    intro s tr h _ hr _
    simp only [session, Option.some.injEq] at h
    subst h
    exact hr
  | cons bf rest ih =>
    intro s tr h hs hr hall
    obtain ⟨b, flush⟩ := bf
    unfold session at h
    rcases hw : write tb alloc fuel (s.present b) flush with _ | ⟨r, s1⟩
    · rw [hw] at h; cases h
    · rw [hw] at h
      dsimp only at h
      rcases hss : session tb alloc fuel s1 rest with _ | tr1
      · rw [hss] at h; cases h
      · rw [hss] at h
        injection h with h
        subst h
        have hb := hall (b, flush) (List.mem_cons_self _ _)
        have h1 : Inv s1 := write_Inv htb (hs b hb.1) hb.2 hw
        have h2 : regs_ok s1 := write_regs htb hsc (hs b hb.1)
          (regs_ok_of_eq hr rfl rfl rfl rfl rfl rfl) hb.2 hw
        exact ih s1 tr1 hss (fun b2 hb2 => Inv_present b2 h1 hb2) h2
          (fun c2 hc2 => hall c2 (List.mem_cons_of_mem _ hc2))

theorem reset_regs {w : Nat} {t s0 : inflate_stream} (h : reset w t = some s0) :
    regs_ok s0 := by
  obtain ⟨a1, -, -, a4, -⟩ := reset_fields h
  exact regs_of_quiet (by rw [a4]; decide) (by rw [a1]; rfl)

/-- A pass that ends by `break` in the mode `BAD` is followed by the pass that leaves with
`Z_DATA_ERROR`: the loop returns `Z_DATA_ERROR` with the stream as that pass left it. -/
theorem run_to_bad (tb : table_builder) (alloc : allocator) (flush : Int) (in_ out fuel : Nat)
    {s t : inflate_stream} {ret : Int}
    (hstep : step tb (fuel + 2) flush out s ret = some (.cont t ret)) (t1 : t.mode = .BAD)
    (hw : win_shape t ∨ t.wsize = 0) :
    ∃ s2, run tb alloc flush in_ out (fuel + 2) s ret = some (Z_DATA_ERROR, s2) ∧
      s2.mode = .BAD ∧ s2.msg = t.msg ∧ s2.next_out = t.next_out ∧
      s2.avail_out = t.avail_out := by
  have hu : (leave_update alloc flush out t).2 = 0 := by
    rcases hw with hw1 | hw1
    · obtain ⟨w, hw2, -⟩ := hw1.2.1
      exact leave_update_ok alloc flush out t (Or.inl (by rw [hw2]; rfl))
    · unfold leave_update
      rw [if_neg]
      rintro (c | c)
      · exact c hw1
      · rw [t1] at c
        exact absurd c.2.1 (by decide)
  obtain ⟨i1, i2, i3, -, i5, i6⟩ := inf_leave_ok alloc flush in_ out t Z_DATA_ERROR hu
  refine ⟨(inf_leave alloc flush in_ out t Z_DATA_ERROR).2, ?_, by rw [i2, t1], i3, i5, i6⟩
  have hr : run tb alloc flush in_ out (fuel + 2) s ret =
      some (inf_leave alloc flush in_ out t Z_DATA_ERROR) := by
    have hs2 : step tb (fuel + 1) flush out t ret = some (.leave t Z_DATA_ERROR) := by
      unfold step; rw [t1]
    show (match step tb (fuel + 1 + 1) flush out s ret with
      | none => none
      | some (.cont s1 ret1) => run tb alloc flush in_ out (fuel + 1) s1 ret1
      | some (.leave s1 ret1) => some (inf_leave alloc flush in_ out s1 ret1)
      | some (.done s1 ret1) => some (ret1, s1)) = _
    rw [hstep]
    show (match step tb (fuel + 1) flush out t ret with
      | none => none
      | some (.cont s1 ret1) => run tb alloc flush in_ out fuel s1 ret1
      | some (.leave s1 ret1) => some (inf_leave alloc flush in_ out s1 ret1)
      | some (.done s1 ret1) => some (ret1, s1)) = _
    rw [hs2]
  rw [hr]
  congr 1
  refine Prod.ext ?_ rfl
  rw [i1]
  unfold leave_ret
  rw [if_neg (fun c => absurd c.2 (by decide))]

theorem case_TABLE_eq (tb : table_builder) (fuel : Nat) (flush : Int) (out : Nat)
    (s : inflate_stream) (ret : Int) :
    case_TABLE tb fuel flush out s ret =
      if (NEEDBITS 14 s).bits < 14 then some (.leave (NEEDBITS 14 s) ret)
      else if (table_read s).nlen > 286 ∨ (table_read s).ndist > 30 then
        some (.cont { table_read s with msg := some "too many length or distance symbols",
                                        mode := .BAD } ret)
      else case_LENLENS tb fuel flush out { table_read s with have_ := 0, mode := .LENLENS }
        ret := rfl

/-- The case `TABLE` on the unread bits: with fewer than 14 bits it leaves; else it reads
the three counts and rejects the header iff `nlen > 286` or `ndist > 30`. -/
theorem table_counts (tb : table_builder) (fuel : Nat) (flush : Int) (out : Nat)
    (s : inflate_stream) (ret : Int) :
    (s.slen < 14 → ∃ t, case_TABLE tb fuel flush out s ret = some (.leave t ret) ∧
      t.mode = s.mode ∧ t.next_in = [] ∧ t.sval = s.sval ∧ t.next_out = s.next_out) ∧
    (14 ≤ s.slen →
      ((s.sval % 32 + 257 > 286 ∨ s.sval / 32 % 32 + 1 > 30) →
        ∃ t, case_TABLE tb fuel flush out s ret = some (.cont t ret) ∧ t.mode = .BAD ∧
          t.msg = some "too many length or distance symbols" ∧
          t.nlen = s.sval % 32 + 257 ∧ t.ndist = s.sval / 32 % 32 + 1 ∧
          t.ncode = s.sval / 1024 % 16 + 4 ∧ t.next_out = s.next_out ∧
          t.avail_out = s.avail_out ∧ t.fixed = s.fixed) ∧
      (¬ (s.sval % 32 + 257 > 286 ∨ s.sval / 32 % 32 + 1 > 30) →
        ∃ t, case_TABLE tb fuel flush out s ret = case_LENLENS tb fuel flush out t ret ∧
          t.mode = .LENLENS ∧ t.nlen = s.sval % 32 + 257 ∧
          t.ndist = s.sval / 32 % 32 + 1 ∧ t.ncode = s.sval / 1024 % 16 + 4 ∧
          t.have_ = 0 ∧ t.msg = s.msg ∧ t.sval = s.sval / 2 ^ 14 ∧ t.slen = s.slen - 14 ∧
          t.next_out = s.next_out ∧ t.avail_out = s.avail_out)) := by
  obtain ⟨k, hp, hstop, -⟩ := NEEDBITS_spec 14 s
  obtain ⟨p1, p2⟩ := sN_pulled hp []
  rw [sN_nil, sN_nil] at p1
  rw [sL_nil, sL_nil] at p2
  have hge := sL_ge (NEEDBITS 14 s) []
  rw [sL_nil] at hge
  refine ⟨fun hlt => ?_, fun h14 => ?_⟩
  · have h1 : (NEEDBITS 14 s).bits < 14 := by omega
    refine ⟨NEEDBITS 14 s, ?_, rfl, hstop h1, p1, rfl⟩
    unfold case_TABLE
    dsimp only
    rw [if_pos h1]
  · have h1 : ¬ (NEEDBITS 14 s).bits < 14 := by
      intro c
      have hn := hstop c
      have : (NEEDBITS 14 s).slen = (NEEDBITS 14 s).bits := by
        unfold inflate_stream.slen; rw [hn]; simp
      omega
    have hN : s.sval % 2 ^ 14 = (NEEDBITS 14 s).hold % 2 ^ 14 := by
      rw [← p1, ← sN_nil]; exact sN_mod _ [] (not_lt.mp h1)
    have n1 : (NEEDBITS 14 s).hold % 2 ^ 5 = s.sval % 32 := by
      norm_num at hN ⊢; omega
    have n2 : (NEEDBITS 14 s).hold / 2 ^ 5 % 2 ^ 5 = s.sval / 32 % 32 := by
      norm_num at hN ⊢; omega
    have n3 : (NEEDBITS 14 s).hold / 2 ^ 5 / 2 ^ 5 % 2 ^ 4 = s.sval / 1024 % 16 := by
      norm_num at hN ⊢; omega
    have key : ∀ t : inflate_stream, t.hold = (NEEDBITS 14 s).hold / 2 ^ 5 / 2 ^ 5 / 2 ^ 4 →
        t.bits = (NEEDBITS 14 s).bits - 5 - 5 - 4 → t.next_in = (NEEDBITS 14 s).next_in →
        t.sval = s.sval / 2 ^ 14 ∧ t.slen = s.slen - 14 := by
      intro t e1 e2 e3
      have hd : dropped (NEEDBITS 14 s) t 14 :=
        ⟨by omega, by rw [e1, Nat.div_div_eq_div_mul, Nat.div_div_eq_div_mul]; rfl,
          by rw [e2]; omega, e3⟩
      obtain ⟨d1, d2⟩ := sN_dropped hd []
      rw [sN_nil, sN_nil] at d1
      rw [sL_nil, sL_nil] at d2
      rw [d1, d2, p1, p2]
      exact ⟨rfl, rfl⟩
    have m1 : (table_read s).nlen = s.sval % 32 + 257 := by rw [← n1]; rfl
    have m2 : (table_read s).ndist = s.sval / 32 % 32 + 1 := by rw [← n2]; rfl
    have m3 : (table_read s).ncode = s.sval / 1024 % 16 + 4 := by rw [← n3]; rfl
    have hcnd : (s.sval % 32 + 257 > 286 ∨ s.sval / 32 % 32 + 1 > 30) ↔
        ((table_read s).nlen > 286 ∨ (table_read s).ndist > 30) := by
      rw [m1, m2]
    refine ⟨fun hx => ?_, fun hx => ?_⟩
    · refine ⟨{ table_read s with
          msg := some "too many length or distance symbols",
          mode := .BAD }, ?_, rfl, rfl, m1, m2, m3, rfl, rfl, rfl⟩
      rw [case_TABLE_eq, if_neg h1, if_pos (hcnd.mp hx)]
    · refine ⟨{ table_read s with have_ := 0, mode := .LENLENS }, ?_, rfl, m1, m2, m3, rfl,
        rfl, ?_, ?_, rfl, rfl⟩
      · rw [case_TABLE_eq, if_neg h1, if_neg (fun c => hx (hcnd.mpr c))]
      · refine (key _ ?_ ?_ ?_).1 <;> rfl
      · refine (key _ ?_ ?_ ?_).2 <;> rfl

theorem case_CODELENS_eq (tb : table_builder) (fuel : Nat) (flush : Int) (out : Nat)
    (s0 : inflate_stream) (ret : Int) :
    case_CODELENS tb fuel flush out s0 ret =
      match codelens_loop (s0.nlen + s0.ndist - s0.have_) s0 with
      | (s, .leave) => some (.leave s ret)
      | (s, _) =>
        if s.mode = .BAD then some (.cont s ret)
        else if s.lens.getD 256 0 = 0 then
          some (.cont { s with msg := some "invalid code -- missing end-of-block",
                               mode := .BAD } ret)
        else build_tables tb fuel flush out s := rfl

theorem bad_by_of_eq {M : Option String → Prop} {s t : inflate_stream} {o : outcome}
    (h : bad_by M t o) (hm : t.mode ≠ .BAD ∨ (t.mode = s.mode ∧ t.msg = s.msg)) :
    bad_by M s o := by
  rcases h with ⟨a, b⟩ | c | d
  · rcases hm with hm | ⟨hm1, hm2⟩
    · exact Or.inr (Or.inl (by rw [a]; exact hm))
    · exact Or.inl ⟨a.trans hm1, b.trans hm2⟩
  · exact Or.inr (Or.inl c)
  · exact Or.inr (Or.inr d)

theorem bad_by_msg {M : Option String → Prop} {s : inflate_stream} {o : outcome}
    (h : bad_by M s o) (hs : s.mode ≠ .BAD) (hb : o.st.mode = .BAD) : M o.st.msg := by
  rcases h with ⟨a, -⟩ | c | d
  · exact absurd (a.symm.trans hb) hs
  · exact absurd hb c
  · exact d

theorem bb_MATCH (out : Nat) (s : inflate_stream) (ret : Int) :
    bad_by data_msg s (case_MATCH out s ret) := by
  unfold case_MATCH match_emit
  dsimp only
  split_ifs <;>
  first
  | exact Or.inl ⟨rfl, rfl⟩
  | exact Or.inr (Or.inl (fun e => Mode.noConfusion e))
  | exact Or.inr (Or.inr (Or.inr (Or.inr rfl)))

theorem bb_DISTEXT (out : Nat) (s : inflate_stream) (ret : Int) :
    bad_by data_msg s (case_DISTEXT out s ret) := by
  unfold case_DISTEXT
  dsimp only
  split_ifs
  · exact Or.inl ⟨rfl, rfl⟩
  · exact bad_by_of_eq (bb_MATCH _ _ _) (Or.inl (fun e => Mode.noConfusion e))
  · exact bad_by_of_eq (bb_MATCH _ _ _) (Or.inl (fun e => Mode.noConfusion e))

theorem bb_dist_go (out : Nat) (s : inflate_stream) (here : code) (ret : Int) :
    bad_by data_msg s (dist_go out s here ret) := by
  unfold dist_go
  dsimp only
  split_ifs
  · exact Or.inr (Or.inr (Or.inr (Or.inl rfl)))
  · exact bad_by_of_eq (bb_DISTEXT _ _ _) (Or.inl (fun e => Mode.noConfusion e))

theorem bb_DIST (out : Nat) (s : inflate_stream) (ret : Int) :
    bad_by data_msg s (case_DIST out s ret) := by
  unfold case_DIST
  dsimp only
  split_ifs
  · exact Or.inl ⟨rfl, rfl⟩
  · exact Or.inl ⟨rfl, rfl⟩
  · exact bad_by_of_eq (bb_dist_go _ _ _ _) (Or.inr ⟨rfl, rfl⟩)
  · exact bad_by_of_eq (bb_dist_go _ _ _ _) (Or.inr ⟨rfl, rfl⟩)

theorem bb_LENEXT (out : Nat) (s : inflate_stream) (ret : Int) :
    bad_by data_msg s (case_LENEXT out s ret) := by
  unfold case_LENEXT
  dsimp only
  split_ifs
  · exact Or.inl ⟨rfl, rfl⟩
  · exact bad_by_of_eq (bb_DIST _ _ _) (Or.inl (fun e => Mode.noConfusion e))
  · exact bad_by_of_eq (bb_DIST _ _ _) (Or.inl (fun e => Mode.noConfusion e))

theorem bb_len_go (out : Nat) (s : inflate_stream) (here : code) (ret : Int) :
    bad_by data_msg s (len_go out s here ret) := by
  unfold len_go
  dsimp only
  split_ifs
  · exact Or.inr (Or.inl (fun e => Mode.noConfusion e))
  · exact Or.inr (Or.inl (fun e => Mode.noConfusion e))
  · exact Or.inr (Or.inr (Or.inl rfl))
  · exact bad_by_of_eq (bb_LENEXT _ _ _) (Or.inl (fun e => Mode.noConfusion e))

theorem bb_LEN_slow (out : Nat) (s : inflate_stream) (ret : Int) :
    bad_by data_msg s (case_LEN_slow out s ret) := by
  unfold case_LEN_slow
  dsimp only
  split_ifs
  · exact Or.inl ⟨rfl, rfl⟩
  · exact Or.inl ⟨rfl, rfl⟩
  · exact bad_by_of_eq (bb_len_go _ _ _ _) (Or.inr ⟨rfl, rfl⟩)
  · exact bad_by_of_eq (bb_len_go _ _ _ _) (Or.inr ⟨rfl, rfl⟩)

theorem fast_dodist_msg (s : inflate_stream) (inp : List Nat) (beg out0 len : Nat) :
    ∀ (fuel : Nat) (here : code) (l l1 : fast_locals) (m : Mode) (msg : Option String),
      fast_dodist s inp beg out0 len fuel here l = some (.brk l1 m msg) → data_msg msg := by
  intro fuel
  induction fuel with
  | zero => intro here l l1 m msg h; simp [fast_dodist] at h
  | succ n ih =>
    intro here l l1 m msg h
    unfold fast_dodist at h
    dsimp only at h
    split_ifs at h <;>
    first
    | exact ih _ _ _ _ _ h
    | (cases h; exact Or.inr (Or.inl rfl))
    | (cases h; exact Or.inr (Or.inr rfl))
    | cases h

theorem fast_dolen_msg (s : inflate_stream) (inp : List Nat) (beg out0 : Nat) :
    ∀ (fuel : Nat) (here : code) (l l1 : fast_locals) (m : Mode) (msg : Option String),
      fast_dolen s inp beg out0 fuel here l = some (.brk l1 m msg) →
      m = .TYPE ∨ data_msg msg := by
  intro fuel
  induction fuel with
  | zero => intro here l l1 m msg h; simp [fast_dolen] at h
  | succ n ih =>
    intro here l l1 m msg h
    unfold fast_dolen at h
    dsimp only at h
    split_ifs at h <;>
    first
    | exact ih _ _ _ _ _ h
    | exact Or.inr (fast_dodist_msg _ _ _ _ _ _ _ _ _ _ _ h)
    | (cases h; exact Or.inl rfl)
    | (cases h; exact Or.inr (Or.inl rfl))
    | cases h

theorem fast_loop_msg (s : inflate_stream) (inp : List Nat) (beg out0 last end_ : Nat) :
    ∀ (fuel : Nat) (l l1 : fast_locals) (m : Mode) (msg : Option String),
      fast_loop s inp beg out0 last end_ fuel l = some (.brk l1 m msg) →
      m = .TYPE ∨ data_msg msg := by
  intro fuel
  induction fuel with
  | zero => intro l l1 m msg h; simp [fast_loop] at h
  | succ n ih =>
    intro l l1 m msg h
    unfold fast_loop at h
    dsimp only at h
    split at h
    · cases h
    · rename_i l2 m2 msg2 hd
      injection h with h; injection h with _ h1 h2
      subst h1; subst h2
      exact fast_dolen_msg _ _ _ _ _ _ _ _ _ _ hd
    · split_ifs at h
      · exact ih _ _ _ _ h
      · injection h with h; cases h

theorem fast_msg {fuel : Nat} {s s1 : inflate_stream} {start : Nat}
    (h : inflate_fast fuel s start = some s1) :
    (s1.mode = s.mode ∧ s1.msg = s.msg) ∨ s1.mode = .TYPE ∨ data_msg s1.msg := by
  unfold inflate_fast at h
  dsimp only at h
  split at h
  · cases h
  · rename_i r hr
    cases h
    cases r with
    | test l => exact Or.inl ⟨rfl, rfl⟩
    | brk l m msg => exact Or.inr (fast_loop_msg _ _ _ _ _ _ _ _ _ _ _ hr)

/-- The case `LEN` enters `BAD` only with a message of the data. -/
theorem bb_LEN {fuel out : Nat} {s : inflate_stream} {ret : Int} {o : outcome}
    (h : case_LEN fuel out s ret = some o) (hb : o.st.mode = .BAD) : data_msg o.st.msg := by
  unfold case_LEN at h
  dsimp only at h
  split_ifs at h
  · split at h
    · cases h
    · rename_i s1 hf
      cases h
      have hm := fast_msg hf
      split_ifs at hb with c
      · exact absurd (show Mode.TYPE = Mode.BAD from c.symm.trans hb) (fun e => Mode.noConfusion e)
      · rw [if_neg c]
        have hb : s1.mode = .BAD := hb
        rcases hm with ⟨a, -⟩ | a | a
        · exact absurd (show Mode.LEN = Mode.BAD from a.symm.trans hb)
            (fun e => Mode.noConfusion e)
        · exact absurd (show Mode.TYPE = Mode.BAD from a.symm.trans hb)
            (fun e => Mode.noConfusion e)
        · exact a
  · cases h
    exact bad_by_msg (bb_LEN_slow _ _ _) (fun e => Mode.noConfusion e) hb

/-- The end of the case `CODELENS` from the table builds on enters `BAD` only with the
message of a table build or of the data. -/
theorem build_tables_msg {tb : table_builder} {fuel : Nat} {flush : Int} {out : Nat}
    {s : inflate_stream} {o : outcome} (h : build_tables tb fuel flush out s = some o)
    (hb : o.st.mode = .BAD) : build_msg o.st.msg := by
  unfold build_tables at h
  dsimp only at h
  split_ifs at h
  · cases h; exact Or.inl rfl
  · cases h; exact Or.inr (Or.inl rfl)
  · cases h; exact absurd hb (fun e => Mode.noConfusion e)
  · exact Or.inr (Or.inr (bb_LEN h hb))

theorem codelens_body_bad (s : inflate_stream) :
    ((codelens_body s).1.mode = s.mode ∧ (codelens_body s).1.msg = s.msg) ∨
      ((codelens_body s).2 = .brk ∧
        (codelens_body s).1.msg = some "invalid bit length repeat") := by
  unfold codelens_body
  dsimp only
  split_ifs <;>
  first
  | exact Or.inl ⟨rfl, rfl⟩
  | exact Or.inr ⟨rfl, rfl⟩

theorem codelens_loop_bad (k : Nat) :
    ∀ s : inflate_stream, (codelens_loop k s).1.mode = s.mode ∨
      (codelens_loop k s).1.msg = some "invalid bit length repeat" := by
  induction k with
  | zero => intro s; exact Or.inl rfl
  | succ n ih =>
    intro s
    unfold codelens_loop
    split_ifs
    · have hb := codelens_body_bad s
      rcases hcb : codelens_body s with ⟨s1, e⟩
      rw [hcb] at hb
      cases e
      · show (codelens_loop n s1).1.mode = s.mode ∨ _
        rcases ih s1 with a | a
        · rcases hb with b | b
          · exact Or.inl (a.trans b.1)
          · exact absurd b.1 (fun e => loop_end.noConfusion e)
        · exact Or.inr a
      · rcases hb with b | b
        · exact Or.inl b.1
        · exact Or.inr b.2
      · rcases hb with b | b
        · exact Or.inl b.1
        · exact Or.inr b.2
    · exact Or.inl rfl

/-- The case `CODELENS` enters `BAD` only with one of its two messages, or later with the
message of a table build or of the data. -/
theorem CODELENS_msg {tb : table_builder} {fuel : Nat} {flush : Int} {out : Nat}
    {s : inflate_stream} {ret : Int} {o : outcome}
    (h : case_CODELENS tb fuel flush out s ret = some o) (hs : s.mode ≠ .BAD)
    (hb : o.st.mode = .BAD) :
    o.st.msg = some "invalid bit length repeat" ∨
      o.st.msg = some "invalid code -- missing end-of-block" ∨ build_msg o.st.msg := by
  rw [case_CODELENS_eq] at h
  have hl := codelens_loop_bad (s.nlen + s.ndist - s.have_) s
  rcases hcl : codelens_loop (s.nlen + s.ndist - s.have_) s with ⟨s1, e⟩
  rw [hcl] at hl h
  have key : (if s1.mode = Mode.BAD then some (outcome.cont s1 ret)
      else if s1.lens.getD 256 0 = 0 then
        some (outcome.cont { s1 with msg := some "invalid code -- missing end-of-block",
                                     mode := .BAD } ret)
      else build_tables tb fuel flush out s1) = some o →
      o.st.msg = some "invalid bit length repeat" ∨
        o.st.msg = some "invalid code -- missing end-of-block" ∨ build_msg o.st.msg := by
    intro h
    split_ifs at h with c1 c2
    · cases h
      rcases hl with a | a
      · exact absurd (a.symm.trans c1) hs
      · exact Or.inl a
    · cases h
      exact Or.inr (Or.inl rfl)
    · exact Or.inr (Or.inr (build_tables_msg h hb))
  cases e
  · exact key h
  · cases h
    rcases hl with a | a
    · exact absurd (a.symm.trans hb) hs
    · exact Or.inl a
  · exact key h

/-- The case `LENLENS` enters `BAD` only with a message set from there on. -/
theorem LENLENS_msg {tb : table_builder} {fuel : Nat} {flush : Int} {out : Nat}
    {s : inflate_stream} {ret : Int} {o : outcome}
    (h : case_LENLENS tb fuel flush out s ret = some o) (hs : s.mode ≠ .BAD)
    (hb : o.st.mode = .BAD) : codes_msg o.st.msg := by
  unfold case_LENLENS at h
  obtain ⟨-, hm⟩ := lenlens_read_fixed (s.ncode - s.have_) s
  rcases hr : lenlens_read (s.ncode - s.have_) s with ⟨s1, b⟩
  rw [hr] at hm h
  cases b
  · cases h
    exact absurd (hm.symm.trans hb) hs
  · dsimp only at h
    split_ifs at h with h1
    · cases h
      exact Or.inl rfl
    · rcases CODELENS_msg h (fun e => Mode.noConfusion e) hb with a | a | a
      · exact Or.inr (Or.inl a)
      · exact Or.inr (Or.inr (Or.inl a))
      · exact Or.inr (Or.inr (Or.inr a))

theorem codes_msg_not_counts : ¬ codes_msg (some "too many length or distance symbols") := by
  unfold codes_msg build_msg data_msg
  decide

theorem build_msg_not_codes :
    ¬ build_msg (some "invalid bit length repeat") ∧
    ¬ build_msg (some "invalid code -- missing end-of-block") := by
  unfold build_msg data_msg
  decide

theorem short_no_tables : short_codes no_tables := by
  intro lens bits h
  change (1 : Int) = 0 at h
  exact absurd h (by decide)

/-- C23: in a stream that was reset and then only passed to `write`, at every pass of the
loop of every call: (1) in the modes `LENLENS` and `CODELENS`, `nlen` is in [257, 286],
`ndist` in [1, 30] and `ncode` in [4, 19]; (2) in the mode `TABLE`, with fewer than 14
unread bits the pass leaves in `TABLE` with the input used up; with 14 bits, `nlen` is bits
0..4 plus 257, `ndist` bits 5..9 plus 1 and `ncode` bits 10..13 plus 4 of the unread bits,
and the pass ends in `BAD` with the message "too many length or distance symbols" (and the
loop returns `Z_DATA_ERROR`) when `nlen > 286` or `ndist > 30`, and otherwise goes on in
the case `LENLENS` with `have = 0` and the counts in range, and does not end in `BAD` with
that message. -/
theorem dynamic_header_ranges (tb : table_builder) (alloc : allocator) (fuel : Nat) (w : Nat)
    (t s0 : inflate_stream) (calls : List (buffers × Int)) (tr : List call_record)
    (b : buffers) (flush : Int) (v : inflate_stream) (fuel2 in_ : Nat) (ret : Int)
    (htb : wf_builder tb) (hsc : short_codes tb) (hreset : reset w t = some s0)
    (hs : session tb alloc fuel s0 calls = some tr)
    (hb : ∀ c ∈ calls, bytes c.1.next_in ∧ c.1.avail_out < 4294967296)
    (hbb : bytes b.next_in) (hbo : b.avail_out < 4294967296)
    (hv : visits tb flush b.avail_out (entry ((final_stream s0 tr).present b)) Z_OK v) :
    ((v.mode = .LENLENS ∨ v.mode = .CODELENS) →
      (257 ≤ v.nlen ∧ v.nlen ≤ 286) ∧ (1 ≤ v.ndist ∧ v.ndist ≤ 30) ∧
        (4 ≤ v.ncode ∧ v.ncode ≤ 19)) ∧
    (v.mode = .TABLE →
      (v.slen < 14 →
        ∃ u, step tb fuel2 flush b.avail_out v ret = some (.leave u ret) ∧ u.mode = .TABLE ∧
          u.next_in = [] ∧ u.sval = v.sval ∧ u.next_out = v.next_out) ∧
      (14 ≤ v.slen →
        ((v.sval % 32 + 257 > 286 ∨ v.sval / 32 % 32 + 1 > 30) →
          ∃ u, step tb fuel2 flush b.avail_out v ret = some (.cont u ret) ∧ u.mode = .BAD ∧
            u.msg = some "too many length or distance symbols" ∧
            u.nlen = v.sval % 32 + 257 ∧ u.ndist = v.sval / 32 % 32 + 1 ∧
            u.ncode = v.sval / 1024 % 16 + 4 ∧ u.next_out = v.next_out ∧
            (win_shape v ∨ v.wsize = 0 →
              ∃ s2, run tb alloc flush in_ b.avail_out (fuel2 + 2) v ret =
                  some (Z_DATA_ERROR, s2) ∧ s2.mode = .BAD ∧
                s2.msg = some "too many length or distance symbols" ∧
                s2.next_out = v.next_out)) ∧
        (¬ (v.sval % 32 + 257 > 286 ∨ v.sval / 32 % 32 + 1 > 30) →
          ∃ u, step tb fuel2 flush b.avail_out v ret =
              case_LENLENS tb fuel2 flush b.avail_out u ret ∧ u.mode = .LENLENS ∧
            u.nlen = v.sval % 32 + 257 ∧ u.ndist = v.sval / 32 % 32 + 1 ∧
            u.ncode = v.sval / 1024 % 16 + 4 ∧ u.have_ = 0 ∧ u.msg = v.msg ∧
            u.sval = v.sval / 2 ^ 14 ∧ u.slen = v.slen - 14 ∧ u.next_out = v.next_out ∧
            (257 ≤ u.nlen ∧ u.nlen ≤ 286) ∧ (1 ≤ u.ndist ∧ u.ndist ≤ 30) ∧
            (4 ≤ u.ncode ∧ u.ncode ≤ 19) ∧
            ∀ o, step tb fuel2 flush b.avail_out v ret = some o →
              ¬ (o.st.mode = .BAD ∧
                o.st.msg = some "too many length or distance symbols")))) := by
  have hp : Inv ((final_stream s0 tr).present b) :=
    session_Inv htb alloc fuel calls s0 tr hs (fun b2 hb2 => reset_Inv hreset b2 hb2) hb b hbb
  have hr : regs_ok (final_stream s0 tr) :=
    session_regs htb hsc alloc fuel calls s0 tr hs (fun b2 hb2 => reset_Inv hreset b2 hb2)
      (reset_regs hreset) hb
  obtain ⟨eo, en, -, -, -⟩ := entry_out ((final_stream s0 tr).present b)
  have ha : acct b.avail_out (entry ((final_stream s0 tr).present b)).next_out.length
      (entry ((final_stream s0 tr).present b)) :=
    ⟨le_refl _, by rw [eo]; show b.avail_out + _ = _; omega, hbo⟩
  have hrv : regs_ok v := visits_regs _ htb hsc hv (Inv_entry hp) ha
    (regs_ok_entry (regs_ok_of_eq hr rfl rfl rfl rfl rfl rfl))
  refine ⟨fun hm => hrv.2.1 (by rcases hm with hm | hm <;> rw [hm] <;> rfl), fun hm => ?_⟩
  have hstep : ∀ f, step tb f flush b.avail_out v ret =
      case_TABLE tb f flush b.avail_out v ret := by
    intro f; unfold step; rw [hm]
  obtain ⟨c1, c2⟩ := table_counts tb fuel2 flush b.avail_out v ret
  refine ⟨fun hlt => ?_, fun h14 => ⟨fun hx => ?_, fun hx => ?_⟩⟩
  · obtain ⟨u, u1, u2, u3, u4, u5⟩ := c1 hlt
    exact ⟨u, by rw [hstep, u1], u2.trans hm, u3, u4, u5⟩
  · obtain ⟨u, u1, u2, u3, u4, u5, u6, u7, -, -⟩ := (c2 h14).1 hx
    refine ⟨u, by rw [hstep, u1], u2, u3, u4, u5, u6, u7, fun hw => ?_⟩
    obtain ⟨u', v1, v2, v3, -, -, -, v7, -, v9⟩ :=
      ((table_counts tb (fuel2 + 2) flush b.avail_out v ret).2 h14).1 hx
    obtain ⟨s2, r1, r2, r3, r4, -⟩ := run_to_bad tb alloc flush in_ b.avail_out fuel2
      ((hstep (fuel2 + 2)).trans v1) v2 (win_fixed v9 hw)
    exact ⟨s2, r1, r2, r3.trans v3, r4.trans v7⟩
  · obtain ⟨u, u1, u2, u3, u4, u5, u6, u7, u8, u9, u10, -⟩ := (c2 h14).2 hx
    have h5 : v.sval / 32 % 32 < 32 := Nat.mod_lt _ (by decide)
    have h4 : v.sval / 1024 % 16 < 16 := Nat.mod_lt _ (by decide)
    refine ⟨u, by rw [hstep, u1], u2, u3, u4, u5, u6, u7, u8, u9, u10, ⟨?_, ?_⟩, ⟨?_, ?_⟩,
      ⟨?_, ?_⟩, fun o ho hbad => codes_msg_not_counts (by
        rw [← hbad.2]
        rw [hstep, u1] at ho
        exact LENLENS_msg ho (by rw [u2]; exact fun e => Mode.noConfusion e) hbad.1)⟩ <;>
      omega

set_option maxRecDepth 100000 in
/-- Witness for `dynamic_header_ranges`: a dynamic block whose header announces 288
literal/length codes is rejected by the pass that starts in `TABLE`. -/
theorem dynamic_header_ranges_witness :
    ((nth_pass no_tables 20 Z_NO_FLUSH 10 2 (entry ((fresh 15).present long_header))
      Z_OK).getD zero_stream).mode = .TABLE ∧
    ∃ u, step no_tables 20 Z_NO_FLUSH 10
        ((nth_pass no_tables 20 Z_NO_FLUSH 10 2 (entry ((fresh 15).present long_header))
          Z_OK).getD zero_stream) Z_OK = some (.cont u Z_OK) ∧
      u.mode = .BAD ∧ u.msg = some "too many length or distance symbols" ∧ u.nlen = 288 := by
  have h := dynamic_header_ranges no_tables zero_alloc 20 15 zero_stream (fresh 15) [] []
    long_header Z_NO_FLUSH
    ((nth_pass no_tables 20 Z_NO_FLUSH 10 2 (entry ((fresh 15).present long_header))
      Z_OK).getD zero_stream) 20 3 Z_OK
    wf_no_tables short_no_tables rfl rfl (fun c hc => by cases hc) (by decide) (by decide)
    (visits_nth _ _ _ _ _ _ _ _ (eq_some_getD _ (by decide!)))
  obtain ⟨u, u1, u2, u3, u4, -⟩ := ((h.2 (by decide!)).2 (by decide!)).1 (Or.inl (by decide!))
  exact ⟨by decide!, u, u1, u2, u3, u4.trans (by decide!)⟩

theorem PULLBYTE_spec {s t : inflate_stream} (h : PULLBYTE s = some t) (hI : bytes s.next_in)
    (hh : s.hold < 2 ^ s.bits) : t.hold < 2 ^ t.bits ∧ t.bits = s.bits + 8 := by
  unfold PULLBYTE at h
  split at h
  · cases h
  · rename_i x rest hx
    cases h
    have hx256 : x < 256 := hI x (by rw [hx]; exact List.mem_cons_self _ _)
    refine ⟨?_, rfl⟩
    show s.hold + x * 2 ^ s.bits < 2 ^ (s.bits + 8)
    rw [pow_add]
    have : x * 2 ^ s.bits ≤ 255 * 2 ^ s.bits := Nat.mul_le_mul_right _ (by omega)
    omega

theorem lenlens_read_spec (V L : Nat) (X : List Nat) (k : Nat) :
    ∀ s : inflate_stream, read_so_far V L X s →
      read_so_far V L X (lenlens_read k s).1 ∧ (lenlens_read k s).1.ncode = s.ncode ∧
      (∀ x, 19 ≤ x → (lenlens_read k s).1.lens.getD x 0 = s.lens.getD x 0) ∧
      ((lenlens_read k s).2 = false → (lenlens_read k s).1.next_in = [] ∧
        (lenlens_read k s).1.bits < 3 ∧ (lenlens_read k s).1.have_ < s.ncode) ∧
      (s.ncode - s.have_ ≤ k → (lenlens_read k s).2 = true →
        (lenlens_read k s).1.have_ = s.ncode) := by
  induction k with
  | zero =>
    intro s h
    refine ⟨h, rfl, fun _ _ => rfl, fun e => (by cases e), fun hk _ => ?_⟩
    have := h.1
    show s.have_ = s.ncode
    omega
  | succ n ih =>
    intro s h
    obtain ⟨h1, h2, h3, h4, h5, h6⟩ := h
    unfold lenlens_read
    by_cases hlt : s.have_ < s.ncode
    · rw [if_pos hlt]
      dsimp only
      obtain ⟨j, hp, hstop, -⟩ := NEEDBITS_spec 3 s
      obtain ⟨p1, p2⟩ := sN_pulled hp X
      by_cases hb : (NEEDBITS 3 s).bits < 3
      · rw [if_pos hb]
        refine ⟨⟨h1, h2, h3, p1.trans h4, ?_, h6⟩, rfl, fun _ _ => rfl,
          fun _ => ⟨hstop hb, hb, hlt⟩, fun _ e => (by cases e)⟩
        show (NEEDBITS 3 s).sL X + 3 * s.have_ = L
        rw [p2]; exact h5
      · rw [if_neg hb]
        obtain ⟨d1, d2⟩ := sN_dropped (dropped_DROPBITS 3 (NEEDBITS 3 s) (not_lt.mp hb)) X
        have hge := sL_ge (NEEDBITS 3 s) X
        have hv : BITS 3 (NEEDBITS 3 s) = V / 2 ^ (3 * s.have_) % 8 := by
          show (NEEDBITS 3 s).hold % 2 ^ 3 = _
          rw [← sN_mod _ X (not_lt.mp hb), p1, h4]
          rfl
        have hol := order_lt s.have_ (by omega)
        obtain ⟨i1, i2, i3, i4, i5⟩ := ih (DROPBITS 3 { NEEDBITS 3 s with
          lens := (NEEDBITS 3 s).lens.set (order.getD (NEEDBITS 3 s).have_ 0)
            (BITS 3 (NEEDBITS 3 s))
          have_ := (NEEDBITS 3 s).have_ + 1 }) (by
          refine ⟨hlt, h2, ?_, ?_, ?_, ?_⟩
          · show 19 ≤ (s.lens.set _ _).length
            rw [List.length_set]; exact h3
          · refine d1.trans ?_
            rw [p1, h4, Nat.div_div_eq_div_mul, ← pow_add]
            rfl
          · refine (congrArg (· + 3 * (s.have_ + 1)) d2).trans ?_
            rw [p2]
            rw [p2] at hge
            omega
          · intro i hi
            have hi : i < s.have_ + 1 := hi
            show (s.lens.set (order.getD s.have_ 0) (BITS 3 (NEEDBITS 3 s))).getD _ 0 = _
            rw [getD_set]
            by_cases hii : i = s.have_
            · rw [hii, if_pos ⟨rfl, by omega⟩]
              exact hv
            · rw [if_neg (by
                rintro ⟨e, -⟩
                exact hii (order_inj _ (by omega) _ (by omega) e).symm)]
              exact h6 i (by omega))
        refine ⟨i1, i2, fun x hx => ?_, fun e => ?_, fun hk e => ?_⟩
        · rw [i3 x hx]
          show (s.lens.set (order.getD s.have_ 0) (BITS 3 (NEEDBITS 3 s))).getD x 0 = _
          rw [getD_set, if_neg (by rintro ⟨e, -⟩; omega)]
        · exact i4 e
        · exact i5 (by
            show s.ncode - (s.have_ + 1) ≤ n
            omega) e
    · rw [if_neg hlt]
      refine ⟨⟨h1, h2, h3, h4, h5, h6⟩, rfl, fun _ _ => rfl, fun e => (by cases e),
        fun _ _ => ?_⟩
      show s.have_ = s.ncode
      omega

theorem zero_lens_get : ∀ (k h : Nat) (lens : List Nat), h + k = 19 → 19 ≤ lens.length →
    (∀ j, j < 19 → (zero_lens k h lens).getD (order.getD j 0) 0 =
      if j < h then lens.getD (order.getD j 0) 0 else 0) ∧
    ∀ x, 19 ≤ x → (zero_lens k h lens).getD x 0 = lens.getD x 0 := by
  intro k
  induction k with
  | zero =>
    intro h lens hk _
    exact ⟨fun j hj => by rw [if_pos (by omega)]; rfl, fun _ _ => rfl⟩
  | succ k ih =>
    intro h lens hk hlen
    unfold zero_lens
    rw [if_pos (by omega)]
    have hol := order_lt h (by omega)
    obtain ⟨i1, i2⟩ := ih (h + 1) (lens.set (order.getD h 0) 0) (by omega)
      (by rw [List.length_set]; exact hlen)
    refine ⟨fun j hj => ?_, fun x hx => ?_⟩
    · rw [i1 j hj, getD_set]
      by_cases hjj : j = h
      · rw [hjj, if_pos (by omega), if_pos ⟨rfl, by omega⟩, if_neg (by omega)]
      · have hne : ¬ (order.getD h 0 = order.getD j 0 ∧ order.getD h 0 < lens.length) := by
          rintro ⟨e, -⟩
          exact hjj (order_inj _ (by omega) _ (by omega) e).symm
        by_cases hj2 : j < h
        · rw [if_pos (by omega), if_pos hj2, if_neg hne]
        · rw [if_neg (by omega), if_neg hj2]
    · rw [i2 x hx, getD_set, if_neg (by rintro ⟨e, -⟩; omega)]

/-- C24: `order` is a permutation of 0..18.  While the loop of the case `LENLENS` reads a
header whose 3-bit fields are the bits `V`, the `i`-th field read is stored in
`lens[order[i]]` and three bits are consumed for each: this holds when the loop starts
(`have = 0`), is kept by every run of the loop (complete or stopped for lack of input, the
input then being used up with fewer than 3 bits at hand), and is kept when the caller
presents the input that follows.  When the loop has finished, after the loop that clears
the remaining entries, for every `i < 19` the entry `lens[order[i]]` is the `i`-th field of
`V` if `i < ncode` and 0 otherwise, the entries of `lens` from 19 on are untouched, and
exactly `3 * ncode` bits of `V` are consumed. -/
theorem lenlens_order (V L : Nat) (X X2 : List Nat) (k : Nat) (s : inflate_stream)
    (b : buffers) :
    (order.length = 19 ∧ (∀ i, i < 19 → order.getD i 0 < 19) ∧
      (∀ i, i < 19 → ∀ j, j < 19 → order.getD i 0 = order.getD j 0 → i = j) ∧
      (∀ x, x < 19 → ∃ j, j < 19 ∧ order.getD j 0 = x)) ∧
    (s.have_ = 0 → s.ncode ≤ 19 → 19 ≤ s.lens.length → read_so_far (s.sN X) (s.sL X) X s) ∧
    (read_so_far V L X s →
      read_so_far V L X (lenlens_read k s).1 ∧
      ((lenlens_read k s).2 = false → (lenlens_read k s).1.next_in = [] ∧
        (lenlens_read k s).1.bits < 3 ∧ (lenlens_read k s).1.have_ < s.ncode) ∧
      (s.ncode - s.have_ ≤ k → (lenlens_read k s).2 = true →
        (lenlens_read k s).1.have_ = s.ncode ∧
        (∀ i, i < 19 →
          (lenlens_zero (19 - (lenlens_read k s).1.have_) (lenlens_read k s).1).lens.getD
            (order.getD i 0) 0 = if i < s.ncode then V / 2 ^ (3 * i) % 8 else 0) ∧
        (∀ x, 19 ≤ x →
          (lenlens_zero (19 - (lenlens_read k s).1.have_) (lenlens_read k s).1).lens.getD x 0 =
            s.lens.getD x 0) ∧
        (lenlens_zero (19 - (lenlens_read k s).1.have_) (lenlens_read k s).1).sN X =
          V / 2 ^ (3 * s.ncode) ∧
        (lenlens_zero (19 - (lenlens_read k s).1.have_) (lenlens_read k s).1).sL X +
          3 * s.ncode = L)) ∧
    (read_so_far V L (b.next_in ++ X2) s → s.next_in = [] →
      read_so_far V L X2 (s.present b)) := by
  refine ⟨⟨rfl, order_lt, order_inj, order_onto⟩, fun h0 h19 hl => ?_, fun h => ?_,
    fun h hn => ?_⟩
  · refine ⟨by omega, h19, hl, by rw [h0]; simp, by rw [h0]; rfl, fun i hi => by omega⟩
  · obtain ⟨r1, r2, r3, r4, r5⟩ := lenlens_read_spec V L X k s h
    refine ⟨r1, r4, fun hk e => ?_⟩
    have hh := r5 hk e
    obtain ⟨q1, q2, q3, q4, q5, q6⟩ := r1
    obtain ⟨z1, -, -, -, -, z6, z7, z8, -⟩ :=
      lenlens_zero_fields (19 - (lenlens_read k s).1.have_) (lenlens_read k s).1
    obtain ⟨g1, g2⟩ := zero_lens_get (19 - (lenlens_read k s).1.have_)
      (lenlens_read k s).1.have_ (lenlens_read k s).1.lens (by omega) q3
    refine ⟨hh, fun i hi => ?_, fun x hx => ?_, ?_, ?_⟩
    · rw [z1, g1 i hi, hh]
      by_cases hc : i < s.ncode
      · rw [if_pos hc, if_pos hc]
        exact q6 i (by omega)
      · rw [if_neg hc, if_neg hc]
    · rw [z1, g2 x hx]
      exact r3 x hx
    · rw [← hh, ← q4]
      unfold inflate_stream.sN inflate_stream.sval inflate_stream.slen
      rw [z6, z7, z8]
    · rw [← hh, ← q5]
      unfold inflate_stream.sL inflate_stream.slen
      rw [z7, z8]
  · obtain ⟨q1, q2, q3, q4, q5, q6⟩ := h
    refine ⟨q1, q2, q3, ?_, ?_, q6⟩
    · show (s.present b).sN X2 = V / 2 ^ (3 * s.have_)
      rw [← q4, sN_eq, sN_eq, hn]
      show s.hold + 2 ^ s.bits * (bytes_val b.next_in + 2 ^ (8 * b.next_in.length) *
        bytes_val X2) = s.hold + 2 ^ s.bits * (bytes_val [] + 2 ^ (8 * ([] : List Nat).length) *
          bytes_val (b.next_in ++ X2))
      rw [bytes_val_append]
      simp [bytes_val]
    · show (s.present b).sL X2 + 3 * s.have_ = L
      rw [← q5]
      unfold inflate_stream.sL inflate_stream.slen
      rw [hn]
      show s.bits + 8 * b.next_in.length + 8 * X2.length + _ = _
      simp only [List.length_nil, List.length_append]
      omega

set_option maxRecDepth 100000 in
/-- Witness for `lenlens_order`: the four fields 1, 2, 3, 4 end in the entries 16, 17, 18
and 0 of `lens`, the fifth entry of `order` is cleared, and 12 bits are consumed. -/
theorem lenlens_order_witness :
    (lenlens_read 4 lenlens_state).2 = true ∧
    ((lenlens_zero (19 - (lenlens_read 4 lenlens_state).1.have_)
      (lenlens_read 4 lenlens_state).1).lens.take 19) =
      [4, 0, 0, 0, 0, 0, 0, 0, 0, 0, 0, 0, 0, 0, 0, 0, 1, 2, 3] ∧
    (∀ i, i < 19 →
      (lenlens_zero (19 - (lenlens_read 4 lenlens_state).1.have_)
        (lenlens_read 4 lenlens_state).1).lens.getD (order.getD i 0) 0 =
        if i < 4 then 2257 / 2 ^ (3 * i) % 8 else 0) := by
  have h := lenlens_order 2257 16 [] [] 4 lenlens_state ⟨false, [], false, [], 0⟩
  have h1 := h.2.1 rfl (by decide) (by decide)
  exact ⟨by decide!, by decide!, ((h.2.2.1 h1).2.2 (by decide) (by decide!)).2.1⟩

theorem codelens_body_stall (s : inflate_stream) (h : Inv s) (hm : s.mode = .CODELENS)
    (hl : (codelens_body s).2 = .leave) : (codelens_body s).1.next_in = [] := by
  have hw := me_CODELENS h.regs hm
  obtain ⟨k, hp, hstop, -⟩ := lookup1_spec s s.lencode s.lenbits
    (fun i hi => wf_codes_stable hw hi)
  obtain ⟨k2, hp2, hstop2, -⟩ := NEEDBITS_spec
    ((here1 (lookup1 s s.lencode s.lenbits) s.lencode s.lenbits).bits +
      rep_extra (here1 (lookup1 s s.lencode s.lenbits) s.lencode s.lenbits).val)
    (lookup1 s s.lencode s.lenbits)
  revert hl
  unfold codelens_body
  dsimp only
  split_ifs with c1 c2 c3 c4 c5
  · exact fun _ => hstop c1
  · intro e; cases e
  · exact fun _ => hstop2 c3
  · intro e; cases e
  · intro e; cases e
  · intro e; cases e

/-- What one pass of the loop of `CODELENS` does, told from the unread bits: it stalls
changing nothing, or stores the length the code stands for, or stores the run a repeat
code stands for, or rejects a repeat code. -/
theorem codelens_body_cases (tb : table_builder) (X : List Nat) (s : inflate_stream)
    (h : Inv s) (hm : s.mode = .CODELENS) (hlt : s.have_ < s.nlen + s.ndist) :
    ((codelens_body s).2 = .leave ∧ (codelens_body s).1.lens = s.lens ∧
      (codelens_body s).1.have_ = s.have_ ∧ (codelens_body s).1.sN X = s.sN X ∧
      (codelens_body s).1.sL X = s.sL X ∧ (codelens_body s).1.mode = .CODELENS ∧
      (codelens_body s).1.msg = s.msg ∧ (codelens_body s).1.next_in = []) ∨
    ((codelens_body s).2 = .go ∧ (cl_code s X).val < 16 ∧ (cl_code s X).bits ≤ s.sL X ∧
      (codelens_body s).1.lens = s.lens.set s.have_ (cl_code s X).val ∧
      (codelens_body s).1.have_ = s.have_ + 1 ∧
      (codelens_body s).1.sN X = s.sN X / 2 ^ (cl_code s X).bits ∧
      (codelens_body s).1.sL X = s.sL X - (cl_code s X).bits ∧
      (codelens_body s).1.mode = .CODELENS ∧ (codelens_body s).1.msg = s.msg) ∨
    ((codelens_body s).2 = .go ∧ 16 ≤ (cl_code s X).val ∧
      (cl_code s X).bits + rep_extra (cl_code s X).val ≤ s.sL X ∧
      ¬ ((cl_code s X).val = 16 ∧ s.have_ = 0) ∧ s.have_ + cl_copy s X ≤ s.nlen + s.ndist ∧
      (codelens_body s).1.lens =
        fill_lens (if (cl_code s X).val = 16 then s.lens.getD (s.have_ - 1) 0 else 0)
          (cl_copy s X) s.have_ s.lens ∧
      (codelens_body s).1.have_ = s.have_ + cl_copy s X ∧
      (codelens_body s).1.sN X =
        s.sN X / 2 ^ (cl_code s X).bits / 2 ^ rep_extra (cl_code s X).val ∧
      (codelens_body s).1.sL X =
        s.sL X - (cl_code s X).bits - rep_extra (cl_code s X).val ∧
      (codelens_body s).1.mode = .CODELENS ∧ (codelens_body s).1.msg = s.msg) ∨
    ((codelens_body s).2 = .brk ∧ 16 ≤ (cl_code s X).val ∧
      (cl_code s X).bits + rep_extra (cl_code s X).val ≤ s.sL X ∧
      (((cl_code s X).val = 16 ∧ s.have_ = 0) ∨ s.have_ + cl_copy s X > s.nlen + s.ndist) ∧
      (codelens_body s).1.lens = s.lens ∧ (codelens_body s).1.have_ = s.have_ ∧
      (codelens_body s).1.mode = .BAD ∧
      (codelens_body s).1.msg = some "invalid bit length repeat") := by
  obtain ⟨-, b2, b3⟩ := inv_codelens_body s h hm hlt
  have hmode : ∀ t : inflate_stream, (alpha X [] t).mode = .CODELENS → t.mode = .CODELENS := by
    intro t e
    rw [am_of] at e
    unfold amode_of at e
    cases hmt : t.mode <;> rw [hmt] at e <;> first | rfl | cases e
  have hbad : ∀ t : inflate_stream, (alpha X [] t).mode = .BAD → t.mode = .BAD := by
    intro t e
    rw [am_of] at e
    unfold amode_of at e
    cases hmt : t.mode <;> rw [hmt] at e <;> first | rfl | cases e
  have hma : (alpha X [] s).mode = .CODELENS := by rw [am_of]; unfold amode_of; rw [hm]
  rcases codelens_body_ref tb X [] s h hm hlt with ⟨r1, r2⟩ | ⟨r1, r2⟩
  · left
    have e1 : (codelens_body s).1.sN X = s.sN X := congrArg astate.N r2
    have e2 : (codelens_body s).1.sL X = s.sL X := congrArg astate.L r2
    exact ⟨r1, congrArg astate.lens r2, congrArg astate.have_ r2, e1, e2,
      hmode _ ((congrArg astate.mode r2).trans hma), congrArg astate.msg r2,
      codelens_body_stall s h hm r1⟩
  · right
    rw [astep_at_CODELENS hma, if_pos (show (alpha X [] s).have_ <
      (alpha X [] s).nlen + (alpha X [] s).ndist from hlt),
      astep_codelen_eval (alpha X [] s) (cl_code s X) rfl] at r2
    have hgo : (codelens_body s).1.mode = .CODELENS → (codelens_body s).2 = .go := by
      intro e
      rcases hcb : (codelens_body s).2 with _ | _ | _
      · rfl
      · exact absurd hcb r1
      · have := b3 hcb
        rw [e] at this
        cases this
    have hbrk : (codelens_body s).1.mode = .BAD → (codelens_body s).2 = .brk := by
      intro e
      rcases hcb : (codelens_body s).2 with _ | _ | _
      · have := (b2 hcb).1.2
        rw [e] at this
        cases this
      · exact absurd hcb r1
      · rfl
    by_cases c1 : (alpha X [] s).L < (cl_code s X).bits
    · rw [if_pos c1] at r2; cases r2
    rw [if_neg c1] at r2
    by_cases c2 : (cl_code s X).val < 16
    · rw [if_pos c2] at r2
      have r2 := (Option.some.inj r2).symm
      have e1 : (codelens_body s).1.sN X = s.sN X / 2 ^ (cl_code s X).bits :=
        congrArg astate.N r2
      have e2 : (codelens_body s).1.sL X = s.sL X - (cl_code s X).bits :=
        congrArg astate.L r2
      have em := hmode _ ((congrArg astate.mode r2).trans hma)
      exact Or.inl ⟨hgo em, c2, not_lt.mp c1, congrArg astate.lens r2,
        congrArg astate.have_ r2, e1, e2, em, congrArg astate.msg r2⟩
    rw [if_neg c2] at r2
    by_cases c3 : (alpha X [] s).L < (cl_code s X).bits + rep_extra (cl_code s X).val
    · rw [if_pos c3] at r2; cases r2
    rw [if_neg c3] at r2
    by_cases c4 : (cl_code s X).val = 16 ∧ (alpha X [] s).have_ = 0
    · rw [if_pos c4] at r2
      have r2 := (Option.some.inj r2).symm
      have em := hbad _ (congrArg astate.mode r2)
      exact Or.inr (Or.inr ⟨hbrk em, not_lt.mp c2, not_lt.mp c3, Or.inl c4,
        congrArg astate.lens r2, congrArg astate.have_ r2, em, congrArg astate.msg r2⟩)
    rw [if_neg c4] at r2
    by_cases c5 : (alpha X [] s).have_ + (rep_base (cl_code s X).val +
        (alpha X [] s).N / 2 ^ (cl_code s X).bits % 2 ^ rep_extra (cl_code s X).val) >
        (alpha X [] s).nlen + (alpha X [] s).ndist
    · rw [if_pos c5] at r2
      have r2 := (Option.some.inj r2).symm
      have em := hbad _ (congrArg astate.mode r2)
      exact Or.inr (Or.inr ⟨hbrk em, not_lt.mp c2, not_lt.mp c3, Or.inr c5,
        congrArg astate.lens r2, congrArg astate.have_ r2, em, congrArg astate.msg r2⟩)
    rw [if_neg c5] at r2
    have r2 := (Option.some.inj r2).symm
    have e1 : (codelens_body s).1.sN X =
        s.sN X / 2 ^ (cl_code s X).bits / 2 ^ rep_extra (cl_code s X).val :=
      congrArg astate.N r2
    have e2 : (codelens_body s).1.sL X =
        s.sL X - (cl_code s X).bits - rep_extra (cl_code s X).val :=
      congrArg astate.L r2
    have em := hmode _ ((congrArg astate.mode r2).trans hma)
    exact Or.inr (Or.inl ⟨hgo em, not_lt.mp c2, not_lt.mp c3, c4, not_lt.mp c5,
      congrArg astate.lens r2, congrArg astate.have_ r2, e1, e2, em,
      congrArg astate.msg r2⟩)

theorem cl_expand_fuel (T : Nat → code) (root total : Nat) :
    ∀ (f1 f2 N : Nat) (acc : List Nat), total - acc.length ≤ f1 → total - acc.length ≤ f2 →
      cl_expand T root total f1 N acc = cl_expand T root total f2 N acc := by
  intro f1
  induction f1 with
  | zero =>
    intro f2 N acc h1 _
    cases f2 with
    | zero => rfl
    | succ m =>
      unfold cl_expand
      rw [if_neg (by omega)]
  | succ n ih =>
    intro f2 N acc h1 h2
    by_cases hlt : acc.length < total
    · cases f2 with
      | zero => omega
      | succ m =>
        unfold cl_expand
        rw [if_pos hlt, if_pos hlt]
        split_ifs with c
        · have := run_out_length acc ((T (N % 2 ^ root)).val, 0)
          rw [if_pos (show ((T (N % 2 ^ root)).val, 0).1 < 16 from c)] at this
          exact ih m _ _ (by omega) (by omega)
        · have := run_out_length acc ((T (N % 2 ^ root)).val,
            N / 2 ^ (T (N % 2 ^ root)).bits % 2 ^ rep_extra (T (N % 2 ^ root)).val)
          rw [if_neg (show ¬ ((T (N % 2 ^ root)).val, _).1 < 16 from c)] at this
          have hb : 3 ≤ run_base (T (N % 2 ^ root)).val := by
            unfold run_base; split_ifs <;> omega
          have this : (run_out acc ((T (N % 2 ^ root)).val,
              N / 2 ^ (T (N % 2 ^ root)).bits % 2 ^ rep_extra (T (N % 2 ^ root)).val)).length ≥
              acc.length + 1 := by
            rw [this]
            show acc.length + (if (T (N % 2 ^ root)).val = 16 then _ else
              run_base (T (N % 2 ^ root)).val + _) ≥ _
            split_ifs <;> omega
          exact ih m _ _ (by omega) (by omega)
    · cases f2 with
      | zero =>
        unfold cl_expand
        rw [if_neg hlt]
      | succ m =>
        unfold cl_expand
        rw [if_neg hlt, if_neg hlt]

theorem codelens_body_frame (s : inflate_stream) :
    (codelens_body s).1.nlen = s.nlen ∧ (codelens_body s).1.ndist = s.ndist ∧
    (codelens_body s).1.lenbits = s.lenbits ∧ (codelens_body s).1.lencode = s.lencode ∧
    (codelens_body s).1.codes = s.codes := by
  unfold codelens_body
  dsimp only
  split_ifs <;> exact ⟨rfl, rfl, rfl, rfl, rfl⟩

theorem run_out_rep (acc : List Nat) (v e : Nat) (h : 16 ≤ v) :
    run_out acc (v, e) = acc ++ List.replicate ((if v = 16 then 3 else run_base v) + e)
      (if v = 16 then acc.getD (acc.length - 1) 0 else 0) := by
  unfold run_out
  show (if v < 16 then _ else if v = 16 then _ else _) = _
  rw [if_neg (by omega)]
  split_ifs <;> rfl

/-- A pass of the loop of `CODELENS` that stores lengths appends to the lengths stored so
far what the symbol under the unread bits expands to. -/
theorem codelens_body_run (tb : table_builder) (X : List Nat) (s : inflate_stream)
    (h : Inv s) (hm : s.mode = .CODELENS) (hlt : s.have_ < s.nlen + s.ndist)
    (hl : s.nlen + s.ndist ≤ s.lens.length) (h15 : ∀ x ∈ s.lens.take s.have_, x ≤ 15)
    (hg : (codelens_body s).2 = .go) :
    (cl_code s X).val ≤ 18 ∧
    (codelens_body s).1.have_ ≤ s.nlen + s.ndist ∧ s.have_ < (codelens_body s).1.have_ ∧
    (∀ x ∈ (codelens_body s).1.lens.take (codelens_body s).1.have_, x ≤ 15) ∧
    (codelens_body s).1.lens.length = s.lens.length ∧
    (((cl_code s X).val < 16 ∧
        (codelens_body s).1.lens.take (codelens_body s).1.have_ =
          run_out (s.lens.take s.have_) ((cl_code s X).val, 0) ∧
        (codelens_body s).1.sN X = s.sN X / 2 ^ (cl_code s X).bits) ∨
      (16 ≤ (cl_code s X).val ∧
        (codelens_body s).1.lens.take (codelens_body s).1.have_ =
          run_out (s.lens.take s.have_) ((cl_code s X).val,
            s.sN X / 2 ^ (cl_code s X).bits % 2 ^ rep_extra (cl_code s X).val) ∧
        (codelens_body s).1.sN X =
          s.sN X / 2 ^ (cl_code s X).bits / 2 ^ rep_extra (cl_code s X).val)) := by
  have hw := me_CODELENS h.regs hm
  have h18 : (cl_code s X).val ≤ 18 := by
    have := (term_ok_iff.mp (hw _ (pow_mod_lt (s.sN X) s.lenbits))).1
    simpa [codes_term, cl_code] using this
  have hlen : (s.lens.take s.have_).length = s.have_ := by
    rw [List.length_take]; omega
  rcases codelens_body_cases tb X s h hm hlt with c | c | c | c
  · rw [c.1] at hg; cases hg
  · obtain ⟨-, c2, -, c4, c5, c6, -⟩ := c
    have e : (codelens_body s).1.lens.take (codelens_body s).1.have_ =
        s.lens.take s.have_ ++ [(cl_code s X).val] := by
      rw [c4, c5]
      exact take_set_succ s.lens s.have_ _ (by omega)
    refine ⟨h18, by omega, by omega, ?_, by rw [c4, List.length_set], Or.inl ⟨c2, ?_, c6⟩⟩
    · intro x hx
      rw [e] at hx
      rcases List.mem_append.mp hx with hx | hx
      · exact h15 x hx
      · have := List.mem_singleton.mp hx
        omega
    · rw [e]
      unfold run_out
      rw [if_pos (show ((cl_code s X).val, 0).1 < 16 from c2)]
  · obtain ⟨-, c2, -, c4, c5, c6, c7, c8, -⟩ := c
    have hcopy : 3 ≤ cl_copy s X := by
      unfold cl_copy rep_base
      split_ifs <;> omega
    obtain ⟨f1, f2⟩ := fill_lens_spec
      (if (cl_code s X).val = 16 then s.lens.getD (s.have_ - 1) 0 else 0) (cl_copy s X)
      s.have_ s.lens (by omega)
    have e : (codelens_body s).1.lens.take (codelens_body s).1.have_ =
        s.lens.take s.have_ ++ List.replicate (cl_copy s X)
          (if (cl_code s X).val = 16 then s.lens.getD (s.have_ - 1) 0 else 0) := by
      rw [c6, c7]
      exact f2
    refine ⟨h18, by omega, by omega, ?_, by rw [c6, f1], Or.inr ⟨c2, ?_, c8⟩⟩
    · intro x hx
      rw [e] at hx
      rcases List.mem_append.mp hx with hx | hx
      · exact h15 x hx
      · have hx := (List.mem_replicate.mp hx).2
        split_ifs at hx with c16
        · have h0 : s.have_ ≠ 0 := fun e0 => c4 ⟨c16, e0⟩
          rw [hx, ← getD_take_lt s.lens (show s.have_ - 1 < s.have_ by omega)]
          rw [List.getD_eq_getElem _ _ (by omega)]
          exact h15 _ (List.getElem_mem _)
        · omega
    · rw [e, run_out_rep _ _ _ c2, hlen]
      by_cases c16 : (cl_code s X).val = 16
      · have h0 : s.have_ ≠ 0 := fun e0 => c4 ⟨c16, e0⟩
        rw [if_pos c16, if_pos c16, if_pos c16,
          getD_take_lt s.lens (show s.have_ - 1 < s.have_ by omega)]
        congr 2
        unfold cl_copy rep_base
        rw [if_pos (Or.inl c16)]
      · rw [if_neg c16, if_neg c16, if_neg c16]
        congr 2
        unfold cl_copy rep_base run_base
        split_ifs <;> omega
  · rw [c.1] at hg; cases hg

theorem expanding_body (tb : table_builder) (F : List Nat) (X : List Nat) (s : inflate_stream)
    (h : Inv s) (hm : s.mode = .CODELENS) (hlt : s.have_ < s.nlen + s.ndist)
    (he : expanding F X s) (hb : (codelens_body s).2 ≠ .brk) :
    expanding F X (codelens_body s).1 := by
  obtain ⟨e1, e2, e3, e4⟩ := he
  obtain ⟨f1, f2, f3, f4, f5⟩ := codelens_body_frame s
  have htab : (codelens_body s).1.tab (codelens_body s).1.lencode = s.tab s.lencode := by
    funext i
    show code_at (codelens_body s).1.codes (codelens_body s).1.lencode i =
      code_at s.codes s.lencode i
    rw [f4, f5]
  rcases hcb : (codelens_body s).2 with _ | _ | _
  · obtain ⟨g1, g2, g3, g4, g5, g6⟩ := codelens_body_run tb X s h hm hlt e2 e3 hcb
    have hlen : ((codelens_body s).1.lens.take (codelens_body s).1.have_).length =
        (codelens_body s).1.have_ := by
      rw [List.length_take, g5]; omega
    have hlen0 : (s.lens.take s.have_).length = s.have_ := by
      rw [List.length_take]; omega
    refine ⟨by rw [f1, f2]; exact g2, by rw [f1, f2, g5]; exact e2, g4, ?_⟩
    rw [htab, f1, f2, f3, ← e4]
    have hf : s.nlen + s.ndist - s.have_ = (s.nlen + s.ndist - s.have_ - 1) + 1 := by omega
    conv_rhs => rw [hf]; unfold cl_expand
    rw [if_pos (by rw [hlen0]; exact hlt)]
    have hc : s.tab s.lencode (s.sN X % 2 ^ s.lenbits) = cl_code s X := rfl
    rw [hc]
    rcases g6 with ⟨c1, c2, c3⟩ | ⟨c1, c2, c3⟩
    · rw [if_pos c1, c2, c3]
      exact cl_expand_fuel _ _ _ _ _ _ _ (by rw [← c2, hlen]) (by rw [← c2, hlen]; omega)
    · rw [if_neg (by omega), c2, c3]
      exact cl_expand_fuel _ _ _ _ _ _ _ (by rw [← c2, hlen]) (by rw [← c2, hlen]; omega)
  · rcases codelens_body_cases tb X s h hm hlt with c | c | c | c
    · obtain ⟨-, c2, c3, c4, -⟩ := c
      refine ⟨by rw [f1, f2, c3]; exact e1, by rw [f1, f2, c2]; exact e2,
        by rw [c2, c3]; exact e3, ?_⟩
      rw [htab, f1, f2, f3, c2, c3, c4]
      exact e4
    · rw [c.1] at hcb; cases hcb
    · rw [c.1] at hcb; cases hcb
    · rw [c.1] at hcb; cases hcb
  · exact absurd hcb hb

theorem codelens_loop_frame (k : Nat) :
    ∀ s : inflate_stream, (codelens_loop k s).1.nlen = s.nlen ∧
      (codelens_loop k s).1.ndist = s.ndist := by
  induction k with
  | zero => intro s; exact ⟨rfl, rfl⟩
  | succ n ih =>
    intro s
    obtain ⟨f1, f2, -⟩ := codelens_body_frame s
    unfold codelens_loop
    split_ifs
    · rcases hcb : codelens_body s with ⟨s1, e⟩
      rw [hcb] at f1 f2
      cases e
      · obtain ⟨i1, i2⟩ := ih s1
        exact ⟨i1.trans f1, i2.trans f2⟩
      · exact ⟨f1, f2⟩
      · exact ⟨f1, f2⟩
    · exact ⟨rfl, rfl⟩

theorem expanding_loop (tb : table_builder) (F : List Nat) (X : List Nat) (k : Nat) :
    ∀ s : inflate_stream, Inv s → s.mode = .CODELENS → expanding F X s →
      (codelens_loop k s).2 ≠ .brk →
      expanding F X (codelens_loop k s).1 ∧
      ((codelens_loop k s).2 = .leave → (codelens_loop k s).1.next_in = []) := by
  induction k with
  | zero => intro s _ _ he _; exact ⟨he, fun e => (by cases e)⟩
  | succ n ih =>
    intro s h hm he
    unfold codelens_loop
    by_cases hlt : s.have_ < s.nlen + s.ndist
    · rw [if_pos hlt]
      obtain ⟨b1, b2, -⟩ := inv_codelens_body s h hm hlt
      have hb := expanding_body tb F X s h hm hlt he
      have hs := codelens_body_stall s h hm
      rcases hcb : codelens_body s with ⟨s1, e⟩
      rw [hcb] at b1 b2 hb hs
      cases e
      · exact ih s1 b1 (b2 rfl).1.2 (hb (fun c => (by cases c)))
      · exact fun _ => ⟨hb (fun c => (by cases c)), fun _ => hs rfl⟩
      · exact fun c => absurd rfl c
    · rw [if_neg hlt]
      exact fun _ => ⟨he, fun e => (by cases e)⟩

/-- C25: the lengths that the loop of the case `CODELENS` stores are the expansion of the
code-length symbols spelt by the unread bits, as RFC 1951 tells it: a symbol below 16
appends itself; 16 appends the length before it 3 + (2 extra bits) times, that is 3 to 6
times; 17 appends 3 + (3 extra bits) zeros, 3 to 10; 18 appends 11 + (7 extra bits) zeros,
11 to 138.  With `F` the expansion of the bits that follow the code-length code lengths up
to `nlen + ndist` lengths: the loop starts (`have = 0`) with `F` still to come; every run
of the loop that does not fail, complete or stopped for lack of input (the input is then
used up), keeps that; so does the caller presenting the input that follows; and when the
loop completes, `have = nlen + ndist`, `lens[0 .. nlen + ndist)` is `F`, and every length
stored is at most 15. -/
theorem codelens_expansion (tb : table_builder) (F : List Nat) (X X2 : List Nat) (k : Nat)
    (s : inflate_stream) (b : buffers) (acc : List Nat) (v e : Nat) :
    ((v < 16 → run_out acc (v, 0) = acc ++ [v]) ∧
      (e < 2 ^ rep_extra 16 → run_out acc (16, e) =
          acc ++ List.replicate (3 + e) (acc.getD (acc.length - 1) 0) ∧ 3 + e ≤ 6) ∧
      (e < 2 ^ rep_extra 17 → run_out acc (17, e) = acc ++ List.replicate (3 + e) 0 ∧
        3 + e ≤ 10) ∧
      (e < 2 ^ rep_extra 18 → run_out acc (18, e) = acc ++ List.replicate (11 + e) 0 ∧
        11 + e ≤ 138)) ∧
    (s.have_ = 0 → s.nlen + s.ndist ≤ s.lens.length →
      expanding (cl_expand (s.tab s.lencode) s.lenbits (s.nlen + s.ndist) (s.nlen + s.ndist)
        (s.sN X) []) X s) ∧
    (Inv s → s.mode = .CODELENS → expanding F X s → (codelens_loop k s).2 ≠ .brk →
      expanding F X (codelens_loop k s).1 ∧
      ((codelens_loop k s).2 = .leave → (codelens_loop k s).1.next_in = []) ∧
      (s.nlen + s.ndist - s.have_ ≤ k → (codelens_loop k s).2 = .go →
        (codelens_loop k s).1.have_ = s.nlen + s.ndist ∧
        (codelens_loop k s).1.lens.take (s.nlen + s.ndist) = F ∧
        ∀ x ∈ (codelens_loop k s).1.lens.take (s.nlen + s.ndist), x ≤ 15)) ∧
    (expanding F (b.next_in ++ X2) s → s.next_in = [] → expanding F X2 (s.present b)) := by
  refine ⟨⟨fun hv => ?_, fun he => ⟨?_, ?_⟩, fun he => ⟨?_, ?_⟩, fun he => ⟨?_, ?_⟩⟩,
    fun h0 hl => ?_, fun h hm hx hb => ?_, fun hx hn => ?_⟩
  · unfold run_out
    rw [if_pos (show (v, 0).1 < 16 from hv)]
  · rw [run_out_rep _ _ _ (le_refl _)]; rfl
  · have : e < 4 := he
    omega
  · rw [run_out_rep _ _ _ (by decide)]; rfl
  · have : e < 8 := he
    omega
  · rw [run_out_rep _ _ _ (by decide)]; rfl
  · have : e < 128 := he
    omega
  · refine ⟨by omega, hl, ?_, ?_⟩
    · rw [h0]
      intro x hx
      cases hx
    · rw [h0]
      rfl
  · obtain ⟨r1, r2⟩ := expanding_loop tb F X k s h hm hx hb
    refine ⟨r1, r2, fun hk hg => ?_⟩
    have hd := codelens_loop_done k s h hm hk hg
    obtain ⟨n1, n2⟩ := codelens_loop_frame k s
    obtain ⟨q1, q2, q3, q4⟩ := r1
    rw [n1, n2] at hd q1 q2 q4
    have hh : (codelens_loop k s).1.have_ = s.nlen + s.ndist := by omega
    rw [hh] at q3 q4
    refine ⟨hh, ?_, q3⟩
    rw [Nat.sub_self] at q4
    exact q4
  · obtain ⟨q1, q2, q3, q4⟩ := hx
    refine ⟨q1, q2, q3, ?_⟩
    rw [← q4]
    show cl_expand (s.tab s.lencode) s.lenbits (s.nlen + s.ndist) (s.nlen + s.ndist - s.have_)
      ((s.present b).sN X2) (s.lens.take s.have_) = _
    congr 1
    rw [sN_eq, sN_eq, hn]
    show s.hold + 2 ^ s.bits * (bytes_val b.next_in + 2 ^ (8 * b.next_in.length) *
      bytes_val X2) = s.hold + 2 ^ s.bits * (bytes_val [] + 2 ^ (8 * ([] : List Nat).length) *
        bytes_val (b.next_in ++ X2))
    rw [bytes_val_append]
    simp [bytes_val]

set_option maxRecDepth 100000 in
/-- Witness for `codelens_expansion`: the symbol 5 followed by the symbol 16 with the extra
bits 1 expands to five lengths 5. -/
theorem codelens_expansion_witness :
    (codelens_loop 5 cl_state).2 = .go ∧
    (codelens_loop 5 cl_state).1.have_ = 5 ∧
    (codelens_loop 5 cl_state).1.lens.take 5 = [5, 5, 5, 5, 5] := by
  have hI : Inv cl_state :=
    ⟨rfl, rfl, by decide, by decide, Or.inl (by decide),
      mi_CODELENS rfl (fun i hi => by
        have hi : i < 4 := hi
        interval_cases i <;> rfl)⟩
  have h := codelens_expansion no_tables
    (cl_expand (cl_state.tab cl_state.lencode) 2 5 5 (cl_state.sN []) []) [] [] 5 cl_state
    ⟨false, [], false, [], 0⟩ [] 0 0
  have h1 := h.2.1 rfl (by decide)
  obtain ⟨-, -, h2⟩ := h.2.2.1 hI rfl h1 (by decide!)
  obtain ⟨a1, a2, -⟩ := h2 (by decide) (by decide!)
  exact ⟨by decide!, a1, a2.trans (by decide!)⟩

/-- A pass of the loop of `CODELENS` stalls only when the bits at hand do not cover the
code under them, or the code of a repeat symbol with its extra bits. -/
theorem codelens_body_short (s : inflate_stream) (h : Inv s) (hm : s.mode = .CODELENS)
    (hl : (codelens_body s).2 = .leave) :
    s.slen < (cl_code s []).bits ∨
    (16 ≤ (cl_code s []).val ∧ s.slen < (cl_code s []).bits + rep_extra (cl_code s []).val) := by
  have hw := me_CODELENS h.regs hm
  obtain ⟨k, hp, hstop, -⟩ := lookup1_spec s s.lencode s.lenbits
    (fun i hi => wf_codes_stable hw hi)
  obtain ⟨k2, hp2, hstop2, -⟩ := NEEDBITS_spec
    ((here1 (lookup1 s s.lencode s.lenbits) s.lencode s.lenbits).bits +
      rep_extra (here1 (lookup1 s s.lencode s.lenbits) s.lencode s.lenbits).val)
    (lookup1 s s.lencode s.lenbits)
  have e1 := pulled_sval hp
  have e2 := pulled_slen hp
  have e3 := pulled_slen hp2
  have hge := sL_ge (lookup1 s s.lencode s.lenbits) []
  rw [sL_nil] at hge
  have hbits : ∀ t : inflate_stream, t.next_in = [] → t.slen = t.bits := by
    intro t ht
    unfold inflate_stream.slen
    rw [ht]; rfl
  have hcode : (lookup1 s s.lencode s.lenbits).bits ≥
      (here1 (lookup1 s s.lencode s.lenbits) s.lencode s.lenbits).bits ∨
      (lookup1 s s.lencode s.lenbits).next_in = [] →
      here1 (lookup1 s s.lencode s.lenbits) s.lencode s.lenbits = cl_code s [] := by
    intro hc
    show s.tab s.lencode ((lookup1 s s.lencode s.lenbits).hold % 2 ^ s.lenbits) =
      s.tab s.lencode (s.sN [] % 2 ^ s.lenbits)
    rw [sN_nil, ← e1]
    rcases hc with hc | hc
    · have hst := (wf_codes_stable hw (pow_mod_lt
        (lookup1 s s.lencode s.lenbits).hold s.lenbits)).2
      have hb := (wf_codes_stable hw (pow_mod_lt
        (lookup1 s s.lencode s.lenbits).hold s.lenbits)).1
      have hb : (here1 (lookup1 s s.lencode s.lenbits) s.lencode s.lenbits).bits ≤
          s.lenbits := hb
      have := hst ((lookup1 s s.lencode s.lenbits).sval % 2 ^ s.lenbits) (pow_mod_lt _ _) (by
        simp only [Nat.zero_add]
        show (lookup1 s s.lencode s.lenbits).sval % 2 ^ s.lenbits %
          2 ^ (here1 (lookup1 s s.lencode s.lenbits) s.lencode s.lenbits).bits =
          (lookup1 s s.lencode s.lenbits).hold % 2 ^ s.lenbits %
            2 ^ (here1 (lookup1 s s.lencode s.lenbits) s.lencode s.lenbits).bits
        rw [Nat.mod_mod_of_dvd _ (pow_dvd_pow 2 hb), Nat.mod_mod_of_dvd _ (pow_dvd_pow 2 hb),
          ← sN_nil, sN_mod _ [] hc])
      simp only [Nat.zero_add] at this
      exact this.symm
    · unfold inflate_stream.sval
      rw [hc]
      simp [bytes_val]
  revert hl
  unfold codelens_body
  dsimp only
  split_ifs with c1 c2 c3 c4 c5
  · intro _
    left
    rw [← hcode (Or.inr (hstop c1)), ← e2, hbits _ (hstop c1)]
    exact c1
  · intro e; cases e
  · intro _
    right
    rw [← hcode (Or.inl (not_lt.mp c1)), ← e2, ← e3, hbits _ (hstop2 c3)]
    exact ⟨not_lt.mp c2, c3⟩
  · intro e; cases e
  · intro e; cases e
  · intro e; cases e

theorem codelens_loop_msg (tb : table_builder) (k : Nat) :
    ∀ s : inflate_stream, Inv s → s.mode = .CODELENS →
      ((codelens_loop k s).2 = .brk → (codelens_loop k s).1.mode = .BAD ∧
        (codelens_loop k s).1.msg = some "invalid bit length repeat") ∧
      ((codelens_loop k s).2 ≠ .brk → (codelens_loop k s).1.mode = .CODELENS ∧
        (codelens_loop k s).1.msg = s.msg) := by
  induction k with
  | zero => intro s _ hm; exact ⟨fun e => (by cases e), fun _ => ⟨hm, rfl⟩⟩
  | succ n ih =>
    intro s h hm
    unfold codelens_loop
    by_cases hlt : s.have_ < s.nlen + s.ndist
    · rw [if_pos hlt]
      obtain ⟨b1, b2, -⟩ := inv_codelens_body s h hm hlt
      have hc := codelens_body_cases tb [] s h hm hlt
      rcases hcb : codelens_body s with ⟨s1, e⟩
      rw [hcb] at b1 b2 hc
      cases e
      · obtain ⟨i1, i2⟩ := ih s1 b1 (b2 rfl).1.2
        have hmsg : s1.msg = s.msg := by
          rcases hc with c | c | c | c
          · exact absurd c.1 (fun e => (by cases e))
          · exact c.2.2.2.2.2.2.2.2
          · exact c.2.2.2.2.2.2.2.2.2.2
          · exact absurd c.1 (fun e => (by cases e))
        exact ⟨i1, fun e => ⟨(i2 e).1, (i2 e).2.trans hmsg⟩⟩
      · refine ⟨fun e => (by cases e), fun _ => ?_⟩
        rcases hc with c | c | c | c
        · exact ⟨c.2.2.2.2.2.1, c.2.2.2.2.2.2.1⟩
        · exact absurd c.1 (fun e => (by cases e))
        · exact absurd c.1 (fun e => (by cases e))
        · exact absurd c.1 (fun e => (by cases e))
      · refine ⟨fun _ => ?_, fun e => absurd rfl e⟩
        rcases hc with c | c | c | c
        · exact absurd c.1 (fun e => (by cases e))
        · exact absurd c.1 (fun e => (by cases e))
        · exact absurd c.1 (fun e => (by cases e))
        · exact ⟨c.2.2.2.2.2.2.1, c.2.2.2.2.2.2.2⟩
    · rw [if_neg hlt]
      exact ⟨fun e => (by cases e), fun _ => ⟨hm, rfl⟩⟩

/-- C26: in the mode `CODELENS`, (1) a pass of the loop `while (have < nlen + ndist)` sets
the mode `BAD` with the message "invalid bit length repeat" iff the bits at hand hold the
code of a repeat symbol (16, 17 or 18) with its extra bits, and either the symbol is 16 with
`have = 0` or the run would make `have` exceed `nlen + ndist`; a pass that does not keeps
the mode and the message; (2) the loop stops by that error iff its first pass does, or its
first pass stores lengths and the loop from there on does; (3) the case then ends by
`break` in `BAD` with that message; when the loop completes, the case ends in `BAD` with
the message "invalid code -- missing end-of-block" if `lens[256] = 0`, and goes on to build
the tables otherwise, after which it does not end in `BAD` with either of these two
messages; in both errors the outcome is the same for every table builder (none is called)
and the output buffer is as before. -/
theorem codelens_validation (tb tb2 : table_builder) (fuel fuel2 : Nat) (flush flush2 : Int)
    (out : Nat) (k : Nat) (s : inflate_stream) (ret : Int) (h : Inv s)
    (hm : s.mode = .CODELENS) :
    (s.have_ < s.nlen + s.ndist →
      ((codelens_body s).2 = .brk ↔
        (16 ≤ (cl_code s []).val ∧
          (cl_code s []).bits + rep_extra (cl_code s []).val ≤ s.slen ∧
          (((cl_code s []).val = 16 ∧ s.have_ = 0) ∨
            s.have_ + cl_copy s [] > s.nlen + s.ndist))) ∧
      ((codelens_body s).2 = .brk → (codelens_body s).1.mode = .BAD ∧
        (codelens_body s).1.msg = some "invalid bit length repeat") ∧
      ((codelens_body s).2 ≠ .brk → (codelens_body s).1.mode = .CODELENS ∧
        (codelens_body s).1.msg = s.msg) ∧
      ((codelens_loop (k + 1) s).2 = .brk ↔
        ((codelens_body s).2 = .brk ∨
          ((codelens_body s).2 = .go ∧ (codelens_loop k (codelens_body s).1).2 = .brk)))) ∧
    ((codelens_loop (s.nlen + s.ndist - s.have_) s).2 = .brk →
      ∃ t, case_CODELENS tb fuel flush out s ret = some (.cont t ret) ∧
        case_CODELENS tb2 fuel2 flush2 out s ret = some (.cont t ret) ∧ t.mode = .BAD ∧
        t.msg = some "invalid bit length repeat" ∧ t.next_out = s.next_out ∧
        t.avail_out = s.avail_out) ∧
    ((codelens_loop (s.nlen + s.ndist - s.have_) s).2 = .go →
      ((codelens_loop (s.nlen + s.ndist - s.have_) s).1.lens.getD 256 0 = 0 →
        ∃ t, case_CODELENS tb fuel flush out s ret = some (.cont t ret) ∧
          case_CODELENS tb2 fuel2 flush2 out s ret = some (.cont t ret) ∧ t.mode = .BAD ∧
          t.msg = some "invalid code -- missing end-of-block" ∧ t.next_out = s.next_out ∧
          t.avail_out = s.avail_out) ∧
      ((codelens_loop (s.nlen + s.ndist - s.have_) s).1.lens.getD 256 0 ≠ 0 →
        case_CODELENS tb fuel flush out s ret =
          build_tables tb fuel flush out (codelens_loop (s.nlen + s.ndist - s.have_) s).1 ∧
        ∀ o, case_CODELENS tb fuel flush out s ret = some o → o.st.mode = .BAD →
          o.st.msg ≠ some "invalid bit length repeat" ∧
          o.st.msg ≠ some "invalid code -- missing end-of-block")) ∧
    ((codelens_loop (s.nlen + s.ndist - s.have_) s).2 = .leave →
      ∃ t, case_CODELENS tb fuel flush out s ret = some (.leave t ret) ∧
        t.mode = .CODELENS ∧ t.msg = s.msg ∧ t.next_out = s.next_out) := by
  obtain ⟨o1, o2⟩ := codelens_loop_out (s.nlen + s.ndist - s.have_) s
  obtain ⟨m1, m2⟩ := codelens_loop_msg tb (s.nlen + s.ndist - s.have_) s h hm
  refine ⟨fun hlt => ⟨⟨fun hb => ?_, fun hc => ?_⟩, fun hb => ?_, fun hb => ?_, ?_⟩,
    fun hb => ?_, fun hg => ⟨fun h0 => ?_, fun h0 => ?_⟩, fun hl => ?_⟩
  · rcases codelens_body_cases tb [] s h hm hlt with c | c | c | c
    · rw [c.1] at hb; cases hb
    · rw [c.1] at hb; cases hb
    · rw [c.1] at hb; cases hb
    · obtain ⟨-, c2, c3, c4, -⟩ := c
      rw [sL_nil] at c3
      exact ⟨c2, c3, c4⟩
  · obtain ⟨a1, a2, a3⟩ := hc
    rcases codelens_body_cases tb [] s h hm hlt with c | c | c | c
    · rcases codelens_body_short s h hm c.1 with d | d
      · omega
      · omega
    · omega
    · obtain ⟨-, -, -, c4, c5, -⟩ := c
      rcases a3 with a3 | a3
      · exact absurd a3 c4
      · omega
    · exact c.1
  · rcases codelens_body_cases tb [] s h hm hlt with c | c | c | c
    · rw [c.1] at hb; cases hb
    · rw [c.1] at hb; cases hb
    · rw [c.1] at hb; cases hb
    · exact ⟨c.2.2.2.2.2.2.1, c.2.2.2.2.2.2.2⟩
  · rcases codelens_body_cases tb [] s h hm hlt with c | c | c | c
    · exact ⟨c.2.2.2.2.2.1, c.2.2.2.2.2.2.1⟩
    · exact ⟨c.2.2.2.2.2.2.2.1, c.2.2.2.2.2.2.2.2⟩
    · exact ⟨c.2.2.2.2.2.2.2.2.2.1, c.2.2.2.2.2.2.2.2.2.2⟩
    · exact absurd c.1 hb
  · conv_lhs => unfold codelens_loop
    rw [if_pos hlt]
    rcases hcb : codelens_body s with ⟨s1, e⟩
    cases e
    · exact ⟨fun e => Or.inr ⟨rfl, e⟩, fun e => (by
        rcases e with e | ⟨-, e⟩
        · cases e
        · exact e)⟩
    · exact ⟨fun e => (by cases e), fun e => (by
        rcases e with e | ⟨e, -⟩
        · cases e
        · cases e)⟩
    · exact ⟨fun _ => Or.inl rfl, fun _ => rfl⟩
  · obtain ⟨n1, n2⟩ := m1 hb
    have key : ∀ (tb3 : table_builder) (f3 : Nat) (fl3 : Int),
        case_CODELENS tb3 f3 fl3 out s ret =
          some (.cont (codelens_loop (s.nlen + s.ndist - s.have_) s).1 ret) := by
      intro tb3 f3 fl3
      rw [case_CODELENS_eq]
      rcases hcl : codelens_loop (s.nlen + s.ndist - s.have_) s with ⟨t, e⟩
      rw [hcl] at hb n1
      cases hb
      show (if t.mode = .BAD then _ else _) = _
      rw [if_pos n1]
    exact ⟨_, key tb fuel flush, key tb2 fuel2 flush2, n1, n2, o1, o2⟩
  · obtain ⟨n1, n2⟩ := m2 (by rw [hg]; exact fun e => (by cases e))
    have key : ∀ (tb3 : table_builder) (f3 : Nat) (fl3 : Int),
        case_CODELENS tb3 f3 fl3 out s ret =
          some (.cont { (codelens_loop (s.nlen + s.ndist - s.have_) s).1 with
            msg := some "invalid code -- missing end-of-block", mode := .BAD } ret) := by
      intro tb3 f3 fl3
      rw [case_CODELENS_eq]
      rcases hcl : codelens_loop (s.nlen + s.ndist - s.have_) s with ⟨t, e⟩
      rw [hcl] at hg n1 h0
      cases hg
      show (if t.mode = .BAD then _ else _) = _
      rw [if_neg (by rw [n1]; exact fun e => (by cases e)), if_pos h0]
    exact ⟨_, key tb fuel flush, key tb2 fuel2 flush2, rfl, rfl, o1, o2⟩
  · obtain ⟨n1, n2⟩ := m2 (by rw [hg]; exact fun e => (by cases e))
    have key : case_CODELENS tb fuel flush out s ret =
        build_tables tb fuel flush out (codelens_loop (s.nlen + s.ndist - s.have_) s).1 := by
      rw [case_CODELENS_eq]
      rcases hcl : codelens_loop (s.nlen + s.ndist - s.have_) s with ⟨t, e⟩
      rw [hcl] at hg n1 h0
      cases hg
      show (if t.mode = .BAD then _ else _) = _
      rw [if_neg (by rw [n1]; exact fun e => (by cases e)), if_neg h0]
    refine ⟨key, fun o ho hbad => ?_⟩
    rw [key] at ho
    have hmsg := build_tables_msg ho hbad
    exact ⟨fun e => build_msg_not_codes.1 (by rw [← e]; exact hmsg),
      fun e => build_msg_not_codes.2 (by rw [← e]; exact hmsg)⟩
  · obtain ⟨n1, n2⟩ := m2 (by rw [hl]; exact fun e => (by cases e))
    refine ⟨_, ?_, n1, n2, o1⟩
    rw [case_CODELENS_eq]
    rcases hcl : codelens_loop (s.nlen + s.ndist - s.have_) s with ⟨t, e⟩
    rw [hcl] at hl
    cases hl
    rfl

set_option maxRecDepth 100000 in
/-- Witness for `codelens_validation`: the symbol 16 as the first code-length symbol is
rejected with the message "invalid bit length repeat". -/
theorem codelens_validation_witness :
    (codelens_body cl_repeat_first).2 = .brk ∧
    ∃ t, case_CODELENS no_tables 20 Z_NO_FLUSH 10 cl_repeat_first Z_OK = some (.cont t Z_OK) ∧
      t.mode = .BAD ∧ t.msg = some "invalid bit length repeat" := by
  have hI : Inv cl_repeat_first :=
    ⟨rfl, rfl, by decide, by decide, Or.inl (by decide),
      mi_CODELENS rfl (fun i hi => by
        have hi : i < 4 := hi
        interval_cases i <;> rfl)⟩
  have h := codelens_validation no_tables no_tables 20 20 Z_NO_FLUSH Z_NO_FLUSH 10 0
    cl_repeat_first Z_OK hI rfl
  obtain ⟨t, t1, -, t3, t4, -⟩ := h.2.1 (by decide!)
  exact ⟨((h.1 (by decide)).1).mpr (by decide!), t, t1, t3, t4⟩

theorem drop_cin_bits (op : Nat) (l : fast_locals) (h : op ≤ l.bits) (hb : l.bits ≤ 31) :
    (l.drop op).cin = l.cin ∧ (l.drop op).bits = l.bits - op :=
  ⟨rfl, usub_of_le h (by omega)⟩

theorem need1_cin_bits (inp : List Nat) (op : Nat) (l : fast_locals) :
    ((l.need1 inp op).cin = l.cin ∧ (l.need1 inp op).bits = l.bits ∧ op ≤ l.bits) ∨
    ((l.need1 inp op).cin = l.cin + 1 ∧ (l.need1 inp op).bits = l.bits + 8 ∧ l.bits < op) := by
  unfold fast_locals.need1
  split_ifs with c
  · exact Or.inr ⟨rfl, rfl, c⟩
  · exact Or.inl ⟨rfl, rfl, not_lt.mp c⟩

theorem need2_cin_bits (inp : List Nat) (op : Nat) (l : fast_locals) :
    ((l.need2 inp op).cin = l.cin ∧ (l.need2 inp op).bits = l.bits ∧ op ≤ l.bits) ∨
    ((l.need2 inp op).cin = l.cin + 1 ∧ (l.need2 inp op).bits = l.bits + 8 ∧ l.bits < op ∧
      op ≤ l.bits + 8) ∨
    ((l.need2 inp op).cin = l.cin + 2 ∧ (l.need2 inp op).bits = l.bits + 16 ∧
      l.bits + 8 < op) := by
  unfold fast_locals.need2
  split_ifs with c
  · rcases need1_cin_bits inp op (l.pull inp) with ⟨a1, a2, a3⟩ | ⟨a1, a2, a3⟩
    · exact Or.inr (Or.inl ⟨a1, a2, c, a3⟩)
    · exact Or.inr (Or.inr ⟨a1, a2, a3⟩)
  · exact Or.inl ⟨rfl, rfl, not_lt.mp c⟩

theorem refill_cin_bits (inp : List Nat) (l : fast_locals) :
    ((l.refill inp).cin = l.cin ∧ (l.refill inp).bits = l.bits ∧ 15 ≤ l.bits) ∨
    ((l.refill inp).cin = l.cin + 2 ∧ (l.refill inp).bits = l.bits + 16 ∧ l.bits < 15) := by
  unfold fast_locals.refill
  split_ifs with c
  · exact Or.inr ⟨rfl, rfl, c⟩
  · exact Or.inl ⟨rfl, rfl, not_lt.mp c⟩

/-- The code at `dodist` on a terminal entry reads at most two bytes, and at most one when
five bits are left behind the code. -/
theorem fast_dodist_reads (s : inflate_stream) (inp : List Nat) (beg out0 len : Nat)
    (fuel : Nat) (here : code) (l : fast_locals) (r : fast_end)
    (hterm : dist_term here = true) (hge : here.bits ≤ l.bits) (hb : l.bits ≤ 31)
    (h : fast_dodist s inp beg out0 len (fuel + 1) here l = some r) :
    fast_read 2 1 (here.bits + 5 ≤ l.bits) l r := by
  obtain ⟨d1, d2⟩ := drop_cin_bits here.bits l hge hb
  unfold fast_dodist at h
  dsimp only at h
  rcases dist_term_cases hterm with ⟨h16, h64⟩ | ⟨h16, h64⟩
  · obtain ⟨x1, -⟩ := dist_base hterm h64
    have key : (((l.drop here.bits).need2 inp (here.op &&& 15)).drop (here.op &&& 15)).bits ≤ 31 ∧
        l.cin ≤ ((l.drop here.bits).need2 inp (here.op &&& 15)).cin ∧
        ((l.drop here.bits).need2 inp (here.op &&& 15)).cin ≤ l.cin + 2 ∧
        (here.bits + 5 ≤ l.bits →
          ((l.drop here.bits).need2 inp (here.op &&& 15)).cin ≤ l.cin + 1) := by
      rcases need2_cin_bits inp (here.op &&& 15) (l.drop here.bits) with
        ⟨a1, a2, a3⟩ | ⟨a1, a2, a3, a4⟩ | ⟨a1, a2, a3⟩
      · rw [(drop_cin_bits _ _ (by omega) (by omega)).2, a1, a2, d1, d2]
        exact ⟨by omega, by omega, by omega, fun _ => by omega⟩
      · rw [(drop_cin_bits _ _ (by omega) (by omega)).2, a1, a2, d1, d2]
        exact ⟨by omega, by omega, by omega, fun _ => by omega⟩
      · rw [(drop_cin_bits _ _ (by omega) (by omega)).2, a1, a2, d1, d2]
        exact ⟨by omega, by omega, by omega, fun _ => by omega⟩
    rw [if_pos h16] at h
    split_ifs at h <;> cases h <;> exact key
  · rw [if_neg (by rw [h16]; exact fun c => c rfl), if_neg h64] at h
    cases h
    exact ⟨by show (l.drop here.bits).bits ≤ 31; omega, by show l.cin ≤ (l.drop here.bits).cin; omega,
      by show (l.drop here.bits).cin ≤ _; omega, fun _ => by
        show (l.drop here.bits).cin ≤ _; omega⟩

/-- The code at `dodist` on the first-level entry of a distance table, after a refill: at
most two bytes are read, and at most one when the accumulator began with 20 bits. -/
theorem fast_dodist_reads_first (s : inflate_stream) (inp : List Nat) (beg out0 len : Nat)
    (hw : wf_dist s) (fuel : Nat) (i : Nat) (hi : i < 2 ^ s.distbits)
    (l : fast_locals) (r : fast_end) (h15 : 15 ≤ l.bits) (hb : l.bits ≤ 31)
    (h : fast_dodist s inp beg out0 len (fuel + 1) (s.tab s.distcode i) l = some r) :
    fast_read 2 1 (20 ≤ l.bits) l r := by
  have hwd : wf_table dist_term (s.tab s.distcode) s.distbits = true := hw
  obtain ⟨-, hr15⟩ := wf_root hwd
  obtain ⟨-, hbr, -⟩ := wf_first hwd hi
  by_cases hl : is_link (s.tab s.distcode i).op = true
  · obtain ⟨k0, k16, k64, k15⟩ := link_ops hl
    unfold fast_dodist at h
    dsimp only at h
    rw [if_neg (by rw [k16]; exact fun c => c rfl), if_pos k64] at h
    cases fuel with
    | zero => simp [fast_dodist] at h
    | succ fuel =>
      obtain ⟨w1, w2, -, w4, -, w6, -⟩ := wf_second hwd hi hl
        (pow_mod_lt (l.drop (s.tab s.distcode i).bits).hold (s.tab s.distcode i).op)
      obtain ⟨d1, d2⟩ := drop_cin_bits (s.tab s.distcode i).bits l (by omega) hb
      obtain ⟨g1, g2, g3, g4⟩ := fast_dodist_reads s inp beg out0 len fuel _ _ r w4
        (by rw [d2]; omega) (by omega) h
      rw [d2] at g4
      exact ⟨g1, g2, g3, fun c => g4 (by omega)⟩
  · obtain ⟨g1, g2, g3, g4⟩ := fast_dodist_reads s inp beg out0 len fuel _ l r
      (wf_term hwd hi (by simpa using hl)) (by omega) hb h
    exact ⟨g1, g2, g3, fun c => g4 (by omega)⟩

/-- The code at `dolen` on a terminal entry reads at most five bytes, and at most four when
a bit is left behind the code. -/
theorem fast_dolen_reads (s : inflate_stream) (inp : List Nat) (beg out0 : Nat)
    (hw : wf_dist s) (fuel : Nat) (here : code) (l : fast_locals) (r : fast_end)
    (hterm : len_term here = true) (hge : here.bits ≤ l.bits) (hb : l.bits ≤ 31)
    (h : fast_dolen s inp beg out0 (fuel + 1) here l = some r) :
    fast_read 5 4 (here.bits + 1 ≤ l.bits) l r := by
  obtain ⟨d1, d2⟩ := drop_cin_bits here.bits l hge hb
  have hq : fast_read 5 4 (here.bits + 1 ≤ l.bits) l (.test (l.drop here.bits)) ∧
      ∀ m msg, fast_read 5 4 (here.bits + 1 ≤ l.bits) l (.brk (l.drop here.bits) m msg) := by
    refine ⟨⟨?_, ?_, ?_, fun _ => ?_⟩, fun m msg => ⟨?_, ?_, ?_, fun _ => ?_⟩⟩ <;>
    first
    | (show (l.drop here.bits).bits ≤ 31; omega)
    | (show l.cin ≤ (l.drop here.bits).cin; omega)
    | (show (l.drop here.bits).cin ≤ _; omega)
  unfold fast_dolen at h
  dsimp only at h
  rcases len_term_cases hterm with c0 | ⟨c0, c16, c64, -⟩ | ⟨c0, c16, c64⟩
  · rw [if_pos c0] at h
    cases h
    exact hq.1
  · obtain ⟨b1, -⟩ := len_base hterm c0 c64
    rw [if_neg c0, if_pos c16] at h
    have hx : ∃ x : fast_locals,
        (fast_len_extra inp here.val (here.op &&& 15) (l.drop here.bits)).2 = x ∧
        x.bits ≤ 31 ∧
        ((x.cin = l.cin ∧ x.bits ≤ l.bits - here.bits) ∨
          (x.cin = l.cin + 1 ∧ x.bits ≤ 12 ∧ (here.bits + 1 ≤ l.bits → 4 ≤ x.bits))) := by
      refine ⟨_, rfl, ?_⟩
      unfold fast_len_extra
      split_ifs with c
      · rcases need1_cin_bits inp (here.op &&& 15) (l.drop here.bits) with
          ⟨a1, a2, a3⟩ | ⟨a1, a2, a3⟩
        · show (((l.drop here.bits).need1 inp (here.op &&& 15)).drop (here.op &&& 15)).bits ≤ 31 ∧ _
          rw [(drop_cin_bits _ _ (by omega) (by omega)).2, a2, d2]
          refine ⟨by omega, Or.inl ⟨?_, by omega⟩⟩
          show ((l.drop here.bits).need1 inp (here.op &&& 15)).cin = _
          rw [a1, d1]
        · show (((l.drop here.bits).need1 inp (here.op &&& 15)).drop (here.op &&& 15)).bits ≤ 31 ∧ _
          rw [(drop_cin_bits _ _ (by omega) (by omega)).2, a2, d2]
          refine ⟨by omega, Or.inr ⟨?_, by omega, fun _ => by omega⟩⟩
          show ((l.drop here.bits).need1 inp (here.op &&& 15)).cin = _
          rw [a1, d1]
      · exact ⟨by show (l.drop here.bits).bits ≤ 31; omega, Or.inl ⟨d1, by rw [d2]⟩⟩
    obtain ⟨x, hx0, hx1, hx2⟩ := hx
    rw [hx0] at h
    rcases refill_cin_bits inp x with ⟨a1, a2, a3⟩ | ⟨a1, a2, a3⟩
    · obtain ⟨g1, g2, g3, g4⟩ := fast_dodist_reads_first s inp beg out0 _ hw fuel _
        (pow_mod_lt (x.refill inp).hold s.distbits) _ r (by omega) (by omega) h
      rw [a1] at g2 g3 g4
      rcases hx2 with ⟨y1, y2⟩ | ⟨y1, y2, y3⟩
      · exact ⟨g1, by omega, by omega, fun _ => by omega⟩
      · omega
    · obtain ⟨g1, g2, g3, g4⟩ := fast_dodist_reads_first s inp beg out0 _ hw fuel _
        (pow_mod_lt (x.refill inp).hold s.distbits) _ r (by omega) (by omega) h
      rw [a1] at g2 g3 g4
      rw [a2] at g4
      rcases hx2 with ⟨y1, y2⟩ | ⟨y1, y2, y3⟩
      · exact ⟨g1, by omega, by omega, fun _ => by omega⟩
      · exact ⟨g1, by omega, by omega, fun c => by
          have := y3 c
          have := g4 (by omega)
          omega⟩
  · rw [if_neg c0, if_neg (by rw [c16]; exact fun c => c rfl), if_neg c64] at h
    split_ifs at h <;> cases h <;> exact hq.2 _ _

/-- The code at `dolen` on the first-level entry of a literal/length table, after the
refill at the top of the loop: at most five bytes are read, and at most four when the
accumulator began with 16 bits. -/
theorem fast_dolen_reads_first (s : inflate_stream) (inp : List Nat) (beg out0 : Nat)
    (hwl : wf_len s) (hw : wf_dist s) (fuel : Nat) (i : Nat) (hi : i < 2 ^ s.lenbits)
    (l : fast_locals) (r : fast_end) (h15 : 15 ≤ l.bits) (hb : l.bits ≤ 31)
    (h : fast_dolen s inp beg out0 (fuel + 1) (s.tab s.lencode i) l = some r) :
    fast_read 5 4 (16 ≤ l.bits) l r := by
  have hwd : wf_table len_term (s.tab s.lencode) s.lenbits = true := hwl
  obtain ⟨-, hr15⟩ := wf_root hwd
  obtain ⟨-, hbr, -⟩ := wf_first hwd hi
  by_cases hl : is_link (s.tab s.lencode i).op = true
  · obtain ⟨k0, k16, k64, k15⟩ := link_ops hl
    unfold fast_dolen at h
    dsimp only at h
    rw [if_neg k0, if_neg (by rw [k16]; exact fun c => c rfl), if_pos k64] at h
    cases fuel with
    | zero => simp [fast_dolen] at h
    | succ fuel =>
      obtain ⟨w1, w2, -, w4, -, w6, -⟩ := wf_second hwd hi hl
        (pow_mod_lt (l.drop (s.tab s.lencode i).bits).hold (s.tab s.lencode i).op)
      obtain ⟨d1, d2⟩ := drop_cin_bits (s.tab s.lencode i).bits l (by omega) hb
      obtain ⟨g1, g2, g3, g4⟩ := fast_dolen_reads s inp beg out0 hw fuel _ _ r w4
        (by rw [d2]; omega) (by omega) h
      rw [d2] at g4
      exact ⟨g1, g2, g3, fun c => g4 (by omega)⟩
  · obtain ⟨g1, g2, g3, g4⟩ := fast_dolen_reads s inp beg out0 hw fuel _ l r
      (wf_term hwd hi (by simpa using hl)) (by omega) hb h
    exact ⟨g1, g2, g3, fun c => g4 (by omega)⟩

/-- One pass of the loop of the fast decoder, from the refill at its top to the loop test
or a `break`: it reads at most six bytes of input. -/
theorem fast_pass_reads (s : inflate_stream) (inp : List Nat) (beg out0 : Nat)
    (hwl : wf_len s) (hw : wf_dist s) (fuel : Nat) (l : fast_locals) (r : fast_end)
    (hb : l.bits ≤ 31)
    (h : fast_dolen s inp beg out0 (fuel + 1)
      (s.tab s.lencode ((l.refill inp).hold % 2 ^ s.lenbits)) (l.refill inp) = some r) :
    r.locals.bits ≤ 31 ∧ l.cin ≤ r.locals.cin ∧ r.locals.cin ≤ l.cin + 6 := by
  rcases refill_cin_bits inp l with ⟨a1, a2, a3⟩ | ⟨a1, a2, a3⟩
  · obtain ⟨g1, g2, g3, -⟩ := fast_dolen_reads_first s inp beg out0 hwl hw fuel _
      (pow_mod_lt _ _) _ r (by omega) (by omega) h
    rw [a1] at g2 g3
    exact ⟨g1, g2, by omega⟩
  · obtain ⟨g1, g2, g3, g4⟩ := fast_dolen_reads_first s inp beg out0 hwl hw fuel _
      (pow_mod_lt _ _) _ r (by omega) (by omega) h
    rw [a1] at g2 g3 g4
    rw [a2] at g4
    have := g4 (by omega)
    exact ⟨g1, by omega, by omega⟩

/-- The match copy of the fast decoder takes from the window the bytes of the ranges of
`fast_window_reads`, and the rest of the match from the output. -/
theorem fast_window_copy_reads (w : List Nat) (wsize wnext : Nat) (out : List Nat)
    (op len dist : Nat) :
    fast_window_copy w wsize wnext out op len dist =
      out_copy dist (len - ((fast_window_reads wsize wnext op len).map Prod.snd).sum)
        (out ++ ((fast_window_reads wsize wnext op len).map (fun p => wread w p.1 p.2)).flatten) := by
  unfold fast_window_copy fast_window_reads
  dsimp only
  split_ifs <;>
  simp only [List.map_cons, List.map_nil, List.sum_cons, List.sum_nil, List.flatten_cons,
    List.flatten_nil, List.append_nil, Nat.add_zero, Nat.sub_self, out_copy, List.append_assoc]
  all_goals first
    | rfl
    | (congr 1; omega)
    | (rw [show ∀ a b : Nat, a - (b + (a - b)) = 0 from fun a b => by omega]; rfl)

/-- The ranges of the window that the match copy reads lie within the window. -/
theorem fast_window_reads_in (wsize wnext op len : Nat) (hop : op ≤ wsize)
    (hn : wnext ≤ wsize) (hs : wsize ≤ 32768) :
    ∀ p ∈ fast_window_reads wsize wnext op len, p.1 + p.2 ≤ wsize := by
  have e1 : usub wsize op = wsize - op := usub_of_le hop (by omega)
  intro p hp
  unfold fast_window_reads at hp
  dsimp only at hp
  rw [e1] at hp
  split_ifs at hp
  all_goals first
    | (rw [usub_of_le (by omega) (by omega)] at hp
       simp only [List.mem_cons, List.mem_singleton, List.mem_nil_iff, or_false] at hp
       rcases hp with rfl | rfl <;> dsimp only <;> omega)
    | (simp only [List.mem_cons, List.mem_singleton, List.mem_nil_iff, or_false] at hp
       subst hp
       dsimp only
       omega)

theorem fast_passes_within (s : inflate_stream) (beg last end_ : Nat)
    (hwl : wf_len s) (hw : wf_dist s) (hlast : last + 5 ≤ s.avail_in)
    (hend : end_ + 257 ≤ s.avail_out) :
    ∀ (fuel : Nat) (l : fast_locals), l.bits ≤ 31 → l.cin + 6 ≤ s.avail_in →
      (∃ W0, l.out = s.next_out ++ W0 ∧ W0.length + 258 ≤ s.avail_out) →
      ∀ p ∈ fast_passes s s.next_in beg s.next_out.length last end_ fuel l,
        fast_within s p := by
  intro fuel
  induction fuel with
  | zero => intro l _ _ _ p hp; simp [fast_passes] at hp
  | succ n ih =>
    intro l hb hc ⟨W0, hW0, hW1⟩ p hp
    unfold fast_passes at hp
    split at hp
    · simp at hp
    · rename_i l1 m msg hd
      have hg := fast_dolen_first s s.next_in beg s.next_out.length hwl hw n _
        (pow_mod_lt _ _) _ _ hd
      obtain ⟨-, g2, g3⟩ := fast_pass_reads s s.next_in beg s.next_out.length hwl hw n l _ hb hd
      rw [List.mem_singleton] at hp
      subst hp
      exact ⟨hc, g2, g3, W0, [], hW0, hW1, by
        show l1.out = l.out ++ []
        rw [List.append_nil, show l1.out = _ from hg, refill_out], by simp⟩
    · rename_i l1 hd
      obtain ⟨W, a, -, c⟩ := fast_dolen_first s s.next_in beg s.next_out.length hwl hw n _
        (pow_mod_lt _ _) _ _ hd
      rw [refill_out] at a
      obtain ⟨g1, g2, g3⟩ := fast_pass_reads s s.next_in beg s.next_out.length hwl hw n l _
        hb hd
      rcases List.mem_cons.mp hp with rfl | hp
      · exact ⟨hc, g2, g3, W0, W, hW0, hW1, a, c⟩
      · split_ifs at hp with hcond
        · refine ih l1 g1 ?_ ⟨W0 ++ W, by rw [a, hW0, List.append_assoc], ?_⟩ p hp
          · have : l1.cin < last := hcond.1
            omega
          · have := hcond.2
            rw [a, hW0, List.length_append, List.length_append] at this
            rw [List.length_append]
            omega
        · simp at hp

/-- The loop of the fast decoder returns what its last pass ended with. -/
theorem fast_passes_last (s : inflate_stream) (inp : List Nat) (beg out0 last end_ : Nat) :
    ∀ (fuel : Nat) (l : fast_locals) (r : fast_end),
      fast_loop s inp beg out0 last end_ fuel l = some r →
      ∃ ps l1, fast_passes s inp beg out0 last end_ fuel l = ps ++ [(l1, r)] := by
  intro fuel
  induction fuel with
  | zero => intro l r h; simp [fast_loop] at h
  | succ n ih =>
    intro l r h
    unfold fast_loop at h
    unfold fast_passes
    dsimp only at h
    cases hd : fast_dolen s inp beg out0 (n + 1)
        (s.tab s.lencode ((l.refill inp).hold % 2 ^ s.lenbits)) (l.refill inp) with
    | none =>
      rw [hd] at h
      cases h
    | some r1 =>
      rw [hd] at h
      cases r1 with
      | brk l2 m2 msg2 =>
        cases h
        exact ⟨[], l, rfl⟩
      | test l2 =>
        have h : (if l2.cin < last ∧ l2.out.length - out0 < end_ then
            fast_loop s inp beg out0 last end_ n l2 else some (.test l2)) = some r := h
        show ∃ ps l1, (l, fast_end.test l2) ::
            (if l2.cin < last ∧ l2.out.length - out0 < end_ then
              fast_passes s inp beg out0 last end_ n l2 else []) = ps ++ [(l1, r)]
        by_cases hc : l2.cin < last ∧ l2.out.length - out0 < end_
        · rw [if_pos hc] at h
          obtain ⟨ps, l1, e⟩ := ih l2 r h
          rw [if_pos hc, e]
          exact ⟨(l, .test l2) :: ps, l1, rfl⟩
        · rw [if_neg hc] at h
          cases h
          rw [if_neg hc]
          exact ⟨[], l, rfl⟩

/-- C28 (buffer safety of the fast decoder): let `inflate_fast` be entered with
`avail_in >= 6`, `avail_out >= 258`, `bits < 8` (`bits <= 31` is enough) and well-formed
literal/length and distance tables.  (1) Every pass of its loop starts with at least 6 unread bytes of input
and room for 258 bytes of output, reads at most 6 bytes (the input cursor `cin` moves on
by at most 6) and appends at most 258 bytes; so the input cursor never passes
`avail_in` and the output never grows past `next_out + avail_out`; and when the loop
returns, its result is that of the last pass listed.  (2) A first-level table index is
below `2 ^ root`; on a link the second-level index is below every bound `n` that the
links of the table stay inside, the entry found there is not a link, and a pass needs no
more than two lookups per table (three units of fuel are enough).  (3) The window copy,
reached with `0 < op` and not (`op > whave` and `sane`), reads the window only in the
ranges of `fast_window_reads`, and these lie within the window. -/
theorem fast_safety (s : inflate_stream) (start : Nat) (hwl : wf_len s) (hwd : wf_dist s)
    (h6 : 6 ≤ s.avail_in) (h258 : 258 ≤ s.avail_out) (hb : s.bits ≤ 31)
    (hin : s.avail_in < 4294967296) (hout : s.avail_out < 4294967296)
    (hsane : s.sane ≠ 0) (hwin : win_shape s ∨ s.whave = 0) (h15 : s.wbits ≤ 15) :
    (∀ fuel, ∀ p ∈ fast_trace fuel s start,
      fast_within s p ∧ p.2.locals.cin ≤ s.avail_in ∧
      p.2.locals.out.length ≤ s.next_out.length + s.avail_out) ∧
    (∀ fuel r, fast_loop s s.next_in (usub start s.avail_out) s.next_out.length
        (usub s.avail_in 5) (usub s.avail_out 257) fuel ⟨0, s.next_out, s.hold, s.bits⟩ =
          some r →
      ∃ ps l1, fast_trace fuel s start = ps ++ [(l1, r)]) ∧
    (∀ (inp : List Nat) (beg out0 i : Nat) (l : fast_locals), i < 2 ^ s.lenbits →
      (fast_dolen s inp beg out0 3 (s.tab s.lencode i) l).isSome = true) ∧
    (∀ hold n, (hold % 2 ^ s.lenbits < 2 ^ s.lenbits ∧
        ∀ i, i < 2 ^ s.lenbits → is_link (s.tab s.lencode i).op = true →
          is_link (s.tab s.lencode
            ((s.tab s.lencode i).val + hold % 2 ^ (s.tab s.lencode i).op)).op = false ∧
          (links_inside (s.tab s.lencode) s.lenbits n →
            (s.tab s.lencode i).val + hold % 2 ^ (s.tab s.lencode i).op < n)) ∧
      (hold % 2 ^ s.distbits < 2 ^ s.distbits ∧
        ∀ i, i < 2 ^ s.distbits → is_link (s.tab s.distcode i).op = true →
          is_link (s.tab s.distcode
            ((s.tab s.distcode i).val + hold % 2 ^ (s.tab s.distcode i).op)).op = false ∧
          (links_inside (s.tab s.distcode) s.distbits n →
            (s.tab s.distcode i).val + hold % 2 ^ (s.tab s.distcode i).op < n))) ∧
    (∀ (out : List Nat) (op len dist : Nat), 0 < op → ¬ (op > s.whave ∧ s.sane ≠ 0) →
      fast_window_copy (s.window.getD []) s.wsize s.wnext out op len dist =
        out_copy dist (len - ((fast_window_reads s.wsize s.wnext op len).map Prod.snd).sum)
          (out ++ ((fast_window_reads s.wsize s.wnext op len).map
            (fun p => wread (s.window.getD []) p.1 p.2)).flatten) ∧
      ∀ p ∈ fast_window_reads s.wsize s.wnext op len,
        p.1 + p.2 ≤ (s.window.getD []).length) := by
  have e5 : usub s.avail_in 5 = s.avail_in - 5 := usub_of_le (by omega) hin
  have e257 : usub s.avail_out 257 = s.avail_out - 257 := usub_of_le (by omega) hout
  refine ⟨?_, ?_, ?_, ?_, ?_⟩
  · intro fuel p hp
    have hw := fast_passes_within s (usub start s.avail_out) (usub s.avail_in 5)
      (usub s.avail_out 257) hwl hwd (by rw [e5]; omega) (by rw [e257]; omega) fuel
      ⟨0, s.next_out, s.hold, s.bits⟩ (by show s.bits ≤ 31; omega)
      (by show 0 + 6 ≤ s.avail_in; omega) ⟨[], by simp, by simp; omega⟩ p hp
    obtain ⟨a1, a2, a3, W0, W, a4, a5, a6, a7⟩ := hw
    refine ⟨⟨a1, a2, a3, W0, W, a4, a5, a6, a7⟩, by omega, ?_⟩
    rw [a6, a4, List.length_append, List.length_append]
    omega
  · intro fuel r h
    exact fast_passes_last s s.next_in _ _ _ _ fuel _ r h
  · intro inp beg out0 i l hi
    exact fast_dolen_some s inp beg out0 0 hwl hwd l hi
  · intro hold n
    refine ⟨⟨pow_mod_lt _ _, fun i hi hl => ?_⟩, ⟨pow_mod_lt _ _, fun i hi hl => ?_⟩⟩
    · refine ⟨(wf_second (show wf_table len_term (s.tab s.lencode) s.lenbits = true from hwl)
        hi hl (pow_mod_lt hold _)).2.2.1, fun hli => ?_⟩
      have := hli i hi hl
      have := pow_mod_lt hold (s.tab s.lencode i).op
      omega
    · refine ⟨(wf_second (show wf_table dist_term (s.tab s.distcode) s.distbits = true from hwd)
        hi hl (pow_mod_lt hold _)).2.2.1, fun hli => ?_⟩
      have := hli i hi hl
      have := pow_mod_lt hold (s.tab s.distcode i).op
      omega
  · intro out op len dist h0 hg
    refine ⟨fast_window_copy_reads _ _ _ _ _ _ _, ?_⟩
    have hle : op ≤ s.whave := by
      by_contra c
      exact hg ⟨by omega, hsane⟩
    rcases hwin with ⟨w1, ⟨w, w2, w3⟩, w4, w5, -⟩ | w0
    · rw [w2]
      show ∀ p ∈ fast_window_reads s.wsize s.wnext op len, p.1 + p.2 ≤ w.length
      rw [w3]
      have : s.wsize ≤ 32768 := by
        rw [w1]
        calc 2 ^ s.wbits ≤ 2 ^ 15 := Nat.pow_le_pow_right (by norm_num) h15
          _ = 32768 := by norm_num
      exact fast_window_reads_in s.wsize s.wnext op len (by omega) (by omega) this
    · omega

set_option maxRecDepth 100000 in
/-- Witness for `fast_safety`: the fast decoder on the symbols of "abcabc" makes one pass,
which reads no more than the 6 bytes of input. -/
theorem fast_safety_witness :
    (fast_trace 3 fast_state 258).length = 1 ∧
    ∀ p ∈ fast_trace 3 fast_state 258,
      fast_within fast_state p ∧ p.2.locals.cin ≤ fast_state.avail_in ∧
      p.2.locals.out.length ≤ fast_state.next_out.length + fast_state.avail_out :=
  ⟨by decide!, (fast_safety fast_state 258 wf_lenfix wf_distfix (by decide) (by decide)
    (by decide) (by decide) (by decide) (by decide) (Or.inr rfl) (by decide)).1 3⟩

theorem leave_update_skip (alloc : allocator) (flush : Int) (out : Nat) (s : inflate_stream)
    (h : ¬ leave_folds flush out s) : leave_update alloc flush out s = (s, 0) := by
  unfold leave_update
  rw [if_neg h]

theorem leave_update_fold (alloc : allocator) (flush : Int) (out : Nat) (s : inflate_stream)
    (h : leave_folds flush out s) :
    leave_update alloc flush out s =
      updatewindow alloc s s.next_out (usub out s.avail_out) := by
  unfold leave_update
  rw [if_pos h]

theorem inf_leave_win (alloc : allocator) (flush : Int) (in_ out : Nat)
    (s : inflate_stream) (ret : Int) :
    (inf_leave alloc flush in_ out s ret).2.window = (leave_update alloc flush out s).1.window ∧
    (inf_leave alloc flush in_ out s ret).2.wsize = (leave_update alloc flush out s).1.wsize ∧
    (inf_leave alloc flush in_ out s ret).2.whave = (leave_update alloc flush out s).1.whave ∧
    (inf_leave alloc flush in_ out s ret).2.wnext = (leave_update alloc flush out s).1.wnext ∧
    (inf_leave alloc flush in_ out s ret).2.wbits = (leave_update alloc flush out s).1.wbits := by
  unfold inf_leave
  dsimp only
  split_ifs <;> exact ⟨rfl, rfl, rfl, rfl, rfl⟩

/-- C31 (amended): at the leave point of `write`, reached with the stream `s` whose output
buffer holds the bytes `W` produced in this call behind the bytes `E` it held on entry.
(1) If the window is in use (`wsize != 0`), or output was produced and the mode is before
`BAD` and either before `CHECK` or `flush` is not `Z_FINISH`, the call
`updatewindow(next_out, produced)` is made: when it fails (no window and the allocation
fails) the call of `write` returns `Z_MEM_ERROR` in the mode `MEM` with the window fields
as before; otherwise the window fields of the stream returned are those that
`updatewindow` delivers, and the window holds the last bytes of its former content
followed by `W`.  (2) Otherwise, in particular when nothing was produced and `wsize = 0`, or
when the mode is `BAD`, or `DONE` under `Z_FINISH`, with `wsize = 0`, `updatewindow` is not
called and the window fields are as before. -/
theorem leave_fold (alloc : allocator) (halloc : ∀ n x, alloc n = some x → x.length = n)
    (flush : Int) (in_ out : Nat) (s : inflate_stream) (ret : Int) (E W : List Nat)
    (hs : win_shape s ∨ window_unused s) (hout : s.next_out = E ++ W)
    (hu : usub out s.avail_out = W.length) :
    ((s.wsize ≠ 0 ∨ (out ≠ s.avail_out ∧ s.mode.rank < Mode.BAD.rank ∧
        (s.mode.rank < Mode.CHECK.rank ∨ flush ≠ Z_FINISH))) →
      leave_update alloc flush out s =
        updatewindow alloc s s.next_out (usub out s.avail_out) ∧
      ((updatewindow alloc s s.next_out (usub out s.avail_out)).2 ≠ 0 →
        s.window = none ∧ alloc (2 ^ s.wbits) = none ∧
        inf_leave alloc flush in_ out s ret = (Z_MEM_ERROR, { s with mode := .MEM })) ∧
      ((updatewindow alloc s s.next_out (usub out s.avail_out)).2 = 0 →
        (inf_leave alloc flush in_ out s ret).2.window =
          (updatewindow alloc s s.next_out (usub out s.avail_out)).1.window ∧
        (inf_leave alloc flush in_ out s ret).2.wsize = 2 ^ s.wbits ∧
        (inf_leave alloc flush in_ out s ret).2.whave =
          min (2 ^ s.wbits) (s.whave + W.length) ∧
        (inf_leave alloc flush in_ out s ret).2.wnext =
          (updatewindow alloc s s.next_out (usub out s.avail_out)).1.wnext ∧
        win_shape (inf_leave alloc flush in_ out s ret).2 ∧
        window_read (inf_leave alloc flush in_ out s ret).2 =
          lastn (min (2 ^ s.wbits) (s.whave + W.length)) (window_read s ++ W))) ∧
    (¬ (s.wsize ≠ 0 ∨ (out ≠ s.avail_out ∧ s.mode.rank < Mode.BAD.rank ∧
        (s.mode.rank < Mode.CHECK.rank ∨ flush ≠ Z_FINISH))) →
      leave_update alloc flush out s = (s, 0) ∧
      (inf_leave alloc flush in_ out s ret).2.window = s.window ∧
      (inf_leave alloc flush in_ out s ret).2.wsize = s.wsize ∧
      (inf_leave alloc flush in_ out s ret).2.whave = s.whave ∧
      (inf_leave alloc flush in_ out s ret).2.wnext = s.wnext) ∧
    (s.wsize = 0 → (out = s.avail_out ∨ s.mode = .BAD ∨ (s.mode = .DONE ∧ flush = Z_FINISH)) →
      ¬ (s.wsize ≠ 0 ∨ (out ≠ s.avail_out ∧ s.mode.rank < Mode.BAD.rank ∧
        (s.mode.rank < Mode.CHECK.rank ∨ flush ≠ Z_FINISH)))) := by
  obtain ⟨i1, i2, i3, i4, i5⟩ := inf_leave_win alloc flush in_ out s ret
  refine ⟨fun hf => ?_, fun hf => ?_, fun h0 hc hf => ?_⟩
  · have hfold : leave_folds flush out s := hf
    have e := leave_update_fold alloc flush out s hfold
    refine ⟨e, fun hne => ?_, fun hok => ?_⟩
    · obtain ⟨u1, u2⟩ := updatewindow_fail alloc s _ _ hne
      refine ⟨u2, ((updatewindow_fail_iff alloc s _ _).mp hne).2, ?_⟩
      unfold inf_leave
      dsimp only
      rw [e, if_pos hne, u1]
    · rw [e] at i1 i2 i3 i4 i5
      rw [hout, hu] at hok i1 i2 i3 i4 i5 ⊢
      obtain ⟨g1, g2, g3, g4, g5, -, -⟩ := updatewindow_general alloc halloc s E W hs hok
      refine ⟨i1, i2.trans g3, i3.trans g4, i4, ?_, ?_⟩
      · obtain ⟨a1, ⟨w, a2, a3⟩, a4, a5, a6⟩ := g1
        exact ⟨by rw [i2, i5]; exact a1, ⟨w, by rw [i1]; exact a2, by rw [i2]; exact a3⟩,
          by rw [i4, i2]; exact a4, by rw [i3, i2]; exact a5, by
            rw [i3, i2, i4]; exact a6⟩
      · rw [← g5]
        unfold window_read
        rw [i1, i2, i3, i4]
  · have hskip : ¬ leave_folds flush out s := hf
    have e := leave_update_skip alloc flush out s hskip
    rw [e] at i1 i2 i3 i4
    exact ⟨e, i1, i2, i3, i4⟩
  · rcases hf with hf | ⟨h1, h2, h3⟩
    · exact hf h0
    · rcases hc with hc | hc | ⟨hc, hfin⟩
      · exact h1 hc
      · rw [hc] at h2
        exact absurd h2 (by decide)
      · rw [hc] at h3
        rcases h3 with h3 | h3
        · exact absurd h3 (by decide)
        · exact h3 hfin

set_option maxRecDepth 100000 in
/-- Witness for `leave_fold`: at the leave point of a call that wrote "ab" and stands in
`LEN`, the window is allocated and holds "ab". -/
theorem leave_fold_witness :
    (inf_leave zero_alloc Z_NO_FLUSH 0 8 leave_state Z_OK).2.wsize = 32768 ∧
    (inf_leave zero_alloc Z_NO_FLUSH 0 8 leave_state Z_OK).2.whave = 2 ∧
    window_read (inf_leave zero_alloc Z_NO_FLUSH 0 8 leave_state Z_OK).2 = [97, 98] := by
  have h := (leave_fold zero_alloc (fun n x hx => by cases hx; simp) Z_NO_FLUSH 0 8
    leave_state Z_OK [] [97, 98] (Or.inr ⟨rfl, rfl, rfl, fun w hw => by cases hw⟩) rfl
    (by decide)).1 (Or.inr ⟨by decide, by decide, Or.inl (by decide)⟩)
  obtain ⟨-, h2, h3, -, -, h6⟩ := h.2.2 (by decide!)
  exact ⟨h2, h3, h6⟩

set_option maxRecDepth 100000 in
/-- Counterexample to C31 as stated: output was produced, and yet the window is neither
allocated nor written.  The call on `bad_stream` writes "a" and ends in `BAD`; the call
with `Z_FINISH` on the stream of "abcabc" writes six bytes and ends in `DONE`. -/
theorem produced_not_folded :
    ((session no_tables zero_alloc 100 (fresh 15) bad_whole).getD []).map
      (fun c => (c.ret, c.after.mode, c.after.next_out)) = [(Z_DATA_ERROR, .BAD, [97])] ∧
    ((session no_tables zero_alloc 100 (fresh 15) bad_whole).getD []).map
      (fun c => (c.after.wsize, c.after.whave, c.after.window.isSome)) = [(0, 0, false)] ∧
    ((session no_tables zero_alloc 100 (fresh 15) abc_finish).getD []).map
      (fun c => (c.ret, c.after.mode, c.after.next_out)) =
      [(Z_STREAM_END, .DONE, [97, 98, 99, 97, 98, 99])] ∧
    ((session no_tables zero_alloc 100 (fresh 15) abc_finish).getD []).map
      (fun c => (c.after.wsize, c.after.whave, c.after.window.isSome)) = [(0, 0, false)] := by
  decide!

theorem fill_lens_length (v : Nat) : ∀ (n h : Nat) (lens : List Nat),
    (fill_lens v n h lens).length = lens.length := by
  intro n
  induction n with
  | zero => intro h lens; rfl
  | succ n ih =>
    intro h lens
    unfold fill_lens
    rw [ih, List.length_set]

theorem fill_lens_far (v : Nat) : ∀ (n h : Nat) (lens : List Nat) (x : Nat),
    x < h ∨ h + n ≤ x → (fill_lens v n h lens).getD x 0 = lens.getD x 0 := by
  intro n
  induction n with
  | zero => intro h lens x _; rfl
  | succ n ih =>
    intro h lens x hx
    unfold fill_lens
    rw [ih (h + 1) _ x (by omega)]
    simp only [List.getD_eq_getElem?_getD]
    rw [List.getElem?_set_ne (by omega)]

theorem ll_MATCH (out : Nat) (s : inflate_stream) (ret : Int) :
    (case_MATCH out s ret).st.lens = s.lens := by
  unfold case_MATCH match_emit
  dsimp only
  split_ifs <;> rfl

theorem ll_DISTEXT (out : Nat) (s : inflate_stream) (ret : Int) :
    (case_DISTEXT out s ret).st.lens = s.lens := by
  unfold case_DISTEXT
  dsimp only
  split_ifs
  · rfl
  · exact ll_MATCH _ _ _
  · exact ll_MATCH _ _ _

theorem ll_dist_go (out : Nat) (s : inflate_stream) (here : code) (ret : Int) :
    (dist_go out s here ret).st.lens = s.lens := by
  unfold dist_go
  dsimp only
  split_ifs
  · rfl
  · exact ll_DISTEXT _ _ _

theorem ll_DIST (out : Nat) (s : inflate_stream) (ret : Int) :
    (case_DIST out s ret).st.lens = s.lens := by
  unfold case_DIST
  dsimp only
  split_ifs
  · rfl
  · rfl
  · exact ll_dist_go _ _ _ _
  · exact ll_dist_go _ _ _ _

theorem ll_LENEXT (out : Nat) (s : inflate_stream) (ret : Int) :
    (case_LENEXT out s ret).st.lens = s.lens := by
  unfold case_LENEXT
  dsimp only
  split_ifs
  · rfl
  · exact ll_DIST _ _ _
  · exact ll_DIST _ _ _

theorem ll_len_go (out : Nat) (s : inflate_stream) (here : code) (ret : Int) :
    (len_go out s here ret).st.lens = s.lens := by
  unfold len_go
  dsimp only
  split_ifs
  · rfl
  · rfl
  · rfl
  · exact ll_LENEXT _ _ _

theorem ll_LEN_slow (out : Nat) (s : inflate_stream) (ret : Int) :
    (case_LEN_slow out s ret).st.lens = s.lens := by
  unfold case_LEN_slow
  dsimp only
  split_ifs
  · rfl
  · rfl
  · exact ll_len_go _ _ _ _
  · exact ll_len_go _ _ _ _

theorem ll_fast {fuel : Nat} {s s1 : inflate_stream} {start : Nat}
    (h : inflate_fast fuel s start = some s1) : s1.lens = s.lens := by
  unfold inflate_fast at h
  dsimp only at h
  split at h
  · cases h
  · rename_i r hr
    cases h
    cases r <;> rfl

theorem ll_LEN {fuel out : Nat} {s : inflate_stream} {ret : Int} {o : outcome}
    (h : case_LEN fuel out s ret = some o) : o.st.lens = s.lens := by
  unfold case_LEN at h
  dsimp only at h
  split_ifs at h
  · split at h
    · cases h
    · rename_i s1 hf
      cases h
      have := ll_fast hf
      split_ifs <;> exact this
  · cases h
    exact ll_LEN_slow _ _ _

theorem ll_codelens_body (s : inflate_stream) :
    (codelens_body s).1.lens.length = s.lens.length := by
  unfold codelens_body
  dsimp only
  split_ifs <;>
  first
  | rfl
  | exact List.length_set _ _ _
  | exact fill_lens_length _ _ _ _

theorem ll_codelens_loop (k : Nat) :
    ∀ s : inflate_stream, (codelens_loop k s).1.lens.length = s.lens.length := by
  induction k with
  | zero => intro s; rfl
  | succ n ih =>
    intro s
    unfold codelens_loop
    split_ifs
    · have hb := ll_codelens_body s
      rcases hcb : codelens_body s with ⟨s1, e⟩
      rw [hcb] at hb
      cases e
      · exact (ih s1).trans hb
      · exact hb
      · exact hb
    · rfl

theorem ll_CODELENS {tb : table_builder} {fuel : Nat} {flush : Int} {out : Nat}
    {s : inflate_stream} {ret : Int} {o : outcome}
    (h : case_CODELENS tb fuel flush out s ret = some o) :
    o.st.lens.length = s.lens.length := by
  rw [case_CODELENS_eq] at h
  have hl := ll_codelens_loop (s.nlen + s.ndist - s.have_) s
  rcases hcl : codelens_loop (s.nlen + s.ndist - s.have_) s with ⟨s1, e⟩
  rw [hcl] at hl h
  have key : (if s1.mode = Mode.BAD then some (outcome.cont s1 ret)
      else if s1.lens.getD 256 0 = 0 then
        some (outcome.cont { s1 with msg := some "invalid code -- missing end-of-block",
                                     mode := .BAD } ret)
      else build_tables tb fuel flush out s1) = some o →
      o.st.lens.length = s.lens.length := by
    intro h
    split_ifs at h
    · cases h; exact hl
    · cases h; exact hl
    · unfold build_tables at h
      dsimp only at h
      split_ifs at h
      · cases h; exact hl
      · cases h; exact hl
      · cases h; exact hl
      · rw [ll_LEN h]; exact hl
  cases e
  · exact key h
  · cases h; exact hl
  · exact key h

theorem ll_lenlens_read (k : Nat) :
    ∀ s : inflate_stream, (lenlens_read k s).1.lens.length = s.lens.length := by
  induction k with
  | zero => intro s; rfl
  | succ n ih =>
    intro s
    unfold lenlens_read
    dsimp only
    split_ifs
    · rfl
    · rw [ih]
      exact List.length_set _ _ _
    · rfl

theorem ll_lenlens_zero (k : Nat) :
    ∀ s : inflate_stream, (lenlens_zero k s).lens.length = s.lens.length := by
  induction k with
  | zero => intro s; rfl
  | succ n ih =>
    intro s
    unfold lenlens_zero
    split_ifs
    · rw [ih]
      exact List.length_set _ _ _
    · rfl

theorem ll_LENLENS {tb : table_builder} {fuel : Nat} {flush : Int} {out : Nat}
    {s : inflate_stream} {ret : Int} {o : outcome}
    (h : case_LENLENS tb fuel flush out s ret = some o) :
    o.st.lens.length = s.lens.length := by
  unfold case_LENLENS at h
  have hr := ll_lenlens_read (s.ncode - s.have_) s
  rcases hrd : lenlens_read (s.ncode - s.have_) s with ⟨s1, b⟩
  rw [hrd] at hr h
  cases b
  · cases h; exact hr
  · have hz := ll_lenlens_zero (19 - s1.have_) s1
    dsimp only at h
    split_ifs at h
    · cases h; exact hz.trans hr
    · rw [ll_CODELENS h]; exact hz.trans hr

theorem ll_TABLE {tb : table_builder} {fuel : Nat} {flush : Int} {out : Nat}
    {s : inflate_stream} {ret : Int} {o : outcome}
    (h : case_TABLE tb fuel flush out s ret = some o) :
    o.st.lens.length = s.lens.length := by
  unfold case_TABLE at h
  dsimp only at h
  split_ifs at h
  · cases h; rfl
  · cases h; rfl
  · rw [ll_LENLENS h]; rfl

theorem ll_COPY (s : inflate_stream) (ret : Int) : (case_COPY s ret).st.lens = s.lens := by
  unfold case_COPY
  dsimp only
  split_ifs <;> rfl

theorem ll_STORED (flush : Int) (s : inflate_stream) (ret : Int) :
    (case_STORED flush s ret).st.lens = s.lens := by
  unfold case_STORED
  dsimp only
  split_ifs
  · rfl
  · rfl
  · rfl
  · exact ll_COPY _ _

theorem ll_TYPEDO (flush : Int) (s : inflate_stream) (ret : Int) :
    (case_TYPEDO flush s ret).st.lens = s.lens := by
  unfold case_TYPEDO
  dsimp only
  split_ifs <;> try split
  all_goals rfl

theorem ll_TYPE (flush : Int) (s : inflate_stream) (ret : Int) :
    (case_TYPE flush s ret).st.lens = s.lens := by
  unfold case_TYPE
  split_ifs
  · rfl
  · exact ll_TYPEDO _ _ _

/-- No pass through the `switch` changes the size of the array `lens`. -/
theorem ll_step {tb : table_builder} {fuel : Nat} {flush : Int} {out : Nat}
    {s : inflate_stream} {ret : Int} {o : outcome}
    (hc : step tb fuel flush out s ret = some o) : o.st.lens.length = s.lens.length := by
  unfold step at hc
  cases hm : s.mode <;> rw [hm] at hc <;> dsimp only at hc
  case TABLE => exact ll_TABLE hc
  case LENLENS => exact ll_LENLENS hc
  case CODELENS => exact ll_CODELENS hc
  case LEN_ => rw [ll_LEN hc]
  case LEN => rw [ll_LEN hc]
  all_goals cases hc
  case HEAD => rfl
  case TYPE => rw [ll_TYPE]
  case TYPEDO => rw [ll_TYPEDO]
  case STORED => rw [ll_STORED]
  case COPY_ => rw [ll_COPY]
  case COPY => rw [ll_COPY]
  case LENEXT => rw [ll_LENEXT]
  case DIST => rw [ll_DIST]
  case DISTEXT => rw [ll_DISTEXT]
  case MATCH => rw [ll_MATCH]
  case LIT =>
    unfold case_LIT
    split_ifs <;> rfl
  all_goals rfl

theorem ll_passes {tb : table_builder} {flush : Int} {out : Nat} {s : inflate_stream}
    {ret : Int} {o : outcome} (hp : passes tb flush out s ret o) :
    o.st.lens.length = s.lens.length := by
  induction hp with
  | last hs _ => exact ll_step hs
  | next hs _ ih => exact ih.trans (ll_step hs)

theorem ll_visits {tb : table_builder} {flush : Int} {out : Nat} {s : inflate_stream}
    {ret : Int} {s2 : inflate_stream} (hv : visits tb flush out s ret s2) :
    s2.lens.length = s.lens.length := by
  induction hv with
  | here s ret => rfl
  | next hs _ ih => exact ih.trans (ll_step hs)

theorem ll_updatewindow (alloc : allocator) (s : inflate_stream) (e : List Nat) (c : Nat) :
    (updatewindow alloc s e c).1.lens = s.lens := by
  unfold updatewindow
  split
  · rfl
  · dsimp only
    split_ifs <;> rfl

theorem ll_leave (alloc : allocator) (flush : Int) (in_ out : Nat) (s : inflate_stream)
    (ret : Int) : (inf_leave alloc flush in_ out s ret).2.lens = s.lens := by
  have hu : (leave_update alloc flush out s).1.lens = s.lens := by
    unfold leave_update
    split_ifs
    · exact ll_updatewindow _ _ _ _
    · rfl
  unfold inf_leave
  dsimp only
  split_ifs <;> exact hu

theorem ll_entry (p : inflate_stream) : (entry p).lens = p.lens := by
  unfold entry
  split_ifs <;> rfl

theorem ll_write {tb : table_builder} {alloc : allocator} {fuel : Nat} {s : inflate_stream}
    {flush : Int} {r : Int} {s1 : inflate_stream}
    (hw : write tb alloc fuel s flush = some (r, s1)) : s1.lens.length = s.lens.length := by
  rcases write_entry hw with e | e
  · injection e with _ e2; rw [e2]
  · obtain ⟨o, hp, hf⟩ := run_passes tb alloc flush _ _ fuel _ _ _ e
    have hg := ll_passes hp
    rw [ll_entry] at hg
    cases o with
    | cont s2 r2 => injection hf with _ e2; rw [e2]; exact hg
    | leave s2 r2 =>
      have e2 : s1 = (inf_leave alloc flush s.avail_in s.avail_out s2 r2).2 :=
        congrArg Prod.snd hf
      rw [e2, ll_leave]
      exact hg
    | done s2 r2 => injection hf with _ e2; rw [e2]; exact hg

/-- A session does not change the size of the array `lens`. -/
theorem ll_session (tb : table_builder) (alloc : allocator) (fuel : Nat) :
    ∀ (calls : List (buffers × Int)) (s : inflate_stream) (tr : List call_record),
      session tb alloc fuel s calls = some tr →
      (final_stream s tr).lens.length = s.lens.length := by
  intro calls
  induction calls with
  | nil =>
    intro s tr h
    simp only [session, Option.some.injEq] at h
    subst h
    rfl
  | cons c rest ih =>
    intro s tr h
    obtain ⟨b, flush⟩ := c
    unfold session at h
    cases hw : write tb alloc fuel (s.present b) flush with
    | none => rw [hw] at h; cases h
    | some p =>
      obtain ⟨r, s1⟩ := p
      rw [hw] at h
      dsimp only at h
      cases hs : session tb alloc fuel s1 rest with
      | none => rw [hs] at h; cases h
      | some tr1 =>
        rw [hs] at h
        cases h
        show (final_stream s1 tr1).lens.length = s.lens.length
        rw [ih s1 tr1 hs, ll_write hw]
        rfl

theorem lens_fit_of_eq {s t : inflate_stream} (h : lens_fit s)
    (h1 : t.lens.length = s.lens.length) (h2 : t.ncode = s.ncode) (h3 : t.nlen = s.nlen)
    (h4 : t.ndist = s.ndist) : lens_fit t := by
  unfold lens_fit at h ⊢
  rw [h1, h2, h3, h4]
  exact h

theorem lenlens_zero_counts (k : Nat) :
    ∀ s : inflate_stream, (lenlens_zero k s).ncode = s.ncode ∧
      (lenlens_zero k s).nlen = s.nlen ∧ (lenlens_zero k s).ndist = s.ndist := by
  induction k with
  | zero => intro s; exact ⟨rfl, rfl, rfl⟩
  | succ n ih =>
    intro s
    unfold lenlens_zero
    split_ifs
    · exact ih _
    · exact ⟨rfl, rfl, rfl⟩

theorem lenlens_read_counts (k : Nat) :
    ∀ s : inflate_stream, (lenlens_read k s).1.ncode = s.ncode ∧
      (lenlens_read k s).1.nlen = s.nlen ∧ (lenlens_read k s).1.ndist = s.ndist := by
  induction k with
  | zero => intro s; exact ⟨rfl, rfl, rfl⟩
  | succ n ih =>
    intro s
    unfold lenlens_read
    dsimp only
    split_ifs
    · exact ⟨rfl, rfl, rfl⟩
    · exact ih _
    · exact ⟨rfl, rfl, rfl⟩

theorem codelens_body_ncode (s : inflate_stream) : (codelens_body s).1.ncode = s.ncode := by
  unfold codelens_body
  dsimp only
  split_ifs <;> rfl

theorem codelens_loop_ncode (k : Nat) :
    ∀ s : inflate_stream, (codelens_loop k s).1.ncode = s.ncode := by
  induction k with
  | zero => intro s; rfl
  | succ n ih =>
    intro s
    unfold codelens_loop
    split_ifs
    · have hb := codelens_body_ncode s
      rcases hcb : codelens_body s with ⟨s1, e⟩
      rw [hcb] at hb
      cases e
      · exact (ih s1).trans hb
      · exact hb
      · exact hb
    · rfl

theorem lenlens_read_far (k : Nat) :
    ∀ s : inflate_stream, s.ncode ≤ 19 → ∀ x, 19 ≤ x →
      (lenlens_read k s).1.lens.getD x 0 = s.lens.getD x 0 := by
  induction k with
  | zero => intro s _ x _; rfl
  | succ n ih =>
    intro s h19 x hx
    unfold lenlens_read
    dsimp only
    split_ifs with c1 c2
    · rfl
    · have key := ih (DROPBITS 3
        { NEEDBITS 3 s with
          lens := (NEEDBITS 3 s).lens.set (order.getD (NEEDBITS 3 s).have_ 0) (BITS 3 (NEEDBITS 3 s)),
          have_ := (NEEDBITS 3 s).have_ + 1 }) h19 x hx
      refine key.trans ?_
      show ((NEEDBITS 3 s).lens.set (order.getD (NEEDBITS 3 s).have_ 0)
        (BITS 3 (NEEDBITS 3 s))).getD x 0 = s.lens.getD x 0
      have hh : (NEEDBITS 3 s).have_ = s.have_ := rfl
      have hl : (NEEDBITS 3 s).lens = s.lens := rfl
      have := order_lt s.have_ (by omega)
      rw [hh, hl, getD_set, if_neg (by omega)]
    · rfl

theorem lenlens_zero_far (k : Nat) :
    ∀ s : inflate_stream, ∀ x, 19 ≤ x →
      (lenlens_zero k s).lens.getD x 0 = s.lens.getD x 0 := by
  induction k with
  | zero => intro s x _; rfl
  | succ n ih =>
    intro s x hx
    unfold lenlens_zero
    split_ifs with c
    · have key := ih { s with lens := s.lens.set (order.getD s.have_ 0) 0,
                              have_ := s.have_ + 1 } x hx
      refine key.trans ?_
      show (s.lens.set (order.getD s.have_ 0) 0).getD x 0 = s.lens.getD x 0
      have := order_lt s.have_ c
      rw [getD_set, if_neg (by omega)]
    · rfl

/-- C34: let a stream whose array `lens` has 320 entries be reset and then only passed to
`write`, on any input and any buffers.  (1) At every pass of the loop of every call the
array has 320 entries, and in the modes `LENLENS` and `CODELENS` `ncode <= 19` and
`nlen + ndist <= 316` (`lens_fit`).  (2) In a state `u` with `lens_fit`: the first loop of
`LENLENS` writes `lens[order[have]]` with `have < ncode`, hence `have < 19` and an index
below 19, the second with `have < 19` and an index below 19; both loops keep `lens_fit`
and leave the entries from 19 on alone; the slices given to the table builder,
`lens[0 .. 19)`, `lens[0 .. nlen)` and `lens[nlen .. nlen + ndist)`, and the entry
`lens[256]` lie in the array.  (3) In a state `u` of the loop of `CODELENS`
(`have < nlen + ndist`): a pass of the loop keeps `lens_fit`; when it goes on, it is again
a state of the loop, `have` has grown to at most `nlen + ndist <= 316`, only the entries
from the old to the new `have` were written, and if the symbol was 16 (the one that reads
`lens[have - 1]`) then `have >= 1`; when it does not go on, `lens` is as before.  The loop
as a whole keeps `lens_fit`. -/
theorem lens_bounds (tb : table_builder) (alloc : allocator) (fuel : Nat) (w : Nat)
    (t s0 : inflate_stream) (calls : List (buffers × Int)) (tr : List call_record)
    (b : buffers) (flush : Int) (v u : inflate_stream) (k : Nat)
    (htb : wf_builder tb) (hsc : short_codes tb) (hlen : t.lens.length = 320)
    (hreset : reset w t = some s0)
    (hs : session tb alloc fuel s0 calls = some tr)
    (hb : ∀ c ∈ calls, bytes c.1.next_in ∧ c.1.avail_out < 4294967296)
    (hbb : bytes b.next_in) (hbo : b.avail_out < 4294967296)
    (hv : visits tb flush b.avail_out (entry ((final_stream s0 tr).present b)) Z_OK v) :
    (v.lens.length = 320 ∧ ((v.mode = .LENLENS ∨ v.mode = .CODELENS) → lens_fit v) ∧
      Inv v) ∧
    (lens_fit u →
      (u.have_ < u.ncode → u.have_ < 19 ∧ order.getD u.have_ 0 < 19 ∧
        order.getD u.have_ 0 < u.lens.length) ∧
      (u.have_ < 19 → order.getD u.have_ 0 < 19 ∧ order.getD u.have_ 0 < u.lens.length) ∧
      lens_fit (lenlens_read k u).1 ∧ lens_fit (lenlens_zero k u) ∧
      (∀ x, 19 ≤ x → (lenlens_read k u).1.lens.getD x 0 = u.lens.getD x 0 ∧
        (lenlens_zero k u).lens.getD x 0 = u.lens.getD x 0) ∧
      (u.lens.take 19).length = 19 ∧ 256 < u.lens.length ∧
      (u.lens.take u.nlen).length = u.nlen ∧
      ((u.lens.drop u.nlen).take u.ndist).length = u.ndist ∧
      lens_fit (codelens_loop k u).1) ∧
    (lens_fit u → Inv u → u.mode = .CODELENS → u.have_ < u.nlen + u.ndist →
      lens_fit (codelens_body u).1 ∧ u.have_ < 316 ∧
      ((codelens_body u).2 = .go →
        (Inv (codelens_body u).1 ∧ (codelens_body u).1.mode = .CODELENS) ∧
        u.have_ < (codelens_body u).1.have_ ∧
        (codelens_body u).1.have_ ≤ u.nlen + u.ndist ∧ (codelens_body u).1.have_ ≤ 316 ∧
        (∀ x, x < u.have_ ∨ (codelens_body u).1.have_ ≤ x →
          (codelens_body u).1.lens.getD x 0 = u.lens.getD x 0) ∧
        ((cl_code u []).val = 16 → 1 ≤ u.have_)) ∧
      ((codelens_body u).2 ≠ .go → (codelens_body u).1.lens = u.lens)) := by
  have hp : Inv ((final_stream s0 tr).present b) :=
    session_Inv htb alloc fuel calls s0 tr hs (fun b2 hb2 => reset_Inv hreset b2 hb2) hb b hbb
  have hr : regs_ok (final_stream s0 tr) :=
    session_regs htb hsc alloc fuel calls s0 tr hs (fun b2 hb2 => reset_Inv hreset b2 hb2)
      (reset_regs hreset) hb
  obtain ⟨eo, en, -, -, -⟩ := entry_out ((final_stream s0 tr).present b)
  have ha : acct b.avail_out (entry ((final_stream s0 tr).present b)).next_out.length
      (entry ((final_stream s0 tr).present b)) :=
    ⟨le_refl _, by rw [eo]; show b.avail_out + _ = _; omega, hbo⟩
  have hrv : regs_ok v := visits_regs _ htb hsc hv (Inv_entry hp) ha
    (regs_ok_entry (regs_ok_of_eq hr rfl rfl rfl rfl rfl rfl))
  obtain ⟨hi, -, -⟩ := visits_good _ htb hv (Inv_entry hp) ha
  have hl : v.lens.length = 320 := by
    rw [ll_visits hv, ll_entry]
    show (final_stream s0 tr).lens.length = 320
    rw [ll_session tb alloc fuel calls s0 tr hs, reset_lens hreset]
    exact hlen
  refine ⟨⟨hl, fun hm => ?_, hi⟩, fun hu => ?_, fun hu hI hm hlt => ?_⟩
  · obtain ⟨⟨-, c1⟩, ⟨-, c2⟩, -, c3⟩ := hrv.2.1 (by rcases hm with hm | hm <;> rw [hm] <;> rfl)
    exact ⟨hl, c3, by omega⟩
  · obtain ⟨u1, u2, u3⟩ := hu
    obtain ⟨z1, z2, z3⟩ := lenlens_zero_counts k u
    obtain ⟨f1, f2⟩ := codelens_loop_frame k u
    refine ⟨fun h => ?_, fun h => ?_, ?_, ?_, fun x hx => ⟨?_, ?_⟩, ?_, by omega, ?_, ?_, ?_⟩
    · have := order_lt u.have_ (by omega)
      exact ⟨by omega, this, by omega⟩
    · have := order_lt u.have_ h
      exact ⟨this, by omega⟩
    · exact lens_fit_of_eq ⟨u1, u2, u3⟩ (ll_lenlens_read k u) (lenlens_read_counts k u).1
        (lenlens_read_counts k u).2.1 (lenlens_read_counts k u).2.2
    · exact lens_fit_of_eq ⟨u1, u2, u3⟩ (ll_lenlens_zero k u) z1 z2 z3
    · exact lenlens_read_far k u u2 x hx
    · exact lenlens_zero_far k u x hx
    · rw [List.length_take]; omega
    · rw [List.length_take]; omega
    · rw [List.length_take, List.length_drop]; omega
    · exact lens_fit_of_eq ⟨u1, u2, u3⟩ (ll_codelens_loop k u) (codelens_loop_ncode k u) f1 f2
  · obtain ⟨u1, u2, u3⟩ := hu
    obtain ⟨b1, b2, -⟩ := inv_codelens_body u hI hm hlt
    obtain ⟨g1, g2, -⟩ := codelens_body_frame u
    have hfit : lens_fit (codelens_body u).1 :=
      lens_fit_of_eq ⟨u1, u2, u3⟩ (ll_codelens_body u) (codelens_body_ncode u) g1 g2
    refine ⟨hfit, by omega, fun hg => ?_, fun hg => ?_⟩
    · obtain ⟨c1, c2, -⟩ := b2 hg
      rcases codelens_body_cases tb [] u hI hm hlt with c | c | c | c
      · rw [c.1] at hg; cases hg
      · obtain ⟨-, cv, -, c4, c5, -⟩ := c
        refine ⟨⟨b1, c1.2⟩, c2, by omega, by omega, fun x hx => ?_, fun h16 => ?_⟩
        · rw [c4, getD_set, if_neg (by omega)]
        · omega
      · obtain ⟨-, -, -, c4, c5, c6, c7, -⟩ := c
        refine ⟨⟨b1, c1.2⟩, c2, by omega, by omega, fun x hx => ?_, fun h16 => ?_⟩
        · rw [c6]
          exact fill_lens_far _ _ _ _ x (by omega)
        · by_contra h0
          exact c4 ⟨h16, by omega⟩
      · rw [c.1] at hg; cases hg
    · rcases codelens_body_cases tb [] u hI hm hlt with c | c | c | c
      · exact c.2.1
      · exact absurd c.1 hg
      · exact absurd c.1 hg
      · exact c.2.2.2.2.1

set_option maxRecDepth 100000 in
/-- Witness for `lens_bounds`: the call after the one that read the start of a dynamic
block begins in `LENLENS` with `have = 2 < ncode = 4`, and the bounds hold there. -/
theorem lens_bounds_witness :
    (entry ((final_stream (fresh 15)
      ((session no_tables zero_alloc 20 (fresh 15) dyn_start).getD [])).present
        ⟨false, [0], false, [], 10⟩)).mode = .LENLENS ∧
    lens_fit (entry ((final_stream (fresh 15)
      ((session no_tables zero_alloc 20 (fresh 15) dyn_start).getD [])).present
        ⟨false, [0], false, [], 10⟩)) := by
  have h := lens_bounds no_tables zero_alloc 20 15 zero_stream (fresh 15) dyn_start
    ((session no_tables zero_alloc 20 (fresh 15) dyn_start).getD [])
    ⟨false, [0], false, [], 10⟩ Z_NO_FLUSH _ zero_stream 0
    wf_no_tables short_no_tables rfl rfl (eq_some_getD _ (by decide!)) (by decide!)
    (by decide) (by decide) (visits.here _ _)
  exact ⟨by decide!, h.1.2.1 (Or.inl (by decide!))⟩

theorem match_wcount_pos {s : inflate_stream} {copy : Nat} (hl : 1 ≤ s.length)
    (h0 : s.avail_out ≠ 0) (hc : 1 ≤ copy) :
    1 ≤ match_wcount s copy ∧ match_wcount s copy ≤ min s.length s.avail_out ∧
    match_wcount s copy ≤ (if copy > s.wnext then copy - s.wnext else copy) := by
  unfold match_wcount
  split_ifs with c
  · refine ⟨?_, ?_, ?_⟩ <;> omega
  · refine ⟨?_, ?_, ?_⟩ <;> omega

theorem match_from_in {s : inflate_stream} {copy : Nat} (hw : win_shape s)
    (hws : s.wsize < 4294967296) (hc : copy ≤ s.whave) :
    match_from s copy + (if copy > s.wnext then copy - s.wnext else copy) ≤ s.whave := by
  obtain ⟨-, -, w3, w4, w5⟩ := hw
  unfold match_from
  split_ifs with c
  · have hfull : ¬ s.whave < s.wsize := fun hlt => by
      have := w5 hlt
      omega
    rw [usub_of_le (by omega) hws]
    omega
  · by_cases hlt : s.whave < s.wsize
    · have := w5 hlt
      omega
    · omega

/-- C33: the case `MATCH` on a state with `length >= 1` and `offset >= 1`, `E` being the
number of bytes the output buffer held when the call was entered.  A pass that copies
takes either `c = match_wcount` bytes from the window, when the source lies more than the
output of this call back, or `c = min length avail_out` bytes from the output.  In both
cases `1 <= c <= min length avail_out`, so that the `do ... while (--copy)` loop makes `c`
passes and not `2 ^ 32`.  The window bytes read are `window[from .. from + c)` with
`from + c <= whave <= wsize`, within the window and its valid part; the output bytes read
lie `offset` places before the byte written, at or after the position `E` where the
output of this call starts.  A pass that does not copy leaves (no room) or ends in `BAD`
(distance too far back).  If the mode is `MATCH` after the pass, `length >= 1` still
holds, with the same offset and window, so that all this holds of the next pass too. -/
theorem match_counts (out E : Nat) (s : inflate_stream) (ret : Int)
    (hl : 1 ≤ s.length) (ho : 1 ≤ s.offset) (hs : s.sane ≠ 0) (ha : acct out E s)
    (hw : win_shape s ∨ s.whave = 0) (hws : s.wsize < 4294967296) :
    (s.avail_out = 0 → case_MATCH out s ret = .leave s ret) ∧
    (s.avail_out ≠ 0 → s.offset > s.next_out.length - E →
      (s.offset - (s.next_out.length - E) > s.whave →
        case_MATCH out s ret =
          .cont { s with msg := some "invalid distance too far back", mode := .BAD } ret) ∧
      (s.offset - (s.next_out.length - E) ≤ s.whave →
        ∃ w, s.window = some w ∧ w.length = s.wsize ∧
          1 ≤ match_wcount s (s.offset - (s.next_out.length - E)) ∧
          match_wcount s (s.offset - (s.next_out.length - E)) ≤ min s.length s.avail_out ∧
          dowhile_count (match_wcount s (s.offset - (s.next_out.length - E))) =
            match_wcount s (s.offset - (s.next_out.length - E)) ∧
          match_from s (s.offset - (s.next_out.length - E)) +
            match_wcount s (s.offset - (s.next_out.length - E)) ≤ s.whave ∧
          s.whave ≤ s.wsize ∧
          case_MATCH out s ret = .cont (match_emit s
            (match_wcount s (s.offset - (s.next_out.length - E)))
            (s.next_out ++ wread w (match_from s (s.offset - (s.next_out.length - E)))
              (match_wcount s (s.offset - (s.next_out.length - E))))) ret)) ∧
    (s.avail_out ≠ 0 → s.offset ≤ s.next_out.length - E →
      1 ≤ min s.length s.avail_out ∧
      dowhile_count (min s.length s.avail_out) = min s.length s.avail_out ∧
      E ≤ s.next_out.length - s.offset ∧ s.next_out.length - s.offset < s.next_out.length ∧
      case_MATCH out s ret = .cont (match_emit s (min s.length s.avail_out)
        (out_copy s.offset (min s.length s.avail_out) s.next_out)) ret ∧
      ∀ i, i < min s.length s.avail_out →
        (out_copy s.offset (min s.length s.avail_out) s.next_out).getD
          (s.next_out.length + i) 0 =
        (out_copy s.offset (min s.length s.avail_out) s.next_out).getD
          (s.next_out.length + i - s.offset) 0) ∧
    ((case_MATCH out s ret).st.mode = .MATCH →
      1 ≤ (case_MATCH out s ret).st.length ∧
      (case_MATCH out s ret).st.length ≤ s.length ∧
      (case_MATCH out s ret).st.offset = s.offset ∧
      (case_MATCH out s ret).st.fixed = s.fixed ∧
      acct out E (case_MATCH out s ret).st) := by
  have hu := acct_usub ha
  refine ⟨fun h0 => ?_, fun h0 hfar => ⟨fun hbad => ?_, fun hok => ?_⟩, fun h0 hnear => ?_,
    fun hm => ?_⟩
  · unfold case_MATCH
    rw [if_pos h0]
  · unfold case_MATCH
    rw [if_neg h0]
    dsimp only
    rw [hu, if_pos hfar, if_pos ⟨hbad, hs⟩]
  · have hwh : s.whave ≠ 0 := by omega
    have hsh : win_shape s := by
      rcases hw with hw | hw
      · exact hw
      · exact absurd hw hwh
    obtain ⟨-, ⟨w, w1, w2⟩, -, w4, -⟩ := id hsh
    obtain ⟨p1, p2, p3⟩ := @match_wcount_pos s
      (s.offset - (s.next_out.length - E)) hl h0 (by omega)
    have hin := match_from_in hsh hws hok
    refine ⟨w, w1, w2, p1, p2, dowhile_pos p1, by omega, w4, ?_⟩
    unfold case_MATCH
    rw [if_neg h0]
    dsimp only
    rw [hu, if_pos hfar, if_neg (fun c => absurd c.1 (by omega)), w1, dowhile_pos p1]
    rfl
  · have p1 : 1 ≤ min s.length s.avail_out := by
      have : 1 ≤ s.avail_out := Nat.pos_of_ne_zero h0
      omega
    have hE := ha.1
    refine ⟨p1, dowhile_pos p1, by omega, by omega, ?_, fun i hi => ?_⟩
    · unfold case_MATCH
      rw [if_neg h0]
      dsimp only
      rw [hu, if_neg (by omega), dowhile_pos p1]
    · exact out_copy_get s.offset ho _ s.next_out i hi (by omega)
  · have he := emits_MATCH out s ret hl
    have key : ∀ n nout, (match_emit s n nout).mode = .MATCH →
        1 ≤ (match_emit s n nout).length ∧ (match_emit s n nout).length ≤ s.length ∧
        (match_emit s n nout).offset = s.offset ∧ (match_emit s n nout).fixed = s.fixed := by
      intro n nout hmm
      unfold match_emit at hmm ⊢
      dsimp only at hmm ⊢
      by_cases c : s.length - n = 0
      · rw [if_pos c] at hmm
        cases hmm
      · rw [if_neg c]
        exact ⟨Nat.pos_of_ne_zero c, Nat.sub_le _ _, rfl, rfl⟩
    have main : 1 ≤ (case_MATCH out s ret).st.length ∧
        (case_MATCH out s ret).st.length ≤ s.length ∧
        (case_MATCH out s ret).st.offset = s.offset ∧
        (case_MATCH out s ret).st.fixed = s.fixed := by
      unfold case_MATCH at hm ⊢
      dsimp only at hm ⊢
      split_ifs at hm ⊢
      · exact ⟨hl, le_refl _, rfl, rfl⟩
      · cases hm
      · exact key _ _ hm
      · exact key _ _ hm
    exact ⟨main.1, main.2.1, main.2.2.1, main.2.2.2, acct_emits ha he⟩

/-- Witness for `match_counts`: the match of "abcabc" is copied from the output of the
call, three bytes in one pass. -/
theorem match_counts_witness :
    1 ≤ min match_state.length match_state.avail_out ∧
    dowhile_count (min match_state.length match_state.avail_out) =
      min match_state.length match_state.avail_out ∧
    case_MATCH 258 match_state Z_OK = .cont (match_emit match_state
      (min match_state.length match_state.avail_out)
      (out_copy match_state.offset (min match_state.length match_state.avail_out)
        match_state.next_out)) Z_OK := by
  have h := (match_counts 258 0 match_state Z_OK (by decide) (by decide) (by decide)
    ⟨by decide, by decide, by decide⟩ (Or.inr rfl) (by decide)).2.2.1 (by decide) (by decide)
  exact ⟨h.1, h.2.1, h.2.2.2.2.1⟩

theorem down_of {s t : inflate_stream} {o : outcome} (h : down t o) (h1 : t.slen ≤ s.slen)
    (h2 : t.next_in.length ≤ s.next_in.length) (h3 : t.avail_out = s.avail_out)
    (h4 : t.mode.phase ≤ s.mode.phase) (h5 : s.mode.rank ≤ t.mode.rank) : down s o := by
  obtain ⟨a, b, c, d⟩ := h
  refine ⟨by omega, by omega, by omega, fun hc => ?_⟩
  obtain ⟨d1, d2⟩ := d hc
  refine ⟨by omega, ?_⟩
  rcases d2 with d2 | d2 | d2 | d2
  · exact Or.inl (by omega)
  · exact Or.inr (Or.inl (by omega))
  · exact Or.inr (Or.inr (Or.inl (by omega)))
  · exact Or.inr (Or.inr (Or.inr d2))

theorem pull_below (s : inflate_stream) (need : Nat → Nat → Bool) :
    (s.pull need).slen = s.slen ∧ (s.pull need).next_in.length ≤ s.next_in.length := by
  obtain ⟨k, hp, -, -⟩ := pull_spec s need
  refine ⟨pulled_slen hp, ?_⟩
  rw [hp.2.2.2, List.length_drop]
  omega

theorem pg_LIT (s : inflate_stream) (ret : Int) :
    down s (case_LIT s ret) := by
  unfold case_LIT
  split_ifs with c
  · exact ⟨le_refl _, le_refl _, le_refl _, fun h => by cases h⟩
  · refine ⟨le_refl _, le_refl _, Nat.sub_le _ _, fun _ => ⟨Or.inr (Or.inl ?_), Or.inr (Or.inl ?_)⟩⟩
    · show s.avail_out - 1 < s.avail_out
      omega
    · show s.avail_out - 1 < s.avail_out
      omega

theorem match_emit_down (s : inflate_stream) (n : Nat) (W : List Nat) (ret : Int)
    (h1 : 1 ≤ n) (h2 : n ≤ s.avail_out) : down s (.cont (match_emit s n W) ret) := by
  have e1 : (match_emit s n W).avail_out = s.avail_out - n := by
    unfold match_emit; dsimp only; split_ifs <;> rfl
  have e2 : (match_emit s n W).next_in = s.next_in := by
    unfold match_emit; dsimp only; split_ifs <;> rfl
  have e3 : (match_emit s n W).bits = s.bits := by
    unfold match_emit; dsimp only; split_ifs <;> rfl
  refine ⟨?_, ?_, ?_, fun _ => ⟨Or.inr (Or.inl ?_), Or.inr (Or.inl ?_)⟩⟩
  · show (match_emit s n W).bits + 8 * (match_emit s n W).next_in.length ≤ _
    rw [e2, e3]
    exact le_refl _
  · show (match_emit s n W).next_in.length ≤ _
    rw [e2]
  · show (match_emit s n W).avail_out ≤ _
    rw [e1]
    omega
  · show (match_emit s n W).avail_out < _
    rw [e1]
    omega
  · show (match_emit s n W).avail_out < _
    rw [e1]
    omega

theorem pg_MATCH (out : Nat) (s : inflate_stream) (ret : Int) (hm : s.mode = .MATCH)
    (hl : 1 ≤ s.length) : down s (case_MATCH out s ret) := by
  unfold case_MATCH
  dsimp only
  split_ifs with c1 c2 c3
  · exact ⟨le_refl _, le_refl _, le_refl _, fun h => by cases h⟩
  · refine ⟨le_refl _, le_refl _, le_refl _, fun _ => ⟨Or.inr (Or.inr ?_), Or.inr (Or.inr (Or.inl ?_))⟩⟩
    · show Mode.phase .BAD < s.mode.phase
      rw [hm]
      decide
    · show s.mode.rank < Mode.rank .BAD
      rw [hm]
      decide
  · refine match_emit_down _ _ _ _ ?_ ?_
    · unfold match_wcount
      split_ifs <;> omega
    · unfold match_wcount
      exact Nat.min_le_right _ _
  · exact match_emit_down _ _ _ _ (by omega) (Nat.min_le_right _ _)

theorem NEEDBITS_below (n : Nat) (s : inflate_stream) :
    (NEEDBITS n s).bits + 8 * (NEEDBITS n s).next_in.length = s.bits + 8 * s.next_in.length ∧
    (NEEDBITS n s).next_in.length ≤ s.next_in.length :=
  pull_below s _

theorem lookup1_below (s : inflate_stream) (p : codeptr) (tbits : Nat) :
    (lookup1 s p tbits).bits + 8 * (lookup1 s p tbits).next_in.length =
      s.bits + 8 * s.next_in.length ∧
    (lookup1 s p tbits).next_in.length ≤ s.next_in.length :=
  pull_below s _

theorem lookup2_below (s : inflate_stream) (p : codeptr) (last : code) :
    (lookup2 s p last).bits + 8 * (lookup2 s p last).next_in.length =
      s.bits + 8 * s.next_in.length ∧
    (lookup2 s p last).next_in.length ≤ s.next_in.length :=
  pull_below s _

theorem drop_last_below (last : code) (s : inflate_stream) :
    (drop_last last s).bits + 8 * (drop_last last s).next_in.length ≤
      s.bits + 8 * s.next_in.length := by
  show s.bits - last.bits + 8 * s.next_in.length ≤ _
  omega

theorem down_leave {s t : inflate_stream} (ret : Int)
    (h1 : t.bits + 8 * t.next_in.length ≤ s.bits + 8 * s.next_in.length)
    (h2 : t.next_in.length ≤ s.next_in.length) (h3 : t.avail_out ≤ s.avail_out) :
    down s (.leave t ret) :=
  ⟨h1, h2, h3, fun h => by cases h⟩

theorem down_mode {s t : inflate_stream} (ret : Int)
    (h1 : t.bits + 8 * t.next_in.length ≤ s.bits + 8 * s.next_in.length)
    (h2 : t.next_in.length ≤ s.next_in.length) (h3 : t.avail_out ≤ s.avail_out)
    (h4 : t.mode.phase < s.mode.phase) (h5 : s.mode.rank < t.mode.rank ∨ t.mode = .TYPE) :
    down s (.cont t ret) :=
  ⟨h1, h2, h3, fun _ => ⟨Or.inr (Or.inr h4), Or.inr (Or.inr h5)⟩⟩

theorem pg_DISTEXT (out : Nat) (s : inflate_stream) (ret : Int) (hm : s.mode = .DISTEXT)
    (hl : 1 ≤ s.length) : down s (case_DISTEXT out s ret) := by
  obtain ⟨n1, n2⟩ := NEEDBITS_below s.extra s
  unfold case_DISTEXT
  dsimp only
  split_ifs with c1 c2
  · exact down_leave _ (le_of_eq n1) n2 (le_refl _)
  · refine down_of (pg_MATCH out _ ret rfl hl) ?_ n2 rfl ?_ ?_
    · show (NEEDBITS s.extra s).bits - _ + 8 * (NEEDBITS s.extra s).next_in.length ≤
        s.bits + 8 * s.next_in.length
      omega
    · show Mode.phase .MATCH ≤ s.mode.phase
      rw [hm]; decide
    · show s.mode.rank ≤ Mode.rank .MATCH
      rw [hm]; decide
  · refine down_of (pg_MATCH out _ ret rfl hl) (le_refl _) (le_refl _) rfl ?_ ?_
    · show Mode.phase .MATCH ≤ s.mode.phase
      rw [hm]; decide
    · show s.mode.rank ≤ Mode.rank .MATCH
      rw [hm]; decide

theorem pg_dist_go (out : Nat) (s : inflate_stream) (here : code) (ret : Int)
    (hm : s.mode = .DIST) (hl : 1 ≤ s.length) : down s (dist_go out s here ret) := by
  unfold dist_go
  dsimp only
  split_ifs with c1
  · refine down_mode _ ?_ (le_refl _) (le_refl _) ?_ (Or.inl ?_)
    · show s.bits - _ + 8 * s.next_in.length ≤ s.bits + 8 * s.next_in.length
      omega
    · show Mode.phase .BAD < s.mode.phase
      rw [hm]; decide
    · show s.mode.rank < Mode.rank .BAD
      rw [hm]; decide
  · refine down_of (pg_DISTEXT out _ ret rfl hl) ?_ (le_refl _) rfl ?_ ?_
    · show s.bits - _ + 8 * s.next_in.length ≤ s.bits + 8 * s.next_in.length
      omega
    · show Mode.phase .DISTEXT ≤ s.mode.phase
      rw [hm]; decide
    · show s.mode.rank ≤ Mode.rank .DISTEXT
      rw [hm]; decide

theorem pg_DIST (out : Nat) (s : inflate_stream) (ret : Int) (hm : s.mode = .DIST)
    (hl : 1 ≤ s.length) : down s (case_DIST out s ret) := by
  obtain ⟨n1, n2⟩ := lookup1_below s s.distcode s.distbits
  obtain ⟨m1, m2⟩ := lookup2_below (lookup1 s s.distcode s.distbits) s.distcode
    (here1 (lookup1 s s.distcode s.distbits) s.distcode s.distbits)
  unfold case_DIST
  dsimp only
  split_ifs with c1 c2 c3
  · exact down_leave _ (le_of_eq n1) n2 (le_refl _)
  · exact down_leave _ (le_of_eq (m1.trans n1)) (m2.trans n2) (le_refl _)
  · exact down_of (pg_dist_go out _ _ ret hm hl)
      ((drop_last_below _ _).trans (le_of_eq (m1.trans n1))) (m2.trans n2) rfl (le_refl _)
      (le_refl _)
  · exact down_of (pg_dist_go out _ _ ret hm hl) (le_of_eq n1) n2 rfl (le_refl _) (le_refl _)

theorem pg_LENEXT (out : Nat) (s : inflate_stream) (ret : Int) (hm : s.mode = .LENEXT)
    (hl : 1 ≤ s.length) : down s (case_LENEXT out s ret) := by
  obtain ⟨n1, n2⟩ := NEEDBITS_below s.extra s
  unfold case_LENEXT
  dsimp only
  split_ifs with c1 c2
  · exact down_leave _ (le_of_eq n1) n2 (le_refl _)
  · refine down_of (pg_DIST out _ ret rfl ?_) ?_ n2 rfl ?_ ?_
    · show 1 ≤ s.length + _
      omega
    · show (NEEDBITS s.extra s).bits - _ + 8 * (NEEDBITS s.extra s).next_in.length ≤
        s.bits + 8 * s.next_in.length
      omega
    · show Mode.phase .DIST ≤ s.mode.phase
      rw [hm]; decide
    · show s.mode.rank ≤ Mode.rank .DIST
      rw [hm]; decide
  · refine down_of (pg_DIST out _ ret rfl hl) (le_refl _) (le_refl _) rfl ?_ ?_
    · show Mode.phase .DIST ≤ s.mode.phase
      rw [hm]; decide
    · show s.mode.rank ≤ Mode.rank .DIST
      rw [hm]; decide

theorem pg_len_go (out : Nat) (s : inflate_stream) (here : code) (ret : Int)
    (hm : s.mode = .LEN) (ht : len_term here = true) : down s (len_go out s here ret) := by
  have hb : s.bits - here.bits + 8 * s.next_in.length ≤ s.bits + 8 * s.next_in.length := by
    omega
  unfold len_go
  dsimp only
  split_ifs with c1 c2 c3
  · refine down_mode _ hb (le_refl _) (le_refl _) ?_ (Or.inl ?_)
    · show Mode.phase .LIT < s.mode.phase
      rw [hm]; decide
    · show s.mode.rank < Mode.rank .LIT
      rw [hm]; decide
  · refine down_mode _ hb (le_refl _) (le_refl _) ?_ (Or.inr rfl)
    show Mode.phase .TYPE < s.mode.phase
    rw [hm]; decide
  · refine down_mode _ hb (le_refl _) (le_refl _) ?_ (Or.inl ?_)
    · show Mode.phase .BAD < s.mode.phase
      rw [hm]; decide
    · show s.mode.rank < Mode.rank .BAD
      rw [hm]; decide
  · have := (len_base ht c1 (not_not.mp c3)).2.1
    refine down_of (pg_LENEXT out _ ret rfl ?_) hb (le_refl _) rfl ?_ ?_
    · show 1 ≤ here.val
      omega
    · show Mode.phase .LENEXT ≤ s.mode.phase
      rw [hm]; decide
    · show s.mode.rank ≤ Mode.rank .LENEXT
      rw [hm]; decide

theorem pg_LEN_slow (out : Nat) (s : inflate_stream) (ret : Int) (hm : s.mode = .LEN)
    (hwl : wf_len s) : down s (case_LEN_slow out s ret) := by
  have hwl : wf_table len_term (s.tab s.lencode) s.lenbits = true := hwl
  obtain ⟨n1, n2⟩ := lookup1_below { s with back := 0 } s.lencode s.lenbits
  obtain ⟨m1, m2⟩ := lookup2_below (lookup1 { s with back := 0 } s.lencode s.lenbits) s.lencode
    (here1 (lookup1 { s with back := 0 } s.lencode s.lenbits) s.lencode s.lenbits)
  have n1 : (lookup1 { s with back := 0 } s.lencode s.lenbits).bits +
      8 * (lookup1 { s with back := 0 } s.lencode s.lenbits).next_in.length =
      s.bits + 8 * s.next_in.length := n1
  have n2 : (lookup1 { s with back := 0 } s.lencode s.lenbits).next_in.length ≤
      s.next_in.length := n2
  have hi : (lookup1 { s with back := 0 } s.lencode s.lenbits).hold % 2 ^ s.lenbits <
      2 ^ s.lenbits := pow_mod_lt _ _
  unfold case_LEN_slow
  dsimp only
  split_ifs with c1 c2 c3
  · exact down_leave _ (le_of_eq n1) n2 (le_refl _)
  · exact down_leave _ (le_of_eq (m1.trans n1)) (m2.trans n2) (le_refl _)
  · have hl : is_link (s.tab s.lencode
        ((lookup1 { s with back := 0 } s.lencode s.lenbits).hold % 2 ^ s.lenbits)).op = true :=
      (len_link_iff hwl hi).mp c2
    have h2 := (wf_second hwl hi hl (j := (lookup2 (lookup1 { s with back := 0 } s.lencode
      s.lenbits) s.lencode (here1 (lookup1 { s with back := 0 } s.lencode s.lenbits) s.lencode
      s.lenbits)).hold % 2 ^ ((here1 (lookup1 { s with back := 0 } s.lencode s.lenbits)
      s.lencode s.lenbits).bits + (here1 (lookup1 { s with back := 0 } s.lencode s.lenbits)
      s.lencode s.lenbits).op) / 2 ^ (here1 (lookup1 { s with back := 0 } s.lencode s.lenbits)
      s.lencode s.lenbits).bits) (by
        apply Nat.div_lt_of_lt_mul
        rw [← pow_add]
        exact pow_mod_lt _ _)).2.2.2.1
    exact down_of (pg_len_go out _ _ ret hm h2)
      ((drop_last_below _ _).trans (le_of_eq (m1.trans n1))) (m2.trans n2) rfl (le_refl _)
      (le_refl _)
  · have hl : is_link (s.tab s.lencode
        ((lookup1 { s with back := 0 } s.lencode s.lenbits).hold % 2 ^ s.lenbits)).op = false := by
      rcases hq : is_link (s.tab s.lencode
        ((lookup1 { s with back := 0 } s.lencode s.lenbits).hold % 2 ^ s.lenbits)).op
      · rfl
      · exact absurd ((len_link_iff hwl hi).mpr hq) c2
    exact down_of (pg_len_go out _ _ ret hm (wf_term hwl hi hl)) (le_of_eq n1) n2 rfl
      (le_refl _) (le_refl _)

theorem fast_ready_step {out E : Nat} {tb : table_builder} {fuel : Nat} {flush : Int}
    {s : inflate_stream} {ret : Int} {o : outcome} (htb : wf_builder tb)
    (h : fast_ready out E s) (hs : step tb fuel flush out s ret = some o) :
    fast_ready out E o.st := by
  obtain ⟨h1, h2, h3, h4⟩ := h
  obtain ⟨g1, g2⟩ := good_step out E htb h1 h2 hs
  have hf := step_fixed hs
  have e1 : o.st.wsize = s.wsize := congrArg fixed_part.wsize hf
  have e2 : o.st.whave = s.whave := congrArg fixed_part.whave hf
  have e3 : o.st.wnext = s.wnext := congrArg fixed_part.wnext hf
  have e4 : o.st.window = s.window := congrArg fixed_part.window hf
  have e5 : o.st.wbits = s.wbits := congrArg fixed_part.wbits hf
  refine ⟨g1, acct_emits h2 g2, ?_, by rw [e5]; exact h4⟩
  unfold win_shape
  rw [e1, e2, e3, e4, e5]
  exact h3

theorem fast_loop_wrote (s : inflate_stream) (inp : List Nat) (beg out0 last end_ : Nat)
    (hwl : wf_len s) (hw : wf_dist s) :
    ∀ (fuel : Nat) (l l1 : fast_locals),
      fast_loop s inp beg out0 last end_ fuel l = some (.test l1) →
      l.out.length < l1.out.length := by
  intro fuel
  induction fuel with
  | zero => intro l l1 h; simp [fast_loop] at h
  | succ n ih =>
    intro l l1 h
    unfold fast_loop at h
    dsimp only at h
    split at h
    · cases h
    · cases h
    · rename_i l2 hd
      obtain ⟨W, a, b, c⟩ := fast_dolen_first s inp beg out0 hwl hw n _ (pow_mod_lt _ _) _ _ hd
      rw [refill_out] at a
      have hl2 : l.out.length < l2.out.length := by
        rw [a, List.length_append]
        omega
      split_ifs at h with hc
      · exact lt_trans hl2 (ih l2 l1 h)
      · cases h
        exact hl2

/-- A call of the fast decoder that comes back in the mode `LEN` has written a byte. -/
theorem fast_wrote {fuel : Nat} {s s1 : inflate_stream} {start : Nat} (hwl : wf_len s)
    (hw : wf_dist s) (h258 : 258 ≤ s.avail_out) (hlt : s.avail_out < 4294967296)
    (hf : inflate_fast fuel s start = some s1) :
    s1.avail_out ≤ s.avail_out ∧
    (s1.avail_out < s.avail_out ∨ s1.mode = .TYPE ∨ s1.mode = .BAD) := by
  obtain ⟨W, a, b⟩ := emits_fast hwl hw h258 hlt hf
  refine ⟨by omega, ?_⟩
  unfold inflate_fast at hf
  dsimp only at hf
  split at hf
  · cases hf
  · rename_i r hr
    cases r with
    | test l =>
      left
      have := fast_loop_wrote s s.next_in _ _ _ _ hwl hw fuel _ l hr
      have this : s.next_out.length < l.out.length := this
      have e : s1.next_out = l.out := by cases hf; rfl
      rw [e] at a
      rw [a, List.length_append] at this
      omega
    | brk l m msg =>
      right
      have := fast_loop_brk _ _ _ _ _ _ _ _ _ _ _ hr
      have e : s1.mode = m := by cases hf; rfl
      rw [e]
      exact this

theorem pg_LEN {fuel out E : Nat} {s : inflate_stream} {ret : Int} {o : outcome}
    (hr : fast_ready out E s) (hm : s.mode = .LEN_ ∨ s.mode = .LEN)
    (hc : case_LEN fuel out s ret = some o) : down s o := by
  obtain ⟨h, ha, hw, h15⟩ := hr
  have hI := Inv_LEN_of h hm
  have hwf := me_LEN hI.regs (Or.inr (Or.inl rfl))
  have hp : Mode.phase .LEN ≤ s.mode.phase := by
    rcases hm with hm | hm
    · rw [hm]; decide
    · rw [hm]
  have hk : s.mode.rank ≤ Mode.rank .LEN := by
    rcases hm with hm | hm
    · rw [hm]; decide
    · rw [hm]
  unfold case_LEN at hc
  dsimp only at hc
  split_ifs at hc with h1
  · split at hc
    · cases hc
    · rename_i s1 hf
      cases hc
      have hctx : fast_ctx out E ({ s with mode := .LEN } : inflate_stream).win
          { s with mode := .LEN } := ⟨hI, rfl, acct_of_eq ha rfl rfl, wctx_win hw h15⟩
      obtain ⟨n, c, e1, e2, e3, e4, e5⟩ := fast_exit_core out E _ _ hctx h1.1 h1.2 hf
      have hlt : s.avail_out < 4294967296 := by have := ha.2.1; have := ha.2.2; omega
      obtain ⟨w1, w2⟩ := fast_wrote hwf.1 hwf.2 h1.2 hlt hf
      have w1 : s1.avail_out ≤ s.avail_out := w1
      have e5 : s1.slen ≤ s.slen := by
        rw [e5]
        exact Nat.sub_le _ _
      have e6 : s1.next_in.length ≤ s.next_in.length := by
        rw [e2, List.length_drop]
        exact Nat.sub_le _ _
      have hgo : ∀ t : inflate_stream, t.slen = s1.slen → t.next_in = s1.next_in →
          t.avail_out = s1.avail_out → t.mode = s1.mode → down s (.cont t ret) := by
        intro t t1 t2 t3 t4
        refine ⟨by show t.slen ≤ _; omega, by show t.next_in.length ≤ _; rw [t2]; exact e6,
          by show t.avail_out ≤ _; omega, fun _ => ?_⟩
        show (t.slen < _ ∨ t.avail_out < _ ∨ t.mode.phase < _) ∧
          (t.next_in.length < _ ∨ t.avail_out < _ ∨ _ < t.mode.rank ∨ t.mode = .TYPE)
        rw [t3, t4]
        rcases w2 with w2 | w2 | w2
        · exact ⟨Or.inr (Or.inl w2), Or.inr (Or.inl w2)⟩
        · rw [w2]
          exact ⟨Or.inr (Or.inr (lt_of_lt_of_le (by decide) hp)), Or.inr (Or.inr (Or.inr rfl))⟩
        · rw [w2]
          refine ⟨Or.inr (Or.inr (lt_of_lt_of_le (by decide) hp)),
            Or.inr (Or.inr (Or.inl (lt_of_le_of_lt hk (by decide))))⟩
      split_ifs with c
      · exact hgo _ rfl rfl rfl rfl
      · exact hgo _ rfl rfl rfl rfl
  · cases hc
    exact down_of (pg_LEN_slow out _ ret rfl hwf.1) (le_refl _) (le_refl _) rfl hp hk

theorem pg_COPY (s : inflate_stream) (ret : Int) (hm : s.mode = .COPY_ ∨ s.mode = .COPY) :
    down s (case_COPY s ret) := by
  have hp : Mode.phase .TYPE < s.mode.phase := by
    rcases hm with hm | hm
    · rw [hm]; decide
    · rw [hm]; decide
  unfold case_COPY
  dsimp only
  split_ifs with c1 c2
  · exact down_leave _ (le_refl _) (le_refl _) (le_refl _)
  · have hc : min (min s.length s.next_in.length) s.avail_out ≠ 0 := c2
    have h1 : min (min s.length s.next_in.length) s.avail_out ≤ s.avail_out :=
      Nat.min_le_right _ _
    refine ⟨?_, ?_, ?_, fun _ => ⟨Or.inr (Or.inl ?_), Or.inr (Or.inl ?_)⟩⟩
    · show s.bits + 8 * (s.next_in.drop _).length ≤ s.bits + 8 * s.next_in.length
      rw [List.length_drop]
      omega
    · show (s.next_in.drop _).length ≤ _
      rw [List.length_drop]
      omega
    · show s.avail_out - _ ≤ _
      omega
    · show s.avail_out - min (min s.length s.next_in.length) s.avail_out < s.avail_out
      omega
    · show s.avail_out - min (min s.length s.next_in.length) s.avail_out < s.avail_out
      omega
  · exact down_mode _ (le_refl _) (le_refl _) (le_refl _) hp (Or.inr rfl)

theorem pg_STORED (flush : Int) (s : inflate_stream) (ret : Int) (hm : s.mode = .STORED) :
    down s (case_STORED flush s ret) := by
  obtain ⟨n1, n2⟩ := NEEDBITS_below 32 (BYTEBITS s)
  have n1 : (NEEDBITS 32 (BYTEBITS s)).bits + 8 * (NEEDBITS 32 (BYTEBITS s)).next_in.length =
      s.bits - s.bits % 8 + 8 * s.next_in.length := n1
  have n2 : (NEEDBITS 32 (BYTEBITS s)).next_in.length ≤ s.next_in.length := n2
  unfold case_STORED
  dsimp only
  split_ifs with c1 c2 c3
  · exact down_leave _ (by omega) n2 (le_refl _)
  · refine down_mode _ ?_ n2 (le_refl _) ?_ (Or.inl ?_)
    · show (NEEDBITS 32 (BYTEBITS s)).bits + 8 * (NEEDBITS 32 (BYTEBITS s)).next_in.length ≤ _
      omega
    · show Mode.phase .BAD < s.mode.phase
      rw [hm]; decide
    · show s.mode.rank < Mode.rank .BAD
      rw [hm]; decide
  · refine down_leave _ ?_ n2 (le_refl _)
    show 0 + 8 * (NEEDBITS 32 (BYTEBITS s)).next_in.length ≤ _
    omega
  · refine down_of (pg_COPY _ ret (Or.inl rfl)) ?_ n2 rfl ?_ ?_
    · show 0 + 8 * (NEEDBITS 32 (BYTEBITS s)).next_in.length ≤ s.bits + 8 * s.next_in.length
      omega
    · show Mode.phase .COPY_ ≤ s.mode.phase
      rw [hm]; decide
    · show s.mode.rank ≤ Mode.rank .COPY_
      rw [hm]; decide

theorem down_take {s t : inflate_stream} (ret : Int)
    (h1 : t.bits + 8 * t.next_in.length < s.bits + 8 * s.next_in.length)
    (h2 : t.next_in.length ≤ s.next_in.length) (h3 : t.avail_out ≤ s.avail_out)
    (h5 : s.mode.rank < t.mode.rank ∨ t.mode = .TYPE) : down s (.cont t ret) :=
  ⟨le_of_lt h1, h2, h3, fun _ => ⟨Or.inl h1, Or.inr (Or.inr h5)⟩⟩

theorem pg_TYPEDO (flush : Int) (s : inflate_stream) (ret : Int)
    (hm : s.mode = .TYPE ∨ s.mode = .TYPEDO) : down s (case_TYPEDO flush s ret) := by
  obtain ⟨n1, n2⟩ := NEEDBITS_below 3 s
  have hk : s.mode.rank ≤ 2 := by
    rcases hm with hm | hm
    · rw [hm]; decide
    · rw [hm]; decide
  have hp : 4 ≤ s.mode.phase := by
    rcases hm with hm | hm
    · rw [hm]; decide
    · rw [hm]; decide
  unfold case_TYPEDO
  by_cases h1 : s.last ≠ 0
  · rw [if_pos h1]
    refine down_mode _ ?_ (le_refl _) (le_refl _) ?_ (Or.inl ?_)
    · show s.bits - s.bits % 8 + 8 * s.next_in.length ≤ _
      omega
    · show Mode.phase .CHECK < s.mode.phase
      exact lt_of_lt_of_le (show Mode.phase .CHECK < 4 by decide) hp
    · show s.mode.rank < Mode.rank .CHECK
      exact lt_of_le_of_lt hk (show 2 < Mode.rank .CHECK by decide)
  · rw [if_neg h1]
    dsimp only
    by_cases h2 : (NEEDBITS 3 s).bits < 3
    · rw [if_pos h2]
      exact down_leave _ (le_of_eq n1) n2 (le_refl _)
    · rw [if_neg h2]
      have hb : (NEEDBITS 3 s).bits - 1 - 2 + 8 * (NEEDBITS 3 s).next_in.length <
          s.bits + 8 * s.next_in.length := by omega
      split
      · exact down_take _ hb n2 (le_refl _)
          (Or.inl (lt_of_le_of_lt hk (show 2 < Mode.rank .STORED by decide)))
      · split_ifs
        · exact down_leave _ (le_of_lt hb) n2 (le_refl _)
        · exact down_take _ hb n2 (le_refl _)
            (Or.inl (lt_of_le_of_lt hk (show 2 < Mode.rank .LEN_ by decide)))
      · exact down_take _ hb n2 (le_refl _)
          (Or.inl (lt_of_le_of_lt hk (show 2 < Mode.rank .TABLE by decide)))
      · exact down_take _ hb n2 (le_refl _)
          (Or.inl (lt_of_le_of_lt hk (show 2 < Mode.rank .BAD by decide)))

theorem pg_TYPE (flush : Int) (s : inflate_stream) (ret : Int) (hm : s.mode = .TYPE) :
    down s (case_TYPE flush s ret) := by
  unfold case_TYPE
  split_ifs
  · exact down_leave _ (le_refl _) (le_refl _) (le_refl _)
  · exact pg_TYPEDO flush s ret (Or.inl hm)

theorem below_of {t u s : inflate_stream} (hb : t.bits ≤ u.bits) (hn : t.next_in = u.next_in)
    (h : u.bits + 8 * u.next_in.length = s.bits + 8 * s.next_in.length ∧
      u.next_in.length ≤ s.next_in.length) :
    t.bits + 8 * t.next_in.length ≤ s.bits + 8 * s.next_in.length ∧
    t.next_in.length ≤ s.next_in.length := by
  rw [hn]
  exact ⟨by omega, h.2⟩

theorem codelens_body_below (s : inflate_stream) :
    (codelens_body s).1.bits + 8 * (codelens_body s).1.next_in.length ≤
      s.bits + 8 * s.next_in.length ∧
    (codelens_body s).1.next_in.length ≤ s.next_in.length := by
  have n := lookup1_below s s.lencode s.lenbits
  have key : ∀ n, (NEEDBITS n (lookup1 s s.lencode s.lenbits)).bits +
        8 * (NEEDBITS n (lookup1 s s.lencode s.lenbits)).next_in.length =
      s.bits + 8 * s.next_in.length ∧
      (NEEDBITS n (lookup1 s s.lencode s.lenbits)).next_in.length ≤ s.next_in.length := by
    intro k
    obtain ⟨m1, m2⟩ := NEEDBITS_below k (lookup1 s s.lencode s.lenbits)
    exact ⟨m1.trans n.1, m2.trans n.2⟩
  unfold codelens_body
  dsimp only
  split_ifs
  · exact below_of (le_refl _) rfl n
  · exact below_of (Nat.sub_le _ _) rfl n
  · exact below_of (le_refl _) rfl (key _)
  · exact below_of (Nat.sub_le _ _) rfl (key _)
  · exact below_of ((Nat.sub_le _ _).trans (Nat.sub_le _ _)) rfl (key _)
  · exact below_of ((Nat.sub_le _ _).trans (Nat.sub_le _ _)) rfl (key _)

theorem codelens_loop_below (k : Nat) :
    ∀ s : inflate_stream,
      (codelens_loop k s).1.bits + 8 * (codelens_loop k s).1.next_in.length ≤
        s.bits + 8 * s.next_in.length ∧
      (codelens_loop k s).1.next_in.length ≤ s.next_in.length := by
  induction k with
  | zero => intro s; exact ⟨le_refl _, le_refl _⟩
  | succ n ih =>
    intro s
    unfold codelens_loop
    split_ifs
    · have hb := codelens_body_below s
      split
      · rename_i s1 heq
        rw [heq] at hb
        obtain ⟨h1, h2⟩ := ih s1
        exact ⟨h1.trans hb.1, h2.trans hb.2⟩
      · exact hb
    · exact ⟨le_refl _, le_refl _⟩

theorem lenlens_read_below (k : Nat) :
    ∀ s : inflate_stream,
      (lenlens_read k s).1.bits + 8 * (lenlens_read k s).1.next_in.length ≤
        s.bits + 8 * s.next_in.length ∧
      (lenlens_read k s).1.next_in.length ≤ s.next_in.length := by
  induction k with
  | zero => intro s; exact ⟨le_refl _, le_refl _⟩
  | succ n ih =>
    intro s
    obtain ⟨n1, n2⟩ := NEEDBITS_below 3 s
    unfold lenlens_read
    dsimp only
    split_ifs
    · exact ⟨le_of_eq n1, n2⟩
    · obtain ⟨h1, h2⟩ := ih (DROPBITS 3
        { NEEDBITS 3 s with
          lens := (NEEDBITS 3 s).lens.set (order.getD (NEEDBITS 3 s).have_ 0) (BITS 3 (NEEDBITS 3 s)),
          have_ := (NEEDBITS 3 s).have_ + 1 })
      have hb := @below_of (DROPBITS 3
        { NEEDBITS 3 s with
          lens := (NEEDBITS 3 s).lens.set (order.getD (NEEDBITS 3 s).have_ 0) (BITS 3 (NEEDBITS 3 s)),
          have_ := (NEEDBITS 3 s).have_ + 1 }) (NEEDBITS 3 s) s (Nat.sub_le _ _) rfl ⟨n1, n2⟩
      exact ⟨h1.trans hb.1, h2.trans hb.2⟩
    · exact ⟨le_refl _, le_refl _⟩

theorem pg_CODELENS {out E : Nat} {tb : table_builder} {fuel : Nat} {flush : Int}
    {s : inflate_stream} {ret : Int} {o : outcome} (hm : s.mode = .CODELENS)
    (hz : ∀ s4 r, case_CODELENS tb 0 Z_TREES out s ret = some (.leave s4 r) →
      fast_ready out E s4)
    (hc : case_CODELENS tb fuel flush out s ret = some o) : down s o := by
  obtain ⟨b1, b2⟩ := codelens_loop_below (s.nlen + s.ndist - s.have_) s
  obtain ⟨-, b3⟩ := codelens_loop_out (s.nlen + s.ndist - s.have_) s
  unfold case_CODELENS at hc hz
  rcases hcl : codelens_loop (s.nlen + s.ndist - s.have_) s with ⟨s1, e⟩
  rw [hcl] at b1 b2 b3 hc hz
  have b1 : s1.bits + 8 * s1.next_in.length ≤ s.bits + 8 * s.next_in.length := b1
  have b2 : s1.next_in.length ≤ s.next_in.length := b2
  have b3 : s1.avail_out = s.avail_out := b3
  have hbad : ∀ (t : inflate_stream) (r : Int), t.bits = s1.bits → t.next_in = s1.next_in →
      t.avail_out = s1.avail_out → t.mode = .BAD → down s (.cont t r) := by
    intro t r t1 t2 t3 t4
    refine down_mode _ (by rw [t1, t2]; exact b1) (by rw [t2]; exact b2)
      (by rw [t3, b3]) ?_ (Or.inl ?_)
    · rw [t4, hm]; decide
    · rw [t4, hm]; decide
  cases e
  case leave =>
    cases hc
    exact down_leave _ b1 b2 (le_of_eq b3)
  all_goals
    dsimp only at hc hz
    split_ifs at hc with h1 h2 h3 h4 h5
    · cases hc; exact hbad _ _ rfl rfl rfl h1
    · cases hc; exact hbad _ _ rfl rfl rfl rfl
    · cases hc; exact hbad _ _ rfl rfl rfl rfl
    · cases hc; exact hbad _ _ rfl rfl rfl rfl
    · cases hc; exact down_leave _ b1 b2 (le_of_eq b3)
    · rw [if_neg h1, if_neg h2, if_neg h3, if_neg h4, if_pos rfl] at hz
      refine down_of (pg_LEN (hz _ _ rfl) (Or.inl rfl) hc) b1 b2 b3 ?_ ?_
      · show Mode.phase .LEN_ ≤ s.mode.phase
        rw [hm]; decide
      · show s.mode.rank ≤ Mode.rank .LEN_
        rw [hm]; decide

theorem lenlens_zero_below (k : Nat) (s : inflate_stream) :
    (lenlens_zero k s).bits = s.bits ∧ (lenlens_zero k s).next_in = s.next_in ∧
    (lenlens_zero k s).avail_out = s.avail_out := by
  obtain ⟨-, -, z3, -, z5, -⟩ := lenlens_zero_frame k s
  exact ⟨z5, z3, (lenlens_zero_out k s).2⟩

theorem pg_LENLENS {out E : Nat} {tb : table_builder} {fuel : Nat} {flush : Int}
    {s : inflate_stream} {ret : Int} {o : outcome} (hm : s.mode = .LENLENS)
    (hz : ∀ s4 r, case_LENLENS tb 0 Z_TREES out s ret = some (.leave s4 r) →
      fast_ready out E s4)
    (hc : case_LENLENS tb fuel flush out s ret = some o) : down s o := by
  obtain ⟨b1, b2⟩ := lenlens_read_below (s.ncode - s.have_) s
  obtain ⟨-, b3⟩ := lenlens_read_out (s.ncode - s.have_) s
  unfold case_LENLENS at hc hz
  rcases hr : lenlens_read (s.ncode - s.have_) s with ⟨s1, b⟩
  rw [hr] at b1 b2 b3 hc hz
  have b1 : s1.bits + 8 * s1.next_in.length ≤ s.bits + 8 * s.next_in.length := b1
  have b2 : s1.next_in.length ≤ s.next_in.length := b2
  have b3 : s1.avail_out = s.avail_out := b3
  obtain ⟨z1, z2, z3⟩ := lenlens_zero_below (19 - s1.have_) s1
  cases b
  · cases hc
    exact down_leave _ b1 b2 (le_of_eq b3)
  · dsimp only at hc hz
    split_ifs at hc with h1
    · cases hc
      refine down_mode _ ?_ ?_ ?_ ?_ (Or.inl ?_)
      · show (lenlens_zero (19 - s1.have_) s1).bits +
          8 * (lenlens_zero (19 - s1.have_) s1).next_in.length ≤ _
        rw [z1, z2]
        exact b1
      · show (lenlens_zero (19 - s1.have_) s1).next_in.length ≤ _
        rw [z2]
        exact b2
      · show (lenlens_zero (19 - s1.have_) s1).avail_out ≤ _
        rw [z3, b3]
      · show Mode.phase .BAD < s.mode.phase
        rw [hm]; decide
      · show s.mode.rank < Mode.rank .BAD
        rw [hm]; decide
    · rw [if_neg h1] at hz
      refine down_of (pg_CODELENS rfl hz hc) ?_ ?_ ?_ ?_ ?_
      · show (lenlens_zero (19 - s1.have_) s1).bits +
          8 * (lenlens_zero (19 - s1.have_) s1).next_in.length ≤
          s.bits + 8 * s.next_in.length
        rw [z1, z2]
        exact b1
      · show (lenlens_zero (19 - s1.have_) s1).next_in.length ≤ _
        rw [z2]
        exact b2
      · show (lenlens_zero (19 - s1.have_) s1).avail_out = _
        rw [z3, b3]
      · show Mode.phase .CODELENS ≤ s.mode.phase
        rw [hm]; decide
      · show s.mode.rank ≤ Mode.rank .CODELENS
        rw [hm]; decide

theorem pg_TABLE {out E : Nat} {tb : table_builder} {fuel : Nat} {flush : Int}
    {s : inflate_stream} {ret : Int} {o : outcome} (hm : s.mode = .TABLE)
    (hz : ∀ s4 r, case_TABLE tb 0 Z_TREES out s ret = some (.leave s4 r) →
      fast_ready out E s4)
    (hc : case_TABLE tb fuel flush out s ret = some o) : down s o := by
  obtain ⟨n1, n2⟩ := NEEDBITS_below 14 s
  have hb : (NEEDBITS 14 s).bits - 5 - 5 - 4 + 8 * (NEEDBITS 14 s).next_in.length ≤
      s.bits + 8 * s.next_in.length := by omega
  unfold case_TABLE at hc hz
  dsimp only at hc hz
  split_ifs at hc with h1 h2
  · cases hc
    exact down_leave _ (le_of_eq n1) n2 (le_refl _)
  · cases hc
    refine down_mode _ hb n2 (le_refl _) ?_ (Or.inl ?_)
    · show Mode.phase .BAD < s.mode.phase
      rw [hm]; decide
    · show s.mode.rank < Mode.rank .BAD
      rw [hm]; decide
  · rw [if_neg h1, if_neg h2] at hz
    refine down_of (pg_LENLENS rfl hz hc) hb n2 rfl ?_ ?_
    · show Mode.phase .LENLENS ≤ s.mode.phase
      rw [hm]; decide
    · show s.mode.rank ≤ Mode.rank .LENLENS
      rw [hm]; decide

/-- Every pass of the loop of `write` gives back no input and no room, and a pass that ends
by `break` has consumed a bit, written a byte or moved down in the phases. -/
theorem pg_step {out E : Nat} {tb : table_builder} {fuel : Nat} {flush : Int}
    {s : inflate_stream} {ret : Int} {o : outcome} (htb : wf_builder tb)
    (hr : fast_ready out E s) (hs : step tb fuel flush out s ret = some o) : down s o := by
  have hz : ∀ s4 r, step tb 0 Z_TREES out s ret = some (.leave s4 r) → fast_ready out E s4 :=
    fun s4 r e => fast_ready_step htb hr e
  have hI := hr.1
  unfold step at hs hz
  cases hm : s.mode <;> rw [hm] at hs hz <;> dsimp only at hs hz
  case HEAD =>
    cases hs
    refine down_mode _ (le_refl _) (le_refl _) (le_refl _) ?_ (Or.inl ?_)
    · show Mode.phase .TYPEDO < s.mode.phase
      rw [hm]; decide
    · show s.mode.rank < Mode.rank .TYPEDO
      rw [hm]; decide
  case TYPE => cases hs; exact pg_TYPE flush s ret hm
  case TYPEDO => cases hs; exact pg_TYPEDO flush s ret (Or.inr hm)
  case STORED => cases hs; exact pg_STORED flush s ret hm
  case COPY_ => cases hs; exact pg_COPY s ret (Or.inl hm)
  case COPY => cases hs; exact pg_COPY s ret (Or.inr hm)
  case TABLE => exact pg_TABLE hm hz hs
  case LENLENS => exact pg_LENLENS hm hz hs
  case CODELENS => exact pg_CODELENS hm hz hs
  case LEN_ => exact pg_LEN hr (Or.inl hm) hs
  case LEN => exact pg_LEN hr (Or.inr hm) hs
  case LENEXT =>
    cases hs
    have := (me_LENEXT hI.regs hm).2.1
    exact pg_LENEXT out s ret hm (by omega)
  case DIST =>
    cases hs
    have := (me_DIST hI.regs hm).2.1
    exact pg_DIST out s ret hm (by omega)
  case DISTEXT =>
    cases hs
    have := (me_DISTEXT hI.regs hm).2.1.1
    exact pg_DISTEXT out s ret hm (by omega)
  case MATCH =>
    cases hs
    exact pg_MATCH out s ret hm (me_MATCH hI.regs hm).2.1.1
  case LIT => cases hs; exact pg_LIT s ret
  case CHECK => cases hs; exact down_leave _ (le_refl _) (le_refl _) (le_refl _)
  case DONE => cases hs; exact down_leave _ (le_refl _) (le_refl _) (le_refl _)
  case BAD => cases hs; exact down_leave _ (le_refl _) (le_refl _) (le_refl _)
  case MEM => cases hs; exact ⟨le_refl _, le_refl _, le_refl _, fun h => by cases h⟩
  case SYNC => cases hs; exact ⟨le_refl _, le_refl _, le_refl _, fun h => by cases h⟩

theorem tot_LEN {fuel out E : Nat} {s : inflate_stream} (ret : Int)
    (hr : fast_ready out E s) (hm : s.mode = .LEN_ ∨ s.mode = .LEN)
    (hf : s.avail_out + 2 ≤ fuel) : ∃ o, case_LEN fuel out s ret = some o := by
  obtain ⟨h, ha, hw, h15⟩ := hr
  have hI := Inv_LEN_of h hm
  unfold case_LEN
  dsimp only
  split_ifs with h1
  · have hctx : fast_ctx out E ({ s with mode := .LEN } : inflate_stream).win
        { s with mode := .LEN } := ⟨hI, rfl, acct_of_eq ha rfl rfl, wctx_win hw h15⟩
    obtain ⟨s1, e⟩ := fast_total no_tables [] out E _ _ hctx h1.1 h1.2
    have e2 := inflate_fast_fuel e (fuel - (s.avail_out + 2))
    have e3 : ({ s with mode := .LEN } : inflate_stream).avail_out + 2 +
        (fuel - (s.avail_out + 2)) = fuel := by
      show s.avail_out + 2 + (fuel - (s.avail_out + 2)) = fuel
      omega
    rw [e3] at e2
    rw [e2]
    exact ⟨_, rfl⟩
  · exact ⟨_, rfl⟩

theorem tot_CODELENS {out E : Nat} {tb : table_builder} {fuel : Nat} (flush : Int)
    {s : inflate_stream} {ret : Int}
    (hz : ∀ s4 r, case_CODELENS tb 0 Z_TREES out s ret = some (.leave s4 r) →
      fast_ready out E s4)
    (hf : s.avail_out + 2 ≤ fuel) : ∃ o, case_CODELENS tb fuel flush out s ret = some o := by
  obtain ⟨-, b3⟩ := codelens_loop_out (s.nlen + s.ndist - s.have_) s
  unfold case_CODELENS at hz ⊢
  rcases hcl : codelens_loop (s.nlen + s.ndist - s.have_) s with ⟨s1, e⟩
  rw [hcl] at b3 hz
  have b3 : s1.avail_out = s.avail_out := b3
  cases e
  case leave => exact ⟨_, rfl⟩
  all_goals
    dsimp only at hz ⊢
    split_ifs with h1 h2 h3 h4 h5
    · exact ⟨_, rfl⟩
    · exact ⟨_, rfl⟩
    · exact ⟨_, rfl⟩
    · exact ⟨_, rfl⟩
    · exact ⟨_, rfl⟩
    · rw [if_neg h1, if_neg h2, if_neg h3, if_neg h4, if_pos rfl] at hz
      exact tot_LEN _ (hz _ _ rfl) (Or.inl rfl) (by show s1.avail_out + 2 ≤ fuel; omega)

theorem tot_LENLENS {out E : Nat} {tb : table_builder} {fuel : Nat} (flush : Int)
    {s : inflate_stream} {ret : Int}
    (hz : ∀ s4 r, case_LENLENS tb 0 Z_TREES out s ret = some (.leave s4 r) →
      fast_ready out E s4)
    (hf : s.avail_out + 2 ≤ fuel) : ∃ o, case_LENLENS tb fuel flush out s ret = some o := by
  obtain ⟨-, b3⟩ := lenlens_read_out (s.ncode - s.have_) s
  unfold case_LENLENS at hz ⊢
  rcases hr : lenlens_read (s.ncode - s.have_) s with ⟨s1, b⟩
  rw [hr] at b3 hz
  have b3 : s1.avail_out = s.avail_out := b3
  obtain ⟨-, -, z3⟩ := lenlens_zero_below (19 - s1.have_) s1
  cases b
  · exact ⟨_, rfl⟩
  · dsimp only at hz ⊢
    split_ifs with h1
    · exact ⟨_, rfl⟩
    · rw [if_neg h1] at hz
      refine tot_CODELENS flush hz ?_
      show (lenlens_zero (19 - s1.have_) s1).avail_out + 2 ≤ fuel
      omega

theorem tot_TABLE {out E : Nat} {tb : table_builder} {fuel : Nat} (flush : Int)
    {s : inflate_stream} {ret : Int}
    (hz : ∀ s4 r, case_TABLE tb 0 Z_TREES out s ret = some (.leave s4 r) →
      fast_ready out E s4)
    (hf : s.avail_out + 2 ≤ fuel) : ∃ o, case_TABLE tb fuel flush out s ret = some o := by
  unfold case_TABLE at hz ⊢
  dsimp only at hz ⊢
  split_ifs with h1 h2
  · exact ⟨_, rfl⟩
  · exact ⟨_, rfl⟩
  · rw [if_neg h1, if_neg h2] at hz
    exact tot_LENLENS flush hz hf

/-- A pass of the loop of `write` returns, when the fuel covers the passes of the fast
decoder: `avail_out + 2` units are enough. -/
theorem tot_step {out E : Nat} {tb : table_builder} {fuel : Nat} (flush : Int)
    {s : inflate_stream} (ret : Int) (htb : wf_builder tb)
    (hr : fast_ready out E s) (hf : s.avail_out + 2 ≤ fuel) :
    ∃ o, step tb fuel flush out s ret = some o := by
  have hz : ∀ s4 r, step tb 0 Z_TREES out s ret = some (.leave s4 r) → fast_ready out E s4 :=
    fun s4 r e => fast_ready_step htb hr e
  unfold step at hz ⊢
  cases hm : s.mode <;> rw [hm] at hz <;> dsimp only at hz ⊢
  case TABLE => exact tot_TABLE flush hz hf
  case LENLENS => exact tot_LENLENS flush hz hf
  case CODELENS => exact tot_CODELENS flush hz hf
  case LEN_ => exact tot_LEN ret hr (Or.inl hm) hf
  case LEN => exact tot_LEN ret hr (Or.inr hm) hf
  all_goals exact ⟨_, rfl⟩

theorem phase_le (m : Mode) : m.phase ≤ 19 := by
  cases m <;> decide

/-- A pass that ends by `break` decreases the measure. -/
theorem down_measure {s : inflate_stream} {s1 : inflate_stream} {r1 : Int}
    (h : down s (.cont s1 r1)) : s1.measure < s.measure := by
  obtain ⟨a, -, c, d⟩ := h
  obtain ⟨d1, -⟩ := d rfl
  have a : s1.slen ≤ s.slen := a
  have c : s1.avail_out ≤ s.avail_out := c
  have d1 : s1.slen < s.slen ∨ s1.avail_out < s.avail_out ∨ s1.mode.phase < s.mode.phase := d1
  have := phase_le s1.mode
  unfold inflate_stream.measure
  rcases d1 with d1 | d1 | d1 <;> omega

/-- The loop of `write` returns: `measure + 3` units of fuel are enough. -/
theorem run_total {out E : Nat} {tb : table_builder} (alloc : allocator) (flush : Int)
    (in_ : Nat) (htb : wf_builder tb) :
    ∀ (n : Nat) (s : inflate_stream) (ret : Int), fast_ready out E s → s.measure ≤ n →
      ∀ fuel, n + 3 ≤ fuel → ∃ p, run tb alloc flush in_ out fuel s ret = some p := by
  intro n
  induction n with
  | zero =>
    intro s ret hr hn fuel hf
    obtain ⟨f, rfl⟩ : ∃ f, fuel = f + 1 := ⟨fuel - 1, by omega⟩
    have hao : s.avail_out + 2 ≤ f + 1 := by
      unfold inflate_stream.measure at hn
      omega
    obtain ⟨o, ho⟩ := tot_step flush ret htb hr hao
    unfold run
    rw [ho]
    cases o with
    | cont s1 r1 =>
      have := down_measure (pg_step htb hr ho)
      omega
    | leave s1 r1 => exact ⟨_, rfl⟩
    | done s1 r1 => exact ⟨_, rfl⟩
  | succ k ih =>
    intro s ret hr hn fuel hf
    obtain ⟨f, rfl⟩ : ∃ f, fuel = f + 1 := ⟨fuel - 1, by omega⟩
    have hao : s.avail_out + 2 ≤ f + 1 := by
      unfold inflate_stream.measure at hn
      omega
    obtain ⟨o, ho⟩ := tot_step flush ret htb hr hao
    unfold run
    rw [ho]
    cases o with
    | cont s1 r1 =>
      have hd := down_measure (pg_step htb hr ho)
      exact ih s1 r1 (fast_ready_step htb hr ho) (by omega) f (by omega)
    | leave s1 r1 => exact ⟨_, rfl⟩
    | done s1 r1 => exact ⟨_, rfl⟩

theorem fast_loop_some (s : inflate_stream) (inp : List Nat) (beg out0 last end_ : Nat)
    (hwl : wf_len s) (hwd : wf_dist s) :
    ∀ (n : Nat) (l : fast_locals), out0 ≤ l.out.length →
      end_ - (l.out.length - out0) ≤ n → ∀ fuel, n + 3 ≤ fuel →
      (fast_loop s inp beg out0 last end_ fuel l).isSome = true := by
  intro n
  induction n with
  | zero =>
    intro l h0 hn fuel hf
    obtain ⟨f, rfl⟩ : ∃ f, fuel = f + 2 + 1 := ⟨fuel - 3, by omega⟩
    unfold fast_loop
    dsimp only
    have hs : (fast_dolen s inp beg out0 (f + 2 + 1)
        (s.tab s.lencode ((l.refill inp).hold % 2 ^ s.lenbits)) (l.refill inp)).isSome = true :=
      fast_dolen_some s _ _ _ f hwl hwd _ (pow_mod_lt _ _)
    split
    · rename_i hd
      rw [hd] at hs; cases hs
    · rfl
    · rename_i l2 hd
      obtain ⟨W, a, b, c⟩ := fast_dolen_first s inp beg out0 hwl hwd (f + 2) _
        (pow_mod_lt _ _) _ _ hd
      rw [refill_out] at a
      have hl2 : l2.out.length = l.out.length + W.length := by rw [a, List.length_append]
      rw [if_neg (by omega)]
      rfl
  | succ n ih =>
    intro l h0 hn fuel hf
    obtain ⟨f, rfl⟩ : ∃ f, fuel = f + 2 + 1 := ⟨fuel - 3, by omega⟩
    unfold fast_loop
    dsimp only
    have hs : (fast_dolen s inp beg out0 (f + 2 + 1)
        (s.tab s.lencode ((l.refill inp).hold % 2 ^ s.lenbits)) (l.refill inp)).isSome = true :=
      fast_dolen_some s _ _ _ f hwl hwd _ (pow_mod_lt _ _)
    split
    · rename_i hd
      rw [hd] at hs; cases hs
    · rfl
    · rename_i l2 hd
      obtain ⟨W, a, b, c⟩ := fast_dolen_first s inp beg out0 hwl hwd (f + 2) _
        (pow_mod_lt _ _) _ _ hd
      rw [refill_out] at a
      have hl2 : l2.out.length = l.out.length + W.length := by rw [a, List.length_append]
      by_cases hcond : l2.cin < last ∧ l2.out.length - out0 < end_
      · rw [if_pos hcond]
        exact ih l2 (by omega) (by have := hcond.2; omega) (f + 2) (by omega)
      · rw [if_neg hcond]
        rfl

/-- The fast decoder returns on every stream whose tables are well formed: every pass of its
loop writes a byte, so that `end + 3` units of fuel are enough, `end` being the limit
`avail_out - 257` of the loop as the code computes it. -/
theorem fast_returns (s : inflate_stream) (start : Nat) (hwl : wf_len s) (hwd : wf_dist s) :
    ∃ s1, inflate_fast (usub s.avail_out 257 + 3) s start = some s1 := by
  have h := fast_loop_some s s.next_in (usub start s.avail_out) s.next_out.length
    (usub s.avail_in 5) (usub s.avail_out 257) hwl hwd (usub s.avail_out 257)
    ⟨0, s.next_out, s.hold, s.bits⟩ (le_refl _) (Nat.sub_le _ _) _ (le_refl _)
  unfold inflate_fast
  dsimp only
  rcases hl : fast_loop s s.next_in (usub start s.avail_out) s.next_out.length
    (usub s.avail_in 5) (usub s.avail_out 257) (usub s.avail_out 257 + 3)
    ⟨0, s.next_out, s.hold, s.bits⟩ with _ | r
  · rw [hl] at h; cases h
  · exact ⟨_, rfl⟩

theorem session_wbits (tb : table_builder) (alloc : allocator) (fuel : Nat) :
    ∀ (calls : List (buffers × Int)) (s : inflate_stream) (tr : List call_record),
      session tb alloc fuel s calls = some tr → (final_stream s tr).wbits = s.wbits := by
  intro calls
  induction calls with
  | nil =>
    intro s tr h
    simp only [session, Option.some.injEq] at h
    subst h
    rfl
  | cons c rest ih =>
    intro s tr h
    obtain ⟨b, flush⟩ := c
    unfold session at h
    cases hw : write tb alloc fuel (s.present b) flush with
    | none => rw [hw] at h; cases h
    | some p =>
      obtain ⟨r, s1⟩ := p
      rw [hw] at h
      dsimp only at h
      cases hs : session tb alloc fuel s1 rest with
      | none => rw [hs] at h; cases h
      | some tr1 =>
        rw [hs] at h
        cases h
        show (final_stream s1 tr1).wbits = s.wbits
        rw [ih s1 tr1 hs, write_wbits hw]
        rfl

theorem visits_ready {out E : Nat} {tb : table_builder} {flush : Int} {s : inflate_stream}
    {ret : Int} {v : inflate_stream} (htb : wf_builder tb)
    (hv : visits tb flush out s ret v) : fast_ready out E s → fast_ready out E v := by
  induction hv with
  | here s ret => exact fun h => h
  | next hs _ ih => exact fun h => ih (fast_ready_step htb h hs)

/-- The state with which a call of `write` enters its loop, on a stream that was reset and
then only passed to `write`, is ready for the fast decoder. -/
theorem session_fast_ready {tb : table_builder} (htb : wf_builder tb) {alloc : allocator}
    (halloc : ∀ n x, alloc n = some x → x.length = n) (fuel : Nat) {w : Nat}
    {t s0 : inflate_stream} {calls : List (buffers × Int)} {tr : List call_record}
    (hwin : ∀ x, t.window = some x → x.length = 2 ^ t.wbits)
    (hreset : reset w t = some s0) (hs : session tb alloc fuel s0 calls = some tr)
    (hb : ∀ c ∈ calls, bytes c.1.next_in ∧ c.1.avail_out < 4294967296)
    (b : buffers) (hbb : bytes b.next_in) (hbo : b.avail_out < 4294967296) :
    fast_ready b.avail_out b.next_out.length (entry ((final_stream s0 tr).present b)) := by
  have hr := session_ready htb halloc fuel calls s0 [] tr hs (reset_ready hreset hwin) hb
  have hbt := hr.1 b hbb
  obtain ⟨eo, en, ef, -, -⟩ := entry_out ((final_stream s0 tr).present b)
  have e1 : (entry ((final_stream s0 tr).present b)).wsize = (final_stream s0 tr).wsize :=
    congrArg fixed_part.wsize ef
  have e2 : (entry ((final_stream s0 tr).present b)).whave = (final_stream s0 tr).whave :=
    congrArg fixed_part.whave ef
  have e3 : (entry ((final_stream s0 tr).present b)).wnext = (final_stream s0 tr).wnext :=
    congrArg fixed_part.wnext ef
  have e4 : (entry ((final_stream s0 tr).present b)).window = (final_stream s0 tr).window :=
    congrArg fixed_part.window ef
  have e5 : (entry ((final_stream s0 tr).present b)).wbits = (final_stream s0 tr).wbits :=
    congrArg fixed_part.wbits ef
  refine ⟨Inv_entry hbt.inv, ⟨by rw [en]; exact le_refl _, ?_, hbo⟩, ?_, ?_⟩
  · rw [eo, en]
    show b.avail_out + (b.next_out.length - b.next_out.length) = b.avail_out
    omega
  · unfold win_shape
    rw [e1, e2, e3, e4, e5]
    rcases hbt.win with ⟨a, -, -⟩ | ⟨a, a2, -⟩
    · exact Or.inl a
    · exact Or.inr ⟨a, a2⟩
  · rw [e5, session_wbits tb alloc fuel calls s0 tr hs, (reset_fields hreset).2.2.2.2.2.2.2.2.2.2.2.2.2.1]
    exact (reset_fields hreset).2.2.2.2.2.2.2.2.2.2.2.2.2.2.2

theorem entry_measure (p : inflate_stream) : (entry p).measure ≤ p.measure := by
  unfold entry
  split_ifs with h
  · have hp : Mode.phase .TYPEDO ≤ p.mode.phase := by rw [h]; decide
    show 20 * (p.slen + p.avail_out) + Mode.phase .TYPEDO ≤
      20 * (p.slen + p.avail_out) + p.mode.phase
    omega
  · exact le_refl _

/-- C32 (amended): on a stream that was reset and then only passed to `write`, whatever the
input, the buffers and the flush value, the next call of `write` returns: `measure + 3` units
of fuel are enough, where `measure = 20 * (unread bits + avail_out) + phase of the mode`.
Every pass of the loop returns (with `avail_out + 2` units of fuel for the fast decoder); it
gives back no input and no room; and a pass that ends by `break` has a smaller measure and
has decreased `avail_in` or `avail_out`, or moved to a later mode, or ended the block by
moving to `TYPE`.  The fast decoder returns on every stream whose literal/length and distance
tables are well formed. -/
theorem write_terminates (tb : table_builder) (alloc : allocator) (fuel : Nat) (w : Nat)
    (t s0 : inflate_stream) (calls : List (buffers × Int)) (tr : List call_record)
    (b : buffers) (flush : Int)
    (htb : wf_builder tb) (halloc : ∀ n x, alloc n = some x → x.length = n)
    (hwin : ∀ x, t.window = some x → x.length = 2 ^ t.wbits)
    (hreset : reset w t = some s0)
    (hs : session tb alloc fuel s0 calls = some tr)
    (hb : ∀ c ∈ calls, bytes c.1.next_in ∧ c.1.avail_out < 4294967296)
    (hbb : bytes b.next_in) (hbo : b.avail_out < 4294967296) :
    (∀ f, ((final_stream s0 tr).present b).measure + 3 ≤ f →
      ∃ r s2, write tb alloc f ((final_stream s0 tr).present b) flush = some (r, s2)) ∧
    (∀ v, visits tb flush b.avail_out (entry ((final_stream s0 tr).present b)) Z_OK v →
      ∀ ret, (∃ o, step tb (v.avail_out + 2) flush b.avail_out v ret = some o) ∧
        ∀ f o, step tb f flush b.avail_out v ret = some o →
          o.st.avail_in ≤ v.avail_in ∧ o.st.avail_out ≤ v.avail_out ∧
          (o.is_cont = true →
            o.st.measure < v.measure ∧
            (o.st.avail_in < v.avail_in ∨ o.st.avail_out < v.avail_out ∨
              v.mode.rank < o.st.mode.rank ∨ o.st.mode = .TYPE))) ∧
    (∀ (s : inflate_stream) (start : Nat), wf_len s → wf_dist s →
      ∃ s1, inflate_fast (usub s.avail_out 257 + 3) s start = some s1) := by
  have hr := session_fast_ready htb halloc fuel hwin hreset hs hb b hbb hbo
  refine ⟨fun f hf => ?_, fun v hv ret => ?_, fun s start hwl hwd => fast_returns s start hwl hwd⟩
  · by_cases c : ((final_stream s0 tr).present b).out_null = true ∨
        (((final_stream s0 tr).present b).in_null = true ∧
          ((final_stream s0 tr).present b).avail_in ≠ 0)
    · exact ⟨_, _, write_bad_args c⟩
    · rw [write_run c]
      have hm := entry_measure ((final_stream s0 tr).present b)
      obtain ⟨p, hp⟩ := run_total alloc flush ((final_stream s0 tr).present b).avail_in htb
        (entry ((final_stream s0 tr).present b)).measure _ Z_OK hr (le_refl _) f (by omega)
      exact ⟨p.1, p.2, hp⟩
  · have hrv := visits_ready htb hv hr
    refine ⟨tot_step flush ret htb hrv (le_refl _), fun f o ho => ?_⟩
    have hd := pg_step htb hrv ho
    refine ⟨hd.2.1, hd.2.2.1, fun hc => ?_⟩
    cases o with
    | cont s1 r1 => exact ⟨down_measure hd, (hd.2.2.2 hc).2⟩
    | leave s1 r1 => cases hc
    | done s1 r1 => cases hc

/-- Witness for `write_terminates`: the first call on a fresh stream, given a stored block,
returns with 1342 units of fuel. -/
theorem write_terminates_witness :
    ∃ r s2, write no_tables zero_alloc 1342 ((fresh 15).present stored_one) Z_NO_FLUSH =
      some (r, s2) :=
  (write_terminates no_tables zero_alloc 20 15 zero_stream (fresh 15) [] [] stored_one
    Z_NO_FLUSH wf_no_tables (by intro n x h; cases h; simp) (by intro x h; cases h) rfl rfl
    (by intro c hc; cases hc) (by decide) (by decide)).1 1342 (by decide)

set_option maxRecDepth 100000 in
/-- Counterexample to C32 as stated: in the first call on a fresh stream, given a stored
block of one byte, the fourth pass of the loop begins in `COPY` with `length = 0` (the byte
was copied by the pass before) and ends by `break` in the mode `TYPE`: `avail_in`,
`avail_out`, `length` and the counts `have`, `nlen`, `ndist` are unchanged, and `TYPE` comes
before `COPY` in the order of the modes. -/
theorem block_end_pass :
    (nth_pass no_tables 20 Z_NO_FLUSH 10 3 (entry ((fresh 15).present stored_one)) Z_OK).map
        (fun v => (v.mode, v.length, v.avail_in, v.avail_out)) = some (.COPY, 0, 1, 9) ∧
    (nth_pass no_tables 20 Z_NO_FLUSH 10 3 (entry ((fresh 15).present stored_one)) Z_OK).map
        (fun v => (v.have_, v.nlen, v.ndist)) = some (0, 0, 0) ∧
    ((nth_pass no_tables 20 Z_NO_FLUSH 10 3 (entry ((fresh 15).present stored_one)) Z_OK).bind
        (fun v => step no_tables 20 Z_NO_FLUSH 10 v Z_OK)).map
        (fun o => (o.is_cont, o.st.mode, o.st.length, o.st.avail_in, o.st.avail_out)) =
      some (true, .TYPE, 0, 1, 9) ∧
    ((nth_pass no_tables 20 Z_NO_FLUSH 10 3 (entry ((fresh 15).present stored_one)) Z_OK).bind
        (fun v => step no_tables 20 Z_NO_FLUSH 10 v Z_OK)).map
        (fun o => (o.st.have_, o.st.nlen, o.st.ndist)) = some (0, 0, 0) ∧
    Mode.rank .TYPE < Mode.rank .COPY := by
  decide!

end Beast
